import Mathlib

/-!
# Control-flow graph pass of the KPHP compiler (`compiler/pipes/cfg.cpp`)

A shallow embedding of the per-function control-flow and dataflow pass:
the CFG builder (`create_cfg`, `create_condition_cfg`, `create_full_cfg`),
the variable partitioner (`dfs`, `process_var`), the uninitialised-use search
(`search_uninited`), the dead-code collector (`calc_used`, `confirm_usage`,
`collect_unused`) and the variable splitting of `CFGData`.

Stateful C++ code is written in a state-and-error monad `M` over the record
`CFG`, which holds the members of `class CFG` together with the `CFGData` it
points to.  Recursion over the syntax tree and over the graph is driven by a
fuel argument; running out of fuel is reported as `Err.out_of_fuel`, kept apart
from a failed `kphp_assert` (`Err.assert_failed`).
-/

set_option linter.unusedVariables false

namespace kphp

/-! ## Syntax tree -/

/-- The operation kinds that `cfg.cpp` names, followed by a few ordinary kinds
(`op_int_const`, `op_string`, `op_echo`, `op_add`, `op_concat`, `op_other`) that take
the default rule of `create_cfg`. -/
inductive Operation where
  | op_min | op_max | op_array | op_tuple | op_seq_comma | op_seq_rval | op_seq
  | op_log_not
  | op_neq3 | op_eq3 | op_eq2 | op_neq2
  | op_index
  | op_log_and | op_log_or
  | op_func_call | op_constructor_call
  | op_return
  | op_set
  | op_set_add | op_set_sub | op_set_mul | op_set_div | op_set_mod | op_set_pow
  | op_set_and | op_set_or | op_set_xor | op_set_dot | op_set_shr | op_set_shl
  | op_list
  | op_var
  | op_if
  | op_ternary
  | op_break
  | op_continue
  | op_for
  | op_do
  | op_while
  | op_foreach
  | op_switch
  | op_throw
  | op_try
  | op_conv_int | op_conv_int_l | op_conv_float | op_conv_string | op_conv_array
  | op_conv_array_l | op_conv_object | op_conv_var | op_conv_uint | op_conv_long
  | op_conv_ulong | op_conv_regexp | op_conv_bool
  | op_function
  | op_false | op_null | op_case | op_default | op_func_param | op_func_param_list
  | op_foreach_param | op_empty
  | op_int_const | op_string | op_echo | op_add | op_concat | op_other
  deriving DecidableEq, Repr

/-- Modelled from the spec: `VertexData::extra_type` is declared outside the sources;
only the two values that `CFGData::uninited` tests are told apart. -/
inductive ExtraType where
  | op_ex_none | op_ex_var_superlocal | op_ex_var_this
  deriving DecidableEq, Repr

/-- A variable of the function (`VarPtr`): its address in the variable table. -/
abbrev VarPtr := Nat

/-- Modelled from the spec: the part of the callee's `FunctionData` that the builder
reads at a call: for each parameter whether it is an `op_func_param` and, if so, the
`ref_flag` of its variable, and the `can_throw` flag. -/
structure FuncInfo where
  params : List (Option Bool)
  can_throw : Bool
  deriving DecidableEq, Repr

/-- Modelled from the spec: the attributes of a vertex other than its kind and sons
(`get_var_id`, `ref_flag`, `get_string`, `get_func_id`, `extra_type`); the vertex
classes are declared outside the sources. -/
structure VertexExtra where
  var_id : Option VarPtr := none
  ref_flag : Bool := false
  str_val : String := ""
  func_id : Option FuncInfo := none
  extra_type : ExtraType := ExtraType.op_ex_none
  deriving DecidableEq, Repr

/-- Modelled from the spec: a syntax-tree vertex (`VertexPtr`).  `id` is the identity
of the vertex (two vertices are the same object exactly when their ids agree), `type`
its operation kind and `sons` its ordered children. -/
inductive Vertex where
  | mk (id : Nat) (type : Operation) (extra : VertexExtra) (sons : List Vertex)
  deriving Repr

namespace Vertex

/-- Identity of the vertex. -/
def id : Vertex → Nat
  | mk i _ _ _ => i

/-- Operation kind, `tree_node->type()`. -/
def type : Vertex → Operation
  | mk _ t _ _ => t

/-- The attributes of the vertex. -/
def extra : Vertex → VertexExtra
  | mk _ _ e _ => e

/-- The children, the range `*tree_node`. -/
def sons : Vertex → List Vertex
  | mk _ _ _ s => s

/-- The `ref_flag` of the vertex. -/
def ref_flag (v : Vertex) : Bool := v.extra.ref_flag

/-- The string of the vertex, `get_string()`. -/
def get_string (v : Vertex) : String := v.extra.str_val

/-- The callee of a call vertex, `get_func_id()`. -/
def get_func_id (v : Vertex) : Option FuncInfo := v.extra.func_id

end Vertex

instance : Inhabited Vertex := ⟨Vertex.mk 0 Operation.op_empty {} []⟩

mutual
/-- Number of vertices of a tree. -/
def Vertex.size : Vertex → Nat
  | Vertex.mk _ _ _ s => 1 + Vertex.size_list s
/-- Number of vertices of a list of trees. -/
def Vertex.size_list : List Vertex → Nat
  | [] => 0
  | v :: vs => Vertex.size v + Vertex.size_list vs
end

mutual
/-- The vertices of a tree in the order of `register_vertices` (a vertex before its
children, children left to right). -/
def Vertex.subtree : Vertex → List Vertex
  | Vertex.mk i t e s => Vertex.mk i t e s :: Vertex.subtree_list s
/-- The vertices of a list of trees. -/
def Vertex.subtree_list : List Vertex → List Vertex
  | [] => []
  | v :: vs => Vertex.subtree v ++ Vertex.subtree_list vs
end

/-! ## Graph data -/

/-- A graph node (`Node`): `none` is the null node, `some i` the node with id `i`. -/
abbrev Node := Option Nat

/-- A usage (`UsagePtr`): `none` is the null pointer, `some a` the usage stored at
address `a` of the usage store. -/
abbrev UsagePtr := Option Nat

/-- The two usage kinds. -/
inductive UsageType where
  | usage_write_t | usage_read_t
  deriving DecidableEq, Repr

/-- One occurrence of a variable (`UsageData`). -/
structure UsageData where
  id : Int := -1
  part_id : Int := -1
  type : UsageType
  weak_write_flag : Bool := false
  v : Vertex
  node : Node := none
  deriving Repr

/-- A subtree marker (`SubTreeData`). -/
structure SubTreeData where
  v : Vertex
  recursive_flag : Bool
  deriving Repr

/-- Confirmation state of a vertex (`VertexUsage`). -/
structure VertexUsage where
  used : Bool := false
  used_rec : Bool := false
  deriving DecidableEq, Repr

/-- Modelled from the spec: the split state of one variable (`VarSplitData`).
`IdGen` and `IdMap` are declared outside the sources: `usage_gen` is the list of the
usages created for the variable, oldest first, and `parent` the union-find parent
map over usage addresses. -/
structure VarSplitData where
  usage_gen : List Nat := []
  parent : Nat → Nat := fun a => a

/-- Kinds of variables (`VarData::Type`). -/
inductive VarType where
  | var_unknown_t | var_local_t | var_local_inplace_t | var_param_t | var_other_t
  deriving DecidableEq, Repr

/-- Modelled from the spec: the fields of `VarData` that the pass reads or writes. -/
structure VarData where
  name : String
  type : VarType
  param_i : Int := -1
  uninited_flag : Bool := false
  tinf : String := ""
  deriving DecidableEq, Repr

/-- The members of `CFGData` together with the parts of the function record and of
the global variable table that it reads and writes.  `vars` is the variable table
(`G->create_var` appends to it, a `VarPtr` is an index into it); `rebound` records
the calls of `set_var_id`: the variable now bound to the vertex with the given id;
`func_local` says that the function has type `func_local`; `unused` records the
vertices whose slots `unused_vertices` has replaced by `op_empty`. -/
structure CFGData where
  uninited_vars : List Vertex := []
  todo_var : List VarPtr := []
  todo_parts : List (List (List Vertex)) := []
  root : Vertex := default
  param_ids : List VarPtr := []
  local_var_ids : List VarPtr := []
  vars : List VarData := []
  rebound : Nat → Option VarPtr := fun _ => none
  func_local : Bool := true
  unused : List Vertex := []

/-- The variable bound to a vertex, `v->get_var_id()`. -/
def CFGData.get_var_id (d : CFGData) (v : Vertex) : Option VarPtr :=
  match d.rebound v.id with
  | some x => some x
  | none => v.extra.var_id

/-- The members of `class CFG`.  The maps indexed by node (`IdMap`) are functions of
the node id, `node_gen` is the number of nodes created so far; `usage_data` with
`usage_cnt` is the store of the `UsageData` objects; `vertex_usage` is indexed by the
identity of the vertex; `var_split_data` is indexed by the variable and is `none`
both for a variable without index and for a null entry. -/
structure CFG where
  data : CFGData := {}
  node_gen : Nat := 0
  node_next : Nat → List Nat := fun _ => []
  node_prev : Nat → List Nat := fun _ => []
  node_usages : Nat → List Nat := fun _ => []
  node_subtrees : Nat → List SubTreeData := fun _ => []
  vertex_usage : Nat → VertexUsage := fun _ => {}
  cur_dfs_mark : Nat := 0
  current_start : Node := none
  node_was : Nat → Nat := fun _ => 0
  node_mark : Nat → UsagePtr := fun _ => none
  var_split_data : VarPtr → Option VarSplitData := fun _ => none
  continue_nodes : List (List Node) := []
  break_nodes : List (List Node) := []
  exception_nodes : List (List Node) := []
  usage_cnt : Nat := 0
  usage_data : Nat → Option UsageData := fun _ => none

/-! ## The state-and-error monad -/

/-- Ways in which a run can stop without a result. -/
inductive Err where
  | out_of_fuel
  | assert_failed
  | bad_access
  deriving DecidableEq, Repr

/-- Computations over the `CFG` state that may fail. -/
def M (α : Type) : Type := CFG → Except Err (α × CFG)

instance : Monad M where
  pure a := fun s => Except.ok (a, s)
  bind m f := fun s =>
    match m s with
    | Except.ok (a, s') => f a s'
    | Except.error e => Except.error e

/-- The current state. -/
def get_state : M CFG := fun s => Except.ok (s, s)

/-- Replace the state. -/
def modify_state (f : CFG → CFG) : M Unit := fun s => Except.ok ((), f s)

/-- Stop with an error. -/
def fail {α : Type} (e : Err) : M α := fun _ => Except.error e

/-- Modelled from the spec: `kphp_assert` is declared outside the sources; a failed
assertion is a hard failure of the analysis of the current function. -/
def kphp_assert (b : Bool) : M Unit :=
  if b then pure () else fail Err.assert_failed

/-- Modelled from the spec: `kphp_fail` is declared outside the sources. -/
def kphp_fail {α : Type} : M α := fail Err.assert_failed

/-- Modelled from the spec: the accessors of the vertex classes, which are declared
outside the sources, read as positions in the list of sons; reading a son that is not
there is an error.  Unary `expr` 0; binary `lhs` 0, `rhs` 1; `op_index` `array` 0,
`key` 1 (optional); `op_return` `expr` 0 (optional); `op_list` `list` all sons but
the last, `array` the last; `op_if` `cond` 0, `true_cmd` 1, `false_cmd` 2 (optional);
`op_ternary` `cond` 0, `true_expr` 1, `false_expr` 2; `op_break`, `op_continue`
`level` 0; `op_for` `pre_cond` 0, `cond` 1, `post_cond` 2, `cmd` 3; `op_while`,
`op_do` `cond` 0, `cmd` 1; `op_foreach` `params` 0, `cmd` 1; `op_foreach_param` `xs` 0,
`x` 1, `temp_var` 2, `key` 3 (optional); `op_switch` `expr` 0, `variables` 1 to 4,
`cases` from 5 on; `op_case` `expr` 0, `cmd` 1; `op_default` `cmd` 0; `op_throw`
`exception` 0; `op_try` `try_cmd` 0, `exception` 1, `catch_cmd` 2; `op_function`
`params` 0, `cmd` 1; `op_func_param` `var` 0; calls `args` all sons. -/
def son (v : Vertex) (i : Nat) : M Vertex :=
  match v.sons.get? i with
  | some x => pure x
  | none => fail Err.bad_access

/-- Point update of a map indexed by ids. -/
def upd {α : Type} (f : Nat → α) (a : Nat) (v : α) : Nat → α :=
  fun b => if b = a then v else f b

/-- Read the node id of a node that the code dereferences. -/
def node_id (node : Node) : M Nat :=
  match node with
  | some n => pure n
  | none => fail Err.bad_access

/-- Read the `UsageData` that a usage pointer points to. -/
def usage_at (a : Nat) : M UsageData := fun s =>
  match s.usage_data a with
  | some u => Except.ok (u, s)
  | none => Except.error Err.bad_access

/-! ## Union-find -/

/-- Modelled from the spec: `dsu_get` of `compiler/utils/dsu.h`, which is not among
the sources: the representative of the set of `i`.  The parent map is kept fully
compressed, so every entry is its own representative. -/
def dsu_get (parent : Nat → Nat) (i : Nat) : Nat := parent i

/-- Modelled from the spec: `dsu_uni` of `compiler/utils/dsu.h`: union of the sets of
`i` and `j`; every member of the set of `i` gets the representative of `j`. -/
def dsu_uni (parent : Nat → Nat) (i j : Nat) : Nat → Nat :=
  if dsu_get parent i = dsu_get parent j then parent
  else fun k => if parent k = dsu_get parent i then dsu_get parent j else parent k

/-! ## Nodes, usages, markers, edges -/

/-- The split state of a variable, `get_var_split(var, false)`. -/
def get_var_split (s : CFG) (var : VarPtr) : Option VarSplitData := s.var_split_data var

/-- Create a node, `CFG::new_node`.  The id maps grow by one default entry. -/
def new_node : M Node := fun s =>
  let n := s.node_gen
  Except.ok (some n,
    { s with
      node_gen := n + 1
      node_next := upd s.node_next n []
      node_prev := upd s.node_prev n []
      node_was := upd s.node_was n 0
      node_mark := upd s.node_mark n none
      node_usages := upd s.node_usages n []
      node_subtrees := upd s.node_subtrees n [] })

/-- Create a usage of the variable bound to `v`, `CFG::new_usage`. -/
def new_usage (type : UsageType) (v : Vertex) : M UsagePtr := fun s =>
  match s.data.get_var_id v with
  | none => Except.error Err.assert_failed
  | some var =>
    match get_var_split s var with
    | none => Except.ok (none, s)
    | some var_split =>
      let a := s.usage_cnt
      let u : UsageData := { id := (var_split.usage_gen.length : Int), type := type, v := v }
      Except.ok (some a,
        { s with
          usage_cnt := a + 1
          usage_data := upd s.usage_data a (some u)
          var_split_data := upd s.var_split_data var
            (some { usage_gen := var_split.usage_gen ++ [a], parent := upd var_split.parent a a }) })

/-- Attach a usage to a node, `CFG::add_usage`. -/
def add_usage (node : Node) (usage : UsagePtr) : M Unit :=
  match usage with
  | none => pure ()
  | some a => do
    let n ← node_id node
    let u ← usage_at a
    let s ← get_state
    (match (s.node_usages n).getLast? with
      | none => pure ()
      | some b => do
        let ub ← usage_at b
        kphp_assert (decide (ub.type = u.type)))
    modify_state fun s =>
      { s with
        node_usages := upd s.node_usages n (s.node_usages n ++ [a])
        usage_data := upd s.usage_data a (some { u with node := some n }) }

/-- A fresh marker, `CFG::new_subtree`. -/
def new_subtree (v : Vertex) (recursive_flag : Bool) : SubTreeData :=
  { v := v, recursive_flag := recursive_flag }

/-- Attach a marker to a node, `CFG::add_subtree`. -/
def add_subtree (node : Node) (subtree : SubTreeData) : M Unit :=
  match node with
  | none => fail Err.assert_failed
  | some n => modify_state fun s =>
      { s with node_subtrees := upd s.node_subtrees n (s.node_subtrees n ++ [subtree]) }

/-- Add an edge when both ends are non-null, `CFG::add_edge`. -/
def add_edge (src dst : Node) : M Unit :=
  match src, dst with
  | some a, some b => modify_state fun s =>
      { s with
        node_next := upd s.node_next a (s.node_next a ++ [b])
        node_prev := upd s.node_prev b (s.node_prev b ++ [a]) }
  | _, _ => pure ()

/-- The variable of a usage, `usage->v->get_var_id()`. -/
def usage_var (s : CFG) (a : Nat) : Option VarPtr :=
  match s.usage_data a with
  | some u => s.data.get_var_id u.v
  | none => none

/-- Union two usages when they are of the same variable, `CFG::try_uni_usages`. -/
def try_uni_usages (usage another_usage : Nat) : M Bool := do
  let u ← usage_at usage
  let au ← usage_at another_usage
  let s ← get_state
  let var := s.data.get_var_id u.v
  let another_var := s.data.get_var_id au.v
  if var = another_var then
    match var with
    | none => fail Err.assert_failed
    | some x =>
      match get_var_split s x with
      | none => fail Err.assert_failed
      | some var_split => do
        modify_state fun s =>
          { s with
            var_split_data := upd s.var_split_data x
              (some { var_split with parent := dsu_uni var_split.parent usage another_usage }) }
        pure true
  else
    pure false

/-- The comparison `cmp_by_var_id`, as the order that a stable sort by it uses. -/
def cmp_by_var_id (s : CFG) (a b : Nat) : Prop :=
  (usage_var s a).getD 0 ≤ (usage_var s b).getD 0

instance (s : CFG) : DecidableRel (cmp_by_var_id s) :=
  fun a b => inferInstanceAs (Decidable ((usage_var s a).getD 0 ≤ (usage_var s b).getD 0))

/-- The loop of `compress_usages` from index 1 on: `prev` is `usages[i - 1]`. -/
def compress_usages_loop : Nat → List Nat → List Nat → M (List Nat)
  | _, [], res => pure res
  | prev, u :: us, res => do
    let same ← try_uni_usages u prev
    if same then
      match res.getLast? with
      | none => fail Err.bad_access
      | some b => do
        let ub ← usage_at b
        let uu ← usage_at u
        modify_state fun s =>
          { s with
            usage_data := upd s.usage_data b
              (some { ub with weak_write_flag := ub.weak_write_flag || uu.weak_write_flag }) }
        compress_usages_loop u us res
    else
      compress_usages_loop u us (res ++ [u])

/-- Keep one usage per variable at a node, `CFG::compress_usages` applied to
`node_usages[node]`.  `std::sort` is taken to be the stable sort. -/
def compress_usages (node : Node) : M Unit := do
  let n ← node_id node
  let s ← get_state
  let usages := (s.node_usages n).insertionSort (cmp_by_var_id s)
  let res ← match usages with
    | [] => pure []
    | u :: us => compress_usages_loop u us [u]
  modify_state fun s => { s with node_usages := upd s.node_usages n res }

/-! ## Loop frames and try frames -/

/-- Push a frame on both loop stacks, `CFG::create_cfg_enter_cycle`. -/
def create_cfg_enter_cycle : M Unit :=
  modify_state fun s =>
    { s with continue_nodes := s.continue_nodes ++ [[]], break_nodes := s.break_nodes ++ [[]] }

/-- Add an edge from every node of a list to `dst`. -/
def add_edges_from : List Node → Node → M Unit
  | [], _ => pure ()
  | i :: is, dst => do
    add_edge i dst
    add_edges_from is dst

/-- Wire and pop the innermost frame, `CFG::create_cfg_exit_cycle`. -/
def create_cfg_exit_cycle (continue_dest break_dest : Node) : M Unit := do
  let s ← get_state
  match s.continue_nodes.getLast?, s.break_nodes.getLast? with
  | some cs, some bs => do
    add_edges_from cs continue_dest
    add_edges_from bs break_dest
    modify_state fun s =>
      { s with continue_nodes := s.continue_nodes.dropLast, break_nodes := s.break_nodes.dropLast }
  | _, _ => fail Err.bad_access

/-- Append `v` to the frame with index `i` of a frame stack. -/
def push_at : List (List Node) → Nat → Node → List (List Node)
  | [], _, _ => []
  | f :: fs, 0, v => (f ++ [v]) :: fs
  | f :: fs, i + 1, v => f :: push_at fs i v

/-- Register a break node `depth` frames up, `CFG::create_cfg_add_break_node`. -/
def create_cfg_add_break_node (v : Node) (depth : Int) : M Unit := do
  kphp_assert (decide (depth ≥ 1))
  let s ← get_state
  let i : Int := (s.break_nodes.length : Int) - depth
  kphp_assert (decide (i ≥ 0))
  modify_state fun s => { s with break_nodes := push_at s.break_nodes i.toNat v }

/-- Register a continue node `depth` frames up, `CFG::create_cfg_add_continue_node`. -/
def create_cfg_add_continue_node (v : Node) (depth : Int) : M Unit := do
  kphp_assert (decide (depth ≥ 1))
  let s ← get_state
  let i : Int := (s.continue_nodes.length : Int) - depth
  kphp_assert (decide (i ≥ 0))
  modify_state fun s => { s with continue_nodes := push_at s.continue_nodes i.toNat v }

/-- Push a try frame, `CFG::create_cfg_begin_try`. -/
def create_cfg_begin_try : M Unit :=
  modify_state fun s => { s with exception_nodes := s.exception_nodes ++ [[]] }

/-- Wire and pop the innermost try frame, `CFG::create_cfg_end_try`. -/
def create_cfg_end_try (dst : Node) : M Unit := do
  let s ← get_state
  match s.exception_nodes.getLast? with
  | some es => do
    add_edges_from es dst
    modify_state fun s => { s with exception_nodes := s.exception_nodes.dropLast }
  | none => fail Err.bad_access

/-- Register an escape point in the innermost try frame,
`CFG::create_cfg_register_exception`. -/
def create_cfg_register_exception (src : Node) : M Unit := do
  let s ← get_state
  match s.exception_nodes.getLast? with
  | none => pure ()
  | some es =>
    modify_state fun s => { s with exception_nodes := s.exception_nodes.dropLast ++ [es ++ [src]] }

/-! ## The generic construction -/

/-- Run `f` over a list of vertices, threading a flag through. -/
def for_each_flag (f : Vertex → Bool → M Bool) : List Vertex → Bool → M Bool
  | [], b => pure b
  | v :: vs, b => do
    let b ← f v b
    for_each_flag f vs b

/-- Record the occurrences of variables of a subtree, `CFG::collect_vars_usage`.
The flag argument and result are the value of `*can_throw`. -/
def collect_vars_usage : Nat → Vertex → Node → Node → Bool → M Bool
  | 0, _, _, _, _ => fail Err.out_of_fuel
  | fuel + 1, tree_node, writes, reads, can_throw => do
    let can_throw := if tree_node.type = Operation.op_throw then true else can_throw
    let can_throw ←
      if tree_node.type = Operation.op_func_call then
        match tree_node.get_func_id with
        | some func => pure func.can_throw
        | none => fail Err.bad_access
      else pure can_throw
    let is_set_of_var ←
      if tree_node.type = Operation.op_set then do
        let lhs ← son tree_node 0
        pure (decide (lhs.type = Operation.op_var))
      else pure false
    if is_set_of_var then do
      let lhs ← son tree_node 0
      let rhs ← son tree_node 1
      let usage ← new_usage UsageType.usage_write_t lhs
      add_usage writes usage
      collect_vars_usage fuel rhs writes reads can_throw
    else do
      (if tree_node.type = Operation.op_var then do
        let usage ← new_usage UsageType.usage_read_t tree_node
        add_usage reads usage
      else pure ())
      for_each_flag (fun i b => collect_vars_usage fuel i writes reads b) tree_node.sons can_throw

/-- The generic rule, `CFG::create_full_cfg`. -/
def create_full_cfg (fuel : Nat) (tree_node : Vertex) : M (Node × Node) := do
  let start ← new_node
  let finish ← new_node
  let writes ← new_node
  let reads ← new_node
  let can_throw ← collect_vars_usage fuel tree_node writes reads false
  compress_usages writes
  compress_usages reads
  add_subtree start (new_subtree tree_node true)
  add_edge start writes
  add_edge start reads
  add_edge writes reads
  add_edge writes finish
  add_edge reads finish
  (if can_throw then create_cfg_register_exception finish else pure ())
  pure (start, finish)

/-! ## The builder -/

/-- Digits of `atoi`. -/
def atoi_digits : List Char → Nat → Nat
  | [], acc => acc
  | c :: cs, acc => if c.isDigit then atoi_digits cs (acc * 10 + (c.toNat - 48)) else acc

/-- Modelled from the spec: the C library function `atoi` (blanks, an optional sign,
decimal digits; 0 when there is no digit), without overflow. -/
def atoi (str : String) : Int :=
  match str.data.dropWhile Char.isWhitespace with
  | '-' :: cs => - (atoi_digits cs 0 : Int)
  | '+' :: cs => (atoi_digits cs 0 : Int)
  | cs => (atoi_digits cs 0 : Int)

/-- The loop of the sequence rule over `args[1..]`: `last` is the variable `end`. -/
def create_cfg_seq_loop (cfg : Vertex → M (Node × Node)) : List Vertex → Node → M Node
  | [], last => pure last
  | x :: xs, last => do
    let (a, b) ← cfg x
    add_edge last a
    create_cfg_seq_loop cfg xs b

/-- Rule of `op_min`, `op_max`, `op_array`, `op_tuple`, `op_seq_comma`, `op_seq_rval`,
`op_seq`. -/
def create_cfg_op_seq (cfg : Vertex → M (Node × Node)) (tree_node : Vertex) :
    M (Node × Node) :=
  match tree_node.sons with
  | [] => do
    let a ← new_node
    pure (a, a)
  | x :: xs => do
    let (res_start, b) ← cfg x
    let res_finish ← create_cfg_seq_loop cfg xs b
    pure (res_start, res_finish)

/-- Rule of `op_neq3`, `op_eq3`, `op_eq2`, `op_neq2`. -/
def create_cfg_op_eq (fuel : Nat) (cfg : Vertex → M (Node × Node)) (tree_node : Vertex) :
    M (Node × Node) := do
  let lhs ← son tree_node 0
  let rhs ← son tree_node 1
  if rhs.type = Operation.op_false ∨ rhs.type = Operation.op_null then do
    let (res_start, first_finish) ← cfg lhs
    let (second_start, res_finish) ← cfg rhs
    add_edge first_finish second_start
    pure (res_start, res_finish)
  else
    create_full_cfg fuel tree_node

/-- Rule of `op_index`. -/
def create_cfg_op_index (cfg : Vertex → Bool → Bool → M (Node × Node)) (tree_node : Vertex)
    (write_flag weak_write_flag : Bool) : M (Node × Node) := do
  let array ← son tree_node 0
  let (var_start, var_finish) ← cfg array false (write_flag || weak_write_flag)
  if tree_node.sons.length > 1 then do
    let key ← son tree_node 1
    let (index_start, index_finish) ← cfg key false false
    add_edge index_finish var_start
    pure (index_start, var_finish)
  else
    pure (var_start, var_finish)

/-- Rule of `op_log_and`, `op_log_or` as values. -/
def create_cfg_op_log (cfg : Vertex → M (Node × Node)) (tree_node : Vertex) :
    M (Node × Node) := do
  let lhs ← son tree_node 0
  let rhs ← son tree_node 1
  let (first_start, first_finish) ← cfg lhs
  let (second_start, second_finish) ← cfg rhs
  let finish ← new_node
  add_edge first_finish second_start
  add_edge second_finish finish
  add_edge first_finish finish
  pure (first_start, finish)

/-- The loop over the arguments of a call: `start` is the variable `start`, `ii` the
index of the argument. -/
def create_cfg_call_loop (cfg : Vertex → Bool → Bool → M (Node × Node))
    (func : Option FuncInfo) : List Vertex → Nat → Node → M Node
  | [], _, start => pure start
  | cur :: rest, ii, start => do
    let new_weak_write_flag ←
      match func with
      | some f =>
        match f.params.get? ii with
        | some (some ref_flag) => pure ref_flag
        | some none => pure false
        | none => fail Err.bad_access
      | none => pure false
    let (a, b) ← cfg cur false new_weak_write_flag
    add_edge start a
    create_cfg_call_loop cfg func rest (ii + 1) b

/-- Rule of `op_func_call`, `op_constructor_call`. -/
def create_cfg_op_call (cfg : Vertex → Bool → Bool → M (Node × Node)) (tree_node : Vertex) :
    M (Node × Node) := do
  let func := tree_node.get_func_id
  let start ← new_node
  let res_finish ← create_cfg_call_loop cfg func tree_node.sons 0 start
  match func with
  | none => fail Err.bad_access
  | some f => do
    (if f.can_throw then create_cfg_register_exception res_finish else pure ())
    pure (start, res_finish)

/-- Rule of `op_return`. -/
def create_cfg_op_return (cfg : Vertex → M (Node × Node)) (tree_node : Vertex) :
    M (Node × Node) :=
  match tree_node.sons with
  | expr :: _ => do
    let (res_start, _) ← cfg expr
    pure (res_start, none)
  | [] => do
    let res_start ← new_node
    pure (res_start, none)

/-- Rule of `op_set`. -/
def create_cfg_op_set (cfg : Vertex → Bool → Bool → M (Node × Node)) (tree_node : Vertex) :
    M (Node × Node) := do
  let lhs ← son tree_node 0
  let rhs ← son tree_node 1
  let (res_start, a) ← cfg rhs false false
  let (b, res_finish) ← cfg lhs true false
  add_edge a b
  pure (res_start, res_finish)

/-- Rule of the compound assignments `op_set_add` to `op_set_shl`. -/
def create_cfg_op_set_op (fuel : Nat) (cfg : Vertex → M (Node × Node)) (tree_node : Vertex) :
    M (Node × Node) := do
  let lhs ← son tree_node 0
  let rhs ← son tree_node 1
  let (res_start, a) ← cfg rhs
  let (b, res_finish) ← create_full_cfg fuel lhs
  add_edge a b
  pure (res_start, res_finish)

/-- The loop of the rule of `op_list` over the targets, already reversed. -/
def create_cfg_list_loop (cfg : Vertex → Bool → Bool → M (Node × Node)) :
    List Vertex → Node → M Node
  | [], prev => pure prev
  | param :: rest, prev => do
    let (a, b) ← cfg param true false
    add_edge prev a
    create_cfg_list_loop cfg rest b

/-- Rule of `op_list`. -/
def create_cfg_op_list (cfg : Vertex → Bool → Bool → M (Node × Node)) (tree_node : Vertex) :
    M (Node × Node) := do
  match tree_node.sons.getLast? with
  | none => fail Err.bad_access
  | some array => do
    let (res_start, prev) ← cfg array false false
    let res_finish ← create_cfg_list_loop cfg tree_node.sons.dropLast.reverse prev
    pure (res_start, res_finish)

/-- Rule of `op_var`. -/
def create_cfg_op_var (tree_node : Vertex) (write_flag weak_write_flag : Bool) :
    M (Node × Node) := do
  let res ← new_node
  let usage ← new_usage
    (if write_flag then UsageType.usage_write_t else UsageType.usage_read_t) tree_node
  (match usage with
    | some a => do
      let u ← usage_at a
      modify_state fun s =>
        { s with usage_data := upd s.usage_data a (some { u with weak_write_flag := weak_write_flag }) }
    | none => pure ())
  add_usage res usage
  pure (res, res)

/-- Rule of `op_if`. -/
def create_cfg_op_if (cfg : Vertex → M (Node × Node)) (cond_cfg : Vertex → M (Node × Node × Node))
    (tree_node : Vertex) : M (Node × Node) := do
  let cond ← son tree_node 0
  let true_cmd ← son tree_node 1
  let finish ← new_node
  let (res_start, cond_true, cond_false) ← cond_cfg cond
  let (if_start, if_finish) ← cfg true_cmd
  add_edge cond_true if_start
  add_edge if_finish finish
  (if tree_node.sons.length > 2 then do
    let false_cmd ← son tree_node 2
    let (else_start, else_finish) ← cfg false_cmd
    add_edge cond_false else_start
    add_edge else_finish finish
  else
    add_edge cond_false finish)
  pure (res_start, finish)

/-- Rule of `op_ternary`. -/
def create_cfg_op_ternary (cfg : Vertex → M (Node × Node))
    (cond_cfg : Vertex → M (Node × Node × Node)) (tree_node : Vertex) : M (Node × Node) := do
  let cond ← son tree_node 0
  let true_expr ← son tree_node 1
  let false_expr ← son tree_node 2
  let finish ← new_node
  let (res_start, cond_true, cond_false) ← cond_cfg cond
  let (if_start, if_finish) ← cfg true_expr
  add_edge cond_true if_start
  add_edge if_finish finish
  let (else_start, else_finish) ← cfg false_expr
  add_edge cond_false else_start
  add_edge else_finish finish
  pure (res_start, finish)

/-- Rule of `op_break`. -/
def create_cfg_op_break (tree_node : Vertex) : M (Node × Node) := do
  let level ← son tree_node 0
  let start ← new_node
  create_cfg_add_break_node start (atoi level.get_string)
  pure (start, none)

/-- Rule of `op_continue`. -/
def create_cfg_op_continue (tree_node : Vertex) : M (Node × Node) := do
  let level ← son tree_node 0
  let start ← new_node
  create_cfg_add_continue_node start (atoi level.get_string)
  pure (start, none)

/-- Rule of `op_for`. -/
def create_cfg_op_for (cfg : Vertex → M (Node × Node)) (cond_cfg : Vertex → M (Node × Node × Node))
    (tree_node : Vertex) : M (Node × Node) := do
  create_cfg_enter_cycle
  let pre_cond ← son tree_node 0
  let cond ← son tree_node 1
  let post_cond ← son tree_node 2
  let cmd ← son tree_node 3
  let (init_start, init_finish) ← cfg pre_cond
  let (cond_start, cond_finish_true, cond_finish_false) ← cond_cfg cond
  let (inc_start, inc_finish) ← cfg post_cond
  let action_finish ← new_node
  let (action_start, action_finish_pre) ← cfg cmd
  add_edge action_finish_pre action_finish
  add_edge init_finish cond_start
  add_edge cond_finish_true action_start
  add_edge action_finish inc_start
  add_edge inc_finish cond_start
  let finish ← new_node
  add_edge cond_finish_false finish
  create_cfg_exit_cycle action_finish finish
  pure (init_start, finish)

/-- Rule of `op_do`, `op_while`. -/
def create_cfg_op_while (cfg : Vertex → M (Node × Node))
    (cond_cfg : Vertex → M (Node × Node × Node)) (tree_node : Vertex) : M (Node × Node) := do
  create_cfg_enter_cycle
  let cond ← son tree_node 0
  let cmd ← son tree_node 1
  let (cond_start, cond_finish_true, cond_finish_false) ← cond_cfg cond
  let action_finish ← new_node
  let (action_start, action_finish_pre) ← cfg cmd
  add_edge action_finish_pre action_finish
  add_edge cond_finish_true action_start
  add_edge action_finish cond_start
  let finish ← new_node
  add_edge cond_finish_false finish
  let res_start := if tree_node.type = Operation.op_do then action_start else cond_start
  (if tree_node.type = Operation.op_do ∧ action_finish_pre.isSome then
    add_subtree res_start (new_subtree cond true)
  else pure ())
  create_cfg_exit_cycle action_finish finish
  pure (res_start, finish)

/-- Rule of `op_foreach`. -/
def create_cfg_op_foreach (cfg : Vertex → M (Node × Node)) (tree_node : Vertex) :
    M (Node × Node) := do
  create_cfg_enter_cycle
  let foreach_param ← son tree_node 0
  let cmd ← son tree_node 1
  let xs ← son foreach_param 0
  let x ← son foreach_param 1
  let (val_start, val_finish) ← cfg xs
  let writes ← new_node
  let usage ← new_usage UsageType.usage_write_t x
  add_usage writes usage
  (if !x.ref_flag then do
    let temp_var ← son foreach_param 2
    let usage ← new_usage UsageType.usage_write_t temp_var
    add_usage writes usage
  else pure ())
  (if foreach_param.sons.length > 3 then do
    let key ← son foreach_param 3
    let usage ← new_usage UsageType.usage_write_t key
    add_usage writes usage
  else pure ())
  add_subtree val_start (new_subtree foreach_param true)
  let finish ← new_node
  let cond_start := val_start
  let cond_check ← new_node
  let cond_true := writes
  let cond_false := finish
  add_edge val_finish cond_check
  add_edge cond_check cond_true
  add_edge cond_check cond_false
  let action_finish ← new_node
  let (action_start, action_finish_pre) ← cfg cmd
  add_edge action_finish_pre action_finish
  add_edge cond_true action_start
  add_edge action_finish cond_check
  create_cfg_exit_cycle action_finish finish
  pure (cond_start, finish)

/-- The nodes that one round of the loop over the cases of a switch produces: the
start and finish of the body and, for an `op_case`, the start and finish of the guard;
and, as bookkeeping that the rule does not use, the number of nodes before the body
is built, after it, and after the guard: the body owns the node ids from `nodes_from`
up to `nodes_mid`, the guard those from `nodes_mid` up to `nodes_to`. -/
structure CaseNodes where
  cur_start : Node
  cur_finish : Node
  guard : Option (Node × Node)
  nodes_from : Nat
  nodes_mid : Nat
  nodes_to : Nat
  deriving DecidableEq, Repr

/-- The local variables of the rule of `op_switch` after the loop over the cases,
together with the nodes of every round, oldest first (the rule itself does not use
that list). -/
structure SwitchLoop where
  prev_finish : Node
  prev_var_finish : Node
  was_default : Bool
  default_start : Node
  rounds : List CaseNodes

/-- The first statement of a round of the loop over the cases: `is_default` and
`cmd` of the clause; anything but `op_case` and `op_default` is `kphp_fail`. -/
def switch_clause (i : Vertex) : M (Bool × Vertex) :=
  if i.type = Operation.op_case then do
    let cmd ← son i 1
    pure (false, cmd)
  else if i.type = Operation.op_default then do
    let cmd ← son i 0
    pure (true, cmd)
  else kphp_fail

/-- The loop over `switch_op->cases()`. -/
def create_cfg_switch_loop (cfg : Vertex → M (Node × Node)) :
    List Vertex → SwitchLoop → M SwitchLoop
  | [], st => pure st
  | i :: rest, st => do
    let (is_default, cmd) ← switch_clause i
    let before ← get_state
    let (cur_start, cur_finish) ← cfg cmd
    let built ← get_state
    add_edge st.prev_finish cur_start
    if is_default then
      create_cfg_switch_loop cfg rest
        { prev_finish := cur_finish
          prev_var_finish := st.prev_var_finish
          was_default := true
          default_start := cur_start
          rounds := st.rounds ++
            [{ cur_start := cur_start, cur_finish := cur_finish, guard := none,
               nodes_from := before.node_gen, nodes_mid := built.node_gen,
               nodes_to := built.node_gen }] }
    else do
      let expr ← son i 0
      let (cur_var_start, cur_var_finish) ← cfg expr
      let guarded ← get_state
      add_edge cur_var_finish cur_start
      add_edge st.prev_var_finish cur_var_start
      create_cfg_switch_loop cfg rest
        { prev_finish := cur_finish
          prev_var_finish := cur_var_finish
          was_default := st.was_default
          default_start := st.default_start
          rounds := st.rounds ++
            [{ cur_start := cur_start, cur_finish := cur_finish,
               guard := some (cur_var_start, cur_var_finish),
               nodes_from := before.node_gen, nodes_mid := built.node_gen,
               nodes_to := guarded.node_gen }] }

/-- The loop over `switch_op->variables()`. -/
def create_cfg_switch_vars (vars_init vars_read : Node) : List Vertex → M Unit
  | [] => pure ()
  | i :: rest => do
    let usage ← new_usage UsageType.usage_write_t i
    add_usage vars_init usage
    let usage ← new_usage UsageType.usage_read_t i
    add_usage vars_read usage
    add_subtree vars_init (new_subtree i false)
    add_subtree vars_read (new_subtree i false)
    create_cfg_switch_vars vars_init vars_read rest

/-- Attach a non-recursive marker for each vertex of a list to one node. -/
def add_subtrees (node : Node) : List Vertex → M Unit
  | [] => pure ()
  | i :: rest => do
    add_subtree node (new_subtree i false)
    add_subtrees node rest

/-- Rule of `op_switch`. -/
def create_cfg_op_switch (cfg : Vertex → M (Node × Node)) (tree_node : Vertex) :
    M (Node × Node) := do
  create_cfg_enter_cycle
  let expr ← son tree_node 0
  (if tree_node.sons.length < 5 then fail Err.bad_access else pure ())
  let switch_variables := (tree_node.sons.drop 1).take 4
  let cases := tree_node.sons.drop 5
  let (cond_start, cond_finish) ← cfg expr
  let vars_init ← new_node
  let vars_read ← new_node
  add_edge vars_init vars_read
  create_cfg_switch_vars vars_init vars_read switch_variables
  let st ← create_cfg_switch_loop cfg cases
    { prev_finish := none, prev_var_finish := cond_finish, was_default := false,
      default_start := none, rounds := [] }
  let finish ← new_node
  add_edge st.prev_finish finish
  (if !st.was_default then add_edge st.prev_var_finish finish else pure ())
  (if st.was_default then add_edge st.prev_var_finish st.default_start else pure ())
  add_edge vars_read cond_start
  add_subtrees cond_start cases
  create_cfg_exit_cycle finish finish
  pure (vars_init, finish)

/-- Rule of `op_throw`. -/
def create_cfg_op_throw (cfg : Vertex → M (Node × Node)) (tree_node : Vertex) :
    M (Node × Node) := do
  let exception ← son tree_node 0
  let (throw_start, throw_finish) ← cfg exception
  create_cfg_register_exception throw_finish
  let res_finish ← new_node
  pure (throw_start, res_finish)

/-- Rule of `op_try`. -/
def create_cfg_op_try (cfg : Vertex → Bool → Bool → M (Node × Node)) (tree_node : Vertex) :
    M (Node × Node) := do
  let try_cmd ← son tree_node 0
  let exception ← son tree_node 1
  let catch_cmd ← son tree_node 2
  let (exception_start, exception_finish) ← cfg exception true false
  create_cfg_begin_try
  let (try_start, try_finish) ← cfg try_cmd false false
  create_cfg_end_try exception_start
  let (catch_start, catch_finish) ← cfg catch_cmd false false
  add_edge exception_finish catch_start
  let finish ← new_node
  add_edge try_finish finish
  add_edge catch_finish finish
  add_subtree exception_start (new_subtree exception false)
  add_subtree catch_start (new_subtree catch_cmd true)
  pure (try_start, finish)

/-- Rule of `op_function`. -/
def create_cfg_op_function (cfg : Vertex → M (Node × Node)) (tree_node : Vertex) :
    M (Node × Node) := do
  let params ← son tree_node 0
  let cmd ← son tree_node 1
  let (res_start, a) ← cfg params
  let (b, res_finish) ← cfg cmd
  add_edge a b
  pure (res_start, res_finish)

/-- The statement after the `switch` of `create_cfg`: attach the marker of the
vertex to the start node. -/
def create_cfg_finish (tree_node : Vertex) (recursive_flag : Bool) (res : Node × Node) :
    M (Node × Node) := do
  add_subtree res.1 (new_subtree tree_node recursive_flag)
  pure res

/-- Rule of `op_log_and`, `op_log_or` as conditions. -/
def create_condition_cfg_op_log (cond_cfg : Vertex → M (Node × Node × Node))
    (tree_node : Vertex) : M (Node × Node × Node) := do
  let lhs ← son tree_node 0
  let rhs ← son tree_node 1
  let (first_start, first_true, first_false) ← cond_cfg lhs
  let (second_start, second_true, second_false) ← cond_cfg rhs
  let res_true ← new_node
  let res_false ← new_node
  add_edge first_true (if tree_node.type = Operation.op_log_and then second_start else res_true)
  add_edge first_false (if tree_node.type = Operation.op_log_or then second_start else res_false)
  add_edge second_true res_true
  add_edge second_false res_false
  pure (first_start, res_true, res_false)

/-- Default rule of `create_condition_cfg`. -/
def create_condition_cfg_default (cfg : Vertex → M (Node × Node)) (tree_node : Vertex) :
    M (Node × Node × Node) := do
  let (res_start, res_finish) ← cfg tree_node
  let res_true ← new_node
  let res_false ← new_node
  add_edge res_finish res_true
  add_edge res_finish res_false
  pure (res_start, res_true, res_false)

mutual
/-- The graph of a condition, `CFG::create_condition_cfg`: start, true exit and false
exit. -/
def create_condition_cfg : Nat → Vertex → M (Node × Node × Node)
  | 0, _ => fail Err.out_of_fuel
  | fuel + 1, tree_node => do
    let (res_start, res_true, res_false) ←
      match tree_node.type with
      | .op_conv_bool => do
        let expr ← son tree_node 0
        create_condition_cfg fuel expr
      | .op_log_not => do
        let expr ← son tree_node 0
        let (res_start, res_false, res_true) ← create_condition_cfg fuel expr
        pure (res_start, res_true, res_false)
      | .op_log_and | .op_log_or =>
        create_condition_cfg_op_log (create_condition_cfg fuel) tree_node
      | _ =>
        create_condition_cfg_default (fun v => create_cfg fuel v false false) tree_node
    add_subtree res_start (new_subtree tree_node false)
    pure (res_start, res_true, res_false)
/-- The graph of a vertex, `CFG::create_cfg`: start and finish. -/
def create_cfg : Nat → Vertex → Bool → Bool → M (Node × Node)
  | 0, _, _, _ => fail Err.out_of_fuel
  | fuel + 1, tree_node, write_flag, weak_write_flag =>
    let cfg := fun v => create_cfg fuel v false false
    match tree_node.type with
    | .op_min | .op_max | .op_array | .op_tuple | .op_seq_comma | .op_seq_rval | .op_seq =>
      create_cfg_op_seq cfg tree_node >>= create_cfg_finish tree_node false
    | .op_log_not => do
      let expr ← son tree_node 0
      cfg expr >>= create_cfg_finish tree_node false
    | .op_neq3 | .op_eq3 | .op_eq2 | .op_neq2 =>
      create_cfg_op_eq fuel cfg tree_node >>= create_cfg_finish tree_node false
    | .op_index =>
      create_cfg_op_index (create_cfg fuel) tree_node write_flag weak_write_flag
        >>= create_cfg_finish tree_node false
    | .op_log_and | .op_log_or =>
      create_cfg_op_log cfg tree_node >>= create_cfg_finish tree_node false
    | .op_func_call | .op_constructor_call =>
      create_cfg_op_call (create_cfg fuel) tree_node >>= create_cfg_finish tree_node false
    | .op_return =>
      create_cfg_op_return cfg tree_node >>= create_cfg_finish tree_node false
    | .op_set =>
      create_cfg_op_set (create_cfg fuel) tree_node >>= create_cfg_finish tree_node false
    | .op_set_add | .op_set_sub | .op_set_mul | .op_set_div | .op_set_mod | .op_set_pow
    | .op_set_and | .op_set_or | .op_set_xor | .op_set_dot | .op_set_shr | .op_set_shl =>
      create_cfg_op_set_op fuel cfg tree_node >>= create_cfg_finish tree_node false
    | .op_list =>
      create_cfg_op_list (create_cfg fuel) tree_node >>= create_cfg_finish tree_node false
    | .op_var =>
      create_cfg_op_var tree_node write_flag weak_write_flag >>= create_cfg_finish tree_node false
    | .op_if =>
      create_cfg_op_if cfg (create_condition_cfg fuel) tree_node
        >>= create_cfg_finish tree_node false
    | .op_ternary =>
      create_cfg_op_ternary cfg (create_condition_cfg fuel) tree_node
        >>= create_cfg_finish tree_node false
    | .op_break =>
      create_cfg_op_break tree_node >>= create_cfg_finish tree_node true
    | .op_continue =>
      create_cfg_op_continue tree_node >>= create_cfg_finish tree_node true
    | .op_for =>
      create_cfg_op_for cfg (create_condition_cfg fuel) tree_node
        >>= create_cfg_finish tree_node false
    | .op_do | .op_while =>
      create_cfg_op_while cfg (create_condition_cfg fuel) tree_node
        >>= create_cfg_finish tree_node false
    | .op_foreach =>
      create_cfg_op_foreach cfg tree_node >>= create_cfg_finish tree_node false
    | .op_switch =>
      create_cfg_op_switch cfg tree_node >>= create_cfg_finish tree_node false
    | .op_throw =>
      create_cfg_op_throw cfg tree_node >>= create_cfg_finish tree_node false
    | .op_try =>
      create_cfg_op_try (create_cfg fuel) tree_node >>= create_cfg_finish tree_node false
    | .op_conv_int | .op_conv_int_l | .op_conv_float | .op_conv_string | .op_conv_array
    | .op_conv_array_l | .op_conv_object | .op_conv_var | .op_conv_uint | .op_conv_long
    | .op_conv_ulong | .op_conv_regexp | .op_conv_bool => do
      let expr ← son tree_node 0
      cfg expr >>= create_cfg_finish tree_node false
    | .op_function =>
      create_cfg_op_function cfg tree_node >>= create_cfg_finish tree_node false
    | _ =>
      create_full_cfg fuel tree_node
end

/-! ## Dead code -/

mutual
/-- Confirm a vertex, and its descendants when `recursive_flag` is set,
`CFG::confirm_usage`, on the map `vertex_usage`. -/
def confirm_usage : Vertex → Bool → (Nat → VertexUsage) → (Nat → VertexUsage)
  | Vertex.mk i _ _ sons, recursive_flag, vu =>
    if !(vu i).used || (recursive_flag && !(vu i).used_rec) then
      let vu1 := upd vu i { vu i with used := true }
      if recursive_flag then
        confirm_usage_sons sons (upd vu1 i { vu1 i with used_rec := true })
      else vu1
    else vu
/-- The loop of `confirm_usage` over the sons. -/
def confirm_usage_sons : List Vertex → (Nat → VertexUsage) → (Nat → VertexUsage)
  | [], vu => vu
  | x :: xs, vu => confirm_usage_sons xs (confirm_usage x true vu)
end

/-- The loop of `calc_used` over the markers of a node. -/
def confirm_subtrees : List SubTreeData → (Nat → VertexUsage) → (Nat → VertexUsage)
  | [], vu => vu
  | m :: ms, vu => confirm_subtrees ms (confirm_usage m.v m.recursive_flag vu)

/-- The loop of `calc_used` over the successors of a node. -/
def calc_used_next (walk : Nat → M Unit) : List Nat → M Unit
  | [] => pure ()
  | i :: rest => do
    let s ← get_state
    (if s.node_was i ≠ s.cur_dfs_mark then walk i else pure ())
    calc_used_next walk rest

/-- The forward walk, `CFG::calc_used`. -/
def calc_used : Nat → Nat → M Unit
  | 0, _ => fail Err.out_of_fuel
  | fuel + 1, v => do
    modify_state fun s => { s with node_was := upd s.node_was v s.cur_dfs_mark }
    modify_state fun s =>
      { s with vertex_usage := confirm_subtrees (s.node_subtrees v) s.vertex_usage }
    let s ← get_state
    calc_used_next (calc_used fuel) (s.node_next v)

mutual
/-- The unconfirmed vertices nearest to the root, `CFG::collect_unused`; the result
is the list `unused_vertices`, given by the vertices that the collected slots hold. -/
def collect_unused (vu : Nat → VertexUsage) : Vertex → List Vertex
  | Vertex.mk i t e sons =>
    if !(vu i).used then [Vertex.mk i t e sons]
    else collect_unused_sons vu sons
/-- The loop of `collect_unused` over the sons. -/
def collect_unused_sons (vu : Nat → VertexUsage) : List Vertex → List Vertex
  | [] => []
  | x :: xs => collect_unused vu x ++ collect_unused_sons vu xs
end

/-! ## Uninitialised use -/

/-- The loop of `search_uninited` over the usages of a node: the usage to return, if
any, and otherwise the value of `return_flag`. -/
def search_uninited_usages (var : VarPtr) : List Nat → Bool → M (UsagePtr × Bool)
  | [], return_flag => pure (none, return_flag)
  | another_usage :: rest, return_flag => do
    let u ← usage_at another_usage
    let s ← get_state
    if s.data.get_var_id u.v = some var then
      if u.type = UsageType.usage_write_t ∨ u.weak_write_flag = true then
        search_uninited_usages var rest true
      else if u.type = UsageType.usage_read_t then
        pure (some another_usage, return_flag)
      else
        search_uninited_usages var rest return_flag
    else
      search_uninited_usages var rest return_flag

/-- The loop of `search_uninited` over the successors of a node. -/
def search_uninited_next (search : Nat → M UsagePtr) : List Nat → M UsagePtr
  | [] => pure none
  | i :: rest => do
    let s ← get_state
    if s.node_was i ≠ s.cur_dfs_mark then do
      let res ← search i
      if res.isSome then pure res
      else search_uninited_next search rest
    else
      search_uninited_next search rest

/-- Search for a read of `var` that no write precedes, `CFG::search_uninited`. -/
def search_uninited : Nat → Nat → VarPtr → M UsagePtr
  | 0, _, _ => fail Err.out_of_fuel
  | fuel + 1, v, var => do
    modify_state fun s => { s with node_was := upd s.node_was v s.cur_dfs_mark }
    let s ← get_state
    let (found, return_flag) ← search_uninited_usages var (s.node_usages v) false
    if found.isSome then pure found
    else if return_flag then pure none
    else search_uninited_next (fun i => search_uninited fuel i var) (s.node_next v)

/-! ## Partitions -/

/-- The loop of `dfs` over the usages of a node: the value of `return_flag`. -/
def dfs_usages (usage : Nat) : List Nat → Bool → M Bool
  | [], return_flag => pure return_flag
  | another_usage :: rest, return_flag => do
    let same ← try_uni_usages usage another_usage
    let au ← usage_at another_usage
    if same ∧ au.type = UsageType.usage_write_t then
      dfs_usages usage rest true
    else
      dfs_usages usage rest return_flag

/-- The loop of `dfs` over the predecessors of a node. -/
def dfs_prev (walk : Nat → M Unit) : List Nat → M Unit
  | [] => pure ()
  | i :: rest => do
    walk i
    dfs_prev walk rest

/-- The backward walk from a usage, `CFG::dfs`. -/
def dfs : Nat → Nat → Nat → M Unit
  | 0, _, _ => fail Err.out_of_fuel
  | fuel + 1, v, usage => do
    let s ← get_state
    match s.node_mark v with
    | some other_usage => do
      let _ ← try_uni_usages usage other_usage
      pure ()
    | none => do
      modify_state fun s => { s with node_mark := upd s.node_mark v (some usage) }
      let return_flag ← dfs_usages usage (s.node_usages v) false
      if return_flag then pure ()
      else dfs_prev (fun i => dfs fuel i usage) (s.node_prev v)

/-- The record of a variable, `*var`. -/
def var_data (var : VarPtr) : M VarData := fun s =>
  match s.data.vars.get? var with
  | some vd => Except.ok (vd, s)
  | none => Except.error Err.bad_access

/-- Record a usage as possibly uninitialised, `CFGData::uninited`. -/
def CFGData.uninited (d : CFGData) (v : Vertex) : CFGData :=
  if v.type = Operation.op_var ∧ v.extra.extra_type ≠ ExtraType.op_ex_var_superlocal ∧
      v.extra.extra_type ≠ ExtraType.op_ex_var_this then
    { d with
      uninited_vars := d.uninited_vars ++ [v]
      vars := match d.get_var_id v with
        | some x => d.vars.modify (fun vd => { vd with uninited_flag := true }) x
        | none => d.vars }
  else d

/-- The parameters of the function, `get_function_params(function->root)`. -/
def get_function_params (root : Vertex) : List Vertex :=
  match root.sons with
  | params :: _ => params.sons
  | [] => []

/-- The loop of `split_var` over the parts: `i` is the index of the part. -/
def split_var_loop (var : VarData) : List (List Vertex) → Nat → CFGData → Except Err CFGData
  | [], _, d => Except.ok d
  | part :: rest, i, d =>
    let new_name := if i ≠ 0 then var.name ++ "$v" ++ toString i else var.name
    let new_var : VarPtr := d.vars.length
    let rebound : Nat → Option VarPtr :=
      fun a => if part.any (fun v => v.id == a) then some new_var else d.rebound a
    if var.type = VarType.var_local_t then
      split_var_loop var rest (i + 1)
        { d with
          vars := d.vars ++ [{ name := new_name, type := VarType.var_local_t }]
          rebound := rebound
          local_var_ids := d.local_var_ids ++ [new_var] }
    else if var.type = VarType.var_param_t then
      match (get_function_params d.root).get? var.param_i.toNat with
      | none => Except.error Err.bad_access
      | some param =>
        match param.sons.head? with
        | none => Except.error Err.bad_access
        | some param_var =>
          if var.param_i < 0 then Except.error Err.bad_access
          else if part.any (fun v => v.id == param_var.id) then
            split_var_loop var rest (i + 1)
              { d with
                vars := d.vars ++
                  [{ name := new_name, type := VarType.var_param_t, param_i := var.param_i }]
                rebound := rebound
                param_ids := d.param_ids.set var.param_i.toNat new_var }
          else
            split_var_loop var rest (i + 1)
              { d with
                vars := d.vars ++ [{ name := new_name, type := VarType.var_local_t }]
                rebound := rebound
                local_var_ids := d.local_var_ids ++ [new_var] }
    else Except.error Err.assert_failed

/-- Split a variable into one variable per part, `CFGData::split_var`.  The calls of
`assumption_get_for_var` and `assumption_add_for_var`, which are declared outside the
sources and touch only the table of class assumptions, are left out. -/
def CFGData.split_var (d : CFGData) (var : VarPtr) (parts : List (List Vertex)) :
    Except Err CFGData :=
  match d.vars.get? var with
  | none => Except.error Err.bad_access
  | some vd =>
    if ¬ (vd.type = VarType.var_local_t ∨ vd.type = VarType.var_param_t) then
      Except.error Err.assert_failed
    else if parts.length = 0 then
      if vd.type = VarType.var_local_t then
        Except.ok { d with local_var_ids := d.local_var_ids.erase var }
      else Except.ok d
    else if ¬ (parts.length > 1) then Except.error Err.assert_failed
    else
      match split_var_loop vd parts 0 d with
      | Except.error e => Except.error e
      | Except.ok d1 =>
        if vd.type = VarType.var_local_t then
          if var ∈ d1.local_var_ids then
            Except.ok
              { d1 with
                local_var_ids := d1.local_var_ids.erase var
                todo_var := d1.todo_var ++ [var]
                todo_parts := d1.todo_parts ++ [parts] }
          else Except.error Err.assert_failed
        else
          Except.ok { d1 with todo_var := d1.todo_var ++ [var], todo_parts := d1.todo_parts ++ [parts] }

/-- Run a function of `CFGData` on the data of the state. -/
def with_data (f : CFGData → Except Err CFGData) : M Unit := fun s =>
  match f s.data with
  | Except.ok d => Except.ok ((), { s with data := d })
  | Except.error e => Except.error e

/-- The first loop of `process_var`: the backward walk from every usage. -/
def process_var_dfs (fuel : Nat) : List Nat → M Unit
  | [] => pure ()
  | u :: rest => do
    let ud ← usage_at u
    let n ← node_id ud.node
    dfs fuel n u
    process_var_dfs fuel rest

/-- The second loop of `process_var`: number the sets of the usages on visited
nodes; the argument and result are the value of `parts_cnt`. -/
def process_var_number (var : VarPtr) : List Nat → Nat → M Nat
  | [], parts_cnt => pure parts_cnt
  | i :: rest, parts_cnt => do
    let ud ← usage_at i
    let n ← node_id ud.node
    let s ← get_state
    if s.node_was n ≠ 0 then
      match get_var_split s var with
      | none => fail Err.bad_access
      | some var_split => do
        let u := dsu_get var_split.parent i
        let uu ← usage_at u
        if uu.part_id = -1 then do
          modify_state fun s =>
            { s with usage_data := upd s.usage_data u (some { uu with part_id := (parts_cnt : Int) }) }
          process_var_number var rest (parts_cnt + 1)
        else
          process_var_number var rest parts_cnt
    else
      process_var_number var rest parts_cnt

/-- Append `v` to the part with index `i`. -/
def push_part : List (List Vertex) → Nat → Vertex → List (List Vertex)
  | [], _, _ => []
  | f :: fs, 0, v => (f ++ [v]) :: fs
  | f :: fs, i + 1, v => f :: push_part fs i v

/-- The third loop of `process_var`: fill the parts. -/
def process_var_parts (var : VarPtr) : List Nat → List (List Vertex) → M (List (List Vertex))
  | [], parts => pure parts
  | i :: rest, parts => do
    let ud ← usage_at i
    let n ← node_id ud.node
    let s ← get_state
    if s.node_was n ≠ 0 then
      match get_var_split s var with
      | none => fail Err.bad_access
      | some var_split => do
        let u := dsu_get var_split.parent i
        let uu ← usage_at u
        if uu.part_id < 0 ∨ uu.part_id ≥ parts.length then fail Err.bad_access
        else process_var_parts var rest (push_part parts uu.part_id.toNat ud.v)
    else
      process_var_parts var rest parts

/-- The part of `process_var` up to the numbering of the sets: the uninitialised-use
search, the backward walks and the numbering.  The result is `none` when
`process_var` returns at once for an in-place local and otherwise the value of
`parts_cnt`. -/
def process_var_walk (fuel : Nat) (var : VarPtr) : M (Option Nat) := do
  let s ← get_state
  match get_var_split s var with
  | none => fail Err.assert_failed
  | some var_split => do
    let vd ← var_data var
    if vd.type = VarType.var_local_inplace_t then pure none
    else do
      (if vd.type ≠ VarType.var_param_t then do
        modify_state fun s => { s with cur_dfs_mark := s.cur_dfs_mark + 1 }
        let start ← node_id s.current_start
        let uninited ← search_uninited fuel start var
        match uninited with
        | some a => do
          let u ← usage_at a
          modify_state fun s => { s with data := s.data.uninited u.v }
        | none => pure ()
      else pure ())
      modify_state fun s => { s with node_mark := fun _ => none }
      process_var_dfs fuel var_split.usage_gen
      let parts_cnt ← process_var_number var var_split.usage_gen 0
      pure (some parts_cnt)

/-- The parts that `process_var` builds once `parts_cnt` is known and differs from
one: `parts_cnt` empty parts, filled by the third loop. -/
def process_var_build_parts (var : VarPtr) (parts_cnt : Nat) : M (List (List Vertex)) := do
  let s ← get_state
  match get_var_split s var with
  | none => fail Err.assert_failed
  | some var_split => process_var_parts var var_split.usage_gen (List.replicate parts_cnt [])

/-- Partition the usages of a variable and split it, `CFG::process_var`. -/
def process_var (fuel : Nat) (var : VarPtr) : M Unit := do
  let parts_cnt ← process_var_walk fuel var
  match parts_cnt with
  | none => pure ()
  | some parts_cnt =>
    if parts_cnt = 1 then pure ()
    else do
      let parts ← process_var_build_parts var parts_cnt
      with_data fun d => d.split_var var parts

/-! ## The pass over a function -/

mutual
/-- The variables with a by-reference occurrence, `CFG::collect_ref_vars`. -/
def collect_ref_vars (d : CFGData) : Vertex → List VarPtr
  | Vertex.mk i t e sons =>
    (if t = Operation.op_var ∧ e.ref_flag = true then
      (d.get_var_id (Vertex.mk i t e sons)).toList else []) ++ collect_ref_vars_sons d sons
/-- The loop of `collect_ref_vars` over the sons. -/
def collect_ref_vars_sons (d : CFGData) : List Vertex → List VarPtr
  | [] => []
  | x :: xs => collect_ref_vars d x ++ collect_ref_vars_sons d xs
end

/-- The loop of `find_splittable_vars` over the parameters. -/
def splittable_params (d : CFGData) : List VarPtr → Except Err (List VarPtr)
  | [] => Except.ok []
  | var :: rest =>
    match d.vars.get? var with
    | none => Except.error Err.bad_access
    | some vd =>
      match (get_function_params d.root).get? vd.param_i.toNat with
      | none => Except.error Err.bad_access
      | some param =>
        match param.sons.head? with
        | none => Except.error Err.bad_access
        | some init =>
          if vd.param_i < 0 then Except.error Err.bad_access
          else if init.type ≠ Operation.op_var then Except.error Err.assert_failed
          else
            match splittable_params d rest with
            | Except.error e => Except.error e
            | Except.ok l => Except.ok (if !init.ref_flag then var :: l else l)

/-- The variables that may be split, `CFG::find_splittable_vars`. -/
def find_splittable_vars (d : CFGData) : Except Err (List VarPtr) :=
  match splittable_params d d.param_ids with
  | Except.error e => Except.error e
  | Except.ok ps =>
    let ref := collect_ref_vars d d.root
    Except.ok ((d.local_var_ids ++ ps).filter fun x => !(ref.contains x))

/-- The loop of `process_function` that gives every splittable variable its split
state. -/
def init_var_split : List VarPtr → (VarPtr → Option VarSplitData) → (VarPtr → Option VarSplitData)
  | [], m => m
  | var :: rest, m =>
    init_var_split rest (match m var with
      | some _ => m
      | none => upd m var (some {}))

/-- The loop of `process_function` over the splittable variables. -/
def process_vars (fuel : Nat) : List VarPtr → M Unit
  | [] => pure ()
  | var :: rest => do
    process_var fuel var
    process_vars fuel rest

/-- The steps of `process_function` up to and including the forward walk: the split
states, the graph of the function and the confirmation of the vertices.  The result
is the list of splittable variables. -/
def process_function_build (fuel : Nat) : M (List VarPtr) := do
  let s ← get_state
  match find_splittable_vars s.data with
  | Except.error e => fail e
  | Except.ok splittable_vars => do
    modify_state fun s =>
      { s with var_split_data := init_var_split splittable_vars s.var_split_data, cur_dfs_mark := 0 }
    let (start, _) ← create_cfg fuel s.data.root false false
    modify_state fun s => { s with current_start := start }
    modify_state fun s => { s with cur_dfs_mark := s.cur_dfs_mark + 1 }
    let n ← node_id start
    calc_used fuel n
    pure splittable_vars

/-- The pass over one function, `CFG::process_function`. -/
def process_function (fuel : Nat) : M Unit := do
  let s ← get_state
  if s.data.func_local then do
    let splittable_vars ← process_function_build fuel
    let cmd ← son s.data.root 1
    modify_state fun s =>
      { s with data := { s.data with unused := collect_unused s.vertex_usage cmd } }
    process_vars fuel splittable_vars
  else pure ()

/-- The pass on a function record, `CFG::run` on a fresh `CFG`. -/
def run (fuel : Nat) (new_data : CFGData) : Except Err CFG :=
  match process_function fuel { data := new_data } with
  | Except.ok (_, s) => Except.ok s
  | Except.error e => Except.error e

/-! ## Drivers and sample functions used in the statements -/

/-- Leave several nested loops in a row: `create_cfg_exit_cycle` for each pair of a
continue target and a break target, innermost loop first. -/
def create_cfg_exit_cycles : List (Node × Node) → M Unit
  | [] => pure ()
  | (continue_dest, break_dest) :: rest => do
    create_cfg_exit_cycle continue_dest break_dest
    create_cfg_exit_cycles rest

/-- The edges that wiring a frame to `dst` adds at node `a`: one edge to `dst` for
every occurrence of `a` in the frame. -/
def frame_targets (frame : List Node) (dst : Node) (a : Nat) : List Nat :=
  match dst with
  | some m => List.replicate (frame.count (some a)) m
  | none => []

/-- The edges that leaving the loops of `dests` one after another adds at node `a`;
the frame stacks are given innermost frame first. -/
def exit_targets : List (Node × Node) → List (List Node) → List (List Node) → Nat → List Nat
  | (continue_dest, break_dest) :: rest, c :: cs, b :: bs, a =>
    frame_targets c continue_dest a ++ frame_targets b break_dest a ++ exit_targets rest cs bs a
  | _, _, _, _ => []

/-- Two states agree on everything but the edges. -/
def same_but_edges (s s' : CFG) : Prop :=
  s' = { s with node_next := s'.node_next, node_prev := s'.node_prev }

/-- A variable occurrence `$x` with vertex id `i`. -/
def mk_var (i : Nat) (x : VarPtr) : Vertex :=
  Vertex.mk i Operation.op_var { var_id := some x } []

/-- A vertex of kind `t` with vertex id `i` and the given sons. -/
def mk_op (i : Nat) (t : Operation) (sons : List Vertex) : Vertex :=
  Vertex.mk i t {} sons

/-- A constant with vertex id `i` and string `str`. -/
def mk_const (i : Nat) (str : String) : Vertex :=
  Vertex.mk i Operation.op_int_const { str_val := str } []

/-- A function without parameters whose body is the sequence `body`; the vertex ids
0, 1 and 2 are taken by the function, its parameter list and its body. -/
def mk_function (body : List Vertex) : Vertex :=
  mk_op 0 Operation.op_function
    [mk_op 1 Operation.op_func_param_list [], mk_op 2 Operation.op_seq body]

/-- The function record of a function with root `root` and the locals `names`
(variable `i` is the `i`-th name). -/
def mk_data (root : Vertex) (names : List String) : CFGData :=
  { root := root
    local_var_ids := List.range names.length
    vars := names.map fun n => { name := n, type := VarType.var_local_t } }

/-- The loop `while ($c) { break 2; }` (vertices 8 to 12). -/
def sample_while_break : Vertex :=
  mk_op 8 Operation.op_while
    [mk_var 9 0, mk_op 10 Operation.op_seq [mk_op 11 Operation.op_break [mk_const 12 "2"]]]

/-- The loop `for (; $c; ) { while ($c) { break 2; } }` (vertices 3 to 12). -/
def sample_for_while_break : Vertex :=
  mk_op 3 Operation.op_for
    [mk_op 4 Operation.op_seq_comma [], mk_var 5 0, mk_op 6 Operation.op_seq_comma [],
      mk_op 7 Operation.op_seq [sample_while_break]]

/-- The first node that carries a marker of the vertex with id `i`. -/
def marker_node (s : CFG) (i : Nat) : Option Nat :=
  (List.range s.node_gen).find? fun n => (s.node_subtrees n).any fun m => m.v.id == i

/-- Build the graph of `v` from state `s` and read off the returned finish node and
the successors of the node that carries the marker of vertex `i`. -/
def finish_and_successors (fuel : Nat) (v : Vertex) (s : CFG) (i : Nat) :
    Option (Node × List Nat) :=
  match create_cfg fuel v false false s with
  | Except.ok ((_, finish), t) =>
    match marker_node t i with
    | some n => some (finish, t.node_next n)
    | none => none
  | Except.error _ => none

/-- Every successful run of `m` relates the state before to the state after by `P`. -/
structure Preserves (P : CFG → CFG → Prop) {α : Type} (m : M α) : Prop where
  run : ∀ s a s', m s = Except.ok (a, s') → P s s'

/-- A reflexive and transitive relation on states. -/
structure StepRel (P : CFG → CFG → Prop) : Prop where
  refl : ∀ s, P s s
  trans : ∀ {a b c}, P a b → P b c → P a c

/-- The data of the function record is unchanged. -/
def DataEq (s s' : CFG) : Prop := s'.data = s.data

/-- Whether a run succeeded. -/
def run_ok {α : Type} (r : Except Err (α × CFG)) : Bool :=
  match r with
  | Except.ok _ => true
  | Except.error _ => false

/-- The result of a run, if it succeeded. -/
def run_result {α : Type} (r : Except Err (α × CFG)) : Option α :=
  match r with
  | Except.ok (a, _) => some a
  | Except.error _ => none

/-- The state after a run; the empty state if the run failed. -/
def state_after {α : Type} (r : Except Err (α × CFG)) : CFG :=
  match r with
  | Except.ok (_, s) => s
  | Except.error _ => {}

/-- The parts of the function record that a split of a variable changes: the
parameter table, the table of locals, the bindings of the vertices, the queue of the
re-merger, and the number, names, kinds and parameter indices of the variables. -/
def SplitFrame (s s' : CFG) : Prop :=
  s'.data.param_ids = s.data.param_ids ∧
  s'.data.local_var_ids = s.data.local_var_ids ∧
  s'.data.rebound = s.data.rebound ∧
  s'.data.todo_var = s.data.todo_var ∧
  s'.data.todo_parts = s.data.todo_parts ∧
  s'.data.root = s.data.root ∧
  s'.data.vars.map (fun vd => (vd.name, vd.type, vd.param_i)) =
    s.data.vars.map (fun vd => (vd.name, vd.type, vd.param_i))

/-- Whether the node of usage `i` was visited by a forward walk (`node_was` is not
zero). -/
def usage_visited (s : CFG) (i : Nat) : Bool :=
  match s.usage_data i with
  | some u =>
    match u.node with
    | some n => s.node_was n != 0
    | none => false
  | none => false

/-- The partition id of usage `i` of variable `var`: the `part_id` of the
representative of its union-find set, when it is set. -/
def usage_part (s : CFG) (var : VarPtr) (i : Nat) : Option Nat :=
  match get_var_split s var with
  | some var_split =>
    match s.usage_data (dsu_get var_split.parent i) with
    | some uu => if uu.part_id < 0 then none else some uu.part_id.toNat
    | none => none
  | none => none

/-- The usages of `usage_gen` on visited nodes whose partition id is `k`, oldest
first. -/
def part_usages (s : CFG) (var : VarPtr) (usage_gen : List Nat) (k : Nat) : List Nat :=
  usage_gen.filter fun i => usage_visited s i && (usage_part s var i == some k)

/-- The vertices of a list of usages. -/
def usage_vertices (s : CFG) (l : List Nat) : List Vertex :=
  l.filterMap fun i => (s.usage_data i).map fun u => u.v

/-- The function `function f() { if ($c) { $x = 1; } echo $x; }`; `$c` is variable
0 and `$x` variable 1. -/
def sample_if_without_else : Vertex :=
  mk_function
    [mk_op 3 Operation.op_if
      [mk_var 4 0, mk_op 5 Operation.op_seq [mk_op 6 Operation.op_set [mk_var 7 1, mk_const 8 "1"]]],
     mk_op 9 Operation.op_echo [mk_var 10 1]]

/-- The function
`function f() { $x = 1; echo $x; $x = "s"; echo $x; return; echo $x; }`; `$x` is
variable 0, its occurrences are the vertices 4, 7, 9, 12 and 15. -/
def sample_dead_usage : Vertex :=
  mk_function
    [mk_op 3 Operation.op_set [mk_var 4 0, mk_const 5 "1"],
     mk_op 6 Operation.op_echo [mk_var 7 0],
     mk_op 8 Operation.op_set [mk_var 9 0, mk_const 10 "s"],
     mk_op 11 Operation.op_echo [mk_var 12 0],
     mk_op 13 Operation.op_return [],
     mk_op 14 Operation.op_echo [mk_var 15 0]]

/-- The state of the pass on a function with root `root` and locals `names` after
the graph is built and the forward walk is done. -/
def built_state (fuel : Nat) (root : Vertex) (names : List String) : CFG :=
  state_after (process_function_build fuel { data := mk_data root names })

/-- The ids of the vertices of the parts. -/
def parts_ids (parts : List (List Vertex)) : List (List Nat) :=
  parts.map fun p => p.map fun v => v.id

/-- The ids of the vertices of all usages created for `var`, oldest first. -/
def usage_gen_ids (s : CFG) (var : VarPtr) : List Nat :=
  match get_var_split s var with
  | some var_split => (usage_vertices s var_split.usage_gen).map fun v => v.id
  | none => []

/-- Usage `a` is a usage of variable `x` whose data satisfies `p`. -/
def usage_is (s : CFG) (x : VarPtr) (a : Nat) (p : UsageData → Prop) : Prop :=
  ∃ u, s.usage_data a = some u ∧ s.data.get_var_id u.v = some x ∧ p u

/-- Usage `a` is a plain (non-weak) `Read` of `x`. -/
def plain_read (s : CFG) (x : VarPtr) (a : Nat) : Prop :=
  usage_is s x a fun u => u.type = UsageType.usage_read_t ∧ u.weak_write_flag = false

/-- Usage `a` is a `Write` of `x` or a usage of `x` with the weak-write flag. -/
def write_or_weak (s : CFG) (x : VarPtr) (a : Nat) : Prop :=
  usage_is s x a fun u => u.type = UsageType.usage_write_t ∨ u.weak_write_flag = true

/-- Node `n` carries a `Write` usage or a weak-write usage of `x`. -/
def carries_write_or_weak (s : CFG) (x : VarPtr) (n : Nat) : Prop :=
  ∃ a ∈ s.node_usages n, write_or_weak s x a

/-- Node `n` carries a plain `Read` usage of `x`. -/
def carries_plain_read (s : CFG) (x : VarPtr) (n : Nat) : Prop :=
  ∃ a ∈ s.node_usages n, plain_read s x a

/-- One step of a path along which `x` is not yet written: an edge from a node that
carries neither a `Write` nor a weak-write usage of `x`. -/
def clear_step (s : CFG) (x : VarPtr) (n m : Nat) : Prop :=
  m ∈ s.node_next n ∧ ¬ carries_write_or_weak s x n

/-- The number of nodes below `N` that the current search has not visited. -/
def unvisited (s : CFG) (N : Nat) : Nat :=
  ((List.range N).filter fun n => s.node_was n != s.cur_dfs_mark).length

/-- Two states agree on everything but `node_was`. -/
def same_but_was (s s' : CFG) : Prop :=
  s' = { s with node_was := s'.node_was }

/-- What a search from `v` that starts in state `s` and ends in state `s'` with
result `r` has established. -/
structure SearchPost (x : VarPtr) (s : CFG) (v : Nat) (r : UsagePtr) (s' : CFG) : Prop where
  frame : same_but_was s s'
  grow : ∀ n, s.node_was n = s.cur_dfs_mark → s'.node_was n = s.cur_dfs_mark
  sound : ∀ a, r = some a →
    plain_read s x a ∧ ∃ n, a ∈ s.node_usages n ∧ Relation.ReflTransGen (clear_step s x) v n
  visited : r = none → s'.node_was v = s.cur_dfs_mark
  closed : r = none → ∀ n, s.node_was n ≠ s.cur_dfs_mark → s'.node_was n = s.cur_dfs_mark →
    ¬ carries_plain_read s x n ∧
    (¬ carries_write_or_weak s x n → ∀ m ∈ s.node_next n, s'.node_was m = s.cur_dfs_mark)

/-- What the loop over the successors `l` has established. -/
structure SearchLoopPost (x : VarPtr) (s : CFG) (l : List Nat) (r : UsagePtr) (s' : CFG) :
    Prop where
  frame : same_but_was s s'
  grow : ∀ n, s.node_was n = s.cur_dfs_mark → s'.node_was n = s.cur_dfs_mark
  sound : ∀ a, r = some a →
    plain_read s x a ∧
      ∃ i ∈ l, ∃ n, a ∈ s.node_usages n ∧ Relation.ReflTransGen (clear_step s x) i n
  visited : r = none → ∀ i ∈ l, s'.node_was i = s.cur_dfs_mark
  closed : r = none → ∀ n, s.node_was n ≠ s.cur_dfs_mark → s'.node_was n = s.cur_dfs_mark →
    ¬ carries_plain_read s x n ∧
    (¬ carries_write_or_weak s x n → ∀ m ∈ s.node_next n, s'.node_was m = s.cur_dfs_mark)

/-- The list of possibly uninitialised occurrences has grown by at most `k`. -/
def UninitedGrow (k : Nat) (s s' : CFG) : Prop :=
  s'.data.uninited_vars.length ≤ s.data.uninited_vars.length + k

/-- The state in which `process_var` starts the search for variable 1 of
`sample_if_without_else`: the built graph with the search counter advanced. -/
def sample_search_state : CFG :=
  { built_state 30 sample_if_without_else ["c", "x"] with cur_dfs_mark := 2 }

/-- Usages `i` and `j` of variable `x` are in the same union-find set. -/
def same_set (s : CFG) (x : VarPtr) (i j : Nat) : Prop :=
  ∃ var_split, get_var_split s x = some var_split ∧
    dsu_get var_split.parent i = dsu_get var_split.parent j

/-- Node `n` carries a `Write` usage of `x`. -/
def carries_write (s : CFG) (x : VarPtr) (n : Nat) : Prop :=
  ∃ a ∈ s.node_usages n, usage_is s x a fun u => u.type = UsageType.usage_write_t

/-- The number of nodes below `N` that no backward walk has marked. -/
def unmarked (s : CFG) (N : Nat) : Nat :=
  ((List.range N).filter fun n => (s.node_mark n).isNone).length

/-- Two states agree on everything but the marks of the backward walk and the
union-find structure of `x`, whose list of usages is the same. -/
def same_but_marks (x : VarPtr) (s s' : CFG) : Prop :=
  s' = { s with node_mark := s'.node_mark, var_split_data := s'.var_split_data } ∧
  (∀ y, y ≠ x → s'.var_split_data y = s.var_split_data y) ∧
  (∀ vs, s.var_split_data x = some vs →
    ∃ vs', s'.var_split_data x = some vs' ∧ vs'.usage_gen = vs.usage_gen)

/-- The facts about a state that the backward walks for `x` rely on and keep: the
predecessors of nodes below `N` are below `N`, the usages attached to nodes below `N`
have their data, `x` has a split state, and every mark is a usage of `x`. -/
structure WalkPre (x : VarPtr) (N : Nat) (s : CFG) : Prop where
  fin : ∀ n, n < N → ∀ m, m ∈ s.node_prev n → m < N
  data : ∀ n, n < N → ∀ a, a ∈ s.node_usages n → (s.usage_data a).isSome = true
  split : (get_var_split s x).isSome = true
  marks : ∀ n m, s.node_mark n = some m → usage_is s x m fun _ => True

/-- What backward walks with usages of `x` have established: only the marks and the
union-find sets of `x` changed, marks persist and are usages of `x`, sets only grow,
and every node marked by the walks has its mark in one set with every usage of `x`
attached to it and, unless the node carries a `Write` of `x`, all its predecessors
are marked with marks in that set. -/
structure WalkPost (x : VarPtr) (s s' : CFG) : Prop where
  frame : same_but_marks x s s'
  keep : ∀ n m, s.node_mark n = some m → s'.node_mark n = some m
  grow : ∀ i j, same_set s x i j → same_set s' x i j
  marks : ∀ n m, s'.node_mark n = some m → usage_is s x m fun _ => True
  closed : ∀ n, s.node_mark n = none → ∀ m, s'.node_mark n = some m →
    (∀ a ∈ s.node_usages n, (usage_is s x a fun _ => True) → same_set s' x m a) ∧
    (¬ carries_write s x n →
      ∀ p ∈ s.node_prev n, ∃ m', s'.node_mark p = some m' ∧ same_set s' x m m')

/-- Usage `a` is a well-formed usage of `x`: it has its data, it is of `x`, and it is
attached to its node, which lies below `N`. -/
def usage_wf (s : CFG) (x : VarPtr) (N a : Nat) : Bool :=
  match s.usage_data a with
  | some u =>
    decide (s.data.get_var_id u.v = some x) &&
      match u.node with
      | some n => decide (n < N) && decide (a ∈ s.node_usages n)
      | none => false
  | none => false

/-- Usage `a` is a usage of `x` with a node: it has its data, it is of `x`, and its
node lies below `N`. -/
def usage_sited (s : CFG) (x : VarPtr) (N a : Nat) : Prop :=
  ∃ u n, s.usage_data a = some u ∧ s.data.get_var_id u.v = some x ∧ u.node = some n ∧ n < N

/-- Usage `a` is a usage of `x` in its place: it has its data, it is of `x`, its node
lies below `N`, and a usage of `x` attached to that node is in the union-find set of
`a`: the usage itself, or, when `compress_usages` has removed it from the node, the
usage that was kept there. -/
def usage_placed (s : CFG) (x : VarPtr) (N a : Nat) : Bool :=
  match s.usage_data a, get_var_split s x with
  | some u, some var_split =>
    decide (s.data.get_var_id u.v = some x) &&
      match u.node with
      | some n => decide (n < N) && (s.node_usages n).any fun b =>
          decide (usage_var s b = some x) &&
            decide (dsu_get var_split.parent a = dsu_get var_split.parent b)
      | none => false
  | _, _ => false

/-- The node of usage `a`, `a->node`. -/
def usage_node (s : CFG) (a : Nat) : Node :=
  match s.usage_data a with
  | some u => u.node
  | none => none

/-- One step of a path behind a write: an edge to a node that carries no `Write` of
`x`. -/
def no_write_step (s : CFG) (x : VarPtr) (n m : Nat) : Prop :=
  m ∈ s.node_next n ∧ ¬ carries_write s x m

/-- The first part of `dfs` on an unmarked node: the mark and the loop over the
usages of the node, without the loop over the predecessors. -/
def dfs_mark_and_usages (v usage : Nat) : M Unit := do
  let s ← get_state
  modify_state fun s => { s with node_mark := upd s.node_mark v (some usage) }
  let _ ← dfs_usages usage (s.node_usages v) false
  pure ()

/-- The function `function f() { $x = 1; echo $x + $x; }`; `$x` is variable 0, its
occurrences are the vertices 4, 8 and 9. -/
def sample_double_read : Vertex :=
  mk_function
    [mk_op 3 Operation.op_set [mk_var 4 0, mk_const 5 "1"],
     mk_op 6 Operation.op_echo [mk_op 7 Operation.op_add [mk_var 8 0, mk_var 9 0]]]

/-- The state in which the backward walks for `$x` of `sample_double_read` start: the
graph is built and the marks are cleared. -/
def sample_walk_state : CFG :=
  { built_state 30 sample_double_read ["x"] with node_mark := fun _ => none }

/-- Numeric code of a node pointer: 0 for the null node, the id plus one otherwise. -/
def node_code (a : Node) : Nat :=
  match a with
  | none => 0
  | some n => n + 1

/-- Node pointer `a` is null or a node of the range from `g` up to, not including,
`G`. -/
@[reducible]
def NodeIn (g G : Nat) (a : Node) : Prop :=
  node_code a = 0 ∨ (g < node_code a ∧ node_code a ≤ G)

/-- Frame stack `new` arises from `old` by appending nodes of the range `[g, G)` to
its frames and pushing `k` further frames that hold nodes of that range only. -/
def FramesExt (g G k : Nat) (old new : List (List Node)) : Prop :=
  new.length = old.length + k ∧
  (∀ (i : Nat) (f : List Node), old[i]? = some f →
    ∃ ext : List Node, new[i]? = some (f ++ ext) ∧ ∀ x ∈ ext, NodeIn g G x) ∧
  (∀ (i : Nat) (f : List Node), old.length ≤ i → new[i]? = some f → ∀ x ∈ f, NodeIn g G x)

/-- State `s` arises from `s0` inside the construction of one vertex that started
with `g` nodes: the nodes below `g` are as they were, the edges of the nodes from
`g` on stay among these nodes, the frame stacks are extended by such nodes with `k`
more loop frames and `j` more try frames, and the function record is unchanged. -/
structure Mid (g k j : Nat) (s0 s : CFG) : Prop where
  le : g ≤ s.node_gen
  next_below : ∀ n, n < g → s.node_next n = s0.node_next n
  prev_below : ∀ n, n < g → s.node_prev n = s0.node_prev n
  usages_below : ∀ n, n < g → s.node_usages n = s0.node_usages n
  subtrees_below : ∀ n, n < g → s.node_subtrees n = s0.node_subtrees n
  next_local : ∀ n m, g ≤ n → n < s.node_gen → m ∈ s.node_next n → g ≤ m ∧ m < s.node_gen
  prev_local : ∀ n m, g ≤ n → n < s.node_gen → m ∈ s.node_prev n → g ≤ m ∧ m < s.node_gen
  brk : FramesExt g s.node_gen k s0.break_nodes s.break_nodes
  cont : FramesExt g s.node_gen k s0.continue_nodes s.continue_nodes
  exc : FramesExt g s.node_gen j s0.exception_nodes s.exception_nodes
  data : s.data = s0.data

/-- The graph of a vertex was built from `s` to `s'` with start and finish `r`: the
nodes that existed are untouched, the new nodes have edges among themselves only,
the frame stacks are extended by new nodes, the start is a new node and the finish
is null or a new node. -/
def Built (s : CFG) (r : Node × Node) (s' : CFG) : Prop :=
  Mid s.node_gen 0 0 s s' ∧
  (s.node_gen < node_code r.1 ∧ node_code r.1 ≤ s'.node_gen) ∧
  NodeIn s.node_gen s'.node_gen r.2

/-- The graph of a condition was built from `s` to `s'` with start, true exit and
false exit `r`. -/
def BuiltCond (s : CFG) (r : Node × Node × Node) (s' : CFG) : Prop :=
  Mid s.node_gen 0 0 s s' ∧
  (s.node_gen < node_code r.1 ∧ node_code r.1 ≤ s'.node_gen) ∧
  NodeIn s.node_gen s'.node_gen r.2.1 ∧ NodeIn s.node_gen s'.node_gen r.2.2

/-- Only the usages and markers of nodes from `g` on, the store of usages and the
union-find structures changed. -/
def NodeData (g : Nat) (s s' : CFG) : Prop :=
  s'.node_gen = s.node_gen ∧ s'.node_next = s.node_next ∧ s'.node_prev = s.node_prev ∧
  s'.break_nodes = s.break_nodes ∧ s'.continue_nodes = s.continue_nodes ∧
  s'.exception_nodes = s.exception_nodes ∧ s'.data = s.data ∧
  (∀ n, n < g → s'.node_usages n = s.node_usages n) ∧
  (∀ n, n < g → s'.node_subtrees n = s.node_subtrees n)

/-- Every successful run of the builder `cfg` builds a graph in the sense of `Built`. -/
def CfgOk (cfg : Vertex → M (Node × Node)) : Prop :=
  ∀ v s r s', cfg v s = Except.ok (r, s') → Built s r s'

/-- Every successful run of the condition builder builds a graph in the sense of
`BuiltCond`. -/
def CondOk (cond_cfg : Vertex → M (Node × Node × Node)) : Prop :=
  ∀ v s r s', cond_cfg v s = Except.ok (r, s') → BuiltCond s r s'

/-- Every successful run of the builder with flags builds a graph in the sense of
`Built`. -/
def CfgOk3 (cfg : Vertex → Bool → Bool → M (Node × Node)) : Prop :=
  ∀ v w ww s r s', cfg v w ww s = Except.ok (r, s') → Built s r s'

/-- Every successful run of `m` builds a graph in the sense of `Built`. -/
def BuiltM (m : M (Node × Node)) : Prop :=
  ∀ s r s', m s = Except.ok (r, s') → Built s r s'

/-- Every successful run of `m` builds a graph in the sense of `BuiltCond`. -/
def BuiltCondM (m : M (Node × Node × Node)) : Prop :=
  ∀ s r s', m s = Except.ok (r, s') → BuiltCond s r s'

/-- The statement `throw e;` with a constant in place of the thrown value. -/
def sample_throw : Vertex :=
  mk_op 1 Operation.op_throw [mk_const 2 "e"]

/-- The function `function f() { $a[1] = 2; }`; `$a` is variable 0, its occurrence is
vertex 5. -/
def sample_index_assign : Vertex :=
  mk_function
    [mk_op 3 Operation.op_set
      [mk_op 4 Operation.op_index [mk_var 5 0, mk_const 6 "1"], mk_const 7 "2"]]

/-- The vertex id, kind and weak-write flag of usage `a`. -/
def usage_summary (s : CFG) (a : Nat) : Option (Nat × UsageType × Bool) :=
  (s.usage_data a).map fun u => (u.v.id, u.type, u.weak_write_flag)

/-- A call without arguments of a function with the given `can_throw` flag. -/
def mk_call (i : Nat) (can_throw : Bool) : Vertex :=
  Vertex.mk i Operation.op_func_call { func_id := some { params := [], can_throw := can_throw } } []

/-- The expression `f() + g()` where `f` may throw and `g` does not. -/
def sample_throwing_then_plain : Vertex :=
  mk_op 1 Operation.op_add [mk_call 2 true, mk_call 3 false]

/-- The expression `g() + f()` where `g` does not throw and `f` may. -/
def sample_plain_then_throwing : Vertex :=
  mk_op 1 Operation.op_add [mk_call 3 false, mk_call 2 true]

/-- The expression `(throw e) + g()` where `g` does not throw. -/
def sample_throw_then_plain : Vertex :=
  mk_op 1 Operation.op_add [mk_op 2 Operation.op_throw [mk_const 4 "e"], mk_call 3 false]

/-- The two exits of a condition graph are different nodes without successors. -/
def CondExits (s' : CFG) (r : Node × Node × Node) : Prop :=
  ∃ x y, r.2.1 = some x ∧ r.2.2 = some y ∧ x ≠ y ∧ s'.node_next x = [] ∧ s'.node_next y = []

/-- The graph `s` has an edge from node `u` to node `m`. -/
def has_succ (s : CFG) (u m : Nat) : Prop := m ∈ s.node_next u

/-- The condition `$a && $b`. -/
def sample_and : Vertex :=
  mk_op 1 Operation.op_log_and [mk_var 2 0, mk_var 3 1]

/-- Every pair of the list with two non-null components is an edge of the graph whose
source is an existing node. -/
def Has (E : List (Node × Node)) (s : CFG) : Prop :=
  ∀ p ∈ E, ∀ u m, p.1 = some u → p.2 = some m → u < s.node_gen ∧ m ∈ s.node_next u

/-- The graph has an edge from `a` to `b` when both are non-null. -/
def has_edge (s : CFG) (a b : Node) : Prop :=
  ∀ u m, a = some u → b = some m → m ∈ s.node_next u

/-- The statement `try { f(); } catch ($e) { echo "x"; }` where `f` may throw; `$e` is
variable 0 (vertex 4), the body of the catch is vertex 5. -/
def sample_try : Vertex :=
  mk_op 1 Operation.op_try
    [mk_op 2 Operation.op_seq [mk_call 3 true], mk_var 4 0,
     mk_op 5 Operation.op_seq [mk_op 6 Operation.op_echo [mk_const 7 "x"]]]

/-- The ids of the vertices whose markers node `n` carries. -/
def marker_ids (s : CFG) (n : Nat) : List Nat :=
  (s.node_subtrees n).map fun st => st.v.id

/-- The number that a list of decimal digits denotes, continuing from `acc`. -/
def digits_value (acc : Nat) (l : List Char) : Nat :=
  l.foldl (fun a c => a * 10 + (c.toNat - 48)) acc

/-- The name of the variable of part `i` of a split of `name`. -/
def split_name (name : String) (i : Nat) : String :=
  if i ≠ 0 then name ++ "$v" ++ toString i else name

/-- The vertex id of the parameter-binding occurrence of a parameter variable:
`params[var->param_i].as<op_func_param>()->var()`. -/
def param_var_id (root : Vertex) (vd : VarData) : Option Nat :=
  match (get_function_params root).get? vd.param_i.toNat with
  | some param => param.sons.head?.map fun v => v.id
  | none => none

/-- Whether a part of a split of a parameter contains the parameter-binding
occurrence (`was_var`); `false` for a local variable. -/
def is_param_part (root : Vertex) (vd : VarData) (part : List Vertex) : Bool :=
  decide (vd.type = VarType.var_param_t) &&
    match param_var_id root vd with
    | some a => part.any fun v => v.id == a
    | none => false

/-- The records of the variables that a split creates, for the parts from index `i` on. -/
def split_entries (root : Vertex) (vd : VarData) : List (List Vertex) → Nat → List VarData
  | [], _ => []
  | part :: rest, i =>
    (if is_param_part root vd part then
      { name := split_name vd.name i, type := VarType.var_param_t, param_i := vd.param_i }
    else { name := split_name vd.name i, type := VarType.var_local_t }) ::
      split_entries root vd rest (i + 1)

/-- The bindings after the occurrences of the parts are rebound, part by part, to the
variables `base`, `base + 1`, and so on. -/
def split_rebound (rb : Nat → Option VarPtr) (base : Nat) : List (List Vertex) → Nat → Option VarPtr
  | [] => rb
  | part :: rest =>
    split_rebound (fun a => if part.any (fun v => v.id == a) then some base else rb a)
      (base + 1) rest

/-- The parameter table after the parts that contain the parameter-binding occurrence
(flag `true`) have installed their variable in slot `p`. -/
def split_params (pids : List VarPtr) (p base : Nat) : List Bool → List VarPtr
  | [] => pids
  | f :: fs => split_params (if f then pids.set p base else pids) p (base + 1) fs

/-- The variables that the other parts (flag `false`) append to the table of locals. -/
def split_locals (base : Nat) : List Bool → List VarPtr
  | [] => []
  | f :: fs => (if f then [] else [base]) ++ split_locals (base + 1) fs

/-- The conditions under which `split_var` does not fail on a variable: a local is in
the table of locals; a parameter has a non-negative index that names a parameter of the
function with a variable. -/
def split_ready (d : CFGData) (var : VarPtr) (vd : VarData) : Prop :=
  (vd.type = VarType.var_local_t ∧ var ∈ d.local_var_ids) ∨
  (vd.type = VarType.var_param_t ∧ 0 ≤ vd.param_i ∧ (param_var_id d.root vd).isSome = true)

/-- A function record with the single local `x` (variable 0), for a split into the two
occurrences with vertex ids 10 and 11. -/
def sample_split_data : CFGData :=
  mk_data (mk_function []) ["x"]

/-- The two parts of the sample split. -/
def sample_split_parts : List (List Vertex) :=
  [[mk_var 10 0], [mk_var 11 0]]

/-- A function with the single parameter `p` (variable 0), whose parameter-binding
occurrence is the vertex 4. -/
def sample_param_data : CFGData :=
  { root := mk_op 0 Operation.op_function
      [mk_op 1 Operation.op_func_param_list [mk_op 3 Operation.op_func_param [mk_var 4 0]],
       mk_op 2 Operation.op_seq []]
    param_ids := [0]
    vars := [{ name := "p", type := VarType.var_param_t, param_i := 0 }] }

/-- Two parts of the parameter of the sample: the second holds the parameter-binding
occurrence. -/
def sample_param_parts : List (List Vertex) :=
  [[mk_var 10 0], [mk_var 4 0, mk_var 11 0]]

/-- An entry of the sort of `merge_same_type` (`MergeData`): the index of a part and the
variable of the part. -/
structure MergeData where
  id : Nat
  var : VarPtr
  deriving DecidableEq, Repr

/-- The record of a variable whose pointer has been checked, `*var`. -/
def CFGData.var_data (d : CFGData) (x : VarPtr) : VarData :=
  d.vars.getD x { name := "", type := VarType.var_unknown_t }

/-- The comparison `cmp_merge_data`: by the rendered type signature
(`type_out(tinf::get_type(var))`, the field `tinf`), then by the name. -/
def cmp_merge_data (d : CFGData) (a b : MergeData) : Bool :=
  if (d.var_data a.var).tinf = (d.var_data b.var).tinf then
    decide ((d.var_data a.var).name < (d.var_data b.var).name)
  else decide ((d.var_data a.var).tinf < (d.var_data b.var).tinf)

/-- The test `eq_merge_data`: equal rendered type signatures. -/
def eq_merge_data (d : CFGData) (a b : MergeData) : Bool :=
  decide ((d.var_data a.var).tinf = (d.var_data b.var).tinf)

/-- The call `sort(to_merge.begin(), to_merge.end(), cmp_merge_data)`, as an insertion
sort: an entry is placed before the first entry that is not less than it.  (The order
that `std::sort` gives to entries of which neither is less than the other is not
specified; here they keep their order.) -/
def sort_merge_data (d : CFGData) (l : List MergeData) : List MergeData :=
  l.insertionSort fun a b => cmp_merge_data d b a = false

/-- The variable of a part, `parts[id][0]->get_var_id()`, which every path of
`merge_same_type` dereferences: a missing part, an empty part, a null variable and a
variable outside the table are bad accesses. -/
def fragment (d : CFGData) (parts : List (List Vertex)) (id : Nat) : Except Err VarPtr :=
  match parts.get? id with
  | none => Except.error Err.bad_access
  | some part =>
    match part.head? with
    | none => Except.error Err.bad_access
    | some v =>
      match d.get_var_id v with
      | none => Except.error Err.bad_access
      | some x => if x < d.vars.length then Except.ok x else Except.error Err.bad_access

/-- The loop that fills `to_merge`, from the part with index `i` on. -/
def make_merge_data (d : CFGData) (parts : List (List Vertex)) :
    List Nat → Except Err (List MergeData)
  | [] => Except.ok []
  | i :: rest =>
    match fragment d parts i with
    | Except.error e => Except.error e
    | Except.ok x =>
      match make_merge_data d parts rest with
      | Except.error e => Except.error e
      | Except.ok l => Except.ok ({ id := i, var := x } :: l)

/-- The loop that fills `vars` from `ids` in a group of `merge_same_type`. -/
def fragments (d : CFGData) (parts : List (List Vertex)) : List Nat → Except Err (List VarPtr)
  | [] => Except.ok []
  | i :: rest =>
    match fragment d parts i with
    | Except.error e => Except.error e
    | Except.ok x =>
      match fragments d parts rest with
      | Except.error e => Except.error e
      | Except.ok l => Except.ok (x :: l)

/-- The loop of `merge_vars` over `vars`: `param_i` is the local of that name and `lids`
the table of locals of the function. -/
def merge_vars_loop (d : CFGData) : List VarPtr → Int → List VarPtr →
    Except Err (Int × List VarPtr)
  | [], param_i, lids => Except.ok (param_i, lids)
  | var :: rest, param_i, lids =>
    match d.vars.get? var with
    | none => Except.error Err.bad_access
    | some vd =>
      if vd.type = VarType.var_param_t then merge_vars_loop d rest vd.param_i lids
      else if vd.type = VarType.var_local_t then
        if var ∈ lids then merge_vars_loop d rest param_i (lids.erase var)
        else Except.error Err.assert_failed
      else Except.error Err.assert_failed

/-- Merge the variables `vars` into a new variable, `CFGData::merge_vars`; the result is
the new variable and the function record.  The new variable takes the type signature of
`vars[0]`; its `param_i` is not assigned. -/
def CFGData.merge_vars (d : CFGData) (vars : List VarPtr) (new_name : String) :
    Except Err (VarPtr × CFGData) :=
  match vars.head? with
  | none => Except.error Err.bad_access
  | some v0 =>
    match d.vars.get? v0 with
    | none => Except.error Err.bad_access
    | some vd0 =>
      let new_var : VarPtr := d.vars.length
      match merge_vars_loop d vars (-1) d.local_var_ids with
      | Except.error e => Except.error e
      | Except.ok (param_i, lids) =>
        if param_i ≠ -1 then
          if param_i < 0 then Except.error Err.bad_access
          else
            Except.ok (new_var,
              { d with
                vars := d.vars ++
                  [{ name := new_name, type := VarType.var_param_t, tinf := vd0.tinf }]
                local_var_ids := lids
                param_ids := d.param_ids.set param_i.toNat new_var })
        else
          Except.ok (new_var,
            { d with
              vars := d.vars ++
                [{ name := new_name, type := VarType.var_local_t, tinf := vd0.tinf }]
              local_var_ids := lids ++ [new_var] })

/-- The body of the test `i == n || ...` in `merge_same_type`: the parts with the indices
`ids` are merged into one variable, named after the variable of the first of them, and
their occurrences are bound to it. -/
def merge_group (parts : List (List Vertex)) (ids : List Nat) (d : CFGData) :
    Except Err CFGData :=
  match fragments d parts ids with
  | Except.error e => Except.error e
  | Except.ok vars =>
    match vars.head? with
    | none => Except.error Err.bad_access
    | some v0 =>
      match d.vars.get? v0 with
      | none => Except.error Err.bad_access
      | some vd0 =>
        match d.merge_vars vars vd0.name with
        | Except.error e => Except.error e
        | Except.ok (new_var, d1) =>
          Except.ok
            { d1 with
              rebound := fun a =>
                if ids.any (fun id => (parts.getD id []).any fun v => v.id == a) then some new_var
                else d1.rebound a }

/-- The loop `for (size_t i = 0; i <= n; i++)` of `merge_same_type` from the entry `i` on:
`prev` is `to_merge[i - 1]` (none for `i = 0`), the list holds `to_merge[i], ...`, and
`ids` are the indices collected since the last group. -/
def merge_groups (parts : List (List Vertex)) :
    Option MergeData → List MergeData → List Nat → CFGData → Except Err CFGData
  | _, [], ids, d => merge_group parts ids d
  | prev, x :: rest, ids, d =>
    if (match prev with
        | some p => !eq_merge_data d p x
        | none => false) then
      match merge_group parts ids d with
      | Except.error e => Except.error e
      | Except.ok d1 => merge_groups parts (some x) rest [x.id] d1
    else merge_groups parts (some x) rest (ids ++ [x.id]) d

/-- The body of the loop over `todo_parts` in `merge_same_type`, for one entry. -/
def merge_record (parts : List (List Vertex)) (d : CFGData) : Except Err CFGData :=
  match make_merge_data d parts (List.range parts.length) with
  | Except.error e => Except.error e
  | Except.ok to_merge => merge_groups parts none (sort_merge_data d to_merge) [] d

/-- The loop over `todo_parts` in `merge_same_type`. -/
def merge_records : List (List (List Vertex)) → CFGData → Except Err CFGData
  | [], d => Except.ok d
  | parts :: rest, d =>
    match merge_record parts d with
    | Except.error e => Except.error e
    | Except.ok d1 => merge_records rest d1

/-- Merge the variables of each split that have the same type signature,
`CFGData::merge_same_type`. -/
def CFGData.merge_same_type (d : CFGData) : Except Err CFGData :=
  merge_records d.todo_parts d

/-- A variable that `merge_vars` accepts, given the table of locals `lids`: a local of the
table, or a parameter with a non-negative index. -/
def mergeable (d : CFGData) (lids : List VarPtr) (x : VarPtr) : Prop :=
  ∃ vd, d.vars.get? x = some vd ∧
    ((vd.type = VarType.var_local_t ∧ x ∈ lids) ∨
      (vd.type = VarType.var_param_t ∧ 0 ≤ vd.param_i))

/-- The variable bound to the first occurrence of a part. -/
def frag (d : CFGData) (p : List Vertex) : Option VarPtr :=
  match p.head? with
  | some v => d.get_var_id v
  | none => none

/-- The test of `merge_group` whether a vertex id belongs to one of the parts `ids`. -/
def touched (parts : List (List Vertex)) (ids : List Nat) (a : Nat) : Bool :=
  ids.any fun id => (parts.getD id []).any fun v => v.id == a

/-- The calls of `merge_group` for the groups `gs`, in order. -/
def merge_runs (parts : List (List Vertex)) : List (List Nat) → CFGData → Except Err CFGData
  | [], d => Except.ok d
  | g :: gs, d =>
    match merge_group parts g d with
    | Except.error e => Except.error e
    | Except.ok d1 => merge_runs parts gs d1

/-- The groups that the loop of `merge_same_type` forms: `cur` holds the entries collected
since the last group, the list the entries still to come; a new group starts where the
type signature `t` changes. -/
def runs (t : MergeData → String) : List MergeData → List MergeData → List (List MergeData)
  | cur, [] => [cur]
  | cur, x :: rest =>
    match cur.getLast? with
    | none => runs t [x] rest
    | some p => if t p = t x then runs t (cur ++ [x]) rest else cur :: runs t [x] rest

/-- The type signature of the variable of an entry. -/
def entry_tinf (d : CFGData) (x : MergeData) : String :=
  (d.var_data x.var).tinf

/-- The name of the variable of an entry. -/
def entry_name (d : CFGData) (x : MergeData) : String :=
  (d.var_data x.var).name

/-- The parts can be merged in the state `d`: the first occurrence of each part is bound to
a mergeable variable, and different parts have different variables and no occurrence in
common. -/
def parts_ready (d : CFGData) (ps : List (List Vertex)) : Prop :=
  (∀ p ∈ ps, ∃ x, frag d p = some x ∧ mergeable d d.local_var_ids x) ∧
  ps.Pairwise fun p q => frag d p ≠ frag d q ∧ ∀ v ∈ p, ∀ w ∈ q, v.id ≠ w.id

/-- The result of merging the parts of one queue entry, from the state `d` to the state
`d'`: the occurrences of each part are bound to a new variable `m`, which has the type
signature of the part's variable and the least name among the parts with that type
signature; parts with the same type signature get the same variable; when all of them were
locals the new variable is a local of the table of locals. -/
def record_merged (parts : List (List Vertex)) (d d' : CFGData) : Prop :=
  ∀ pi ∈ parts, ∀ xi, frag d pi = some xi →
    ∃ m e, d.vars.length ≤ m ∧ d'.vars.get? m = some e ∧
      e.tinf = (d.var_data xi).tinf ∧
      (∃ pl ∈ parts, ∃ xl, frag d pl = some xl ∧
        (d.var_data xl).tinf = (d.var_data xi).tinf ∧ e.name = (d.var_data xl).name) ∧
      (∀ pj ∈ parts, ∀ xj, frag d pj = some xj →
        (d.var_data xj).tinf = (d.var_data xi).tinf →
        e.name ≤ (d.var_data xj).name ∧ ∀ w ∈ pj, d'.rebound w.id = some m) ∧
      ((∀ pj ∈ parts, ∀ xj, frag d pj = some xj →
          (d.var_data xj).tinf = (d.var_data xi).tinf →
          (d.var_data xj).type = VarType.var_local_t) →
        e.type = VarType.var_local_t ∧ e.param_i = -1 ∧ m ∈ d'.local_var_ids)

/-- Whether `merge_vars` accepts the variable: a local of the table of locals or a
parameter with a non-negative index. -/
def var_mergeable (d : CFGData) (x : VarPtr) : Bool :=
  match d.vars.get? x with
  | some vd =>
    (decide (vd.type = VarType.var_local_t) && decide (x ∈ d.local_var_ids)) ||
      (decide (vd.type = VarType.var_param_t) && decide (0 ≤ vd.param_i))
  | none => false

/-- Whether the first occurrence of the part is bound to a variable that `merge_vars`
accepts. -/
def part_mergeable (d : CFGData) (p : List Vertex) : Bool :=
  match frag d p with
  | some x => var_mergeable d x
  | none => false

/-- The state of the queue of splits that `split_var` leaves for `merge_same_type`: no
queue entry is empty, every part starts with an occurrence of a variable that
`merge_vars` accepts, and different parts (of the same or of different entries) have
different variables and no occurrence in common. -/
def merge_ready (d : CFGData) : Prop :=
  (∀ parts ∈ d.todo_parts, 0 < parts.length) ∧
  (∀ p ∈ d.todo_parts.flatten, part_mergeable d p = true) ∧
  d.todo_parts.flatten.Pairwise fun p q =>
    frag d p ≠ frag d q ∧ ∀ v ∈ p, ∀ w ∈ q, v.id ≠ w.id

/-- A queue entry with three fragments of `x`, of the type signatures `int`, `string` and
`int`. -/
def sample_merge_data : CFGData :=
  { root := mk_function []
    local_var_ids := [1, 2, 3]
    vars := [{ name := "x", type := VarType.var_local_t },
      { name := "x", type := VarType.var_local_t, tinf := "int" },
      { name := "x$v1", type := VarType.var_local_t, tinf := "string" },
      { name := "x$v2", type := VarType.var_local_t, tinf := "int" }]
    todo_var := [0]
    todo_parts := [[[mk_var 10 1], [mk_var 11 2, mk_var 13 2], [mk_var 12 3]]] }

/-- The table of locals holds variables of the variable table, and a variable with an
index from `L` on is held at most once. -/
def locals_ok (L : Nat) (d : CFGData) : Prop :=
  (∀ y ∈ d.local_var_ids, y < d.vars.length) ∧
  ∀ y : Nat, L ≤ y → d.local_var_ids.count y ≤ 1

/-- What a step of the merge keeps, whether or not the queue is as `split_var` leaves it:
the variable table is extended, the bindings of the occurrences outside `ids` stay, no
earlier variable is added to the table of locals, and `locals_ok` stays. -/
def merge_frame (ids : Nat → Prop) (d d' : CFGData) : Prop :=
  (∃ es, d'.vars = d.vars ++ es) ∧
  (∀ a, ¬ ids a → d'.rebound a = d.rebound a) ∧
  (∀ y : Nat, y < d.vars.length → d'.local_var_ids.count y ≤ d.local_var_ids.count y) ∧
  (∀ L, locals_ok L d → locals_ok L d') ∧
  d'.todo_parts = d.todo_parts

/-- The error of a failed run; none for a run that succeeds. -/
def failure {α : Type} (r : Except Err α) : Option Err :=
  match r with
  | Except.error e => some e
  | Except.ok _ => none

/-- The queue after the split of the local `x` into two parts, both fragments with the
type signature `int`. -/
def sample_same_type_data : CFGData :=
  { root := mk_function []
    local_var_ids := [1, 2]
    vars := [{ name := "x", type := VarType.var_local_t },
      { name := "x", type := VarType.var_local_t, tinf := "int" },
      { name := "x$v1", type := VarType.var_local_t, tinf := "int" }]
    todo_var := [0]
    todo_parts := [[[mk_var 10 1], [mk_var 11 2]]] }

/-- Every edge that leaves a node from `lo` on either stays inside one of the node ranges
`B` (from the first component up to, not including, the second) or is one of the pairs of
the list `E`. -/
def Cen (lo : Nat) (B : List (Nat × Nat)) (E : List (Node × Node)) (s : CFG) : Prop :=
  ∀ n m, lo ≤ n → n < s.node_gen → m ∈ s.node_next n →
    (∃ b ∈ B, b.1 ≤ n ∧ n < b.2 ∧ b.1 ≤ m ∧ m < b.2) ∨ (some n, some m) ∈ E

/-- The edges that the rounds `R` of the loop over the cases of a switch add, in the order
of the calls of `add_edge`; `pf` and `pvf` are `prev_finish` and `prev_var_finish` before
the first of the rounds. -/
def loop_edges (pf pvf : Node) : List CaseNodes → List (Node × Node)
  | [] => []
  | r :: rest =>
    (pf, r.cur_start) ::
      ((match r.guard with
        | some (gs, gf) => [(gf, r.cur_start), (pvf, gs)]
        | none => []) ++
      loop_edges r.cur_finish
        (match r.guard with
          | some (_, gf) => gf
          | none => pvf) rest)

/-- The node ranges of the bodies and guards of the rounds. -/
def round_blocks : List CaseNodes → List (Nat × Nat)
  | [] => []
  | r :: rest =>
    (r.nodes_from, r.nodes_mid) ::
      ((match r.guard with
        | some _ => [(r.nodes_mid, r.nodes_to)]
        | none => []) ++ round_blocks rest)

/-- The variable `prev_finish` after the rounds: the finish of the last body. -/
def last_finish (pf : Node) : List CaseNodes → Node
  | [] => pf
  | r :: rest => last_finish r.cur_finish rest

/-- The variable `prev_var_finish` after the rounds: the finish of the last guard. -/
def last_guard_finish (pvf : Node) : List CaseNodes → Node
  | [] => pvf
  | r :: rest =>
    last_guard_finish
      (match r.guard with
        | some (_, gf) => gf
        | none => pvf) rest

/-- The variable `default_start` after the rounds: the start of the body of the last
default clause. -/
def last_default_start (ds : Node) : List CaseNodes → Node
  | [] => ds
  | r :: rest =>
    last_default_start
      (match r.guard with
        | some _ => ds
        | none => r.cur_start) rest

/-- The node ranges of the rounds, built one after the other from `g` nodes to `G` nodes:
the start of a body is a node of the range of the body, its finish is null or such a node,
and likewise for the guard. -/
def rounds_ok : Nat → List CaseNodes → Nat → Prop
  | g, [], G => g = G
  | g, r :: rest, G =>
    g = r.nodes_from ∧ r.nodes_from ≤ r.nodes_mid ∧ r.nodes_mid ≤ r.nodes_to ∧
    (r.nodes_from < node_code r.cur_start ∧ node_code r.cur_start ≤ r.nodes_mid) ∧
    NodeIn r.nodes_from r.nodes_mid r.cur_finish ∧
    (match r.guard with
      | some (gs, gf) =>
        (r.nodes_mid < node_code gs ∧ node_code gs ≤ r.nodes_to) ∧
          NodeIn r.nodes_mid r.nodes_to gf
      | none => r.nodes_to = r.nodes_mid) ∧
    rounds_ok r.nodes_to rest G

/-- The frame stack of break nodes keeps its height from `s` to `s'`, and the innermost
frame is extended. -/
def top_grows (s s' : CFG) : Prop :=
  s'.break_nodes.length = s.break_nodes.length ∧
  ∀ fr, s.break_nodes.getLast? = some fr →
    ∃ ext, s'.break_nodes.getLast? = some (fr ++ ext)

/-- Round `r` belongs to the clause: the body of the clause was built with the result
`cur_start`, `cur_finish` on the node range of the body, with the frame stack of break
nodes as high as in `s_end`, and the break nodes that the innermost frame held after
the body are in the innermost frame of `s_end`; for a case the guard was built with the
result `guard` on the node range of the guard. -/
def round_of (cfg : Vertex → M (Node × Node)) (s_end : CFG) (clause : Vertex)
    (r : CaseNodes) : Prop :=
  ∃ cmd sb sb',
    ((clause.type = Operation.op_case ∧ clause.sons.get? 1 = some cmd ∧
        ∃ expr gs gf sg sg', clause.sons.get? 0 = some expr ∧ r.guard = some (gs, gf) ∧
          cfg expr sg = Except.ok ((gs, gf), sg') ∧ sg.node_gen = r.nodes_mid ∧
          sg'.node_gen = r.nodes_to) ∨
      (clause.type = Operation.op_default ∧ clause.sons.get? 0 = some cmd ∧
        r.guard = none)) ∧
    cfg cmd sb = Except.ok ((r.cur_start, r.cur_finish), sb') ∧
    sb.node_gen = r.nodes_from ∧ sb'.node_gen = r.nodes_mid ∧
    sb.break_nodes.length = s_end.break_nodes.length ∧
    ∀ fr, sb'.break_nodes.getLast? = some fr →
      ∃ fe, s_end.break_nodes.getLast? = some fe ∧ ∀ x ∈ fr, x ∈ fe

/-- The edges that the rule of `op_switch` adds, in the order of the calls of `add_edge`:
`vi`, `vr` are `vars_init` and `vars_read`, `cs` and `cf` the start and finish of the
subject, `fin` the finish of the switch, `R` the rounds of the loop over the cases, and
`cont`, `brk` the innermost frames of continue and break nodes when the loop is left. -/
def switch_edges (vi vr cs cf fin : Node) (R : List CaseNodes) (cont brk : List Node) :
    List (Node × Node) :=
  (vi, vr) :: (loop_edges none cf R ++
    ((last_finish none R, fin) ::
      ((if R.any (fun r => r.guard.isNone) then
          [(last_guard_finish cf R, last_default_start none R)]
        else [(last_guard_finish cf R, fin)]) ++
      ((vr, cs) :: ((cont.map fun x => (x, fin)) ++ brk.map fun x => (x, fin))))))

/-- The statement `switch ($x) { case 1: echo "a"; case 2: echo "b"; break; default:
echo "c"; }`; the vertices 3 to 6 are the variables of the switch. -/
def sample_switch : Vertex :=
  mk_op 1 Operation.op_switch
    [mk_var 2 0, mk_var 3 1, mk_var 4 2, mk_var 5 3, mk_var 6 4,
     mk_op 7 Operation.op_case [mk_const 8 "1",
       mk_op 9 Operation.op_seq [mk_op 10 Operation.op_echo [mk_const 11 "a"]]],
     mk_op 12 Operation.op_case [mk_const 13 "2",
       mk_op 14 Operation.op_seq [mk_op 15 Operation.op_echo [mk_const 16 "b"],
         mk_op 17 Operation.op_break [mk_const 18 "1"]]],
     mk_op 19 Operation.op_default
       [mk_op 20 Operation.op_seq [mk_op 21 Operation.op_echo [mk_const 22 "c"]]]]

/-- The state in which the sample switch is built. -/
def sample_switch_start : CFG :=
  { data := mk_data sample_switch ["x", "s1", "s2", "s3", "s4"] }

/-- The state after the sample switch is built. -/
def sample_switch_state : CFG :=
  state_after (create_cfg 6 sample_switch false false sample_switch_start)

/-- The statement `switch ($x) { default: echo "c"; case 1: echo "a"; case 2: echo "b"; }`,
with the default clause in front of the cases. -/
def sample_default_first : Vertex :=
  mk_op 1 Operation.op_switch
    [mk_var 2 0, mk_var 3 1, mk_var 4 2, mk_var 5 3, mk_var 6 4,
     mk_op 7 Operation.op_default
       [mk_op 8 Operation.op_seq [mk_op 9 Operation.op_echo [mk_const 10 "c"]]],
     mk_op 11 Operation.op_case [mk_const 12 "1",
       mk_op 13 Operation.op_seq [mk_op 14 Operation.op_echo [mk_const 15 "a"]]],
     mk_op 16 Operation.op_case [mk_const 17 "2",
       mk_op 18 Operation.op_seq [mk_op 19 Operation.op_echo [mk_const 20 "b"]]]]

/-- The state in which the switch with the default in front is built. -/
def sample_default_first_start : CFG :=
  { data := mk_data sample_default_first ["x", "s1", "s2", "s3", "s4"] }

/-- The state after the switch with the default in front is built. -/
def sample_default_first_state : CFG :=
  state_after (create_cfg 6 sample_default_first false false sample_default_first_start)

/-- A relation on states that the steps of the builder on nodes, markers, edges and frame
stacks respect, and the creation and the attachment of a usage. -/
structure Stable0 (R : CFG → CFG → Prop) : Prop where
  rel : StepRel R
  node : Preserves R new_node
  usage : ∀ ty v, Preserves R (new_usage ty v)
  attach : ∀ n u, Preserves R (add_usage n u)
  marker : ∀ n m, Preserves R (add_subtree n m)
  edge : ∀ a b, Preserves R (add_edge a b)
  frames : ∀ (b c e : List (List Node)) (s : CFG),
    R s { s with break_nodes := b, continue_nodes := c, exception_nodes := e }

/-- A relation on states that every primitive step of the builder respects: creating a
node, creating and attaching a usage, attaching a marker, adding an edge, the rule of
a variable, the compression of the usages of a node, and any change of the frame
stacks. -/
structure Stable (R : CFG → CFG → Prop) : Prop where
  rel : StepRel R
  node : Preserves R new_node
  usage : ∀ ty v, Preserves R (new_usage ty v)
  attach : ∀ n u, Preserves R (add_usage n u)
  marker : ∀ n m, Preserves R (add_subtree n m)
  edge : ∀ a b, Preserves R (add_edge a b)
  var : ∀ t w ww, Preserves R (create_cfg_op_var t w ww)
  compress : ∀ n, Preserves R (compress_usages n)
  frames : ∀ (b c e : List (List Node)) (s : CFG),
    R s { s with break_nodes := b, continue_nodes := c, exception_nodes := e }

/-- The store of usages is consistent: nothing is stored from `usage_cnt` on, every
address below `usage_cnt` holds a usage, and the usages attached to nodes are
addresses below `usage_cnt`. -/
def UInv (s : CFG) : Prop :=
  (∀ a, s.usage_cnt ≤ a → s.usage_data a = none) ∧
  (∀ a, a < s.usage_cnt → (s.usage_data a).isSome = true) ∧
  (∀ n a, a ∈ s.node_usages n → a < s.usage_cnt)

/-- Every stored usage is still stored, with the same vertex and the same kind. -/
def KeepV (s s' : CFG) : Prop :=
  ∀ a ud, s.usage_data a = some ud →
    ∃ ud', s'.usage_data a = some ud' ∧ ud'.v = ud.v ∧ ud'.type = ud.type

/-- A step that keeps the store of usages consistent and keeps what it holds. -/
def UStep (s s' : CFG) : Prop :=
  UInv s → UInv s' ∧ KeepV s s' ∧ s.usage_cnt ≤ s'.usage_cnt

/-- The search marks: the counter is unchanged and every mark is as before or 0. -/
def WasStep (s s' : CFG) : Prop :=
  s'.cur_dfs_mark = s.cur_dfs_mark ∧ ∀ n, s'.node_was n = s.node_was n ∨ s'.node_was n = 0

/-- A variable that has a split state keeps one. -/
def SplitKeep (x : VarPtr) (s s' : CFG) : Prop :=
  (s.var_split_data x).isSome = true → (s'.var_split_data x).isSome = true

/-- The nodes stay and so do their edges. -/
def EdgeMono (s s' : CFG) : Prop :=
  s.node_gen ≤ s'.node_gen ∧ ∀ n m, n < s.node_gen → m ∈ s.node_next n → m ∈ s'.node_next n

/-- No usage of `x` is attached to a node from `lo` up to, not including, `hi`. -/
def NoUse (x : VarPtr) (s : CFG) (lo hi : Nat) : Prop :=
  ∀ n, lo ≤ n → n < hi → ∀ a ∈ s.node_usages n, usage_var s a ≠ some x

/-- The builder `m`, run in a state that holds the function record `d` and a split
state for `x`, builds a graph whose nodes carry no usage of `x`. -/
def Free (d : CFGData) (x : VarPtr) (m : M (Node × Node)) : Prop :=
  ∀ s r s', m s = Except.ok (r, s') → s.data = d → (s.var_split_data x).isSome = true →
    NoUse x s' s.node_gen s'.node_gen

/-- The builder `m`, run in such a state, builds a graph whose nodes carry no usage of
`x` and in which a path leads from the start to the finish. -/
def PassesFree (d : CFGData) (x : VarPtr) (m : M (Node × Node)) : Prop :=
  ∀ s a b s', m s = Except.ok ((a, b), s') → s.data = d →
    (s.var_split_data x).isSome = true →
    NoUse x s' s.node_gen s'.node_gen ∧
      ∃ p q, a = some p ∧ b = some q ∧ Relation.ReflTransGen (fun n k => k ∈ s'.node_next n) p q

/-- The condition builder `m`, run in such a state, builds a graph whose nodes carry no
usage of `x` and in which a path leads from the start to the false exit. -/
def CondFree (d : CFGData) (x : VarPtr) (m : M (Node × Node × Node)) : Prop :=
  ∀ s a t f s', m s = Except.ok ((a, t, f), s') → s.data = d →
    (s.var_split_data x).isSome = true →
    NoUse x s' s.node_gen s'.node_gen ∧
      ∃ p q, a = some p ∧ f = some q ∧ Relation.ReflTransGen (fun n k => k ∈ s'.node_next n) p q

/-- The builder `m` of the statement `S`, run in such a state, builds a graph in which a
path leads from the start to a node with a plain `Read` of `x` through nodes without a
`Write` or weak-write usage of `x`; the usages attached to its nodes are occurrences in
`S`. -/
def ReadsFirst (d : CFGData) (x : VarPtr) (S : Vertex) (m : M (Node × Node)) : Prop :=
  ∀ s a b s', m s = Except.ok ((a, b), s') → s.data = d →
    (s.var_split_data x).isSome = true →
    (∃ p n, a = some p ∧ Relation.ReflTransGen (clear_step s' x) p n ∧
      carries_plain_read s' x n) ∧
    ∀ n, s.node_gen ≤ n → n < s'.node_gen → ∀ u ∈ s'.node_usages n, ∀ ud,
      s'.usage_data u = some ud → ud.v ∈ S.subtree

/-- What a later step of the construction keeps of a state with at least `g` nodes: the
usages attached to the nodes below `g`, the nodes and edges, the store of usages, the
function record, the split state of `x` and the search marks. -/
def Later (x : VarPtr) (g : Nat) (s s' : CFG) : Prop :=
  (∀ n, n < g → s'.node_usages n = s.node_usages n) ∧ EdgeMono s s' ∧ UStep s s' ∧
    s'.data = s.data ∧ SplitKeep x s s' ∧ WasStep s s'

/-- The forward walk changes the search marks and the confirmations only, and a mark is
as before or the current search counter. -/
def WalkKeep (s s' : CFG) : Prop :=
  s'.node_next = s.node_next ∧ s'.node_usages = s.node_usages ∧ s'.usage_data = s.usage_data ∧
    s'.usage_cnt = s.usage_cnt ∧ s'.data = s.data ∧ s'.node_gen = s.node_gen ∧
    s'.var_split_data = s.var_split_data ∧ s'.current_start = s.current_start ∧
    s'.cur_dfs_mark = s.cur_dfs_mark ∧
    ∀ n, s'.node_was n = s.node_was n ∨ s'.node_was n = s.cur_dfs_mark

/-- The state in which `process_function` builds the graph: the function record, a
split state for every splittable variable and nothing else. -/
def start_state (d : CFGData) (vars : List VarPtr) : CFG :=
  { data := d, var_split_data := init_var_split vars (fun _ => none), cur_dfs_mark := 0 }

/-- Two states hold the same usages: the same lists at the nodes, the same store and the
same function record. -/
def SameStore (s s' : CFG) : Prop :=
  s'.node_usages = s.node_usages ∧ s'.usage_data = s.usage_data ∧ s'.data = s.data ∧
    s'.node_gen = s.node_gen ∧ s'.var_split_data = s.var_split_data

/-- The search of `process_var` for a variable that is not a parameter: the statements
of `process_var` from the increment of `cur_dfs_mark` to the call of `uninited`. -/
def process_var_uninited (fuel : Nat) (var : VarPtr) : M Unit := do
  modify_state fun s => { s with cur_dfs_mark := s.cur_dfs_mark + 1 }
  let s ← get_state
  let start ← node_id s.current_start
  let uninited ← search_uninited fuel start var
  match uninited with
  | some a => do
    let u ← usage_at a
    modify_state fun s => { s with data := s.data.uninited u.v }
  | none => pure ()

/-- The function `function f() { if ($c) { $x = 1; } { $x = 2; echo $x; } }`; `$c` is
variable 0 and `$x` variable 1, the occurrence of `$x` in `echo $x` is vertex 14. -/
def sample_write_then_read : Vertex :=
  mk_function
    [mk_op 3 Operation.op_if
      [mk_var 4 0, mk_op 5 Operation.op_seq [mk_op 6 Operation.op_set [mk_var 7 1, mk_const 8 "1"]]],
     mk_op 9 Operation.op_seq
       [mk_op 10 Operation.op_set [mk_var 11 1, mk_const 12 "2"],
        mk_op 13 Operation.op_echo [mk_var 14 1]]]

/-- The function `function f() { if ($c) { $x = 1; } echo $x; }` in which the occurrence
of `$x` in `echo $x`, vertex 10, is marked superlocal; `$c` is variable 0 and `$x`
variable 1. -/
def sample_superlocal_read : Vertex :=
  mk_function
    [mk_op 3 Operation.op_if
      [mk_var 4 0, mk_op 5 Operation.op_seq [mk_op 6 Operation.op_set [mk_var 7 1, mk_const 8 "1"]]],
     mk_op 9 Operation.op_echo
       [Vertex.mk 10 Operation.op_var
         { var_id := some 1, extra_type := ExtraType.op_ex_var_superlocal } []]]

/-- Every vertex on a path from `t` down to `v` in the tree satisfies `U`. -/
inductive PathUsed (U : Vertex → Prop) : Vertex → Vertex → Prop where
  | self (t : Vertex) : U t → PathUsed U t t
  | down (t c v : Vertex) : U t → c ∈ t.sons → PathUsed U c v → PathUsed U t v

/-- The ids of the vertices of a tree are pairwise different. -/
def UniqueIds (t : Vertex) : Prop := (t.subtree.map Vertex.id).Nodup

/-- Marker `mk` covers the vertex id `i`: it is a marker of the vertex with this id, or a
recursive marker of a vertex that has a vertex with this id in its subtree. -/
def covers (mk : SubTreeData) (i : Nat) : Prop :=
  mk.v.id = i ∨ (mk.recursive_flag = true ∧ ∃ x ∈ mk.v.subtree, x.id = i)

/-- The confirmation map is closed below `v`: a vertex of the subtree of `v` that is
confirmed recursively has its whole subtree confirmed recursively. -/
def ClosedBelow (v : Vertex) (vu : Nat → VertexUsage) : Prop :=
  ∀ w ∈ v.subtree, (vu w.id).used_rec = true →
    ∀ x ∈ w.subtree, (vu x.id).used = true ∧ (vu x.id).used_rec = true

/-- What one call of `confirm_usage` does to the map `vu`: the flags `used` and
`used_rec` afterwards. -/
def ConfirmSpec (v : Vertex) (flag : Bool) (vu vu' : Nat → VertexUsage) : Prop :=
  (∀ i, (vu' i).used = true ↔
    ((vu i).used = true ∨ i = v.id ∨ (flag = true ∧ ∃ x ∈ v.subtree, x.id = i))) ∧
  (∀ i, (vu' i).used_rec = true ↔
    ((vu i).used_rec = true ∨ (flag = true ∧ ∃ x ∈ v.subtree, x.id = i)))

/-- What the loop of `confirm_usage` over the sons `l` does to the map `vu`. -/
def ConfirmSonsSpec (l : List Vertex) (vu vu' : Nat → VertexUsage) : Prop :=
  (∀ i, (vu' i).used = true ↔
    ((vu i).used = true ∨ ∃ c ∈ l, ∃ x ∈ c.subtree, x.id = i)) ∧
  (∀ i, (vu' i).used_rec = true ↔
    ((vu i).used_rec = true ∨ ∃ c ∈ l, ∃ x ∈ c.subtree, x.id = i))

/-- Node `b` is reachable from node `a` along the edges of the graph. -/
def Reach (s : CFG) (a b : Nat) : Prop :=
  Relation.ReflTransGen (fun n m => m ∈ s.node_next n) a b

/-- Two states agree on everything but `node_was` and `vertex_usage`. -/
def same_but_walk (s s' : CFG) : Prop :=
  s' = { s with node_was := s'.node_was, vertex_usage := s'.vertex_usage }

/-- What the forward walk from `v` has done: only the visit marks and the confirmation
map changed, the visited nodes stay visited, `v` is visited, every newly visited node is
reachable from `v` and has all its successors visited, and a vertex is confirmed exactly
when it was before or a marker on a newly visited node covers it. -/
structure CalcPost (T : Vertex) (s : CFG) (v : Nat) (s' : CFG) : Prop where
  frame : same_but_walk s s'
  grow : ∀ n, s.node_was n = s.cur_dfs_mark → s'.node_was n = s.cur_dfs_mark
  visited : s'.node_was v = s.cur_dfs_mark
  closed : ∀ n, s.node_was n ≠ s.cur_dfs_mark → s'.node_was n = s.cur_dfs_mark →
    ∀ m ∈ s.node_next n, s'.node_was m = s.cur_dfs_mark
  sound : ∀ n, s.node_was n ≠ s.cur_dfs_mark → s'.node_was n = s.cur_dfs_mark → Reach s v n
  cb : ClosedBelow T s'.vertex_usage
  used : ∀ i, (s'.vertex_usage i).used = true ↔
    ((s.vertex_usage i).used = true ∨
      ∃ n, s.node_was n ≠ s.cur_dfs_mark ∧ s'.node_was n = s.cur_dfs_mark ∧
        ∃ mk ∈ s.node_subtrees n, covers mk i)

/-- What the loop of the forward walk over the successors `l` has done. -/
structure CalcLoopPost (T : Vertex) (s : CFG) (l : List Nat) (s' : CFG) : Prop where
  frame : same_but_walk s s'
  grow : ∀ n, s.node_was n = s.cur_dfs_mark → s'.node_was n = s.cur_dfs_mark
  visited : ∀ j ∈ l, s'.node_was j = s.cur_dfs_mark
  closed : ∀ n, s.node_was n ≠ s.cur_dfs_mark → s'.node_was n = s.cur_dfs_mark →
    ∀ m ∈ s.node_next n, s'.node_was m = s.cur_dfs_mark
  sound : ∀ n, s.node_was n ≠ s.cur_dfs_mark → s'.node_was n = s.cur_dfs_mark →
    ∃ j ∈ l, Reach s j n
  cb : ClosedBelow T s'.vertex_usage
  used : ∀ i, (s'.vertex_usage i).used = true ↔
    ((s.vertex_usage i).used = true ∨
      ∃ n, s.node_was n ≠ s.cur_dfs_mark ∧ s'.node_was n = s.cur_dfs_mark ∧
        ∃ mk ∈ s.node_subtrees n, covers mk i)

/-- Every edge of the graph is recorded at its target as well. -/
def SymEdges (F : CFG) : Prop := ∀ n m, m ∈ F.node_next n → n ∈ F.node_prev m

/-- Vertex `u` has a marker on a node that is reachable from `e`. -/
def Used (F : CFG) (e : Nat) (u : Vertex) : Prop :=
  ∃ m, Reach F e m ∧ ∃ mk ∈ F.node_subtrees m, mk.v = u

/-- State `F` is a later state of `s` for the nodes from `g` on: the incoming edges of
these nodes are as in `s` unless the node is listed in `A`, and the markers and edges
of `s` are still there. -/
def Fut (g : Nat) (A : List Node) (s F : CFG) : Prop :=
  (∀ m, g ≤ m → m < s.node_gen → some m ∉ A → F.node_prev m = s.node_prev m) ∧
  (∀ n, n < s.node_gen → ∀ x ∈ s.node_subtrees n, x ∈ F.node_subtrees n) ∧
  (∀ n, n < s.node_gen → ∀ m ∈ s.node_next n, m ∈ F.node_next n)

/-- The markers on the nodes from `g` on: in every later state in which only the nodes
of `A` got new incoming edges, a marker on such a node that is reachable from an entry
outside or in `A` is a marker of a vertex below a vertex `c` of `K`, and every vertex
on the way from `c` down to it has a marker on a reachable node. -/
def QMid (g : Nat) (K : Vertex → Prop) (A : List Node) (s : CFG) : Prop :=
  ∀ F e, Fut g A s F → SymEdges F → (e < g ∨ s.node_gen ≤ e ∨ some e ∈ A) →
    ∀ n, g ≤ n → n < s.node_gen → Reach F e n → ∀ mk ∈ s.node_subtrees n,
      ∃ c, K c ∧ PathUsed (Used F e) c mk.v

/-- Every edge of the graph leads to an existing node and is recorded there. -/
def W (s : CFG) : Prop :=
  ∀ n m, m ∈ s.node_next n → m < s.node_gen ∧ n ∈ s.node_prev m

/-- The state inside the construction of a vertex that started with `g` nodes, with the
open nodes `A`. -/
structure DMid (g : Nat) (K : Vertex → Prop) (A : List Node) (s : CFG) : Prop where
  le : g ≤ s.node_gen
  q : QMid g K A s
  bound : ∀ x ∈ A, node_code x ≤ s.node_gen
  w : W s

/-- The graph of vertex `t` built from `s` to `s'` with start `a`: in every later state
in which only the start got new incoming edges, every marker on a reachable node of the
graph is a marker of a vertex below `t`, and every vertex on the way from `t` down to it
has a marker on a reachable node; and every edge is recorded at its target. -/
def Q (t : Vertex) (s : CFG) (a : Node) (s' : CFG) : Prop :=
  QMid s.node_gen (fun c => c = t) [a] s' ∧ W s'

/-- The nodes, edges and markers are the same in both states. -/
def GraphSame (s s' : CFG) : Prop :=
  s'.node_gen = s.node_gen ∧ s'.node_next = s.node_next ∧ s'.node_prev = s.node_prev ∧
    s'.node_subtrees = s.node_subtrees

/-- The vertices whose graphs the rule of `t` builds or marks: `t` and its sons. -/
def Kt (t : Vertex) : Vertex → Prop := fun c => c = t ∨ c ∈ t.sons

/-- Every successful run of the builder `cfg` satisfies `Q`. -/
def QOk (cfg : Vertex → M (Node × Node)) : Prop :=
  ∀ v s r s', cfg v s = Except.ok (r, s') → W s → Q v s r.1 s'

/-- Every successful run of the builder with flags satisfies `Q`. -/
def QOk3 (cfg : Vertex → Bool → Bool → M (Node × Node)) : Prop :=
  ∀ v w ww s r s', cfg v w ww s = Except.ok (r, s') → W s → Q v s r.1 s'

/-- Every successful run of the condition builder satisfies `Q`. -/
def QCondOk (cond_cfg : Vertex → M (Node × Node × Node)) : Prop :=
  ∀ v s r s', cond_cfg v s = Except.ok (r, s') → W s → Q v s r.1 s'

/-- Every successful run of the rule `m` of vertex `t` leaves the construction in a state
`DMid` for `t` and its sons in which the start is an open node. -/
def RuleOk (t : Vertex) (m : M (Node × Node)) : Prop :=
  ∀ s r s', m s = Except.ok (r, s') → W s → ∃ A, DMid s.node_gen (Kt t) A s' ∧ r.1 ∈ A

/-- The nodes stay and so do their markers. -/
def MarkMono (s s' : CFG) : Prop :=
  s.node_gen ≤ s'.node_gen ∧
    ∀ n, n < s.node_gen → ∀ x ∈ s.node_subtrees n, x ∈ s'.node_subtrees n

/-- The nodes stay and so do their edges and markers. -/
def Grow (s s' : CFG) : Prop := EdgeMono s s' ∧ MarkMono s s'

/-- Every successful run of `m` satisfies `Q` for vertex `t`. -/
def QM (t : Vertex) (m : M (Node × Node)) : Prop :=
  ∀ s r s', m s = Except.ok (r, s') → W s → Q t s r.1 s'

/-- Every successful run of the rule `m` of the condition `t` leaves the construction in
a state `DMid` for `t` and its sons in which the start is an open node. -/
def RuleCondOk (t : Vertex) (m : M (Node × Node × Node)) : Prop :=
  ∀ s r s', m s = Except.ok (r, s') → W s → ∃ A, DMid s.node_gen (Kt t) A s' ∧ r.1 ∈ A

/-- The confirmation map is the same in both states. -/
def VuSame (s s' : CFG) : Prop := s'.vertex_usage = s.vertex_usage

/-- A flag that is set in `vu` is set in `vu'`. -/
def FlagsKept (vu vu' : Nat → VertexUsage) : Prop :=
  ∀ i, ((vu i).used = true → (vu' i).used = true) ∧
    ((vu i).used_rec = true → (vu' i).used_rec = true)

/-- A marker confirms the id `i` recursively: it is a recursive marker of a vertex that has
a vertex with this id in its subtree. -/
def covers_rec (mk : SubTreeData) (i : Nat) : Prop :=
  mk.recursive_flag = true ∧ ∃ x ∈ mk.v.subtree, x.id = i

/-- The tree `T` with the two statements `echo 1; echo 2;` (vertices 1 to 4 under the
sequence 0). -/
def sample_two_echo : Vertex :=
  mk_op 0 Operation.op_seq
    [mk_op 1 Operation.op_echo [mk_const 2 "1"], mk_op 3 Operation.op_echo [mk_const 4 "2"]]

/-- The generic graph of the constant `1` (vertex 1), built in the empty state. -/
def sample_full_const : CFG :=
  state_after (create_full_cfg 2 (mk_const 1 "1") {})

/-- The function `function f() { $x = $y; }`; `$x` is variable 0 (vertex 4), `$y` is
variable 1 (vertex 5). -/
def sample_assign : Vertex :=
  mk_function [mk_op 3 Operation.op_set [mk_var 4 0, mk_var 5 1]]

/-- The state in which the graph of `sample_assign` is built. -/
def sample_assign_state : CFG :=
  start_state (mk_data sample_assign ["x", "y"]) [0, 1]

/-- The operations of the compound assignments `op_set_add` to `op_set_shl`. -/
def compound_set : Operation → Bool
  | .op_set_add | .op_set_sub | .op_set_mul | .op_set_div | .op_set_mod | .op_set_pow
  | .op_set_and | .op_set_or | .op_set_xor | .op_set_dot | .op_set_shr | .op_set_shl => true
  | _ => false

/-- The function `function f() { $x += 1; }`; `$x` is variable 0, its occurrence is
vertex 4. -/
def sample_compound : Vertex :=
  mk_function [mk_op 3 Operation.op_set_add [mk_var 4 0, mk_const 5 "1"]]

/-- The kinds of the usages of variable `var`, oldest first. -/
def usage_gen_types (s : CFG) (var : VarPtr) : List UsageType :=
  match get_var_split s var with
  | some var_split => var_split.usage_gen.filterMap fun a => (s.usage_data a).map fun u => u.type
  | none => []

/-- Modelled from the spec: the binding occurrence of parameter `p` (the variable of its
entry in the parameter list of the function) is by-reference. -/
def binding_by_ref (d : CFGData) (p : VarPtr) : Bool :=
  match d.vars.get? p with
  | none => false
  | some vd =>
    match (get_function_params d.root).get? vd.param_i.toNat with
    | none => false
    | some param =>
      match param.sons.head? with
      | none => false
      | some init => init.ref_flag

/-- Modelled from the spec: variable `x` has at least one by-reference occurrence in the
tree `t`. -/
def has_ref_occurrence (d : CFGData) (t : Vertex) (x : VarPtr) : Bool :=
  t.subtree.any fun v =>
    decide (v.type = Operation.op_var) && v.ref_flag && decide (d.get_var_id v = some x)

/-- Modelled from the spec: the splittable set: the locals of the function followed by
those parameters whose binding occurrence is not by-reference, minus every variable that
has at least one by-reference occurrence anywhere in the tree of the function. -/
def splittable_spec (d : CFGData) : List VarPtr :=
  (d.local_var_ids ++ d.param_ids.filter fun p => !(binding_by_ref d p)).filter
    fun x => !(has_ref_occurrence d d.root x)

/-- Every stored usage is a usage of a variable with a split state. -/
def USplit (s : CFG) : Prop :=
  ∀ a ud, s.usage_data a = some ud →
    ∃ x, s.data.get_var_id ud.v = some x ∧ (s.var_split_data x).isSome = true

/-- A step that creates no usage and keeps the function record and the split states. -/
def CntData (s s' : CFG) : Prop :=
  s'.usage_cnt = s.usage_cnt ∧ s'.data = s.data ∧ ∀ x, SplitKeep x s s'

/-- A step that keeps the store of usages consistent, the function record and the split
states, and stores usages of variables with a split state only. -/
def GStep (s s' : CFG) : Prop :=
  UStep s s' ∧ s'.data = s.data ∧ (∀ x, SplitKeep x s s') ∧ (UInv s → USplit s → USplit s')

/-- A variable without split state gets none. -/
def SplitNone (x : VarPtr) (s s' : CFG) : Prop :=
  s.var_split_data x = none → s'.var_split_data x = none

/-- The function `function f($p, &$q) { $x = $p; $y = $q; }` with the locals `$x`, `$y`
and a by-reference occurrence of `$y`: the variables 0 (`$p`), 1 (`$q`), 2 (`$x`),
3 (`$y`). -/
def sample_params_data : CFGData :=
  { root := mk_op 0 Operation.op_function
      [mk_op 1 Operation.op_func_param_list
        [mk_op 3 Operation.op_func_param [mk_var 4 0],
         mk_op 5 Operation.op_func_param
           [Vertex.mk 6 Operation.op_var { var_id := some 1, ref_flag := true } []]],
       mk_op 2 Operation.op_seq
        [mk_op 7 Operation.op_set [mk_var 8 2, mk_var 9 0],
         mk_op 10 Operation.op_set
           [Vertex.mk 11 Operation.op_var { var_id := some 3, ref_flag := true } [],
            mk_var 12 1]]]
    param_ids := [0, 1]
    local_var_ids := [2, 3]
    vars := [{ name := "p", type := VarType.var_param_t, param_i := 0 },
             { name := "q", type := VarType.var_param_t, param_i := 1 },
             { name := "x", type := VarType.var_local_t },
             { name := "y", type := VarType.var_local_t }] }

/-- The `i`-th parameter of the callee `f` is an `op_func_param` whose variable is
by-reference. -/
def by_ref_param (f : FuncInfo) (i : Nat) : Bool :=
  decide (f.params.get? i = some (some true))

/-- The arguments `l` of a call of `f`, the first of which has index `ii`, are built one
after the other by `cfg`, from state `s` to state `s1`: each argument with the write flag
unset and with the weak-write flag set exactly when its parameter is by-reference; the
node `start` (the start node of the call for the first argument, the finish of the
argument before for the others) gets an edge to the start of the argument, an edge that
the graph `S` has; `fin` is the finish of the last argument, and `start` itself when
there is no argument. -/
def ArgChain (cfg : Vertex → Bool → Bool → M (Node × Node)) (f : FuncInfo) (S : CFG) :
    List Vertex → Nat → Node → CFG → Node → CFG → Prop
  | [], _, start, s, fin, s1 => fin = start ∧ s1 = s
  | cur :: rest, ii, start, s, fin, s1 =>
    ∃ a b s2 s3, cfg cur false (by_ref_param f ii) s = Except.ok ((a, b), s2) ∧
      add_edge start a s2 = Except.ok ((), s3) ∧ has_edge S start a ∧
      ArgChain cfg f S rest (ii + 1) b s3 fin s1

/-- The state of the innermost try frame after a node is registered in it: the node is
appended to the last frame, and nothing changes when there is no frame. -/
def registered (frames : List (List Node)) (a : Node) : List (List Node) :=
  match frames.getLast? with
  | none => frames
  | some es => frames.dropLast ++ [es ++ [a]]

/-- The call `f($x, $y)` of a function whose second parameter is by-reference and that
may throw (vertices 1 to 3; `$x` is variable 0, `$y` is variable 1). -/
def sample_call : Vertex :=
  Vertex.mk 1 Operation.op_func_call
    { func_id := some { params := [some false, some true], can_throw := true } }
    [mk_var 2 0, mk_var 3 1]

/-- The state in which the graph of `sample_call` is built: both variables have a split
state and one try frame is open. -/
def sample_call_state : CFG :=
  { start_state (mk_data (mk_function [sample_call]) ["x", "y"]) [0, 1] with
    exception_nodes := [[]] }

/-- The usages that the loop of `compress_usages` keeps after `p`: a usage of the list is
kept when its variable differs from the variable of the usage before it. -/
def heads (k : Nat → Option VarPtr) : Nat → List Nat → List Nat
  | _, [] => []
  | p, u :: us => (if k u = k p then [] else [u]) ++ heads k u us

/-- The sort key of a usage with variable `k a`. -/
def vkey (k : Nat → Option VarPtr) (a : Nat) : Nat := (k a).getD 0

/-- Usage `a` is stored and is a usage of a variable with a split state. -/
def WfU (s : CFG) (a : Nat) : Prop :=
  ∃ ud x vs, s.usage_data a = some ud ∧ s.data.get_var_id ud.v = some x ∧
    get_var_split s x = some vs

/-- The weak-write flag of usage `a`. -/
def uweak (s : CFG) (a : Nat) : Bool :=
  match s.usage_data a with
  | some u => u.weak_write_flag
  | none => false

/-- What the loop of `compress_usages` leaves as it was: the function record, the lists of
the nodes, the variable of every usage, the well-formed usages and the union-find sets. -/
structure CompressKeep (s s' : CFG) : Prop where
  data : s'.data = s.data
  usages : s'.node_usages = s.node_usages
  var : ∀ a, usage_var s' a = usage_var s a
  wf : ∀ a, WfU s a → WfU s' a
  sets : ∀ y i j, same_set s y i j → same_set s' y i j
  kind : ∀ a ud, s.usage_data a = some ud →
    ∃ ud', s'.usage_data a = some ud' ∧ ud'.v = ud.v ∧ ud'.type = ud.type ∧ ud'.node = ud.node

/-- A state with one node that carries three usages: usage 0 of `$y` (variable 1), usage 1
of `$x` (variable 0) with the weak-write flag, and usage 2 of `$x` without it. -/
def sample_compress_state : CFG :=
  { data := mk_data (mk_function []) ["x", "y"]
    node_gen := 1
    node_usages := fun n => if n = 0 then [0, 1, 2] else []
    usage_cnt := 3
    usage_data := fun a =>
      if a = 0 then some { type := UsageType.usage_read_t, v := mk_var 10 1, node := some 0 }
      else if a = 1 then
        some { type := UsageType.usage_read_t, v := mk_var 11 0, node := some 0,
               weak_write_flag := true }
      else if a = 2 then
        some { type := UsageType.usage_read_t, v := mk_var 12 0, node := some 0 }
      else none
    var_split_data := fun x =>
      if x = 0 then some { usage_gen := [1, 2] }
      else if x = 1 then some { usage_gen := [0] }
      else none }

/-- The numbering of `process_var_number` on the sequence `rs` of the representatives
of the visited usages: a representative that is not in the list `A` of the numbered ones
is appended to it. -/
def number_roots : List Nat → List Nat → List Nat
  | [], A => A
  | r :: rs, A => if r ∈ A then number_roots rs A else number_roots rs (A ++ [r])

/-- The partition id stored in usage `a`. -/
def upart (s : CFG) (a : Nat) : Option Int :=
  (s.usage_data a).map fun u => u.part_id

/-- State `s` differs from `s0` in the partition ids of the usages only. -/
def PartOnly (s0 s : CFG) : Prop :=
  s.node_was = s0.node_was ∧ s.var_split_data = s0.var_split_data ∧
  ∀ a, match s0.usage_data a with
    | some u0 => ∃ p, s.usage_data a = some { u0 with part_id := p }
    | none => s.usage_data a = none

/-- The numbering loop can run on the usages `gen`: every usage is stored and attached to
a node, and the representative of every usage on a visited node is stored and has no
partition id yet. -/
def number_ready (s : CFG) (vs : VarSplitData) (gen : List Nat) : Bool :=
  gen.all fun i =>
    match s.usage_data i with
    | some ud => ud.node.isSome && (!(usage_visited s i) ||
        match s.usage_data (dsu_get vs.parent i) with
        | some uu => uu.part_id == -1
        | none => false)
    | none => false

/-- The representatives of the usages of `gen` on visited nodes, in the order of `gen`. -/
def visited_roots (s : CFG) (vs : VarSplitData) (gen : List Nat) : List Nat :=
  (gen.filter (usage_visited s)).map (dsu_get vs.parent)

/-- The statements of `process_var` for a local variable up to the numbering loop: the
search for an uninitialised use, the reset of `node_mark` and the backward walks from
the usages. -/
def process_var_unite (fuel : Nat) (var : VarPtr) : M Unit := do
  let s ← get_state
  match get_var_split s var with
  | none => fail Err.assert_failed
  | some var_split => do
    process_var_uninited fuel var
    modify_state fun s => { s with node_mark := fun _ => none }
    process_var_dfs fuel var_split.usage_gen

/-- The state of `process_var` on `$x` of `sample_dead_usage` before the numbering
loop. -/
def sample_numbering_state : CFG :=
  state_after (process_var_unite 30 0 (built_state 30 sample_dead_usage ["x"]))

/-- The usages of variable `var`, oldest first. -/
def usage_gen_of (s : CFG) (var : VarPtr) : List Nat :=
  match get_var_split s var with
  | some var_split => var_split.usage_gen
  | none => []

/-- The numbering loop can run on the usages of variable `var`. -/
def number_ready_of (s : CFG) (var : VarPtr) : Bool :=
  match get_var_split s var with
  | some var_split => number_ready s var_split var_split.usage_gen
  | none => false

mutual
/-- Modelled from the spec: the occurrences of variables in a subtree, a vertex before its
children and the children from left to right, each with the kind of its usage: a write
when the occurrence is the direct left-hand side of a plain assignment, a read
otherwise.  The flag says that the vertex is the left-hand side of a plain assignment. -/
def occurrences : Bool → Vertex → List (UsageType × Vertex)
  | lhs, Vertex.mk i t e sons =>
    (if t = Operation.op_var then
      [(if lhs then UsageType.usage_write_t else UsageType.usage_read_t, Vertex.mk i t e sons)]
    else []) ++ occurrences_sons (decide (t = Operation.op_set)) true sons
/-- Modelled from the spec: the occurrences in the children of a vertex; the flags say
that the vertex is a plain assignment and that the first child of the list is its first
child. -/
def occurrences_sons : Bool → Bool → List Vertex → List (UsageType × Vertex)
  | _, _, [] => []
  | is_set, first, v :: vs => occurrences (is_set && first) v ++ occurrences_sons is_set false vs
end

mutual
/-- The shape of the vertices that `collect_vars_usage` relies on: a variable has no
children, a plain assignment has two children, and a call has a callee. -/
def generic_wf : Vertex → Bool
  | Vertex.mk _ t e sons =>
    (if t = Operation.op_var then sons.isEmpty else true) &&
    (if t = Operation.op_set then sons.length == 2 else true) &&
    (if t = Operation.op_func_call then e.func_id.isSome else true) &&
    generic_wf_sons sons
/-- The shape of a list of trees. -/
def generic_wf_sons : List Vertex → Bool
  | [] => true
  | v :: vs => generic_wf v && generic_wf_sons vs
end

/-- The node that a usage of the given kind is attached to. -/
def node_of (writes reads : Node) : UsageType → Node
  | UsageType.usage_write_t => writes
  | UsageType.usage_read_t => reads

/-- Create and attach a usage for every occurrence of a list, in order. -/
def track_all (writes reads : Node) : List (UsageType × Vertex) → M Unit
  | [] => pure ()
  | o :: os => do
    let usage ← new_usage o.1 o.2
    add_usage (node_of writes reads o.1) usage
    track_all writes reads os

/-- The occurrence is of a variable with a split state. -/
def tracked (s : CFG) (o : UsageType × Vertex) : Bool :=
  match s.data.get_var_id o.2 with
  | some x => (get_var_split s x).isSome
  | none => false

/-- The usages attached to node `n` are in the order of their creation, stored, of kind
`ty`, and usages of variables with a split state. -/
def NodeInv (s : CFG) (n : Nat) (ty : UsageType) : Prop :=
  List.Pairwise (fun a b => a < b) (s.node_usages n) ∧
  ∀ a ∈ s.node_usages n, a < s.usage_cnt ∧
    ∃ u, s.usage_data a = some u ∧ u.type = ty ∧ WfU s a

/-- The state `s'` holds, after the usages of `s`, one usage for every occurrence of the
list `O`, in the order of the list. -/
structure Tracked (wn rn : Nat) (O : List (UsageType × Vertex)) (s s' : CFG) : Prop where
  data : s'.data = s.data
  gen : s'.node_gen = s.node_gen
  dom : ∀ x, (get_var_split s' x).isSome = (get_var_split s x).isSome
  mono : ∀ x vs, get_var_split s x = some vs →
    ∃ vs', get_var_split s' x = some vs' ∧ ∀ a ∈ vs.usage_gen, a ∈ vs'.usage_gen
  cnt : s'.usage_cnt = s.usage_cnt + O.length
  old : ∀ a, a < s.usage_cnt → s'.usage_data a = s.usage_data a
  nodes : ∀ m a, a ∈ s.node_usages m → a ∈ s'.node_usages m
  others : ∀ m, m ≠ wn → m ≠ rn → s'.node_usages m = s.node_usages m
  created : ∀ j (hj : j < O.length), ∃ u n x vs,
    s'.usage_data (s.usage_cnt + j) = some u ∧ u.v = O[j].2 ∧ u.type = O[j].1 ∧
    u.weak_write_flag = false ∧ u.part_id = -1 ∧
    u.node = some n ∧ node_of (some wn) (some rn) O[j].1 = some n ∧
    s.usage_cnt + j ∈ s'.node_usages n ∧
    s.data.get_var_id O[j].2 = some x ∧ get_var_split s' x = some vs ∧
    s.usage_cnt + j ∈ vs.usage_gen
  winv : NodeInv s' wn UsageType.usage_write_t
  rinv : NodeInv s' rn UsageType.usage_read_t

/-- Every split state keeps its list of usages. -/
def GenKeep (s s' : CFG) : Prop :=
  ∀ x vs, s.var_split_data x = some vs →
    ∃ vs', s'.var_split_data x = some vs' ∧ vs'.usage_gen = vs.usage_gen

/-- The four nodes of the generic rule: start, finish, writes and reads, in the order of
their creation. -/
def full_cfg_nodes : M (Node × Node × Node × Node) := do
  let start ← new_node
  let finish ← new_node
  let writes ← new_node
  let reads ← new_node
  pure (start, finish, writes, reads)

/-- Modelled from the spec: the occurrences of splittable variables in a subtree: those of
a variable that has a split state. -/
def tracked_occurrences (s : CFG) (t : Vertex) : List (UsageType × Vertex) :=
  (occurrences false t).filter (tracked s)

/-- The expression `($x = $y) + $x`; `$x` is variable 0 and `$y` is variable 1. -/
def sample_generic : Vertex :=
  mk_op 3 Operation.op_add
    [mk_op 4 Operation.op_set [mk_var 5 0, mk_var 6 1], mk_var 7 0]

/-- The state before the graph of a function with the locals `$x` and `$y` is built, when
`$x` is the one splittable variable. -/
def sample_generic_state : CFG :=
  start_state (mk_data (mk_function [sample_generic]) ["x", "y"]) [0]

/-- Modelled from the spec: the occurrence `x` is reached from the vertex `c` through
enclosing index expressions: `x` is `c` itself, or `c` is an index expression and `x` is
reached from the array of `c`. -/
inductive Through : Vertex → Vertex → Prop
  | here (x : Vertex) : Through x x
  | index (x a c : Vertex) : c.type = Operation.op_index → c.sons.get? 0 = some a →
      Through x a → Through x c

/-- Modelled from the spec: `c` is an argument of the call `p` that is bound to a
by-reference parameter of the callee. -/
def ByRefArg (p c : Vertex) : Prop :=
  (p.type = Operation.op_func_call ∨ p.type = Operation.op_constructor_call) ∧
  ∃ f i, p.get_func_id = some f ∧ p.sons.get? i = some c ∧ by_ref_param f i = true

/-- Modelled from the spec: `c` is the loop variable of the foreach `p`, taken by
reference. -/
def ForeachRef (p c : Vertex) : Prop :=
  p.type = Operation.op_foreach ∧
  ∃ params, p.sons.get? 0 = some params ∧ params.sons.get? 1 = some c ∧ c.ref_flag = true

/-- Modelled from the spec: `c` is a target that the vertex `p` writes: the left-hand side
of the plain assignment `p`, an element of the list assignment `p`, or the exception
variable of the try `p`. -/
def WriteTarget (p c : Vertex) : Prop :=
  (p.type = Operation.op_set ∧ p.sons.get? 0 = some c) ∨
  (p.type = Operation.op_list ∧ c ∈ p.sons.dropLast) ∨
  (p.type = Operation.op_try ∧ p.sons.get? 1 = some c)

/-- The vertex `p` carries a marker in the graph. -/
def Marked (s : CFG) (p : Vertex) : Prop :=
  ∃ n, n < s.node_gen ∧ ∃ mk ∈ s.node_subtrees n, mk.v = p

/-- Modelled from the spec: the occurrence `x` is a source of a weak write in the graph
`s`: through enclosing index expressions it is an argument bound to a by-reference
parameter of a call, or a by-reference loop variable of a foreach, or, through at least
one index expression, a target that a plain assignment, a list assignment or a try
writes; the call, the foreach, the assignment or the try is a vertex of the graph. -/
def WeakSource (s : CFG) (x : Vertex) : Prop :=
  ∃ c p, Through x c ∧ Marked s p ∧ (ByRefArg p c ∨ ForeachRef p c ∨ (x ≠ c ∧ WriteTarget p c))

/-- A step from `s` to `s'` that keeps the markers, after which every usage with the
weak-write flag has a source in the graph, or has a vertex that is pending (`Pend`), or had
the flag before. -/
def WStep (Pend : Vertex → Prop) (s s' : CFG) : Prop :=
  MarkMono s s' ∧ ∀ a u', s'.usage_data a = some u' → u'.weak_write_flag = true →
    WeakSource s' u'.v ∨ Pend u'.v ∨
      ∃ u, s.usage_data a = some u ∧ u.weak_write_flag = true ∧ u.v = u'.v

/-- The occurrences whose usage gets the weak-write flag from the flags that the vertex
`t` is built with: those reached from `t` through index expressions, `t` itself excepted
when the flag is the write flag. -/
def PendOf (t : Vertex) (w ww : Bool) (x : Vertex) : Prop :=
  (ww = true ∧ Through x t) ∨ (w = true ∧ Through x t ∧ x ≠ t)

/-- The occurrences whose usage gets the weak-write flag inside the rule of `t`, before
the marker of `t` is attached. -/
def PendIn (t : Vertex) (w ww : Bool) (x : Vertex) : Prop :=
  PendOf t w ww x ∨ ∃ c, Through x c ∧ (ByRefArg t c ∨ (x ≠ c ∧ WriteTarget t c))

/-- The usages attached to node `n` are stored and have no weak-write flag. -/
def NW (s : CFG) (n : Nat) : Prop :=
  ∀ a ∈ s.node_usages n, ∃ u, s.usage_data a = some u ∧ u.weak_write_flag = false

/-- A step that leaves the usages attached to the nodes `wn` and `rn` without weak-write
flag. -/
def NWStep (wn rn : Nat) (s s' : CFG) : Prop :=
  NW s wn ∧ NW s rn → NW s' wn ∧ NW s' rn

/-- The store of usages is the same in both states. -/
def UsageSame (s s' : CFG) : Prop := s'.usage_data = s.usage_data

/-- Every successful run of `m` attaches a marker of `t` to the start node. -/
def MarksM (t : Vertex) (m : M (Node × Node)) : Prop :=
  ∀ s r s', m s = Except.ok (r, s') → ∃ n fl, r.1 = some n ∧ new_subtree t fl ∈ s'.node_subtrees n

/-- No occurrence is pending. -/
def NoPend : Vertex → Prop := fun _ => False

/-- Modelled from the spec: the sources of a weak write that the claim names: through
enclosing index expressions the occurrence is an argument bound to a by-reference parameter
of a call, or a by-reference loop variable of a foreach; the call or the foreach is a
vertex of the graph. -/
def WeakSourceNamed (s : CFG) (x : Vertex) : Prop :=
  ∃ c p, Through x c ∧ Marked s p ∧ (ByRefArg p c ∨ ForeachRef p c)

/-- The state in which the graph of `function f() { $a[1] = 2; }` is built. -/
def sample_index_start : CFG :=
  start_state (mk_data sample_index_assign ["a"]) [0]

/-- The graph of `function f() { $a[1] = 2; }`. -/
def sample_index_graph : CFG :=
  state_after (create_cfg 30 sample_index_assign false false sample_index_start)

/-- Every successful run of `rule` returns a start node that is not null, so that the
marker `st` can be attached to it: `add_subtree` does not fail on it. -/
def StartOk (rule : M (Node × Node)) (st : SubTreeData) : Prop :=
  ∀ s r0 s1, rule s = Except.ok (r0, s1) →
    ∃ n, r0.1 = some n ∧ s.node_gen ≤ n ∧ n < s1.node_gen ∧
      add_subtree r0.1 st s1 =
        Except.ok ((), { s1 with node_subtrees := upd s1.node_subtrees n (s1.node_subtrees n ++ [st]) })

/-- The builder of a vertex is one construction rule followed by the attachment of the
marker of the vertex to the start node that the rule returned, and the rule never
returns the null start. -/
def RuleThenMarker (fuel : Nat) (t : Vertex) (w ww : Bool) : Prop :=
  ∃ rule flag, create_cfg (fuel + 1) t w ww = (rule >>= create_cfg_finish t flag) ∧
    StartOk rule (new_subtree t flag)

/-- Every successful run of the condition rule `rule` returns a start node that is not
null, so that the marker `st` can be attached to it. -/
def StartOkCond (rule : M (Node × Node × Node)) (st : SubTreeData) : Prop :=
  ∀ s r0 s1, rule s = Except.ok (r0, s1) →
    ∃ n, r0.1 = some n ∧ s.node_gen ≤ n ∧ n < s1.node_gen ∧
      add_subtree r0.1 st s1 =
        Except.ok ((), { s1 with node_subtrees := upd s1.node_subtrees n (s1.node_subtrees n ++ [st]) })

/-- The construction rules of `create_condition_cfg`, up to the attachment of the
marker. -/
def create_condition_cfg_rule (fuel : Nat) (tree_node : Vertex) : M (Node × Node × Node) :=
  match tree_node.type with
  | .op_conv_bool => do
    let expr ← son tree_node 0
    create_condition_cfg fuel expr
  | .op_log_not => do
    let expr ← son tree_node 0
    let (res_start, res_false, res_true) ← create_condition_cfg fuel expr
    pure (res_start, res_true, res_false)
  | .op_log_and | .op_log_or =>
    create_condition_cfg_op_log (create_condition_cfg fuel) tree_node
  | _ =>
    create_condition_cfg_default (fun v => create_cfg fuel v false false) tree_node

/-- The builder of a condition is one construction rule followed by the attachment of
the marker of the vertex to the start node that the rule returned, and the rule never
returns the null start. -/
def CondRuleThenMarker (fuel : Nat) (t : Vertex) : Prop :=
  create_condition_cfg (fuel + 1) t =
      (create_condition_cfg_rule fuel t >>= fun r =>
        add_subtree r.1 (new_subtree t false) >>= fun _ => pure r) ∧
    StartOkCond (create_condition_cfg_rule fuel t) (new_subtree t false)

/-- From `s` to `s'` the break-target stack and the continue-target stack both change
their depth by `k` and the exception-escape stack changes its depth by `j`. -/
def FrameStep (k j : Int) (s s' : CFG) : Prop :=
  (s'.break_nodes.length : Int) = s.break_nodes.length + k ∧
  (s'.continue_nodes.length : Int) = s.continue_nodes.length + k ∧
  (s'.exception_nodes.length : Int) = s.exception_nodes.length + j

/-- The three frame stacks of `s'` are those of `s`. -/
def FramesSame (s s' : CFG) : Prop :=
  s'.break_nodes = s.break_nodes ∧ s'.continue_nodes = s.continue_nodes ∧
  s'.exception_nodes = s.exception_nodes

/-- The primitive steps of the builder change the depths of the frame stacks as
follows: entering a loop frame adds one to the break-target and to the continue-target
stack, leaving it removes one from both, opening and closing a try frame adds and
removes one on the exception-escape stack, and no other step changes a depth.  In every
row the break-target stack and the continue-target stack change by the same amount. -/
structure FrameTable : Prop where
  enter : Preserves (FrameStep 1 0) create_cfg_enter_cycle
  exit : ∀ a b, Preserves (FrameStep (-1) 0) (create_cfg_exit_cycle a b)
  add_break : ∀ v d, Preserves (FrameStep 0 0) (create_cfg_add_break_node v d)
  add_continue : ∀ v d, Preserves (FrameStep 0 0) (create_cfg_add_continue_node v d)
  begin_try : Preserves (FrameStep 0 1) create_cfg_begin_try
  end_try : ∀ a, Preserves (FrameStep 0 (-1)) (create_cfg_end_try a)
  register : ∀ a, Preserves (FrameStep 0 0) (create_cfg_register_exception a)
  node : Preserves (FrameStep 0 0) new_node
  edge : ∀ a b, Preserves (FrameStep 0 0) (add_edge a b)
  marker : ∀ n m, Preserves (FrameStep 0 0) (add_subtree n m)
  usage : ∀ ty v, Preserves (FrameStep 0 0) (new_usage ty v)
  attach : ∀ n u, Preserves (FrameStep 0 0) (add_usage n u)
  compress : ∀ n, Preserves (FrameStep 0 0) (compress_usages n)

/-- The edges that the rule of `op_for` adds, in the order of the calls of `add_edge`:
`join` is the node `action_finish` and `cont`, `brk` are the innermost frames of
continue nodes and of break nodes when the loop is left. -/
def for_edges (init_finish cond_start cond_true cond_false inc_start inc_finish action_start
    action_finish_pre join fin : Node) (cont brk : List Node) : List (Node × Node) :=
  [(action_finish_pre, join), (init_finish, cond_start), (cond_true, action_start),
    (join, inc_start), (inc_finish, cond_start), (cond_false, fin)] ++
    (cont.map fun x => (x, join)) ++ brk.map fun x => (x, fin)

/-- One step along an edge of the graph that does not enter node `x`. -/
def step_avoiding (s : CFG) (x : Nat) (a b : Nat) : Prop :=
  b ∈ s.node_next a ∧ b ≠ x

/-- The loop `for (; $c; ) { continue; break; }` (vertices 3 to 11). -/
def sample_for_continue : Vertex :=
  mk_op 3 Operation.op_for
    [mk_op 4 Operation.op_seq_comma [], mk_var 5 0, mk_op 6 Operation.op_seq_comma [],
      mk_op 7 Operation.op_seq
        [mk_op 8 Operation.op_continue [mk_const 9 "1"],
          mk_op 10 Operation.op_break [mk_const 11 "1"]]]

/-- Both loop stacks of `s'` are as deep as those of `s`. -/
def DepthSame (s s' : CFG) : Prop :=
  s'.continue_nodes.length = s.continue_nodes.length ∧
  s'.break_nodes.length = s.break_nodes.length

/-- A clause of a switch with the body `cmd`: a `case` (the body is son 1) or a `default`
(the body is son 0). -/
def clause_body (clause cmd : Vertex) : Prop :=
  (clause.type = Operation.op_case ∧ clause.sons.get? 1 = some cmd) ∨
  (clause.type = Operation.op_default ∧ clause.sons.get? 0 = some cmd)

/-- The statement `switch ($x) { case 1: continue 2; default: break; }`; the vertices 3
to 6 are the variables of the switch. -/
def sample_switch_levels : Vertex :=
  mk_op 1 Operation.op_switch
    [mk_var 2 0, mk_var 3 1, mk_var 4 2, mk_var 5 3, mk_var 6 4,
     mk_op 7 Operation.op_case [mk_const 8 "1",
       mk_op 9 Operation.op_seq [mk_op 10 Operation.op_continue [mk_const 11 "2"]]],
     mk_op 12 Operation.op_default
       [mk_op 13 Operation.op_seq [mk_op 14 Operation.op_break [mk_const 15 "1"]]]]

/-- The state in which the sample switch is built: inside one loop, whose frames are
empty. -/
def sample_switch_levels_start : CFG :=
  { data := mk_data sample_switch_levels ["x", "s1", "s2", "s3", "s4"]
    continue_nodes := [[]]
    break_nodes := [[]] }

/-- Every edge that enters a node from `lo` on either comes from inside one of the node
ranges `B` (from the first component up to, not including, the second) that holds the
node, or is one of the pairs of the list `E`; edges are read off the predecessor
lists. -/
def Pin (lo : Nat) (B : List (Nat × Nat)) (E : List (Node × Node)) (s : CFG) : Prop :=
  ∀ n m, lo ≤ n → n < s.node_gen → m ∈ s.node_prev n →
    (∃ b ∈ B, b.1 ≤ n ∧ n < b.2 ∧ b.1 ≤ m ∧ m < b.2) ∨ (some m, some n) ∈ E

/-- Usage `a` is stored as a `Write` usage of vertex `v`. -/
def write_of (s : CFG) (a : Nat) (v : Vertex) : Prop :=
  ∃ ud, s.usage_data a = some ud ∧ ud.v = v ∧ ud.type = UsageType.usage_write_t

/-- The variable of vertex `v` has a split state in `s`: its usages are tracked. -/
def tracked_var (s : CFG) (v : Vertex) : Bool :=
  ((s.data.get_var_id v).bind (get_var_split s)).isSome

/-- The same variables have a split state in `s` and in `s'`, and the function record is
the same. -/
def SplitsKept (s s' : CFG) : Prop :=
  s'.data = s.data ∧ ∀ y, (s'.var_split_data y).isSome = (s.var_split_data y).isSome

/-- The pointer `u` is the `Write` usage of `v` that was created in a state with the
tracked variables of `s0` and is stored in `s`: it is null exactly if `v` is not
tracked. -/
def written (s0 s : CFG) (v : Vertex) (u : UsagePtr) : Prop :=
  u.isSome = tracked_var s0 v ∧ ∀ a, u = some a → write_of s a v

/-- The edges that the rule of `op_foreach` adds, in the order of the calls of `add_edge`:
`check` is the node of the per-iteration check, `writes` the node of the iteration writes,
`join` the node `action_finish`, and `cont`, `brk` are the innermost frames of continue
nodes and of break nodes when the loop is left. -/
def foreach_edges (val_finish check writes fin action_start action_finish_pre join : Node)
    (cont brk : List Node) : List (Node × Node) :=
  [(val_finish, check), (check, writes), (check, fin), (action_finish_pre, join),
    (writes, action_start), (join, check)] ++
    (cont.map fun x => (x, join)) ++ brk.map fun x => (x, fin)

/-- One step back along an edge of the graph, from `b` to a predecessor `a` of `b` other
than node `x`. -/
def back_avoiding (s : CFG) (x : Nat) (b a : Nat) : Prop :=
  a ∈ s.node_prev b ∧ a ≠ x

/-- The loop `foreach ($a as $k => $v) { echo $v; }`: `$a` is variable 0 (vertex 5), `$v`
variable 1 (vertex 6), the iteration state variable 2 (vertex 7) and `$k` variable 3
(vertex 8); the body is the vertices 9 to 11. -/
def sample_foreach : Vertex :=
  mk_op 3 Operation.op_foreach
    [mk_op 4 Operation.op_foreach_param [mk_var 5 0, mk_var 6 1, mk_var 7 2, mk_var 8 3],
      mk_op 9 Operation.op_seq [mk_op 10 Operation.op_echo [mk_var 11 1]]]

/-- The state in which the graph of `sample_foreach` is built: all four variables have a
split state. -/
def sample_foreach_start : CFG :=
  start_state (mk_data (mk_function [sample_foreach]) ["a", "v", "tmp", "k"]) [0, 1, 2, 3]

/-- The edges that the rule of `op_try` adds, in the order of the calls of `add_edge`:
`frame` holds the escape points that the try body registered. -/
def try_edges (frame : List Node) (exception_start exception_finish catch_start catch_finish
    try_finish fin : Node) : List (Node × Node) :=
  (frame.map fun x => (x, exception_start)) ++
    [(exception_finish, catch_start), (try_finish, fin), (catch_finish, fin)]

/-- Node `n` belongs to the graph of the exception variable, the nodes from `g0` up to
`g1`, or to the graph of the catch body, the nodes from `g3` up to `g4`. -/
def catch_side (g0 g1 g3 g4 n : Nat) : Prop :=
  (g0 ≤ n ∧ n < g1) ∨ (g3 ≤ n ∧ n < g4)

/-- The statement `try { echo 1; } catch ($e) { echo 2; }`: the try body (vertex 4)
registers no escape point; `$e` is variable 0 (vertex 7), the catch body is vertex 8. -/
def sample_quiet_try : Vertex :=
  mk_op 3 Operation.op_try
    [mk_op 4 Operation.op_seq [mk_op 5 Operation.op_echo [mk_const 6 "1"]], mk_var 7 0,
      mk_op 8 Operation.op_seq [mk_op 9 Operation.op_echo [mk_const 10 "2"]]]

/-- The function `function f() { try { throw 1; } catch ($a) { try { echo 1; }
catch ($b) { echo 2; } } }`: the inner try/catch (vertex 9) lies in the catch body
(vertex 8) of the outer one (vertex 3), whose try body throws; the try body of the inner
one (vertex 10) registers no escape point, `$b` is vertex 13 and the inner catch body is
vertex 14. -/
def sample_quiet_try_in_catch : Vertex :=
  mk_function [mk_op 3 Operation.op_try
    [mk_op 4 Operation.op_seq [mk_op 5 Operation.op_throw [mk_const 6 "1"]], mk_var 7 0,
      mk_op 8 Operation.op_seq [mk_op 9 Operation.op_try
        [mk_op 10 Operation.op_seq [mk_op 11 Operation.op_echo [mk_const 12 "1"]], mk_var 13 1,
          mk_op 14 Operation.op_seq [mk_op 15 Operation.op_echo [mk_const 16 "2"]]]]]]

/-- The ids of the vertices that `collect_unused` collects in the body of the function
after the steps of `process_function` up to the forward walk. -/
def unused_ids (fuel : Nat) (d : CFGData) : List Nat :=
  match d.root.sons.get? 1 with
  | some cmd =>
    (collect_unused (state_after (process_function_build fuel { data := d })).vertex_usage
      cmd).map Vertex.id
  | none => []

/-- What the forward walk from `v` has done to the visit marks: only the visit marks and
the confirmation map changed, a mark changes to the current mark only, the visited nodes
stay visited, `v` is visited, and every newly visited node is reachable from `v` and has
all its successors visited. -/
structure ForwardPost (s : CFG) (v : Nat) (s' : CFG) : Prop where
  frame : same_but_walk s s'
  grow : ∀ n, s.node_was n = s.cur_dfs_mark → s'.node_was n = s.cur_dfs_mark
  visited : s'.node_was v = s.cur_dfs_mark
  closed : ∀ n, s.node_was n ≠ s.cur_dfs_mark → s'.node_was n = s.cur_dfs_mark →
    ∀ m ∈ s.node_next n, s'.node_was m = s.cur_dfs_mark
  sound : ∀ n, s.node_was n ≠ s.cur_dfs_mark → s'.node_was n = s.cur_dfs_mark → Reach s v n
  only : ∀ n, s'.node_was n = s.node_was n ∨ s'.node_was n = s.cur_dfs_mark

/-- What the loop of the forward walk over the successors `l` has done to the visit
marks. -/
structure ForwardLoopPost (s : CFG) (l : List Nat) (s' : CFG) : Prop where
  frame : same_but_walk s s'
  grow : ∀ n, s.node_was n = s.cur_dfs_mark → s'.node_was n = s.cur_dfs_mark
  visited : ∀ i ∈ l, s'.node_was i = s.cur_dfs_mark
  closed : ∀ n, s.node_was n ≠ s.cur_dfs_mark → s'.node_was n = s.cur_dfs_mark →
    ∀ m ∈ s.node_next n, s'.node_was m = s.cur_dfs_mark
  sound : ∀ n, s.node_was n ≠ s.cur_dfs_mark → s'.node_was n = s.cur_dfs_mark →
    ∃ i ∈ l, Reach s i n
  only : ∀ n, s'.node_was n = s.node_was n ∨ s'.node_was n = s.cur_dfs_mark

/-- A graph of three nodes with the cycles 0, 1 and 1, 2 and with the edge from 0 to 1
twice. -/
def sample_cycle_graph : CFG :=
  { node_gen := 3
    node_next := fun n => if n = 0 then [1, 1] else if n = 1 then [2, 0] else if n = 2 then [1]
      else []
    node_prev := fun n => if n = 0 then [1] else if n = 1 then [0, 0, 2] else if n = 2 then [1]
      else []
    cur_dfs_mark := 1 }

/-- The graph, the entry, the visit marks and the counter of the walks are the same in
both states. -/
def WasGraph (s s' : CFG) : Prop :=
  s'.node_was = s.node_was ∧ s'.node_next = s.node_next ∧
    s'.current_start = s.current_start ∧ s'.cur_dfs_mark = s.cur_dfs_mark ∧
    s'.node_gen = s.node_gen

/-- What a search from `v` does to the visit marks: the graph, the entry and the counter
stay, and a mark that changes becomes the current mark, on a node reachable from `v`. -/
def SearchMarks (v : Nat) (s s' : CFG) : Prop :=
  s'.node_next = s.node_next ∧ s'.current_start = s.current_start ∧
    s'.cur_dfs_mark = s.cur_dfs_mark ∧ s'.node_gen = s.node_gen ∧
    ∀ n, s'.node_was n = s.node_was n ∨ (s'.node_was n = s.cur_dfs_mark ∧ Reach s v n)

/-- A step of the pass after the forward walk: the graph and the entry stay, the counter
of the walks does not decrease, and a visit mark that changes becomes non-zero, on a node
reachable from the entry. -/
def VisitKeep (s s' : CFG) : Prop :=
  s'.node_next = s.node_next ∧ s'.current_start = s.current_start ∧
    s.cur_dfs_mark ≤ s'.cur_dfs_mark ∧
    ∀ n, s'.node_was n = s.node_was n ∨
      (s'.node_was n ≠ 0 ∧ ∃ v, s.current_start = some v ∧ Reach s v n)

/-- State `s` of the pass has the graph and the entry of `G`, a positive counter of the
walks, and non-zero visit marks on the nodes that are reachable from the entry, and on no
other node. -/
def Live (G s : CFG) : Prop :=
  s.node_next = G.node_next ∧ s.current_start = G.current_start ∧ 0 < s.cur_dfs_mark ∧
    ∃ start, G.current_start = some start ∧ ∀ n, s.node_was n ≠ 0 ↔ Reach G start n

@[simp] theorem pure_run {α : Type} (a : α) (s : CFG) : (pure a : M α) s = Except.ok (a, s) := rfl

@[simp] theorem bind_run {α β : Type} (m : M α) (f : α → M β) (s : CFG) :
    (m >>= f) s = match m s with
      | Except.ok (a, s') => f a s'
      | Except.error e => Except.error e := rfl

@[simp] theorem get_state_run (s : CFG) : get_state s = Except.ok (s, s) := rfl

@[simp] theorem modify_state_run (f : CFG → CFG) (s : CFG) :
    modify_state f s = Except.ok ((), f s) := rfl

@[simp] theorem fail_run {α : Type} (e : Err) (s : CFG) : (fail e : M α) s = Except.error e := rfl

theorem bind_ok_iff {α β : Type} {m : M α} {f : α → M β} {s : CFG} {r : β × CFG} :
    (m >>= f) s = Except.ok r ↔ ∃ a s', m s = Except.ok (a, s') ∧ f a s' = Except.ok r := by
  simp only [bind_run]
  cases h : m s with
  | error e => simp
  | ok p =>
    cases p
    constructor
    · intro h'
      exact ⟨_, _, rfl, h'⟩
    · rintro ⟨a, s', h1, h2⟩
      cases h1
      exact h2

@[simp] theorem kphp_assert_run (b : Bool) (s : CFG) :
    kphp_assert b s = if b = true then Except.ok ((), s) else Except.error Err.assert_failed := by
  cases b <;> rfl

theorem push_at_length (l : List (List Node)) (i : Nat) (v : Node) :
    (push_at l i v).length = l.length := by
  induction l generalizing i with
  | nil => rfl
  | cons f fs ih => cases i <;> simp [push_at, ih]

theorem push_at_getElem? (l : List (List Node)) (i j : Nat) (v : Node) :
    (push_at l i v)[j]? = if j = i then (l[j]?).map (fun f => f ++ [v]) else l[j]? := by
  induction l generalizing i j with
  | nil => simp [push_at]
  | cons f fs ih =>
    cases i with
    | zero => cases j <;> simp [push_at]
    | succ i => cases j <;> simp [push_at, ih]

theorem create_cfg_add_break_node_ok (s : CFG) (v : Node) (N : Nat) (h1 : 1 ≤ N)
    (hb : N ≤ s.break_nodes.length) :
    create_cfg_add_break_node v (N : Int) s =
      Except.ok ((), { s with break_nodes := push_at s.break_nodes (s.break_nodes.length - N) v }) := by
  have e3 : ((s.break_nodes.length : Int) - (N : Int)).toNat = s.break_nodes.length - N := by omega
  simp [create_cfg_add_break_node, h1, hb, e3]

theorem create_cfg_add_break_node_fails (s : CFG) (v : Node) (N : Int)
    (h : N < 1 ∨ N > s.break_nodes.length) :
    create_cfg_add_break_node v N s = Except.error Err.assert_failed := by
  simp only [create_cfg_add_break_node, bind_run, kphp_assert_run, get_state_run, decide_eq_true_eq]
  by_cases h1 : N ≥ 1
  · have h2 : ¬ ((s.break_nodes.length : Int) - N ≥ 0) := by omega
    simp [h1, h2]
  · simp [h1]

/-! ## Edges and loop frames -/

theorem upd_same {α : Type} (f : Nat → α) (a : Nat) (v : α) : upd f a v a = v := by
  simp [upd]

theorem upd_other {α : Type} (f : Nat → α) (a b : Nat) (v : α) (h : b ≠ a) : upd f a v b = f b := by
  simp [upd, h]

theorem same_but_edges_refl (s : CFG) : same_but_edges s s := rfl

theorem same_but_edges_trans {s s1 s2 : CFG} (h1 : same_but_edges s s1) (h2 : same_but_edges s1 s2) :
    same_but_edges s s2 := by
  unfold same_but_edges at *
  cases s; cases s1; cases s2
  simp only [CFG.mk.injEq] at *
  simp_all

theorem add_edge_run (src dst : Node) (s : CFG) :
    ∃ s', add_edge src dst s = Except.ok ((), s') ∧ same_but_edges s s' ∧
      ∀ a, s'.node_next a = s.node_next a ++ frame_targets [src] dst a := by
  cases src with
  | none =>
    refine ⟨s, ?_, rfl, ?_⟩
    · cases dst <;> rfl
    · intro a; cases dst <;> simp [frame_targets]
  | some x =>
    cases dst with
    | none => exact ⟨s, rfl, rfl, by intro a; simp [frame_targets]⟩
    | some y =>
      refine ⟨_, rfl, rfl, ?_⟩
      intro a
      by_cases h : a = x
      · subst h; simp [frame_targets, upd]
      · have : ¬ (x = a) := fun e => h e.symm
        simp [frame_targets, upd, h, this]

theorem frame_targets_nil (dst : Node) (a : Nat) : frame_targets [] dst a = [] := by
  cases dst <;> simp [frame_targets]

theorem frame_targets_append (l1 l2 : List Node) (dst : Node) (a : Nat) :
    frame_targets (l1 ++ l2) dst a = frame_targets l1 dst a ++ frame_targets l2 dst a := by
  cases dst with
  | none => simp [frame_targets]
  | some m => simp [frame_targets, List.count_append, List.append_replicate_replicate]

theorem add_edges_from_run (l : List Node) (dst : Node) (s : CFG) :
    ∃ s', add_edges_from l dst s = Except.ok ((), s') ∧ same_but_edges s s' ∧
      ∀ a, s'.node_next a = s.node_next a ++ frame_targets l dst a := by
  induction l generalizing s with
  | nil => exact ⟨s, rfl, rfl, by intro a; simp [frame_targets_nil]⟩
  | cons i l ih =>
    obtain ⟨s1, h1, f1, n1⟩ := add_edge_run i dst s
    obtain ⟨s2, h2, f2, n2⟩ := ih s1
    refine ⟨s2, ?_, same_but_edges_trans f1 f2, ?_⟩
    · simp [add_edges_from, h1, h2]
    · intro a
      rw [n2, n1, List.append_assoc, ← frame_targets_append]
      rfl

theorem create_cfg_exit_cycle_run (continue_dest break_dest : Node) (s : CFG)
    (cs : List (List Node)) (c : List Node) (bs : List (List Node)) (b : List Node)
    (hc : s.continue_nodes = cs ++ [c]) (hb : s.break_nodes = bs ++ [b]) :
    ∃ s', create_cfg_exit_cycle continue_dest break_dest s = Except.ok ((), s') ∧
      s'.continue_nodes = cs ∧ s'.break_nodes = bs ∧
      ∀ a, s'.node_next a =
        s.node_next a ++ frame_targets c continue_dest a ++ frame_targets b break_dest a := by
  obtain ⟨s1, h1, f1, n1⟩ := add_edges_from_run c continue_dest s
  obtain ⟨s2, h2, f2, n2⟩ := add_edges_from_run b break_dest s1
  have f := same_but_edges_trans f1 f2
  have e1 : s2.continue_nodes = cs ++ [c] := by rw [f]; exact hc
  have e2 : s2.break_nodes = bs ++ [b] := by rw [f]; exact hb
  refine ⟨{ s2 with continue_nodes := cs, break_nodes := bs }, ?_, rfl, rfl, ?_⟩
  · simp [create_cfg_exit_cycle, hc, hb, h1, h2, e1, e2]
  · intro a
    show s2.node_next a = _
    rw [n2, n1]

theorem create_cfg_exit_cycles_run (dests : List (Node × Node)) (s : CFG)
    (hc : dests.length ≤ s.continue_nodes.length) (hb : dests.length ≤ s.break_nodes.length) :
    ∃ s', create_cfg_exit_cycles dests s = Except.ok ((), s') ∧
      ∀ a, s'.node_next a =
        s.node_next a ++ exit_targets dests s.continue_nodes.reverse s.break_nodes.reverse a := by
  induction dests generalizing s with
  | nil => exact ⟨s, rfl, by intro a; simp [exit_targets]⟩
  | cons d rest ih =>
    obtain ⟨cd, bd⟩ := d
    have hc0 : s.continue_nodes ≠ [] := by
      intro e; rw [e] at hc; simp at hc
    have hb0 : s.break_nodes ≠ [] := by
      intro e; rw [e] at hb; simp at hb
    obtain ⟨cs, c, ec⟩ : ∃ cs c, s.continue_nodes = cs ++ [c] :=
      ⟨_, _, (List.dropLast_append_getLast hc0).symm⟩
    obtain ⟨bs, b, eb⟩ : ∃ bs b, s.break_nodes = bs ++ [b] :=
      ⟨_, _, (List.dropLast_append_getLast hb0).symm⟩
    obtain ⟨s1, h1, c1, b1, n1⟩ := create_cfg_exit_cycle_run cd bd s cs c bs b ec eb
    have lc : rest.length ≤ s1.continue_nodes.length := by
      rw [c1]; rw [ec] at hc; simp at hc; omega
    have lb : rest.length ≤ s1.break_nodes.length := by
      rw [b1]; rw [eb] at hb; simp at hb; omega
    obtain ⟨s2, h2, n2⟩ := ih s1 lc lb
    refine ⟨s2, ?_, ?_⟩
    · simp [create_cfg_exit_cycles, h1, h2]
    · intro a
      rw [n2, n1, c1, b1, ec, eb]
      simp [exit_targets, List.append_assoc]

theorem push_at_reverse (l : List (List Node)) (N : Nat) (v : Node) (h1 : 1 ≤ N)
    (h2 : N ≤ l.length) :
    (push_at l (l.length - N) v).reverse = push_at l.reverse (N - 1) v := by
  apply List.ext_getElem?
  intro j
  by_cases hj : j < l.length
  · rw [List.getElem?_reverse (by rw [push_at_length]; exact hj), push_at_getElem?,
      push_at_getElem?, List.getElem?_reverse hj, push_at_length]
    by_cases e : j = N - 1
    · have : l.length - 1 - j = l.length - N := by omega
      rw [if_pos this, if_pos e]
    · have : ¬ (l.length - 1 - j = l.length - N) := by omega
      rw [if_neg this, if_neg e]
  · have a1 : (push_at l (l.length - N) v).reverse.length ≤ j := by
      simp [push_at_length]; omega
    have a2 : (push_at l.reverse (N - 1) v).length ≤ j := by
      simp [push_at_length]; omega
    rw [List.getElem?_eq_none a1, List.getElem?_eq_none a2]

theorem frame_targets_fresh (f : List Node) (dst : Node) (a : Nat) (h : some a ∉ f) :
    frame_targets f dst a = [] := by
  cases dst with
  | none => rfl
  | some m => simp [frame_targets, List.count_eq_zero_of_not_mem h]

theorem exit_targets_fresh (dests : List (Node × Node)) (cs bs : List (List Node)) (a : Nat)
    (hc : ∀ f ∈ cs, some a ∉ f) (hb : ∀ f ∈ bs, some a ∉ f) :
    exit_targets dests cs bs a = [] := by
  induction dests generalizing cs bs with
  | nil => simp [exit_targets]
  | cons d rest ih =>
    obtain ⟨cd, bd⟩ := d
    cases cs with
    | nil => simp [exit_targets]
    | cons c cs =>
      cases bs with
      | nil => simp [exit_targets]
      | cons b bs =>
        simp only [exit_targets]
        rw [frame_targets_fresh c cd a (hc c (by simp)), frame_targets_fresh b bd a (hb b (by simp)),
          ih cs bs (fun f hf => hc f (by simp [hf])) (fun f hf => hb f (by simp [hf]))]
        rfl

theorem exit_targets_break (dests : List (Node × Node)) (cs bs : List (List Node)) (a N : Nat)
    (hc : ∀ f ∈ cs, some a ∉ f) (hb : ∀ f ∈ bs, some a ∉ f)
    (hlc : dests.length ≤ cs.length) (hlb : dests.length ≤ bs.length) :
    exit_targets dests cs (push_at bs N (some a)) a =
      match dests[N]? with
      | some d => frame_targets [some a] d.2 a
      | none => [] := by
  induction dests generalizing cs bs N with
  | nil => simp [exit_targets]
  | cons d rest ih =>
    obtain ⟨cd, bd⟩ := d
    cases cs with
    | nil => simp at hlc
    | cons c cs =>
      cases bs with
      | nil => simp at hlb
      | cons b bs =>
        have hcs : ∀ f ∈ cs, some a ∉ f := fun f hf => hc f (by simp [hf])
        have hbs : ∀ f ∈ bs, some a ∉ f := fun f hf => hb f (by simp [hf])
        have fc := frame_targets_fresh c cd a (hc c (by simp))
        have fb := frame_targets_fresh b bd a (hb b (by simp))
        cases N with
        | zero =>
          simp only [push_at, exit_targets, frame_targets_append, fc, fb,
            exit_targets_fresh rest cs bs a hcs hbs]
          simp
        | succ N =>
          simp only [push_at, exit_targets, fc, fb]
          rw [ih cs bs N hcs hbs (by simpa using hlc) (by simpa using hlb)]
          simp

theorem exit_targets_continue (dests : List (Node × Node)) (cs bs : List (List Node)) (a N : Nat)
    (hc : ∀ f ∈ cs, some a ∉ f) (hb : ∀ f ∈ bs, some a ∉ f)
    (hlc : dests.length ≤ cs.length) (hlb : dests.length ≤ bs.length) :
    exit_targets dests (push_at cs N (some a)) bs a =
      match dests[N]? with
      | some d => frame_targets [some a] d.1 a
      | none => [] := by
  induction dests generalizing cs bs N with
  | nil => simp [exit_targets]
  | cons d rest ih =>
    obtain ⟨cd, bd⟩ := d
    cases cs with
    | nil => simp at hlc
    | cons c cs =>
      cases bs with
      | nil => simp at hlb
      | cons b bs =>
        have hcs : ∀ f ∈ cs, some a ∉ f := fun f hf => hc f (by simp [hf])
        have hbs : ∀ f ∈ bs, some a ∉ f := fun f hf => hb f (by simp [hf])
        have fc := frame_targets_fresh c cd a (hc c (by simp))
        have fb := frame_targets_fresh b bd a (hb b (by simp))
        cases N with
        | zero =>
          simp only [push_at, exit_targets, frame_targets_append, fc, fb,
            exit_targets_fresh rest cs bs a hcs hbs]
          simp
        | succ N =>
          simp only [push_at, exit_targets, fc, fb]
          rw [ih cs bs N hcs hbs (by simpa using hlc) (by simpa using hlb)]
          simp

theorem create_cfg_add_continue_node_ok (s : CFG) (v : Node) (N : Nat) (h1 : 1 ≤ N)
    (hb : N ≤ s.continue_nodes.length) :
    create_cfg_add_continue_node v (N : Int) s =
      Except.ok ((), { s with
        continue_nodes := push_at s.continue_nodes (s.continue_nodes.length - N) v }) := by
  have e3 : ((s.continue_nodes.length : Int) - (N : Int)).toNat = s.continue_nodes.length - N := by
    omega
  simp [create_cfg_add_continue_node, h1, hb, e3]

theorem create_cfg_add_continue_node_fails (s : CFG) (v : Node) (N : Int)
    (h : N < 1 ∨ N > s.continue_nodes.length) :
    create_cfg_add_continue_node v N s = Except.error Err.assert_failed := by
  simp only [create_cfg_add_continue_node, bind_run, kphp_assert_run, get_state_run,
    decide_eq_true_eq]
  by_cases h1 : N ≥ 1
  · have h2 : ¬ ((s.continue_nodes.length : Int) - N ≥ 0) := by omega
    simp [h1, h2]
  · simp [h1]

theorem frame_targets_single (dst : Node) (a : Nat) :
    frame_targets [some a] dst a = dst.toList := by
  cases dst <;> simp [frame_targets]

/-- C7. Registering a break (resp. continue) node `n` at level `N`, with
`1 ≤ N ≤ depth`, succeeds, changes nothing but the break (resp. continue) stack, and
in that stack appends `n` to the frame with index `depth - N`, the `N`-th frame
counting from the innermost (last) one, leaving every other frame as it was.  When
the loops are then left one after another (`dests` lists the continue target and the
break target of each loop, innermost first), a node that was in no frame before gets
exactly one new edge: to the break (resp. continue) target of the `N`-th loop, and
none if fewer than `N` loops are left. -/
theorem break_continue_binding (s : CFG) (n N : Nat) (dests : List (Node × Node))
    (h1 : 1 ≤ N) (hb : N ≤ s.break_nodes.length) (hc : N ≤ s.continue_nodes.length)
    (hdb : dests.length ≤ s.break_nodes.length) (hdc : dests.length ≤ s.continue_nodes.length)
    (fresh_b : ∀ f ∈ s.break_nodes, some n ∉ f) (fresh_c : ∀ f ∈ s.continue_nodes, some n ∉ f) :
    (∃ s1, create_cfg_add_break_node (some n) (N : Int) s = Except.ok ((), s1) ∧
      s1 = { s with break_nodes := s1.break_nodes } ∧
      s1.break_nodes.length = s.break_nodes.length ∧
      (∀ i, s1.break_nodes[i]? =
        if i = s.break_nodes.length - N then (s.break_nodes[i]?).map (fun f => f ++ [some n])
        else s.break_nodes[i]?) ∧
      ∃ s2, create_cfg_exit_cycles dests s1 = Except.ok ((), s2) ∧
        s2.node_next n = s.node_next n ++ ((dests[N - 1]?).bind (fun d => d.2)).toList) ∧
    (∃ s1, create_cfg_add_continue_node (some n) (N : Int) s = Except.ok ((), s1) ∧
      s1 = { s with continue_nodes := s1.continue_nodes } ∧
      s1.continue_nodes.length = s.continue_nodes.length ∧
      (∀ i, s1.continue_nodes[i]? =
        if i = s.continue_nodes.length - N then
          (s.continue_nodes[i]?).map (fun f => f ++ [some n])
        else s.continue_nodes[i]?) ∧
      ∃ s2, create_cfg_exit_cycles dests s1 = Except.ok ((), s2) ∧
        s2.node_next n = s.node_next n ++ ((dests[N - 1]?).bind (fun d => d.1)).toList) := by
  constructor
  · refine ⟨_, create_cfg_add_break_node_ok s (some n) N h1 hb, rfl, push_at_length _ _ _,
      fun i => push_at_getElem? _ _ _ _, ?_⟩
    obtain ⟨s2, h2, n2⟩ := create_cfg_exit_cycles_run dests
      { s with break_nodes := push_at s.break_nodes (s.break_nodes.length - N) (some n) }
      hdc (by simpa [push_at_length] using hdb)
    refine ⟨s2, h2, ?_⟩
    rw [n2]
    show s.node_next n ++ exit_targets dests s.continue_nodes.reverse
      (push_at s.break_nodes (s.break_nodes.length - N) (some n)).reverse n = _
    rw [push_at_reverse _ _ _ h1 hb, exit_targets_break dests _ _ n (N - 1)
      (by simpa using fresh_c) (by simpa using fresh_b) (by simpa using hdc) (by simpa using hdb)]
    cases dests[N - 1]? with
    | none => rfl
    | some d => simp [frame_targets_single]
  · refine ⟨_, create_cfg_add_continue_node_ok s (some n) N h1 hc, rfl, push_at_length _ _ _,
      fun i => push_at_getElem? _ _ _ _, ?_⟩
    obtain ⟨s2, h2, n2⟩ := create_cfg_exit_cycles_run dests
      { s with continue_nodes := push_at s.continue_nodes (s.continue_nodes.length - N) (some n) }
      (by simpa [push_at_length] using hdc) hdb
    refine ⟨s2, h2, ?_⟩
    rw [n2]
    show s.node_next n ++ exit_targets dests
      (push_at s.continue_nodes (s.continue_nodes.length - N) (some n)).reverse
      s.break_nodes.reverse n = _
    rw [push_at_reverse _ _ _ h1 hc, exit_targets_continue dests _ _ n (N - 1)
      (by simpa using fresh_c) (by simpa using fresh_b) (by simpa using hdc) (by simpa using hdb)]
    cases dests[N - 1]? with
    | none => rfl
    | some d => simp [frame_targets_single]

/-- C8. Registering a break or continue node with a level below 1 or above the
depth of the frame stack fails the assertion: the run stops with `assert_failed` and
yields no state, so no frame is changed. -/
theorem break_continue_level_overflow (s : CFG) (v : Node) (N : Int)
    (hb : N < 1 ∨ N > s.break_nodes.length) (hc : N < 1 ∨ N > s.continue_nodes.length) :
    create_cfg_add_break_node v N s = Except.error Err.assert_failed ∧
    create_cfg_add_continue_node v N s = Except.error Err.assert_failed :=
  ⟨create_cfg_add_break_node_fails s v N hb, create_cfg_add_continue_node_fails s v N hc⟩

/-- Witness of C8: `break 3` and `continue 3` inside two nested loops. -/
theorem break_continue_level_overflow_witness :
    ((3 : Int) < 1 ∨ (3 : Int) > (([[], []] : List (List Node)).length : Int)) ∧
    create_cfg_add_break_node (some 7) 3 { break_nodes := [[], []], continue_nodes := [[], []] } =
      Except.error Err.assert_failed ∧
    create_cfg_add_continue_node (some 7) 3 { break_nodes := [[], []], continue_nodes := [[], []] } =
      Except.error Err.assert_failed :=
  ⟨by decide, break_continue_level_overflow
    { break_nodes := [[], []], continue_nodes := [[], []] } (some 7) 3 (by decide) (by decide)⟩

/-- Witness of C7: a node registered by `break 2` under two open loops is wired to
the break target of the outer loop; and in `for (; $c; ) { while ($c) { break 2; } }`
the only successor of the break node is the finish node of the `for` loop, whereas
the construction of the `while` loop alone, under one open frame, leaves the break
node without successor. -/
theorem break_continue_binding_witness :
    (∃ s1 s2,
      create_cfg_add_break_node (some 7) 2 { break_nodes := [[], []], continue_nodes := [[], []] } =
        Except.ok ((), s1) ∧
      create_cfg_exit_cycles [(some 1, some 2), (some 3, some 4)] s1 = Except.ok ((), s2) ∧
      s2.node_next 7 = [4]) ∧
    finish_and_successors 10 sample_for_while_break {} 11 = some (some 12, [12]) ∧
    finish_and_successors 10 sample_while_break { break_nodes := [[]], continue_nodes := [[]] } 11 =
      some (some 5, []) := by
  refine ⟨?_, by decide!, by decide!⟩
  obtain ⟨⟨s1, h1, _, _, _, s2, h2, n2⟩, _⟩ := break_continue_binding
    { break_nodes := [[], []], continue_nodes := [[], []] } 7 2 [(some 1, some 2), (some 3, some 4)]
    (by decide) (by decide) (by decide) (by decide) (by decide) (by decide) (by decide)
  exact ⟨s1, s2, h1, h2, n2⟩

theorem preserves_pure {P : CFG → CFG → Prop} (hP : StepRel P) {α : Type} (a : α) :
    Preserves P (pure a : M α) := by
  refine ⟨fun s b s' h => ?_⟩
  cases h
  exact hP.refl s

theorem preserves_bind {P : CFG → CFG → Prop} (hP : StepRel P) {α β : Type} {m : M α}
    {f : α → M β} (hm : Preserves P m) (hf : ∀ a, Preserves P (f a)) :
    Preserves P (m >>= f) := by
  refine ⟨fun s b s' h => ?_⟩
  obtain ⟨a, s1, h1, h2⟩ := bind_ok_iff.mp h
  exact hP.trans (hm.run _ _ _ h1) ((hf a).run _ _ _ h2)

theorem preserves_fail {P : CFG → CFG → Prop} {α : Type} (e : Err) :
    Preserves P (fail e : M α) := by
  refine ⟨fun s b s' h => ?_⟩
  cases h

theorem preserves_get_state {P : CFG → CFG → Prop} (hP : StepRel P) : Preserves P get_state := by
  refine ⟨fun s b s' h => ?_⟩
  cases h
  exact hP.refl s

theorem preserves_modify_state {P : CFG → CFG → Prop} (f : CFG → CFG) (h : ∀ s, P s (f s)) :
    Preserves P (modify_state f) := by
  refine ⟨fun s b s' h' => ?_⟩
  cases h'
  exact h s

theorem preserves_kphp_assert {P : CFG → CFG → Prop} (hP : StepRel P) (b : Bool) :
    Preserves P (kphp_assert b) := by
  cases b
  · exact preserves_fail _
  · exact preserves_pure hP _

theorem preserves_kphp_fail {P : CFG → CFG → Prop} {α : Type} :
    Preserves P (kphp_fail : M α) := preserves_fail _

theorem preserves_son {P : CFG → CFG → Prop} (hP : StepRel P) (v : Vertex) (i : Nat) :
    Preserves P (son v i) := by
  unfold son
  split
  · exact preserves_pure hP _
  · exact preserves_fail _

theorem preserves_node_id {P : CFG → CFG → Prop} (hP : StepRel P) (n : Node) :
    Preserves P (node_id n) := by
  unfold node_id
  split
  · exact preserves_pure hP _
  · exact preserves_fail _

theorem preserves_usage_at {P : CFG → CFG → Prop} (hP : StepRel P) (a : Nat) :
    Preserves P (usage_at a) := by
  refine ⟨fun s b s' h => ?_⟩
  unfold usage_at at h
  split at h
  · cases h; exact hP.refl s
  · cases h

theorem preserves_var_data {P : CFG → CFG → Prop} (hP : StepRel P) (a : VarPtr) :
    Preserves P (var_data a) := by
  refine ⟨fun s b s' h => ?_⟩
  unfold var_data at h
  split at h
  · cases h; exact hP.refl s
  · cases h

theorem dataEq_rel : StepRel DataEq :=
  ⟨fun _ => rfl, fun h1 h2 => h2.trans h1⟩

theorem try_uni_usages_data (a b : Nat) : Preserves DataEq (try_uni_usages a b) := by
  unfold try_uni_usages
  repeat (first
    | apply preserves_bind dataEq_rel
    | apply preserves_usage_at dataEq_rel
    | apply preserves_get_state dataEq_rel
    | apply preserves_pure dataEq_rel
    | apply preserves_fail
    | (apply preserves_modify_state; intro _; rfl)
    | intro _
    | split
    | dsimp only)

theorem search_uninited_usages_data (var : VarPtr) (l : List Nat) (b : Bool) :
    Preserves DataEq (search_uninited_usages var l b) := by
  induction l generalizing b with
  | nil => exact preserves_pure dataEq_rel _
  | cons a l ih =>
    unfold search_uninited_usages
    repeat (first
      | apply ih
      | apply preserves_bind dataEq_rel
      | apply preserves_usage_at dataEq_rel
      | apply preserves_get_state dataEq_rel
      | apply preserves_pure dataEq_rel
      | intro _
      | split
      | dsimp only)

theorem search_uninited_next_data (search : Nat → M UsagePtr)
    (h : ∀ i, Preserves DataEq (search i)) (l : List Nat) :
    Preserves DataEq (search_uninited_next search l) := by
  induction l with
  | nil => exact preserves_pure dataEq_rel _
  | cons a l ih =>
    unfold search_uninited_next
    repeat (first
      | apply ih
      | apply h
      | apply preserves_bind dataEq_rel
      | apply preserves_get_state dataEq_rel
      | apply preserves_pure dataEq_rel
      | intro _
      | split
      | dsimp only)

theorem search_uninited_data (fuel v : Nat) (var : VarPtr) :
    Preserves DataEq (search_uninited fuel v var) := by
  induction fuel generalizing v with
  | zero => exact preserves_fail _
  | succ fuel ih =>
    unfold search_uninited
    repeat (first
      | apply search_uninited_next_data
      | apply search_uninited_usages_data
      | apply ih
      | apply preserves_bind dataEq_rel
      | apply preserves_get_state dataEq_rel
      | apply preserves_pure dataEq_rel
      | (apply preserves_modify_state; intro _; rfl)
      | intro _
      | split
      | dsimp only)

theorem dfs_usages_data (usage : Nat) (l : List Nat) (b : Bool) :
    Preserves DataEq (dfs_usages usage l b) := by
  induction l generalizing b with
  | nil => exact preserves_pure dataEq_rel _
  | cons a l ih =>
    unfold dfs_usages
    repeat (first
      | apply ih
      | apply try_uni_usages_data
      | apply preserves_bind dataEq_rel
      | apply preserves_usage_at dataEq_rel
      | apply preserves_pure dataEq_rel
      | intro _
      | split
      | dsimp only)

theorem dfs_prev_data (walk : Nat → M Unit) (h : ∀ i, Preserves DataEq (walk i)) (l : List Nat) :
    Preserves DataEq (dfs_prev walk l) := by
  induction l with
  | nil => exact preserves_pure dataEq_rel _
  | cons a l ih =>
    unfold dfs_prev
    repeat (first
      | apply ih
      | apply h
      | apply preserves_bind dataEq_rel
      | intro _)

theorem dfs_data (fuel v usage : Nat) : Preserves DataEq (dfs fuel v usage) := by
  induction fuel generalizing v with
  | zero => exact preserves_fail _
  | succ fuel ih =>
    unfold dfs
    repeat (first
      | apply dfs_prev_data
      | apply dfs_usages_data
      | apply try_uni_usages_data
      | apply ih
      | apply preserves_bind dataEq_rel
      | apply preserves_get_state dataEq_rel
      | apply preserves_pure dataEq_rel
      | (apply preserves_modify_state; intro _; rfl)
      | intro _
      | split
      | dsimp only)

theorem process_var_dfs_data (fuel : Nat) (l : List Nat) :
    Preserves DataEq (process_var_dfs fuel l) := by
  induction l with
  | nil => exact preserves_pure dataEq_rel _
  | cons a l ih =>
    unfold process_var_dfs
    repeat (first
      | apply ih
      | apply dfs_data
      | apply preserves_bind dataEq_rel
      | apply preserves_usage_at dataEq_rel
      | apply preserves_node_id dataEq_rel
      | intro _)

theorem process_var_number_data (var : VarPtr) (l : List Nat) (cnt : Nat) :
    Preserves DataEq (process_var_number var l cnt) := by
  induction l generalizing cnt with
  | nil => exact preserves_pure dataEq_rel _
  | cons a l ih =>
    unfold process_var_number
    repeat (first
      | apply ih
      | apply preserves_bind dataEq_rel
      | apply preserves_usage_at dataEq_rel
      | apply preserves_node_id dataEq_rel
      | apply preserves_get_state dataEq_rel
      | apply preserves_fail
      | (apply preserves_modify_state; intro _; rfl)
      | intro _
      | split
      | dsimp only)

theorem process_var_parts_data (var : VarPtr) (l : List Nat) (parts : List (List Vertex)) :
    Preserves DataEq (process_var_parts var l parts) := by
  induction l generalizing parts with
  | nil => exact preserves_pure dataEq_rel _
  | cons a l ih =>
    unfold process_var_parts
    repeat (first
      | apply ih
      | apply preserves_bind dataEq_rel
      | apply preserves_usage_at dataEq_rel
      | apply preserves_node_id dataEq_rel
      | apply preserves_get_state dataEq_rel
      | apply preserves_fail
      | intro _
      | split
      | dsimp only)

theorem run_eq_of_result {α : Type} (r : Except Err (α × CFG)) (a : α)
    (h : run_result r = some a) : r = Except.ok (a, state_after r) := by
  cases r with
  | error e => cases h
  | ok p =>
    obtain ⟨b, s⟩ := p
    simp only [run_result, Option.some.injEq] at h
    subst h
    rfl

theorem splitFrame_rel : StepRel SplitFrame := by
  refine ⟨fun s => ⟨rfl, rfl, rfl, rfl, rfl, rfl, rfl⟩, ?_⟩
  intro a b c h1 h2
  obtain ⟨a1, a2, a3, a4, a5, a6, a7⟩ := h1
  obtain ⟨b1, b2, b3, b4, b5, b6, b7⟩ := h2
  exact ⟨b1.trans a1, b2.trans a2, b3.trans a3, b4.trans a4, b5.trans a5, b6.trans a6,
    b7.trans a7⟩

theorem preserves_mono {P Q : CFG → CFG → Prop} (h : ∀ s s', P s s' → Q s s') {α : Type}
    {m : M α} (hm : Preserves P m) : Preserves Q m :=
  ⟨fun s a s' e => h _ _ (hm.run s a s' e)⟩

theorem splitFrame_of_dataEq (s s' : CFG) (h : DataEq s s') : SplitFrame s s' := by
  unfold DataEq at h
  unfold SplitFrame
  rw [h]
  exact ⟨rfl, rfl, rfl, rfl, rfl, rfl, rfl⟩

theorem map_modify_of_eq {α β : Type} (g : α → β) (f : α → α) (h : ∀ a, g (f a) = g a)
    (l : List α) (i : Nat) : (l.modify f i).map g = l.map g := by
  induction l generalizing i with
  | nil => cases i <;> rfl
  | cons a l ih =>
    cases i with
    | zero => simp [List.modify, h]
    | succ i =>
      have := ih i
      simp only [List.modify, List.modifyTailIdx, List.map_cons] at this ⊢
      rw [this]

theorem uninited_splitFrame (s : CFG) (v : Vertex) :
    SplitFrame s { s with data := s.data.uninited v } := by
  unfold SplitFrame CFGData.uninited
  split
  · refine ⟨rfl, rfl, rfl, rfl, rfl, rfl, ?_⟩
    dsimp only
    split
    · exact map_modify_of_eq (fun vd : VarData => (vd.name, vd.type, vd.param_i))
        (fun vd => { vd with uninited_flag := true }) (fun _ => rfl) _ _
    · rfl
  · exact ⟨rfl, rfl, rfl, rfl, rfl, rfl, rfl⟩

theorem process_var_walk_frame (fuel : Nat) (var : VarPtr) :
    Preserves SplitFrame (process_var_walk fuel var) := by
  unfold process_var_walk
  repeat (first
    | exact preserves_mono splitFrame_of_dataEq (search_uninited_data _ _ _)
    | exact preserves_mono splitFrame_of_dataEq (process_var_dfs_data _ _)
    | exact preserves_mono splitFrame_of_dataEq (process_var_number_data _ _ _)
    | apply preserves_bind splitFrame_rel
    | apply preserves_usage_at splitFrame_rel
    | apply preserves_var_data splitFrame_rel
    | apply preserves_node_id splitFrame_rel
    | apply preserves_get_state splitFrame_rel
    | apply preserves_pure splitFrame_rel
    | apply preserves_fail
    | (apply preserves_modify_state; intro _; exact uninited_splitFrame _ _)
    | (apply preserves_modify_state; intro _; exact splitFrame_rel.refl _)
    | intro _
    | split
    | dsimp only)

/-- C6. If the walk of `process_var` ends with exactly one partition
(`parts_cnt = 1`), `process_var` returns in the state that the walk left, without
calling `split_var`: the parameter table, the table of locals, the variable bound to
every vertex and the queue of the re-merger are as before, and no variable was
created, renamed or changed in kind. -/
theorem no_op_singleton (fuel : Nat) (var : VarPtr) (s s1 : CFG)
    (h : process_var_walk fuel var s = Except.ok (some 1, s1)) :
    process_var fuel var s = Except.ok ((), s1) ∧
    s1.data.param_ids = s.data.param_ids ∧
    s1.data.local_var_ids = s.data.local_var_ids ∧
    (∀ v, s1.data.get_var_id v = s.data.get_var_id v) ∧
    s1.data.todo_var = s.data.todo_var ∧
    s1.data.todo_parts = s.data.todo_parts ∧
    s1.data.vars.map (fun vd => (vd.name, vd.type, vd.param_i)) =
      s.data.vars.map (fun vd => (vd.name, vd.type, vd.param_i)) := by
  obtain ⟨f1, f2, f3, f4, f5, _, f7⟩ := (process_var_walk_frame fuel var).run s _ s1 h
  refine ⟨?_, f1, f2, ?_, f4, f5, f7⟩
  · simp [process_var, h]
  · intro v
    simp [CFGData.get_var_id, f3]

theorem push_part_length (l : List (List Vertex)) (i : Nat) (v : Vertex) :
    (push_part l i v).length = l.length := by
  induction l generalizing i with
  | nil => rfl
  | cons f fs ih => cases i <;> simp [push_part, ih]

theorem push_part_getElem? (l : List (List Vertex)) (i j : Nat) (v : Vertex) :
    (push_part l i v)[j]? = if j = i then (l[j]?).map (fun f => f ++ [v]) else l[j]? := by
  induction l generalizing i j with
  | nil => simp [push_part]
  | cons f fs ih =>
    cases i with
    | zero => cases j <;> simp [push_part]
    | succ i => cases j <;> simp [push_part, ih]

theorem usage_at_ok {a : Nat} {s s' : CFG} {u : UsageData} (h : usage_at a s = Except.ok (u, s')) :
    s' = s ∧ s.usage_data a = some u := by
  unfold usage_at at h
  split at h
  · next u' e =>
    cases h
    exact ⟨rfl, e⟩
  · cases h

theorem node_id_ok {n : Node} {s s' : CFG} {x : Nat} (h : node_id n s = Except.ok (x, s')) :
    s' = s ∧ n = some x := by
  cases n with
  | none => cases h
  | some y => cases h; exact ⟨rfl, rfl⟩

theorem process_var_parts_spec (var : VarPtr) (l : List Nat) (parts parts' : List (List Vertex))
    (s s' : CFG) (h : process_var_parts var l parts s = Except.ok (parts', s')) :
    s' = s ∧ parts'.length = parts.length ∧
    (∀ k, parts'[k]? =
      (parts[k]?).map (fun f => f ++ usage_vertices s (part_usages s var l k))) ∧
    (∀ i ∈ l, usage_visited s i = true → ∃ k, k < parts.length ∧ usage_part s var i = some k) := by
  induction l generalizing parts with
  | nil =>
    simp only [process_var_parts, pure_run, Except.ok.injEq, Prod.mk.injEq] at h
    obtain ⟨hp, hs⟩ := h
    subst hp hs
    refine ⟨rfl, rfl, ?_, ?_⟩
    · intro k
      cases parts[k]? <;> simp [part_usages, usage_vertices]
    · intro i hi
      cases hi
  | cons a l ih =>
    unfold process_var_parts at h
    obtain ⟨ud, s1, h1, g1⟩ := bind_ok_iff.mp h
    clear h
    obtain ⟨e1, d1⟩ := usage_at_ok h1
    subst e1
    obtain ⟨n, s2, h2, g2⟩ := bind_ok_iff.mp g1
    clear g1
    obtain ⟨e2, d2⟩ := node_id_ok h2
    subst e2
    simp only [bind_run, get_state_run] at g2
    have hv : usage_visited s2 a = (s2.node_was n != 0) := by
      simp [usage_visited, d1, d2]
    by_cases hw : s2.node_was n ≠ 0
    · rw [if_pos hw] at g2
      cases hvs : get_var_split s2 var with
      | none => rw [hvs] at g2; cases g2
      | some var_split =>
        rw [hvs] at g2
        dsimp only at g2
        obtain ⟨uu, s3, h3, g3⟩ := bind_ok_iff.mp g2
        clear g2
        obtain ⟨e3, d3⟩ := usage_at_ok h3
        subst e3
        have g2 := g3
        clear g3
        have hw' : (s3.node_was n != 0) = true := by simpa using hw
        by_cases hb : uu.part_id < 0 ∨ uu.part_id ≥ (parts.length : Int)
        · rw [if_pos hb] at g2; cases g2
        · rw [if_neg hb] at g2
          have hp : usage_part s3 var a = some uu.part_id.toNat := by
            have : ¬ uu.part_id < 0 := fun c => hb (Or.inl c)
            simp [usage_part, hvs, d3, this]
          obtain ⟨e, hl, hk, hc⟩ := ih _ g2
          refine ⟨e, by rw [hl, push_part_length], ?_, ?_⟩
          · intro k
            rw [hk k, push_part_getElem?]
            by_cases ek : k = uu.part_id.toNat
            · subst ek
              rw [if_pos rfl]
              cases parts[uu.part_id.toNat]? with
              | none => rfl
              | some f =>
                simp [part_usages, usage_vertices, List.filter_cons, hv, hw', hp, d1]
            · rw [if_neg ek]
              have : ¬ (uu.part_id.toNat = k) := fun c => ek c.symm
              cases parts[k]? with
              | none => rfl
              | some f => simp [part_usages, List.filter_cons, hv, hw', hp, this]
          · intro i hi hvi
            rcases List.mem_cons.mp hi with e' | hi'
            · subst e'
              exact ⟨_, by omega, hp⟩
            · obtain ⟨k, hk1, hk2⟩ := hc i hi' hvi
              exact ⟨k, by rw [push_part_length] at hk1; exact hk1, hk2⟩
    · rw [if_neg hw] at g2
      obtain ⟨e, hl, hk, hc⟩ := ih _ g2
      refine ⟨e, hl, ?_, ?_⟩
      · intro k
        rw [hk k]
        have : usage_visited s2 a = false := by rw [hv]; simpa using hw
        simp [part_usages, List.filter_cons, this]
      · intro i hi hvi
        rcases List.mem_cons.mp hi with e' | hi'
        · subst e'
          rw [hv] at hvi
          exact absurd (by simpa using hvi) hw
        · exact hc i hi' hvi

theorem run_eq_of_ok {α : Type} [Inhabited α] (r : Except Err (α × CFG)) (h : run_ok r = true) :
    r = Except.ok ((run_result r).getD default, state_after r) := by
  cases r with
  | error e => cases h
  | ok p => rfl

/-- C1 (amended). The parts that `process_var` hands to `split_var` (there are
`parts_cnt` of them, and `process_var` continues with `split_var` on exactly these
parts) partition the usages of the variable whose node was visited by a forward walk
from the entry: part `k` lists the vertices of the visited usages with partition id
`k`, oldest first; every visited usage lies in exactly one part; and no part holds a
usage that is not a visited usage of the variable. -/
theorem parts_partition_visited (fuel : Nat) (var : VarPtr) (s s1 s2 : CFG) (cnt : Nat)
    (parts : List (List Vertex))
    (hw : process_var_walk fuel var s = Except.ok (some cnt, s1)) (hne : cnt ≠ 1)
    (hp : process_var_build_parts var cnt s1 = Except.ok (parts, s2)) :
    process_var fuel var s = with_data (fun d => d.split_var var parts) s1 ∧
    ∃ var_split, get_var_split s1 var = some var_split ∧ parts.length = cnt ∧
      (∀ k, k < cnt →
        parts[k]? = some (usage_vertices s1 (part_usages s1 var var_split.usage_gen k))) ∧
      (∀ i ∈ var_split.usage_gen, usage_visited s1 i = true →
        ∃ k, k < cnt ∧ i ∈ part_usages s1 var var_split.usage_gen k ∧
          ∀ j, i ∈ part_usages s1 var var_split.usage_gen j → j = k) ∧
      (∀ k i, i ∈ part_usages s1 var var_split.usage_gen k →
        i ∈ var_split.usage_gen ∧ usage_visited s1 i = true) := by
  unfold process_var_build_parts at hp
  simp only [bind_run, get_state_run] at hp
  cases hvs : get_var_split s1 var with
  | none => rw [hvs] at hp; cases hp
  | some var_split =>
    rw [hvs] at hp
    dsimp only at hp
    obtain ⟨e, hl, hk, hc⟩ := process_var_parts_spec _ _ _ _ _ _ hp
    subst e
    have hl' : parts.length = cnt := by rw [hl, List.length_replicate]
    constructor
    · have hb : process_var_build_parts var cnt s2 = Except.ok (parts, s2) := by
        unfold process_var_build_parts
        simp only [bind_run, get_state_run, hvs]
        exact hp
      simp [process_var, hw, hne, hb]
    · refine ⟨var_split, rfl, hl', ?_, ?_, ?_⟩
      · intro k hk'
        rw [hk k]
        simp [List.getElem?_replicate, hk']
      · intro i hi hv
        obtain ⟨k, hk1, hk2⟩ := hc i hi hv
        rw [List.length_replicate] at hk1
        refine ⟨k, hk1, ?_, ?_⟩
        · simp [part_usages, hi, hv, hk2]
        · intro j hj
          simp [part_usages, hk2] at hj
          exact hj.2.2.symm
      · intro k i hi
        simp only [part_usages, List.mem_filter, Bool.and_eq_true] at hi
        exact ⟨hi.1, hi.2.1⟩

/-- Witness of C1 (amended): the variable `$x` of `sample_dead_usage` gets two
parts. -/
theorem parts_partition_visited_witness :
    run_result (process_var_walk 30 0 (built_state 30 sample_dead_usage ["x"])) = some (some 2) ∧
    (2 : Nat) ≠ 1 ∧
    ((run_result (process_var_build_parts 0 2
      (state_after (process_var_walk 30 0 (built_state 30 sample_dead_usage ["x"]))))).getD
        default).length = 2 := by
  have hw : run_result (process_var_walk 30 0 (built_state 30 sample_dead_usage ["x"])) =
      some (some 2) := by decide!
  have hp : run_ok (process_var_build_parts 0 2
      (state_after (process_var_walk 30 0 (built_state 30 sample_dead_usage ["x"])))) = true := by
    decide!
  obtain ⟨_, _, _, hl, _⟩ := parts_partition_visited 30 0 _ _ _ 2 _
    (run_eq_of_result _ _ hw) (by decide) (run_eq_of_ok _ hp)
  exact ⟨hw, by decide, hl⟩

/-- Counterexample to C1 as stated: for `$x` of `sample_dead_usage` the parts handed
to `split_var` are the vertices 4, 7 and 9, 12, while usages were created for the
vertices 4, 7, 9, 12 and 15: the usage of vertex 15, which lies behind the `return`,
is in no part. -/
theorem parts_miss_unvisited_usage :
    parts_ids ((run_result (process_var_build_parts 0 2
      (state_after (process_var_walk 30 0 (built_state 30 sample_dead_usage ["x"]))))).getD
        default) = [[4, 7], [9, 12]] ∧
    usage_gen_ids (state_after (process_var_walk 30 0 (built_state 30 sample_dead_usage ["x"]))) 0 =
      [4, 7, 9, 12, 15] ∧
    ¬ (∀ i ∈ [4, 7, 9, 12, 15], i ∈ ([[4, 7], [9, 12]] : List (List Nat)).flatten) := by
  refine ⟨by decide!, by decide!, by decide⟩

/-- Witness of C6: the variable `$x` of `sample_if_without_else` has one partition;
`process_var` succeeds and leaves the table of locals as it was. -/
theorem no_op_singleton_witness :
    run_result (process_var_walk 30 1 (built_state 30 sample_if_without_else ["c", "x"])) =
      some (some 1) ∧
    run_ok (process_var 30 1 (built_state 30 sample_if_without_else ["c", "x"])) = true ∧
    (state_after (process_var 30 1 (built_state 30 sample_if_without_else ["c", "x"]))).data.local_var_ids
      = (built_state 30 sample_if_without_else ["c", "x"]).data.local_var_ids := by
  have hw : run_result (process_var_walk 30 1 (built_state 30 sample_if_without_else ["c", "x"])) =
      some (some 1) := by decide!
  revert hw
  generalize built_state 30 sample_if_without_else ["c", "x"] = S
  intro hw
  obtain ⟨h1, _, h3, _⟩ := no_op_singleton 30 1 S _ (run_eq_of_result _ _ hw)
  refine ⟨hw, ?_, ?_⟩
  · rw [h1]
    rfl
  · rw [h1]
    exact h3

theorem same_but_was_refl (s : CFG) : same_but_was s s := rfl

theorem same_but_was_trans {s s1 s2 : CFG} (h1 : same_but_was s s1) (h2 : same_but_was s1 s2) :
    same_but_was s s2 := by
  unfold same_but_was at *
  cases s; cases s1; cases s2
  simp only [CFG.mk.injEq] at *
  simp_all

theorem filter_length_le {l : List Nat} {p q : Nat → Bool} (h : ∀ n ∈ l, p n = true → q n = true) :
    (l.filter p).length ≤ (l.filter q).length := by
  induction l with
  | nil => simp
  | cons a l ih =>
    have ih' := ih (fun n hn => h n (List.mem_cons_of_mem _ hn))
    have ha := h a (List.mem_cons_self _ _)
    simp only [List.filter_cons]
    cases hp : p a
    · cases hq : q a <;> simp <;> omega
    · rw [ha hp]
      simp
      omega

theorem filter_length_lt {l : List Nat} {p q : Nat → Bool} (h : ∀ n ∈ l, p n = true → q n = true)
    (v : Nat) (hv : v ∈ l) (hq : q v = true) (hp : p v = false) :
    (l.filter p).length < (l.filter q).length := by
  induction l with
  | nil => cases hv
  | cons a l ih =>
    have hle := filter_length_le (fun n hn => h n (List.mem_cons_of_mem _ hn))
    simp only [List.filter_cons]
    rcases List.mem_cons.mp hv with e | hv'
    · subst e
      rw [hq, hp]
      simp
      omega
    · have ih' := ih (fun n hn => h n (List.mem_cons_of_mem _ hn)) hv'
      have ha := h a (List.mem_cons_self _ _)
      cases hpa : p a
      · cases hqa : q a <;> simp <;> omega
      · rw [ha hpa]
        simp
        omega

theorem unvisited_mono {s s' : CFG} (N : Nat) (hc : s'.cur_dfs_mark = s.cur_dfs_mark)
    (h : ∀ n, s.node_was n = s.cur_dfs_mark → s'.node_was n = s.cur_dfs_mark) :
    unvisited s' N ≤ unvisited s N := by
  unfold unvisited
  apply filter_length_le
  intro n _ hn
  rw [hc] at hn
  simp only [bne_iff_ne, ne_eq] at hn ⊢
  exact fun e => hn (h n e)

theorem unvisited_mark {s : CFG} (N v : Nat) (hv : v < N) (hw : s.node_was v ≠ s.cur_dfs_mark) :
    unvisited { s with node_was := upd s.node_was v s.cur_dfs_mark } N < unvisited s N := by
  unfold unvisited
  apply filter_length_lt _ v (List.mem_range.mpr hv)
  · simpa using hw
  · simp [upd]
  · intro n _ hn
    simp only [bne_iff_ne, ne_eq, upd] at hn ⊢
    by_cases e : n = v
    · subst e; exact hw
    · simpa [e] using hn

theorem search_uninited_usages_spec (x : VarPtr) (l : List Nat) (flag : Bool) (s : CFG)
    (hU : ∀ a ∈ l, (s.usage_data a).isSome = true) :
    ∃ found flag', search_uninited_usages x l flag s = Except.ok ((found, flag'), s) ∧
      (∀ a, found = some a → a ∈ l ∧ plain_read s x a) ∧
      (found = none → (∀ a ∈ l, ¬ plain_read s x a) ∧
        (flag' = true ↔ flag = true ∨ ∃ a ∈ l, write_or_weak s x a)) := by
  induction l generalizing flag with
  | nil =>
    refine ⟨none, flag, rfl, ?_, ?_⟩
    · intro a h; cases h
    · intro _
      exact ⟨fun a h => (by cases h), (by simp)⟩
  | cons a l ih =>
    have hUl : ∀ b ∈ l, (s.usage_data b).isSome = true := fun b hb => hU b (List.mem_cons_of_mem _ hb)
    obtain ⟨u, hu⟩ := Option.isSome_iff_exists.mp (hU a (List.mem_cons_self _ _))
    have hat : usage_at a s = Except.ok (u, s) := by simp [usage_at, hu]
    unfold search_uninited_usages
    simp only [bind_run, hat, get_state_run]
    by_cases hx : s.data.get_var_id u.v = some x
    · rw [if_pos hx]
      by_cases hw : u.type = UsageType.usage_write_t ∨ u.weak_write_flag = true
      · rw [if_pos hw]
        have haw : write_or_weak s x a := ⟨u, hu, hx, hw⟩
        have hnr : ¬ plain_read s x a := by
          rintro ⟨u', hu', _, ht, hk⟩
          rw [hu] at hu'
          cases hu'
          rcases hw with h1 | h1
          · rw [h1] at ht; cases ht
          · rw [h1] at hk; cases hk
        obtain ⟨found, flag', h1, h2, h3⟩ := ih true hUl
        refine ⟨found, flag', h1, ?_, ?_⟩
        · intro b hb
          exact ⟨List.mem_cons_of_mem _ (h2 b hb).1, (h2 b hb).2⟩
        · intro hn
          obtain ⟨h4, h5⟩ := h3 hn
          refine ⟨?_, ?_⟩
          · intro b hb
            rcases List.mem_cons.mp hb with e | hb'
            · subst e; exact hnr
            · exact h4 b hb'
          · constructor
            · intro _
              exact Or.inr ⟨a, List.mem_cons_self _ _, haw⟩
            · intro _
              exact h5.mpr (Or.inl rfl)
      · rw [if_neg hw]
        have hr : u.type = UsageType.usage_read_t := by
          cases ht : u.type
          · exact absurd (Or.inl ht) hw
          · rfl
        rw [if_pos hr]
        have hk : u.weak_write_flag = false := by
          cases hk : u.weak_write_flag
          · rfl
          · exact absurd (Or.inr hk) hw
        refine ⟨some a, flag, rfl, ?_, ?_⟩
        · intro b hb
          cases hb
          exact ⟨List.mem_cons_self _ _, u, hu, hx, hr, hk⟩
        · intro hn; cases hn
    · rw [if_neg hx]
      have hnr : ¬ plain_read s x a := by
        rintro ⟨u', hu', hx', _⟩
        rw [hu] at hu'
        cases hu'
        exact hx hx'
      have hnw : ¬ write_or_weak s x a := by
        rintro ⟨u', hu', hx', _⟩
        rw [hu] at hu'
        cases hu'
        exact hx hx'
      obtain ⟨found, flag', h1, h2, h3⟩ := ih flag hUl
      refine ⟨found, flag', h1, ?_, ?_⟩
      · intro b hb
        exact ⟨List.mem_cons_of_mem _ (h2 b hb).1, (h2 b hb).2⟩
      · intro hn
        obtain ⟨h4, h5⟩ := h3 hn
        refine ⟨?_, ?_⟩
        · intro b hb
          rcases List.mem_cons.mp hb with e | hb'
          · subst e; exact hnr
          · exact h4 b hb'
        · rw [h5]
          constructor
          · rintro (h | ⟨b, hb, hb'⟩)
            · exact Or.inl h
            · exact Or.inr ⟨b, List.mem_cons_of_mem _ hb, hb'⟩
          · rintro (h | ⟨b, hb, hb'⟩)
            · exact Or.inl h
            · rcases List.mem_cons.mp hb with e | hb2
              · subst e; exact absurd hb' hnw
              · exact Or.inr ⟨b, hb2, hb'⟩

theorem same_but_was_fields {s t : CFG} (h : same_but_was s t) :
    t.node_next = s.node_next ∧ t.node_usages = s.node_usages ∧ t.usage_data = s.usage_data ∧
    t.data = s.data ∧ t.cur_dfs_mark = s.cur_dfs_mark := by
  unfold same_but_was at h
  rw [h]
  exact ⟨rfl, rfl, rfl, rfl, rfl⟩

theorem plain_read_congr {s t : CFG} (h : same_but_was s t) (x : VarPtr) (a : Nat) :
    plain_read t x a ↔ plain_read s x a := by
  obtain ⟨_, _, h3, h4, _⟩ := same_but_was_fields h
  simp only [plain_read, usage_is, h3, h4]

theorem write_or_weak_congr {s t : CFG} (h : same_but_was s t) (x : VarPtr) (a : Nat) :
    write_or_weak t x a ↔ write_or_weak s x a := by
  obtain ⟨_, _, h3, h4, _⟩ := same_but_was_fields h
  simp only [write_or_weak, usage_is, h3, h4]

theorem clear_step_congr {s t : CFG} (h : same_but_was s t) (x : VarPtr) :
    clear_step t x = clear_step s x := by
  obtain ⟨h1, h2, h3, h4, _⟩ := same_but_was_fields h
  funext n m
  simp only [clear_step, carries_write_or_weak, write_or_weak, usage_is, h1, h2, h3, h4]

theorem carries_plain_read_congr {s t : CFG} (h : same_but_was s t) (x : VarPtr) (n : Nat) :
    carries_plain_read t x n ↔ carries_plain_read s x n := by
  obtain ⟨h1, h2, h3, h4, _⟩ := same_but_was_fields h
  simp only [carries_plain_read, plain_read, usage_is, h2, h3, h4]

theorem carries_write_or_weak_congr {s t : CFG} (h : same_but_was s t) (x : VarPtr) (n : Nat) :
    carries_write_or_weak t x n ↔ carries_write_or_weak s x n := by
  obtain ⟨h1, h2, h3, h4, _⟩ := same_but_was_fields h
  simp only [carries_write_or_weak, write_or_weak, usage_is, h2, h3, h4]

theorem search_uninited_next_spec (x : VarPtr) (N fuel : Nat) (search : Nat → M UsagePtr)
    (hs : ∀ i t, (∀ n, n < N → ∀ m, m ∈ t.node_next n → m < N) → i < N →
      t.node_was i ≠ t.cur_dfs_mark → unvisited t N < fuel →
      (∀ n, n < N → ∀ a, a ∈ t.node_usages n → (t.usage_data a).isSome = true) →
      ∃ r t', search i t = Except.ok (r, t') ∧ SearchPost x t i r t')
    (l : List Nat) (s : CFG) (hfin : ∀ n, n < N → ∀ m, m ∈ s.node_next n → m < N) (hl : ∀ i ∈ l, i < N)
    (hf : unvisited s N < fuel)
    (hU : ∀ n, n < N → ∀ a, a ∈ s.node_usages n → (s.usage_data a).isSome = true) :
    ∃ r s', search_uninited_next search l s = Except.ok (r, s') ∧ SearchLoopPost x s l r s' := by
  induction l generalizing s with
  | nil =>
    refine ⟨none, s, rfl, same_but_was_refl s, fun n h => h, ?_, ?_, ?_⟩
    · intro a h; cases h
    · intro _ i hi; cases hi
    · intro _ n h1 h2; exact absurd h2 h1
  | cons i l ih =>
    unfold search_uninited_next
    simp only [bind_run, get_state_run]
    have hl' : ∀ j ∈ l, j < N := fun j hj => hl j (List.mem_cons_of_mem _ hj)
    by_cases hw : s.node_was i ≠ s.cur_dfs_mark
    · rw [if_pos hw]
      obtain ⟨r1, s1, h1, p1⟩ := hs i s hfin (hl i (List.mem_cons_self _ _)) hw hf hU
      obtain ⟨e1, e2, e3, e4, e5⟩ := same_but_was_fields p1.frame
      simp only [bind_run, h1]
      cases r1 with
      | some a =>
        simp only [Option.isSome_some, if_true, pure_run]
        refine ⟨some a, s1, rfl, p1.frame, p1.grow, ?_, ?_, ?_⟩
        · intro b hb
          obtain ⟨q1, n, q2, q3⟩ := p1.sound b hb
          exact ⟨q1, i, List.mem_cons_self _ _, n, q2, q3⟩
        · intro h; cases h
        · intro h; cases h
      | none =>
        simp only [Option.isSome_none, Bool.false_eq_true, if_false]
        have hfin1 : ∀ n, n < N → ∀ m, m ∈ s1.node_next n → m < N := by rw [e1]; exact hfin
        have hf1 : unvisited s1 N < fuel :=
          lt_of_le_of_lt (unvisited_mono N e5 p1.grow) hf
        have hU1 : ∀ n, n < N → ∀ a, a ∈ s1.node_usages n → (s1.usage_data a).isSome = true := by
          rw [e2, e3]; exact hU
        obtain ⟨r2, s2, h2, p2⟩ := ih s1 hfin1 hl' hf1 hU1
        refine ⟨r2, s2, h2, same_but_was_trans p1.frame p2.frame, ?_, ?_, ?_, ?_⟩
        · intro n hn
          have := p2.grow n (by rw [e5]; exact p1.grow n hn)
          rw [e5] at this
          exact this
        · intro b hb
          obtain ⟨q1, j, hj, n, q2, q3⟩ := p2.sound b hb
          refine ⟨(plain_read_congr p1.frame x b).mp q1, j, List.mem_cons_of_mem _ hj, n, ?_, ?_⟩
          · rw [e2] at q2; exact q2
          · rw [clear_step_congr p1.frame] at q3; exact q3
        · intro hr j hj
          rcases List.mem_cons.mp hj with e | hj'
          · subst e
            have := p2.grow j (by rw [e5]; exact p1.visited rfl)
            rw [e5] at this
            exact this
          · have := p2.visited hr j hj'
            rw [e5] at this
            exact this
        · intro hr n hn1 hn2
          by_cases hm : s1.node_was n = s.cur_dfs_mark
          · obtain ⟨c1, c2⟩ := p1.closed rfl n hn1 hm
            refine ⟨c1, fun hb m hm' => ?_⟩
            have := p2.grow m (by rw [e5]; exact c2 hb m hm')
            rw [e5] at this
            exact this
          · have hn2' : s2.node_was n = s1.cur_dfs_mark := by rw [e5]; exact hn2
            obtain ⟨c1, c2⟩ := p2.closed hr n (by rw [e5]; exact hm) hn2'
            rw [carries_plain_read_congr p1.frame] at c1
            rw [carries_write_or_weak_congr p1.frame, e1, e5] at c2
            exact ⟨c1, c2⟩
    · rw [if_neg hw]
      have hw' : s.node_was i = s.cur_dfs_mark := by
        by_contra c; exact hw c
      obtain ⟨r2, s2, h2, p2⟩ := ih s hfin hl' hf hU
      refine ⟨r2, s2, h2, p2.frame, p2.grow, ?_, ?_, p2.closed⟩
      · intro b hb
        obtain ⟨q1, j, hj, n, q2, q3⟩ := p2.sound b hb
        exact ⟨q1, j, List.mem_cons_of_mem _ hj, n, q2, q3⟩
      · intro hr j hj
        rcases List.mem_cons.mp hj with e | hj'
        · subst e; exact p2.grow j hw'
        · exact p2.visited hr j hj'

theorem search_uninited_spec (x : VarPtr) (N : Nat) (fuel : Nat) :
    ∀ v s, (∀ n, n < N → ∀ m, m ∈ s.node_next n → m < N) → v < N →
      s.node_was v ≠ s.cur_dfs_mark → unvisited s N < fuel →
      (∀ n, n < N → ∀ a, a ∈ s.node_usages n → (s.usage_data a).isSome = true) →
      ∃ r s', search_uninited fuel v x s = Except.ok (r, s') ∧ SearchPost x s v r s' := by
  induction fuel with
  | zero =>
    intro v s _ _ _ hf
    exact absurd hf (Nat.not_lt_zero _)
  | succ fuel ih =>
    intro v s hfin hv hw hf hU
    have fr0 : same_but_was s { s with node_was := upd s.node_was v s.cur_dfs_mark } := rfl
    have gr0 : ∀ n, s.node_was n = s.cur_dfs_mark →
        upd s.node_was v s.cur_dfs_mark n = s.cur_dfs_mark := by
      intro n hn
      by_cases e : n = v
      · simp [upd, e]
      · simp [upd, e, hn]
    obtain ⟨found, flag, hscan, sc1, sc2⟩ := search_uninited_usages_spec x (s.node_usages v) false
      { s with node_was := upd s.node_was v s.cur_dfs_mark } (fun a ha => hU v hv a ha)
    unfold search_uninited
    simp only [bind_run, modify_state_run, get_state_run, hscan]
    cases found with
    | some a =>
      simp only [Option.isSome_some, if_true, pure_run]
      refine ⟨some a, _, rfl, fr0, gr0, ?_, ?_, ?_⟩
      · intro b hb
        cases hb
        obtain ⟨q1, q2⟩ := sc1 a rfl
        exact ⟨(plain_read_congr fr0 x a).mp q2, v, q1, Relation.ReflTransGen.refl⟩
      · intro h; cases h
      · intro h; cases h
    | none =>
      simp only [Option.isSome_none, Bool.false_eq_true, if_false]
      obtain ⟨nr, fl⟩ := sc2 rfl
      have hnr : ¬ carries_plain_read s x v := by
        rintro ⟨a, ha, hp⟩
        exact nr a ha ((plain_read_congr fr0 x a).mpr hp)
      have hfl : flag = true ↔ carries_write_or_weak s x v := by
        rw [fl]
        constructor
        · rintro (h | ⟨a, ha, hp⟩)
          · cases h
          · exact ⟨a, ha, (write_or_weak_congr fr0 x a).mp hp⟩
        · rintro ⟨a, ha, hp⟩
          exact Or.inr ⟨a, ha, (write_or_weak_congr fr0 x a).mpr hp⟩
      cases hflag : flag with
      | true =>
        simp only [if_true, pure_run]
        refine ⟨none, _, rfl, fr0, gr0, ?_, ?_, ?_⟩
        · intro b hb; cases hb
        · intro _; simp [upd]
        · intro _ n hn1 hn2
          have e : n = v := by
            by_contra c
            simp only [upd, c, if_false] at hn2
            exact hn1 hn2
          subst e
          exact ⟨hnr, fun hb => absurd (hfl.mp hflag) hb⟩
      | false =>
        simp only [Bool.false_eq_true, if_false]
        have hnb : ¬ carries_write_or_weak s x v := by
          intro c
          rw [hfl.mpr c] at hflag
          cases hflag
        have hf0 : unvisited { s with node_was := upd s.node_was v s.cur_dfs_mark } N < fuel := by
          have := unvisited_mark N v hv hw
          omega
        obtain ⟨r, s', hl, pl⟩ := search_uninited_next_spec x N fuel
          (fun i => search_uninited fuel i x) ih (s.node_next v)
          { s with node_was := upd s.node_was v s.cur_dfs_mark } hfin
          (fun i hi => hfin v hv i hi) hf0 hU
        refine ⟨r, s', hl, same_but_was_trans fr0 pl.frame, ?_, ?_, ?_, ?_⟩
        · intro n hn
          exact pl.grow n (gr0 n hn)
        · intro b hb
          obtain ⟨q1, i, hi, n, q2, q3⟩ := pl.sound b hb
          refine ⟨(plain_read_congr fr0 x b).mp q1, n, q2, ?_⟩
          rw [clear_step_congr fr0] at q3
          exact Relation.ReflTransGen.head ⟨hi, hnb⟩ q3
        · intro _
          exact pl.grow v (by simp [upd])
        · intro hr n hn1 hn2
          by_cases e : n = v
          · subst e
            exact ⟨hnr, fun _ m hm => pl.visited hr m hm⟩
          · have hn1' : upd s.node_was v s.cur_dfs_mark n ≠ s.cur_dfs_mark := by
              simpa [upd, e] using hn1
            obtain ⟨c1, c2⟩ := pl.closed hr n hn1' hn2
            rw [carries_plain_read_congr fr0] at c1
            rw [carries_write_or_weak_congr fr0] at c2
            exact ⟨c1, c2⟩

theorem clear_step_reach_lt (x : VarPtr) (N entry : Nat) (s : CFG)
    (hfin : ∀ n, n < N → ∀ m, m ∈ s.node_next n → m < N) (he : entry < N) (m : Nat)
    (hm : Relation.ReflTransGen (clear_step s x) entry m) : m < N := by
  induction hm with
  | refl => exact he
  | tail _ hstep ih => exact hfin _ ih _ hstep.1

theorem search_uninited_path_iff (x : VarPtr) (N fuel entry : Nat) (s : CFG)
    (hfin : ∀ n, n < N → ∀ m, m ∈ s.node_next n → m < N) (he : entry < N) (hfuel : N < fuel)
    (hfresh : ∀ n, n < N → s.node_was n ≠ s.cur_dfs_mark)
    (hU : ∀ n, n < N → ∀ a, a ∈ s.node_usages n → (s.usage_data a).isSome = true) :
    ∃ r s', search_uninited fuel entry x s = Except.ok (r, s') ∧
      (r.isSome = true ↔
        ∃ n, Relation.ReflTransGen (clear_step s x) entry n ∧ carries_plain_read s x n) ∧
      (∀ a, r = some a →
        plain_read s x a ∧
          ∃ n, a ∈ s.node_usages n ∧ Relation.ReflTransGen (clear_step s x) entry n) := by
  have hu : unvisited s N < fuel := by
    have : unvisited s N ≤ N := by
      unfold unvisited
      exact le_trans (List.length_filter_le _ _) (by simp)
    omega
  obtain ⟨r, s', h, p⟩ := search_uninited_spec x N fuel entry s hfin he (hfresh entry he) hu hU
  refine ⟨r, s', h, ?_, p.sound⟩
  constructor
  · intro hr
    obtain ⟨a, ha⟩ := Option.isSome_iff_exists.mp hr
    obtain ⟨q1, n, q2, q3⟩ := p.sound a ha
    exact ⟨n, q3, a, q2, q1⟩
  · rintro ⟨n, hp, hg⟩
    by_contra hr
    have hr' : r = none := by
      cases r with
      | none => rfl
      | some a => simp at hr
    have key : ∀ m, Relation.ReflTransGen (clear_step s x) entry m →
        s'.node_was m = s.cur_dfs_mark := by
      intro m hm
      induction hm with
      | refl => exact p.visited hr'
      | tail hpre hstep ih =>
        exact (p.closed hr' _ (hfresh _ (clear_step_reach_lt x N entry s hfin he _ hpre)) ih).2
          hstep.2 _ hstep.1
    exact (p.closed hr' n (hfresh n (clear_step_reach_lt x N entry s hfin he n hp)) (key n hp)).1 hg

theorem preserves_bind2 {P Q R : CFG → CFG → Prop} {α β : Type} {m : M α} {f : α → M β}
    (hm : Preserves P m) (hf : ∀ a, Preserves Q (f a))
    (h : ∀ s s1 s2, P s s1 → Q s1 s2 → R s s2) : Preserves R (m >>= f) := by
  refine ⟨fun s b s' e => ?_⟩
  obtain ⟨a, s1, h1, h2⟩ := bind_ok_iff.mp e
  exact h _ _ _ (hm.run _ _ _ h1) ((hf a).run _ _ _ h2)

theorem uninitedGrow_of_dataEq (k : Nat) (s s' : CFG) (h : DataEq s s') : UninitedGrow k s s' := by
  unfold DataEq at h
  unfold UninitedGrow
  rw [h]
  omega

theorem uninited_length (d : CFGData) (v : Vertex) :
    (d.uninited v).uninited_vars.length ≤ d.uninited_vars.length + 1 := by
  unfold CFGData.uninited
  split <;> simp

theorem process_var_walk_uninited (fuel : Nat) (var : VarPtr) :
    Preserves (UninitedGrow 1) (process_var_walk fuel var) := by
  have d01 : ∀ s s1 s2, DataEq s s1 → UninitedGrow 1 s1 s2 → UninitedGrow 1 s s2 := by
    intro s s1 s2 h1 h2
    unfold DataEq at h1
    unfold UninitedGrow at *
    rw [h1] at h2
    exact h2
  have d10 : ∀ s s1 s2, UninitedGrow 1 s s1 → DataEq s1 s2 → UninitedGrow 1 s s2 := by
    intro s s1 s2 h1 h2
    unfold DataEq at h2
    unfold UninitedGrow at *
    rw [h2]
    exact h1
  have w : ∀ {α : Type} {m : M α}, Preserves DataEq m → Preserves (UninitedGrow 1) m :=
    fun h => preserves_mono (uninitedGrow_of_dataEq 1) h
  unfold process_var_walk
  refine preserves_bind2 (preserves_get_state dataEq_rel) (fun s => ?_) d01
  split
  · exact preserves_fail _
  · refine preserves_bind2 (preserves_var_data dataEq_rel _) (fun vd => ?_) d01
    split
    · exact w (preserves_pure dataEq_rel _)
    · refine preserves_bind2 (P := UninitedGrow 1) (Q := DataEq) ?_ (fun _ => ?_) d10
      · split
        · refine preserves_bind2 (P := DataEq) (preserves_modify_state _ (fun _ => rfl)) (fun _ => ?_) d01
          refine preserves_bind2 (preserves_node_id dataEq_rel _) (fun _ => ?_) d01
          refine preserves_bind2 (search_uninited_data _ _ _) (fun r => ?_) d01
          split
          · refine preserves_bind2 (preserves_usage_at dataEq_rel _) (fun u => ?_) d01
            exact preserves_modify_state _ (fun t => uninited_length t.data u.v)
          · exact w (preserves_pure dataEq_rel _)
        · exact w (preserves_pure dataEq_rel _)
      · repeat (first
          | exact process_var_dfs_data _ _
          | exact process_var_number_data _ _ _
          | apply preserves_bind dataEq_rel
          | apply preserves_pure dataEq_rel
          | (apply preserves_modify_state; intro _; rfl)
          | intro _)

/-- C4. On a finite graph (the entry and the successors of every node below `N` are
below `N`) whose attached usages have their data, a search for `x` that starts with
no node marked for the current search and with fuel above `N` returns.  It returns a
usage if and only if there is a path from the entry to a node that carries a plain
`Read` of `x` such that no node of the path before the last carries a `Write` or a
weak-write usage of `x`; a returned usage is a plain `Read` of `x` attached to the
end of such a path.  The result is a single optional usage, and one run of the walk
of `process_var` adds at most one occurrence to the list of possibly uninitialised
occurrences. -/
theorem search_uninited_characterisation (x : VarPtr) (N fuel entry : Nat) (s : CFG)
    (hfin : ∀ n, n < N → ∀ m, m ∈ s.node_next n → m < N) (he : entry < N) (hfuel : N < fuel)
    (hfresh : ∀ n, n < N → s.node_was n ≠ s.cur_dfs_mark)
    (hU : ∀ n, n < N → ∀ a, a ∈ s.node_usages n → (s.usage_data a).isSome = true) :
    (∃ r s', search_uninited fuel entry x s = Except.ok (r, s') ∧
      (r.isSome = true ↔
        ∃ n, Relation.ReflTransGen (clear_step s x) entry n ∧ carries_plain_read s x n) ∧
      (∀ a, r = some a →
        plain_read s x a ∧
          ∃ n, a ∈ s.node_usages n ∧ Relation.ReflTransGen (clear_step s x) entry n)) ∧
    (∀ fuel' var t r' t', process_var_walk fuel' var t = Except.ok (r', t') →
      t'.data.uninited_vars.length ≤ t.data.uninited_vars.length + 1) :=
  ⟨search_uninited_path_iff x N fuel entry s hfin he hfuel hfresh hU,
    fun fuel' var t r' t' h => (process_var_walk_uninited fuel' var).run t r' t' h⟩

/-- Witness of C4: the search for `$x` in `sample_if_without_else` (17 nodes, entry
0) returns usage 2, the read in `echo $x`. -/
theorem search_uninited_characterisation_witness :
    ((∀ n, n < 17 → ∀ m, m ∈ sample_search_state.node_next n → m < 17) ∧
      (∀ n, n < 17 → sample_search_state.node_was n ≠ sample_search_state.cur_dfs_mark) ∧
      (∀ n, n < 17 → ∀ a, a ∈ sample_search_state.node_usages n →
        (sample_search_state.usage_data a).isSome = true)) ∧
    run_result (search_uninited 30 0 1 sample_search_state) = some (some 2) ∧
    (∃ r s', search_uninited 30 0 1 sample_search_state = Except.ok (r, s') ∧
      ∀ a, r = some a → plain_read sample_search_state 1 a) := by
  have h1 : ∀ n, n < 17 → ∀ m, m ∈ sample_search_state.node_next n → m < 17 := by decide!
  have h2 : ∀ n, n < 17 → sample_search_state.node_was n ≠ sample_search_state.cur_dfs_mark := by
    decide!
  have h3 : ∀ n, n < 17 → ∀ a, a ∈ sample_search_state.node_usages n →
      (sample_search_state.usage_data a).isSome = true := by decide!
  have h4 : run_result (search_uninited 30 0 1 sample_search_state) = some (some 2) := by decide!
  refine ⟨⟨h1, h2, h3⟩, h4, ?_⟩
  obtain ⟨⟨r, s', e, _, hs⟩, _⟩ := search_uninited_characterisation 1 17 30 0 sample_search_state
    h1 (by decide) (by decide) h2 h3
  exact ⟨r, s', e, fun a ha => (hs a ha).1⟩

theorem same_but_marks_refl (x : VarPtr) (s : CFG) : same_but_marks x s s :=
  ⟨rfl, fun _ _ => rfl, fun vs h => ⟨vs, h, rfl⟩⟩

theorem same_but_marks_trans {x : VarPtr} {s s1 s2 : CFG} (h1 : same_but_marks x s s1)
    (h2 : same_but_marks x s1 s2) : same_but_marks x s s2 := by
  obtain ⟨a1, a2, a3⟩ := h1
  obtain ⟨b1, b2, b3⟩ := h2
  refine ⟨?_, fun y hy => (b2 y hy).trans (a2 y hy), ?_⟩
  · cases s; cases s1; cases s2
    simp only [CFG.mk.injEq] at *
    simp_all
  · intro vs hvs
    obtain ⟨vs1, e1, g1⟩ := a3 vs hvs
    obtain ⟨vs2, e2, g2⟩ := b3 vs1 e1
    exact ⟨vs2, e2, g2.trans g1⟩

theorem same_but_marks_fields {x : VarPtr} {s t : CFG} (h : same_but_marks x s t) :
    t.node_next = s.node_next ∧ t.node_prev = s.node_prev ∧ t.node_usages = s.node_usages ∧
    t.usage_data = s.usage_data ∧ t.data = s.data := by
  obtain ⟨h1, _, _⟩ := h
  rw [h1]
  exact ⟨rfl, rfl, rfl, rfl, rfl⟩

theorem same_set_refl_of (s : CFG) (x : VarPtr) (i : Nat) (vs : VarSplitData)
    (h : get_var_split s x = some vs) : same_set s x i i := ⟨vs, h, rfl⟩

theorem same_set_symm {s : CFG} {x : VarPtr} {i j : Nat} (h : same_set s x i j) :
    same_set s x j i := by
  obtain ⟨vs, h1, h2⟩ := h
  exact ⟨vs, h1, h2.symm⟩

theorem same_set_trans {s : CFG} {x : VarPtr} {i j k : Nat} (h1 : same_set s x i j)
    (h2 : same_set s x j k) : same_set s x i k := by
  obtain ⟨vs, a1, a2⟩ := h1
  obtain ⟨vs', b1, b2⟩ := h2
  rw [a1] at b1
  cases b1
  exact ⟨vs, a1, a2.trans b2⟩

theorem dsu_uni_mono (p : Nat → Nat) (a b i j : Nat) (h : dsu_get p i = dsu_get p j) :
    dsu_get (dsu_uni p a b) i = dsu_get (dsu_uni p a b) j := by
  unfold dsu_uni dsu_get at *
  split
  · exact h
  · simp only [h]

theorem dsu_uni_joins (p : Nat → Nat) (a b : Nat) :
    dsu_get (dsu_uni p a b) a = dsu_get (dsu_uni p a b) b := by
  unfold dsu_uni dsu_get
  split
  · next h => exact h
  · next h =>
    have : ¬ (p b = p a) := fun e => h e.symm
    simp [this]

/-- What one call of `try_uni_usages` of a usage of `x` does. -/
theorem try_uni_usages_spec (x : VarPtr) (a b : Nat) (s : CFG) (ua ub : UsageData)
    (vs : VarSplitData) (ha : s.usage_data a = some ua) (hb : s.usage_data b = some ub)
    (hx : s.data.get_var_id ua.v = some x) (hvs : get_var_split s x = some vs) :
    ∃ r s', try_uni_usages a b s = Except.ok (r, s') ∧ same_but_marks x s s' ∧
      s'.node_mark = s.node_mark ∧
      (r = true ↔ s.data.get_var_id ub.v = some x) ∧
      (∀ i j, same_set s x i j → same_set s' x i j) ∧
      (r = true → same_set s' x a b) := by
  have hat : usage_at a s = Except.ok (ua, s) := by simp [usage_at, ha]
  have hbt : usage_at b s = Except.ok (ub, s) := by simp [usage_at, hb]
  unfold try_uni_usages
  simp only [bind_run, hat, hbt, get_state_run, hx]
  by_cases hy : some x = s.data.get_var_id ub.v
  · rw [if_pos hy]
    simp only [hvs, bind_run, modify_state_run, pure_run]
    refine ⟨true, _, rfl, ⟨rfl, ?_, ?_⟩, rfl, ?_, ?_, ?_⟩
    · intro y hy'
      simp [upd, hy']
    · intro vs0 h0
      unfold get_var_split at hvs
      rw [hvs] at h0
      cases h0
      exact ⟨{ vs with parent := dsu_uni vs.parent a b }, by simp [upd], rfl⟩
    · simp [hy.symm]
    · rintro i j ⟨vs0, h0, h1⟩
      rw [hvs] at h0
      cases h0
      exact ⟨{ vs with parent := dsu_uni vs.parent a b }, by simp [get_var_split, upd],
        dsu_uni_mono _ _ _ _ _ h1⟩
    · intro _
      exact ⟨{ vs with parent := dsu_uni vs.parent a b }, by simp [get_var_split, upd],
        dsu_uni_joins _ _ _⟩
  · rw [if_neg hy]
    refine ⟨false, s, rfl, same_but_marks_refl x s, rfl, ?_, fun i j h => h, ?_⟩
    · constructor
      · intro h; cases h
      · intro h; exact absurd h.symm hy
    · intro h; cases h

theorem usage_is_congr {x : VarPtr} {s t : CFG} (h : same_but_marks x s t) (a : Nat)
    (p : UsageData → Prop) : usage_is t x a p ↔ usage_is s x a p := by
  obtain ⟨_, _, _, h4, h5⟩ := same_but_marks_fields h
  simp only [usage_is, h4, h5]

theorem carries_write_congr {x : VarPtr} {s t : CFG} (h : same_but_marks x s t) (n : Nat) :
    carries_write t x n ↔ carries_write s x n := by
  obtain ⟨_, _, h3, h4, h5⟩ := same_but_marks_fields h
  simp only [carries_write, usage_is, h3, h4, h5]

theorem walkPre_of_frame {x : VarPtr} {N : Nat} {s t : CFG} (h : same_but_marks x s t)
    (hp : WalkPre x N s) (hm : ∀ n m, t.node_mark n = some m → usage_is s x m fun _ => True) :
    WalkPre x N t := by
  obtain ⟨_, h2, h3, h4, h5⟩ := same_but_marks_fields h
  refine ⟨?_, ?_, ?_, ?_⟩
  · rw [h2]; exact hp.fin
  · rw [h3, h4]; exact hp.data
  · obtain ⟨vs, hvs⟩ := Option.isSome_iff_exists.mp hp.split
    obtain ⟨vs', e, _⟩ := h.2.2 vs hvs
    unfold get_var_split
    rw [e]
    rfl
  · intro n m hnm
    exact (usage_is_congr h m _).mpr (hm n m hnm)

theorem walkPost_refl {x : VarPtr} {N : Nat} {s : CFG} (hp : WalkPre x N s) : WalkPost x s s :=
  ⟨same_but_marks_refl x s, fun _ _ h => h, fun _ _ h => h, hp.marks,
    fun n h m h' => by rw [h] at h'; cases h'⟩

theorem walkPost_trans {x : VarPtr} {s s1 s2 : CFG} (h1 : WalkPost x s s1)
    (h2 : WalkPost x s1 s2) : WalkPost x s s2 := by
  obtain ⟨_, e2, e3, e4, e5⟩ := same_but_marks_fields h1.frame
  refine ⟨same_but_marks_trans h1.frame h2.frame, fun n m h => h2.keep n m (h1.keep n m h),
    fun i j h => h2.grow i j (h1.grow i j h),
    fun n m h => (usage_is_congr h1.frame m _).mp (h2.marks n m h), ?_⟩
  intro n hn m hm
  cases e : s1.node_mark n with
  | none =>
    obtain ⟨c1, c2⟩ := h2.closed n e m hm
    constructor
    · intro a ha hxa
      rw [← e3] at ha
      exact c1 a ha ((usage_is_congr h1.frame a _).mpr hxa)
    · intro hw p hp
      rw [← e2] at hp
      exact c2 (fun q => hw ((carries_write_congr h1.frame n).mp q)) p hp
  | some m1 =>
    have := h2.keep n m1 e
    rw [hm] at this
    cases this
    obtain ⟨c1, c2⟩ := h1.closed n hn m e
    constructor
    · intro a ha hxa
      exact h2.grow _ _ (c1 a ha hxa)
    · intro hw p hp
      obtain ⟨m', q1, q2⟩ := c2 hw p hp
      exact ⟨m', h2.keep p m' q1, h2.grow _ _ q2⟩

theorem unmarked_mono {s s' : CFG} (N : Nat)
    (h : ∀ n m, s.node_mark n = some m → s'.node_mark n = some m) :
    unmarked s' N ≤ unmarked s N := by
  unfold unmarked
  apply filter_length_le
  intro n _ hn
  cases e : s.node_mark n with
  | none => rfl
  | some m => rw [h n m e] at hn; cases hn

theorem unmarked_mark {s : CFG} (N v o : Nat) (hv : v < N) (hw : s.node_mark v = none) :
    unmarked { s with node_mark := upd s.node_mark v (some o) } N < unmarked s N := by
  unfold unmarked
  apply filter_length_lt _ v (List.mem_range.mpr hv)
  · simp [hw]
  · simp [upd]
  · intro n _ hn
    by_cases e : n = v
    · subst e; simp [hw]
    · simpa [upd, e] using hn

theorem dfs_usages_spec (x : VarPtr) (o : Nat) (l : List Nat) (flag : Bool) (s : CFG)
    (ho : usage_is s x o fun _ => True) (hs : (get_var_split s x).isSome = true)
    (hU : ∀ a ∈ l, (s.usage_data a).isSome = true) :
    ∃ flag' s', dfs_usages o l flag s = Except.ok (flag', s') ∧ same_but_marks x s s' ∧
      s'.node_mark = s.node_mark ∧
      (∀ i j, same_set s x i j → same_set s' x i j) ∧
      (∀ a ∈ l, (usage_is s x a fun _ => True) → same_set s' x o a) ∧
      (flag' = true ↔ flag = true ∨
        ∃ a ∈ l, usage_is s x a fun u => u.type = UsageType.usage_write_t) := by
  induction l generalizing flag s with
  | nil =>
    obtain ⟨vs, hvs⟩ := Option.isSome_iff_exists.mp hs
    refine ⟨flag, s, rfl, same_but_marks_refl x s, rfl, fun i j h => h, ?_, ?_⟩
    · intro a ha; cases ha
    · simp
  | cons a l ih =>
    obtain ⟨uo, ho1, ho2, _⟩ := ho
    obtain ⟨vs, hvs⟩ := Option.isSome_iff_exists.mp hs
    obtain ⟨ua, hua⟩ := Option.isSome_iff_exists.mp (hU a (List.mem_cons_self _ _))
    obtain ⟨r, s1, h1, f1, m1, r1, g1, j1⟩ := try_uni_usages_spec x o a s uo ua vs ho1 hua ho2 hvs
    obtain ⟨_, _, _, e4, e5⟩ := same_but_marks_fields f1
    have hat : usage_at a s1 = Except.ok (ua, s1) := by simp [usage_at, e4, hua]
    have ho' : usage_is s1 x o fun _ => True := (usage_is_congr f1 o _).mpr ⟨uo, ho1, ho2, trivial⟩
    have hs1 : (get_var_split s1 x).isSome = true := by
      obtain ⟨vs', e, _⟩ := f1.2.2 vs hvs
      unfold get_var_split
      rw [e]; rfl
    have hU1 : ∀ b ∈ l, (s1.usage_data b).isSome = true := by
      intro b hb
      rw [e4]
      exact hU b (List.mem_cons_of_mem _ hb)
    unfold dfs_usages
    simp only [bind_run, h1, hat]
    have hwa : (r = true ∧ ua.type = UsageType.usage_write_t) ↔
        usage_is s x a fun u => u.type = UsageType.usage_write_t := by
      constructor
      · rintro ⟨q1, q2⟩
        exact ⟨ua, hua, r1.mp q1, q2⟩
      · rintro ⟨u, q1, q2, q3⟩
        rw [hua] at q1
        cases q1
        exact ⟨r1.mpr q2, q3⟩
    have hxa : (usage_is s x a fun _ => True) → same_set s1 x o a := by
      rintro ⟨u, q1, q2, _⟩
      rw [hua] at q1
      cases q1
      exact j1 (r1.mpr q2)
    by_cases hc : r = true ∧ ua.type = UsageType.usage_write_t
    · rw [if_pos hc]
      obtain ⟨flag', s2, h2, f2, m2, g2, j2, w2⟩ := ih true s1 ho' hs1 hU1
      refine ⟨flag', s2, h2, same_but_marks_trans f1 f2, m2.trans m1,
        fun i j h => g2 i j (g1 i j h), ?_, ?_⟩
      · intro b hb hxb
        rcases List.mem_cons.mp hb with e | hb'
        · subst e
          exact g2 _ _ (hxa hxb)
        · exact j2 b hb' ((usage_is_congr f1 b _).mpr hxb)
      · rw [w2]
        constructor
        · intro _
          exact Or.inr ⟨a, List.mem_cons_self _ _, hwa.mp hc⟩
        · intro _
          exact Or.inl rfl
    · rw [if_neg hc]
      obtain ⟨flag', s2, h2, f2, m2, g2, j2, w2⟩ := ih flag s1 ho' hs1 hU1
      refine ⟨flag', s2, h2, same_but_marks_trans f1 f2, m2.trans m1,
        fun i j h => g2 i j (g1 i j h), ?_, ?_⟩
      · intro b hb hxb
        rcases List.mem_cons.mp hb with e | hb'
        · subst e
          exact g2 _ _ (hxa hxb)
        · exact j2 b hb' ((usage_is_congr f1 b _).mpr hxb)
      · rw [w2]
        constructor
        · rintro (h | ⟨b, hb, hb'⟩)
          · exact Or.inl h
          · exact Or.inr ⟨b, List.mem_cons_of_mem _ hb, (usage_is_congr f1 b _).mp hb'⟩
        · rintro (h | ⟨b, hb, hb'⟩)
          · exact Or.inl h
          · rcases List.mem_cons.mp hb with e | hb2
            · subst e
              exact absurd (hwa.mpr hb') hc
            · exact Or.inr ⟨b, hb2, (usage_is_congr f1 b _).mpr hb'⟩

theorem walkPre_of_post {x : VarPtr} {N : Nat} {s t : CFG} (hp : WalkPre x N s)
    (h : WalkPost x s t) : WalkPre x N t :=
  walkPre_of_frame h.frame hp h.marks

theorem get_var_split_isSome_of_frame {x : VarPtr} {s t : CFG} (h : same_but_marks x s t)
    (hs : (get_var_split s x).isSome = true) : (get_var_split t x).isSome = true := by
  obtain ⟨vs, hvs⟩ := Option.isSome_iff_exists.mp hs
  obtain ⟨vs', e, _⟩ := h.2.2 vs hvs
  unfold get_var_split
  rw [e]
  rfl

theorem same_set_refl_isSome {x : VarPtr} {s : CFG} (hs : (get_var_split s x).isSome = true)
    (i : Nat) : same_set s x i i := by
  obtain ⟨vs, hvs⟩ := Option.isSome_iff_exists.mp hs
  exact ⟨vs, hvs, rfl⟩

/-- The walk on a node that is already marked: the two usages are united. -/
theorem dfs_marked_spec (x : VarPtr) (N fuel v o m : Nat) (s : CFG) (hp : WalkPre x N s)
    (ho : usage_is s x o fun _ => True) (hm : s.node_mark v = some m) :
    ∃ s', dfs (fuel + 1) v o s = Except.ok ((), s') ∧ WalkPost x s s' ∧
      ∃ m', s'.node_mark v = some m' ∧ same_set s' x m' o := by
  obtain ⟨uo, ho1, ho2, _⟩ := ho
  obtain ⟨um, hm1, hm2, _⟩ := hp.marks v m hm
  obtain ⟨vs, hvs⟩ := Option.isSome_iff_exists.mp hp.split
  obtain ⟨r, s1, h1, f1, m1, r1, g1, j1⟩ := try_uni_usages_spec x o m s uo um vs ho1 hm1 ho2 hvs
  refine ⟨s1, ?_, ⟨f1, ?_, g1, ?_, ?_⟩, m, ?_, ?_⟩
  · unfold dfs
    simp only [bind_run, get_state_run, hm, h1, pure_run]
  · intro n k h
    rw [m1]; exact h
  · intro n k h
    rw [m1] at h
    exact hp.marks n k h
  · intro n hn k hk
    rw [m1, hn] at hk
    cases hk
  · rw [m1]; exact hm
  · exact same_set_symm (j1 (r1.mpr hm2))

/-- The state after the mark of `v` is set is the old one up to marks. -/
theorem same_but_marks_mark (x : VarPtr) (s : CFG) (v o : Nat) :
    same_but_marks x s { s with node_mark := upd s.node_mark v (some o) } :=
  ⟨rfl, fun _ _ => rfl, fun vs h => ⟨vs, h, rfl⟩⟩

theorem dfs_prev_spec (x : VarPtr) (N fuel o : Nat)
    (ih : ∀ v s, WalkPre x N s → v < N → (usage_is s x o fun _ => True) →
      unmarked s N < fuel →
      ∃ s', dfs fuel v o s = Except.ok ((), s') ∧ WalkPost x s s' ∧
        ∃ m, s'.node_mark v = some m ∧ same_set s' x m o)
    (l : List Nat) (s : CFG) (hp : WalkPre x N s) (hl : ∀ p ∈ l, p < N)
    (ho : usage_is s x o fun _ => True) (hf : unmarked s N < fuel) :
    ∃ s', dfs_prev (fun i => dfs fuel i o) l s = Except.ok ((), s') ∧ WalkPost x s s' ∧
      ∀ p ∈ l, ∃ m, s'.node_mark p = some m ∧ same_set s' x m o := by
  induction l generalizing s with
  | nil =>
    refine ⟨s, rfl, walkPost_refl hp, ?_⟩
    intro p h; cases h
  | cons i rest ihl =>
    obtain ⟨s1, h1, w1, m1, k1, q1⟩ := ih i s hp (hl i (List.mem_cons_self _ _)) ho hf
    have hp1 := walkPre_of_post hp w1
    obtain ⟨s2, h2, w2, c2⟩ := ihl s1 hp1 (fun p h => hl p (List.mem_cons_of_mem _ h))
      ((usage_is_congr w1.frame o _).mpr ho)
      (Nat.lt_of_le_of_lt (unmarked_mono N w1.keep) hf)
    refine ⟨s2, ?_, walkPost_trans w1 w2, ?_⟩
    · unfold dfs_prev
      simp only [bind_run, h1, h2]
    · intro p hpm
      rcases List.mem_cons.mp hpm with e | h
      · subst e
        exact ⟨m1, w2.keep _ _ k1, w2.grow _ _ q1⟩
      · exact c2 p h

theorem dfs_spec (x : VarPtr) (N o : Nat) : ∀ (fuel v : Nat) (s : CFG), WalkPre x N s → v < N →
    (usage_is s x o fun _ => True) → unmarked s N < fuel →
    ∃ s', dfs fuel v o s = Except.ok ((), s') ∧ WalkPost x s s' ∧
      ∃ m, s'.node_mark v = some m ∧ same_set s' x m o := by
  intro fuel
  induction fuel with
  | zero => intro v s _ _ _ h; cases h
  | succ fuel ih =>
    intro v s hp hv ho hf
    cases hm : s.node_mark v with
    | some m => exact dfs_marked_spec x N fuel v o m s hp ho hm
    | none =>
      have f0 := same_but_marks_mark x s v o
      have ho0 : usage_is { s with node_mark := upd s.node_mark v (some o) } x o fun _ => True :=
        (usage_is_congr f0 o _).mpr ho
      obtain ⟨flag, s1, h1, f1, m1, g1, j1, w1⟩ := dfs_usages_spec x o (s.node_usages v) false
        { s with node_mark := upd s.node_mark v (some o) } ho0 hp.split (hp.data v hv)
      have f01 := same_but_marks_trans f0 f1
      obtain ⟨e1, e2, e3, e4, e5⟩ := same_but_marks_fields f01
      have hmark1 : s1.node_mark = upd s.node_mark v (some o) := m1
      have hs1 : (get_var_split s1 x).isSome = true := get_var_split_isSome_of_frame f01 hp.split
      have hflag : flag = true ↔ carries_write s x v := by
        rw [w1]
        simp only [Bool.false_eq_true, false_or]
        exact Iff.rfl
      have hkeep1 : ∀ n m, s.node_mark n = some m → s1.node_mark n = some m := by
        intro n m h
        have hne : n ≠ v := by
          intro e
          rw [e, hm] at h
          cases h
        rw [hmark1]
        simpa [upd, hne] using h
      have hmarks1 : ∀ n m, s1.node_mark n = some m → usage_is s x m fun _ => True := by
        intro n m h
        rw [hmark1] at h
        by_cases e : n = v
        · subst e
          simp only [upd, if_true] at h
          cases h
          exact ho
        · simp only [upd, e, if_false] at h
          exact hp.marks n m h
      have hv1 : s1.node_mark v = some o := by
        rw [hmark1]
        simp [upd]
      have hother : ∀ n, n ≠ v → s1.node_mark n = s.node_mark n := by
        intro n hne
        rw [hmark1]
        simp [upd, hne]
      have husage1 : ∀ a ∈ s.node_usages v, (usage_is s x a fun _ => True) → same_set s1 x o a :=
        fun a ha hxa => j1 a ha ((usage_is_congr f0 a _).mpr hxa)
      cases hfl : flag with
      | true =>
        refine ⟨s1, ?_, ⟨f01, hkeep1, fun i j h => g1 i j h, hmarks1, ?_⟩,
          o, hv1, same_set_refl_isSome hs1 o⟩
        · unfold dfs
          simp only [bind_run, get_state_run, hm, modify_state_run, h1, hfl, if_true, pure_run]
        · intro n hn m hm'
          by_cases e : n = v
          · subst e
            rw [hv1] at hm'
            cases hm'
            exact ⟨husage1, fun hw => absurd (hflag.mp hfl) hw⟩
          · rw [hother n e, hn] at hm'
            cases hm'
      | false =>
        have hnw : ¬ carries_write s x v := by
          intro hw
          have := hflag.mpr hw
          rw [hfl] at this
          cases this
        have hp1 : WalkPre x N s1 := walkPre_of_frame f01 hp hmarks1
        have hlt : unmarked s1 N < fuel := by
          have h0 : unmarked s1 N = unmarked { s with node_mark := upd s.node_mark v (some o) } N := by
            unfold unmarked
            rw [hmark1]
          have := unmarked_mark N v o hv hm
          omega
        obtain ⟨s2, h2, w2, c2⟩ := dfs_prev_spec x N fuel o ih (s.node_prev v) s1 hp1
          (fun p h => hp.fin v hv p h) ((usage_is_congr f01 o _).mpr ho) hlt
        refine ⟨s2, ?_, ⟨same_but_marks_trans f01 w2.frame, fun n m h => w2.keep n m (hkeep1 n m h),
          fun i j h => w2.grow i j (g1 i j h),
          fun n m h => (usage_is_congr f01 m _).mp (w2.marks n m h), ?_⟩,
          o, w2.keep v o hv1, w2.grow _ _ (same_set_refl_isSome hs1 o)⟩
        · unfold dfs
          simp only [bind_run, get_state_run, hm, modify_state_run, h1, hfl, pure_run]
          exact h2
        · intro n hn m hm2
          by_cases e : n = v
          · subst e
            have := w2.keep n o hv1
            rw [hm2] at this
            cases this
            refine ⟨fun a ha hxa => w2.grow _ _ (husage1 a ha hxa), fun _ p hpp => ?_⟩
            obtain ⟨m', q1, q2⟩ := c2 p hpp
            exact ⟨m', q1, same_set_symm q2⟩
          · have hn1 : s1.node_mark n = none := by rw [hother n e]; exact hn
            obtain ⟨c1, c3⟩ := w2.closed n hn1 m hm2
            constructor
            · intro a ha hxa
              rw [← e3] at ha
              exact c1 a ha ((usage_is_congr f01 a _).mpr hxa)
            · intro hw p hpp
              rw [← e2] at hpp
              exact c3 (fun q => hw ((carries_write_congr f01 n).mp q)) p hpp

theorem usage_wf_iff (s : CFG) (x : VarPtr) (N a : Nat) :
    usage_wf s x N a = true ↔ ∃ u n, s.usage_data a = some u ∧
      s.data.get_var_id u.v = some x ∧ u.node = some n ∧ n < N ∧ a ∈ s.node_usages n := by
  unfold usage_wf
  cases e : s.usage_data a with
  | none => simp
  | some u =>
    cases e2 : u.node with
    | none => simp [e2]
    | some n => simp [e2]

theorem usage_wf_congr {x : VarPtr} {s t : CFG} (h : same_but_marks x s t) (N a : Nat) :
    usage_wf t x N a = usage_wf s x N a := by
  obtain ⟨_, _, h3, h4, h5⟩ := same_but_marks_fields h
  simp only [usage_wf, h3, h4, h5]

theorem usage_sited_congr {x : VarPtr} {s t : CFG} (h : same_but_marks x s t) (N a : Nat) :
    usage_sited t x N a ↔ usage_sited s x N a := by
  obtain ⟨_, _, _, h4, h5⟩ := same_but_marks_fields h
  simp only [usage_sited, h4, h5]

theorem usage_placed_iff (s : CFG) (x : VarPtr) (N a : Nat) :
    usage_placed s x N a = true ↔ ∃ u n, s.usage_data a = some u ∧
      s.data.get_var_id u.v = some x ∧ u.node = some n ∧ n < N ∧
      ∃ b, b ∈ s.node_usages n ∧ (usage_is s x b fun _ => True) ∧ same_set s x a b := by
  unfold usage_placed
  cases e : s.usage_data a with
  | none => simp
  | some u =>
    cases e1 : get_var_split s x with
    | none =>
      simp only [Bool.false_eq_true, false_iff]
      rintro ⟨_, _, _, _, _, _, _, _, _, vs, hvs, _⟩
      rw [e1] at hvs
      cases hvs
    | some vs =>
      cases e2 : u.node with
      | none => simp [e2]
      | some n =>
        simp only [e2, Bool.and_eq_true, decide_eq_true_eq, List.any_eq_true, Option.some.injEq,
          exists_eq_left']
        constructor
        · rintro ⟨h1, h2, b, hb, hv, hp⟩
          refine ⟨u, n, rfl, h1, e2, h2, b, hb, ?_, vs, e1, hp⟩
          unfold usage_var at hv
          cases eb : s.usage_data b with
          | none => rw [eb] at hv; cases hv
          | some ub =>
            rw [eb] at hv
            exact ⟨ub, eb, hv, trivial⟩
        · rintro ⟨u', n', hu, h1, hn, h2, b, hb, ⟨ub, eb, hv, _⟩, vs', hvs, hp⟩
          cases hu
          rw [e2] at hn
          cases hn
          rw [e1] at hvs
          cases hvs
          refine ⟨h1, h2, b, hb, ?_, hp⟩
          unfold usage_var
          rw [eb]
          exact hv

theorem usage_sited_of_placed {s : CFG} {x : VarPtr} {N a : Nat}
    (h : usage_placed s x N a = true) : usage_sited s x N a := by
  obtain ⟨u, n, h1, h2, h3, h4, _⟩ := (usage_placed_iff s x N a).mp h
  exact ⟨u, n, h1, h2, h3, h4⟩

theorem usage_placed_of_wf {s : CFG} {x : VarPtr} {N a : Nat}
    (hs : (get_var_split s x).isSome = true) (h : usage_wf s x N a = true) :
    usage_placed s x N a = true := by
  obtain ⟨u, n, h1, h2, h3, h4, h5⟩ := (usage_wf_iff s x N a).mp h
  exact (usage_placed_iff s x N a).mpr ⟨u, n, h1, h2, h3, h4, a, h5, ⟨u, h1, h2, trivial⟩,
    same_set_refl_isSome hs a⟩

theorem unmarked_le (s : CFG) (N : Nat) : unmarked s N ≤ N := by
  unfold unmarked
  exact (List.length_filter_le _ _).trans (by simp)

theorem process_var_dfs_spec (x : VarPtr) (N fuel : Nat) (hfuel : N < fuel) (l : List Nat)
    (s : CFG) (hp : WalkPre x N s) (hl : ∀ a ∈ l, usage_sited s x N a) :
    ∃ s', process_var_dfs fuel l s = Except.ok ((), s') ∧ WalkPost x s s' ∧
      ∀ a ∈ l, ∀ n, usage_node s a = some n →
        ∃ m, s'.node_mark n = some m ∧ same_set s' x m a := by
  induction l generalizing s with
  | nil =>
    refine ⟨s, rfl, walkPost_refl hp, ?_⟩
    intro a h; cases h
  | cons a rest ih =>
    obtain ⟨u, n, h1, h2, h3, h4⟩ := hl a (List.mem_cons_self _ _)
    obtain ⟨s1, d1, w1, m1, k1, q1⟩ := dfs_spec x N a fuel n s hp h4 ⟨u, h1, h2, trivial⟩
      (Nat.lt_of_le_of_lt (unmarked_le s N) hfuel)
    have hp1 := walkPre_of_post hp w1
    obtain ⟨s2, d2, w2, c2⟩ := ih s1 hp1 (fun b hb =>
      (usage_sited_congr w1.frame N b).mpr (hl b (List.mem_cons_of_mem _ hb)))
    obtain ⟨_, _, _, e4, _⟩ := same_but_marks_fields w1.frame
    refine ⟨s2, ?_, walkPost_trans w1 w2, ?_⟩
    · unfold process_var_dfs
      have hu : usage_at a s = Except.ok (u, s) := by simp [usage_at, h1]
      simp only [bind_run, hu, h3, node_id, pure_run, d1, d2]
    · intro b hb nb hnb
      rcases List.mem_cons.mp hb with e | hb'
      · subst e
        have : nb = n := by
          simp only [usage_node, h1, h3, Option.some.injEq] at hnb
          exact hnb.symm
        subst this
        exact ⟨m1, w2.keep _ _ k1, w2.grow _ _ q1⟩
      · apply c2 b hb' nb
        simp only [usage_node, e4]
        exact hnb

/-- From a state without marks, after the backward walks a node at the end of a
path without writes from `nw` is marked only if `nw` is marked with a usage of the
same set. -/
theorem walk_path_same_set (x : VarPtr) (N : Nat) (s s' : CFG) (hw : WalkPost x s s')
    (hmark : ∀ n, s.node_mark n = none)
    (hs : (get_var_split s x).isSome = true)
    (hnext : ∀ n, n < N → ∀ m, m ∈ s.node_next n → m < N ∧ n ∈ s.node_prev m)
    (nw nu : Nat) (hnw : nw < N) (hpath : Relation.ReflTransGen (no_write_step s x) nw nu) :
    nu < N ∧ ∀ mu, s'.node_mark nu = some mu →
      ∃ mw, s'.node_mark nw = some mw ∧ same_set s' x mw mu := by
  induction hpath with
  | refl =>
    refine ⟨hnw, fun mu h => ⟨mu, h, ?_⟩⟩
    exact same_set_refl_isSome (get_var_split_isSome_of_frame hw.frame hs) mu
  | tail hab hbc ih =>
    rename_i b c
    obtain ⟨hb, ihb⟩ := ih
    obtain ⟨hc, hpr⟩ := hnext b hb c hbc.1
    refine ⟨hc, fun mu h => ?_⟩
    obtain ⟨_, cl⟩ := hw.closed c (hmark c) mu h
    obtain ⟨mb, q1, q2⟩ := cl hbc.2 b hpr
    obtain ⟨mw, q3, q4⟩ := ihb mb q1
    exact ⟨mw, q3, same_set_trans q4 (same_set_symm q2)⟩

theorem dfs_stops_at_write (x : VarPtr) (fuel v o : Nat) (t : CFG)
    (hm : t.node_mark v = none) (hw : carries_write t x v)
    (ho : usage_is t x o fun _ => True) (hs : (get_var_split t x).isSome = true)
    (hU : ∀ a ∈ t.node_usages v, (t.usage_data a).isSome = true) :
    dfs (fuel + 1) v o t = dfs_mark_and_usages v o t := by
  have f0 := same_but_marks_mark x t v o
  obtain ⟨flag, s1, h1, _, _, _, _, w1⟩ := dfs_usages_spec x o (t.node_usages v) false
    { t with node_mark := upd t.node_mark v (some o) } ((usage_is_congr f0 o _).mpr ho) hs hU
  have hflag : flag = true := w1.mpr (Or.inr hw)
  subst hflag
  unfold dfs dfs_mark_and_usages
  simp only [bind_run, get_state_run, hm, modify_state_run, h1, if_true, pure_run]

/-- C5. Take a finite graph whose edges are recorded in both directions (nodes below
`N`), whose attached usages have their data, and a variable `x` each of whose usages has
its node below `N` and is attached to it or, having been removed from it by
`compress_usages`, is in one union-find set with a usage of `x` attached to it; start the
first loop of `process_var` with no node marked and with fuel above `N`.  Then the
backward walks return, and for every `Write` usage `w` of `x` and usage `u` of `x` such
that a path leads from the node of `w` to the node of `u` on which no node after the
first carries a `Write` of `x`, `w` and `u` are in the same union-find set afterwards,
hence have the same partition id in every state with that union-find structure.  A walk
that arrives at an unmarked node carrying a `Write` of `x` marks it and unites the usages
attached to it, and does not continue to the predecessors of the node. -/
theorem partitioner_soundness (x : VarPtr) (N fuel : Nat) (s : CFG) (var_split : VarSplitData)
    (hs : get_var_split s x = some var_split)
    (hprev : ∀ n, n < N → ∀ m, m ∈ s.node_prev n → m < N)
    (hnext : ∀ n, n < N → ∀ m, m ∈ s.node_next n → m < N ∧ n ∈ s.node_prev m)
    (hU : ∀ n, n < N → ∀ a, a ∈ s.node_usages n → (s.usage_data a).isSome = true)
    (hgen : ∀ a, a ∈ var_split.usage_gen → usage_placed s x N a = true)
    (hmark : ∀ n, s.node_mark n = none) (hfuel : N < fuel) :
    (∃ s', process_var_dfs fuel var_split.usage_gen s = Except.ok ((), s') ∧
      ∀ w u nw nu, w ∈ var_split.usage_gen → u ∈ var_split.usage_gen →
        (usage_is s x w fun d => d.type = UsageType.usage_write_t) →
        usage_node s w = some nw → usage_node s u = some nu →
        Relation.ReflTransGen (no_write_step s x) nw nu →
        same_set s' x w u ∧
          ∀ t, get_var_split t x = get_var_split s' x → usage_part t x w = usage_part t x u) ∧
    (∀ fuel' v o t, t.node_mark v = none → carries_write t x v →
      (usage_is t x o fun _ => True) → (get_var_split t x).isSome = true →
      (∀ a ∈ t.node_usages v, (t.usage_data a).isSome = true) →
      dfs (fuel' + 1) v o t = dfs_mark_and_usages v o t) := by
  have hsome : (get_var_split s x).isSome = true := by rw [hs]; rfl
  have hp : WalkPre x N s := ⟨hprev, hU, hsome, fun n m h => by rw [hmark n] at h; cases h⟩
  obtain ⟨s', d, w, c⟩ := process_var_dfs_spec x N fuel hfuel var_split.usage_gen s hp
    (fun a ha => usage_sited_of_placed (hgen a ha))
  refine ⟨⟨s', d, ?_⟩, fun fuel' v o t h1 h2 h3 h4 h5 => dfs_stops_at_write x fuel' v o t h1 h2 h3 h4 h5⟩
  intro a u nw nu ha hu hwr hna hnu hpath
  obtain ⟨da, na, a1, a2, a3, a4, b, hb, hbx, hab⟩ := (usage_placed_iff s x N a).mp (hgen a ha)
  have e1 : na = nw := by
    simp only [usage_node, a1, a3, Option.some.injEq] at hna
    exact hna
  subst e1
  obtain ⟨mu, k1, q1⟩ := c u hu nu hnu
  obtain ⟨_, hp2⟩ := walk_path_same_set x N s s' w hmark hsome hnext na nu a4 hpath
  obtain ⟨mw, k2, q2⟩ := hp2 mu k1
  obtain ⟨cl, _⟩ := w.closed na (hmark na) mw k2
  have q3 := same_set_trans (cl b hb hbx) (same_set_symm (w.grow _ _ hab))
  have hsame : same_set s' x a u := same_set_trans (same_set_symm q3) (same_set_trans q2 q1)
  refine ⟨hsame, fun t ht => ?_⟩
  obtain ⟨vs', g1, g2⟩ := hsame
  unfold usage_part
  rw [ht, g1]
  simp only [g2]

/-- Witness of C5: in `sample_double_read` (13 nodes) the write `$x = 1` (usage 0) is
attached to node 8, and the two reads of `echo $x + $x` (usages 1 and 2) have the node
12, to which only usage 1 is attached: `compress_usages` united usage 2 with usage 1 and
removed it from the node.  The path 8, 9, 12 joins the nodes, and the walks put the write
and the removed read in one set. -/
theorem partitioner_soundness_witness :
    ((∀ n, n < 13 → ∀ m, m ∈ sample_walk_state.node_prev n → m < 13) ∧
      (∀ n, n < 13 → ∀ m, m ∈ sample_walk_state.node_next n →
        m < 13 ∧ n ∈ sample_walk_state.node_prev m) ∧
      (∀ n, n < 13 → ∀ a, a ∈ sample_walk_state.node_usages n →
        (sample_walk_state.usage_data a).isSome = true) ∧
      (∀ a, a ∈ [0, 1, 2] → usage_placed sample_walk_state 0 13 a = true)) ∧
    (sample_walk_state.node_usages 12 = [1] ∧ usage_node sample_walk_state 2 = some 12 ∧
      usage_wf sample_walk_state 0 13 2 = false) ∧
    Relation.ReflTransGen (no_write_step sample_walk_state 0) 8 12 ∧
    ∃ s', process_var_dfs 30 [0, 1, 2] sample_walk_state = Except.ok ((), s') ∧
      same_set s' 0 0 2 := by
  have hg : (get_var_split sample_walk_state 0).map (fun v => v.usage_gen) =
      some [0, 1, 2] := by decide!
  have h1 : ∀ n, n < 13 → ∀ m, m ∈ sample_walk_state.node_prev n → m < 13 := by decide!
  have h2 : ∀ n, n < 13 → ∀ m, m ∈ sample_walk_state.node_next n →
      m < 13 ∧ n ∈ sample_walk_state.node_prev m := by decide!
  have h3 : ∀ n, n < 13 → ∀ a, a ∈ sample_walk_state.node_usages n →
      (sample_walk_state.usage_data a).isSome = true := by decide!
  have h4 : ∀ a, a ∈ [0, 1, 2] → usage_placed sample_walk_state 0 13 a = true := by decide!
  have h5 : ∀ n, sample_walk_state.node_mark n = none := fun _ => rfl
  have h6 : (sample_walk_state.usage_data 0).map
      (fun u => (sample_walk_state.data.get_var_id u.v, u.type)) =
      some (some 0, UsageType.usage_write_t) := by decide!
  have h7 : usage_node sample_walk_state 0 = some 8 ∧ usage_node sample_walk_state 2 = some 12 := by
    decide!
  have h8 : 9 ∈ sample_walk_state.node_next 8 ∧ 12 ∈ sample_walk_state.node_next 9 ∧
      sample_walk_state.node_usages 9 = [] ∧ sample_walk_state.node_usages 12 = [1] ∧
      (sample_walk_state.usage_data 1).map (fun u => u.type) = some UsageType.usage_read_t := by
    decide!
  have h9 : usage_wf sample_walk_state 0 13 2 = false := by decide!
  revert hg h1 h2 h3 h4 h5 h6 h7 h8 h9
  generalize sample_walk_state = S
  intro hg h1 h2 h3 h4 h5 h6 h7 h8 h9
  obtain ⟨e1, e2, e3, e4, e5⟩ := h8
  have hpath : Relation.ReflTransGen (no_write_step S 0) 8 12 := by
    refine Relation.ReflTransGen.tail (Relation.ReflTransGen.single ⟨e1, ?_⟩) ⟨e2, ?_⟩
    · rintro ⟨a, ha, _⟩
      rw [e3] at ha
      cases ha
    · rintro ⟨a, ha, u, hu1, _, hu3⟩
      rw [e4] at ha
      have : a = 1 := by simpa using ha
      subst this
      rw [hu1] at e5
      simp only [Option.map_some', Option.some.injEq] at e5
      rw [e5] at hu3
      cases hu3
  refine ⟨⟨h1, h2, h3, h4⟩, ⟨e4, h7.2, h9⟩, hpath, ?_⟩
  cases hvs : get_var_split S 0 with
  | none => rw [hvs] at hg; cases hg
  | some var_split =>
    rw [hvs] at hg
    simp only [Option.map_some', Option.some.injEq] at hg
    obtain ⟨⟨s', d, c⟩, _⟩ := partitioner_soundness 0 13 30 S var_split hvs h1 h2 h3
      (by rw [hg]; exact h4) h5 (by decide)
    rw [hg] at d c
    refine ⟨s', d, (c 0 2 8 12 (by decide) (by decide) ?_ h7.1 h7.2 hpath).1⟩
    cases hu : S.usage_data 0 with
    | none => rw [hu] at h6; cases h6
    | some u =>
      rw [hu] at h6
      simp only [Option.map_some', Option.some.injEq, Prod.mk.injEq] at h6
      exact ⟨u, hu, h6.1, h6.2⟩

theorem framesExt_refl (g G : Nat) (l : List (List Node)) : FramesExt g G 0 l l := by
  refine ⟨rfl, fun i f h => ⟨[], by simpa using h, fun x hx => by cases hx⟩, fun i f hi h => ?_⟩
  have := List.getElem?_eq_none hi
  rw [this] at h
  cases h

theorem framesExt_mono {g G G' k : Nat} {old new : List (List Node)} (hG : G ≤ G')
    (h : FramesExt g G k old new) : FramesExt g G' k old new := by
  obtain ⟨h1, h2, h3⟩ := h
  refine ⟨h1, fun i f hf => ?_, fun i f hi hf x hx => ?_⟩
  · obtain ⟨ext, e1, e2⟩ := h2 i f hf
    exact ⟨ext, e1, fun x hx => by have := e2 x hx; omega⟩
  · have := h3 i f hi hf x hx
    omega

theorem framesExt_trans {g g1 G k : Nat} {old mid new : List (List Node)} (hg : g ≤ g1)
    (h : FramesExt g G k old mid) (h' : FramesExt g1 G 0 mid new) :
    FramesExt g G k old new := by
  obtain ⟨h1, h2, h3⟩ := h
  obtain ⟨k1, k2, k3⟩ := h'
  refine ⟨by omega, fun i f hf => ?_, fun i f hi hf x hx => ?_⟩
  · obtain ⟨ext, e1, e2⟩ := h2 i f hf
    obtain ⟨ext', e1', e2'⟩ := k2 i _ e1
    refine ⟨ext ++ ext', by simpa using e1', fun x hx => ?_⟩
    rcases List.mem_append.mp hx with q | q
    · exact e2 x q
    · have := e2' x q
      omega
  · have hlt : i < mid.length := by
      have := (List.getElem?_eq_some_iff.mp hf).1
      omega
    obtain ⟨fm, hfm⟩ : ∃ fm, mid[i]? = some fm := ⟨mid[i], List.getElem?_eq_getElem hlt⟩
    obtain ⟨ext', e1', e2'⟩ := k2 i fm hfm
    rw [hf] at e1'
    cases e1'
    rcases List.mem_append.mp hx with q | q
    · exact h3 i fm hi hfm x q
    · have := e2' x q
      omega

theorem framesExt_push {g G k : Nat} {old new : List (List Node)} (h : FramesExt g G k old new) :
    FramesExt g G (k + 1) old (new ++ [[]]) := by
  obtain ⟨h1, h2, h3⟩ := h
  refine ⟨by simp [h1]; omega, fun i f hf => ?_, fun i f hi hf x hx => ?_⟩
  · obtain ⟨ext, e1, e2⟩ := h2 i f hf
    refine ⟨ext, ?_, e2⟩
    have hlt : i < new.length := (List.getElem?_eq_some_iff.mp e1).1
    rw [List.getElem?_append_left hlt]
    exact e1
  · by_cases hlt : i < new.length
    · rw [List.getElem?_append_left hlt] at hf
      exact h3 i f hi hf x hx
    · rw [List.getElem?_append_right (by omega)] at hf
      have : f = [] := by
        cases hd : i - new.length with
        | zero => rw [hd] at hf; simpa using hf.symm
        | succ d => rw [hd] at hf; simp at hf
      subst this
      cases hx

theorem framesExt_pop {g G k : Nat} {old new : List (List Node)}
    (h : FramesExt g G (k + 1) old new) :
    FramesExt g G k old new.dropLast ∧ ∀ f, new.getLast? = some f → ∀ x ∈ f, NodeIn g G x := by
  obtain ⟨h1, h2, h3⟩ := h
  refine ⟨⟨by simp [h1], fun i f hf => ?_, fun i f hi hf x hx => ?_⟩, fun f hf x hx => ?_⟩
  · obtain ⟨ext, e1, e2⟩ := h2 i f hf
    refine ⟨ext, ?_, e2⟩
    have hlt : i < old.length := (List.getElem?_eq_some_iff.mp hf).1
    rw [List.getElem?_dropLast, if_pos (by omega)]
    exact e1
  · rw [List.getElem?_dropLast] at hf
    split at hf
    · exact h3 i f hi hf x hx
    · cases hf
  · rw [List.getLast?_eq_getElem?] at hf
    exact h3 _ f (by omega) hf x hx

theorem framesExt_push_at {g G k : Nat} {old new : List (List Node)} (i : Nat) (v : Node)
    (h : FramesExt g G k old new) (hv : NodeIn g G v) :
    FramesExt g G k old (push_at new i v) := by
  obtain ⟨h1, h2, h3⟩ := h
  refine ⟨by rw [push_at_length]; exact h1, fun j f hf => ?_, fun j f hj hf x hx => ?_⟩
  · obtain ⟨ext, e1, e2⟩ := h2 j f hf
    rw [push_at_getElem?]
    by_cases e : j = i
    · rw [if_pos e, e1]
      refine ⟨ext ++ [v], by simp, fun x hx => ?_⟩
      rcases List.mem_append.mp hx with q | q
      · exact e2 x q
      · have : x = v := by simpa using q
        subst this
        exact hv
    · rw [if_neg e]
      exact ⟨ext, e1, e2⟩
  · rw [push_at_getElem?] at hf
    by_cases e : j = i
    · rw [if_pos e] at hf
      cases hq : new[j]? with
      | none => rw [hq] at hf; cases hf
      | some f0 =>
        rw [hq] at hf
        simp only [Option.map_some', Option.some.injEq] at hf
        subst hf
        rcases List.mem_append.mp hx with q | q
        · exact h3 j f0 hj hq x q
        · have : x = v := by simpa using q
          subst this
          exact hv
    · rw [if_neg e] at hf
      exact h3 j f hj hf x hx

@[simp] theorem node_code_some (n : Nat) : node_code (some n) = n + 1 := rfl

@[simp] theorem node_code_none : node_code none = 0 := rfl

theorem mid_refl (s : CFG) : Mid s.node_gen 0 0 s s :=
  ⟨Nat.le_refl _, fun _ _ => rfl, fun _ _ => rfl, fun _ _ => rfl, fun _ _ => rfl,
    fun n m h1 h2 _ => absurd h2 (by omega), fun n m h1 h2 _ => absurd h2 (by omega),
    framesExt_refl _ _ _, framesExt_refl _ _ _, framesExt_refl _ _ _, rfl⟩

theorem mid_trans {g k j : Nat} {s0 s s' : CFG} (h : Mid g k j s0 s)
    (h' : Mid s.node_gen 0 0 s s') : Mid g k j s0 s' := by
  have hle := h.le
  have hle' := h'.le
  refine ⟨by omega, ?_, ?_, ?_, ?_, ?_, ?_, ?_, ?_, ?_, h'.data.trans h.data⟩
  · intro n hn
    rw [h'.next_below n (by omega), h.next_below n hn]
  · intro n hn
    rw [h'.prev_below n (by omega), h.prev_below n hn]
  · intro n hn
    rw [h'.usages_below n (by omega), h.usages_below n hn]
  · intro n hn
    rw [h'.subtrees_below n (by omega), h.subtrees_below n hn]
  · intro n m h1 h2 hm
    by_cases hlt : n < s.node_gen
    · rw [h'.next_below n hlt] at hm
      have := h.next_local n m h1 hlt hm
      omega
    · have := h'.next_local n m (by omega) h2 hm
      omega
  · intro n m h1 h2 hm
    by_cases hlt : n < s.node_gen
    · rw [h'.prev_below n hlt] at hm
      have := h.prev_local n m h1 hlt hm
      omega
    · have := h'.prev_local n m (by omega) h2 hm
      omega
  · exact framesExt_trans hle (framesExt_mono hle' h.brk) h'.brk
  · exact framesExt_trans hle (framesExt_mono hle' h.cont) h'.cont
  · exact framesExt_trans hle (framesExt_mono hle' h.exc) h'.exc

theorem built_elim {s s' : CFG} {a b : Node} (h : Built s (a, b) s') :
    Mid s.node_gen 0 0 s s' ∧ s.node_gen < node_code a ∧ node_code a ≤ s'.node_gen ∧
      NodeIn s.node_gen s'.node_gen b ∧ s.node_gen ≤ s'.node_gen :=
  ⟨h.1, h.2.1.1, h.2.1.2, h.2.2, h.1.le⟩

theorem builtCond_elim {s s' : CFG} {a b c : Node} (h : BuiltCond s (a, b, c) s') :
    Mid s.node_gen 0 0 s s' ∧ s.node_gen < node_code a ∧ node_code a ≤ s'.node_gen ∧
      NodeIn s.node_gen s'.node_gen b ∧ NodeIn s.node_gen s'.node_gen c ∧
      s.node_gen ≤ s'.node_gen :=
  ⟨h.1, h.2.1.1, h.2.1.2, h.2.2.1, h.2.2.2, h.1.le⟩

theorem mid_new_node {g k j : Nat} {s0 s s' : CFG} {r : Node} (h : Mid g k j s0 s)
    (hr : new_node s = Except.ok (r, s')) :
    Mid g k j s0 s' ∧ node_code r = s.node_gen + 1 ∧ s'.node_gen = s.node_gen + 1 := by
  have hle := h.le
  unfold new_node at hr
  cases hr
  refine ⟨⟨?_, ?_, ?_, ?_, ?_, ?_, ?_, ?_, ?_, ?_, h.data⟩, rfl, rfl⟩
  · show g ≤ s.node_gen + 1
    omega
  · intro n hn
    show upd s.node_next s.node_gen [] n = _
    rw [upd_other _ _ _ _ (by omega)]
    exact h.next_below n hn
  · intro n hn
    show upd s.node_prev s.node_gen [] n = _
    rw [upd_other _ _ _ _ (by omega)]
    exact h.prev_below n hn
  · intro n hn
    show upd s.node_usages s.node_gen [] n = _
    rw [upd_other _ _ _ _ (by omega)]
    exact h.usages_below n hn
  · intro n hn
    show upd s.node_subtrees s.node_gen [] n = _
    rw [upd_other _ _ _ _ (by omega)]
    exact h.subtrees_below n hn
  · intro n m h1 h2 hm
    change n < s.node_gen + 1 at h2
    change m ∈ upd s.node_next s.node_gen [] n at hm
    show g ≤ m ∧ m < s.node_gen + 1
    by_cases e : n = s.node_gen
    · rw [e, upd_same] at hm
      cases hm
    · rw [upd_other _ _ _ _ e] at hm
      have := h.next_local n m h1 (by omega) hm
      omega
  · intro n m h1 h2 hm
    change n < s.node_gen + 1 at h2
    change m ∈ upd s.node_prev s.node_gen [] n at hm
    show g ≤ m ∧ m < s.node_gen + 1
    by_cases e : n = s.node_gen
    · rw [e, upd_same] at hm
      cases hm
    · rw [upd_other _ _ _ _ e] at hm
      have := h.prev_local n m h1 (by omega) hm
      omega
  · exact framesExt_mono (Nat.le_succ _) h.brk
  · exact framesExt_mono (Nat.le_succ _) h.cont
  · exact framesExt_mono (Nat.le_succ _) h.exc

theorem mid_add_edge {g k j : Nat} {s0 s s' : CFG} {a b : Node} (h : Mid g k j s0 s)
    (ha : NodeIn g s.node_gen a) (hb : NodeIn g s.node_gen b)
    (hr : add_edge a b s = Except.ok ((), s')) :
    Mid g k j s0 s' ∧ s'.node_gen = s.node_gen := by
  cases a with
  | none => cases hr; exact ⟨h, rfl⟩
  | some a =>
    cases b with
    | none => cases hr; exact ⟨h, rfl⟩
    | some b =>
      unfold NodeIn at ha hb
      simp only [node_code_some] at ha hb
      cases hr
      refine ⟨⟨h.le, ?_, ?_, h.usages_below, h.subtrees_below, ?_, ?_, h.brk, h.cont, h.exc,
        h.data⟩, rfl⟩
      · intro n hn
        show upd s.node_next a _ n = _
        rw [upd_other _ _ _ _ (by omega)]
        exact h.next_below n hn
      · intro n hn
        show upd s.node_prev b _ n = _
        rw [upd_other _ _ _ _ (by omega)]
        exact h.prev_below n hn
      · intro n m h1 h2 hm
        change n < s.node_gen at h2
        change m ∈ upd s.node_next a _ n at hm
        show g ≤ m ∧ m < s.node_gen
        by_cases e : n = a
        · rw [e, upd_same] at hm
          rcases List.mem_append.mp hm with q | q
          · exact h.next_local a m (by omega) (by omega) q
          · have : m = b := by simpa using q
            omega
        · rw [upd_other _ _ _ _ e] at hm
          exact h.next_local n m h1 h2 hm
      · intro n m h1 h2 hm
        change n < s.node_gen at h2
        change m ∈ upd s.node_prev b _ n at hm
        show g ≤ m ∧ m < s.node_gen
        by_cases e : n = b
        · rw [e, upd_same] at hm
          rcases List.mem_append.mp hm with q | q
          · exact h.prev_local b m (by omega) (by omega) q
          · have : m = a := by simpa using q
            omega
        · rw [upd_other _ _ _ _ e] at hm
          exact h.prev_local n m h1 h2 hm

theorem mid_add_edges_from {g k j : Nat} {s0 : CFG} {b : Node} (l : List Node) :
    ∀ {s s' : CFG}, Mid g k j s0 s → (∀ x ∈ l, NodeIn g s.node_gen x) → NodeIn g s.node_gen b →
    add_edges_from l b s = Except.ok ((), s') →
    Mid g k j s0 s' ∧ s'.node_gen = s.node_gen := by
  induction l with
  | nil =>
    intro s s' h _ _ hr
    cases hr
    exact ⟨h, rfl⟩
  | cons x l ih =>
    intro s s' h hl hb hr
    unfold add_edges_from at hr
    obtain ⟨u, s1, h1, h2⟩ := bind_ok_iff.mp hr
    obtain ⟨m1, e1⟩ := mid_add_edge h (hl x (List.mem_cons_self _ _)) hb h1
    obtain ⟨m2, e2⟩ := ih m1 (fun y hy => by rw [e1]; exact hl y (List.mem_cons_of_mem _ hy))
      (by rw [e1]; exact hb) h2
    exact ⟨m2, by omega⟩

theorem mid_nodeData {g k j : Nat} {s0 s s' : CFG} (h : Mid g k j s0 s)
    (hd : NodeData g s s') : Mid g k j s0 s' ∧ s'.node_gen = s.node_gen := by
  obtain ⟨d1, d2, d3, d4, d5, d6, d7, d8, d9⟩ := hd
  refine ⟨⟨by rw [d1]; exact h.le, ?_, ?_, ?_, ?_, ?_, ?_, ?_, ?_, ?_, d7.trans h.data⟩, d1⟩
  · rw [d2]; exact h.next_below
  · rw [d3]; exact h.prev_below
  · intro n hn
    rw [d8 n hn]; exact h.usages_below n hn
  · intro n hn
    rw [d9 n hn]; exact h.subtrees_below n hn
  · rw [d1, d2]; exact h.next_local
  · rw [d1, d3]; exact h.prev_local
  · rw [d1, d4]; exact h.brk
  · rw [d1, d5]; exact h.cont
  · rw [d1, d6]; exact h.exc

theorem nodeData_rel (g : Nat) : StepRel (NodeData g) := by
  refine ⟨fun s => ⟨rfl, rfl, rfl, rfl, rfl, rfl, rfl, fun _ _ => rfl, fun _ _ => rfl⟩, ?_⟩
  intro a b c h1 h2
  obtain ⟨a1, a2, a3, a4, a5, a6, a7, a8, a9⟩ := h1
  obtain ⟨b1, b2, b3, b4, b5, b6, b7, b8, b9⟩ := h2
  exact ⟨b1.trans a1, b2.trans a2, b3.trans a3, b4.trans a4, b5.trans a5, b6.trans a6,
    b7.trans a7, fun n hn => (b8 n hn).trans (a8 n hn), fun n hn => (b9 n hn).trans (a9 n hn)⟩

theorem pure_bind_M {α β : Type} (a : α) (f : α → M β) : (pure a >>= f) = f a := rfl

theorem nodeData_same (g : Nat) (s : CFG) (uc : Nat) (ud : Nat → Option UsageData)
    (vs : VarPtr → Option VarSplitData) :
    NodeData g s { s with usage_cnt := uc, usage_data := ud, var_split_data := vs } :=
  ⟨rfl, rfl, rfl, rfl, rfl, rfl, rfl, fun _ _ => rfl, fun _ _ => rfl⟩

theorem new_usage_nodeData (g : Nat) (type : UsageType) (v : Vertex) :
    Preserves (NodeData g) (new_usage type v) := by
  refine ⟨fun s a s' h => ?_⟩
  unfold new_usage at h
  split at h
  · cases h
  · split at h
    · cases h
      exact (nodeData_rel g).refl s
    · cases h
      exact ⟨rfl, rfl, rfl, rfl, rfl, rfl, rfl, fun _ _ => rfl, fun _ _ => rfl⟩

theorem try_uni_usages_nodeData (g a b : Nat) : Preserves (NodeData g) (try_uni_usages a b) := by
  unfold try_uni_usages
  repeat (first
    | apply preserves_bind (nodeData_rel g)
    | apply preserves_usage_at (nodeData_rel g)
    | apply preserves_get_state (nodeData_rel g)
    | apply preserves_pure (nodeData_rel g)
    | apply preserves_fail
    | (apply preserves_modify_state; intro s;
       exact ⟨rfl, rfl, rfl, rfl, rfl, rfl, rfl, fun _ _ => rfl, fun _ _ => rfl⟩)
    | intro _
    | split
    | dsimp only)

theorem nodeData_usages (g n : Nat) (s : CFG) (hn : g ≤ n) (l : List Nat)
    (ud : Nat → Option UsageData) :
    NodeData g s { s with node_usages := upd s.node_usages n l, usage_data := ud } :=
  ⟨rfl, rfl, rfl, rfl, rfl, rfl, rfl,
    fun m hm => upd_other _ _ _ _ (by omega), fun _ _ => rfl⟩

theorem add_usage_nodeData (g : Nat) (node : Node) (usage : UsagePtr)
    (hn : node_code node = 0 ∨ g < node_code node) :
    Preserves (NodeData g) (add_usage node usage) := by
  cases usage with
  | none => exact preserves_pure (nodeData_rel g) _
  | some a =>
    cases node with
    | none =>
      refine ⟨fun s b s' h => ?_⟩
      cases h
    | some n =>
      simp only [node_code_some] at hn
      unfold add_usage
      simp only [node_id, pure_bind_M]
      repeat (first
        | apply preserves_bind (nodeData_rel g)
        | apply preserves_usage_at (nodeData_rel g)
        | apply preserves_get_state (nodeData_rel g)
        | apply preserves_kphp_assert (nodeData_rel g)
        | apply preserves_pure (nodeData_rel g)
        | apply preserves_fail
        | (apply preserves_modify_state; intro s; exact nodeData_usages g n s (by omega) _ _)
        | intro _
        | split
        | dsimp only)

theorem add_subtree_nodeData (g : Nat) (node : Node) (st : SubTreeData)
    (hn : node_code node = 0 ∨ g < node_code node) :
    Preserves (NodeData g) (add_subtree node st) := by
  cases node with
  | none => exact preserves_fail _
  | some n =>
    simp only [node_code_some] at hn
    unfold add_subtree
    apply preserves_modify_state
    intro s
    exact ⟨rfl, rfl, rfl, rfl, rfl, rfl, rfl, fun _ _ => rfl,
      fun m hm => upd_other _ _ _ _ (by omega)⟩

theorem compress_usages_loop_nodeData (g : Nat) (l : List Nat) :
    ∀ (p : Nat) (res : List Nat), Preserves (NodeData g) (compress_usages_loop p l res) := by
  induction l with
  | nil =>
    intro p res
    exact preserves_pure (nodeData_rel g) _
  | cons u us ih =>
    intro p res
    unfold compress_usages_loop
    repeat (first
      | apply ih
      | apply try_uni_usages_nodeData
      | apply preserves_bind (nodeData_rel g)
      | apply preserves_usage_at (nodeData_rel g)
      | apply preserves_get_state (nodeData_rel g)
      | apply preserves_pure (nodeData_rel g)
      | apply preserves_fail
      | (apply preserves_modify_state; intro s;
         exact ⟨rfl, rfl, rfl, rfl, rfl, rfl, rfl, fun _ _ => rfl, fun _ _ => rfl⟩)
      | intro _
      | split
      | dsimp only)

theorem compress_usages_nodeData (g : Nat) (node : Node)
    (hn : node_code node = 0 ∨ g < node_code node) :
    Preserves (NodeData g) (compress_usages node) := by
  cases node with
  | none =>
    refine ⟨fun s b s' h => ?_⟩
    cases h
  | some n =>
    simp only [node_code_some] at hn
    unfold compress_usages
    simp only [node_id, pure_bind_M]
    repeat (first
      | apply compress_usages_loop_nodeData
      | apply preserves_bind (nodeData_rel g)
      | apply preserves_get_state (nodeData_rel g)
      | apply preserves_pure (nodeData_rel g)
      | apply preserves_fail
      | (apply preserves_modify_state; intro s;
         exact ⟨rfl, rfl, rfl, rfl, rfl, rfl, rfl,
           fun m hm => upd_other _ _ _ _ (by omega), fun _ _ => rfl⟩)
      | intro _
      | split
      | dsimp only)

theorem for_each_flag_nodeData (g : Nat) (f : Vertex → Bool → M Bool)
    (hf : ∀ v b, Preserves (NodeData g) (f v b)) (l : List Vertex) :
    ∀ b, Preserves (NodeData g) (for_each_flag f l b) := by
  induction l with
  | nil =>
    intro b
    exact preserves_pure (nodeData_rel g) _
  | cons v vs ih =>
    intro b
    unfold for_each_flag
    exact preserves_bind (nodeData_rel g) (hf v b) (fun b' => ih b')

set_option maxRecDepth 10000 in
set_option linter.unreachableTactic false in
set_option linter.unusedTactic false in
theorem collect_vars_usage_nodeData (g : Nat) (writes reads : Node)
    (hw : node_code writes = 0 ∨ g < node_code writes)
    (hr : node_code reads = 0 ∨ g < node_code reads) :
    ∀ (fuel : Nat) (t : Vertex) (b : Bool),
      Preserves (NodeData g) (collect_vars_usage fuel t writes reads b) := by
  intro fuel
  induction fuel with
  | zero =>
    intro t b
    exact preserves_fail _
  | succ fuel ih =>
    intro t b
    unfold collect_vars_usage
    repeat (first
      | apply ih
      | apply for_each_flag_nodeData
      | apply new_usage_nodeData
      | apply add_usage_nodeData g _ _ hw
      | apply add_usage_nodeData g _ _ hr
      | apply preserves_bind (nodeData_rel g)
      | apply preserves_son (nodeData_rel g)
      | apply preserves_get_state (nodeData_rel g)
      | apply preserves_pure (nodeData_rel g)
      | apply preserves_fail
      | intro _
      | dsimp only
      | split)

theorem run_nodeData {g k j : Nat} {s0 s s' : CFG} {α : Type} {m : M α} {a : α}
    (h : Mid g k j s0 s) (hm : Preserves (NodeData g) m) (hr : m s = Except.ok (a, s')) :
    Mid g k j s0 s' ∧ s'.node_gen = s.node_gen :=
  mid_nodeData h (hm.run s a s' hr)

theorem mid_enter_cycle {g k j : Nat} {s0 s s' : CFG} (h : Mid g k j s0 s)
    (hr : create_cfg_enter_cycle s = Except.ok ((), s')) :
    Mid g (k + 1) j s0 s' ∧ s'.node_gen = s.node_gen := by
  cases hr
  exact ⟨⟨h.le, h.next_below, h.prev_below, h.usages_below, h.subtrees_below, h.next_local,
    h.prev_local, framesExt_push h.brk, framesExt_push h.cont, h.exc, h.data⟩, rfl⟩

theorem mid_begin_try {g k j : Nat} {s0 s s' : CFG} (h : Mid g k j s0 s)
    (hr : create_cfg_begin_try s = Except.ok ((), s')) :
    Mid g k (j + 1) s0 s' ∧ s'.node_gen = s.node_gen := by
  cases hr
  exact ⟨⟨h.le, h.next_below, h.prev_below, h.usages_below, h.subtrees_below, h.next_local,
    h.prev_local, h.brk, h.cont, framesExt_push h.exc, h.data⟩, rfl⟩

theorem mid_add_break_node {g k j : Nat} {s0 s s' : CFG} {v : Node} {depth : Int}
    (h : Mid g k j s0 s) (hv : NodeIn g s.node_gen v)
    (hr : create_cfg_add_break_node v depth s = Except.ok ((), s')) :
    Mid g k j s0 s' ∧ s'.node_gen = s.node_gen := by
  unfold create_cfg_add_break_node at hr
  simp only [bind_ok_iff, kphp_assert_run, get_state_run] at hr
  obtain ⟨_, s1, h1, s2, s3, h2, _, s4, h3, h4⟩ := hr
  split at h1
  · cases h1
    cases h2
    split at h3
    · cases h3
      cases h4
      exact ⟨⟨h.le, h.next_below, h.prev_below, h.usages_below, h.subtrees_below, h.next_local,
        h.prev_local, framesExt_push_at _ _ h.brk hv, h.cont, h.exc, h.data⟩, rfl⟩
    · cases h3
  · cases h1

theorem mid_add_continue_node {g k j : Nat} {s0 s s' : CFG} {v : Node} {depth : Int}
    (h : Mid g k j s0 s) (hv : NodeIn g s.node_gen v)
    (hr : create_cfg_add_continue_node v depth s = Except.ok ((), s')) :
    Mid g k j s0 s' ∧ s'.node_gen = s.node_gen := by
  unfold create_cfg_add_continue_node at hr
  simp only [bind_ok_iff, kphp_assert_run, get_state_run] at hr
  obtain ⟨_, s1, h1, s2, s3, h2, _, s4, h3, h4⟩ := hr
  split at h1
  · cases h1
    cases h2
    split at h3
    · cases h3
      cases h4
      exact ⟨⟨h.le, h.next_below, h.prev_below, h.usages_below, h.subtrees_below, h.next_local,
        h.prev_local, h.brk, framesExt_push_at _ _ h.cont hv, h.exc, h.data⟩, rfl⟩
    · cases h3
  · cases h1

theorem dropLast_append_push (l : List (List Node)) (es : List Node) (src : Node)
    (h : l.getLast? = some es) : l.dropLast ++ [es ++ [src]] = push_at l (l.length - 1) src := by
  induction l with
  | nil => cases h
  | cons a t ih =>
    cases t with
    | nil =>
      simp only [List.getLast?_singleton, Option.some.injEq] at h
      subst h
      rfl
    | cons b t =>
      rw [List.getLast?_cons_cons] at h
      have := ih h
      simp only [List.dropLast_cons₂, List.cons_append, List.length_cons, Nat.add_sub_cancel,
        push_at] at this ⊢
      rw [this]

theorem mid_register_exception {g k j : Nat} {s0 s s' : CFG} {src : Node}
    (h : Mid g k j s0 s) (hv : NodeIn g s.node_gen src)
    (hr : create_cfg_register_exception src s = Except.ok ((), s')) :
    Mid g k j s0 s' ∧ s'.node_gen = s.node_gen := by
  unfold create_cfg_register_exception at hr
  simp only [bind_run, get_state_run] at hr
  cases he : s.exception_nodes.getLast? with
  | none =>
    rw [he] at hr
    cases hr
    exact ⟨h, rfl⟩
  | some es =>
    rw [he] at hr
    cases hr
    refine ⟨⟨h.le, h.next_below, h.prev_below, h.usages_below, h.subtrees_below, h.next_local,
      h.prev_local, h.brk, h.cont, ?_, h.data⟩, rfl⟩
    show FramesExt g s.node_gen j s0.exception_nodes (s.exception_nodes.dropLast ++ [es ++ [src]])
    rw [dropLast_append_push _ _ _ he]
    exact framesExt_push_at _ _ h.exc hv

theorem mid_exit_cycle {g k j : Nat} {s0 s s' : CFG} {cd bd : Node}
    (h : Mid g (k + 1) j s0 s) (hc : NodeIn g s.node_gen cd) (hb : NodeIn g s.node_gen bd)
    (hr : create_cfg_exit_cycle cd bd s = Except.ok ((), s')) :
    Mid g k j s0 s' ∧ s'.node_gen = s.node_gen := by
  unfold create_cfg_exit_cycle at hr
  simp only [bind_run, get_state_run] at hr
  cases hcs : s.continue_nodes.getLast? with
  | none =>
    rw [hcs] at hr
    cases hr
  | some cs =>
    cases hbs : s.break_nodes.getLast? with
    | none =>
      rw [hcs, hbs] at hr
      cases hr
    | some bs =>
      rw [hcs, hbs] at hr
      have h2 : (add_edges_from cs cd >>= fun _ => add_edges_from bs bd >>= fun _ =>
          modify_state fun s => { s with continue_nodes := s.continue_nodes.dropLast,
                                         break_nodes := s.break_nodes.dropLast }) s =
          Except.ok ((), s') := hr
      simp only [bind_ok_iff] at h2
      obtain ⟨_, s3, h3, _, s4, h4, h5⟩ := h2
      obtain ⟨pc, tc⟩ := framesExt_pop h.cont
      obtain ⟨pb, tb⟩ := framesExt_pop h.brk
      obtain ⟨m3, e3⟩ := mid_add_edges_from cs h (tc cs hcs) hc h3
      obtain ⟨m4, e4⟩ := mid_add_edges_from bs m3 (by rw [e3]; exact tb bs hbs)
        (by rw [e3]; exact hb) h4
      cases h5
      obtain ⟨qc, _⟩ := framesExt_pop m4.cont
      obtain ⟨qb, _⟩ := framesExt_pop m4.brk
      exact ⟨⟨m4.le, m4.next_below, m4.prev_below, m4.usages_below, m4.subtrees_below,
        m4.next_local, m4.prev_local, qb, qc, m4.exc, m4.data⟩, by
          show s4.node_gen = s.node_gen
          omega⟩

theorem mid_end_try {g k j : Nat} {s0 s s' : CFG} {dst : Node}
    (h : Mid g k (j + 1) s0 s) (hd : NodeIn g s.node_gen dst)
    (hr : create_cfg_end_try dst s = Except.ok ((), s')) :
    Mid g k j s0 s' ∧ s'.node_gen = s.node_gen := by
  unfold create_cfg_end_try at hr
  simp only [bind_run, get_state_run] at hr
  cases hes : s.exception_nodes.getLast? with
  | none =>
    rw [hes] at hr
    cases hr
  | some es =>
    rw [hes] at hr
    have h2 : (add_edges_from es dst >>= fun _ =>
        modify_state fun s => { s with exception_nodes := s.exception_nodes.dropLast }) s =
        Except.ok ((), s') := hr
    simp only [bind_ok_iff] at h2
    obtain ⟨_, s3, h3, h5⟩ := h2
    obtain ⟨pe, te⟩ := framesExt_pop h.exc
    obtain ⟨m3, e3⟩ := mid_add_edges_from es h (te es hes) hd h3
    cases h5
    obtain ⟨qe, _⟩ := framesExt_pop m3.exc
    exact ⟨⟨m3.le, m3.next_below, m3.prev_below, m3.usages_below, m3.subtrees_below,
      m3.next_local, m3.prev_local, m3.brk, m3.cont, qe, m3.data⟩, e3⟩

theorem son_ok {v : Vertex} {i : Nat} {s s' : CFG} {x : Vertex}
    (h : son v i s = Except.ok (x, s')) : s' = s := by
  unfold son at h
  cases e : v.sons.get? i with
  | none => rw [e] at h; cases h
  | some y => rw [e] at h; cases h; rfl

theorem mid_built {g k j : Nat} {s0 s s' : CFG} {a b : Node} (h : Mid g k j s0 s)
    (hb : Built s (a, b) s') :
    Mid g k j s0 s' ∧ s.node_gen < node_code a ∧ node_code a ≤ s'.node_gen ∧
      NodeIn s.node_gen s'.node_gen b ∧ s.node_gen ≤ s'.node_gen ∧ g ≤ s.node_gen :=
  ⟨mid_trans h hb.1, hb.2.1.1, hb.2.1.2, hb.2.2, hb.1.le, h.le⟩

theorem mid_builtCond {g k j : Nat} {s0 s s' : CFG} {a b c : Node} (h : Mid g k j s0 s)
    (hb : BuiltCond s (a, b, c) s') :
    Mid g k j s0 s' ∧ s.node_gen < node_code a ∧ node_code a ≤ s'.node_gen ∧
      NodeIn s.node_gen s'.node_gen b ∧ NodeIn s.node_gen s'.node_gen c ∧
      s.node_gen ≤ s'.node_gen ∧ g ≤ s.node_gen :=
  ⟨mid_trans h hb.1, hb.2.1.1, hb.2.1.2, hb.2.2.1, hb.2.2.2, hb.1.le, h.le⟩

theorem built_intro {s s' : CFG} {a b : Node} (h : Mid s.node_gen 0 0 s s')
    (h1 : s.node_gen < node_code a) (h2 : node_code a ≤ s'.node_gen)
    (h3 : NodeIn s.node_gen s'.node_gen b) : Built s (a, b) s' :=
  ⟨h, ⟨h1, h2⟩, h3⟩

theorem mid_seq_loop (cfg : Vertex → M (Node × Node)) (hcfg : CfgOk cfg) (l : List Vertex) :
    ∀ {g k j : Nat} {s0 s s' : CFG} {last r : Node}, Mid g k j s0 s →
    NodeIn g s.node_gen last → create_cfg_seq_loop cfg l last s = Except.ok (r, s') →
    Mid g k j s0 s' ∧ NodeIn g s'.node_gen r ∧ s.node_gen ≤ s'.node_gen := by
  induction l with
  | nil =>
    intro g k j s0 s s' last r h hl hr
    cases hr
    exact ⟨h, hl, Nat.le_refl _⟩
  | cons x xs ih =>
    intro g k j s0 s s' last r h hl hr
    simp only [create_cfg_seq_loop, bind_ok_iff, Prod.exists] at hr
    obtain ⟨a, b, s1, h1, _, s2, h2, h3⟩ := hr
    obtain ⟨m1, a1, a2, b1, l1, l0⟩ := mid_built h (hcfg _ _ _ _ h1)
    obtain ⟨m2, e2⟩ := mid_add_edge m1 (by omega) (by omega) h2
    obtain ⟨m3, r3, l3⟩ := ih m2 (by omega) h3
    exact ⟨m3, r3, by omega⟩

theorem built_op_seq (cfg : Vertex → M (Node × Node)) (hcfg : CfgOk cfg) (t : Vertex)
    (s : CFG) (r : Node × Node) (s' : CFG)
    (hr : create_cfg_op_seq cfg t s = Except.ok (r, s')) : Built s r s' := by
  unfold create_cfg_op_seq at hr
  cases e : t.sons with
  | nil =>
    rw [e] at hr
    simp only [bind_ok_iff] at hr
    obtain ⟨a, s1, h1, h2⟩ := hr
    obtain ⟨m1, a1, e1⟩ := mid_new_node (mid_refl s) h1
    cases h2
    exact built_intro m1 (by omega) (by omega) (by omega)
  | cons x xs =>
    rw [e] at hr
    simp only [bind_ok_iff, Prod.exists] at hr
    obtain ⟨a, b, s1, h1, f, s2, h2, h3⟩ := hr
    obtain ⟨m1, a1, a2, b1, l1, l0⟩ := mid_built (mid_refl s) (hcfg _ _ _ _ h1)
    obtain ⟨m2, r2, l2⟩ := mid_seq_loop cfg hcfg _ m1 (by omega) h2
    cases h3
    exact built_intro m2 (by omega) (by omega) (by omega)

theorem cfgOk_of_cfgOk3 {cfg : Vertex → Bool → Bool → M (Node × Node)} (h : CfgOk3 cfg)
    (w ww : Bool) : CfgOk fun v => cfg v w ww :=
  fun v s r s' hr => h v w ww s r s' hr

theorem built_full_cfg (fuel : Nat) (t : Vertex) (s : CFG) (r : Node × Node) (s' : CFG)
    (hr : create_full_cfg fuel t s = Except.ok (r, s')) : Built s r s' := by
  simp only [create_full_cfg, bind_ok_iff] at hr
  obtain ⟨start, s1, h1, finish, s2, hq1_1⟩ := hr
  obtain ⟨h2, writes, s3, h3, reads, hq1_2⟩ := hq1_1
  obtain ⟨s4, h4, ct, s5, h5, hq1_3⟩ := hq1_2
  obtain ⟨_, s6, h6, _, s7, hq1_4⟩ := hq1_3
  obtain ⟨h7, _, s8, h8, _, hq1_5⟩ := hq1_4
  obtain ⟨s9, h9, _, s10, h10, hq1_6⟩ := hq1_5
  obtain ⟨_, s11, h11, _, s12, hq1_7⟩ := hq1_6
  obtain ⟨h12, _, s13, h13, _, hq1_8⟩ := hq1_7
  obtain ⟨s14, h14, h15⟩ := hq1_8
  obtain ⟨m1, c1, e1⟩ := mid_new_node (mid_refl s) h1
  obtain ⟨m2, c2, e2⟩ := mid_new_node m1 h2
  obtain ⟨m3, c3, e3⟩ := mid_new_node m2 h3
  obtain ⟨m4, c4, e4⟩ := mid_new_node m3 h4
  obtain ⟨m5, e5⟩ := run_nodeData m4
    (collect_vars_usage_nodeData s.node_gen writes reads (by omega) (by omega) fuel t false) h5
  obtain ⟨m6, e6⟩ := run_nodeData m5 (compress_usages_nodeData s.node_gen writes (by omega)) h6
  obtain ⟨m7, e7⟩ := run_nodeData m6 (compress_usages_nodeData s.node_gen reads (by omega)) h7
  obtain ⟨m8, e8⟩ := run_nodeData m7 (add_subtree_nodeData s.node_gen start _ (by omega)) h8
  obtain ⟨m9, e9⟩ := mid_add_edge m8 (by omega) (by omega) h9
  obtain ⟨m10, e10⟩ := mid_add_edge m9 (by omega) (by omega) h10
  obtain ⟨m11, e11⟩ := mid_add_edge m10 (by omega) (by omega) h11
  obtain ⟨m12, e12⟩ := mid_add_edge m11 (by omega) (by omega) h12
  obtain ⟨m13, e13⟩ := mid_add_edge m12 (by omega) (by omega) h13
  have m14 : Mid s.node_gen 0 0 s s14 ∧ s14.node_gen = s13.node_gen := by
    by_cases hc : ct = true
    · rw [if_pos hc] at h14
      exact mid_register_exception m13 (by omega) h14
    · rw [if_neg hc] at h14
      cases h14
      exact ⟨m13, rfl⟩
  obtain ⟨m14, e14⟩ := m14
  cases h15
  exact built_intro m14 (by omega) (by omega) (by omega)

theorem built_op_eq (fuel : Nat) (cfg : Vertex → M (Node × Node)) (hcfg : CfgOk cfg)
    (t : Vertex) (s : CFG) (r : Node × Node) (s' : CFG)
    (hr : create_cfg_op_eq fuel cfg t s = Except.ok (r, s')) : Built s r s' := by
  simp only [create_cfg_op_eq, bind_ok_iff] at hr
  obtain ⟨lhs, s1, h1, rhs, s2, h2, h3⟩ := hr
  obtain rfl := son_ok h1
  obtain rfl := son_ok h2
  by_cases hc : rhs.type = Operation.op_false ∨ rhs.type = Operation.op_null
  · rw [if_pos hc] at h3
    simp only [bind_ok_iff, Prod.exists] at h3
    obtain ⟨a, b, s3, h4, c, d, s4, h5, _, s5, h6, h7⟩ := h3
    obtain ⟨m3, a1, a2, b1, l3, _⟩ := mid_built (mid_refl _) (hcfg _ _ _ _ h4)
    obtain ⟨m4, c1, c2, d1, l4, _⟩ := mid_built m3 (hcfg _ _ _ _ h5)
    obtain ⟨m5, e5⟩ := mid_add_edge m4 (by omega) (by omega) h6
    cases h7
    exact built_intro m5 (by omega) (by omega) (by omega)
  · rw [if_neg hc] at h3
    exact built_full_cfg fuel t _ r s' h3

theorem built_op_index (cfg : Vertex → Bool → Bool → M (Node × Node)) (hcfg : CfgOk3 cfg)
    (t : Vertex) (w ww : Bool) (s : CFG) (r : Node × Node) (s' : CFG)
    (hr : create_cfg_op_index cfg t w ww s = Except.ok (r, s')) : Built s r s' := by
  simp only [create_cfg_op_index, bind_ok_iff, Prod.exists] at hr
  obtain ⟨array, s1, h1, a, b, s2, h2, h3⟩ := hr
  obtain rfl := son_ok h1
  obtain ⟨m2, a1, a2, b1, l2, _⟩ := mid_built (mid_refl _) (hcfg _ _ _ _ _ _ h2)
  by_cases hc : t.sons.length > 1
  · rw [if_pos hc] at h3
    simp only [bind_ok_iff, Prod.exists] at h3
    obtain ⟨key, s3, h4, c, d, s4, h5, _, s5, h6, h7⟩ := h3
    obtain rfl := son_ok h4
    obtain ⟨m4, c1, c2, d1, l4, _⟩ := mid_built m2 (hcfg _ _ _ _ _ _ h5)
    obtain ⟨m5, e5⟩ := mid_add_edge m4 (by omega) (by omega) h6
    cases h7
    exact built_intro m5 (by omega) (by omega) (by omega)
  · rw [if_neg hc] at h3
    cases h3
    exact built_intro m2 (by omega) (by omega) (by omega)

theorem built_op_log (cfg : Vertex → M (Node × Node)) (hcfg : CfgOk cfg)
    (t : Vertex) (s : CFG) (r : Node × Node) (s' : CFG)
    (hr : create_cfg_op_log cfg t s = Except.ok (r, s')) : Built s r s' := by
  simp only [create_cfg_op_log, bind_ok_iff, Prod.exists] at hr
  obtain ⟨lhs, s1, h1, rhs, s2, hq2_1⟩ := hr
  obtain ⟨h2, a, b, s3, h3, hq2_2⟩ := hq2_1
  obtain ⟨c, d, s4, h4, f, hq2_3⟩ := hq2_2
  obtain ⟨s5, h5, _, s6, h6, hq2_4⟩ := hq2_3
  obtain ⟨_, s7, h7, _, s8, hq2_5⟩ := hq2_4
  obtain ⟨h8, h9⟩ := hq2_5
  obtain rfl := son_ok h1
  obtain rfl := son_ok h2
  obtain ⟨m3, a1, a2, b1, l3, _⟩ := mid_built (mid_refl _) (hcfg _ _ _ _ h3)
  obtain ⟨m4, c1, c2, d1, l4, _⟩ := mid_built m3 (hcfg _ _ _ _ h4)
  obtain ⟨m5, f1, e5⟩ := mid_new_node m4 h5
  obtain ⟨m6, e6⟩ := mid_add_edge m5 (by omega) (by omega) h6
  obtain ⟨m7, e7⟩ := mid_add_edge m6 (by omega) (by omega) h7
  obtain ⟨m8, e8⟩ := mid_add_edge m7 (by omega) (by omega) h8
  cases h9
  exact built_intro m8 (by omega) (by omega) (by omega)

theorem mid_call_loop (cfg : Vertex → Bool → Bool → M (Node × Node)) (hcfg : CfgOk3 cfg)
    (func : Option FuncInfo) (l : List Vertex) :
    ∀ {g k j : Nat} {s0 s s' : CFG} {ii : Nat} {start r : Node}, Mid g k j s0 s →
    NodeIn g s.node_gen start → create_cfg_call_loop cfg func l ii start s = Except.ok (r, s') →
    Mid g k j s0 s' ∧ NodeIn g s'.node_gen r ∧ s.node_gen ≤ s'.node_gen := by
  induction l with
  | nil =>
    intro g k j s0 s s' ii start r h hl hr
    cases hr
    exact ⟨h, hl, Nat.le_refl _⟩
  | cons x xs ih =>
    intro g k j s0 s s' ii start r h hl hr
    have key : ∀ fl, (cfg x false fl >>= fun p => add_edge start p.1 >>= fun _ =>
        create_cfg_call_loop cfg func xs (ii + 1) p.2) s = Except.ok (r, s') →
        Mid g k j s0 s' ∧ NodeIn g s'.node_gen r ∧ s.node_gen ≤ s'.node_gen := by
      intro fl hk
      simp only [bind_ok_iff, Prod.exists] at hk
      obtain ⟨a, b, s1, h1, _, s2, h2, h3⟩ := hk
      obtain ⟨m1, a1, a2, b1, l1, l0⟩ := mid_built h (hcfg _ _ _ _ _ _ h1)
      obtain ⟨m2, e2⟩ := mid_add_edge m1 (by omega) (by omega) h2
      obtain ⟨m3, r3, l3⟩ := ih m2 (by omega) h3
      exact ⟨m3, r3, by omega⟩
    unfold create_cfg_call_loop at hr
    cases func with
    | none => exact key false hr
    | some f =>
      dsimp only at hr
      cases e : f.params.get? ii with
      | none => rw [e] at hr; cases hr
      | some o =>
        rw [e] at hr
        cases o with
        | none => exact key false hr
        | some q => exact key q hr

theorem built_op_call (cfg : Vertex → Bool → Bool → M (Node × Node)) (hcfg : CfgOk3 cfg)
    (t : Vertex) (s : CFG) (r : Node × Node) (s' : CFG)
    (hr : create_cfg_op_call cfg t s = Except.ok (r, s')) : Built s r s' := by
  simp only [create_cfg_op_call, bind_ok_iff] at hr
  obtain ⟨start, s1, h1, f, s2, h2, h3⟩ := hr
  obtain ⟨m1, c1, e1⟩ := mid_new_node (mid_refl s) h1
  obtain ⟨m2, f2, l2⟩ := mid_call_loop cfg hcfg _ _ m1 (by omega) h2
  cases e : t.get_func_id with
  | none => rw [e] at h3; cases h3
  | some fi =>
    rw [e] at h3
    simp only [bind_ok_iff] at h3
    obtain ⟨_, s3, h4, h5⟩ := h3
    have m3 : Mid s.node_gen 0 0 s s3 ∧ s3.node_gen = s2.node_gen := by
      by_cases hc : fi.can_throw = true
      · rw [if_pos hc] at h4
        exact mid_register_exception m2 (by omega) h4
      · rw [if_neg hc] at h4
        cases h4
        exact ⟨m2, rfl⟩
    obtain ⟨m3, e3⟩ := m3
    cases h5
    exact built_intro m3 (by omega) (by omega) (by omega)

theorem built_op_return (cfg : Vertex → M (Node × Node)) (hcfg : CfgOk cfg)
    (t : Vertex) (s : CFG) (r : Node × Node) (s' : CFG)
    (hr : create_cfg_op_return cfg t s = Except.ok (r, s')) : Built s r s' := by
  unfold create_cfg_op_return at hr
  cases e : t.sons with
  | nil =>
    rw [e] at hr
    simp only [bind_ok_iff] at hr
    obtain ⟨a, s1, h1, h2⟩ := hr
    obtain ⟨m1, a1, e1⟩ := mid_new_node (mid_refl s) h1
    cases h2
    exact built_intro m1 (by omega) (by omega) (Or.inl rfl)
  | cons x xs =>
    rw [e] at hr
    simp only [bind_ok_iff, Prod.exists] at hr
    obtain ⟨a, b, s1, h1, h2⟩ := hr
    obtain ⟨m1, a1, a2, b1, l1, _⟩ := mid_built (mid_refl s) (hcfg _ _ _ _ h1)
    cases h2
    exact built_intro m1 (by omega) (by omega) (Or.inl rfl)

theorem built_op_set (cfg : Vertex → Bool → Bool → M (Node × Node)) (hcfg : CfgOk3 cfg)
    (t : Vertex) (s : CFG) (r : Node × Node) (s' : CFG)
    (hr : create_cfg_op_set cfg t s = Except.ok (r, s')) : Built s r s' := by
  simp only [create_cfg_op_set, bind_ok_iff, Prod.exists] at hr
  obtain ⟨lhs, s1, h1, rhs, s2, hq1_1⟩ := hr
  obtain ⟨h2, a, b, s3, h3, hq1_2⟩ := hq1_1
  obtain ⟨c, d, s4, h4, _, hq1_3⟩ := hq1_2
  obtain ⟨s5, h5, h6⟩ := hq1_3
  obtain rfl := son_ok h1
  obtain rfl := son_ok h2
  obtain ⟨m3, a1, a2, b1, l3, _⟩ := mid_built (mid_refl _) (hcfg _ _ _ _ _ _ h3)
  obtain ⟨m4, c1, c2, d1, l4, _⟩ := mid_built m3 (hcfg _ _ _ _ _ _ h4)
  obtain ⟨m5, e5⟩ := mid_add_edge m4 (by omega) (by omega) h5
  cases h6
  exact built_intro m5 (by omega) (by omega) (by omega)

theorem built_op_set_op (fuel : Nat) (cfg : Vertex → M (Node × Node)) (hcfg : CfgOk cfg)
    (t : Vertex) (s : CFG) (r : Node × Node) (s' : CFG)
    (hr : create_cfg_op_set_op fuel cfg t s = Except.ok (r, s')) : Built s r s' := by
  simp only [create_cfg_op_set_op, bind_ok_iff, Prod.exists] at hr
  obtain ⟨lhs, s1, h1, rhs, s2, hq2_1⟩ := hr
  obtain ⟨h2, a, b, s3, h3, hq2_2⟩ := hq2_1
  obtain ⟨c, d, s4, h4, _, hq2_3⟩ := hq2_2
  obtain ⟨s5, h5, h6⟩ := hq2_3
  obtain rfl := son_ok h1
  obtain rfl := son_ok h2
  obtain ⟨m3, a1, a2, b1, l3, _⟩ := mid_built (mid_refl _) (hcfg _ _ _ _ h3)
  obtain ⟨m4, c1, c2, d1, l4, _⟩ := mid_built m3 (built_full_cfg _ _ _ _ _ h4)
  obtain ⟨m5, e5⟩ := mid_add_edge m4 (by omega) (by omega) h5
  cases h6
  exact built_intro m5 (by omega) (by omega) (by omega)

theorem mid_list_loop (cfg : Vertex → Bool → Bool → M (Node × Node)) (hcfg : CfgOk3 cfg)
    (l : List Vertex) :
    ∀ {g k j : Nat} {s0 s s' : CFG} {prev r : Node}, Mid g k j s0 s →
    NodeIn g s.node_gen prev → create_cfg_list_loop cfg l prev s = Except.ok (r, s') →
    Mid g k j s0 s' ∧ NodeIn g s'.node_gen r ∧ s.node_gen ≤ s'.node_gen := by
  induction l with
  | nil =>
    intro g k j s0 s s' prev r h hl hr
    cases hr
    exact ⟨h, hl, Nat.le_refl _⟩
  | cons x xs ih =>
    intro g k j s0 s s' prev r h hl hr
    simp only [create_cfg_list_loop, bind_ok_iff, Prod.exists] at hr
    obtain ⟨a, b, s1, h1, _, s2, h2, h3⟩ := hr
    obtain ⟨m1, a1, a2, b1, l1, l0⟩ := mid_built h (hcfg _ _ _ _ _ _ h1)
    obtain ⟨m2, e2⟩ := mid_add_edge m1 (by omega) (by omega) h2
    obtain ⟨m3, r3, l3⟩ := ih m2 (by omega) h3
    exact ⟨m3, r3, by omega⟩

theorem built_op_list (cfg : Vertex → Bool → Bool → M (Node × Node)) (hcfg : CfgOk3 cfg)
    (t : Vertex) (s : CFG) (r : Node × Node) (s' : CFG)
    (hr : create_cfg_op_list cfg t s = Except.ok (r, s')) : Built s r s' := by
  unfold create_cfg_op_list at hr
  cases e : t.sons.getLast? with
  | none => rw [e] at hr; cases hr
  | some array =>
    rw [e] at hr
    simp only [bind_ok_iff, Prod.exists] at hr
    obtain ⟨a, b, s1, h1, f, s2, h2, h3⟩ := hr
    obtain ⟨m1, a1, a2, b1, l1, _⟩ := mid_built (mid_refl s) (hcfg _ _ _ _ _ _ h1)
    obtain ⟨m2, r2, l2⟩ := mid_list_loop cfg hcfg _ m1 (by omega) h2
    cases h3
    exact built_intro m2 (by omega) (by omega) (by omega)

theorem built_op_var (t : Vertex) (w ww : Bool) (s : CFG) (r : Node × Node) (s' : CFG)
    (hr : create_cfg_op_var t w ww s = Except.ok (r, s')) : Built s r s' := by
  simp only [create_cfg_op_var, bind_ok_iff] at hr
  obtain ⟨res, s1, h1, usage, s2, hq3_1⟩ := hr
  obtain ⟨h2, _, s3, h3, _, hq3_2⟩ := hq3_1
  obtain ⟨s4, h4, h5⟩ := hq3_2
  obtain ⟨m1, c1, e1⟩ := mid_new_node (mid_refl s) h1
  obtain ⟨m2, e2⟩ := run_nodeData m1 (new_usage_nodeData s.node_gen _ _) h2
  have m3 : Mid s.node_gen 0 0 s s3 ∧ s3.node_gen = s2.node_gen := by
    cases usage with
    | none =>
      cases h3
      exact ⟨m2, rfl⟩
    | some a =>
      simp only [bind_ok_iff] at h3
      obtain ⟨u, s5, h6, h7⟩ := h3
      obtain ⟨rfl, _⟩ := usage_at_ok h6
      cases h7
      exact mid_nodeData m2 ⟨rfl, rfl, rfl, rfl, rfl, rfl, rfl, fun _ _ => rfl, fun _ _ => rfl⟩
  obtain ⟨m3, e3⟩ := m3
  obtain ⟨m4, e4⟩ := run_nodeData m3 (add_usage_nodeData s.node_gen res usage (by omega)) h4
  cases h5
  exact built_intro m4 (by omega) (by omega) (by omega)

theorem built_op_if (cfg : Vertex → M (Node × Node)) (cond_cfg : Vertex → M (Node × Node × Node))
    (hcfg : CfgOk cfg) (hcond : CondOk cond_cfg)
    (t : Vertex) (s : CFG) (r : Node × Node) (s' : CFG)
    (hr : create_cfg_op_if cfg cond_cfg t s = Except.ok (r, s')) : Built s r s' := by
  simp only [create_cfg_op_if, bind_ok_iff, Prod.exists] at hr
  obtain ⟨cond, s1, h1, cmd, s2, hq1_1⟩ := hr
  obtain ⟨h2, finish, s3, h3, a, hq1_2⟩ := hq1_1
  obtain ⟨ct, cf, s4, h4, b, hq1_3⟩ := hq1_2
  obtain ⟨c, s5, h5, _, s6, hq1_4⟩ := hq1_3
  obtain ⟨h6, _, s7, h7, _, hq1_5⟩ := hq1_4
  obtain ⟨s8, h8, h9⟩ := hq1_5
  obtain rfl := son_ok h1
  obtain rfl := son_ok h2
  obtain ⟨m3, f1, e3⟩ := mid_new_node (mid_refl _) h3
  obtain ⟨m4, a1, a2, ct1, cf1, l4, _⟩ := mid_builtCond m3 (hcond _ _ _ _ h4)
  obtain ⟨m5, b1, b2, c1, l5, _⟩ := mid_built m4 (hcfg _ _ _ _ h5)
  obtain ⟨m6, e6⟩ := mid_add_edge m5 (by omega) (by omega) h6
  obtain ⟨m7, e7⟩ := mid_add_edge m6 (by omega) (by omega) h7
  have m8 : Mid s2.node_gen 0 0 s2 s8 ∧ s7.node_gen ≤ s8.node_gen := by
    by_cases hc : t.sons.length > 2
    · rw [if_pos hc] at h8
      simp only [bind_ok_iff, Prod.exists] at h8
      obtain ⟨fc, s9, h10, d, e, s10, h11, _, s11, h12, h13⟩ := h8
      obtain rfl := son_ok h10
      obtain ⟨m10, d1, d2, e1, l10, _⟩ := mid_built m7 (hcfg _ _ _ _ h11)
      obtain ⟨m11, e11⟩ := mid_add_edge m10 (by omega) (by omega) h12
      obtain ⟨m12, e12⟩ := mid_add_edge m11 (by omega) (by omega) h13
      exact ⟨m12, by omega⟩
    · rw [if_neg hc] at h8
      obtain ⟨m9, e9⟩ := mid_add_edge m7 (by omega) (by omega) h8
      exact ⟨m9, by omega⟩
  obtain ⟨m8, e8⟩ := m8
  cases h9
  exact built_intro m8 (by omega) (by omega) (by omega)

theorem built_op_ternary (cfg : Vertex → M (Node × Node))
    (cond_cfg : Vertex → M (Node × Node × Node)) (hcfg : CfgOk cfg) (hcond : CondOk cond_cfg)
    (t : Vertex) (s : CFG) (r : Node × Node) (s' : CFG)
    (hr : create_cfg_op_ternary cfg cond_cfg t s = Except.ok (r, s')) : Built s r s' := by
  simp only [create_cfg_op_ternary, bind_ok_iff, Prod.exists] at hr
  obtain ⟨cond, s1, h1, te, s2, hq2_1⟩ := hr
  obtain ⟨h2, fe, s2', h2', finish, hq2_2⟩ := hq2_1
  obtain ⟨s3, h3, a, ct, cf, hq2_3⟩ := hq2_2
  obtain ⟨s4, h4, b, c, s5, hq2_4⟩ := hq2_3
  obtain ⟨h5, _, s6, h6, _, hq2_5⟩ := hq2_4
  obtain ⟨s7, h7, d, e, s8, hq2_6⟩ := hq2_5
  obtain ⟨h8, _, s9, h9, _, hq2_7⟩ := hq2_6
  obtain ⟨s10, h10, h11⟩ := hq2_7
  obtain rfl := son_ok h1
  obtain rfl := son_ok h2
  obtain rfl := son_ok h2'
  obtain ⟨m3, f1, e3⟩ := mid_new_node (mid_refl _) h3
  obtain ⟨m4, a1, a2, ct1, cf1, l4, _⟩ := mid_builtCond m3 (hcond _ _ _ _ h4)
  obtain ⟨m5, b1, b2, c1, l5, _⟩ := mid_built m4 (hcfg _ _ _ _ h5)
  obtain ⟨m6, e6⟩ := mid_add_edge m5 (by omega) (by omega) h6
  obtain ⟨m7, e7⟩ := mid_add_edge m6 (by omega) (by omega) h7
  obtain ⟨m8, d1, d2, e1, l8, _⟩ := mid_built m7 (hcfg _ _ _ _ h8)
  obtain ⟨m9, e9⟩ := mid_add_edge m8 (by omega) (by omega) h9
  obtain ⟨m10, e10⟩ := mid_add_edge m9 (by omega) (by omega) h10
  cases h11
  exact built_intro m10 (by omega) (by omega) (by omega)

theorem built_op_break (t : Vertex) (s : CFG) (r : Node × Node) (s' : CFG)
    (hr : create_cfg_op_break t s = Except.ok (r, s')) : Built s r s' := by
  simp only [create_cfg_op_break, bind_ok_iff] at hr
  obtain ⟨level, s1, h1, start, s2, h2, _, s3, h3, h4⟩ := hr
  obtain rfl := son_ok h1
  obtain ⟨m2, c2, e2⟩ := mid_new_node (mid_refl _) h2
  obtain ⟨m3, e3⟩ := mid_add_break_node m2 (by omega) h3
  cases h4
  exact built_intro m3 (by omega) (by omega) (Or.inl rfl)

theorem built_op_continue (t : Vertex) (s : CFG) (r : Node × Node) (s' : CFG)
    (hr : create_cfg_op_continue t s = Except.ok (r, s')) : Built s r s' := by
  simp only [create_cfg_op_continue, bind_ok_iff] at hr
  obtain ⟨level, s1, h1, start, s2, h2, _, s3, h3, h4⟩ := hr
  obtain rfl := son_ok h1
  obtain ⟨m2, c2, e2⟩ := mid_new_node (mid_refl _) h2
  obtain ⟨m3, e3⟩ := mid_add_continue_node m2 (by omega) h3
  cases h4
  exact built_intro m3 (by omega) (by omega) (Or.inl rfl)

/-- The body of the proof of `built_op_for`: the steps of the rule of `op_for` are given
one by one. -/
theorem built_for_core
    (cfg : Vertex → M (Node × Node)) (cond_cfg : Vertex → M (Node × Node × Node)) (hcfg : CfgOk cfg)
    (hcond : CondOk cond_cfg) (t : Vertex) (s s' : CFG) (w : Unit) (v0 v1 v2 v3 : Vertex) (t4 : CFG)
    (is_ if_ : Node) (s5 : CFG) (h5 : cfg v0 t4 = Except.ok ((is_, if_), s5)) (cs ct cf : Node)
    (s6 : CFG) (h6 : cond_cfg v1 s5 = Except.ok ((cs, ct, cf), s6)) (ns nf : Node) (s7 : CFG)
    (h7 : cfg v2 s6 = Except.ok ((ns, nf), s7)) (af : Node) (s8 : CFG)
    (h8 : new_node s7 = Except.ok (af, s8)) (as afp : Node) (s9 : CFG)
    (h9 : cfg v3 s8 = Except.ok ((as, afp), s9)) (w_1 : Unit) (s10 : CFG)
    (h10 : add_edge afp af s9 = Except.ok (w_1, s10)) (w_2 : Unit) (s11 : CFG)
    (h11 : add_edge if_ cs s10 = Except.ok (w_2, s11)) (w_3 : Unit) (s12 : CFG)
    (h12 : add_edge ct as s11 = Except.ok (w_3, s12)) (w_4 : Unit) (s13 : CFG)
    (h13 : add_edge af ns s12 = Except.ok (w_4, s13)) (w_5 : Unit) (s14 : CFG)
    (h14 : add_edge nf cs s13 = Except.ok (w_5, s14)) (fin : Node) (s15 : CFG)
    (h15 : new_node s14 = Except.ok (fin, s15)) (w_6 : Unit) (s16 : CFG)
    (h16 : add_edge cf fin s15 = Except.ok (w_6, s16)) (w_7 : Unit)
    (h17 : create_cfg_exit_cycle af fin s16 = Except.ok (w_7, s'))
    (k4 : son t 3 t4 = Except.ok (v3, t4)) (k3 : son t 2 t4 = Except.ok (v2, t4))
    (k2 : son t 1 t4 = Except.ok (v1, t4)) (h1 : create_cfg_enter_cycle s = Except.ok (w, t4))
    (k1 : son t 0 t4 = Except.ok (v0, t4)) (m1 : Mid s.node_gen (0 + 1) 0 s t4)
    (e1 : t4.node_gen = s.node_gen) :
    Built s (is_, fin) s' := by
  obtain ⟨m5, is1, is2, if1, l5, _⟩ := mid_built m1 (hcfg _ _ _ _ h5)
  obtain ⟨m6, cs1, cs2, ct1, cf1, l6, _⟩ := mid_builtCond m5 (hcond _ _ _ _ h6)
  obtain ⟨m7, ns1, ns2, nf1, l7, _⟩ := mid_built m6 (hcfg _ _ _ _ h7)
  obtain ⟨m8, af1, e8⟩ := mid_new_node m7 h8
  obtain ⟨m9, as1, as2, afp1, l9, _⟩ := mid_built m8 (hcfg _ _ _ _ h9)
  obtain ⟨m10, e10⟩ := mid_add_edge m9 (by omega) (by omega) h10
  obtain ⟨m11, e11⟩ := mid_add_edge m10 (by omega) (by omega) h11
  obtain ⟨m12, e12⟩ := mid_add_edge m11 (by omega) (by omega) h12
  obtain ⟨m13, e13⟩ := mid_add_edge m12 (by omega) (by omega) h13
  obtain ⟨m14, e14⟩ := mid_add_edge m13 (by omega) (by omega) h14
  obtain ⟨m15, fin1, e15⟩ := mid_new_node m14 h15
  obtain ⟨m16, e16⟩ := mid_add_edge m15 (by omega) (by omega) h16
  obtain ⟨m17, e17⟩ := mid_exit_cycle m16 (by omega) (by omega) h17
  exact built_intro m17 (by omega) (by omega) (by omega)

theorem built_op_for (cfg : Vertex → M (Node × Node)) (cond_cfg : Vertex → M (Node × Node × Node))
    (hcfg : CfgOk cfg) (hcond : CondOk cond_cfg)
    (t : Vertex) (s : CFG) (r : Node × Node) (s' : CFG)
    (hr : create_cfg_op_for cfg cond_cfg t s = Except.ok (r, s')) : Built s r s' := by
  simp only [create_cfg_op_for, bind_ok_iff, Prod.exists] at hr
  obtain ⟨_, s1, h1, v0, t1, hq3_1⟩ := hr
  obtain ⟨k1, v1, t2, k2, v2, hq3_2⟩ := hq3_1
  obtain ⟨t3, k3, v3, t4, k4, hq3_3⟩ := hq3_2
  obtain ⟨is_, if_, s5, h5, cs, hq3_4⟩ := hq3_3
  obtain ⟨ct, cf, s6, h6, ns, hq3_5⟩ := hq3_4
  obtain ⟨nf, s7, h7, af, s8, hq3_6⟩ := hq3_5
  obtain ⟨h8, as, afp, s9, h9, hq3_7⟩ := hq3_6
  obtain ⟨_, s10, h10, _, s11, hq3_8⟩ := hq3_7
  obtain ⟨h11, _, s12, h12, _, hq3_9⟩ := hq3_8
  obtain ⟨s13, h13, _, s14, h14, hq3_10⟩ := hq3_9
  obtain ⟨fin, s15, h15, _, s16, hq3_11⟩ := hq3_10
  obtain ⟨h16, _, s17, h17, h18⟩ := hq3_11
  cases h18
  obtain ⟨m1, e1⟩ := mid_enter_cycle (mid_refl _) h1
  obtain rfl := son_ok k1
  obtain rfl := son_ok k2
  obtain rfl := son_ok k3
  obtain rfl := son_ok k4
  exact built_for_core cfg cond_cfg hcfg hcond t s s' _ v0 v1 v2 v3 t4 is_ if_ s5 h5 cs ct cf s6
    h6 ns nf s7 h7 af s8 h8 as afp s9 h9 _ s10 h10 _ s11 h11 _ s12 h12 _ s13 h13 _ s14 h14 fin
    s15 h15 _ s16 h16 _ h17 k4 k3 k2 h1 k1 m1 e1

theorem built_op_while (cfg : Vertex → M (Node × Node))
    (cond_cfg : Vertex → M (Node × Node × Node)) (hcfg : CfgOk cfg) (hcond : CondOk cond_cfg)
    (t : Vertex) (s : CFG) (r : Node × Node) (s' : CFG)
    (hr : create_cfg_op_while cfg cond_cfg t s = Except.ok (r, s')) : Built s r s' := by
  simp only [create_cfg_op_while, bind_ok_iff, Prod.exists] at hr
  obtain ⟨_, s1, h1, cond, t1, hq1_1⟩ := hr
  obtain ⟨k1, cmd, t2, k2, cs, hq1_2⟩ := hq1_1
  obtain ⟨ct, cf, s6, h6, af, hq1_3⟩ := hq1_2
  obtain ⟨s8, h8, as, afp, s9, hq1_4⟩ := hq1_3
  obtain ⟨h9, _, s10, h10, _, hq1_5⟩ := hq1_4
  obtain ⟨s11, h11, _, s12, h12, hq1_6⟩ := hq1_5
  obtain ⟨fin, s15, h15, _, s16, hq1_7⟩ := hq1_6
  obtain ⟨h16, _, s17, h17, _, hq1_8⟩ := hq1_7
  obtain ⟨s18, h18, h19⟩ := hq1_8
  obtain ⟨m1, e1⟩ := mid_enter_cycle (mid_refl _) h1
  obtain rfl := son_ok k1
  obtain rfl := son_ok k2
  obtain ⟨m6, cs1, cs2, ct1, cf1, l6, _⟩ := mid_builtCond m1 (hcond _ _ _ _ h6)
  obtain ⟨m8, af1, e8⟩ := mid_new_node m6 h8
  obtain ⟨m9, as1, as2, afp1, l9, _⟩ := mid_built m8 (hcfg _ _ _ _ h9)
  obtain ⟨m10, e10⟩ := mid_add_edge m9 (by omega) (by omega) h10
  obtain ⟨m11, e11⟩ := mid_add_edge m10 (by omega) (by omega) h11
  obtain ⟨m12, e12⟩ := mid_add_edge m11 (by omega) (by omega) h12
  obtain ⟨m15, fin1, e15⟩ := mid_new_node m12 h15
  obtain ⟨m16, e16⟩ := mid_add_edge m15 (by omega) (by omega) h16
  have hres : s.node_gen < node_code (if t.type = Operation.op_do then as else cs) ∧
      node_code (if t.type = Operation.op_do then as else cs) ≤ s16.node_gen := by
    split <;> omega
  have m17 : Mid s.node_gen 1 0 s s17 ∧ s17.node_gen = s16.node_gen := by
    by_cases hc : t.type = Operation.op_do ∧ afp.isSome = true
    · rw [if_pos hc] at h17
      exact run_nodeData m16 (add_subtree_nodeData s.node_gen _ _ (by omega)) h17
    · rw [if_neg hc] at h17
      cases h17
      exact ⟨m16, rfl⟩
  obtain ⟨m17, e17⟩ := m17
  obtain ⟨m18, e18⟩ := mid_exit_cycle m17 (by omega) (by omega) h18
  cases h19
  exact built_intro m18 (by omega) (by omega) (by omega)

/-- The body of the proof of `built_op_foreach`: the steps of the rule of `op_foreach` are
given one by one. -/
theorem built_foreach_core
    (cfg : Vertex → M (Node × Node)) (hcfg : CfgOk cfg) (t : Vertex) (s s' : CFG) (w : Unit)
    (fp cmd xs x : Vertex) (t4 : CFG) (vs vf : Node) (s5 : CFG)
    (h5 : cfg xs t4 = Except.ok ((vs, vf), s5)) (writes : Node) (s6 : CFG)
    (h6 : new_node s5 = Except.ok (writes, s6)) (u : UsagePtr) (s7 : CFG)
    (h7 : new_usage UsageType.usage_write_t x s6 = Except.ok (u, s7)) (w_1 : Unit) (s8 : CFG)
    (h8 : add_usage writes u s7 = Except.ok (w_1, s8)) (w_2 : PUnit.{1}) (s9 : CFG)
    (h9 :
    (if (!x.ref_flag) = true then do
          let temp_var ← son fp 2
          let usage ← new_usage UsageType.usage_write_t temp_var
          add_usage writes usage
        else pure ())
        s8 =
      Except.ok (w_2, s9))
    (w_3 : PUnit.{1}) (s10 : CFG)
    (h10 :
    (if fp.sons.length > 3 then do
          let temp_var ← son fp 3
          let usage ← new_usage UsageType.usage_write_t temp_var
          add_usage writes usage
        else pure ())
        s9 =
      Except.ok (w_3, s10))
    (w_4 : Unit) (s11 : CFG) (h11 : add_subtree vs (new_subtree fp true) s10 = Except.ok (w_4, s11))
    (fin : Node) (s12 : CFG) (h12 : new_node s11 = Except.ok (fin, s12)) (cc : Node) (s13 : CFG)
    (h13 : new_node s12 = Except.ok (cc, s13)) (w_5 : Unit) (s14 : CFG)
    (h14 : add_edge vf cc s13 = Except.ok (w_5, s14)) (w_6 : Unit) (s15 : CFG)
    (h15 : add_edge cc writes s14 = Except.ok (w_6, s15)) (w_7 : Unit) (s16 : CFG)
    (h16 : add_edge cc fin s15 = Except.ok (w_7, s16)) (af : Node) (s17 : CFG)
    (h17 : new_node s16 = Except.ok (af, s17)) (as afp : Node) (s18 : CFG)
    (h18 : cfg cmd s17 = Except.ok ((as, afp), s18)) (w_8 : Unit) (s19 : CFG)
    (h19 : add_edge afp af s18 = Except.ok (w_8, s19)) (w_9 : Unit) (s20 : CFG)
    (h20 : add_edge writes as s19 = Except.ok (w_9, s20)) (w_10 : Unit) (s21 : CFG)
    (h21 : add_edge af cc s20 = Except.ok (w_10, s21)) (w_11 : Unit)
    (h22 : create_cfg_exit_cycle af fin s21 = Except.ok (w_11, s'))
    (k4 : son fp 1 t4 = Except.ok (x, t4)) (k3 : son fp 0 t4 = Except.ok (xs, t4))
    (k2 : son t 1 t4 = Except.ok (cmd, t4)) (h1 : create_cfg_enter_cycle s = Except.ok (w, t4))
    (k1 : son t 0 t4 = Except.ok (fp, t4)) (m1 : Mid s.node_gen (0 + 1) 0 s t4)
    (e1 : t4.node_gen = s.node_gen) :
    Built s (vs, fin) s' := by
  obtain ⟨m5, vs1, vs2, vf1, l5, _⟩ := mid_built m1 (hcfg _ _ _ _ h5)
  obtain ⟨m6, w1, e6⟩ := mid_new_node m5 h6
  obtain ⟨m7, e7⟩ := run_nodeData m6 (new_usage_nodeData s.node_gen _ _) h7
  obtain ⟨m8, e8⟩ := run_nodeData m7 (add_usage_nodeData s.node_gen writes u (by omega)) h8
  have m9 : Mid s.node_gen 1 0 s s9 ∧ s9.node_gen = s8.node_gen := by
    by_cases hc : (!x.ref_flag) = true
    · rw [if_pos hc] at h9
      simp only [bind_ok_iff] at h9
      obtain ⟨tv, q1, j1, u2, q2, j2, j3⟩ := h9
      obtain rfl := son_ok j1
      obtain ⟨n2, f2⟩ := run_nodeData m8 (new_usage_nodeData s.node_gen _ _) j2
      obtain ⟨n3, f3⟩ := run_nodeData n2 (add_usage_nodeData s.node_gen writes u2 (by omega)) j3
      exact ⟨n3, by omega⟩
    · rw [if_neg hc] at h9
      cases h9
      exact ⟨m8, rfl⟩
  obtain ⟨m9, e9⟩ := m9
  have m10 : Mid s.node_gen 1 0 s s10 ∧ s10.node_gen = s9.node_gen := by
    by_cases hc : fp.sons.length > 3
    · rw [if_pos hc] at h10
      simp only [bind_ok_iff] at h10
      obtain ⟨tv, q1, j1, u2, q2, j2, j3⟩ := h10
      obtain rfl := son_ok j1
      obtain ⟨n2, f2⟩ := run_nodeData m9 (new_usage_nodeData s.node_gen _ _) j2
      obtain ⟨n3, f3⟩ := run_nodeData n2 (add_usage_nodeData s.node_gen writes u2 (by omega)) j3
      exact ⟨n3, by omega⟩
    · rw [if_neg hc] at h10
      cases h10
      exact ⟨m9, rfl⟩
  obtain ⟨m10, e10⟩ := m10
  obtain ⟨m11, e11⟩ := run_nodeData m10 (add_subtree_nodeData s.node_gen vs _ (by omega)) h11
  obtain ⟨m12, fin1, e12⟩ := mid_new_node m11 h12
  obtain ⟨m13, cc1, e13⟩ := mid_new_node m12 h13
  obtain ⟨m14, e14⟩ := mid_add_edge m13 (by omega) (by omega) h14
  obtain ⟨m15, e15⟩ := mid_add_edge m14 (by omega) (by omega) h15
  obtain ⟨m16, e16⟩ := mid_add_edge m15 (by omega) (by omega) h16
  obtain ⟨m17, af1, e17⟩ := mid_new_node m16 h17
  obtain ⟨m18, as1, as2, afp1, l18, _⟩ := mid_built m17 (hcfg _ _ _ _ h18)
  obtain ⟨m19, e19⟩ := mid_add_edge m18 (by omega) (by omega) h19
  obtain ⟨m20, e20⟩ := mid_add_edge m19 (by omega) (by omega) h20
  obtain ⟨m21, e21⟩ := mid_add_edge m20 (by omega) (by omega) h21
  obtain ⟨m22, e22⟩ := mid_exit_cycle m21 (by omega) (by omega) h22
  exact built_intro m22 (by omega) (by omega) (by omega)

theorem built_op_foreach (cfg : Vertex → M (Node × Node)) (hcfg : CfgOk cfg)
    (t : Vertex) (s : CFG) (r : Node × Node) (s' : CFG)
    (hr : create_cfg_op_foreach cfg t s = Except.ok (r, s')) : Built s r s' := by
  simp only [create_cfg_op_foreach, bind_ok_iff, Prod.exists] at hr
  obtain ⟨_, s1, h1, fp, t1, hq2_1⟩ := hr
  obtain ⟨k1, cmd, t2, k2, xs, hq2_2⟩ := hq2_1
  obtain ⟨t3, k3, x, t4, k4, hq2_3⟩ := hq2_2
  obtain ⟨vs, vf, s5, h5, writes, hq2_4⟩ := hq2_3
  obtain ⟨s6, h6, u, s7, h7, hq2_5⟩ := hq2_4
  obtain ⟨_, s8, h8, _, s9, hq2_6⟩ := hq2_5
  obtain ⟨h9, _, s10, h10, _, hq2_7⟩ := hq2_6
  obtain ⟨s11, h11, fin, s12, h12, hq2_8⟩ := hq2_7
  obtain ⟨cc, s13, h13, _, s14, hq2_9⟩ := hq2_8
  obtain ⟨h14, _, s15, h15, _, hq2_10⟩ := hq2_9
  obtain ⟨s16, h16, af, s17, h17, hq2_11⟩ := hq2_10
  obtain ⟨as, afp, s18, h18, _, hq2_12⟩ := hq2_11
  obtain ⟨s19, h19, _, s20, h20, hq2_13⟩ := hq2_12
  obtain ⟨_, s21, h21, _, s22, hq2_14⟩ := hq2_13
  obtain ⟨h22, h23⟩ := hq2_14
  cases h23
  obtain ⟨m1, e1⟩ := mid_enter_cycle (mid_refl _) h1
  obtain rfl := son_ok k1
  obtain rfl := son_ok k2
  obtain rfl := son_ok k3
  obtain rfl := son_ok k4
  exact built_foreach_core cfg hcfg t s s' _ fp cmd xs x t4 vs vf s5 h5 writes s6 h6 u s7 h7 _ s8
    h8 _ s9 h9 _ s10 h10 _ s11 h11 fin s12 h12 cc s13 h13 _ s14 h14 _ s15 h15 _ s16 h16 af s17
    h17 as afp s18 h18 _ s19 h19 _ s20 h20 _ s21 h21 _ h22 k4 k3 k2 h1 k1 m1 e1

theorem built_op_throw (cfg : Vertex → M (Node × Node)) (hcfg : CfgOk cfg)
    (t : Vertex) (s : CFG) (r : Node × Node) (s' : CFG)
    (hr : create_cfg_op_throw cfg t s = Except.ok (r, s')) : Built s r s' := by
  simp only [create_cfg_op_throw, bind_ok_iff, Prod.exists] at hr
  obtain ⟨e, s1, h1, a, b, hq3_1⟩ := hr
  obtain ⟨s2, h2, _, s3, h3, hq3_2⟩ := hq3_1
  obtain ⟨f, s4, h4, h5⟩ := hq3_2
  obtain rfl := son_ok h1
  obtain ⟨m2, a1, a2, b1, l2, _⟩ := mid_built (mid_refl _) (hcfg _ _ _ _ h2)
  obtain ⟨m3, e3⟩ := mid_register_exception m2 (by omega) h3
  obtain ⟨m4, f1, e4⟩ := mid_new_node m3 h4
  cases h5
  exact built_intro m4 (by omega) (by omega) (by omega)

theorem built_op_try (cfg : Vertex → Bool → Bool → M (Node × Node)) (hcfg : CfgOk3 cfg)
    (t : Vertex) (s : CFG) (r : Node × Node) (s' : CFG)
    (hr : create_cfg_op_try cfg t s = Except.ok (r, s')) : Built s r s' := by
  simp only [create_cfg_op_try, bind_ok_iff, Prod.exists] at hr
  obtain ⟨tc, t1, k1, ex, t2, hq4_1⟩ := hr
  obtain ⟨k2, cc, t3, k3, es, hq4_2⟩ := hq4_1
  obtain ⟨ef, s4, h4, _, s5, hq4_3⟩ := hq4_2
  obtain ⟨h5, ts, tf, s6, h6, hq4_4⟩ := hq4_3
  obtain ⟨_, s7, h7, cs, cf, hq4_5⟩ := hq4_4
  obtain ⟨s8, h8, _, s9, h9, hq4_6⟩ := hq4_5
  obtain ⟨fin, s10, h10, _, s11, hq4_7⟩ := hq4_6
  obtain ⟨h11, _, s12, h12, _, hq4_8⟩ := hq4_7
  obtain ⟨s13, h13, _, s14, h14, h15⟩ := hq4_8
  obtain rfl := son_ok k1
  obtain rfl := son_ok k2
  obtain rfl := son_ok k3
  obtain ⟨m4, es1, es2, ef1, l4, _⟩ := mid_built (mid_refl _) (hcfg _ _ _ _ _ _ h4)
  obtain ⟨m5, e5⟩ := mid_begin_try m4 h5
  obtain ⟨m6, ts1, ts2, tf1, l6, _⟩ := mid_built m5 (hcfg _ _ _ _ _ _ h6)
  obtain ⟨m7, e7⟩ := mid_end_try m6 (by omega) h7
  obtain ⟨m8, cs1, cs2, cf1, l8, _⟩ := mid_built m7 (hcfg _ _ _ _ _ _ h8)
  obtain ⟨m9, e9⟩ := mid_add_edge m8 (by omega) (by omega) h9
  obtain ⟨m10, fin1, e10⟩ := mid_new_node m9 h10
  obtain ⟨m11, e11⟩ := mid_add_edge m10 (by omega) (by omega) h11
  obtain ⟨m12, e12⟩ := mid_add_edge m11 (by omega) (by omega) h12
  obtain ⟨m13, e13⟩ := run_nodeData m12 (add_subtree_nodeData _ es _ (by omega)) h13
  obtain ⟨m14, e14⟩ := run_nodeData m13 (add_subtree_nodeData _ cs _ (by omega)) h14
  cases h15
  exact built_intro m14 (by omega) (by omega) (by omega)

theorem built_op_function (cfg : Vertex → M (Node × Node)) (hcfg : CfgOk cfg)
    (t : Vertex) (s : CFG) (r : Node × Node) (s' : CFG)
    (hr : create_cfg_op_function cfg t s = Except.ok (r, s')) : Built s r s' := by
  simp only [create_cfg_op_function, bind_ok_iff, Prod.exists] at hr
  obtain ⟨lhs, s1, h1, rhs, s2, hq5_1⟩ := hr
  obtain ⟨h2, a, b, s3, h3, hq5_2⟩ := hq5_1
  obtain ⟨c, d, s4, h4, _, hq5_3⟩ := hq5_2
  obtain ⟨s5, h5, h6⟩ := hq5_3
  obtain rfl := son_ok h1
  obtain rfl := son_ok h2
  obtain ⟨m3, a1, a2, b1, l3, _⟩ := mid_built (mid_refl _) (hcfg _ _ _ _ h3)
  obtain ⟨m4, c1, c2, d1, l4, _⟩ := mid_built m3 (hcfg _ _ _ _ h4)
  obtain ⟨m5, e5⟩ := mid_add_edge m4 (by omega) (by omega) h5
  cases h6
  exact built_intro m5 (by omega) (by omega) (by omega)

theorem built_finish (t : Vertex) (flag : Bool) (s0 s : CFG) (r0 r : Node × Node) (s' : CFG)
    (h0 : Built s0 r0 s) (hr : create_cfg_finish t flag r0 s = Except.ok (r, s')) :
    Built s0 r s' := by
  obtain ⟨a, b⟩ := r0
  obtain ⟨m0, a1, a2, b1, l0⟩ := built_elim h0
  simp only [create_cfg_finish, bind_ok_iff] at hr
  obtain ⟨_, s1, h1, h2⟩ := hr
  obtain ⟨m1, e1⟩ := run_nodeData m0 (add_subtree_nodeData s0.node_gen a _ (by omega)) h1
  cases h2
  exact built_intro m1 (by omega) (by omega) (by omega)

theorem builtCond_op_log (cond_cfg : Vertex → M (Node × Node × Node)) (hcond : CondOk cond_cfg)
    (t : Vertex) (s : CFG) (r : Node × Node × Node) (s' : CFG)
    (hr : create_condition_cfg_op_log cond_cfg t s = Except.ok (r, s')) : BuiltCond s r s' := by
  simp only [create_condition_cfg_op_log, bind_ok_iff, Prod.exists] at hr
  obtain ⟨lhs, s1, h1, rhs, s2, hq6_1⟩ := hr
  obtain ⟨h2, a, at_, af, s3, hq6_2⟩ := hq6_1
  obtain ⟨h3, b, bt, bf, s4, hq6_3⟩ := hq6_2
  obtain ⟨h4, rt, s5, h5, rf, hq6_4⟩ := hq6_3
  obtain ⟨s6, h6, _, s7, h7, hq6_5⟩ := hq6_4
  obtain ⟨_, s8, h8, _, s9, hq6_6⟩ := hq6_5
  obtain ⟨h9, _, s10, h10, h11⟩ := hq6_6
  obtain rfl := son_ok h1
  obtain rfl := son_ok h2
  obtain ⟨m3, a1, a2, at1, af1, l3, _⟩ := mid_builtCond (mid_refl _) (hcond _ _ _ _ h3)
  obtain ⟨m4, b1, b2, bt1, bf1, l4, _⟩ := mid_builtCond m3 (hcond _ _ _ _ h4)
  obtain ⟨m5, rt1, e5⟩ := mid_new_node m4 h5
  obtain ⟨m6, rf1, e6⟩ := mid_new_node m5 h6
  obtain ⟨m7, e7⟩ := mid_add_edge m6 (by omega) (by split <;> omega) h7
  obtain ⟨m8, e8⟩ := mid_add_edge m7 (by omega) (by split <;> omega) h8
  obtain ⟨m9, e9⟩ := mid_add_edge m8 (by omega) (by omega) h9
  obtain ⟨m10, e10⟩ := mid_add_edge m9 (by omega) (by omega) h10
  cases h11
  exact ⟨m10, ⟨by show _ < node_code a; omega, by show node_code a ≤ _; omega⟩,
    by show NodeIn _ _ rt; omega, by show NodeIn _ _ rf; omega⟩

theorem builtCond_default (cfg : Vertex → M (Node × Node)) (hcfg : CfgOk cfg)
    (t : Vertex) (s : CFG) (r : Node × Node × Node) (s' : CFG)
    (hr : create_condition_cfg_default cfg t s = Except.ok (r, s')) : BuiltCond s r s' := by
  simp only [create_condition_cfg_default, bind_ok_iff, Prod.exists] at hr
  obtain ⟨a, b, s3, h3, rt, hq7_1⟩ := hr
  obtain ⟨s5, h5, rf, s6, h6, hq7_2⟩ := hq7_1
  obtain ⟨_, s7, h7, _, s8, hq7_3⟩ := hq7_2
  obtain ⟨h8, h11⟩ := hq7_3
  obtain ⟨m3, a1, a2, b1, l3, _⟩ := mid_built (mid_refl _) (hcfg _ _ _ _ h3)
  obtain ⟨m5, rt1, e5⟩ := mid_new_node m3 h5
  obtain ⟨m6, rf1, e6⟩ := mid_new_node m5 h6
  obtain ⟨m7, e7⟩ := mid_add_edge m6 (by omega) (by omega) h7
  obtain ⟨m8, e8⟩ := mid_add_edge m7 (by omega) (by omega) h8
  cases h11
  exact ⟨m8, ⟨by show _ < node_code a; omega, by show node_code a ≤ _; omega⟩,
    by show NodeIn _ _ rt; omega, by show NodeIn _ _ rf; omega⟩

theorem switch_vars_nodeData (g : Nat) (vi vr : Node)
    (hi : node_code vi = 0 ∨ g < node_code vi) (hr : node_code vr = 0 ∨ g < node_code vr)
    (l : List Vertex) : Preserves (NodeData g) (create_cfg_switch_vars vi vr l) := by
  induction l with
  | nil => exact preserves_pure (nodeData_rel g) _
  | cons x xs ih =>
    unfold create_cfg_switch_vars
    repeat (first
      | apply ih
      | apply new_usage_nodeData
      | apply add_usage_nodeData g _ _ hi
      | apply add_usage_nodeData g _ _ hr
      | apply add_subtree_nodeData g _ _ hi
      | apply add_subtree_nodeData g _ _ hr
      | apply preserves_bind (nodeData_rel g)
      | intro _)

theorem add_subtrees_nodeData (g : Nat) (node : Node)
    (hn : node_code node = 0 ∨ g < node_code node) (l : List Vertex) :
    Preserves (NodeData g) (add_subtrees node l) := by
  induction l with
  | nil => exact preserves_pure (nodeData_rel g) _
  | cons x xs ih =>
    unfold add_subtrees
    exact preserves_bind (nodeData_rel g) (add_subtree_nodeData g _ _ hn) (fun _ => ih)

theorem switch_clause_ok {i : Vertex} {s s' : CFG} {p : Bool × Vertex}
    (h : switch_clause i s = Except.ok (p, s')) : s' = s := by
  unfold switch_clause at h
  by_cases h1 : i.type = Operation.op_case
  · rw [if_pos h1] at h
    simp only [bind_ok_iff] at h
    obtain ⟨c, s1, k1, k2⟩ := h
    obtain rfl := son_ok k1
    cases k2
    rfl
  · rw [if_neg h1] at h
    by_cases h2 : i.type = Operation.op_default
    · rw [if_pos h2] at h
      simp only [bind_ok_iff] at h
      obtain ⟨c, s1, k1, k2⟩ := h
      obtain rfl := son_ok k1
      cases k2
      rfl
    · rw [if_neg h2] at h
      cases h

theorem mid_switch_loop (cfg : Vertex → M (Node × Node)) (hcfg : CfgOk cfg) (l : List Vertex) :
    ∀ {g k j : Nat} {s0 s s' : CFG} {st st' : SwitchLoop}, Mid g k j s0 s →
    NodeIn g s.node_gen st.prev_finish → NodeIn g s.node_gen st.prev_var_finish →
    NodeIn g s.node_gen st.default_start →
    create_cfg_switch_loop cfg l st s = Except.ok (st', s') →
    Mid g k j s0 s' ∧ s.node_gen ≤ s'.node_gen ∧ NodeIn g s'.node_gen st'.prev_finish ∧
      NodeIn g s'.node_gen st'.prev_var_finish ∧ NodeIn g s'.node_gen st'.default_start := by
  induction l with
  | nil =>
    intro g k j s0 s s' st st' h h1 h2 h3 hr
    cases hr
    exact ⟨h, Nat.le_refl _, h1, h2, h3⟩
  | cons i rest ih =>
    intro g k j s0 s s' st st' h h1 h2 h3 hr
    unfold create_cfg_switch_loop at hr
    have hr' := hr
    clear hr
    simp only [bind_ok_iff, Prod.exists, get_state_run, Except.ok.injEq, Prod.mk.injEq] at hr'
    obtain ⟨isd, cmd, s1, k1, bf, s2, ⟨rfl, rfl⟩, a, b, s3, k3, bt, s4, ⟨rfl, rfl⟩, _, s5, k5, k6⟩ := hr'
    obtain rfl := switch_clause_ok k1
    obtain ⟨m3, a1, a2, b1, l3, l0⟩ := mid_built h (hcfg _ _ _ _ k3)
    obtain ⟨m5, e5⟩ := mid_add_edge m3 (by omega) (by omega) k5
    by_cases hd : isd = true
    · rw [if_pos hd] at k6
      obtain ⟨m6, l6, p1, p2, p3⟩ := ih m5 (by dsimp only; omega) (by dsimp only; omega)
        (by dsimp only; omega) k6
      exact ⟨m6, by omega, p1, p2, p3⟩
    · rw [if_neg hd] at k6
      simp only [bind_ok_iff, Prod.exists, get_state_run, Except.ok.injEq, Prod.mk.injEq] at k6
      obtain ⟨ex, s6, k7, c, d, s7, k8, gd, s8, ⟨rfl, rfl⟩, _, s9, k9, _, s10, k10, k11⟩ := k6
      obtain rfl := son_ok k7
      obtain ⟨m8, c1, c2, d1, l8, _⟩ := mid_built m5 (hcfg _ _ _ _ k8)
      obtain ⟨m9, e9⟩ := mid_add_edge m8 (by omega) (by omega) k9
      obtain ⟨m10, e10⟩ := mid_add_edge m9 (by omega) (by omega) k10
      obtain ⟨m11, l11, p1, p2, p3⟩ := ih m10 (by dsimp only; omega) (by dsimp only; omega)
        (by dsimp only; omega) k11
      exact ⟨m11, by omega, p1, p2, p3⟩

theorem built_op_switch (cfg : Vertex → M (Node × Node)) (hcfg : CfgOk cfg)
    (t : Vertex) (s : CFG) (r : Node × Node) (s' : CFG)
    (hr : create_cfg_op_switch cfg t s = Except.ok (r, s')) : Built s r s' := by
  simp only [create_cfg_op_switch, bind_ok_iff, Prod.exists] at hr
  obtain ⟨_, s1, h1, ex, t1, hq1_1⟩ := hr
  obtain ⟨k1, _, s2, h2, cs, hq1_2⟩ := hq1_1
  obtain ⟨cf, s3, h3, vi, s4, hq1_3⟩ := hq1_2
  obtain ⟨h4, vr, s5, h5, _, hq1_4⟩ := hq1_3
  obtain ⟨s6, h6, _, s7, h7, hq1_5⟩ := hq1_4
  obtain ⟨st, s8, h8, fin, s9, hq1_6⟩ := hq1_5
  obtain ⟨h9, _, s10, h10, _, hq1_7⟩ := hq1_6
  obtain ⟨s11, h11, _, s12, h12, hq1_8⟩ := hq1_7
  obtain ⟨_, s13, h13, _, s14, hq1_9⟩ := hq1_8
  obtain ⟨h14, _, s15, h15, h16⟩ := hq1_9
  obtain ⟨m1, e1⟩ := mid_enter_cycle (mid_refl _) h1
  have e2 : s2 = t1 := by
    by_cases hc : t.sons.length < 5
    · rw [if_pos hc] at h2
      cases h2
    · rw [if_neg hc] at h2
      cases h2
      rfl
  subst e2
  obtain rfl := son_ok k1
  obtain ⟨m3, cs1, cs2, cf1, l3, _⟩ := mid_built m1 (hcfg _ _ _ _ h3)
  obtain ⟨m4, vi1, e4⟩ := mid_new_node m3 h4
  obtain ⟨m5, vr1, e5⟩ := mid_new_node m4 h5
  obtain ⟨m6, e6⟩ := mid_add_edge m5 (by omega) (by omega) h6
  obtain ⟨m7, e7⟩ := run_nodeData m6
    (switch_vars_nodeData s.node_gen vi vr (by omega) (by omega) _) h7
  obtain ⟨m8, l8, p1, p2, p3⟩ := mid_switch_loop cfg hcfg _ m7 (by exact Or.inl rfl)
    (by show NodeIn _ _ cf; omega) (by exact Or.inl rfl) h8
  obtain ⟨m9, fin1, e9⟩ := mid_new_node m8 h9
  obtain ⟨m10, e10⟩ := mid_add_edge m9 (by omega) (by omega) h10
  have m11 : Mid s.node_gen 1 0 s s11 ∧ s11.node_gen = s10.node_gen := by
    by_cases hc : (!st.was_default) = true
    · rw [if_pos hc] at h11
      exact mid_add_edge m10 (by omega) (by omega) h11
    · rw [if_neg hc] at h11
      cases h11
      exact ⟨m10, rfl⟩
  obtain ⟨m11, e11⟩ := m11
  have m12 : Mid s.node_gen 1 0 s s12 ∧ s12.node_gen = s11.node_gen := by
    by_cases hc : st.was_default = true
    · rw [if_pos hc] at h12
      exact mid_add_edge m11 (by omega) (by omega) h12
    · rw [if_neg hc] at h12
      cases h12
      exact ⟨m11, rfl⟩
  obtain ⟨m12, e12⟩ := m12
  obtain ⟨m13, e13⟩ := mid_add_edge m12 (by omega) (by omega) h13
  obtain ⟨m14, e14⟩ := run_nodeData m13 (add_subtrees_nodeData s.node_gen cs (by omega) _) h14
  obtain ⟨m15, e15⟩ := mid_exit_cycle m14 (by omega) (by omega) h15
  cases h16
  exact built_intro m15 (by omega) (by omega) (by omega)

theorem builtCond_finish (t : Vertex) (s0 s : CFG) (r0 : Node × Node × Node) (s' : CFG)
    (h0 : BuiltCond s0 r0 s)
    (hr : add_subtree r0.1 (new_subtree t false) s = Except.ok ((), s')) :
    BuiltCond s0 r0 s' := by
  obtain ⟨a, b, c⟩ := r0
  obtain ⟨m0, a1, a2, b1, c1, l0⟩ := builtCond_elim h0
  obtain ⟨m1, e1⟩ := run_nodeData m0 (add_subtree_nodeData s0.node_gen a _ (by omega)) hr
  exact ⟨m1, ⟨by show _ < node_code a; omega, by show node_code a ≤ _; omega⟩,
    by show NodeIn _ _ b; omega, by show NodeIn _ _ c; omega⟩

theorem builtM_finish {m : M (Node × Node)} (t : Vertex) (flag : Bool) (h : BuiltM m) :
    BuiltM (m >>= create_cfg_finish t flag) := by
  intro s r s' hr
  obtain ⟨r0, s1, h1, h2⟩ := bind_ok_iff.mp hr
  exact built_finish t flag s s1 r0 r s' (h s r0 s1 h1) h2

theorem builtM_son_finish (cfg : Vertex → M (Node × Node)) (hcfg : CfgOk cfg) (t : Vertex)
    (flag : Bool) :
    BuiltM (son t 0 >>= fun expr => cfg expr >>= create_cfg_finish t flag) := by
  intro s r s' hr
  obtain ⟨e, s1, h1, h2⟩ := bind_ok_iff.mp hr
  obtain rfl := son_ok h1
  exact builtM_finish t flag (fun s r s' h => hcfg e s r s' h) _ r s' h2

theorem built_all : ∀ fuel, CfgOk3 (create_cfg fuel) ∧ CondOk (create_condition_cfg fuel) := by
  intro fuel
  induction fuel with
  | zero =>
    constructor
    · intro v w ww s r s' h
      cases h
    · intro v s r s' h
      cases h
  | succ fuel ih =>
    obtain ⟨ih1, ih2⟩ := ih
    have hcfg : CfgOk fun v => create_cfg fuel v false false := cfgOk_of_cfgOk3 ih1 false false
    constructor
    · intro t w ww
      show BuiltM (create_cfg (fuel + 1) t w ww)
      unfold create_cfg
      dsimp only
      split
      iterate 7 exact builtM_finish _ _ (built_op_seq _ hcfg t)
      exact builtM_son_finish _ hcfg t _
      iterate 4 exact builtM_finish _ _ (built_op_eq fuel _ hcfg t)
      exact builtM_finish _ _ (built_op_index _ ih1 t w ww)
      iterate 2 exact builtM_finish _ _ (built_op_log _ hcfg t)
      iterate 2 exact builtM_finish _ _ (built_op_call _ ih1 t)
      exact builtM_finish _ _ (built_op_return _ hcfg t)
      exact builtM_finish _ _ (built_op_set _ ih1 t)
      iterate 12 exact builtM_finish _ _ (built_op_set_op fuel _ hcfg t)
      exact builtM_finish _ _ (built_op_list _ ih1 t)
      exact builtM_finish _ _ (built_op_var t w ww)
      exact builtM_finish _ _ (built_op_if _ _ hcfg ih2 t)
      exact builtM_finish _ _ (built_op_ternary _ _ hcfg ih2 t)
      exact builtM_finish _ _ (built_op_break t)
      exact builtM_finish _ _ (built_op_continue t)
      exact builtM_finish _ _ (built_op_for _ _ hcfg ih2 t)
      iterate 2 exact builtM_finish _ _ (built_op_while _ _ hcfg ih2 t)
      exact builtM_finish _ _ (built_op_foreach _ hcfg t)
      exact builtM_finish _ _ (built_op_switch _ hcfg t)
      exact builtM_finish _ _ (built_op_throw _ hcfg t)
      exact builtM_finish _ _ (built_op_try _ ih1 t)
      iterate 13 exact builtM_son_finish _ hcfg t _
      exact builtM_finish _ _ (built_op_function _ hcfg t)
      exact built_full_cfg fuel t
    · intro t
      show BuiltCondM (create_condition_cfg (fuel + 1) t)
      unfold create_condition_cfg
      split
      · intro s r s' h
        simp only [bind_ok_iff, Prod.exists] at h
        obtain ⟨e, s2, k1, a, b, c, s3, k2, _, s4, k3, k4⟩ := h
        obtain rfl := son_ok k1
        cases k4
        exact builtCond_finish t _ s3 (a, b, c) s' (ih2 _ _ _ _ k2) k3
      · intro s r s' h
        simp only [bind_ok_iff, Prod.exists] at h
        obtain ⟨e, s2, k1, a, b, hq1_1⟩ := h
        obtain ⟨c, s3, k2, x, y, hq1_2⟩ := hq1_1
        obtain ⟨z, s5, k5, _, s4, hq1_3⟩ := hq1_2
        obtain ⟨k3, k4⟩ := hq1_3
        obtain rfl := son_ok k1
        cases k5
        cases k4
        obtain ⟨m, x1, x2, y1, z1, _⟩ := builtCond_elim (ih2 _ _ _ _ k2)
        exact builtCond_finish t _ s3 (a, c, b) s' ⟨m, ⟨x1, x2⟩, z1, y1⟩ k3
      · intro s r s' h
        simp only [bind_ok_iff, Prod.exists] at h
        obtain ⟨a, b, c, s3, k2, _, s4, k3, k4⟩ := h
        cases k4
        exact builtCond_finish t _ s3 (a, b, c) s' (builtCond_op_log _ ih2 t _ _ _ k2) k3
      · intro s r s' h
        simp only [bind_ok_iff, Prod.exists] at h
        obtain ⟨a, b, c, s3, k2, _, s4, k3, k4⟩ := h
        cases k4
        exact builtCond_finish t _ s3 (a, b, c) s' (builtCond_op_log _ ih2 t _ _ _ k2) k3
      · intro s r s' h
        simp only [bind_ok_iff, Prod.exists] at h
        obtain ⟨a, b, c, s3, k2, _, s4, k3, k4⟩ := h
        cases k4
        exact builtCond_finish t _ s3 (a, b, c) s' (builtCond_default _ hcfg t _ _ _ k2) k3

theorem create_cfg_built (fuel : Nat) (t : Vertex) (w ww : Bool) (s : CFG) (r : Node × Node)
    (s' : CFG) (h : create_cfg fuel t w ww s = Except.ok (r, s')) : Built s r s' :=
  (built_all fuel).1 t w ww s r s' h

theorem create_condition_cfg_built (fuel : Nat) (t : Vertex) (s : CFG) (r : Node × Node × Node)
    (s' : CFG) (h : create_condition_cfg fuel t s = Except.ok (r, s')) : BuiltCond s r s' :=
  (built_all fuel).2 t s r s' h

theorem op_return_finish (cfg : Vertex → M (Node × Node)) (t : Vertex) (s s' : CFG)
    (r : Node × Node) (h : create_cfg_op_return cfg t s = Except.ok (r, s')) : r.2 = none := by
  unfold create_cfg_op_return at h
  cases e : t.sons with
  | nil =>
    rw [e] at h
    simp only [bind_ok_iff] at h
    obtain ⟨a, s1, h1, h2⟩ := h
    cases h2
    rfl
  | cons x xs =>
    rw [e] at h
    simp only [bind_ok_iff, Prod.exists] at h
    obtain ⟨a, b, s1, h1, h2⟩ := h
    cases h2
    rfl

theorem op_break_finish (t : Vertex) (s s' : CFG) (r : Node × Node)
    (h : create_cfg_op_break t s = Except.ok (r, s')) : r.2 = none := by
  simp only [create_cfg_op_break, bind_ok_iff] at h
  obtain ⟨level, s1, h1, start, s2, h2, _, s3, h3, h4⟩ := h
  cases h4
  rfl

theorem op_continue_finish (t : Vertex) (s s' : CFG) (r : Node × Node)
    (h : create_cfg_op_continue t s = Except.ok (r, s')) : r.2 = none := by
  simp only [create_cfg_op_continue, bind_ok_iff] at h
  obtain ⟨level, s1, h1, start, s2, h2, _, s3, h3, h4⟩ := h
  cases h4
  rfl

theorem create_cfg_finish_result (t : Vertex) (flag : Bool) (r0 r : Node × Node) (s s' : CFG)
    (h : create_cfg_finish t flag r0 s = Except.ok (r, s')) : r = r0 := by
  simp only [create_cfg_finish, bind_ok_iff] at h
  obtain ⟨_, s1, h1, h2⟩ := h
  cases h2
  rfl

/-- C16. For a `return` (with or without expression), a `break` and a `continue`,
`create_cfg` returns the null node as finish.  The sequence loop that continues after a
null finish builds the following statements without changing the successors of any
node that existed before: no edge leads from the statement to what follows it. -/
theorem never_completing_null_finish (fuel : Nat) (t : Vertex) (w ww : Bool) (s s' : CFG)
    (a b : Node)
    (ht : t.type = Operation.op_return ∨ t.type = Operation.op_break ∨
      t.type = Operation.op_continue)
    (h : create_cfg (fuel + 1) t w ww s = Except.ok ((a, b), s')) :
    b = none ∧
    ∀ (rest : List Vertex) (last : Node) (t' : CFG),
      create_cfg_seq_loop (fun v => create_cfg fuel v false false) rest b s' =
        Except.ok (last, t') →
      ∀ n, n < s'.node_gen → t'.node_next n = s'.node_next n ∧ t'.node_prev n = s'.node_prev n := by
  have hb : b = none := by
    unfold create_cfg at h
    rcases ht with e | e | e
    · rw [e] at h
      obtain ⟨r0, s1, h1, h2⟩ := bind_ok_iff.mp h
      have := create_cfg_finish_result _ _ _ _ _ _ h2
      have h3 := op_return_finish _ _ _ _ _ h1
      rw [← this] at h3
      exact h3
    · rw [e] at h
      obtain ⟨r0, s1, h1, h2⟩ := bind_ok_iff.mp h
      have := create_cfg_finish_result _ _ _ _ _ _ h2
      have h3 := op_break_finish _ _ _ _ h1
      rw [← this] at h3
      exact h3
    · rw [e] at h
      obtain ⟨r0, s1, h1, h2⟩ := bind_ok_iff.mp h
      have := create_cfg_finish_result _ _ _ _ _ _ h2
      have h3 := op_continue_finish _ _ _ _ h1
      rw [← this] at h3
      exact h3
  refine ⟨hb, ?_⟩
  subst hb
  intro rest last t' hl n hn
  obtain ⟨m, _, _⟩ := mid_seq_loop _ (cfgOk_of_cfgOk3 (built_all fuel).1 false false) rest
    (mid_refl s') (by exact Or.inl rfl) hl
  exact ⟨m.next_below n hn, m.prev_below n hn⟩

/-- Witness of C16: `return;` built in the empty state gets start node 0 and the null
finish. -/
theorem never_completing_null_finish_witness :
    run_result (create_cfg 3 (mk_op 13 Operation.op_return []) false false {}) =
      some (some 0, none) ∧
    ∀ (rest : List Vertex) (last : Node) (t' : CFG),
      create_cfg_seq_loop (fun v => create_cfg 2 v false false) rest none
        (state_after (create_cfg 3 (mk_op 13 Operation.op_return []) false false {})) =
        Except.ok (last, t') →
      ∀ n, n < (state_after (create_cfg 3 (mk_op 13 Operation.op_return []) false false {})).node_gen →
        t'.node_next n =
          (state_after (create_cfg 3 (mk_op 13 Operation.op_return []) false false {})).node_next n ∧
        t'.node_prev n =
          (state_after (create_cfg 3 (mk_op 13 Operation.op_return []) false false {})).node_prev n := by
  have h1 : run_result (create_cfg 3 (mk_op 13 Operation.op_return []) false false {}) =
      some (some 0, none) := by decide!
  exact ⟨h1, (never_completing_null_finish 2 (mk_op 13 Operation.op_return []) false false _ _ (some 0) none (Or.inl rfl)
    (run_eq_of_result _ _ h1)).2⟩

/-- C17 (amended). For a `throw`, `create_cfg` builds the thrown expression, registers
the finish of that expression in the innermost try frame (the stack of try frames stays
as it is when it is empty), and returns as finish a node created afterwards, which has
neither successors nor predecessors: the finish is a fresh unreachable node, not the
null node. -/
theorem throw_registers_and_fresh_finish (fuel : Nat) (t : Vertex) (w ww : Bool) (s s' : CFG)
    (a b : Node) (ht : t.type = Operation.op_throw)
    (h : create_cfg (fuel + 1) t w ww s = Except.ok ((a, b), s')) :
    ∃ exception throw_finish s1,
      t.sons.get? 0 = some exception ∧
      create_cfg fuel exception false false s = Except.ok ((a, throw_finish), s1) ∧
      s'.exception_nodes =
        (match s1.exception_nodes.getLast? with
          | some es => s1.exception_nodes.dropLast ++ [es ++ [throw_finish]]
          | none => s1.exception_nodes) ∧
      b = some s1.node_gen ∧ s'.node_gen = s1.node_gen + 1 ∧
      s'.node_next s1.node_gen = [] ∧ s'.node_prev s1.node_gen = [] := by
  unfold create_cfg at h
  rw [ht] at h
  obtain ⟨r0, s4, h1, h2⟩ := bind_ok_iff.mp h
  simp only [create_cfg_finish, bind_ok_iff] at h2
  obtain ⟨_, s5, h3, h4⟩ := h2
  cases h4
  simp only [create_cfg_op_throw, bind_ok_iff, Prod.exists] at h1
  obtain ⟨e, s0, k1, a', tf, hq1_1⟩ := h1
  obtain ⟨s1, k2, _, s2, k3, hq1_2⟩ := hq1_1
  obtain ⟨f, s3, k4, k5⟩ := hq1_2
  cases k5
  have hs0 : s0 = s ∧ t.sons.get? 0 = some e := by
    unfold son at k1
    cases q : t.sons.get? 0 with
    | none => rw [q] at k1; cases k1
    | some y => rw [q] at k1; cases k1; exact ⟨rfl, rfl⟩
  obtain ⟨rfl, hson⟩ := hs0
  have hreg : s2.node_gen = s1.node_gen ∧ s2.exception_nodes =
      (match s1.exception_nodes.getLast? with
        | some es => s1.exception_nodes.dropLast ++ [es ++ [tf]]
        | none => s1.exception_nodes) := by
    unfold create_cfg_register_exception at k3
    simp only [bind_run, get_state_run] at k3
    cases q : s1.exception_nodes.getLast? with
    | none => rw [q] at k3; cases k3; exact ⟨rfl, rfl⟩
    | some es => rw [q] at k3; cases k3; exact ⟨rfl, rfl⟩
  obtain ⟨hg, hex⟩ := hreg
  unfold new_node at k4
  cases k4
  cases a with
  | none => cases h3
  | some n =>
    cases h3
    refine ⟨e, tf, s1, hson, k2, hex, by rw [hg], by show s2.node_gen + 1 = _; rw [hg], ?_, ?_⟩
    · show upd s2.node_next s2.node_gen [] s1.node_gen = []
      rw [hg, upd_same]
    · show upd s2.node_prev s2.node_gen [] s1.node_gen = []
      rw [hg, upd_same]

/-- Counterexample to C17 as stated: `throw e;` built in the empty state gets the
finish node 4, not the null node. -/
theorem throw_finish_not_null :
    run_result (create_cfg 3 sample_throw false false {}) = some (some 0, some 4) ∧
    ¬ (∀ a b, run_result (create_cfg 3 sample_throw false false {}) = some (a, b) → b = none) := by
  have h : run_result (create_cfg 3 sample_throw false false {}) = some (some 0, some 4) := by
    decide!
  refine ⟨h, fun hc => ?_⟩
  have := hc _ _ h
  cases this

/-- Witness of C17 (amended): for `throw e;` in the empty state the thrown expression
is built with four nodes and the finish is the fifth node. -/
theorem throw_registers_and_fresh_finish_witness :
    sample_throw.type = Operation.op_throw ∧
    run_result (create_cfg 3 sample_throw false false {}) = some (some 0, some 4) ∧
    ∃ exception throw_finish s1,
      create_cfg 2 exception false false {} = Except.ok ((some 0, throw_finish), s1) ∧
      some 4 = some s1.node_gen := by
  have h : run_result (create_cfg 3 sample_throw false false {}) = some (some 0, some 4) := by
    decide!
  obtain ⟨e, tf, s1, _, h2, _, h4, _⟩ := throw_registers_and_fresh_finish 2 sample_throw false
    false {} _ (some 0) (some 4) rfl (run_eq_of_result _ _ h)
  exact ⟨rfl, h, e, tf, s1, h2, h4⟩

theorem op_var_usage (v : Vertex) (w ww : Bool) (x : VarPtr) (vs : VarSplitData) (t0 t1 : CFG)
    (r : Node × Node) (hx : t0.data.get_var_id v = some x) (hs : get_var_split t0 x = some vs)
    (h : create_cfg_op_var v w ww t0 = Except.ok (r, t1)) :
    r = (some t0.node_gen, some t0.node_gen) ∧ t1.node_gen = t0.node_gen + 1 ∧
    t1.node_usages t0.node_gen = [t0.usage_cnt] ∧
    t1.usage_data t0.usage_cnt = some
      { id := (vs.usage_gen.length : Int)
        type := if w then UsageType.usage_write_t else UsageType.usage_read_t
        weak_write_flag := ww
        v := v
        node := some t0.node_gen } := by
  unfold get_var_split at hs
  simp only [create_cfg_op_var, bind_run, new_node, new_usage, get_var_split, hx, hs, usage_at,
    upd_same, modify_state_run, add_usage, node_id, pure_run, get_state_run,
    List.getLast?_nil] at h
  cases h
  refine ⟨rfl, rfl, ?_, ?_⟩
  · show upd _ t0.node_gen _ t0.node_gen = _
    rw [upd_same]
    rfl
  · show upd _ t0.usage_cnt _ t0.usage_cnt = _
    rw [upd_same]

/-- C20 (amended). An index expression built with write flag `w` and weak-write flag
`ww` builds its base first, with write flag `false` and weak-write flag `w || ww`, and
returns the finish of the base.  A variable built with flags `w'` and `ww'` gets a new
node that carries one new usage, a `Write` if `w'` is set and a `Read` otherwise, whose
weak-write flag is `ww'`: the base variable of an indexed assignment gets a `Read`
usage with the weak-write flag, not a `Write`. -/
theorem index_base_weak_write (fuel : Nat) (t : Vertex) (w ww : Bool) (s s' : CFG)
    (a b : Node) (ht : t.type = Operation.op_index)
    (h : create_cfg (fuel + 1) t w ww s = Except.ok ((a, b), s')) :
    (∃ array var_start s1,
      t.sons.get? 0 = some array ∧
      create_cfg fuel array false (w || ww) s = Except.ok ((var_start, b), s1)) ∧
    (∀ (fuel' : Nat) (v : Vertex) (w' ww' : Bool) (x : VarPtr) (vs : VarSplitData)
      (t0 t1 : CFG) (r : Node × Node),
      v.type = Operation.op_var → t0.data.get_var_id v = some x →
      get_var_split t0 x = some vs →
      create_cfg (fuel' + 1) v w' ww' t0 = Except.ok (r, t1) →
      r = (some t0.node_gen, some t0.node_gen) ∧
      t1.node_usages t0.node_gen = [t0.usage_cnt] ∧
      t1.usage_data t0.usage_cnt = some
        { id := (vs.usage_gen.length : Int)
          type := if w' then UsageType.usage_write_t else UsageType.usage_read_t
          weak_write_flag := ww'
          v := v
          node := some t0.node_gen }) := by
  constructor
  · unfold create_cfg at h
    rw [ht] at h
    obtain ⟨r0, s4, h1, h2⟩ := bind_ok_iff.mp h
    have e := create_cfg_finish_result _ _ _ _ _ _ h2
    subst e
    simp only [create_cfg_op_index, bind_ok_iff, Prod.exists] at h1
    obtain ⟨array, s0, k1, vs, vf, s1, k2, k3⟩ := h1
    have hs0 : s0 = s ∧ t.sons.get? 0 = some array := by
      unfold son at k1
      cases q : t.sons.get? 0 with
      | none => rw [q] at k1; cases k1
      | some y => rw [q] at k1; cases k1; exact ⟨rfl, rfl⟩
    obtain ⟨rfl, hson⟩ := hs0
    have hb : b = vf := by
      by_cases hc : t.sons.length > 1
      · rw [if_pos hc] at k3
        simp only [bind_ok_iff, Prod.exists] at k3
        obtain ⟨key, s3, h4, c, d, s5, h5, _, s6, h6, h7⟩ := k3
        cases h7
        rfl
      · rw [if_neg hc] at k3
        cases k3
        rfl
    subst hb
    exact ⟨array, vs, s1, hson, k2⟩
  · intro fuel' v w' ww' x vs t0 t1 r hv hx hs hr
    unfold create_cfg at hr
    rw [hv] at hr
    obtain ⟨r0, s4, h1, h2⟩ := bind_ok_iff.mp hr
    have e := create_cfg_finish_result _ _ _ _ _ _ h2
    subst e
    obtain ⟨q1, q2, q3, q4⟩ := op_var_usage v w' ww' x vs t0 s4 r hx hs h1
    subst q1
    simp only [create_cfg_finish, bind_ok_iff] at h2
    obtain ⟨_, s5, h3, h4⟩ := h2
    cases h4
    cases h3
    exact ⟨rfl, q3, q4⟩

/-- Counterexample to C20 as stated: in `$a[1] = 2` the only usage recorded for `$a`
(vertex 5) is a `Read` with the weak-write flag. -/
theorem index_base_usage_is_read :
    usage_gen_ids (built_state 30 sample_index_assign ["a"]) 0 = [5] ∧
    (get_var_split (built_state 30 sample_index_assign ["a"]) 0).map (fun vs => vs.usage_gen) =
      some [0] ∧
    usage_summary (built_state 30 sample_index_assign ["a"]) 0 =
      some (5, UsageType.usage_read_t, true) ∧
    ¬ ((usage_summary (built_state 30 sample_index_assign ["a"]) 0).map (fun p => p.2.1) =
      some UsageType.usage_write_t) := by
  refine ⟨by decide!, by decide!, by decide!, by decide!⟩

/-- Witness of C20 (amended): the index expression `$a[1]` built with the write flag in
the empty state builds `$a` with flags `false` and `true`. -/
theorem index_base_weak_write_witness :
    (mk_op 4 Operation.op_index [mk_var 5 0, mk_const 6 "1"]).type = Operation.op_index ∧
    run_result (create_cfg 3 (mk_op 4 Operation.op_index [mk_var 5 0, mk_const 6 "1"]) true false
      { data := mk_data sample_index_assign ["a"] }) = some (some 1, some 0) ∧
    ∃ var_start s1, create_cfg 2 (mk_var 5 0) false (true || false)
      { data := mk_data sample_index_assign ["a"] } = Except.ok ((var_start, some 0), s1) := by
  have h : run_result (create_cfg 3 (mk_op 4 Operation.op_index [mk_var 5 0, mk_const 6 "1"])
      true false { data := mk_data sample_index_assign ["a"] }) = some (some 1, some 0) := by
    decide!
  obtain ⟨⟨array, vs, s1, h1, h2⟩, _⟩ := index_base_weak_write 2
    (mk_op 4 Operation.op_index [mk_var 5 0, mk_const 6 "1"]) true false _ _ (some 1) (some 0)
    rfl (run_eq_of_result _ _ h)
  have e : array = mk_var 5 0 := by
    have : (mk_op 4 Operation.op_index [mk_var 5 0, mk_const 6 "1"]).sons.get? 0 =
        some (mk_var 5 0) := rfl
    rw [this] at h1
    cases h1
    rfl
  subst e
  exact ⟨rfl, h, vs, s1, h2⟩

/-- C19 (the code at the failing input). With one try frame active, the generic
construction of `f() + g()`, where `f` may throw and `g` may not, succeeds and leaves
the try frame empty: the call of `g`, visited last, overwrites the flag.  The same
happens to an explicit `throw` followed by the call of `g`.  With the operands in the
other order the finish node, node 1, is registered. -/
theorem throw_flag_overwritten :
    run_result (create_cfg 5 sample_throwing_then_plain false false { exception_nodes := [[]] }) =
      some (some 0, some 1) ∧
    (state_after (create_cfg 5 sample_throwing_then_plain false false
      { exception_nodes := [[]] })).exception_nodes = [[]] ∧
    (state_after (create_cfg 5 sample_throw_then_plain false false
      { exception_nodes := [[]] })).exception_nodes = [[]] ∧
    (state_after (create_cfg 5 sample_plain_then_throwing false false
      { exception_nodes := [[]] })).exception_nodes = [[some 1]] := by
  refine ⟨by decide!, by decide!, by decide!, by decide!⟩

theorem add_edge_next {a b : Nat} {s s' : CFG}
    (h : add_edge (some a) (some b) s = Except.ok ((), s')) :
    s'.node_next = upd s.node_next a (s.node_next a ++ [b]) ∧ s'.node_gen = s.node_gen := by
  cases h
  exact ⟨rfl, rfl⟩

theorem new_node_next {r : Node} {s s' : CFG} (h : new_node s = Except.ok (r, s')) :
    r = some s.node_gen ∧ s'.node_next = upd s.node_next s.node_gen [] ∧
      s'.node_gen = s.node_gen + 1 := by
  cases h
  exact ⟨rfl, rfl, rfl⟩

theorem add_subtree_next {a : Node} {st : SubTreeData} {s s' : CFG}
    (h : add_subtree a st s = Except.ok ((), s')) :
    s'.node_next = s.node_next ∧ s'.node_gen = s.node_gen := by
  cases a with
  | none => cases h
  | some n => cases h; exact ⟨rfl, rfl⟩

theorem son_get {v : Vertex} {i : Nat} {s s' : CFG} {x : Vertex}
    (h : son v i s = Except.ok (x, s')) : s' = s ∧ v.sons.get? i = some x := by
  unfold son at h
  cases e : v.sons.get? i with
  | none => rw [e] at h; cases h
  | some y => rw [e] at h; cases h; exact ⟨rfl, rfl⟩

theorem node_code_pos {a : Node} {g : Nat} (h : g < node_code a) : ∃ n, a = some n ∧ g ≤ n := by
  cases a with
  | none => simp at h
  | some n => exact ⟨n, rfl, by simp at h; omega⟩

/-- The body of the proof of `cond_op_log_spec`: the steps of the rule of `op_log_and` and
`op_log_or` in `create_condition_cfg` are given one by one, with the nodes that `new_node`
returns written out. -/
theorem cond_op_log_core
    (cond_cfg : Vertex → M (Node × Node × Node)) (hb : CondOk cond_cfg)
    (he : ∀ (v : Vertex) (s : CFG) (r : Node × Node × Node) (s' : CFG), cond_cfg v s = Except.ok
      (r, s') → CondExits s' r)
    (t : Vertex) (s' : CFG) (lhs rhs : Vertex) (t2 : CFG) (fs : Node) (s1 s2 s5 s6 : CFG) (w : Unit)
    (s7 : CFG) (w_1 : Unit) (s8 : CFG) (w_2 : Unit) (s9 : CFG) (w_3 : Unit)
    (g1 : t.sons.get? 0 = some lhs) (g2 : t.sons.get? 1 = some rhs)
    (h2 : son t 1 t2 = Except.ok (rhs, t2)) (h1 : son t 0 t2 = Except.ok (lhs, t2)) (x y : Nat)
    (hxy : x ≠ y) (nx : s1.node_next x = []) (ny : s1.node_next y = []) (x' y' : Nat) (hxy' : x' ≠ y')
    (nx' : s2.node_next x' = []) (ny' : s2.node_next y' = [])
    (h3 : cond_cfg lhs t2 = Except.ok ((fs, some x, some y), s1)) (m3 : Mid t2.node_gen 0 0 t2 s1)
    (a1 : t2.node_gen < node_code fs) (a2 : node_code fs ≤ s1.node_gen)
    (at1 : x + 1 = 0 ∨ t2.node_gen < x + 1 ∧ x + 1 ≤ s1.node_gen)
    (af1 : y + 1 = 0 ∨ t2.node_gen < y + 1 ∧ y + 1 ≤ s1.node_gen) (l3 : t2.node_gen ≤ s1.node_gen)
    (m4 : Mid s1.node_gen 0 0 s1 s2)
    (bt1 : x' + 1 = 0 ∨ s1.node_gen < x' + 1 ∧ x' + 1 ≤ s2.node_gen)
    (bf1 : y' + 1 = 0 ∨ s1.node_gen < y' + 1 ∧ y' + 1 ≤ s2.node_gen)
    (l4 : s1.node_gen ≤ s2.node_gen) (ss' : Nat) (right : s1.node_gen ≤ ss')
    (h4 : cond_cfg rhs s1 = Except.ok ((some ss', some x', some y'), s2))
    (b1 : s1.node_gen < ss' + 1) (b2 : ss' + 1 ≤ s2.node_gen)
    (h5 : new_node s2 = Except.ok (some s2.node_gen, s5))
    (h9 : add_edge (some x') (some s2.node_gen) s8 = Except.ok (w_2, s9))
    (h7 : add_edge (some x) (if t.type = Operation.op_log_and then some ss' else some s2.node_gen)
      s6 = Except.ok (w, s7))
    (n5 : s5.node_next = upd s2.node_next s2.node_gen []) (e5 : s5.node_gen = s2.node_gen + 1)
    (h6 : new_node s5 = Except.ok (some s5.node_gen, s6))
    (h10 : add_edge (some y') (some s5.node_gen) s9 = Except.ok (w_3, s'))
    (h8 : add_edge (some y) (if t.type = Operation.op_log_or then some ss' else some s5.node_gen)
      s7 = Except.ok (w_1, s8))
    (n6 : s6.node_next = upd s5.node_next s5.node_gen []) (e6 : s6.node_gen = s5.node_gen + 1) :
    ∃ lhs rhs fs_1 ft ff ss st sf s1 s2_1, t.sons.get? 0 = some lhs ∧ t.sons.get? 1 = some rhs ∧
      cond_cfg lhs t2 = Except.ok ((fs_1, some ft, some ff), s1) ∧ cond_cfg rhs s1 = Except.ok
      ((some ss, some st, some sf), s2_1) ∧ (fs, some s2.node_gen, some s5.node_gen) = (fs_1, some
      s2_1.node_gen, some (s2_1.node_gen + 1)) ∧ s'.node_gen = s2_1.node_gen + 2 ∧ s'.node_next ft
      = [if t.type = Operation.op_log_and then ss else s2_1.node_gen] ∧ s'.node_next ff = [if
      t.type = Operation.op_log_or then ss else s2_1.node_gen + 1] ∧ s'.node_next s2_1.node_gen =
      [] ∧ s'.node_next (s2_1.node_gen + 1) = [] ∧ (t2.node_gen ≤ ft ∧ ft < s1.node_gen) ∧
      (t2.node_gen ≤ ff ∧ ff < s1.node_gen) ∧ (s1.node_gen ≤ ss ∧ ss < s2_1.node_gen) ∧ ft ≠ ff := by
  have hx2 : s2.node_next x = [] := by rw [m4.next_below x (by omega)]; exact nx
  have hy2 : s2.node_next y = [] := by rw [m4.next_below y (by omega)]; exact ny
  have k7 : ∃ d7, add_edge (some x) (some d7) s6 = Except.ok ((), s7) ∧
      d7 = if t.type = Operation.op_log_and then ss' else s2.node_gen := by
    by_cases hc : t.type = Operation.op_log_and
    · rw [if_pos hc] at h7
      exact ⟨ss', h7, by rw [if_pos hc]⟩
    · rw [if_neg hc] at h7
      exact ⟨s2.node_gen, h7, by rw [if_neg hc]⟩
  obtain ⟨d7, k7, hd7⟩ := k7
  have k8 : ∃ d8, add_edge (some y) (some d8) s7 = Except.ok ((), s8) ∧
      d8 = if t.type = Operation.op_log_or then ss' else s2.node_gen + 1 := by
    by_cases hc : t.type = Operation.op_log_or
    · rw [if_pos hc] at h8
      exact ⟨ss', h8, by rw [if_pos hc]⟩
    · rw [if_neg hc] at h8
      rw [e5] at h8
      exact ⟨s2.node_gen + 1, h8, by rw [if_neg hc]⟩
  obtain ⟨d8, k8, hd8⟩ := k8
  obtain ⟨n7, e7⟩ := add_edge_next k7
  obtain ⟨n8, e8⟩ := add_edge_next k8
  obtain ⟨n9, e9⟩ := add_edge_next h9
  obtain ⟨n10, e10⟩ := add_edge_next h10
  have q6 : ∀ n, n < s2.node_gen → s6.node_next n = s2.node_next n := by
    intro n hn
    rw [n6, upd_other _ _ _ _ (by omega), n5, upd_other _ _ _ _ (by omega)]
  have qg : s6.node_next s2.node_gen = [] := by
    rw [n6, upd_other _ _ _ _ (by omega), n5, upd_same]
  have qg1 : s6.node_next (s2.node_gen + 1) = [] := by
    rw [n6, e5, upd_same]
  refine ⟨lhs, rhs, fs, x, y, ss', x', y', s1, s2, g1, g2, h3, h4, by rw [e5], by omega,
    ?_, ?_, ?_, ?_, by omega, by omega, by omega, hxy⟩
  · rw [n10, upd_other _ _ _ _ (by omega), n9, upd_other _ _ _ _ (by omega), n8,
      upd_other _ _ _ _ hxy, n7, upd_same, q6 x (by omega), hx2, hd7]
    rfl
  · rw [n10, upd_other _ _ _ _ (by omega), n9, upd_other _ _ _ _ (by omega), n8,
      upd_same, n7, upd_other _ _ _ _ (Ne.symm hxy), q6 y (by omega), hy2, hd8]
    rfl
  · rw [n10, upd_other _ _ _ _ (by omega), n9, upd_other _ _ _ _ (by omega), n8,
      upd_other _ _ _ _ (by omega), n7, upd_other _ _ _ _ (by omega), qg]
  · rw [n10, upd_other _ _ _ _ (by omega), n9, upd_other _ _ _ _ (by omega), n8,
      upd_other _ _ _ _ (by omega), n7, upd_other _ _ _ _ (by omega), qg1]

/-- What the rule of `op_log_and` and `op_log_or` as conditions builds. -/
theorem cond_op_log_spec (cond_cfg : Vertex → M (Node × Node × Node)) (hb : CondOk cond_cfg)
    (he : ∀ v s r s', cond_cfg v s = Except.ok (r, s') → CondExits s' r)
    (t : Vertex) (s : CFG) (r : Node × Node × Node) (s' : CFG)
    (h : create_condition_cfg_op_log cond_cfg t s = Except.ok (r, s')) :
    ∃ lhs rhs fs ft ff ss st sf s1 s2,
      t.sons.get? 0 = some lhs ∧ t.sons.get? 1 = some rhs ∧
      cond_cfg lhs s = Except.ok ((fs, some ft, some ff), s1) ∧
      cond_cfg rhs s1 = Except.ok ((some ss, some st, some sf), s2) ∧
      r = (fs, some s2.node_gen, some (s2.node_gen + 1)) ∧
      s'.node_gen = s2.node_gen + 2 ∧
      s'.node_next ft = [if t.type = Operation.op_log_and then ss else s2.node_gen] ∧
      s'.node_next ff = [if t.type = Operation.op_log_or then ss else s2.node_gen + 1] ∧
      s'.node_next s2.node_gen = [] ∧ s'.node_next (s2.node_gen + 1) = [] ∧
      (s.node_gen ≤ ft ∧ ft < s1.node_gen) ∧ (s.node_gen ≤ ff ∧ ff < s1.node_gen) ∧
      (s1.node_gen ≤ ss ∧ ss < s2.node_gen) ∧ ft ≠ ff := by
  simp only [create_condition_cfg_op_log, bind_ok_iff, Prod.exists] at h
  obtain ⟨lhs, t1, h1, rhs, t2, hq1_1⟩ := h
  obtain ⟨h2, fs, ft, ff, s1, hq1_2⟩ := hq1_1
  obtain ⟨h3, ss, st, sf, s2, hq1_3⟩ := hq1_2
  obtain ⟨h4, rt, s5, h5, rf, hq1_4⟩ := hq1_3
  obtain ⟨s6, h6, _, s7, h7, hq1_5⟩ := hq1_4
  obtain ⟨_, s8, h8, _, s9, hq1_6⟩ := hq1_5
  obtain ⟨h9, _, s10, h10, h11⟩ := hq1_6
  cases h11
  obtain ⟨rfl, g1⟩ := son_get h1
  obtain ⟨rfl, g2⟩ := son_get h2
  obtain ⟨x, y, ex, ey, hxy, nx, ny⟩ := he _ _ _ _ h3
  obtain ⟨x', y', ex', ey', hxy', nx', ny'⟩ := he _ _ _ _ h4
  dsimp only at ex ey ex' ey'
  subst ex ey ex' ey'
  obtain ⟨m3, a1, a2, at1, af1, l3⟩ := builtCond_elim (hb _ _ _ _ h3)
  obtain ⟨m4, b1, b2, bt1, bf1, l4⟩ := builtCond_elim (hb _ _ _ _ h4)
  obtain ⟨ss', rfl, _⟩ := node_code_pos b1
  unfold NodeIn at at1 af1 bt1 bf1
  simp only [node_code_some] at at1 af1 bt1 bf1 b1 b2
  obtain ⟨rfl, n5, e5⟩ := new_node_next h5
  obtain ⟨rfl, n6, e6⟩ := new_node_next h6
  exact cond_op_log_core cond_cfg hb he t s' lhs rhs t2 fs s1 s2 s5 s6 _ s7 _ s8 _ s9 _ g1 g2 h2
    h1 x y hxy nx ny x' y' hxy' nx' ny' h3 m3 a1 a2 at1 af1 l3 m4 bt1 bf1 l4 ss' (by assumption)
    h4 b1 b2 h5 h9 h7 n5 e5 h6 h10 h8 n6 e6

theorem add_edge_next_other {a b : Node} {s s' : CFG} {G n : Nat} (ha : NodeIn 0 G a)
    (hn : G ≤ n) (h : add_edge a b s = Except.ok ((), s')) :
    s'.node_next n = s.node_next n ∧ s'.node_gen = s.node_gen := by
  cases a with
  | none => cases h; exact ⟨rfl, rfl⟩
  | some x =>
    cases b with
    | none => cases h; exact ⟨rfl, rfl⟩
    | some y =>
      unfold NodeIn at ha
      simp only [node_code_some] at ha
      obtain ⟨e1, e2⟩ := add_edge_next h
      rw [e1, upd_other _ _ _ _ (by omega)]
      exact ⟨rfl, e2⟩

theorem cond_default_exits (cfg : Vertex → M (Node × Node)) (hcfg : CfgOk cfg)
    (t : Vertex) (s : CFG) (r : Node × Node × Node) (s' : CFG)
    (h : create_condition_cfg_default cfg t s = Except.ok (r, s')) : CondExits s' r := by
  simp only [create_condition_cfg_default, bind_ok_iff, Prod.exists] at h
  obtain ⟨a, b, s3, h3, rt, hq1_1⟩ := h
  obtain ⟨s5, h5, rf, s6, h6, hq1_2⟩ := hq1_1
  obtain ⟨_, s7, h7, _, s8, hq1_3⟩ := hq1_2
  obtain ⟨h8, h11⟩ := hq1_3
  obtain ⟨m3, a1, a2, b1, l3⟩ := built_elim (hcfg _ _ _ _ h3)
  obtain ⟨rfl, n5, e5⟩ := new_node_next h5
  obtain ⟨rfl, n6, e6⟩ := new_node_next h6
  have hb : NodeIn 0 s3.node_gen b := by omega
  obtain ⟨p7, q7⟩ := add_edge_next_other hb (Nat.le_refl _) h7
  obtain ⟨p8, q8⟩ := add_edge_next_other hb (Nat.le_refl _) h8
  obtain ⟨p7', _⟩ := add_edge_next_other hb (Nat.le_succ _) h7
  obtain ⟨p8', _⟩ := add_edge_next_other hb (Nat.le_succ _) h8
  cases h11
  refine ⟨s3.node_gen, s5.node_gen, rfl, rfl, by omega, ?_, ?_⟩
  · rw [p8, p7, n6, upd_other _ _ _ _ (by omega), n5, upd_same]
  · rw [e5, p8', p7', n6, e5, upd_same]

theorem cond_exits : ∀ (fuel : Nat) (t : Vertex) (s : CFG) (r : Node × Node × Node) (s' : CFG),
    create_condition_cfg fuel t s = Except.ok (r, s') → CondExits s' r := by
  intro fuel
  induction fuel with
  | zero => intro t s r s' h; cases h
  | succ fuel ih =>
    intro t
    have hb : CondOk (create_condition_cfg fuel) := (built_all fuel).2
    have hcfg : CfgOk fun v => create_cfg fuel v false false :=
      cfgOk_of_cfgOk3 (built_all fuel).1 false false
    have fin : ∀ (s3 : CFG) (q : Node × Node × Node) (s' : CFG), CondExits s3 q →
        add_subtree q.1 (new_subtree t false) s3 = Except.ok ((), s') → CondExits s' q := by
      intro s3 q s' hq hs
      obtain ⟨x, y, ex, ey, hxy, nx, ny⟩ := hq
      obtain ⟨e1, _⟩ := add_subtree_next hs
      exact ⟨x, y, ex, ey, hxy, by rw [e1]; exact nx, by rw [e1]; exact ny⟩
    show ∀ s r s', create_condition_cfg (fuel + 1) t s = Except.ok (r, s') → CondExits s' r
    unfold create_condition_cfg
    split
    · intro s r s' h
      simp only [bind_ok_iff, Prod.exists] at h
      obtain ⟨e, s2, k1, a, b, c, s3, k2, _, s4, k3, k4⟩ := h
      cases k4
      exact fin s3 (a, b, c) s' (ih _ _ _ _ k2) k3
    · intro s r s' h
      simp only [bind_ok_iff, Prod.exists] at h
      obtain ⟨e, s2, k1, a, b, hq2_1⟩ := h
      obtain ⟨c, s3, k2, x, y, hq2_2⟩ := hq2_1
      obtain ⟨z, s5, k5, _, s4, hq2_3⟩ := hq2_2
      obtain ⟨k3, k4⟩ := hq2_3
      cases k5
      cases k4
      obtain ⟨x, y, ex, ey, hxy, nx, ny⟩ := ih _ _ _ _ k2
      exact fin s3 (a, c, b) s' ⟨y, x, ey, ex, Ne.symm hxy, ny, nx⟩ k3
    · intro s r s' h
      simp only [bind_ok_iff, Prod.exists] at h
      obtain ⟨a, b, c, s3, k2, _, s4, k3, k4⟩ := h
      cases k4
      obtain ⟨lhs, rhs, fs, ft, ff, ss, st, sf, s1, s2, _, _, _, _, er, _, _, _, n1, n2, _⟩ :=
        cond_op_log_spec _ hb ih t _ _ _ k2
      cases er
      exact fin s3 _ s' ⟨_, _, rfl, rfl, by omega, n1, n2⟩ k3
    · intro s r s' h
      simp only [bind_ok_iff, Prod.exists] at h
      obtain ⟨a, b, c, s3, k2, _, s4, k3, k4⟩ := h
      cases k4
      obtain ⟨lhs, rhs, fs, ft, ff, ss, st, sf, s1, s2, _, _, _, _, er, _, _, _, n1, n2, _⟩ :=
        cond_op_log_spec _ hb ih t _ _ _ k2
      cases er
      exact fin s3 _ s' ⟨_, _, rfl, rfl, by omega, n1, n2⟩ k3
    · intro s r s' h
      simp only [bind_ok_iff, Prod.exists] at h
      obtain ⟨a, b, c, s3, k2, _, s4, k3, k4⟩ := h
      cases k4
      exact fin s3 (a, b, c) s' (cond_default_exits _ hcfg t _ _ _ k2) k3

theorem reach_two (s : CFG) (a c n : Nat) (ha : s.node_next a = [c]) (hc : s.node_next c = [])
    (h : Relation.ReflTransGen (has_succ s) a n) : n = a ∨ n = c := by
  rcases Relation.ReflTransGen.cases_head h with e | ⟨b, hb, hr⟩
  · exact Or.inl e.symm
  · have hb' : b = c := by
      unfold has_succ at hb
      rw [ha] at hb
      simpa using hb
    subst hb'
    rcases Relation.ReflTransGen.cases_head hr with e | ⟨d, hd, _⟩
    · exact Or.inr e.symm
    · unfold has_succ at hd
      rw [hc] at hd
      cases hd

/-- C11. For a condition `a && b` or `a || b`, `create_condition_cfg` builds the graph
of `a`, then that of `b`, then the overall true exit `rt` and false exit `rf`.  For
`&&` the only successor of the true exit of `a` is the start of `b` and the only
successor of the false exit of `a` is `rf`, so that no node created for `b` is reachable
from the false exit of `a`; for `||` the only successor of the false exit of `a` is the
start of `b` and the only successor of the true exit of `a` is `rt`, so that no node
created for `b` is reachable from the true exit of `a`. -/
theorem short_circuit_wiring (fuel : Nat) (t : Vertex) (s s' : CFG) (r : Node × Node × Node)
    (ht : t.type = Operation.op_log_and ∨ t.type = Operation.op_log_or)
    (h : create_condition_cfg (fuel + 1) t s = Except.ok (r, s')) :
    ∃ lhs rhs fs ft ff ss st sf s1 s2 rt rf,
      t.sons.get? 0 = some lhs ∧ t.sons.get? 1 = some rhs ∧
      create_condition_cfg fuel lhs s = Except.ok ((fs, some ft, some ff), s1) ∧
      create_condition_cfg fuel rhs s1 = Except.ok ((some ss, some st, some sf), s2) ∧
      r = (fs, some rt, some rf) ∧
      (t.type = Operation.op_log_and →
        s'.node_next ft = [ss] ∧ s'.node_next ff = [rf] ∧
        ∀ n, Relation.ReflTransGen (has_succ s') ff n → ¬ (s1.node_gen ≤ n ∧ n < s2.node_gen)) ∧
      (t.type = Operation.op_log_or →
        s'.node_next ff = [ss] ∧ s'.node_next ft = [rt] ∧
        ∀ n, Relation.ReflTransGen (has_succ s') ft n → ¬ (s1.node_gen ≤ n ∧ n < s2.node_gen)) := by
  have key : ∃ q s3, create_condition_cfg_op_log (create_condition_cfg fuel) t s =
      Except.ok (q, s3) ∧ add_subtree q.1 (new_subtree t false) s3 = Except.ok ((), s') ∧
      r = q := by
    unfold create_condition_cfg at h
    rcases ht with e | e
    · rw [e] at h
      simp only [bind_ok_iff, Prod.exists] at h
      obtain ⟨a, b, c, s3, k2, _, s4, k3, k4⟩ := h
      cases k4
      exact ⟨(a, b, c), s3, k2, k3, rfl⟩
    · rw [e] at h
      simp only [bind_ok_iff, Prod.exists] at h
      obtain ⟨a, b, c, s3, k2, _, s4, k3, k4⟩ := h
      cases k4
      exact ⟨(a, b, c), s3, k2, k3, rfl⟩
  obtain ⟨q, s3, k2, k3, rfl⟩ := key
  obtain ⟨lhs, rhs, fs, ft, ff, hq1_1⟩ := cond_op_log_spec _ (built_all fuel).2 (cond_exits fuel) t _ _ _ k2
  obtain ⟨ss, st, sf, s1, s2, hq1_2⟩ := hq1_1
  obtain ⟨g1, g2, c1, c2, er, hq1_3⟩ := hq1_2
  obtain ⟨eg, nt, nf, n1, n2, hq1_4⟩ := hq1_3
  obtain ⟨bt, bf, bs, hne⟩ := hq1_4
  obtain ⟨e1, _⟩ := add_subtree_next k3
  refine ⟨lhs, rhs, fs, ft, ff, ss, st, sf, s1, s2, s2.node_gen, s2.node_gen + 1, g1, g2, c1,
    c2, er, ?_, ?_⟩
  · intro hand
    have hor : ¬ t.type = Operation.op_log_or := by rw [hand]; decide
    rw [if_pos hand] at nt
    rw [if_neg hor] at nf
    refine ⟨by rw [e1]; exact nt, by rw [e1]; exact nf, ?_⟩
    intro n hn
    rcases reach_two s' ff (s2.node_gen + 1) n (by rw [e1]; exact nf) (by rw [e1]; exact n2) hn
      with e | e
    · omega
    · omega
  · intro hor
    have hand : ¬ t.type = Operation.op_log_and := by rw [hor]; decide
    rw [if_neg hand] at nt
    rw [if_pos hor] at nf
    refine ⟨by rw [e1]; exact nf, by rw [e1]; exact nt, ?_⟩
    intro n hn
    rcases reach_two s' ft s2.node_gen n (by rw [e1]; exact nt) (by rw [e1]; exact n1) hn
      with e | e
    · omega
    · omega

/-- Witness of C11: `$a && $b` built in the empty state: `$a` is node 0 with exits 1
and 2, `$b` is node 3 with exits 4 and 5, the overall exits are 6 and 7. -/
theorem short_circuit_wiring_witness :
    (sample_and.type = Operation.op_log_and ∨ sample_and.type = Operation.op_log_or) ∧
    run_result (create_condition_cfg 5 sample_and { data := mk_data sample_and ["a", "b"] }) =
      some (some 0, some 6, some 7) ∧
    ∃ ft ff ss,
      (state_after (create_condition_cfg 5 sample_and
        { data := mk_data sample_and ["a", "b"] })).node_next ft = [ss] ∧
      ∃ rf, (state_after (create_condition_cfg 5 sample_and
        { data := mk_data sample_and ["a", "b"] })).node_next ff = [rf] := by
  have h : run_result (create_condition_cfg 5 sample_and
      { data := mk_data sample_and ["a", "b"] }) = some (some 0, some 6, some 7) := by decide!
  obtain ⟨lhs, rhs, fs, ft, ff, ss, st, sf, s1, s2, rt, rf, _, _, _, _, _, hand, _⟩ :=
    short_circuit_wiring 4 sample_and _ _ _ (Or.inl rfl) (run_eq_of_result _ _ h)
  obtain ⟨q1, q2, _⟩ := hand rfl
  exact ⟨Or.inl rfl, h, ft, ff, ss, q1, rf, q2⟩

theorem has_nil (s : CFG) : Has [] s := by
  intro p hp
  cases hp

theorem has_add_edge {E : List (Node × Node)} {s s' : CFG} {a b : Node} (h : Has E s)
    (ha : NodeIn 0 s.node_gen a) (hr : add_edge a b s = Except.ok ((), s')) :
    Has (E ++ [(a, b)]) s' := by
  cases a with
  | none =>
    cases hr
    intro p hp u m e1 e2
    rcases List.mem_append.mp hp with q | q
    · exact h p q u m e1 e2
    · have : p = (none, b) := by simpa using q
      subst this
      cases e1
  | some x =>
    cases b with
    | none =>
      cases hr
      intro p hp u m e1 e2
      rcases List.mem_append.mp hp with q | q
      · exact h p q u m e1 e2
      · have : p = (some x, none) := by simpa using q
        subst this
        cases e2
    | some y =>
      unfold NodeIn at ha
      simp only [node_code_some] at ha
      obtain ⟨n1, g1⟩ := add_edge_next hr
      intro p hp u m e1 e2
      rw [g1, n1]
      rcases List.mem_append.mp hp with q | q
      · obtain ⟨q1, q2⟩ := h p q u m e1 e2
        refine ⟨q1, ?_⟩
        by_cases e : u = x
        · subst e
          rw [upd_same]
          exact List.mem_append_left _ q2
        · rw [upd_other _ _ _ _ e]
          exact q2
      · have : p = (some x, some y) := by simpa using q
        subst this
        cases e1
        cases e2
        refine ⟨by omega, ?_⟩
        rw [upd_same]
        simp

theorem has_add_edges_from {b : Node} (l : List Node) :
    ∀ {E : List (Node × Node)} {s s' : CFG}, Has E s → (∀ x ∈ l, NodeIn 0 s.node_gen x) →
    add_edges_from l b s = Except.ok ((), s') →
    Has (E ++ l.map fun x => (x, b)) s' ∧ s'.node_gen = s.node_gen := by
  induction l with
  | nil =>
    intro E s s' h _ hr
    cases hr
    simpa using h
  | cons x l ih =>
    intro E s s' h hl hr
    unfold add_edges_from at hr
    obtain ⟨u, s1, h1, h2⟩ := bind_ok_iff.mp hr
    have hx := hl x (List.mem_cons_self _ _)
    have g1 : s1.node_gen = s.node_gen := by
      cases x with
      | none => cases h1; rfl
      | some a =>
        cases b with
        | none => cases h1; rfl
        | some c => cases h1; rfl
    obtain ⟨m2, e2⟩ := ih (has_add_edge h hx h1)
      (fun y hy => by rw [g1]; exact hl y (List.mem_cons_of_mem _ hy)) h2
    refine ⟨?_, by omega⟩
    simpa using m2

theorem has_mid {E : List (Node × Node)} {s s' : CFG} (h : Has E s)
    (hm : Mid s.node_gen 0 0 s s') : Has E s' := by
  intro p hp u m e1 e2
  obtain ⟨q1, q2⟩ := h p hp u m e1 e2
  have := hm.le
  exact ⟨by omega, by rw [hm.next_below u q1]; exact q2⟩

theorem has_new_node {E : List (Node × Node)} {s s' : CFG} {r : Node} (h : Has E s)
    (hr : new_node s = Except.ok (r, s')) : Has E s' := by
  obtain ⟨_, n1, g1⟩ := new_node_next hr
  intro p hp u m e1 e2
  obtain ⟨q1, q2⟩ := h p hp u m e1 e2
  exact ⟨by omega, by rw [n1, upd_other _ _ _ _ (by omega)]; exact q2⟩

theorem has_nodeData {E : List (Node × Node)} {g : Nat} {s s' : CFG} (h : Has E s)
    (hd : NodeData g s s') : Has E s' := by
  obtain ⟨d1, d2, _⟩ := hd
  intro p hp u m e1 e2
  obtain ⟨q1, q2⟩ := h p hp u m e1 e2
  exact ⟨by omega, by rw [d2]; exact q2⟩

theorem has_frames {E : List (Node × Node)} {s s' : CFG} (h : Has E s)
    (h1 : s'.node_gen = s.node_gen) (h2 : s'.node_next = s.node_next) : Has E s' := by
  intro p hp u m e1 e2
  obtain ⟨q1, q2⟩ := h p hp u m e1 e2
  exact ⟨by omega, by rw [h2]; exact q2⟩

theorem has_edge_of_has {E : List (Node × Node)} {s : CFG} (h : Has E s) (a b : Node)
    (hp : (a, b) ∈ E) : has_edge s a b :=
  fun u m e1 e2 => (h (a, b) hp u m e1 e2).2

theorem nodeIn_zero {g G : Nat} {a : Node} (h : NodeIn g G a) : NodeIn 0 G a := by
  omega

theorem end_try_spec {E : List (Node × Node)} {g k j : Nat} {s0 s s' : CFG} {dst : Node}
    (hm : Mid g k (j + 1) s0 s) (h : Has E s)
    (hr : create_cfg_end_try dst s = Except.ok ((), s')) :
    ∃ frame, s.exception_nodes.getLast? = some frame ∧
      s'.exception_nodes = s.exception_nodes.dropLast ∧ s'.node_gen = s.node_gen ∧
      Has (E ++ frame.map fun x => (x, dst)) s' := by
  unfold create_cfg_end_try at hr
  simp only [bind_run, get_state_run] at hr
  cases hes : s.exception_nodes.getLast? with
  | none =>
    rw [hes] at hr
    cases hr
  | some es =>
    rw [hes] at hr
    have h2 : (add_edges_from es dst >>= fun _ =>
        modify_state fun s => { s with exception_nodes := s.exception_nodes.dropLast }) s =
        Except.ok ((), s') := hr
    simp only [bind_ok_iff] at h2
    obtain ⟨_, s3, h3, h5⟩ := h2
    obtain ⟨_, te⟩ := framesExt_pop hm.exc
    obtain ⟨q1, q2⟩ := has_add_edges_from es h (fun x hx => nodeIn_zero (te es hes x hx)) h3
    have hex : s3.exception_nodes = s.exception_nodes := by
      obtain ⟨s3', k1, k2, _⟩ := add_edges_from_run es dst s
      rw [k1] at h3
      cases h3
      unfold same_but_edges at k2
      rw [k2]
    cases h5
    exact ⟨es, rfl, by show s3.exception_nodes.dropLast = _; rw [hex], q2,
      has_frames q1 rfl rfl⟩

/-- What the rule of `op_try` builds. -/
theorem op_try_spec (cfg : Vertex → Bool → Bool → M (Node × Node)) (hcfg : CfgOk3 cfg)
    (t : Vertex) (s : CFG) (r : Node × Node) (s' : CFG)
    (hr : create_cfg_op_try cfg t s = Except.ok (r, s')) :
    ∃ try_cmd exception catch_cmd es ef s1 ts tf s2 frame s3 cs cf s4 fin,
      t.sons.get? 0 = some try_cmd ∧ t.sons.get? 1 = some exception ∧
      t.sons.get? 2 = some catch_cmd ∧
      cfg exception true false s = Except.ok ((es, ef), s1) ∧
      cfg try_cmd false false { s1 with exception_nodes := s1.exception_nodes ++ [[]] } =
        Except.ok ((ts, tf), s2) ∧
      s2.exception_nodes.getLast? = some frame ∧
      create_cfg_end_try es s2 = Except.ok ((), s3) ∧
      s3.exception_nodes = s2.exception_nodes.dropLast ∧
      s3.exception_nodes.length = s.exception_nodes.length ∧
      cfg catch_cmd false false s3 = Except.ok ((cs, cf), s4) ∧
      r = (ts, some fin) ∧ s'.node_gen = fin + 1 ∧
      (∀ x ∈ frame, has_edge s' x es) ∧ has_edge s' ef cs ∧ has_edge s' tf (some fin) ∧
      has_edge s' cf (some fin) := by
  simp only [create_cfg_op_try, bind_ok_iff, Prod.exists] at hr
  obtain ⟨tc, t1, k1, ex, t2, hq1_1⟩ := hr
  obtain ⟨k2, cc, t3, k3, es, hq1_2⟩ := hq1_1
  obtain ⟨ef, s4, h4, _, s5, hq1_3⟩ := hq1_2
  obtain ⟨h5, ts, tf, s6, h6, hq1_4⟩ := hq1_3
  obtain ⟨_, s7, h7, cs, cf, hq1_5⟩ := hq1_4
  obtain ⟨s8, h8, _, s9, h9, hq1_6⟩ := hq1_5
  obtain ⟨fin, s10, h10, _, s11, hq1_7⟩ := hq1_6
  obtain ⟨h11, _, s12, h12, _, hq1_8⟩ := hq1_7
  obtain ⟨s13, h13, _, s14, h14, h15⟩ := hq1_8
  obtain ⟨rfl, g1⟩ := son_get k1
  obtain ⟨rfl, g2⟩ := son_get k2
  obtain ⟨rfl, g3⟩ := son_get k3
  obtain ⟨m4, es1, es2, ef1, l4, _⟩ := mid_built (mid_refl _) (hcfg _ _ _ _ _ _ h4)
  obtain ⟨m5, e5⟩ := mid_begin_try m4 h5
  have hs5 : s5 = { s4 with exception_nodes := s4.exception_nodes ++ [[]] } := by
    cases h5
    rfl
  obtain ⟨m6, ts1, ts2, tf1, l6, _⟩ := mid_built m5 (hcfg _ _ _ _ _ _ h6)
  obtain ⟨m7, e7⟩ := mid_end_try m6 (by omega) h7
  obtain ⟨frame, f1, f2, f3, f4⟩ := end_try_spec m6 (has_nil s6) h7
  obtain ⟨m8, cs1, cs2, cf1, l8, _⟩ := mid_built m7 (hcfg _ _ _ _ _ _ h8)
  have x8 := has_mid f4 (hcfg _ _ _ _ _ _ h8).1
  have x9 := has_add_edge x8 (by omega) h9
  obtain ⟨m9, e9⟩ := mid_add_edge m8 (by omega) (by omega) h9
  have x10 := has_new_node x9 h10
  obtain ⟨m10, fin1, e10⟩ := mid_new_node m9 h10
  obtain ⟨rfl, _, _⟩ := new_node_next h10
  have x11 := has_add_edge x10 (by omega) h11
  obtain ⟨m11, e11⟩ := mid_add_edge m10 (by omega) (by omega) h11
  have x12 := has_add_edge x11 (by omega) h12
  obtain ⟨m12, e12⟩ := mid_add_edge m11 (by omega) (by omega) h12
  have d13 := (add_subtree_nodeData 0 es _ (by omega)).run _ _ _ h13
  have x13 := has_nodeData x12 d13
  have d14 := (add_subtree_nodeData 0 cs _ (by omega)).run _ _ _ h14
  have x14 := has_nodeData x13 d14
  cases h15
  have hlen : s7.exception_nodes.length = t3.exception_nodes.length := by
    have := m7.exc.1
    omega
  refine ⟨tc, ex, cc, es, ef, s4, ts, tf, s6, frame, s7, cs, cf, s8, s9.node_gen, g1, g2, g3, h4,
    by rw [← hs5]; exact h6, f1, h7, f2, hlen, h8, rfl, ?_, ?_, ?_, ?_, ?_⟩
  · rw [d14.1, d13.1]
    omega
  · intro x hx
    refine has_edge_of_has x14 x es ?_
    apply List.mem_append_left
    apply List.mem_append_left
    apply List.mem_append_left
    apply List.mem_append_right
    exact List.mem_map.mpr ⟨x, hx, rfl⟩
  · exact has_edge_of_has x14 ef cs (by simp)
  · exact has_edge_of_has x14 tf _ (by simp)
  · exact has_edge_of_has x14 cf _ (by simp)

/-- C18 (amended). For a try/catch, `create_cfg` builds the graph of the exception
variable, pushes a try frame, builds the try body, and closes the frame: every escape
point collected in that frame gets an edge to the start of the graph of the exception
variable, and the frame is removed, so that the catch body is built with the stack of
the enclosing try frames.  The finish of the exception variable has an edge to the
start of the catch body, and the finish of the try body and the finish of the catch
body both have an edge to the finish node of the construct. -/
theorem try_catch_wiring (fuel : Nat) (t : Vertex) (w ww : Bool) (s s' : CFG) (a b : Node)
    (ht : t.type = Operation.op_try)
    (h : create_cfg (fuel + 1) t w ww s = Except.ok ((a, b), s')) :
    ∃ try_cmd exception catch_cmd es ef s1 tf s2 frame s3 cs cf s4 fin,
      t.sons.get? 0 = some try_cmd ∧ t.sons.get? 1 = some exception ∧
      t.sons.get? 2 = some catch_cmd ∧
      create_cfg fuel exception true false s = Except.ok ((es, ef), s1) ∧
      create_cfg fuel try_cmd false false
        { s1 with exception_nodes := s1.exception_nodes ++ [[]] } = Except.ok ((a, tf), s2) ∧
      s2.exception_nodes.getLast? = some frame ∧
      create_cfg_end_try es s2 = Except.ok ((), s3) ∧
      s3.exception_nodes = s2.exception_nodes.dropLast ∧
      s3.exception_nodes.length = s.exception_nodes.length ∧
      create_cfg fuel catch_cmd false false s3 = Except.ok ((cs, cf), s4) ∧
      b = some fin ∧
      (∀ x ∈ frame, has_edge s' x es) ∧ has_edge s' ef cs ∧ has_edge s' tf b ∧
      has_edge s' cf b := by
  unfold create_cfg at h
  rw [ht] at h
  obtain ⟨r0, s5, h1, h2⟩ := bind_ok_iff.mp h
  have e := create_cfg_finish_result _ _ _ _ _ _ h2
  subst e
  simp only [create_cfg_finish, bind_ok_iff] at h2
  obtain ⟨_, s6, h3, h4⟩ := h2
  cases h4
  obtain ⟨n1, _⟩ := add_subtree_next h3
  obtain ⟨tc, ex, cc, es, ef, hq1_1⟩ := op_try_spec _ (built_all fuel).1 t _ _ _ h1
  obtain ⟨s1, ts, tf, s2, frame, hq1_2⟩ := hq1_1
  obtain ⟨s3, cs, cf, s4, fin, hq1_3⟩ := hq1_2
  obtain ⟨g1, g2, g3, c1, c2, hq1_4⟩ := hq1_3
  obtain ⟨f1, c3, f2, f3, c4, hq1_5⟩ := hq1_4
  obtain ⟨er, _, w1, w2, w3, w4⟩ := hq1_5
  cases er
  refine ⟨tc, ex, cc, es, ef, s1, tf, s2, frame, s3, cs, cf, s4, fin, g1, g2, g3, c1, c2, f1, c3,
    f2, f3, c4, rfl, ?_, ?_, ?_, ?_⟩
  · intro x hx u m e1 e2
    rw [n1]
    exact w1 x hx u m e1 e2
  · intro u m e1 e2
    rw [n1]
    exact w2 u m e1 e2
  · intro u m e1 e2
    rw [n1]
    exact w3 u m e1 e2
  · intro u m e1 e2
    rw [n1]
    exact w4 u m e1 e2

/-- Counterexample to C18 as stated: in `sample_try` the escape point is node 1 (the
call of `f`), the exception variable is node 0 and the catch body starts at node 2;
the successors of the escape point are the node of the exception variable and the
finish of the construct, not the start of the catch body. -/
theorem escape_point_not_wired_to_catch_body :
    run_result (create_cfg 6 sample_try false false { data := mk_data sample_try ["e"] }) =
      some (some 1, some 6) ∧
    marker_ids (state_after (create_cfg 6 sample_try false false
      { data := mk_data sample_try ["e"] })) 1 = [3, 2, 1] ∧
    marker_ids (state_after (create_cfg 6 sample_try false false
      { data := mk_data sample_try ["e"] })) 0 = [4, 4] ∧
    marker_ids (state_after (create_cfg 6 sample_try false false
      { data := mk_data sample_try ["e"] })) 2 = [6, 5, 5] ∧
    (state_after (create_cfg 6 sample_try false false
      { data := mk_data sample_try ["e"] })).node_next 1 = [0, 6] ∧
    ¬ (2 ∈ (state_after (create_cfg 6 sample_try false false
      { data := mk_data sample_try ["e"] })).node_next 1) := by
  refine ⟨by decide!, by decide!, by decide!, by decide!, by decide!, by decide!⟩

/-- Witness of C18 (amended): `sample_try` built in a state without try frames. -/
theorem try_catch_wiring_witness :
    sample_try.type = Operation.op_try ∧
    run_result (create_cfg 6 sample_try false false { data := mk_data sample_try ["e"] }) =
      some (some 1, some 6) ∧
    ∃ es ef cs tf cf,
      has_edge (state_after (create_cfg 6 sample_try false false
        { data := mk_data sample_try ["e"] })) ef cs ∧
      has_edge (state_after (create_cfg 6 sample_try false false
        { data := mk_data sample_try ["e"] })) tf (some 6) ∧
      has_edge (state_after (create_cfg 6 sample_try false false
        { data := mk_data sample_try ["e"] })) cf (some 6) ∧
      ∃ s1, create_cfg 5 (mk_var 4 0) true false { data := mk_data sample_try ["e"] } =
        Except.ok ((es, ef), s1) := by
  have h : run_result (create_cfg 6 sample_try false false
      { data := mk_data sample_try ["e"] }) = some (some 1, some 6) := by decide!
  obtain ⟨tc, ex, cc, es, ef, hq2_1⟩ := try_catch_wiring 5 sample_try false false _ _ (some 1) (some 6)
    rfl (run_eq_of_result _ _ h)
  obtain ⟨s1, tf, s2, frame, s3, hq2_2⟩ := hq2_1
  obtain ⟨cs, cf, s4, fin, g1, hq2_3⟩ := hq2_2
  obtain ⟨g2, g3, c1, _, _, hq2_4⟩ := hq2_3
  obtain ⟨_, _, _, _, _, hq2_5⟩ := hq2_4
  obtain ⟨_, w2, w3, w4⟩ := hq2_5
  have e : ex = mk_var 4 0 := by
    have : sample_try.sons.get? 1 = some (mk_var 4 0) := rfl
    rw [this] at g2
    cases g2
    rfl
  subst e
  exact ⟨rfl, h, es, ef, cs, tf, cf, w2, w3, w4, s1, c1⟩

theorem digitChar_value (n : Nat) (h : n < 10) : (Nat.digitChar n).toNat - 48 = n := by
  interval_cases n <;> rfl

theorem toDigitsCore_value (fuel : Nat) : ∀ (n : Nat) (ds : List Char), n < fuel →
    digits_value 0 (Nat.toDigitsCore 10 fuel n ds) = digits_value n ds := by
  induction fuel with
  | zero => intro n ds h; omega
  | succ fuel ih =>
    intro n ds h
    unfold Nat.toDigitsCore
    dsimp only
    by_cases hz : n / 10 = 0
    · rw [if_pos hz]
      have : n < 10 := by omega
      simp only [digits_value, List.foldl_cons, digitChar_value (n % 10) (Nat.mod_lt _ (by omega))]
      congr 1
      omega
    · rw [if_neg hz]
      rw [ih (n / 10) _ (by omega)]
      simp only [digits_value, List.foldl_cons, digitChar_value (n % 10) (Nat.mod_lt _ (by omega))]
      congr 1
      omega

theorem nat_repr_injective (a b : Nat) (h : Nat.repr a = Nat.repr b) : a = b := by
  have h1 : Nat.toDigits 10 a = Nat.toDigits 10 b := by
    have := congrArg String.data h
    simpa [Nat.repr, List.asString] using this
  have ha := toDigitsCore_value (a + 1) a [] (by omega)
  have hb := toDigitsCore_value (b + 1) b [] (by omega)
  unfold Nat.toDigits at h1
  rw [h1] at ha
  rw [ha] at hb
  simpa [digits_value] using hb

theorem string_append_left_cancel (a b c : String) (h : a ++ b = a ++ c) : b = c := by
  have := congrArg String.data h
  simp only [String.data_append, List.append_cancel_left_eq] at this
  exact String.ext this

theorem split_name_injective (name : String) (i j : Nat) (h : split_name name i = split_name name j) :
    i = j := by
  unfold split_name at h
  by_cases hi : i = 0
  · by_cases hj : j = 0
    · omega
    · rw [if_neg (by simpa using hi), if_pos hj] at h
      have := congrArg String.length h
      simp [String.length_append] at this
      have h2 : ("$v" : String).length = 2 := by decide
      omega
  · by_cases hj : j = 0
    · rw [if_pos hi, if_neg (by simpa using hj)] at h
      have := congrArg String.length h
      simp [String.length_append] at this
      have h2 : ("$v" : String).length = 2 := by decide
      omega
    · rw [if_pos hi, if_pos hj] at h
      rw [String.append_assoc, String.append_assoc] at h
      have h1 := string_append_left_cancel _ _ _ h
      have h2 := string_append_left_cancel _ _ _ h1
      exact nat_repr_injective i j h2

theorem split_var_loop_spec (vd : VarData) (parts : List (List Vertex)) :
    ∀ (i : Nat) (d d' : CFGData), split_var_loop vd parts i d = Except.ok d' →
    d' = { d with
      vars := d.vars ++ split_entries d.root vd parts i
      rebound := split_rebound d.rebound d.vars.length parts
      param_ids := split_params d.param_ids vd.param_i.toNat d.vars.length
        (parts.map (is_param_part d.root vd))
      local_var_ids := d.local_var_ids ++
        split_locals d.vars.length (parts.map (is_param_part d.root vd)) } := by
  induction parts with
  | nil =>
    intro i d d' h
    cases h
    simp [split_entries, split_rebound, split_params, split_locals]
  | cons part rest ih =>
    intro i d d' h
    unfold split_var_loop at h
    dsimp only at h
    by_cases hl : vd.type = VarType.var_local_t
    · rw [if_pos hl] at h
      have hnp : ∀ q, is_param_part d.root vd q = false := by
        intro q
        simp [is_param_part, hl]
      have := ih _ _ _ h
      rw [this]
      simp [split_entries, split_rebound, split_params, split_locals, hnp, is_param_part, hl,
        split_name, param_var_id]
    · rw [if_neg hl] at h
      by_cases hp : vd.type = VarType.var_param_t
      · rw [if_pos hp] at h
        cases e1 : (get_function_params d.root).get? vd.param_i.toNat with
        | none => rw [e1] at h; cases h
        | some param =>
          rw [e1] at h
          dsimp only at h
          cases e2 : param.sons.head? with
          | none => rw [e2] at h; cases h
          | some pv =>
            rw [e2] at h
            dsimp only at h
            by_cases hneg : vd.param_i < 0
            · rw [if_pos hneg] at h
              cases h
            · rw [if_neg hneg] at h
              have hid : param_var_id d.root vd = some pv.id := by
                unfold param_var_id
                rw [e1]
                dsimp only
                rw [e2]
                rfl
              by_cases hc : (part.any fun v => v.id == pv.id) = true
              · rw [if_pos hc] at h
                have := ih _ _ _ h
                rw [this]
                simp [split_entries, split_rebound, split_params, split_locals, is_param_part, hp,
                  hid, hc, split_name]
              · rw [if_neg hc] at h
                have := ih _ _ _ h
                rw [this]
                simp [split_entries, split_rebound, split_params, split_locals, is_param_part, hp,
                  hid, hc, split_name]
      · rw [if_neg hp] at h
        cases h

theorem split_entries_length (root : Vertex) (vd : VarData) (parts : List (List Vertex)) :
    ∀ i, (split_entries root vd parts i).length = parts.length := by
  induction parts with
  | nil => intro i; rfl
  | cons p rest ih => intro i; simp [split_entries, ih]

theorem split_entries_get (root : Vertex) (vd : VarData) (parts : List (List Vertex)) :
    ∀ (i m : Nat) (part : List Vertex), parts[m]? = some part →
    (split_entries root vd parts i)[m]? = some
      (if is_param_part root vd part then
        { name := split_name vd.name (i + m), type := VarType.var_param_t, param_i := vd.param_i }
      else { name := split_name vd.name (i + m), type := VarType.var_local_t }) := by
  induction parts with
  | nil => intro i m part h; simp at h
  | cons p rest ih =>
    intro i m part h
    cases m with
    | zero =>
      simp at h
      subst h
      simp [split_entries]
    | succ m =>
      simp at h
      have := ih (i + 1) m part h
      simp only [split_entries, List.getElem?_cons_succ]
      rw [this]
      have e : i + 1 + m = i + (m + 1) := by omega
      rw [e]

theorem split_rebound_none (a : Nat) (parts : List (List Vertex)) :
    ∀ (rb : Nat → Option VarPtr) (base : Nat),
    (∀ part ∈ parts, (part.any fun v => v.id == a) = false) →
    split_rebound rb base parts a = rb a := by
  induction parts with
  | nil => intro rb base _; rfl
  | cons p rest ih =>
    intro rb base h
    simp only [split_rebound]
    rw [ih _ _ (fun q hq => h q (List.mem_cons_of_mem _ hq))]
    have := h p (List.mem_cons_self _ _)
    simp only [this]
    rfl

theorem split_rebound_some (a : Nat) (parts : List (List Vertex)) :
    ∀ (rb : Nat → Option VarPtr) (base m : Nat) (part : List Vertex),
    parts[m]? = some part → (part.any fun v => v.id == a) = true →
    (∀ j q, m < j → parts[j]? = some q → (q.any fun v => v.id == a) = false) →
    split_rebound rb base parts a = some (base + m) := by
  induction parts with
  | nil => intro rb base m part h; simp at h
  | cons p rest ih =>
    intro rb base m part h ha hl
    cases m with
    | zero =>
      simp at h
      subst h
      simp only [split_rebound]
      rw [split_rebound_none]
      · simp only [ha]
        rfl
      · intro q hq
        obtain ⟨j, hj⟩ := List.getElem?_of_mem hq
        exact hl (j + 1) q (by omega) (by simpa using hj)
    | succ m =>
      simp at h
      simp only [split_rebound]
      rw [ih _ (base + 1) m part h ha]
      · congr 1
        omega
      · intro j q hj hq
        exact hl (j + 1) q (by omega) (by simpa using hq)

theorem split_params_length (p : Nat) (flags : List Bool) :
    ∀ (pids : List VarPtr) (base : Nat), (split_params pids p base flags).length = pids.length := by
  induction flags with
  | nil => intro pids base; rfl
  | cons f fs ih =>
    intro pids base
    simp only [split_params]
    rw [ih]
    split <;> simp

theorem split_params_other (p q : Nat) (hq : q ≠ p) (flags : List Bool) :
    ∀ (pids : List VarPtr) (base : Nat), (split_params pids p base flags)[q]? = pids[q]? := by
  induction flags with
  | nil => intro pids base; rfl
  | cons f fs ih =>
    intro pids base
    simp only [split_params]
    rw [ih]
    split
    · rw [List.getElem?_set_ne (Ne.symm hq)]
    · rfl

theorem split_params_none (p : Nat) (flags : List Bool) :
    ∀ (pids : List VarPtr) (base : Nat), (∀ f ∈ flags, f = false) →
    split_params pids p base flags = pids := by
  induction flags with
  | nil => intro pids base _; rfl
  | cons f fs ih =>
    intro pids base h
    simp only [split_params]
    rw [ih _ _ (fun g hg => h g (List.mem_cons_of_mem _ hg))]
    have := h f (List.mem_cons_self _ _)
    simp [this]

theorem split_params_slot (p : Nat) (flags : List Bool) :
    ∀ (pids : List VarPtr) (base m : Nat), p < pids.length →
    flags[m]? = some true → (∀ j, m < j → flags[j]? ≠ some true) →
    (split_params pids p base flags)[p]? = some (base + m) := by
  induction flags with
  | nil => intro pids base m _ h; simp at h
  | cons f fs ih =>
    intro pids base m hp h hl
    cases m with
    | zero =>
      simp at h
      subst h
      simp only [split_params]
      rw [split_params_none]
      · simp [hp]
      · intro g hg
        obtain ⟨j, hj⟩ := List.getElem?_of_mem hg
        have := hl (j + 1) (by omega)
        simp only [List.getElem?_cons_succ] at this
        cases g with
        | false => rfl
        | true => exact absurd hj this
    | succ m =>
      simp at h
      simp only [split_params]
      rw [ih _ (base + 1) m _ h]
      · congr 1
        omega
      · intro j hj
        have := hl (j + 1) (by omega)
        simpa using this
      · split <;> simp [hp]

theorem split_locals_mem (flags : List Bool) :
    ∀ (base x : Nat), x ∈ split_locals base flags ↔
      ∃ m, x = base + m ∧ flags[m]? = some false := by
  induction flags with
  | nil => intro base x; simp [split_locals]
  | cons f fs ih =>
    intro base x
    simp only [split_locals, List.mem_append, ih]
    constructor
    · rintro (h | ⟨m, rfl, hm⟩)
      · cases f with
        | true => simp at h
        | false =>
          simp at h
          exact ⟨0, by omega, by simp⟩
      · exact ⟨m + 1, by omega, by simpa using hm⟩
    · rintro ⟨m, rfl, hm⟩
      cases m with
      | zero =>
        simp at hm
        subst hm
        left
        simp
      | succ m =>
        right
        exact ⟨m, by omega, by simpa using hm⟩

theorem split_var_loop_ok (vd : VarData) (root : Vertex)
    (h : vd.type = VarType.var_local_t ∨
      (vd.type = VarType.var_param_t ∧ 0 ≤ vd.param_i ∧ (param_var_id root vd).isSome = true))
    (parts : List (List Vertex)) :
    ∀ (i : Nat) (d : CFGData), d.root = root → ∃ d', split_var_loop vd parts i d = Except.ok d' := by
  induction parts with
  | nil => intro i d _; exact ⟨d, rfl⟩
  | cons part rest ih =>
    intro i d hd
    unfold split_var_loop
    dsimp only
    rcases h with hl | ⟨hp, hi, hs⟩
    · rw [if_pos hl]
      exact ih _ _ hd
    · have hl : ¬ vd.type = VarType.var_local_t := by rw [hp]; decide
      rw [if_neg hl, if_pos hp]
      unfold param_var_id at hs
      rw [← hd] at hs
      cases e1 : (get_function_params d.root).get? vd.param_i.toNat with
      | none => rw [e1] at hs; cases hs
      | some param =>
        rw [e1] at hs
        dsimp only at hs ⊢
        cases e2 : param.sons.head? with
        | none => rw [e2] at hs; cases hs
        | some pv =>
          dsimp only
          rw [if_neg (by omega)]
          split
          · exact ih _ _ hd
          · exact ih _ _ hd

theorem split_var_run (d : CFGData) (var : VarPtr) (vd : VarData) (parts : List (List Vertex))
    (hv : d.vars.get? var = some vd) (hk : 2 ≤ parts.length) (hr : split_ready d var vd) :
    ∃ d', d.split_var var parts = Except.ok d' ∧
      d'.vars = d.vars ++ split_entries d.root vd parts 0 ∧
      d'.rebound = split_rebound d.rebound d.vars.length parts ∧
      d'.param_ids = split_params d.param_ids vd.param_i.toNat d.vars.length
        (parts.map (is_param_part d.root vd)) ∧
      d'.local_var_ids = (if vd.type = VarType.var_local_t then
        (d.local_var_ids ++
          split_locals d.vars.length (parts.map (is_param_part d.root vd))).erase var
        else d.local_var_ids ++
          split_locals d.vars.length (parts.map (is_param_part d.root vd))) := by
  have hready : vd.type = VarType.var_local_t ∨
      (vd.type = VarType.var_param_t ∧ 0 ≤ vd.param_i ∧
        (param_var_id d.root vd).isSome = true) := by
    rcases hr with ⟨a, _⟩ | b
    · exact Or.inl a
    · exact Or.inr b
  obtain ⟨d1, h1⟩ := split_var_loop_ok vd d.root hready parts 0 d rfl
  have hd1 := split_var_loop_spec vd parts 0 d d1 h1
  unfold CFGData.split_var
  rw [hv]
  dsimp only
  have ht : vd.type = VarType.var_local_t ∨ vd.type = VarType.var_param_t := by
    rcases hready with a | ⟨b, _⟩
    · exact Or.inl a
    · exact Or.inr b
  rw [if_neg (not_not.mpr ht), if_neg (by omega), if_neg (by omega), h1]
  dsimp only
  by_cases hl : vd.type = VarType.var_local_t
  · rw [if_pos hl]
    have hmem : var ∈ d1.local_var_ids := by
      rw [hd1]
      rcases hr with ⟨_, m⟩ | ⟨b, _⟩
      · exact List.mem_append_left _ m
      · rw [hl] at b; cases b
    rw [if_pos hmem]
    refine ⟨_, rfl, ?_, ?_, ?_, ?_⟩
    · rw [hd1]
    · rw [hd1]
    · rw [hd1]
    · rw [if_pos hl, hd1]
  · rw [if_neg hl]
    refine ⟨_, rfl, ?_, ?_, ?_, ?_⟩
    · rw [hd1]
    · rw [hd1]
    · rw [hd1]
    · rw [if_neg hl, hd1]

/-- C14. When `split_var` is called with `k ≥ 2` parts for a variable named `name` (a local
of the table of locals, or a parameter whose index names a parameter of the function), it
succeeds and appends exactly `k` new variables to the variable table; the `i`-th is named
`name` for `i = 0` and `name$v<i>` with `i` in decimal otherwise, and these names are
pairwise distinct; every occurrence listed in part `i` (and in no later part, as is the
case for all parts when they are disjoint) is bound afterwards to the `i`-th new variable,
and an occurrence listed in no part keeps its binding. -/
theorem split_naming_and_rebinding (d : CFGData) (var : VarPtr) (vd : VarData)
    (parts : List (List Vertex))
    (hv : d.vars.get? var = some vd) (hk : 2 ≤ parts.length) (hr : split_ready d var vd) :
    ∃ d' new_vars, d.split_var var parts = Except.ok d' ∧
      d'.vars = d.vars ++ new_vars ∧ new_vars.length = parts.length ∧
      (∀ i, i < parts.length → ∃ e, new_vars[i]? = some e ∧
        e.name = if i = 0 then vd.name else vd.name ++ "$v" ++ toString i) ∧
      (∀ (i j : Nat) (x y : VarData), new_vars[i]? = some x → new_vars[j]? = some y → x.name = y.name → i = j) ∧
      (∀ i part v, parts[i]? = some part → v ∈ part →
        (∀ j q, i < j → parts[j]? = some q → ∀ w ∈ q, w.id ≠ v.id) →
        d'.get_var_id v = some (d.vars.length + i)) ∧
      (∀ v, (∀ q ∈ parts, ∀ w ∈ q, w.id ≠ v.id) → d'.get_var_id v = d.get_var_id v) := by
  obtain ⟨d', h, hvars, hreb, _, _⟩ := split_var_run d var vd parts hv hk hr
  have hname : ∀ i e, (split_entries d.root vd parts 0)[i]? = some e →
      e.name = split_name vd.name i := by
    intro i e he
    have hi : i < parts.length := by
      rw [← split_entries_length d.root vd parts 0]
      exact (List.getElem?_eq_some_iff.mp he).1
    have hp : parts[i]? = some parts[i] := List.getElem?_eq_getElem hi
    rw [split_entries_get d.root vd parts 0 i _ hp] at he
    cases he
    rw [Nat.zero_add]
    split <;> rfl
  refine ⟨d', split_entries d.root vd parts 0, h, hvars, split_entries_length _ _ _ _,
    ?_, ?_, ?_, ?_⟩
  · intro i hi
    have hp : parts[i]? = some parts[i] := List.getElem?_eq_getElem hi
    refine ⟨_, split_entries_get d.root vd parts 0 i _ hp, ?_⟩
    rw [Nat.zero_add]
    have : ∀ b : Bool, (if b then
        ({ name := split_name vd.name i, type := VarType.var_param_t,
           param_i := vd.param_i } : VarData)
        else { name := split_name vd.name i, type := VarType.var_local_t }).name =
        split_name vd.name i := by
      intro b
      cases b <;> rfl
    rw [this]
    unfold split_name
    by_cases h0 : i = 0
    · rw [if_pos h0, if_neg (not_not.mpr h0)]
    · rw [if_neg h0, if_pos h0]
  · intro i j x y hx hy hxy
    rw [hname i x hx, hname j y hy] at hxy
    exact split_name_injective _ _ _ hxy
  · intro i part v hp hvp hlater
    unfold CFGData.get_var_id
    rw [hreb, split_rebound_some v.id parts d.rebound d.vars.length i part hp]
    · exact List.any_eq_true.mpr ⟨v, hvp, by simp⟩
    · intro j q hj hq
      rw [Bool.eq_false_iff]
      intro hc
      obtain ⟨w, hw, hwv⟩ := List.any_eq_true.mp hc
      exact hlater j q hj hq w hw (by simpa using hwv)
  · intro v hno
    unfold CFGData.get_var_id
    rw [hreb, split_rebound_none v.id parts]
    intro q hq
    rw [Bool.eq_false_iff]
    intro hc
    obtain ⟨w, hw, hwv⟩ := List.any_eq_true.mp hc
    exact hno q hq w hw (by simpa using hwv)

/-- Witness of C14: the local `x` split into two parts. -/
theorem split_naming_and_rebinding_witness :
    sample_split_data.vars.get? 0 = some { name := "x", type := VarType.var_local_t } ∧
    2 ≤ sample_split_parts.length ∧
    split_ready sample_split_data 0 { name := "x", type := VarType.var_local_t } ∧
    ∃ d' new_vars, sample_split_data.split_var 0 sample_split_parts = Except.ok d' ∧
      d'.vars = sample_split_data.vars ++ new_vars ∧
      new_vars.length = sample_split_parts.length ∧
      (∀ i, i < sample_split_parts.length → ∃ e, new_vars[i]? = some e ∧
        e.name = if i = 0 then "x" else "x" ++ "$v" ++ toString i) ∧
      (∀ (i j : Nat) (x y : VarData), new_vars[i]? = some x → new_vars[j]? = some y → x.name = y.name → i = j) ∧
      (∀ i part v, sample_split_parts[i]? = some part → v ∈ part →
        (∀ j q, i < j → sample_split_parts[j]? = some q → ∀ w ∈ q, w.id ≠ v.id) →
        d'.get_var_id v = some (sample_split_data.vars.length + i)) ∧
      (∀ v, (∀ q ∈ sample_split_parts, ∀ w ∈ q, w.id ≠ v.id) →
        d'.get_var_id v = sample_split_data.get_var_id v) :=
  ⟨by decide, by decide, Or.inl ⟨by decide, by decide⟩,
    split_naming_and_rebinding sample_split_data 0 { name := "x", type := VarType.var_local_t }
      sample_split_parts (by decide) (by decide) (Or.inl ⟨by decide, by decide⟩)⟩

theorem contains_iff (part : List Vertex) (a : Nat) :
    (part.any fun v => v.id == a) = true ↔ ∃ v ∈ part, v.id = a := by
  simp [List.any_eq_true]

theorem is_param_part_iff (root : Vertex) (vd : VarData) (a : Nat) (part : List Vertex)
    (ht : vd.type = VarType.var_param_t) (ha : param_var_id root vd = some a) :
    is_param_part root vd part = true ↔ ∃ v ∈ part, v.id = a := by
  unfold is_param_part
  rw [ha]
  simp [ht]

/-- C15. When a parameter variable with positional index `p`, held in slot `p` of the
parameter table, is split into pairwise disjoint parts, `split_var` succeeds, and the new
variable of part `i` is a parameter with index `p` installed in slot `p` of the parameter
table if the part contains the parameter-binding occurrence, and otherwise a local that
is appended to the table of locals and is not in slot `p`; the table of locals grows by
exactly the new variables of the parts without the parameter-binding occurrence; at most
one new variable is a parameter; the parameter table keeps its length and every slot
other than `p`. -/
theorem param_slot_on_split (d : CFGData) (var : VarPtr) (vd : VarData)
    (parts : List (List Vertex)) (a : Nat)
    (hv : d.vars.get? var = some vd) (hk : 2 ≤ parts.length)
    (ht : vd.type = VarType.var_param_t) (hi : 0 ≤ vd.param_i)
    (ha : param_var_id d.root vd = some a)
    (hslot : d.param_ids[vd.param_i.toNat]? = some var)
    (hdisj : parts.Pairwise fun p q => ∀ v ∈ p, ∀ w ∈ q, v.id ≠ w.id) :
    ∃ d', d.split_var var parts = Except.ok d' ∧
      (∀ i part, parts[i]? = some part → ∃ e, d'.vars[d.vars.length + i]? = some e ∧
        ((∃ v ∈ part, v.id = a) →
          e.type = VarType.var_param_t ∧ e.param_i = vd.param_i ∧
          d'.param_ids[vd.param_i.toNat]? = some (d.vars.length + i)) ∧
        ((¬ ∃ v ∈ part, v.id = a) →
          e.type = VarType.var_local_t ∧ d.vars.length + i ∈ d'.local_var_ids ∧
          d'.param_ids[vd.param_i.toNat]? ≠ some (d.vars.length + i))) ∧
      (∃ locs, d'.local_var_ids = d.local_var_ids ++ locs ∧
        ∀ x, x ∈ locs ↔ ∃ i part, x = d.vars.length + i ∧ parts[i]? = some part ∧
          ¬ ∃ v ∈ part, v.id = a) ∧
      (∀ (i j : Nat) (x y : VarData), i < parts.length → j < parts.length →
        d'.vars[d.vars.length + i]? = some x → d'.vars[d.vars.length + j]? = some y →
        x.type = VarType.var_param_t → y.type = VarType.var_param_t → i = j) ∧
      d'.param_ids.length = d.param_ids.length ∧
      (∀ q, q ≠ vd.param_i.toNat → d'.param_ids[q]? = d.param_ids[q]?) := by
  have hs : (param_var_id d.root vd).isSome = true := by rw [ha]; rfl
  obtain ⟨d', h, hvars, _, hpar, hloc⟩ :=
    split_var_run d var vd parts hv hk (Or.inr ⟨ht, hi, hs⟩)
  have hnl : ¬ vd.type = VarType.var_local_t := by rw [ht]; decide
  rw [if_neg hnl] at hloc
  have hvar : var < d.vars.length := by
    rw [List.get?_eq_getElem?] at hv
    exact (List.getElem?_eq_some_iff.mp hv).1
  have hplen : vd.param_i.toNat < d.param_ids.length :=
    (List.getElem?_eq_some_iff.mp hslot).1
  -- a part with the parameter-binding occurrence is the only one
  have honly : ∀ (i j : Nat) (p q : List Vertex), parts[i]? = some p → parts[j]? = some q →
      (∃ v ∈ p, v.id = a) → (∃ v ∈ q, v.id = a) → i = j := by
    intro i j p q hp hq ⟨v, hvp, hva⟩ ⟨w, hwq, hwa⟩
    rw [List.pairwise_iff_getElem] at hdisj
    obtain ⟨hi', rfl⟩ := List.getElem?_eq_some_iff.mp hp
    obtain ⟨hj', rfl⟩ := List.getElem?_eq_some_iff.mp hq
    rcases Nat.lt_trichotomy i j with hlt | heq | hgt
    · exact absurd (hva.trans hwa.symm) (hdisj i j hi' hj' hlt v hvp w hwq)
    · exact heq
    · exact absurd (hwa.trans hva.symm) (hdisj j i hj' hi' hgt w hwq v hvp)
  have hflag : ∀ (i : Nat) (part : List Vertex), parts[i]? = some part →
      (parts.map (is_param_part d.root vd))[i]? = some (is_param_part d.root vd part) := by
    intro i part hp
    rw [List.getElem?_map, hp]
    rfl
  have hentry : ∀ (i : Nat) (part : List Vertex), parts[i]? = some part →
      d'.vars[d.vars.length + i]? = some
        (if is_param_part d.root vd part then
          { name := split_name vd.name (0 + i), type := VarType.var_param_t,
            param_i := vd.param_i }
        else { name := split_name vd.name (0 + i), type := VarType.var_local_t }) := by
    intro i part hp
    rw [hvars, List.getElem?_append_right (by omega)]
    have e : d.vars.length + i - d.vars.length = i := by omega
    rw [e]
    exact split_entries_get d.root vd parts 0 i part hp
  have hslot_of : ∀ (i : Nat) (part : List Vertex), parts[i]? = some part → (∃ v ∈ part, v.id = a) →
      d'.param_ids[vd.param_i.toNat]? = some (d.vars.length + i) := by
    intro i part hp hc
    rw [hpar]
    apply split_params_slot _ _ _ _ _ hplen
    · rw [hflag i part hp, (is_param_part_iff d.root vd a part ht ha).mpr hc]
    · intro j hj hjt
      rw [List.getElem?_map] at hjt
      cases hq : parts[j]? with
      | none => rw [hq] at hjt; cases hjt
      | some q =>
        rw [hq] at hjt
        have hjt := Option.some.inj hjt
        have := honly i j part q hp hq hc ((is_param_part_iff d.root vd a q ht ha).mp hjt)
        omega
  refine ⟨d', h, ?_, ?_, ?_, ?_, ?_⟩
  · intro i part hp
    refine ⟨_, hentry i part hp, ?_, ?_⟩
    · intro hc
      rw [(is_param_part_iff d.root vd a part ht ha).mpr hc]
      exact ⟨rfl, rfl, hslot_of i part hp hc⟩
    · intro hc
      have hf : is_param_part d.root vd part = false := by
        rw [Bool.eq_false_iff]
        exact fun hx => hc ((is_param_part_iff d.root vd a part ht ha).mp hx)
      rw [hf]
      refine ⟨rfl, ?_, ?_⟩
      · rw [hloc]
        apply List.mem_append_right
        rw [split_locals_mem]
        exact ⟨i, rfl, by rw [hflag i part hp, hf]⟩
      · by_cases hex : ∃ (j : Nat) (q : List Vertex), parts[j]? = some q ∧ ∃ v ∈ q, v.id = a
        · obtain ⟨j, q, hq, hcq⟩ := hex
          rw [hslot_of j q hq hcq]
          intro heq
          have hij : j = i := by
            have := Option.some.inj heq
            omega
          subst hij
          rw [hp] at hq
          cases hq
          exact hc hcq
        · rw [hpar, split_params_none, hslot]
          · intro heq
            have hvi : (var : Nat) = d.vars.length + i := Option.some.inj heq
            exact Nat.ne_of_lt (Nat.lt_of_lt_of_le hvar (Nat.le_add_right _ _)) hvi
          · intro f hf'
            obtain ⟨q, hq, rfl⟩ := List.mem_map.mp hf'
            rw [Bool.eq_false_iff]
            intro hx
            obtain ⟨j, hj⟩ := List.getElem?_of_mem hq
            exact hex ⟨j, q, hj, (is_param_part_iff d.root vd a q ht ha).mp hx⟩
  · refine ⟨_, hloc, ?_⟩
    intro x
    rw [split_locals_mem]
    constructor
    · rintro ⟨m, rfl, hm⟩
      rw [List.getElem?_map] at hm
      cases hq : parts[m]? with
      | none => rw [hq] at hm; cases hm
      | some q =>
        rw [hq] at hm
        have hm := Option.some.inj hm
        refine ⟨m, q, rfl, hq, ?_⟩
        intro hc
        rw [(is_param_part_iff d.root vd a q ht ha).mpr hc] at hm
        cases hm
    · rintro ⟨i, part, rfl, hp, hc⟩
      refine ⟨i, rfl, ?_⟩
      rw [hflag i part hp]
      congr 1
      rw [Bool.eq_false_iff]
      exact fun hx => hc ((is_param_part_iff d.root vd a part ht ha).mp hx)
  · intro i j x y hi' hj' hx hy hxt hyt
    have hp : parts[i]? = some parts[i] := List.getElem?_eq_getElem hi'
    have hq : parts[j]? = some parts[j] := List.getElem?_eq_getElem hj'
    rw [hentry i _ hp] at hx
    rw [hentry j _ hq] at hy
    have key : ∀ (part : List Vertex) (m : Nat) (z : VarData),
        some (if is_param_part d.root vd part then
          ({ name := split_name vd.name (0 + m), type := VarType.var_param_t,
             param_i := vd.param_i } : VarData)
        else { name := split_name vd.name (0 + m), type := VarType.var_local_t }) = some z →
        z.type = VarType.var_param_t → ∃ v ∈ part, v.id = a := by
      intro part m z hz hzt
      cases hb : is_param_part d.root vd part with
      | true => exact (is_param_part_iff d.root vd a part ht ha).mp hb
      | false =>
        rw [hb] at hz
        cases hz
        cases hzt
    exact honly i j _ _ hp hq (key _ _ _ hx hxt) (key _ _ _ hy hyt)
  · rw [hpar, split_params_length]
  · intro q hq
    rw [hpar, split_params_other _ _ hq]

/-- Witness of C15: the parameter `p` split into two parts, the second of which holds
the parameter-binding occurrence. -/
theorem param_slot_on_split_witness :
    ∃ d', sample_param_data.split_var 0 sample_param_parts = Except.ok d' ∧
      (∀ i part, sample_param_parts[i]? = some part →
        ∃ e, d'.vars[sample_param_data.vars.length + i]? = some e ∧
        ((∃ v ∈ part, v.id = 4) →
          e.type = VarType.var_param_t ∧ e.param_i = 0 ∧
          d'.param_ids[0]? = some (sample_param_data.vars.length + i)) ∧
        ((¬ ∃ v ∈ part, v.id = 4) →
          e.type = VarType.var_local_t ∧
          sample_param_data.vars.length + i ∈ d'.local_var_ids ∧
          d'.param_ids[0]? ≠ some (sample_param_data.vars.length + i))) ∧
      (∃ locs, d'.local_var_ids = sample_param_data.local_var_ids ++ locs ∧
        ∀ x, x ∈ locs ↔ ∃ i part, x = sample_param_data.vars.length + i ∧
          sample_param_parts[i]? = some part ∧ ¬ ∃ v ∈ part, v.id = 4) ∧
      (∀ (i j : Nat) (x y : VarData), i < sample_param_parts.length →
        j < sample_param_parts.length →
        d'.vars[sample_param_data.vars.length + i]? = some x →
        d'.vars[sample_param_data.vars.length + j]? = some y →
        x.type = VarType.var_param_t → y.type = VarType.var_param_t → i = j) ∧
      d'.param_ids.length = sample_param_data.param_ids.length ∧
      (∀ q, q ≠ 0 → d'.param_ids[q]? = sample_param_data.param_ids[q]?) :=
  param_slot_on_split sample_param_data 0
    { name := "p", type := VarType.var_param_t, param_i := 0 } sample_param_parts 4
    (by decide) (by decide) (by decide) (by decide) (by decide) (by decide) (by decide)

theorem merge_vars_loop_spec (d : CFGData) (vars : List VarPtr) :
    ∀ (p : Int) (lids : List VarPtr), vars.Nodup → (∀ x ∈ vars, mergeable d lids x) →
    ∃ p' lids', merge_vars_loop d vars p lids = Except.ok (p', lids') ∧
      (∀ y, y ∉ vars → (y ∈ lids' ↔ y ∈ lids)) ∧
      (p' = p ∨ 0 ≤ p') ∧
      ((∀ x ∈ vars, ∀ vd, d.vars.get? x = some vd → vd.type = VarType.var_local_t) → p' = p) := by
  induction vars with
  | nil =>
    intro p lids _ _
    exact ⟨p, lids, rfl, fun _ _ => Iff.rfl, Or.inl rfl, fun _ => rfl⟩
  | cons x rest ih =>
    intro p lids hnd hm
    obtain ⟨hx, hnd'⟩ := List.nodup_cons.mp hnd
    obtain ⟨vd, hvd, hk⟩ := hm x (List.mem_cons_self _ _)
    unfold merge_vars_loop
    rw [hvd]
    dsimp only
    rcases hk with ⟨hl, hmem⟩ | ⟨hp, hi⟩
    · have hnp : ¬ vd.type = VarType.var_param_t := by rw [hl]; decide
      rw [if_neg hnp, if_pos hl, if_pos hmem]
      have hm' : ∀ z ∈ rest, mergeable d (lids.erase x) z := by
        intro z hz
        obtain ⟨vz, hvz, hkz⟩ := hm z (List.mem_cons_of_mem _ hz)
        refine ⟨vz, hvz, ?_⟩
        rcases hkz with ⟨a, b⟩ | c
        · have hzx : z ≠ x := fun e => hx (e ▸ hz)
          exact Or.inl ⟨a, (List.mem_erase_of_ne hzx).mpr b⟩
        · exact Or.inr c
      obtain ⟨p', lids', h1, h2, h3, h4⟩ := ih p (lids.erase x) hnd' hm'
      refine ⟨p', lids', h1, ?_, h3, ?_⟩
      · intro y hy
        have hyx : y ≠ x := fun e => hy (e ▸ List.mem_cons_self _ _)
        rw [h2 y (fun hc => hy (List.mem_cons_of_mem _ hc)), List.mem_erase_of_ne hyx]
      · intro hall
        exact h4 (fun z hz => hall z (List.mem_cons_of_mem _ hz))
    · rw [if_pos hp]
      have hm' : ∀ z ∈ rest, mergeable d lids z := fun z hz => hm z (List.mem_cons_of_mem _ hz)
      obtain ⟨p', lids', h1, h2, h3, h4⟩ := ih vd.param_i lids hnd' hm'
      refine ⟨p', lids', h1, ?_, ?_, ?_⟩
      · intro y hy
        exact h2 y (fun hc => hy (List.mem_cons_of_mem _ hc))
      · rcases h3 with a | b
        · exact Or.inr (a ▸ hi)
        · exact Or.inr b
      · intro hall
        have := hall x (List.mem_cons_self _ _) vd hvd
        rw [hp] at this
        cases this

/-- The effect of a successful `merge_vars`: a variable with the given name and the type
signature of the first merged variable is appended to the variable table; the bindings,
the queue and the root stay; the table of locals changes only in the merged variables and
the new one. -/
theorem merge_vars_spec (d : CFGData) (vars : List VarPtr) (x0 : VarPtr) (vd0 : VarData)
    (new_name : String) (h0 : vars.head? = some x0) (hv0 : d.vars.get? x0 = some vd0)
    (hnd : vars.Nodup) (hm : ∀ x ∈ vars, mergeable d d.local_var_ids x) :
    ∃ d1 e, d.merge_vars vars new_name = Except.ok (d.vars.length, d1) ∧
      d1.vars = d.vars ++ [e] ∧ e.name = new_name ∧ e.tinf = vd0.tinf ∧
      d1.rebound = d.rebound ∧ d1.todo_parts = d.todo_parts ∧ d1.root = d.root ∧
      d1.param_ids.length = d.param_ids.length ∧
      (∀ y, y ∉ vars → y ≠ d.vars.length →
        (y ∈ d1.local_var_ids ↔ y ∈ d.local_var_ids)) ∧
      ((∀ x ∈ vars, ∀ vd, d.vars.get? x = some vd → vd.type = VarType.var_local_t) →
        e.type = VarType.var_local_t ∧ e.param_i = -1 ∧ d.vars.length ∈ d1.local_var_ids ∧
        d1.param_ids = d.param_ids) := by
  obtain ⟨p', lids', h1, h2, h3, h4⟩ :=
    merge_vars_loop_spec d vars (-1) d.local_var_ids hnd hm
  unfold CFGData.merge_vars
  rw [h0]
  dsimp only
  rw [hv0]
  dsimp only
  rw [h1]
  dsimp only
  by_cases hp : p' = -1
  · rw [if_neg (not_not.mpr hp)]
    refine ⟨_, _, rfl, rfl, rfl, rfl, rfl, rfl, rfl, rfl, ?_, ?_⟩
    · intro y hy hne
      show y ∈ lids' ++ [d.vars.length] ↔ _
      rw [List.mem_append, h2 y hy]
      constructor
      · rintro (a | b)
        · exact a
        · exact absurd (List.mem_singleton.mp b) hne
      · exact Or.inl
    · intro _
      exact ⟨rfl, rfl, List.mem_append_right _ (List.mem_singleton.mpr rfl), rfl⟩
  · rw [if_pos hp]
    have hpos : 0 ≤ p' := by
      rcases h3 with a | b
      · exact absurd a hp
      · exact b
    rw [if_neg (by omega)]
    refine ⟨_, _, rfl, rfl, rfl, rfl, rfl, rfl, rfl, ?_, ?_, ?_⟩
    · show (d.param_ids.set p'.toNat d.vars.length).length = _
      rw [List.length_set]
    · intro y hy _
      exact h2 y hy
    · intro hall
      exact absurd (h4 hall) hp

/-- A successful `merge_vars` appends one entry to the variable table. -/
theorem merge_vars_vars (d d1 : CFGData) (vars : List VarPtr) (new_name : String) (m : VarPtr)
    (h : d.merge_vars vars new_name = Except.ok (m, d1)) : ∃ e, d1.vars = d.vars ++ [e] := by
  unfold CFGData.merge_vars at h
  cases e0 : vars.head? with
  | none => rw [e0] at h; cases h
  | some v0 =>
    rw [e0] at h
    dsimp only at h
    cases e1 : d.vars.get? v0 with
    | none => rw [e1] at h; cases h
    | some vd0 =>
      rw [e1] at h
      dsimp only at h
      cases e2 : merge_vars_loop d vars (-1) d.local_var_ids with
      | error e => rw [e2] at h; cases h
      | ok r =>
        obtain ⟨p, lids⟩ := r
        rw [e2] at h
        dsimp only at h
        by_cases hp : p = -1
        · rw [if_neg (not_not.mpr hp)] at h
          cases h
          exact ⟨_, rfl⟩
        · rw [if_pos hp] at h
          by_cases hn : p < 0
          · rw [if_pos hn] at h
            cases h
          · rw [if_neg hn] at h
            cases h
            exact ⟨_, rfl⟩

/-- A successful `merge_group` appends one entry to the variable table. -/
theorem merge_group_vars (parts : List (List Vertex)) (ids : List Nat) (d d1 : CFGData)
    (h : merge_group parts ids d = Except.ok d1) : ∃ e, d1.vars = d.vars ++ [e] := by
  unfold merge_group at h
  cases e0 : fragments d parts ids with
  | error e => rw [e0] at h; cases h
  | ok vars =>
    rw [e0] at h
    dsimp only at h
    cases e1 : vars.head? with
    | none => rw [e1] at h; cases h
    | some v0 =>
      rw [e1] at h
      dsimp only at h
      cases e2 : d.vars.get? v0 with
      | none => rw [e2] at h; cases h
      | some vd0 =>
        rw [e2] at h
        dsimp only at h
        cases e3 : d.merge_vars vars vd0.name with
        | error e => rw [e3] at h; cases h
        | ok r =>
          obtain ⟨m, d2⟩ := r
          rw [e3] at h
          dsimp only at h
          cases h
          exact merge_vars_vars d d2 vars vd0.name m e3

theorem var_data_of_get (d : CFGData) (x : VarPtr) (vd : VarData)
    (h : d.vars.get? x = some vd) : d.var_data x = vd := by
  unfold CFGData.var_data
  rw [List.getD_eq_getElem?_getD, ← List.get?_eq_getElem?, h]
  rfl

theorem var_data_extended (d d' : CFGData) (es : List VarData) (x : VarPtr)
    (h : d'.vars = d.vars ++ es) (hx : x < d.vars.length) : d'.var_data x = d.var_data x := by
  unfold CFGData.var_data
  rw [List.getD_eq_getElem?_getD, List.getD_eq_getElem?_getD, h, List.getElem?_append_left hx]

theorem get_extended (d d' : CFGData) (es : List VarData) (x : VarPtr)
    (h : d'.vars = d.vars ++ es) (hx : x < d.vars.length) : d'.vars.get? x = d.vars.get? x := by
  rw [List.get?_eq_getElem?, List.get?_eq_getElem?, h, List.getElem?_append_left hx]

theorem get_lt (d : CFGData) (x : VarPtr) (vd : VarData) (h : d.vars.get? x = some vd) :
    x < d.vars.length := by
  rw [List.get?_eq_getElem?] at h
  exact (List.getElem?_eq_some_iff.mp h).1

theorem fragment_ok_iff (d : CFGData) (parts : List (List Vertex)) (i : Nat) (x : VarPtr) :
    fragment d parts i = Except.ok x ↔
      ∃ p, parts.get? i = some p ∧ frag d p = some x ∧ x < d.vars.length := by
  constructor
  · intro h
    unfold fragment at h
    cases e1 : parts.get? i with
    | none => rw [e1] at h; cases h
    | some p =>
      rw [e1] at h
      dsimp only at h
      cases e2 : p.head? with
      | none => rw [e2] at h; cases h
      | some v =>
        rw [e2] at h
        dsimp only at h
        cases e3 : d.get_var_id v with
        | none => rw [e3] at h; cases h
        | some y =>
          rw [e3] at h
          dsimp only at h
          by_cases hy : y < d.vars.length
          · rw [if_pos hy] at h
            cases h
            refine ⟨p, rfl, ?_, hy⟩
            unfold frag
            rw [e2]
            exact e3
          · rw [if_neg hy] at h
            cases h
  · rintro ⟨p, hp, hx, hlt⟩
    unfold fragment
    rw [hp]
    dsimp only
    unfold frag at hx
    cases e2 : p.head? with
    | none => rw [e2] at hx; cases hx
    | some v =>
      rw [e2] at hx
      dsimp only at hx ⊢
      rw [hx]
      dsimp only
      rw [if_pos hlt]

theorem fragments_map (d : CFGData) (parts : List (List Vertex)) (f : Nat → VarPtr)
    (ids : List Nat) (hf : ∀ i ∈ ids, fragment d parts i = Except.ok (f i)) :
    fragments d parts ids = Except.ok (ids.map f) := by
  induction ids with
  | nil => rfl
  | cons i rest ih =>
    unfold fragments
    rw [hf i (List.mem_cons_self _ _), ih (fun j hj => hf j (List.mem_cons_of_mem _ hj))]
    rfl

theorem make_merge_data_map (d : CFGData) (parts : List (List Vertex)) (f : Nat → VarPtr)
    (ids : List Nat) (hf : ∀ i ∈ ids, fragment d parts i = Except.ok (f i)) :
    make_merge_data d parts ids = Except.ok (ids.map fun i => { id := i, var := f i }) := by
  induction ids with
  | nil => rfl
  | cons i rest ih =>
    unfold make_merge_data
    rw [hf i (List.mem_cons_self _ _), ih (fun j hj => hf j (List.mem_cons_of_mem _ hj))]
    rfl

/-- The effect of `merge_group` on a group of parts with pairwise different mergeable
variables. -/
theorem merge_group_spec (parts : List (List Vertex)) (i0 : Nat) (rest : List Nat)
    (d : CFGData) (f : Nat → VarPtr)
    (hf : ∀ i ∈ i0 :: rest, fragment d parts i = Except.ok (f i))
    (hnd : ((i0 :: rest).map f).Nodup)
    (hm : ∀ i ∈ i0 :: rest, mergeable d d.local_var_ids (f i)) :
    ∃ d1 e, merge_group parts (i0 :: rest) d = Except.ok d1 ∧
      d1.vars = d.vars ++ [e] ∧ e.name = (d.var_data (f i0)).name ∧
      e.tinf = (d.var_data (f i0)).tinf ∧
      d1.rebound = (fun a => if touched parts (i0 :: rest) a then some d.vars.length
        else d.rebound a) ∧
      d1.todo_parts = d.todo_parts ∧ d1.root = d.root ∧
      d1.param_ids.length = d.param_ids.length ∧
      (∀ y, y ∉ (i0 :: rest).map f → y ≠ d.vars.length →
        (y ∈ d1.local_var_ids ↔ y ∈ d.local_var_ids)) ∧
      ((∀ i ∈ i0 :: rest, (d.var_data (f i)).type = VarType.var_local_t) →
        e.type = VarType.var_local_t ∧ e.param_i = -1 ∧ d.vars.length ∈ d1.local_var_ids ∧
        d1.param_ids = d.param_ids) := by
  obtain ⟨vd0, hv0, _⟩ := hm i0 (List.mem_cons_self _ _)
  have hm' : ∀ x ∈ (i0 :: rest).map f, mergeable d d.local_var_ids x := by
    intro x hx
    obtain ⟨i, hi, rfl⟩ := List.mem_map.mp hx
    exact hm i hi
  obtain ⟨d1, e, h1, h2, h3, h4, h5, h6, h7, h8, h9, h10⟩ :=
    merge_vars_spec d ((i0 :: rest).map f) (f i0) vd0 vd0.name rfl hv0 hnd hm'
  unfold merge_group
  rw [fragments_map d parts f _ hf]
  dsimp only [List.map, List.head?]
  rw [hv0]
  dsimp only
  have h1' : d.merge_vars (f i0 :: List.map f rest) vd0.name =
      Except.ok (d.vars.length, d1) := h1
  rw [h1']
  dsimp only
  rw [var_data_of_get d (f i0) vd0 hv0]
  refine ⟨_, e, rfl, h2, h3, h4, ?_, h6, h7, h8, h9, ?_⟩
  · unfold touched
    rw [h5]
  · intro hall
    apply h10
    intro x hx vd hvd
    obtain ⟨i, hi, rfl⟩ := List.mem_map.mp hx
    have := hall i hi
    rw [var_data_of_get d (f i) vd hvd] at this
    exact this

theorem touched_iff (parts : List (List Vertex)) (ids : List Nat) (a : Nat) :
    touched parts ids a = true ↔ ∃ i ∈ ids, ∃ v ∈ parts.getD i [], v.id = a := by
  unfold touched
  simp [List.any_eq_true]

theorem touched_false_iff (parts : List (List Vertex)) (ids : List Nat) (a : Nat) :
    touched parts ids a = false ↔ ∀ i ∈ ids, ∀ v ∈ parts.getD i [], v.id ≠ a := by
  rw [Bool.eq_false_iff, Ne, touched_iff]
  constructor
  · intro h i hi v hv e
    exact h ⟨i, hi, v, hv, e⟩
  · rintro h ⟨i, hi, v, hv, e⟩
    exact h i hi v hv e

theorem head_mem_getD (parts : List (List Vertex)) (i : Nat) (p : List Vertex) (v : Vertex)
    (hp : parts.get? i = some p) (hv : p.head? = some v) : v ∈ parts.getD i [] := by
  rw [List.getD_eq_getElem?_getD, ← List.get?_eq_getElem?, hp]
  cases p with
  | nil => cases hv
  | cons a t =>
    cases hv
    exact List.mem_cons_self _ _

/-- A step that keeps the variable table as a prefix and the binding of the first occurrence
of part `i` keeps the variable of the part. -/
theorem fragment_frame (d d1 : CFGData) (es : List VarData) (parts : List (List Vertex))
    (i : Nat) (x : VarPtr) (hvars : d1.vars = d.vars ++ es)
    (hreb : ∀ v ∈ parts.getD i [], d1.rebound v.id = d.rebound v.id)
    (h : fragment d parts i = Except.ok x) : fragment d1 parts i = Except.ok x := by
  rw [fragment_ok_iff] at h ⊢
  obtain ⟨p, hp, hx, hlt⟩ := h
  refine ⟨p, hp, ?_, by rw [hvars, List.length_append]; exact Nat.lt_of_lt_of_le hlt (Nat.le_add_right _ _)⟩
  unfold frag at hx ⊢
  cases e : p.head? with
  | none => rw [e] at hx; cases hx
  | some v =>
    rw [e] at hx
    dsimp only at hx ⊢
    unfold CFGData.get_var_id at hx ⊢
    rw [hreb v (head_mem_getD parts i p v hp e)]
    exact hx

theorem mergeable_frame (d d1 : CFGData) (es : List VarData) (x : VarPtr)
    (hvars : d1.vars = d.vars ++ es)
    (hl : x ∈ d1.local_var_ids ↔ x ∈ d.local_var_ids)
    (h : mergeable d d.local_var_ids x) : mergeable d1 d1.local_var_ids x := by
  obtain ⟨vd, hvd, hk⟩ := h
  refine ⟨vd, ?_, ?_⟩
  · rw [get_extended d d1 es x hvars (get_lt d x vd hvd)]
    exact hvd
  · rcases hk with ⟨a, b⟩ | c
    · exact Or.inl ⟨a, hl.mpr b⟩
    · exact Or.inr c

/-- The effect of the calls of `merge_group` for groups of parts that have pairwise
different mergeable variables and pairwise disjoint occurrences: every group gets a new
variable, to which all its occurrences are bound, with the name and the type signature of
the variable of the first part of the group. -/
theorem merge_runs_spec (parts : List (List Vertex)) (f : Nat → VarPtr)
    (gs : List (List Nat)) :
    ∀ (d : CFGData), (∀ g ∈ gs, g ≠ []) → gs.flatten.Nodup →
    (∀ i ∈ gs.flatten, fragment d parts i = Except.ok (f i)) →
    (∀ i ∈ gs.flatten, ∀ j ∈ gs.flatten, f i = f j → i = j) →
    (∀ i ∈ gs.flatten, mergeable d d.local_var_ids (f i)) →
    (∀ i ∈ gs.flatten, ∀ j ∈ gs.flatten, i ≠ j →
      ∀ v ∈ parts.getD i [], ∀ w ∈ parts.getD j [], v.id ≠ w.id) →
    ∃ d' es, merge_runs parts gs d = Except.ok d' ∧ d'.vars = d.vars ++ es ∧
      d'.todo_parts = d.todo_parts ∧ d'.root = d.root ∧
      (∀ a, touched parts gs.flatten a = false → d'.rebound a = d.rebound a) ∧
      (∀ y, y < d.vars.length → (∀ i ∈ gs.flatten, f i ≠ y) →
        (y ∈ d'.local_var_ids ↔ y ∈ d.local_var_ids)) ∧
      (∀ g ∈ gs, ∃ m e i0, d.vars.length ≤ m ∧ d'.vars.get? m = some e ∧
        (∀ i ∈ g, ∀ v ∈ parts.getD i [], d'.rebound v.id = some m) ∧
        g.head? = some i0 ∧ e.name = (d.var_data (f i0)).name ∧
        e.tinf = (d.var_data (f i0)).tinf ∧
        ((∀ i ∈ g, (d.var_data (f i)).type = VarType.var_local_t) →
          e.type = VarType.var_local_t ∧ e.param_i = -1 ∧ m ∈ d'.local_var_ids)) := by
  induction gs with
  | nil =>
    intro d _ _ _ _ _ _
    refine ⟨d, [], rfl, by simp, rfl, rfl, fun _ _ => rfl, fun _ _ _ => Iff.rfl, ?_⟩
    intro g hg
    cases hg
  | cons g gs ih =>
    intro d hne hnd hf hinj hm hver
    have hflat : (g :: gs).flatten = g ++ gs.flatten := rfl
    rw [hflat] at hnd hf hinj hm hver
    obtain ⟨hndg, hndgs, hdisj⟩ := List.nodup_append.mp hnd
    cases g with
    | nil => exact absurd rfl (hne [] (List.mem_cons_self _ _))
    | cons i0 rest =>
      have hfg : ∀ i ∈ i0 :: rest, fragment d parts i = Except.ok (f i) :=
        fun i hi => hf i (List.mem_append_left _ hi)
      have hndf : ((i0 :: rest).map f).Nodup := by
        rw [List.nodup_map_iff_inj_on hndg]
        intro i hi j hj hij
        exact hinj i (List.mem_append_left _ hi) j (List.mem_append_left _ hj) hij
      have hmg : ∀ i ∈ i0 :: rest, mergeable d d.local_var_ids (f i) :=
        fun i hi => hm i (List.mem_append_left _ hi)
      obtain ⟨d1, e, h1, h2, h3, h4, h5, h6, h7, _, h9, h10⟩ :=
        merge_group_spec parts i0 rest d f hfg hndf hmg
      have hlen1 : d1.vars.length = d.vars.length + 1 := by
        rw [h2, List.length_append]
        rfl
      -- the bindings of the later parts stay
      have hreb1 : ∀ j ∈ gs.flatten, ∀ w ∈ parts.getD j [], d1.rebound w.id = d.rebound w.id := by
        intro j hj w hw
        rw [h5]
        have : touched parts (i0 :: rest) w.id = false := by
          rw [touched_false_iff]
          intro i hi v hv
          have hij : i ≠ j := fun e => hdisj hi (e ▸ hj)
          exact hver i (List.mem_append_left _ hi) j (List.mem_append_right _ hj) hij v hv w hw
        simp only [this]
        rfl
      have hflt : ∀ i ∈ gs.flatten, f i < d.vars.length := by
        intro i hi
        obtain ⟨_, _, _, hlt⟩ := (fragment_ok_iff d parts i (f i)).mp
          (hf i (List.mem_append_right _ hi))
        exact hlt
      have hlid1 : ∀ j ∈ gs.flatten,
          (f j ∈ d1.local_var_ids ↔ f j ∈ d.local_var_ids) := by
        intro j hj
        apply h9
        · intro hc
          obtain ⟨i, hi, hij⟩ := List.mem_map.mp hc
          have := hinj i (List.mem_append_left _ hi) j (List.mem_append_right _ hj) hij
          exact hdisj hi (this ▸ hj)
        · exact Nat.ne_of_lt (hflt j hj)
      obtain ⟨d', es, k1, k2, k3, k4, k5, k6, k7⟩ := ih d1
        (fun g hg => hne g (List.mem_cons_of_mem _ hg)) hndgs
        (fun i hi => fragment_frame d d1 [e] parts i (f i) h2 (hreb1 i hi)
          (hf i (List.mem_append_right _ hi)))
        (fun i hi j hj => hinj i (List.mem_append_right _ hi) j (List.mem_append_right _ hj))
        (fun i hi => mergeable_frame d d1 [e] (f i) h2 (hlid1 i hi)
          (hm i (List.mem_append_right _ hi)))
        (fun i hi j hj => hver i (List.mem_append_right _ hi) j (List.mem_append_right _ hj))
      refine ⟨d', [e] ++ es, ?_, ?_, ?_, ?_, ?_, ?_, ?_⟩
      · unfold merge_runs
        rw [h1]
        exact k1
      · rw [k2, h2, List.append_assoc]
      · rw [k3, h6]
      · rw [k4, h7]
      · intro a ha
        rw [touched_false_iff] at ha
        rw [k5 a, h5]
        · have : touched parts (i0 :: rest) a = false := by
            rw [touched_false_iff]
            exact fun i hi => ha i (List.mem_append_left _ hi)
          simp only [this]
          rfl
        · rw [touched_false_iff]
          exact fun i hi => ha i (List.mem_append_right _ hi)
      · intro y hy hny
        rw [k6 y (by rw [hlen1]; exact Nat.lt_succ_of_lt hy)
          (fun i hi => hny i (List.mem_append_right _ hi))]
        apply h9
        · intro hc
          obtain ⟨i, hi, hiy⟩ := List.mem_map.mp hc
          exact hny i (List.mem_append_left _ hi) hiy
        · exact Nat.ne_of_lt hy
      · intro g' hg'
        rcases List.mem_cons.mp hg' with rfl | hg'
        · refine ⟨d.vars.length, e, i0, Nat.le_refl _, ?_, ?_, rfl, h3, h4, ?_⟩
          · rw [get_extended d1 d' es d.vars.length k2 (by rw [hlen1]; exact Nat.lt_succ_self _),
              List.get?_eq_getElem?, h2]
            simp
          · intro i hi v hv
            rw [k5 v.id, h5]
            · have : touched parts (i0 :: rest) v.id = true := by
                rw [touched_iff]
                exact ⟨i, hi, v, hv, rfl⟩
              simp only [this]
              rfl
            · rw [touched_false_iff]
              intro j hj w hw
              have hij : i ≠ j := fun e => hdisj hi (e ▸ hj)
              exact fun e => hver i (List.mem_append_left _ hi) j
                (List.mem_append_right _ hj) hij v hv w hw e.symm
          · intro hall
            obtain ⟨a, b, c, _⟩ := h10 hall
            refine ⟨a, b, ?_⟩
            rw [k6 d.vars.length (by rw [hlen1]; exact Nat.lt_succ_self _)]
            · exact c
            · intro i hi
              exact Nat.ne_of_lt (hflt i hi)
        · obtain ⟨m, e', j0, m1, m2, m3, m4, m5, m6, m7⟩ := k7 g' hg'
          have hj0 : j0 ∈ gs.flatten := by
            rw [List.mem_flatten]
            refine ⟨g', hg', ?_⟩
            cases g' with
            | nil => cases m4
            | cons a t =>
              cases m4
              exact List.mem_cons_self _ _
          have hvd : ∀ i ∈ gs.flatten, d1.var_data (f i) = d.var_data (f i) :=
            fun i hi => var_data_extended d d1 [e] (f i) h2 (hflt i hi)
          refine ⟨m, e', j0, Nat.le_trans (by rw [hlen1]; exact Nat.le_succ _) m1, m2, m3, m4, ?_, ?_, ?_⟩
          · rw [m5, hvd j0 hj0]
          · rw [m6, hvd j0 hj0]
          · intro hall
            apply m7
            intro i hi
            rw [hvd i (List.mem_flatten.mpr ⟨g', hg', hi⟩)]
            exact hall i hi

theorem mem_of_getLast (cur : List MergeData) (p : MergeData) (h : cur.getLast? = some p) :
    p ∈ cur := by
  obtain ⟨ys, rfl⟩ := List.getLast?_eq_some_iff.mp h
  simp

theorem merge_runs_single (parts : List (List Vertex)) (g : List Nat) (d : CFGData) :
    merge_runs parts [g] d = merge_group parts g d := by
  unfold merge_runs
  cases merge_group parts g d with
  | error e => rfl
  | ok d1 => rfl

/-- The loop of `merge_same_type` calls `merge_group` for the groups of `runs`. -/
theorem merge_groups_eq_runs (parts : List (List Vertex)) (d0 : CFGData)
    (rest : List MergeData) :
    ∀ (cur : List MergeData) (d : CFGData), (∃ es, d.vars = d0.vars ++ es) →
    (∀ x ∈ cur ++ rest, x.var < d0.vars.length) →
    merge_groups parts cur.getLast? rest (cur.map fun x => x.id) d =
      merge_runs parts ((runs (entry_tinf d0) cur rest).map (List.map fun x => x.id)) d := by
  induction rest with
  | nil =>
    intro cur d _ _
    unfold merge_groups runs
    rw [List.map, List.map, merge_runs_single]
  | cons x rest ih =>
    intro cur d hd hv
    obtain ⟨es, hes⟩ := hd
    unfold merge_groups runs
    cases hc : cur.getLast? with
    | none =>
      have hcur : cur = [] := List.getLast?_eq_none_iff.mp hc
      subst hcur
      dsimp only
      rw [if_neg (by simp)]
      have := ih [x] d ⟨es, hes⟩ (fun y hy => hv y (by simpa using hy))
      simpa using this
    | some p =>
      dsimp only
      have hp : p ∈ cur := mem_of_getLast cur p hc
      have hpv : p.var < d0.vars.length := hv p (List.mem_append_left _ hp)
      have hxv : x.var < d0.vars.length :=
        hv x (List.mem_append_right _ (List.mem_cons_self _ _))
      have heq : eq_merge_data d p x = decide (entry_tinf d0 p = entry_tinf d0 x) := by
        unfold eq_merge_data entry_tinf
        rw [var_data_extended d0 d es p.var hes hpv, var_data_extended d0 d es x.var hes hxv]
      rw [heq]
      by_cases ht : entry_tinf d0 p = entry_tinf d0 x
      · rw [if_neg (by simp [ht]), if_pos ht]
        have := ih (cur ++ [x]) d ⟨es, hes⟩ (fun y hy => hv y (by simpa using hy))
        rw [List.getLast?_concat, List.map_append] at this
        exact this
      · rw [if_pos (by simp [ht]), if_neg ht]
        rw [List.map_cons]
        unfold merge_runs
        cases hg : merge_group parts (List.map (fun x => x.id) cur) d with
        | error e => rfl
        | ok d1 =>
          dsimp only
          obtain ⟨e, he⟩ := merge_group_vars parts _ d d1 hg
          have := ih [x] d1 ⟨es ++ [e], by rw [he, hes, List.append_assoc]⟩
            (fun y hy => by
              rcases List.mem_append.mp hy with h | h
              · rw [List.mem_singleton.mp h]
                exact hxv
              · exact hv y (List.mem_append_right _ (List.mem_cons_of_mem _ h)))
          simpa using this

theorem runs_flatten (t : MergeData → String) (rest : List MergeData) :
    ∀ cur, (runs t cur rest).flatten = cur ++ rest := by
  induction rest with
  | nil => intro cur; simp [runs]
  | cons x rest ih =>
    intro cur
    unfold runs
    cases hc : cur.getLast? with
    | none =>
      have hcur : cur = [] := List.getLast?_eq_none_iff.mp hc
      subst hcur
      simp [ih]
    | some p =>
      dsimp only
      split
      · rw [ih]
        simp
      · rw [List.flatten_cons, ih]
        simp

theorem runs_ne_nil (t : MergeData → String) (rest : List MergeData) :
    ∀ cur, cur ++ rest ≠ [] → ∀ g ∈ runs t cur rest, g ≠ [] := by
  induction rest with
  | nil =>
    intro cur h g hg
    simp [runs] at hg
    subst hg
    simpa using h
  | cons x rest ih =>
    intro cur _ g hg
    unfold runs at hg
    cases hc : cur.getLast? with
    | none =>
      rw [hc] at hg
      exact ih [x] (by simp) g hg
    | some p =>
      rw [hc] at hg
      dsimp only at hg
      split at hg
      · exact ih (cur ++ [x]) (by simp) g hg
      · rcases List.mem_cons.mp hg with rfl | hg
        · intro e
          rw [e] at hc
          cases hc
        · exact ih [x] (by simp) g hg

/-- Within a group all type signatures are equal. -/
theorem runs_same (t : MergeData → String) (rest : List MergeData) :
    ∀ cur, (∀ a ∈ cur, ∀ b ∈ cur, t a = t b) →
    ∀ g ∈ runs t cur rest, ∀ a ∈ g, ∀ b ∈ g, t a = t b := by
  induction rest with
  | nil =>
    intro cur h g hg
    simp [runs] at hg
    subst hg
    exact h
  | cons x rest ih =>
    intro cur h g hg
    unfold runs at hg
    cases hc : cur.getLast? with
    | none =>
      rw [hc] at hg
      refine ih [x] ?_ g hg
      intro a ha b hb
      rw [List.mem_singleton.mp ha, List.mem_singleton.mp hb]
    | some p =>
      rw [hc] at hg
      dsimp only at hg
      have hp : p ∈ cur := mem_of_getLast cur p hc
      split at hg
      · rename_i ht
        refine ih (cur ++ [x]) ?_ g hg
        have key : ∀ a ∈ cur ++ [x], t a = t p := by
          intro a ha
          rcases List.mem_append.mp ha with h1 | h1
          · exact h a h1 p hp
          · rw [List.mem_singleton.mp h1, ht]
        intro a ha b hb
        rw [key a ha, key b hb]
      · rcases List.mem_cons.mp hg with rfl | hg
        · exact h
        · refine ih [x] ?_ g hg
          intro a ha b hb
          rw [List.mem_singleton.mp ha, List.mem_singleton.mp hb]

/-- In a list sorted by type signature, entries with the same type signature are in the
same group. -/
theorem runs_complete (t : MergeData → String) (rest : List MergeData) :
    ∀ cur, (∀ a ∈ cur, ∀ b ∈ cur, t a = t b) →
    (cur ++ rest).Pairwise (fun a b => t a ≤ t b) →
    ∀ g1 ∈ runs t cur rest, ∀ g2 ∈ runs t cur rest, ∀ a ∈ g1, ∀ b ∈ g2, t a = t b → g1 = g2 := by
  induction rest with
  | nil =>
    intro cur _ _ g1 h1 g2 h2 _ _ _ _ _
    simp [runs] at h1 h2
    rw [h1, h2]
  | cons x rest ih =>
    intro cur h hs g1 h1 g2 h2 a ha b hb hab
    unfold runs at h1 h2
    cases hc : cur.getLast? with
    | none =>
      rw [hc] at h1 h2
      have hcur : cur = [] := List.getLast?_eq_none_iff.mp hc
      subst hcur
      refine ih [x] ?_ (by simpa using hs) g1 h1 g2 h2 a ha b hb hab
      intro a ha b hb
      rw [List.mem_singleton.mp ha, List.mem_singleton.mp hb]
    | some p =>
      rw [hc] at h1 h2
      dsimp only at h1 h2
      have hp : p ∈ cur := mem_of_getLast cur p hc
      by_cases ht : t p = t x
      · rw [if_pos ht] at h1 h2
        refine ih (cur ++ [x]) ?_ (by simpa using hs) g1 h1 g2 h2 a ha b hb hab
        have key : ∀ a ∈ cur ++ [x], t a = t p := by
          intro a ha
          rcases List.mem_append.mp ha with h1 | h1
          · exact h a h1 p hp
          · rw [List.mem_singleton.mp h1, ht]
        intro a ha b hb
        rw [key a ha, key b hb]
      · rw [if_neg ht] at h1 h2
        have hsx : (x :: rest).Pairwise (fun a b => t a ≤ t b) :=
          (List.pairwise_append.mp hs).2.1
        have hcross := (List.pairwise_append.mp hs).2.2
        -- an entry of `cur` is below every later entry
        have hlt : ∀ a ∈ cur, ∀ b ∈ x :: rest, t a < t b := by
          intro a ha b hb
          have hpx : t p < t x :=
            lt_of_le_of_ne (hcross p hp x (List.mem_cons_self _ _)) ht
          have hxb : t x ≤ t b := by
            rcases List.mem_cons.mp hb with rfl | hb
            · exact le_refl _
            · exact List.rel_of_pairwise_cons hsx hb
          rw [h a ha p hp]
          exact lt_of_lt_of_le hpx hxb
        have hin : ∀ g ∈ runs t [x] rest, ∀ c ∈ g, c ∈ x :: rest := by
          intro g hg c hcg
          have : c ∈ (runs t [x] rest).flatten := List.mem_flatten.mpr ⟨g, hg, hcg⟩
          rw [runs_flatten] at this
          simpa using this
        have hsing : ∀ a ∈ [x], ∀ b ∈ [x], t a = t b := by
          intro a ha b hb
          rw [List.mem_singleton.mp ha, List.mem_singleton.mp hb]
        rcases List.mem_cons.mp h1 with e1 | k1
        · rcases List.mem_cons.mp h2 with e2 | k2
          · rw [e1, e2]
          · rw [e1] at ha
            exact absurd hab (ne_of_lt (hlt a ha b (hin g2 k2 b hb)))
        · rcases List.mem_cons.mp h2 with e2 | k2
          · rw [e2] at hb
            exact absurd hab.symm (ne_of_lt (hlt b hb a (hin g1 k1 a ha)))
          · exact ih [x] hsing (by simpa using hsx) g1 k1 g2 k2 a ha b hb hab

/-- Every group of a sorted list is sorted. -/
theorem runs_pairwise (t : MergeData → String) (R : MergeData → MergeData → Prop)
    (rest : List MergeData) :
    ∀ cur, (cur ++ rest).Pairwise R → ∀ g ∈ runs t cur rest, g.Pairwise R := by
  induction rest with
  | nil =>
    intro cur hs g hg
    simp [runs] at hg
    subst hg
    simpa using hs
  | cons x rest ih =>
    intro cur hs g hg
    unfold runs at hg
    cases hc : cur.getLast? with
    | none =>
      rw [hc] at hg
      have hcur : cur = [] := List.getLast?_eq_none_iff.mp hc
      subst hcur
      exact ih [x] (by simpa using hs) g hg
    | some p =>
      rw [hc] at hg
      dsimp only at hg
      split at hg
      · exact ih (cur ++ [x]) (by simpa using hs) g hg
      · rcases List.mem_cons.mp hg with rfl | hg
        · exact (List.pairwise_append.mp hs).1
        · exact ih [x] (by simpa using (List.pairwise_append.mp hs).2.1) g hg

theorem mle_iff (d : CFGData) (a b : MergeData) :
    cmp_merge_data d b a = false ↔
      (entry_tinf d a < entry_tinf d b ∨
        (entry_tinf d a = entry_tinf d b ∧ entry_name d a ≤ entry_name d b)) := by
  unfold cmp_merge_data entry_tinf entry_name
  by_cases h : (d.var_data b.var).tinf = (d.var_data a.var).tinf
  · rw [if_pos h]
    simp only [decide_eq_false_iff_not, not_lt]
    constructor
    · intro hn
      exact Or.inr ⟨h.symm, hn⟩
    · rintro (hl | ⟨_, hn⟩)
      · exact absurd h.symm (ne_of_lt hl)
      · exact hn
  · rw [if_neg h]
    simp only [decide_eq_false_iff_not, not_lt]
    constructor
    · intro hn
      exact Or.inl (lt_of_le_of_ne hn (Ne.symm h))
    · rintro (hl | ⟨he, _⟩)
      · exact le_of_lt hl
      · exact absurd he.symm h

theorem mle_total (d : CFGData) (a b : MergeData) :
    cmp_merge_data d b a = false ∨ cmp_merge_data d a b = false := by
  rw [mle_iff, mle_iff]
  rcases lt_trichotomy (entry_tinf d a) (entry_tinf d b) with h | h | h
  · exact Or.inl (Or.inl h)
  · rcases le_total (entry_name d a) (entry_name d b) with k | k
    · exact Or.inl (Or.inr ⟨h, k⟩)
    · exact Or.inr (Or.inr ⟨h.symm, k⟩)
  · exact Or.inr (Or.inl h)

theorem mle_trans (d : CFGData) (a b c : MergeData) (h1 : cmp_merge_data d b a = false)
    (h2 : cmp_merge_data d c b = false) : cmp_merge_data d c a = false := by
  rw [mle_iff] at h1 h2 ⊢
  rcases h1 with h1 | ⟨e1, n1⟩
  · rcases h2 with h2 | ⟨e2, _⟩
    · exact Or.inl (lt_trans h1 h2)
    · exact Or.inl (e2 ▸ h1)
  · rcases h2 with h2 | ⟨e2, n2⟩
    · exact Or.inl (e1 ▸ h2)
    · exact Or.inr ⟨e1.trans e2, le_trans n1 n2⟩

/-- The sorted list has the entries of the list, in the order of `cmp_merge_data`. -/
theorem sort_merge_data_spec (d : CFGData) (l : List MergeData) :
    (sort_merge_data d l).Perm l ∧
    (sort_merge_data d l).Pairwise (fun a b => cmp_merge_data d b a = false) := by
  haveI : IsTotal MergeData (fun a b => cmp_merge_data d b a = false) := ⟨mle_total d⟩
  haveI : IsTrans MergeData (fun a b => cmp_merge_data d b a = false) := ⟨mle_trans d⟩
  exact ⟨List.perm_insertionSort _ l, List.sorted_insertionSort _ l⟩

/-- The effect of one round of the loop of `merge_same_type`, for a queue entry whose parts
have pairwise different mergeable variables and pairwise disjoint occurrences: the
occurrences of each part are bound to a new variable, which has the type signature of the
part's variable and the least name among the parts with that type signature, and parts
with the same type signature get the same variable. -/
theorem merge_record_spec (parts : List (List Vertex)) (d : CFGData) (f : Nat → VarPtr)
    (hn : parts ≠ [])
    (hf : ∀ i, i < parts.length → fragment d parts i = Except.ok (f i))
    (hinj : ∀ i j, i < parts.length → j < parts.length → f i = f j → i = j)
    (hm : ∀ i, i < parts.length → mergeable d d.local_var_ids (f i))
    (hver : ∀ i j, i < parts.length → j < parts.length → i ≠ j →
      ∀ v ∈ parts.getD i [], ∀ w ∈ parts.getD j [], v.id ≠ w.id) :
    ∃ d' es, merge_record parts d = Except.ok d' ∧ d'.vars = d.vars ++ es ∧
      d'.todo_parts = d.todo_parts ∧ d'.root = d.root ∧
      (∀ a, (∀ i, i < parts.length → ∀ v ∈ parts.getD i [], v.id ≠ a) →
        d'.rebound a = d.rebound a) ∧
      (∀ y, y < d.vars.length → (∀ i, i < parts.length → f i ≠ y) →
        (y ∈ d'.local_var_ids ↔ y ∈ d.local_var_ids)) ∧
      (∀ i, i < parts.length → ∃ m e l, d.vars.length ≤ m ∧ d'.vars.get? m = some e ∧
        l < parts.length ∧
        (d.var_data (f l)).tinf = (d.var_data (f i)).tinf ∧
        e.name = (d.var_data (f l)).name ∧ e.tinf = (d.var_data (f i)).tinf ∧
        (∀ j, j < parts.length → (d.var_data (f j)).tinf = (d.var_data (f i)).tinf →
          (d.var_data (f l)).name ≤ (d.var_data (f j)).name ∧
          ∀ w ∈ parts.getD j [], d'.rebound w.id = some m) ∧
        ((∀ j, j < parts.length → (d.var_data (f j)).tinf = (d.var_data (f i)).tinf →
            (d.var_data (f j)).type = VarType.var_local_t) →
          e.type = VarType.var_local_t ∧ e.param_i = -1 ∧ m ∈ d'.local_var_ids)) := by
  -- the entries and their sorted list
  have htm := make_merge_data_map d parts f (List.range parts.length)
    (fun i hi => hf i (List.mem_range.mp hi))
  obtain ⟨hperm, hsorted⟩ := sort_merge_data_spec d
    ((List.range parts.length).map fun i => ({ id := i, var := f i } : MergeData))
  generalize hS : sort_merge_data d
    ((List.range parts.length).map fun i => ({ id := i, var := f i } : MergeData)) = S
    at hperm hsorted
  have hmemS : ∀ x, x ∈ S ↔ ∃ i, i < parts.length ∧ x = { id := i, var := f i } := by
    intro x
    rw [hperm.mem_iff, List.mem_map]
    constructor
    · rintro ⟨i, hi, rfl⟩
      exact ⟨i, List.mem_range.mp hi, rfl⟩
    · rintro ⟨i, hi, rfl⟩
      exact ⟨i, List.mem_range.mpr hi, rfl⟩
  have hSne : S ≠ [] := by
    intro e
    have h0 : (0 : Nat) < parts.length := List.length_pos.mpr hn
    have := (hmemS { id := 0, var := f 0 }).mpr ⟨0, h0, rfl⟩
    rw [e] at this
    cases this
  have hvalid : ∀ x ∈ ([] : List MergeData) ++ S, x.var < d.vars.length := by
    intro x hx
    obtain ⟨i, hi, rfl⟩ := (hmemS x).mp (by simpa using hx)
    obtain ⟨_, _, _, hlt⟩ := (fragment_ok_iff d parts i (f i)).mp (hf i hi)
    exact hlt
  have hrun : merge_record parts d = merge_runs parts
      ((runs (entry_tinf d) [] S).map (List.map fun x => x.id)) d := by
    unfold merge_record
    rw [htm]
    dsimp only
    rw [hS]
    exact merge_groups_eq_runs parts d S [] d ⟨[], by simp⟩ hvalid
  -- the groups
  have hflat : ((runs (entry_tinf d) [] S).map (List.map fun x => x.id)).flatten =
      S.map fun x => x.id := by
    rw [← List.map_flatten, runs_flatten]
    rfl
  have hidperm : (S.map fun x => x.id).Perm (List.range parts.length) := by
    have := hperm.map (fun x : MergeData => x.id)
    rw [List.map_map] at this
    have e : ((fun x : MergeData => x.id) ∘ fun i => ({ id := i, var := f i } : MergeData)) =
        id := rfl
    rw [e, List.map_id] at this
    exact this
  have hmemid : ∀ i, i ∈ (S.map fun x => x.id) ↔ i < parts.length := by
    intro i
    rw [hidperm.mem_iff, List.mem_range]
  have hnodup : (S.map fun x => x.id).Nodup :=
    hidperm.nodup_iff.mpr (List.nodup_range _)
  obtain ⟨d', es, k1, k2, k3, k4, k5, k6, k7⟩ := merge_runs_spec parts f
    ((runs (entry_tinf d) [] S).map (List.map fun x => x.id)) d
    (by
      intro g hg
      obtain ⟨G, hG, rfl⟩ := List.mem_map.mp hg
      have := runs_ne_nil (entry_tinf d) S [] (by simpa using hSne) G hG
      simpa using this)
    (by rw [hflat]; exact hnodup)
    (by rw [hflat]; exact fun i hi => hf i ((hmemid i).mp hi))
    (by rw [hflat]; exact fun i hi j hj => hinj i j ((hmemid i).mp hi) ((hmemid j).mp hj))
    (by rw [hflat]; exact fun i hi => hm i ((hmemid i).mp hi))
    (by rw [hflat]; exact fun i hi j hj => hver i j ((hmemid i).mp hi) ((hmemid j).mp hj))
  rw [hflat] at k5 k6
  refine ⟨d', es, by rw [hrun]; exact k1, k2, k3, k4, ?_, ?_, ?_⟩
  · intro a ha
    apply k5
    rw [touched_false_iff]
    exact fun i hi => ha i ((hmemid i).mp hi)
  · intro y hy hny
    exact k6 y hy (fun i hi => hny i ((hmemid i).mp hi))
  · intro i hi
    -- the group of part `i`
    have hxS : ({ id := i, var := f i } : MergeData) ∈ S := (hmemS _).mpr ⟨i, hi, rfl⟩
    have hxf : ({ id := i, var := f i } : MergeData) ∈ (runs (entry_tinf d) [] S).flatten := by
      rw [runs_flatten]
      simpa using hxS
    obtain ⟨G, hG, hxG⟩ := List.mem_flatten.mp hxf
    obtain ⟨m, e, i0, m1, m2, m3, m4, m5, m6, m7⟩ :=
      k7 (G.map fun x => x.id) (List.mem_map.mpr ⟨G, hG, rfl⟩)
    -- the first entry of the group
    rw [List.head?_map] at m4
    cases hh : G.head? with
    | none => rw [hh] at m4; cases m4
    | some x0 =>
      rw [hh] at m4
      have hi0 : x0.id = i0 := Option.some.inj m4
      have hx0G : x0 ∈ G := List.mem_of_mem_head? hh
      have hx0S : x0 ∈ S := by
        have : x0 ∈ (runs (entry_tinf d) [] S).flatten := List.mem_flatten.mpr ⟨G, hG, hx0G⟩
        rw [runs_flatten] at this
        simpa using this
      obtain ⟨l, hl, hx0⟩ := (hmemS x0).mp hx0S
      have hli0 : l = i0 := by rw [← hi0, hx0]
      subst hli0
      have hsame := runs_same (entry_tinf d) S [] (fun a ha => by cases ha) G hG
      have ht0 : (d.var_data (f l)).tinf = (d.var_data (f i)).tinf := by
        have := hsame x0 hx0G _ hxG
        rw [hx0] at this
        exact this
      have hsortT : ([] ++ S).Pairwise fun a b => entry_tinf d a ≤ entry_tinf d b := by
        rw [List.nil_append]
        refine hsorted.imp ?_
        intro a b hab
        rcases (mle_iff d a b).mp hab with h | ⟨h, _⟩
        · exact le_of_lt h
        · exact le_of_eq h
      have hGsorted := runs_pairwise (entry_tinf d)
        (fun a b => cmp_merge_data d b a = false) S [] (by simpa using hsorted) G hG
      -- a part with the same type signature is in the group
      have hjoin : ∀ j, j < parts.length →
          (d.var_data (f j)).tinf = (d.var_data (f i)).tinf →
          ({ id := j, var := f j } : MergeData) ∈ G := by
        intro j hj htj
        have hyS : ({ id := j, var := f j } : MergeData) ∈ S := (hmemS _).mpr ⟨j, hj, rfl⟩
        have hyf : ({ id := j, var := f j } : MergeData) ∈
            (runs (entry_tinf d) [] S).flatten := by
          rw [runs_flatten]
          simpa using hyS
        obtain ⟨G', hG', hyG'⟩ := List.mem_flatten.mp hyf
        have := runs_complete (entry_tinf d) S [] (fun a ha => by cases ha) hsortT
          G' hG' G hG _ hyG' _ hxG htj
        rw [← this]
        exact hyG'
      refine ⟨m, e, l, m1, m2, hl, ht0, m5, by rw [m6, ht0], ?_, ?_⟩
      · intro j hj htj
        have hyG := hjoin j hj htj
        constructor
        · obtain ⟨ys, hys⟩ := List.head?_eq_some_iff.mp hh
          rw [hys] at hyG hGsorted
          rcases List.mem_cons.mp hyG with e1 | e1
          · have : f j = f l := by
              have := congrArg MergeData.var e1
              rw [hx0] at this
              exact this
            rw [this]
          · have := List.rel_of_pairwise_cons hGsorted e1
            rw [hx0] at this
            rcases (mle_iff d _ _).mp this with h | ⟨_, h⟩
            · unfold entry_tinf at h
              dsimp only at h
              rw [ht0, htj] at h
              exact absurd h (lt_irrefl _)
            · exact h
        · intro w hw
          exact m3 j (List.mem_map.mpr ⟨_, hyG, rfl⟩) w hw
      · intro hall
        apply m7
        intro j hj
        obtain ⟨y, hy, rfl⟩ := List.mem_map.mp hj
        have hyS : y ∈ S := by
          have : y ∈ (runs (entry_tinf d) [] S).flatten := List.mem_flatten.mpr ⟨G, hG, hy⟩
          rw [runs_flatten] at this
          simpa using this
        obtain ⟨j', hj', rfl⟩ := (hmemS y).mp hyS
        exact hall j' hj' (hsame _ hy _ hxG)

theorem getD_of_lt (parts : List (List Vertex)) (i : Nat) (h : i < parts.length) :
    parts.getD i [] = parts[i] := by
  rw [List.getD_eq_getElem?_getD, List.getElem?_eq_getElem h]
  rfl

theorem merge_record_merged (parts : List (List Vertex)) (d : CFGData)
    (hn : parts ≠ []) (hr : parts_ready d parts) :
    ∃ d' es, merge_record parts d = Except.ok d' ∧ d'.vars = d.vars ++ es ∧
      d'.todo_parts = d.todo_parts ∧ d'.root = d.root ∧
      (∀ a, (∀ p ∈ parts, ∀ v ∈ p, v.id ≠ a) → d'.rebound a = d.rebound a) ∧
      (∀ y, y < d.vars.length → (∀ p ∈ parts, frag d p ≠ some y) →
        (y ∈ d'.local_var_ids ↔ y ∈ d.local_var_ids)) ∧
      record_merged parts d d' := by
  obtain ⟨hfr, hpw⟩ := hr
  rw [List.pairwise_iff_getElem] at hpw
  -- the variable of the part with index `i`
  have hfi : ∀ i (hi : i < parts.length),
      frag d parts[i] = some ((frag d (parts.getD i [])).getD 0) := by
    intro i hi
    obtain ⟨x, hx, _⟩ := hfr parts[i] (List.getElem_mem hi)
    rw [getD_of_lt parts i hi, hx]
    rfl
  have hf : ∀ i, i < parts.length →
      fragment d parts i = Except.ok ((frag d (parts.getD i [])).getD 0) := by
    intro i hi
    obtain ⟨x, hx, vd, hvd, _⟩ := hfr parts[i] (List.getElem_mem hi)
    rw [fragment_ok_iff]
    refine ⟨parts[i], ?_, hfi i hi, ?_⟩
    · rw [List.get?_eq_getElem?, List.getElem?_eq_getElem hi]
    · rw [getD_of_lt parts i hi, hx]
      exact get_lt d x vd hvd
  have hsym : ∀ i j (hi : i < parts.length) (hj : j < parts.length), i ≠ j →
      frag d parts[i] ≠ frag d parts[j] ∧ ∀ v ∈ parts[i], ∀ w ∈ parts[j], v.id ≠ w.id := by
    intro i j hi hj hne
    rcases Nat.lt_or_gt_of_ne hne with h | h
    · exact hpw i j hi hj h
    · obtain ⟨a, b⟩ := hpw j i hj hi h
      exact ⟨Ne.symm a, fun v hv w hw e => b w hw v hv e.symm⟩
  obtain ⟨d', es, k1, k2, k3, k4, k5, k6, k7⟩ := merge_record_spec parts d
    (fun i => (frag d (parts.getD i [])).getD 0) hn hf
    (by
      intro i j hi hj hij
      by_contra hne
      apply (hsym i j hi hj hne).1
      rw [hfi i hi, hfi j hj]
      exact congrArg some hij)
    (by
      intro i hi
      obtain ⟨x, hx, hmx⟩ := hfr parts[i] (List.getElem_mem hi)
      dsimp only
      rw [getD_of_lt parts i hi, hx]
      exact hmx)
    (by
      intro i j hi hj hne v hv w hw
      rw [getD_of_lt parts i hi] at hv
      rw [getD_of_lt parts j hj] at hw
      exact (hsym i j hi hj hne).2 v hv w hw)
  refine ⟨d', es, k1, k2, k3, k4, ?_, ?_, ?_⟩
  · intro a ha
    apply k5
    intro i hi v hv
    rw [getD_of_lt parts i hi] at hv
    exact ha parts[i] (List.getElem_mem hi) v hv
  · intro y hy hny
    apply k6 y hy
    intro i hi e
    apply hny parts[i] (List.getElem_mem hi)
    rw [hfi i hi]
    exact congrArg some e
  · intro pi hpi xi hxi
    obtain ⟨i, hi, rfl⟩ := List.getElem_of_mem hpi
    have hxi' : (frag d (parts.getD i [])).getD 0 = xi := by
      have := hfi i hi
      rw [hxi] at this
      exact (Option.some.inj this).symm
    obtain ⟨m, e, l, m1, m2, m3, m4, m5, m6, m7, m8⟩ := k7 i hi
    rw [hxi'] at m4 m6 m7 m8
    refine ⟨m, e, m1, m2, m6, ⟨parts[l], List.getElem_mem m3, _, hfi l m3, m4, m5⟩, ?_, ?_⟩
    · intro pj hpj xj hxj htj
      obtain ⟨j, hj, rfl⟩ := List.getElem_of_mem hpj
      have hxj' : (frag d (parts.getD j [])).getD 0 = xj := by
        have := hfi j hj
        rw [hxj] at this
        exact (Option.some.inj this).symm
      have := m7 j hj (by rw [hxj']; exact htj)
      rw [hxj', getD_of_lt parts j hj] at this
      rw [m5]
      exact this
    · intro hall
      apply m8
      intro j hj htj
      exact hall parts[j] (List.getElem_mem hj) _ (hfi j hj) htj

theorem frag_frame (d d1 : CFGData) (p : List Vertex)
    (h : ∀ v ∈ p, d1.rebound v.id = d.rebound v.id) : frag d1 p = frag d p := by
  unfold frag
  cases e : p.head? with
  | none => rfl
  | some v =>
    dsimp only
    unfold CFGData.get_var_id
    rw [h v (List.mem_of_mem_head? e)]

/-- The result of merging a queue entry stays when later steps extend the variable table
and keep the bindings of its occurrences and the new locals. -/
theorem record_merged_later (parts : List (List Vertex)) (d d1 d' : CFGData)
    (es : List VarData) (h : record_merged parts d d1) (hv : d'.vars = d1.vars ++ es)
    (hreb : ∀ p ∈ parts, ∀ w ∈ p, d'.rebound w.id = d1.rebound w.id)
    (hl : ∀ m, d.vars.length ≤ m → m < d1.vars.length →
      (m ∈ d'.local_var_ids ↔ m ∈ d1.local_var_ids)) : record_merged parts d d' := by
  intro pi hpi xi hxi
  obtain ⟨m, e, m1, m2, m3, m4, m5, m6⟩ := h pi hpi xi hxi
  have hm : m < d1.vars.length := get_lt d1 m e m2
  refine ⟨m, e, m1, ?_, m3, m4, ?_, ?_⟩
  · rw [get_extended d1 d' es m hv hm]
    exact m2
  · intro pj hpj xj hxj htj
    obtain ⟨a, b⟩ := m5 pj hpj xj hxj htj
    refine ⟨a, fun w hw => ?_⟩
    rw [hreb pj hpj w hw]
    exact b w hw
  · intro hall
    obtain ⟨a, b, c⟩ := m6 hall
    exact ⟨a, b, (hl m m1 hm).mpr c⟩

/-- The result of merging a queue entry, read from an earlier state in which its parts had
the same variables. -/
theorem record_merged_earlier (parts : List (List Vertex)) (d d1 d' : CFGData)
    (es : List VarData) (h : record_merged parts d1 d') (hv : d1.vars = d.vars ++ es)
    (hfrag : ∀ p ∈ parts, frag d1 p = frag d p)
    (hlt : ∀ p ∈ parts, ∀ x, frag d p = some x → x < d.vars.length) :
    record_merged parts d d' := by
  have hvd : ∀ p ∈ parts, ∀ x, frag d p = some x → d1.var_data x = d.var_data x :=
    fun p hp x hx => var_data_extended d d1 es x hv (hlt p hp x hx)
  intro pi hpi xi hxi
  obtain ⟨m, e, m1, m2, m3, m4, m5, m6⟩ := h pi hpi xi (by rw [hfrag pi hpi]; exact hxi)
  have hxi' := hvd pi hpi xi hxi
  rw [hxi'] at m3 m4 m5 m6
  refine ⟨m, e, ?_, m2, m3, ?_, ?_, ?_⟩
  · refine Nat.le_trans ?_ m1
    rw [hv, List.length_append]
    exact Nat.le_add_right _ _
  · obtain ⟨pl, hpl, xl, a, b, c⟩ := m4
    rw [hfrag pl hpl] at a
    rw [hvd pl hpl xl a] at b c
    exact ⟨pl, hpl, xl, a, b, c⟩
  · intro pj hpj xj hxj htj
    have := m5 pj hpj xj (by rw [hfrag pj hpj]; exact hxj)
    rw [hvd pj hpj xj hxj] at this
    exact this htj
  · intro hall
    apply m6
    intro pj hpj xj hxj htj
    rw [hfrag pj hpj] at hxj
    rw [hvd pj hpj xj hxj] at htj ⊢
    exact hall pj hpj xj hxj htj

/-- The effect of the loop of `merge_same_type` over queue entries whose parts can be
merged. -/
theorem merge_records_spec (rs : List (List (List Vertex))) :
    ∀ (d : CFGData), (∀ parts ∈ rs, parts ≠ []) → parts_ready d rs.flatten →
    ∃ d' es, merge_records rs d = Except.ok d' ∧ d'.vars = d.vars ++ es ∧
      d'.todo_parts = d.todo_parts ∧ d'.root = d.root ∧
      (∀ a, (∀ p ∈ rs.flatten, ∀ v ∈ p, v.id ≠ a) → d'.rebound a = d.rebound a) ∧
      (∀ y, y < d.vars.length → (∀ p ∈ rs.flatten, frag d p ≠ some y) →
        (y ∈ d'.local_var_ids ↔ y ∈ d.local_var_ids)) ∧
      ∀ parts ∈ rs, record_merged parts d d' := by
  induction rs with
  | nil =>
    intro d _ _
    refine ⟨d, [], rfl, by simp, rfl, rfl, fun _ _ => rfl, fun _ _ _ => Iff.rfl, ?_⟩
    intro parts hp
    cases hp
  | cons parts rs ih =>
    intro d hne hr
    have hflat : (parts :: rs).flatten = parts ++ rs.flatten := rfl
    rw [hflat] at hr
    obtain ⟨hfr, hpw⟩ := hr
    obtain ⟨hpw1, hpw2, hcross⟩ := List.pairwise_append.mp hpw
    obtain ⟨d1, es1, k1, k2, k3, k4, k5, k6, k7⟩ := merge_record_merged parts d
      (hne parts (List.mem_cons_self _ _))
      ⟨fun p hp => hfr p (List.mem_append_left _ hp), hpw1⟩
    -- the later parts keep their variables
    have hreb1 : ∀ p ∈ rs.flatten, ∀ v ∈ p, d1.rebound v.id = d.rebound v.id := by
      intro p hp v hv
      apply k5
      intro q hq w hw
      exact (hcross q hq p hp).2 w hw v hv
    have hfrag1 : ∀ p ∈ rs.flatten, frag d1 p = frag d p :=
      fun p hp => frag_frame d d1 p (hreb1 p hp)
    have hlt : ∀ p ∈ parts ++ rs.flatten, ∀ x, frag d p = some x → x < d.vars.length := by
      intro p hp x hx
      obtain ⟨y, hy, vd, hvd, _⟩ := hfr p hp
      rw [hx] at hy
      cases hy
      exact get_lt d x vd hvd
    have hready1 : parts_ready d1 rs.flatten := by
      constructor
      · intro p hp
        obtain ⟨x, hx, hmx⟩ := hfr p (List.mem_append_right _ hp)
        refine ⟨x, by rw [hfrag1 p hp]; exact hx, ?_⟩
        apply mergeable_frame d d1 es1 x k2 _ hmx
        apply k6 x (hlt p (List.mem_append_right _ hp) x hx)
        intro q hq e
        exact (hcross q hq p hp).1 (e.trans hx.symm)
      · refine hpw2.imp_of_mem ?_
        intro p q hp hq h
        rw [hfrag1 p hp, hfrag1 q hq]
        exact h
    obtain ⟨d', es, j1, j2, j3, j4, j5, j6, j7⟩ := ih d1
      (fun ps hps => hne ps (List.mem_cons_of_mem _ hps)) hready1
    have hlen1 : d.vars.length ≤ d1.vars.length := by
      rw [k2, List.length_append]
      exact Nat.le_add_right _ _
    refine ⟨d', es1 ++ es, ?_, ?_, ?_, ?_, ?_, ?_, ?_⟩
    · unfold merge_records
      rw [k1]
      exact j1
    · rw [j2, k2, List.append_assoc]
    · rw [j3, k3]
    · rw [j4, k4]
    · intro a ha
      rw [j5 a (fun p hp v hv => ha p (List.mem_append_right _ hp) v hv)]
      exact k5 a (fun p hp v hv => ha p (List.mem_append_left _ hp) v hv)
    · intro y hy hny
      rw [j6 y (Nat.lt_of_lt_of_le hy hlen1)]
      · exact k6 y hy (fun p hp => hny p (List.mem_append_left _ hp))
      · intro p hp
        rw [hfrag1 p hp]
        exact hny p (List.mem_append_right _ hp)
    · intro ps hps
      rcases List.mem_cons.mp hps with rfl | hps
      · apply record_merged_later ps d d1 d' es k7 j2
        · intro p hp w hw
          apply j5
          intro q hq v hv e
          exact (hcross p hp q hq).2 w hw v hv e.symm
        · intro m hm1 hm2
          apply j6 m hm2
          intro p hp e
          rw [hfrag1 p hp] at e
          have := hlt p (List.mem_append_right _ hp) m e
          exact absurd this (Nat.not_lt.mpr hm1)
      · apply record_merged_earlier ps d d1 d' es1 (j7 ps hps) k2
        · intro p hp
          exact hfrag1 p (List.mem_flatten.mpr ⟨ps, hps, hp⟩)
        · intro p hp x hx
          exact hlt p (List.mem_append_right _ (List.mem_flatten.mpr ⟨ps, hps, hp⟩)) x hx

theorem var_mergeable_iff (d : CFGData) (x : VarPtr) :
    var_mergeable d x = true ↔ mergeable d d.local_var_ids x := by
  unfold var_mergeable mergeable
  cases h : d.vars.get? x with
  | none => simp
  | some vd => simp

theorem parts_ready_of_merge_ready (d : CFGData) (h : merge_ready d) :
    parts_ready d d.todo_parts.flatten := by
  obtain ⟨_, h2, h3⟩ := h
  refine ⟨?_, h3⟩
  intro p hp
  have := h2 p hp
  unfold part_mergeable at this
  cases e : frag d p with
  | none => rw [e] at this; cases this
  | some x =>
    rw [e] at this
    exact ⟨x, rfl, (var_mergeable_iff d x).mp this⟩

theorem get_var_id_of_rebound (d : CFGData) (v : Vertex) (m : VarPtr)
    (h : d.rebound v.id = some m) : d.get_var_id v = some m := by
  unfold CFGData.get_var_id
  rw [h]

/-- C13. On a queue of splits as `split_var` leaves it, `merge_same_type` succeeds, and for
every queue entry and any two of its parts `pi`, `pj` with the variables (fragments) `xi`,
`xj`: an occurrence of `pi` and an occurrence of `pj` are bound afterwards to the same
variable if and only if the type signatures of `xi` and `xj` are equal; all occurrences of
`pi` are bound to one variable `m` created by the merge, whose name is the name of a
fragment of the entry with the type signature of `xi` and is not above the name of any
fragment with that type signature (the least of the group in the order by type signature,
then name). -/
theorem merge_groups_by_type (d : CFGData) (h : merge_ready d) :
    ∃ d', d.merge_same_type = Except.ok d' ∧
      ∀ parts ∈ d.todo_parts, ∀ pi ∈ parts, ∀ pj ∈ parts, ∀ xi xj,
        frag d pi = some xi → frag d pj = some xj →
        (∀ v ∈ pi, ∀ w ∈ pj, (d'.get_var_id v = d'.get_var_id w ↔
          (d.var_data xi).tinf = (d.var_data xj).tinf)) ∧
        ∃ m e, (∀ v ∈ pi, d'.get_var_id v = some m) ∧ d.vars.length ≤ m ∧
          d'.vars.get? m = some e ∧
          (∃ pl ∈ parts, ∃ xl, frag d pl = some xl ∧
            (d.var_data xl).tinf = (d.var_data xi).tinf ∧ e.name = (d.var_data xl).name) ∧
          (∀ pk ∈ parts, ∀ xk, frag d pk = some xk →
            (d.var_data xk).tinf = (d.var_data xi).tinf → e.name ≤ (d.var_data xk).name) := by
  obtain ⟨d', es, k1, _, _, _, _, _, k7⟩ :=
    merge_records_spec d.todo_parts d (fun ps hps => List.length_pos.mp (h.1 ps hps))
      (parts_ready_of_merge_ready d h)
  refine ⟨d', k1, ?_⟩
  intro parts hparts pi hpi pj hpj xi xj hxi hxj
  obtain ⟨m, e, m1, m2, m3, m4, m5, _⟩ := k7 parts hparts pi hpi xi hxi
  obtain ⟨m', e', _, n2, n3, _, n5, _⟩ := k7 parts hparts pj hpj xj hxj
  have hbi : ∀ v ∈ pi, d'.get_var_id v = some m :=
    fun v hv => get_var_id_of_rebound d' v m ((m5 pi hpi xi hxi rfl).2 v hv)
  have hbj : ∀ w ∈ pj, d'.get_var_id w = some m' :=
    fun w hw => get_var_id_of_rebound d' w m' ((n5 pj hpj xj hxj rfl).2 w hw)
  refine ⟨?_, m, e, hbi, m1, m2, m4, fun pk hpk xk hxk htk => (m5 pk hpk xk hxk htk).1⟩
  intro v hv w hw
  constructor
  · intro hvw
    rw [hbi v hv, hbj w hw] at hvw
    have hmm : m = m' := Option.some.inj hvw
    subst hmm
    rw [m2] at n2
    have hee : e = e' := Option.some.inj n2
    subst hee
    rw [← m3, n3]
  · intro ht
    rw [hbi v hv]
    exact (get_var_id_of_rebound d' w m ((m5 pj hpj xj hxj ht.symm).2 w hw)).symm

set_option maxRecDepth 100000 in
/-- Witness of C13: the sample queue entry with the type signatures `int`, `string`,
`int`. -/
theorem merge_groups_by_type_witness :
    ∃ d', sample_merge_data.merge_same_type = Except.ok d' ∧
      ∀ parts ∈ sample_merge_data.todo_parts, ∀ pi ∈ parts, ∀ pj ∈ parts, ∀ xi xj,
        frag sample_merge_data pi = some xi → frag sample_merge_data pj = some xj →
        (∀ v ∈ pi, ∀ w ∈ pj, (d'.get_var_id v = d'.get_var_id w ↔
          (sample_merge_data.var_data xi).tinf = (sample_merge_data.var_data xj).tinf)) ∧
        ∃ m e, (∀ v ∈ pi, d'.get_var_id v = some m) ∧ sample_merge_data.vars.length ≤ m ∧
          d'.vars.get? m = some e ∧
          (∃ pl ∈ parts, ∃ xl, frag sample_merge_data pl = some xl ∧
            (sample_merge_data.var_data xl).tinf = (sample_merge_data.var_data xi).tinf ∧
            e.name = (sample_merge_data.var_data xl).name) ∧
          (∀ pk ∈ parts, ∀ xk, frag sample_merge_data pk = some xk →
            (sample_merge_data.var_data xk).tinf = (sample_merge_data.var_data xi).tinf →
            e.name ≤ (sample_merge_data.var_data xk).name) :=
  merge_groups_by_type sample_merge_data ⟨by decide, by decide, by decide⟩

/-- A successful loop of `merge_vars` removes from the table of locals one entry for each
local in `vars`. -/
theorem merge_vars_loop_count (d : CFGData) (vars : List VarPtr) :
    ∀ (p : Int) (lids : List VarPtr) (p' : Int) (lids' : List VarPtr),
    merge_vars_loop d vars p lids = Except.ok (p', lids') →
    (∀ y : Nat, lids'.count y ≤ lids.count y) ∧
    (∀ (y : Nat) (vd : VarData), d.vars.get? y = some vd → vd.type = VarType.var_local_t →
      vars.count y + lids'.count y ≤ lids.count y) ∧
    (p' = p ∨ ∃ x ∈ vars, ∃ vd, d.vars.get? x = some vd ∧ vd.type = VarType.var_param_t ∧
      p' = vd.param_i) := by
  induction vars with
  | nil =>
    intro p lids p' lids' h
    cases h
    exact ⟨fun _ => Nat.le_refl _, fun y _ _ _ => by simp, Or.inl rfl⟩
  | cons x rest ih =>
    intro p lids p' lids' h
    unfold merge_vars_loop at h
    cases e : d.vars.get? x with
    | none => rw [e] at h; cases h
    | some vd =>
      rw [e] at h
      dsimp only at h
      by_cases hp : vd.type = VarType.var_param_t
      · rw [if_pos hp] at h
        obtain ⟨h1, h2, h3⟩ := ih _ _ _ _ h
        refine ⟨h1, ?_, ?_⟩
        · intro y vy hy hl
          have hyx : y ≠ x := by
            intro e'
            rw [e'] at hy
            rw [e] at hy
            cases hy
            rw [hp] at hl
            cases hl
          rw [List.count_cons_of_ne hyx]
          exact h2 y vy hy hl
        · rcases h3 with a | ⟨z, hz, vz, b, c, dd⟩
          · exact Or.inr ⟨x, List.mem_cons_self _ _, vd, e, hp, a⟩
          · exact Or.inr ⟨z, List.mem_cons_of_mem _ hz, vz, b, c, dd⟩
      · rw [if_neg hp] at h
        by_cases hl : vd.type = VarType.var_local_t
        · rw [if_pos hl] at h
          by_cases hm : x ∈ lids
          · rw [if_pos hm] at h
            obtain ⟨h1, h2, h3⟩ := ih _ _ _ _ h
            have hle : ∀ y : Nat, (lids.erase x).count y ≤ lids.count y :=
              fun y => (List.erase_sublist x lids).count_le y
            refine ⟨fun y => Nat.le_trans (h1 y) (hle y), ?_, ?_⟩
            · intro y vy hy hly
              by_cases hyx : y = x
              · subst hyx
                have := h2 y vy hy hly
                rw [List.count_erase_self] at this
                rw [List.count_cons_self]
                have hpos : 0 < lids.count y := List.count_pos_iff.mpr hm
                omega
              · rw [List.count_cons_of_ne hyx]
                have := h2 y vy hy hly
                rw [List.count_erase_of_ne hyx] at this
                exact this
            · rcases h3 with a | ⟨z, hz, vz, b, c, dd⟩
              · exact Or.inl a
              · exact Or.inr ⟨z, List.mem_cons_of_mem _ hz, vz, b, c, dd⟩
          · rw [if_neg hm] at h
            cases h
        · rw [if_neg hl] at h
          cases h

/-- What a successful `merge_vars` does, for any variables. -/
theorem merge_vars_frame (d d1 : CFGData) (vars : List VarPtr) (new_name : String)
    (m : VarPtr) (h : d.merge_vars vars new_name = Except.ok (m, d1)) :
    m = d.vars.length ∧ d1.rebound = d.rebound ∧ merge_frame (fun _ => False) d d1 ∧
    ∀ (y : Nat) (vd : VarData), d.vars.get? y = some vd → vd.type = VarType.var_local_t →
      vars.count y ≤ d.local_var_ids.count y := by
  unfold CFGData.merge_vars at h
  cases e0 : vars.head? with
  | none => rw [e0] at h; cases h
  | some v0 =>
    rw [e0] at h
    dsimp only at h
    cases e1 : d.vars.get? v0 with
    | none => rw [e1] at h; cases h
    | some vd0 =>
      rw [e1] at h
      dsimp only at h
      cases e2 : merge_vars_loop d vars (-1) d.local_var_ids with
      | error e => rw [e2] at h; cases h
      | ok r =>
        obtain ⟨p, lids⟩ := r
        rw [e2] at h
        dsimp only at h
        obtain ⟨c1, c2, _⟩ := merge_vars_loop_count d vars _ _ _ _ e2
        have hcount : ∀ (y : Nat) (vd : VarData), d.vars.get? y = some vd →
            vd.type = VarType.var_local_t → vars.count y ≤ d.local_var_ids.count y := by
          intro y vd hy hl
          have := c2 y vd hy hl
          omega
        have hsub : ∀ y ∈ lids, y ∈ d.local_var_ids := by
          intro y hy
          have := c1 y
          have hpos : 0 < lids.count y := List.count_pos_iff.mpr hy
          exact List.count_pos_iff.mp (by omega)
        by_cases hp : p = -1
        · rw [if_neg (not_not.mpr hp)] at h
          cases h
          refine ⟨rfl, rfl, ⟨⟨_, rfl⟩, fun _ _ => rfl, ?_, ?_, rfl⟩, hcount⟩
          · intro y hy
            show (lids ++ [d.vars.length]).count y ≤ _
            rw [List.count_append, List.count_singleton]
            have hne : (d.vars.length == y) = false := by
              rw [beq_eq_false_iff_ne]
              omega
            rw [hne]
            simpa using c1 y
          · intro L ⟨l1, l2⟩
            constructor
            · intro y hy
              show y < (d.vars ++ [_]).length
              rw [List.length_append]
              rcases List.mem_append.mp hy with a | b
              · exact Nat.lt_of_lt_of_le (l1 y (hsub y a)) (Nat.le_add_right _ _)
              · rw [List.mem_singleton.mp b]
                exact Nat.lt_succ_self _
            · intro y hy
              show (lids ++ [d.vars.length]).count y ≤ 1
              rw [List.count_append, List.count_singleton]
              by_cases hyn : d.vars.length = y
              · have hz : lids.count y = 0 := by
                  apply List.count_eq_zero_of_not_mem
                  intro hc
                  have := l1 y (hsub y hc)
                  rw [← hyn] at this
                  exact Nat.lt_irrefl _ this
                rw [hz]
                split <;> omega
              · have hne : (d.vars.length == y) = false := by
                  rw [beq_eq_false_iff_ne]
                  exact hyn
                rw [hne]
                have := c1 y
                have := l2 y hy
                simp only [Bool.false_eq_true, if_false]
                omega
        · rw [if_pos hp] at h
          by_cases hn : p < 0
          · rw [if_pos hn] at h
            cases h
          · rw [if_neg hn] at h
            cases h
            refine ⟨rfl, rfl, ⟨⟨_, rfl⟩, fun _ _ => rfl, fun y _ => c1 y, ?_, rfl⟩, hcount⟩
            intro L ⟨l1, l2⟩
            constructor
            · intro y hy
              show y < (d.vars ++ [_]).length
              rw [List.length_append]
              exact Nat.lt_of_lt_of_le (l1 y (hsub y hy)) (Nat.le_add_right _ _)
            · intro y hy
              exact Nat.le_trans (c1 y) (l2 y hy)

theorem merge_frame_refl (ids : Nat → Prop) (d : CFGData) : merge_frame ids d d :=
  ⟨⟨[], by simp⟩, fun _ _ => rfl, fun _ _ => Nat.le_refl _, fun _ h => h, rfl⟩

theorem merge_frame_trans (i1 i2 : Nat → Prop) (d d1 d2 : CFGData)
    (h1 : merge_frame i1 d d1) (h2 : merge_frame i2 d1 d2) :
    merge_frame (fun a => i1 a ∨ i2 a) d d2 := by
  obtain ⟨⟨es1, a1⟩, b1, c1, e1, f1⟩ := h1
  obtain ⟨⟨es2, a2⟩, b2, c2, e2, f2⟩ := h2
  refine ⟨⟨es1 ++ es2, by rw [a2, a1, List.append_assoc]⟩, ?_, ?_, fun L h => e2 L (e1 L h),
    by rw [f2, f1]⟩
  · intro a ha
    rw [b2 a (fun h => ha (Or.inr h)), b1 a (fun h => ha (Or.inl h))]
  · intro y hy
    have hy1 : y < d1.vars.length := by
      rw [a1, List.length_append]
      omega
    exact Nat.le_trans (c2 y hy1) (c1 y hy)

theorem merge_frame_mono (i1 i2 : Nat → Prop) (d d1 : CFGData) (hi : ∀ a, i1 a → i2 a)
    (h : merge_frame i1 d d1) : merge_frame i2 d d1 := by
  obtain ⟨a, b, c, e, f⟩ := h
  exact ⟨a, fun x hx => b x (fun h => hx (hi x h)), c, e, f⟩

theorem fragments_ok (d : CFGData) (parts : List (List Vertex)) (ids : List Nat) :
    ∀ vars, fragments d parts ids = Except.ok vars →
    vars.length = ids.length ∧
    ∀ k (hk : k < ids.length) (hk' : k < vars.length),
      fragment d parts ids[k] = Except.ok vars[k] := by
  induction ids with
  | nil =>
    intro vars h
    cases h
    exact ⟨rfl, fun k hk => absurd hk (Nat.not_lt_zero _)⟩
  | cons i rest ih =>
    intro vars h
    unfold fragments at h
    cases e1 : fragment d parts i with
    | error e => rw [e1] at h; cases h
    | ok x =>
      rw [e1] at h
      dsimp only at h
      cases e2 : fragments d parts rest with
      | error e => rw [e2] at h; cases h
      | ok l =>
        rw [e2] at h
        cases h
        obtain ⟨h1, h2⟩ := ih l e2
        refine ⟨by simp [h1], ?_⟩
        intro k hk hk'
        cases k with
        | zero => exact e1
        | succ k =>
          simp only [List.getElem_cons_succ]
          exact h2 k (by simpa using hk) (by simpa using hk')

/-- What a successful `merge_group` does, for any parts. -/
theorem merge_group_frame (parts : List (List Vertex)) (ids : List Nat) (d d1 : CFGData)
    (h : merge_group parts ids d = Except.ok d1) :
    merge_frame (fun a => touched parts ids a = true) d d1 ∧
    ∃ vars, fragments d parts ids = Except.ok vars ∧
      ∀ (y : Nat) (vd : VarData), d.vars.get? y = some vd → vd.type = VarType.var_local_t →
        vars.count y ≤ d.local_var_ids.count y := by
  unfold merge_group at h
  cases e0 : fragments d parts ids with
  | error e => rw [e0] at h; cases h
  | ok vars =>
    rw [e0] at h
    dsimp only at h
    cases e1 : vars.head? with
    | none => rw [e1] at h; cases h
    | some v0 =>
      rw [e1] at h
      dsimp only at h
      cases e2 : d.vars.get? v0 with
      | none => rw [e2] at h; cases h
      | some vd0 =>
        rw [e2] at h
        dsimp only at h
        cases e3 : d.merge_vars vars vd0.name with
        | error e => rw [e3] at h; cases h
        | ok r =>
          obtain ⟨m, d2⟩ := r
          rw [e3] at h
          dsimp only at h
          cases h
          obtain ⟨_, k2, ⟨k3, _, k5, k6, k7⟩, k8⟩ := merge_vars_frame d d2 vars vd0.name m e3
          refine ⟨⟨k3, ?_, k5, ?_, k7⟩, vars, rfl, k8⟩
          · intro a ha
            show (if _ then _ else d2.rebound a) = _
            have : (ids.any fun id => (parts.getD id []).any fun v => v.id == a) = false := by
              rw [Bool.eq_false_iff]
              exact ha
            rw [this, k2]
            rfl
          · intro L hL
            exact k6 L hL

theorem merge_runs_frame (parts : List (List Vertex)) (gs : List (List Nat)) :
    ∀ (d d' : CFGData), merge_runs parts gs d = Except.ok d' →
    merge_frame (fun a => touched parts gs.flatten a = true) d d' := by
  induction gs with
  | nil =>
    intro d d' h
    cases h
    exact merge_frame_refl _ _
  | cons g gs ih =>
    intro d d' h
    unfold merge_runs at h
    cases e : merge_group parts g d with
    | error e' => rw [e] at h; cases h
    | ok d1 =>
      rw [e] at h
      dsimp only at h
      have h1 := (merge_group_frame parts g d d1 e).1
      have h2 := ih d1 d' h
      refine merge_frame_mono _ _ d d' ?_ (merge_frame_trans _ _ d d1 d' h1 h2)
      intro a ha
      rw [touched_iff]
      rcases ha with ha | ha
      · obtain ⟨i, hi, r⟩ := (touched_iff parts g a).mp ha
        exact ⟨i, List.mem_append_left _ hi, r⟩
      · obtain ⟨i, hi, r⟩ := (touched_iff parts gs.flatten a).mp ha
        exact ⟨i, List.mem_append_right _ hi, r⟩

theorem merge_runs_append (parts : List (List Vertex)) (g1 : List (List Nat)) :
    ∀ (g2 : List (List Nat)) (d d' : CFGData), merge_runs parts (g1 ++ g2) d = Except.ok d' →
    ∃ dc, merge_runs parts g1 d = Except.ok dc ∧ merge_runs parts g2 dc = Except.ok d' := by
  induction g1 with
  | nil =>
    intro g2 d d' h
    exact ⟨d, rfl, h⟩
  | cons g gs ih =>
    intro g2 d d' h
    rw [List.cons_append] at h
    unfold merge_runs at h
    cases e : merge_group parts g d with
    | error e' => rw [e] at h; cases h
    | ok d1 =>
      rw [e] at h
      dsimp only at h
      obtain ⟨dc, a, b⟩ := ih g2 d1 d' h
      refine ⟨dc, ?_, b⟩
      unfold merge_runs
      rw [e]
      exact a

theorem make_merge_data_ok (d : CFGData) (parts : List (List Vertex)) (ids : List Nat) :
    ∀ tm, make_merge_data d parts ids = Except.ok tm →
    (tm.map fun x => x.id) = ids ∧ ∀ x ∈ tm, fragment d parts x.id = Except.ok x.var := by
  induction ids with
  | nil =>
    intro tm h
    cases h
    exact ⟨rfl, fun x hx => by cases hx⟩
  | cons i rest ih =>
    intro tm h
    unfold make_merge_data at h
    cases e1 : fragment d parts i with
    | error e => rw [e1] at h; cases h
    | ok x =>
      rw [e1] at h
      dsimp only at h
      cases e2 : make_merge_data d parts rest with
      | error e => rw [e2] at h; cases h
      | ok l =>
        rw [e2] at h
        cases h
        obtain ⟨h1, h2⟩ := ih l e2
        refine ⟨by simp [h1], ?_⟩
        intro y hy
        rcases List.mem_cons.mp hy with rfl | hy
        · exact e1
        · exact h2 y hy

/-- A successful round of the loop of `merge_same_type` is a run of `merge_runs` over the
groups of the sorted entries. -/
theorem merge_record_runs (parts : List (List Vertex)) (d d' : CFGData)
    (h : merge_record parts d = Except.ok d') :
    ∃ tm, make_merge_data d parts (List.range parts.length) = Except.ok tm ∧
      merge_runs parts ((runs (entry_tinf d) [] (sort_merge_data d tm)).map
        (List.map fun x => x.id)) d = Except.ok d' := by
  unfold merge_record at h
  cases e : make_merge_data d parts (List.range parts.length) with
  | error e' => rw [e] at h; cases h
  | ok tm =>
    rw [e] at h
    dsimp only at h
    refine ⟨tm, rfl, ?_⟩
    obtain ⟨_, h2⟩ := make_merge_data_ok d parts _ tm e
    have hvalid : ∀ x ∈ ([] : List MergeData) ++ sort_merge_data d tm,
        x.var < d.vars.length := by
      intro x hx
      have hx' : x ∈ tm := (sort_merge_data_spec d tm).1.mem_iff.mp (by simpa using hx)
      obtain ⟨_, _, _, hlt⟩ := (fragment_ok_iff d parts x.id x.var).mp (h2 x hx')
      exact hlt
    rw [← merge_groups_eq_runs parts d (sort_merge_data d tm) [] d ⟨[], by simp⟩ hvalid]
    exact h

theorem touched_parts (parts : List (List Vertex)) (ids : List Nat) (a : Nat)
    (h : touched parts ids a = true) : ∃ p ∈ parts, ∃ v ∈ p, v.id = a := by
  obtain ⟨i, _, v, hv, e⟩ := (touched_iff parts ids a).mp h
  by_cases hi : i < parts.length
  · rw [getD_of_lt parts i hi] at hv
    exact ⟨parts[i], List.getElem_mem hi, v, hv, e⟩
  · rw [List.getD_eq_getElem?_getD, List.getElem?_eq_none (by omega)] at hv
    cases hv

theorem merge_record_frame (parts : List (List Vertex)) (d d' : CFGData)
    (h : merge_record parts d = Except.ok d') :
    merge_frame (fun a => ∃ p ∈ parts, ∃ v ∈ p, v.id = a) d d' := by
  obtain ⟨tm, _, h2⟩ := merge_record_runs parts d d' h
  exact merge_frame_mono _ _ d d' (fun a ha => touched_parts parts _ a ha)
    (merge_runs_frame parts _ d d' h2)

theorem merge_records_frame (rs : List (List (List Vertex))) :
    ∀ (d d' : CFGData), merge_records rs d = Except.ok d' →
    merge_frame (fun a => ∃ p ∈ rs.flatten, ∃ v ∈ p, v.id = a) d d' := by
  induction rs with
  | nil =>
    intro d d' h
    cases h
    exact merge_frame_refl _ _
  | cons parts rs ih =>
    intro d d' h
    unfold merge_records at h
    cases e : merge_record parts d with
    | error e' => rw [e] at h; cases h
    | ok d1 =>
      rw [e] at h
      dsimp only at h
      refine merge_frame_mono _ _ d d' ?_
        (merge_frame_trans _ _ d d1 d' (merge_record_frame parts d d1 e) (ih d1 d' h))
      intro a ha
      rcases ha with ⟨p, hp, r⟩ | ⟨p, hp, r⟩
      · exact ⟨p, List.mem_append_left _ hp, r⟩
      · exact ⟨p, List.mem_append_right _ hp, r⟩

theorem merge_records_append (r1 : List (List (List Vertex))) :
    ∀ (r2 : List (List (List Vertex))) (d d' : CFGData),
    merge_records (r1 ++ r2) d = Except.ok d' →
    ∃ dc, merge_records r1 d = Except.ok dc ∧ merge_records r2 dc = Except.ok d' := by
  induction r1 with
  | nil =>
    intro r2 d d' h
    exact ⟨d, rfl, h⟩
  | cons parts rs ih =>
    intro r2 d d' h
    rw [List.cons_append] at h
    unfold merge_records at h
    cases e : merge_record parts d with
    | error e' => rw [e] at h; cases h
    | ok d1 =>
      rw [e] at h
      dsimp only at h
      obtain ⟨dc, a, b⟩ := ih r2 d1 d' h
      refine ⟨dc, ?_, b⟩
      unfold merge_records
      rw [e]
      exact a

theorem two_le_count (x : Nat) (l : List Nat) :
    ∀ a b : Nat, a < b → l[a]? = some x → l[b]? = some x → 2 ≤ l.count x := by
  induction l with
  | nil => intro a b _ h; simp at h
  | cons y t ih =>
    intro a b hab ha hb
    cases b with
    | zero => omega
    | succ b =>
      simp only [List.getElem?_cons_succ] at hb
      cases a with
      | zero =>
        simp only [List.getElem?_cons_zero, Option.some.injEq] at ha
        subst ha
        rw [List.count_cons_self]
        have hx : y ∈ t := by
          obtain ⟨hlt, he⟩ := List.getElem?_eq_some_iff.mp hb
          exact he ▸ List.getElem_mem hlt
        have : 0 < t.count y := List.count_pos_iff.mpr hx
        omega
      | succ a =>
        simp only [List.getElem?_cons_succ] at ha
        have := ih a b (by omega) ha hb
        rw [List.count_cons]
        omega

theorem two_le_count_of_ne (x : Nat) (l : List Nat) (a b : Nat) (hab : a ≠ b)
    (ha : l[a]? = some x) (hb : l[b]? = some x) : 2 ≤ l.count x := by
  rcases Nat.lt_or_gt_of_ne hab with h | h
  · exact two_le_count x l a b h ha hb
  · exact two_le_count x l b a h hb ha

/-- A round of the loop of `merge_same_type` fails when two different parts of the queue
entry are bound to the same local variable and the table of locals holds that variable at
most once: `merge_vars` removes the variable from the table of locals once for each of the
two parts. -/
theorem merge_record_fails (parts : List (List Vertex)) (da : CFGData) (i j : Nat)
    (m : VarPtr) (e : VarData) (hij : i ≠ j)
    (hi : fragment da parts i = Except.ok m) (hj : fragment da parts j = Except.ok m)
    (hm : da.vars.get? m = some e) (hl : e.type = VarType.var_local_t)
    (hc : da.local_var_ids.count m ≤ 1)
    (hver : ∀ k l, k < parts.length → l < parts.length → k ≠ l →
      ∀ v ∈ parts.getD k [], ∀ w ∈ parts.getD l [], v.id ≠ w.id)
    (db : CFGData) : merge_record parts da ≠ Except.ok db := by
  intro h
  obtain ⟨tm, h1, h2⟩ := merge_record_runs parts da db h
  obtain ⟨t1, t2⟩ := make_merge_data_ok da parts _ tm h1
  obtain ⟨hperm, hsorted⟩ := sort_merge_data_spec da tm
  generalize sort_merge_data da tm = S at h2 hperm hsorted
  have hin : ∀ k, fragment da parts k = Except.ok m → k < parts.length := by
    intro k hk
    obtain ⟨p, hp, _⟩ := (fragment_ok_iff da parts k m).mp hk
    rw [List.get?_eq_getElem?] at hp
    exact (List.getElem?_eq_some_iff.mp hp).1
  -- the entries of the two parts
  have hentry : ∀ k, fragment da parts k = Except.ok m →
      ({ id := k, var := m } : MergeData) ∈ S := by
    intro k hk
    have : k ∈ tm.map fun x => x.id := by
      rw [t1]
      exact List.mem_range.mpr (hin k hk)
    obtain ⟨x, hx, hxk⟩ := List.mem_map.mp this
    have hxv := t2 x hx
    rw [hxk, hk] at hxv
    have hxe : x = { id := k, var := m } := by
      cases x
      simp only [MergeData.mk.injEq]
      exact ⟨hxk, (Except.ok.inj hxv).symm⟩
    rw [← hxe]
    exact hperm.mem_iff.mpr hx
  have hidS : (S.map fun x => x.id).Nodup := by
    have := hperm.map (fun x : MergeData => x.id)
    rw [t1] at this
    exact this.nodup_iff.mpr (List.nodup_range _)
  have hidlt : ∀ k ∈ S.map fun x => x.id, k < parts.length := by
    intro k hk
    have := (hperm.map (fun x : MergeData => x.id)).mem_iff.mp hk
    rw [t1] at this
    exact List.mem_range.mp this
  -- they are in the same group
  have hflat := runs_flatten (entry_tinf da) S []
  rw [List.nil_append] at hflat
  have hxi : ({ id := i, var := m } : MergeData) ∈ (runs (entry_tinf da) [] S).flatten := by
    rw [hflat]
    exact hentry i hi
  have hxj : ({ id := j, var := m } : MergeData) ∈ (runs (entry_tinf da) [] S).flatten := by
    rw [hflat]
    exact hentry j hj
  obtain ⟨G, hG, hiG⟩ := List.mem_flatten.mp hxi
  obtain ⟨G', hG', hjG'⟩ := List.mem_flatten.mp hxj
  have hsortT : ([] ++ S).Pairwise fun a b => entry_tinf da a ≤ entry_tinf da b := by
    rw [List.nil_append]
    refine hsorted.imp ?_
    intro a b hab
    rcases (mle_iff da a b).mp hab with h | ⟨h, _⟩
    · exact le_of_lt h
    · exact le_of_eq h
  have hGG := runs_complete (entry_tinf da) S [] (fun a ha => by cases ha) hsortT
    G hG G' hG' _ hiG _ hjG' rfl
  subst hGG
  -- the groups before
  obtain ⟨pre, post, hsplit⟩ := List.append_of_mem hG
  rw [hsplit, List.map_append, List.map_cons] at h2
  obtain ⟨dc, c1, c2⟩ := merge_runs_append parts _ _ da db h2
  unfold merge_runs at c2
  cases eg : merge_group parts (List.map (fun x => x.id) G) dc with
  | error e' => rw [eg] at c2; cases c2
  | ok dd =>
    obtain ⟨⟨es, f1⟩, f2, f3, _, _⟩ := merge_runs_frame parts _ da dc c1
    rw [hsplit, List.flatten_append, List.flatten_cons] at hflat
    have hnd : ((pre.flatten ++ (G ++ post.flatten)).map fun x => x.id).Nodup := by
      rw [hflat]
      exact hidS
    rw [List.map_append, List.map_append] at hnd
    have hdisj := (List.nodup_append.mp hnd).2.2
    -- the parts of the group keep their bindings
    have hkeep : ∀ k, ({ id := k, var := m } : MergeData) ∈ G →
        fragment da parts k = Except.ok m → fragment dc parts k = Except.ok m := by
      intro k hkG hk
      apply fragment_frame da dc es parts k m f1 _ hk
      intro v hv
      apply f2
      intro ht
      obtain ⟨l, hl', w, hw, hwv⟩ := (touched_iff parts _ v.id).mp ht
      rw [← List.map_flatten] at hl'
      have hkl : l ≠ k := by
        intro e'
        apply hdisj hl'
        rw [e']
        exact List.mem_append_left _ (List.mem_map.mpr ⟨_, hkG, rfl⟩)
      have hl_lt : l < parts.length := by
        apply hidlt
        rw [← hflat, List.map_append]
        exact List.mem_append_left _ hl'
      exact hver l k hl_lt (hin k hk) hkl w hw v hv hwv
    have hi' := hkeep i hiG hi
    have hj' := hkeep j hjG' hj
    obtain ⟨_, vars, v1, v2⟩ := merge_group_frame parts _ dc dd eg
    obtain ⟨w1, w2⟩ := fragments_ok dc parts _ vars v1
    -- the variable occurs twice among the variables of the group
    obtain ⟨ki, hki, hkie⟩ := List.getElem_of_mem
      (List.mem_map.mpr ⟨_, hiG, rfl⟩ : i ∈ List.map (fun x => x.id) G)
    obtain ⟨kj, hkj, hkje⟩ := List.getElem_of_mem
      (List.mem_map.mpr ⟨_, hjG', rfl⟩ : j ∈ List.map (fun x => x.id) G)
    have hvi : vars[ki]? = some m := by
      have := w2 ki hki (by omega)
      rw [hkie, hi'] at this
      rw [List.getElem?_eq_getElem (by omega)]
      exact congrArg some (Except.ok.inj this).symm
    have hvj : vars[kj]? = some m := by
      have := w2 kj hkj (by omega)
      rw [hkje, hj'] at this
      rw [List.getElem?_eq_getElem (by omega)]
      exact congrArg some (Except.ok.inj this).symm
    have hkk : ki ≠ kj := by
      intro e'
      subst e'
      rw [hkie] at hkje
      exact hij hkje
    have h2le := two_le_count_of_ne m vars ki kj hkk hvi hvj
    have hmlt : m < da.vars.length := get_lt da m e hm
    have hmc : dc.vars.get? m = some e := by
      rw [get_extended da dc es m f1 hmlt]
      exact hm
    have := v2 m e hmc hl
    have := f3 m hmlt
    omega

theorem locals_ok_start (d : CFGData) (h : ∀ y ∈ d.local_var_ids, y < d.vars.length) :
    locals_ok d.vars.length d := by
  refine ⟨h, ?_⟩
  intro y hy
  have : d.local_var_ids.count y = 0 := by
    apply List.count_eq_zero_of_not_mem
    intro hc
    exact absurd (h y hc) (Nat.not_lt.mpr hy)
  omega

/-- C12 (amended). On a queue of splits as `split_var` leaves it, with a table of locals
that holds variables of the variable table, the first run of `merge_same_type` succeeds,
and a second run on the same queue fails whenever some queue entry has two different parts
whose variables have equal type signatures and all parts of the entry with that type
signature have local variables: the first run merges them into one local, which the second
run takes out of the table of locals once for each part. -/
theorem second_merge_fails (d : CFGData) (h : merge_ready d)
    (hloc : ∀ y ∈ d.local_var_ids, y < d.vars.length)
    (parts : List (List Vertex)) (hparts : parts ∈ d.todo_parts)
    (pi pj : List Vertex) (hpi : pi ∈ parts) (hpj : pj ∈ parts) (hne : pi ≠ pj)
    (xi xj : VarPtr) (hxi : frag d pi = some xi) (hxj : frag d pj = some xj)
    (ht : (d.var_data xj).tinf = (d.var_data xi).tinf)
    (hall : ∀ pk ∈ parts, ∀ xk, frag d pk = some xk →
      (d.var_data xk).tinf = (d.var_data xi).tinf →
      (d.var_data xk).type = VarType.var_local_t) :
    ∃ d1, d.merge_same_type = Except.ok d1 ∧
      ∃ err, d1.merge_same_type = Except.error err := by
  have hready := parts_ready_of_merge_ready d h
  obtain ⟨d1, es, k1, k2, k3, _, _, _, k7⟩ :=
    merge_records_spec d.todo_parts d (fun ps hps => List.length_pos.mp (h.1 ps hps)) hready
  refine ⟨d1, k1, ?_⟩
  -- the merged variable of the two parts
  obtain ⟨m, e, m1, m2, _, _, m5, m6⟩ := k7 parts hparts pi hpi xi hxi
  obtain ⟨hl, _, _⟩ := m6 hall
  have hbi := (m5 pi hpi xi hxi rfl).2
  have hbj := (m5 pj hpj xj hxj ht).2
  have hok1 : locals_ok d.vars.length d1 :=
    (merge_records_frame d.todo_parts d d1 k1).2.2.2.1 _ (locals_ok_start d hloc)
  have hcount : d1.local_var_ids.count m ≤ 1 := hok1.2 m m1
  -- the second run
  cases e2 : d1.merge_same_type with
  | error err => exact ⟨err, rfl⟩
  | ok d2 =>
    exfalso
    unfold CFGData.merge_same_type at e2
    rw [k3] at e2
    obtain ⟨pre, post, hsplit⟩ := List.append_of_mem hparts
    rw [hsplit] at e2
    obtain ⟨da, a1, a2⟩ := merge_records_append pre (parts :: post) d1 d2 e2
    unfold merge_records at a2
    cases e3 : merge_record parts da with
    | error err => rw [e3] at a2; cases a2
    | ok db =>
      obtain ⟨⟨es', f1⟩, f2, f3, _, _⟩ := merge_records_frame pre d1 da a1
      have hpw := h.2.2
      rw [hsplit, List.flatten_append, List.flatten_cons] at hpw
      obtain ⟨_, hpw2, hcross⟩ := List.pairwise_append.mp hpw
      obtain ⟨hpwR, _, _⟩ := List.pairwise_append.mp hpw2
      have hmlt : m < d1.vars.length := get_lt d1 m e m2
      -- the bindings of the parts of the entry are those of the first run
      have hkeep : ∀ p ∈ parts, ∀ v ∈ p, da.rebound v.id = d1.rebound v.id := by
        intro p hp v hv
        apply f2
        rintro ⟨q, hq, w, hw, hwv⟩
        exact (hcross q hq p (List.mem_append_left _ hp)).2 w hw v hv hwv
      have hfrag : ∀ (p : List Vertex) (x : VarPtr), p ∈ parts → frag d p = some x →
          (∀ w ∈ p, d1.rebound w.id = some m) → ∃ k, fragment da parts k = Except.ok m ∧
            parts[k]? = some p := by
        intro p x hp hx hb
        obtain ⟨k, hk, rfl⟩ := List.getElem_of_mem hp
        refine ⟨k, ?_, List.getElem?_eq_getElem hk⟩
        rw [fragment_ok_iff]
        refine ⟨parts[k], by rw [List.get?_eq_getElem?, List.getElem?_eq_getElem hk], ?_, ?_⟩
        · unfold frag at hx ⊢
          cases eh : (parts[k]).head? with
          | none => rw [eh] at hx; cases hx
          | some v =>
            dsimp only
            have hv : v ∈ parts[k] := List.mem_of_mem_head? eh
            apply get_var_id_of_rebound
            rw [hkeep _ hp v hv]
            exact hb v hv
        · rw [f1, List.length_append]
          exact Nat.lt_of_lt_of_le hmlt (Nat.le_add_right _ _)
      obtain ⟨i, hi, hip⟩ := hfrag pi xi hpi hxi hbi
      obtain ⟨j, hj, hjp⟩ := hfrag pj xj hpj hxj hbj
      have hij : i ≠ j := by
        intro e'
        rw [e', hjp] at hip
        exact hne (Option.some.inj hip).symm
      rw [List.pairwise_iff_getElem] at hpwR
      refine merge_record_fails parts da i j m e hij hi hj ?_ hl ?_ ?_ db e3
      · rw [get_extended d1 da es' m f1 hmlt]
        exact m2
      · exact Nat.le_trans (f3 m hmlt) hcount
      · intro k l hk hl' hkl v hv w hw
        rw [getD_of_lt parts k hk] at hv
        rw [getD_of_lt parts l hl'] at hw
        rcases Nat.lt_or_gt_of_ne hkl with c | c
        · exact (hpwR k l hk hl' c).2 v hv w hw
        · exact fun e' => (hpwR l k hl' hk c).2 w hw v hv e'.symm

/-- Counterexample to C12 as stated: the local `x` is split into two parts; the first run
of `merge_same_type` succeeds and the second run fails. -/
theorem second_merge_fails_after_split :
    failure ((sample_split_data.split_var 0 sample_split_parts).bind
      CFGData.merge_same_type) = none ∧
    failure (((sample_split_data.split_var 0 sample_split_parts).bind
      CFGData.merge_same_type).bind CFGData.merge_same_type) = some Err.assert_failed := by
  decide!

/-- Witness of C12 (amended): the two fragments of `x` with the type signature `int`. -/
theorem second_merge_fails_witness :
    ∃ d1, sample_same_type_data.merge_same_type = Except.ok d1 ∧
      ∃ err, d1.merge_same_type = Except.error err :=
  second_merge_fails sample_same_type_data ⟨by decide, by decide, by decide⟩ (by decide)
    [[mk_var 10 1], [mk_var 11 2]] (List.mem_singleton.mpr rfl) [mk_var 10 1] [mk_var 11 2]
    (List.mem_cons_self _ _) (List.mem_cons_of_mem _ (List.mem_cons_self _ _))
    (by
      intro e
      have := congrArg (fun l => l.map fun v => v.id) e
      revert this
      decide)
    1 2 (by decide) (by decide) (by decide)
    (by
      intro pk hpk xk hxk _
      rcases List.mem_cons.mp hpk with rfl | hpk
      · have : frag sample_same_type_data [mk_var 10 1] = some 1 := by decide
        rw [this] at hxk
        cases hxk
        decide
      · rcases List.mem_cons.mp hpk with rfl | hpk
        · have : frag sample_same_type_data [mk_var 11 2] = some 2 := by decide
          rw [this] at hxk
          cases hxk
          decide
        · cases hpk)

theorem cen_nil (s : CFG) : Cen s.node_gen [] [] s := by
  intro n m h1 h2 _
  omega

theorem cen_mono {lo : Nat} {B B' : List (Nat × Nat)} {E E' : List (Node × Node)} {s : CFG}
    (h : Cen lo B E s) (hB : ∀ b ∈ B, b ∈ B') (hE : ∀ p ∈ E, p ∈ E') : Cen lo B' E' s := by
  intro n m h1 h2 h3
  rcases h n m h1 h2 h3 with ⟨b, hb, r⟩ | q
  · exact Or.inl ⟨b, hB b hb, r⟩
  · exact Or.inr (hE _ q)

theorem cen_same {lo : Nat} {B : List (Nat × Nat)} {E : List (Node × Node)} {s s' : CFG}
    (h : Cen lo B E s) (h1 : s'.node_gen = s.node_gen) (h2 : s'.node_next = s.node_next) :
    Cen lo B E s' := by
  intro n m a b c
  rw [h1] at b
  rw [h2] at c
  exact h n m a b c

theorem cen_mid {lo : Nat} {B : List (Nat × Nat)} {E : List (Node × Node)} {s s' : CFG}
    (h : Cen lo B E s) (hm : Mid s.node_gen 0 0 s s') :
    Cen lo (B ++ [(s.node_gen, s'.node_gen)]) E s' := by
  intro n m a b c
  by_cases hn : n < s.node_gen
  · rw [hm.next_below n hn] at c
    rcases h n m a hn c with ⟨x, hx, r⟩ | q
    · exact Or.inl ⟨x, List.mem_append_left _ hx, r⟩
    · exact Or.inr q
  · obtain ⟨q1, q2⟩ := hm.next_local n m (by omega) b c
    exact Or.inl ⟨(s.node_gen, s'.node_gen), List.mem_append_right _ (List.mem_singleton.mpr rfl),
      by dsimp only; omega, b, q1, q2⟩

theorem cen_new_node {lo : Nat} {B : List (Nat × Nat)} {E : List (Node × Node)} {s s' : CFG}
    {r : Node} (h : Cen lo B E s) (hr : new_node s = Except.ok (r, s')) : Cen lo B E s' := by
  obtain ⟨_, n1, g1⟩ := new_node_next hr
  intro n m a b c
  rw [n1] at c
  by_cases hn : n = s.node_gen
  · subst hn
    rw [upd_same] at c
    cases c
  · rw [upd_other _ _ _ _ hn] at c
    exact h n m a (by omega) c

theorem cen_add_edge {lo : Nat} {B : List (Nat × Nat)} {E : List (Node × Node)} {s s' : CFG}
    {a b : Node} (h : Cen lo B E s) (hr : add_edge a b s = Except.ok ((), s')) :
    Cen lo B (E ++ [(a, b)]) s' ∧ s'.node_gen = s.node_gen := by
  cases a with
  | none =>
    cases hr
    exact ⟨cen_mono h (fun _ hb => hb) (fun _ hp => List.mem_append_left _ hp), rfl⟩
  | some x =>
    cases b with
    | none =>
      cases hr
      exact ⟨cen_mono h (fun _ hb => hb) (fun _ hp => List.mem_append_left _ hp), rfl⟩
    | some y =>
      obtain ⟨n1, g1⟩ := add_edge_next hr
      refine ⟨?_, g1⟩
      intro n m p q c
      rw [g1] at q
      rw [n1] at c
      by_cases e : n = x
      · subst e
        rw [upd_same] at c
        rcases List.mem_append.mp c with c | c
        · rcases h n m p q c with r | r
          · exact Or.inl r
          · exact Or.inr (List.mem_append_left _ r)
        · rw [List.mem_singleton.mp c]
          exact Or.inr (List.mem_append_right _ (List.mem_singleton.mpr rfl))
      · rw [upd_other _ _ _ _ e] at c
        rcases h n m p q c with r | r
        · exact Or.inl r
        · exact Or.inr (List.mem_append_left _ r)

theorem cen_add_edges_from {lo : Nat} {B : List (Nat × Nat)} {b : Node} (l : List Node) :
    ∀ {E : List (Node × Node)} {s s' : CFG}, Cen lo B E s →
    add_edges_from l b s = Except.ok ((), s') →
    Cen lo B (E ++ l.map fun x => (x, b)) s' ∧ s'.node_gen = s.node_gen := by
  induction l with
  | nil =>
    intro E s s' h hr
    cases hr
    exact ⟨by simpa using h, rfl⟩
  | cons x l ih =>
    intro E s s' h hr
    unfold add_edges_from at hr
    obtain ⟨u, s1, h1, h2⟩ := bind_ok_iff.mp hr
    obtain ⟨c1, g1⟩ := cen_add_edge h h1
    obtain ⟨c2, g2⟩ := ih c1 h2
    refine ⟨?_, by omega⟩
    simpa using c2

theorem top_grows_refl (s : CFG) : top_grows s s :=
  ⟨rfl, fun fr h => ⟨[], by simpa using h⟩⟩

theorem top_grows_trans {s s1 s2 : CFG} (h1 : top_grows s s1) (h2 : top_grows s1 s2) :
    top_grows s s2 := by
  refine ⟨h2.1.trans h1.1, fun fr h => ?_⟩
  obtain ⟨e1, k1⟩ := h1.2 fr h
  obtain ⟨e2, k2⟩ := h2.2 _ k1
  exact ⟨e1 ++ e2, by rw [k2, List.append_assoc]⟩

theorem top_grows_same {s s' : CFG} (h : s'.break_nodes = s.break_nodes) : top_grows s s' :=
  ⟨by rw [h], fun fr hf => ⟨[], by rw [h]; simpa using hf⟩⟩

theorem top_grows_mid {s s' : CFG} (h : Mid s.node_gen 0 0 s s') : top_grows s s' := by
  obtain ⟨h1, h2, _⟩ := h.brk
  refine ⟨by omega, fun fr hf => ?_⟩
  rw [List.getLast?_eq_getElem?] at hf
  obtain ⟨ext, e1, _⟩ := h2 _ fr hf
  refine ⟨ext, ?_⟩
  rw [List.getLast?_eq_getElem?]
  have : s'.break_nodes.length = s.break_nodes.length := by omega
  rw [this]
  exact e1

theorem add_edge_frames {a b : Node} {s s' : CFG} (h : add_edge a b s = Except.ok ((), s')) :
    s'.break_nodes = s.break_nodes := by
  cases a with
  | none => cases h; rfl
  | some x =>
    cases b with
    | none => cases h; rfl
    | some y => cases h; rfl

theorem round_of_mono {cfg : Vertex → M (Node × Node)} {s s' : CFG} {clause : Vertex}
    {r : CaseNodes} (h : round_of cfg s clause r) (hg : top_grows s s') :
    round_of cfg s' clause r := by
  obtain ⟨cmd, sb, sb', h1, h2, h3, h4, h5, h6⟩ := h
  refine ⟨cmd, sb, sb', h1, h2, h3, h4, by rw [h5, hg.1], fun fr hf => ?_⟩
  obtain ⟨fe, f1, f2⟩ := h6 fr hf
  obtain ⟨ext, e1⟩ := hg.2 fe f1
  exact ⟨fe ++ ext, e1, fun x hx => List.mem_append_left _ (f2 x hx)⟩

theorem switch_clause_spec {i : Vertex} {s s' : CFG} {isd : Bool} {cmd : Vertex}
    (h : switch_clause i s = Except.ok ((isd, cmd), s')) :
    s' = s ∧ ((isd = false ∧ i.type = Operation.op_case ∧ i.sons.get? 1 = some cmd) ∨
      (isd = true ∧ i.type = Operation.op_default ∧ i.sons.get? 0 = some cmd)) := by
  unfold switch_clause at h
  by_cases h1 : i.type = Operation.op_case
  · rw [if_pos h1] at h
    simp only [bind_ok_iff] at h
    obtain ⟨c, s1, k1, k2⟩ := h
    obtain ⟨rfl, g1⟩ := son_get k1
    cases k2
    exact ⟨rfl, Or.inl ⟨rfl, h1, g1⟩⟩
  · rw [if_neg h1] at h
    by_cases h2 : i.type = Operation.op_default
    · rw [if_pos h2] at h
      simp only [bind_ok_iff] at h
      obtain ⟨c, s1, k1, k2⟩ := h
      obtain ⟨rfl, g1⟩ := son_get k1
      cases k2
      exact ⟨rfl, Or.inr ⟨rfl, h2, g1⟩⟩
    · rw [if_neg h2] at h
      cases h

/-- What the loop over the cases of a switch builds: the rounds with their node ranges,
the edges of `loop_edges` and no other edge out of the new nodes that leaves its
range. -/
theorem switch_loop_spec (cfg : Vertex → M (Node × Node)) (hcfg : CfgOk cfg)
    (l : List Vertex) :
    ∀ {lo : Nat} {s s' : CFG} {st st' : SwitchLoop} {B : List (Nat × Nat)}
      {E : List (Node × Node)},
    Has E s → Cen lo B E s →
    NodeIn 0 s.node_gen st.prev_finish → NodeIn 0 s.node_gen st.prev_var_finish →
    create_cfg_switch_loop cfg l st s = Except.ok (st', s') →
    ∃ R, st'.rounds = st.rounds ++ R ∧
      st'.prev_finish = last_finish st.prev_finish R ∧
      st'.prev_var_finish = last_guard_finish st.prev_var_finish R ∧
      st'.was_default = (st.was_default || R.any fun r => r.guard.isNone) ∧
      st'.default_start = last_default_start st.default_start R ∧
      rounds_ok s.node_gen R s'.node_gen ∧
      Has (E ++ loop_edges st.prev_finish st.prev_var_finish R) s' ∧
      Cen lo (B ++ round_blocks R) (E ++ loop_edges st.prev_finish st.prev_var_finish R) s' ∧
      List.Forall₂ (round_of cfg s') l R ∧ top_grows s s' := by
  induction l with
  | nil =>
    intro lo s s' st st' B E hE hC _ _ hr
    cases hr
    exact ⟨[], by simp, rfl, rfl, by simp, rfl, rfl, by simpa [loop_edges] using hE,
      by simpa [loop_edges, round_blocks] using hC, List.Forall₂.nil, top_grows_refl _⟩
  | cons i rest ih =>
    intro lo s s' st st' B E hE hC hpf hpvf hr
    unfold create_cfg_switch_loop at hr
    have hr' := hr
    clear hr
    simp only [bind_ok_iff, Prod.exists, get_state_run, Except.ok.injEq, Prod.mk.injEq] at hr'
    obtain ⟨isd, cmd, s1, k1, bf, s2, ⟨rfl, rfl⟩, a, b, s3, k3, bt, s4, ⟨rfl, rfl⟩, _, s5, k5,
      k6⟩ := hr'
    obtain ⟨rfl, hclause⟩ := switch_clause_spec k1
    have hb := hcfg _ _ _ _ k3
    obtain ⟨mb, a1, a2, b1, l3⟩ := built_elim hb
    have x3 := has_mid hE mb
    have c3 := cen_mid hC mb
    have x5 := has_add_edge x3 (by omega) k5
    obtain ⟨c5, g5⟩ := cen_add_edge c3 k5
    have f5 := add_edge_frames k5
    have t3 : top_grows s1 s3 := top_grows_mid mb
    by_cases hd : isd = true
    · rw [if_pos hd] at k6
      obtain ⟨R, r1, r2, r3, r4, r5, r6, r7, r8, r9, r10⟩ := ih x5 c5
        (by dsimp only; omega) (by dsimp only; omega) k6
      have hdef : i.type = Operation.op_default ∧ i.sons.get? 0 = some cmd := by
        rcases hclause with ⟨e, _, _⟩ | ⟨_, e1, e2⟩
        · rw [hd] at e; cases e
        · exact ⟨e1, e2⟩
      have t5 : top_grows s3 s5 := top_grows_same f5
      refine ⟨CaseNodes.mk a b none s1.node_gen s3.node_gen s3.node_gen :: R,
        ?_, ?_, ?_, ?_, ?_, ?_, ?_, ?_, ?_, ?_⟩
      · rw [r1]
        simp
      · exact r2
      · exact r3
      · rw [r4]
        simp
      · exact r5
      · refine ⟨rfl, l3, Nat.le_refl _, ⟨a1, a2⟩, b1, rfl, ?_⟩
        rw [g5] at r6
        exact r6
      · simpa [loop_edges, List.append_assoc] using r7
      · simpa [loop_edges, round_blocks, List.append_assoc] using r8
      · refine List.Forall₂.cons ?_ r9
        refine round_of_mono (s := s3) ⟨cmd, s1, s3, Or.inr ⟨hdef.1, hdef.2, rfl⟩, k3, rfl, rfl,
          t3.1.symm, fun fr hf => ⟨fr, hf, fun x hx => hx⟩⟩ (top_grows_trans t5 r10)
      · exact top_grows_trans t3 (top_grows_trans t5 r10)
    · rw [if_neg hd] at k6
      simp only [bind_ok_iff, Prod.exists, get_state_run, Except.ok.injEq, Prod.mk.injEq] at k6
      obtain ⟨ex, s6, k7, c, d, s7, k8, gd, s8, ⟨rfl, rfl⟩, _, s9, k9, _, s10, k10, k11⟩ := k6
      obtain ⟨rfl, hex⟩ := son_get k7
      have hg := hcfg _ _ _ _ k8
      obtain ⟨mg, c1, c2, d1, l8⟩ := built_elim hg
      have x8 := has_mid x5 mg
      have c8 := cen_mid c5 mg
      have x9 := has_add_edge x8 (by omega) k9
      obtain ⟨c9, g9⟩ := cen_add_edge c8 k9
      have x10 := has_add_edge x9 (by rw [g9]; omega) k10
      obtain ⟨c10, g10⟩ := cen_add_edge c9 k10
      obtain ⟨R, r1, r2, r3, r4, r5, r6, r7, r8, r9, r10⟩ := ih x10 c10
        (by dsimp only; omega) (by dsimp only; omega) k11
      have hcase : i.type = Operation.op_case ∧ i.sons.get? 1 = some cmd := by
        rcases hclause with ⟨_, e1, e2⟩ | ⟨e, _, _⟩
        · exact ⟨e1, e2⟩
        · exact absurd e hd
      have t5 : top_grows s3 s6 := top_grows_same f5
      have t8 : top_grows s6 s7 := top_grows_mid mg
      have t9 : top_grows s7 s9 := top_grows_same (add_edge_frames k9)
      have t10 : top_grows s9 s10 := top_grows_same (add_edge_frames k10)
      have tall : top_grows s3 s' :=
        top_grows_trans t5 (top_grows_trans t8 (top_grows_trans t9 (top_grows_trans t10 r10)))
      refine ⟨CaseNodes.mk a b (some (c, d)) s1.node_gen s3.node_gen s7.node_gen :: R,
        ?_, ?_, ?_, ?_, ?_, ?_, ?_, ?_, ?_, ?_⟩
      · rw [r1]
        simp
      · exact r2
      · exact r3
      · rw [r4]
        simp
      · exact r5
      · refine ⟨rfl, l3, by dsimp only; omega, ⟨a1, a2⟩, b1, ?_, ?_⟩
        · dsimp only
          rw [g5] at c1 d1
          exact ⟨⟨c1, c2⟩, d1⟩
        · rw [g10, g9] at r6
          exact r6
      · simpa [loop_edges, List.append_assoc] using r7
      · rw [g5] at r8
        simpa [loop_edges, round_blocks, List.append_assoc] using r8
      · refine List.Forall₂.cons ?_ r9
        refine round_of_mono (s := s3) ⟨cmd, s1, s3, Or.inl ⟨hcase.1, hcase.2, ex, c, d, s6, s7,
          hex, rfl, k8, g5, rfl⟩, k3, rfl, rfl, t3.1.symm,
          fun fr hf => ⟨fr, hf, fun x hx => hx⟩⟩ tall
      · exact top_grows_trans t3 tall

theorem has_mono {E E' : List (Node × Node)} {s : CFG} (h : Has E s)
    (hE : ∀ p ∈ E', p ∈ E) : Has E' s :=
  fun p hp => h p (hE p hp)

theorem exit_cycle_spec {E : List (Node × Node)} {B : List (Nat × Nat)} {lo g k j : Nat}
    {s0 s s' : CFG} {cd bd : Node} (hm : Mid g (k + 1) j s0 s) (h : Has E s)
    (hc : Cen lo B E s) (hr : create_cfg_exit_cycle cd bd s = Except.ok ((), s')) :
    ∃ cs bs, s.continue_nodes.getLast? = some cs ∧ s.break_nodes.getLast? = some bs ∧
      s'.node_gen = s.node_gen ∧
      Has ((E ++ cs.map fun x => (x, cd)) ++ bs.map fun x => (x, bd)) s' ∧
      Cen lo B ((E ++ cs.map fun x => (x, cd)) ++ bs.map fun x => (x, bd)) s' := by
  unfold create_cfg_exit_cycle at hr
  simp only [bind_run, get_state_run] at hr
  cases hcs : s.continue_nodes.getLast? with
  | none =>
    rw [hcs] at hr
    cases hr
  | some cs =>
    cases hbs : s.break_nodes.getLast? with
    | none =>
      rw [hcs, hbs] at hr
      cases hr
    | some bs =>
      rw [hcs, hbs] at hr
      have h2 : (add_edges_from cs cd >>= fun _ => add_edges_from bs bd >>= fun _ =>
          modify_state fun s => { s with continue_nodes := s.continue_nodes.dropLast,
                                         break_nodes := s.break_nodes.dropLast }) s =
          Except.ok ((), s') := hr
      simp only [bind_ok_iff] at h2
      obtain ⟨_, s3, h3, _, s4, h4, h5⟩ := h2
      obtain ⟨_, tc⟩ := framesExt_pop hm.cont
      obtain ⟨_, tb⟩ := framesExt_pop hm.brk
      obtain ⟨x3, e3⟩ := has_add_edges_from cs h (fun x hx => nodeIn_zero (tc cs hcs x hx)) h3
      obtain ⟨c3, _⟩ := cen_add_edges_from cs hc h3
      obtain ⟨x4, e4⟩ := has_add_edges_from bs x3
        (fun x hx => by rw [e3]; exact nodeIn_zero (tb bs hbs x hx)) h4
      obtain ⟨c4, _⟩ := cen_add_edges_from bs c3 h4
      cases h5
      exact ⟨cs, bs, rfl, rfl, by show s4.node_gen = s.node_gen; omega, has_frames x4 rfl rfl,
        cen_same c4 rfl rfl⟩

set_option maxHeartbeats 1000000 in
/-- The body of the proof of `op_switch_spec`: the steps of the rule of `op_switch` are
given one by one, with the nodes that `new_node` returns written out. -/
theorem op_switch_core
    (cfg : Vertex → M (Node × Node)) (hcfg : CfgOk cfg) (t : Vertex) (s s' : CFG) (w : Unit)
    (ex : Vertex) (w_1 : PUnit.{1}) (s2 : CFG) (cs cf : Node) (s3 : CFG)
    (h3 : cfg ex s2 = Except.ok ((cs, cf), s3)) (s4 s5 : CFG) (w_2 : Unit)
    (h4 : new_node s3 = Except.ok (some s3.node_gen, s4))
    (left : s4.node_next = upd s3.node_next s3.node_gen []) (right : s4.node_gen = s3.node_gen + 1)
    (h5 : new_node s4 = Except.ok (some s4.node_gen, s5))
    (left_1 : s5.node_next = upd s4.node_next s4.node_gen [])
    (right_1 : s5.node_gen = s4.node_gen + 1) (s6 : CFG)
    (h6 : add_edge (some s3.node_gen) (some s4.node_gen) s5 = Except.ok (w_2, s6)) (w_3 : Unit)
    (s7 : CFG)
    (h7 : create_cfg_switch_vars (some s3.node_gen) (some s4.node_gen) (List.take 4 (List.drop 1
      t.sons)) s6 = Except.ok (w_3, s7))
    (st : SwitchLoop) (s8 : CFG)
    (h8 : create_cfg_switch_loop cfg (List.drop 5 t.sons)
      { prev_finish := none, prev_var_finish := cf, was_default := false, default_start := none, rounds := [] }
      s7 = Except.ok (st, s8))
    (s9 : CFG) (w_4 : Unit) (s10 : CFG) (w_5 : PUnit.{1})
    (h9 : new_node s8 = Except.ok (some s8.node_gen, s9))
    (h10 : add_edge st.prev_finish (some s8.node_gen) s9 = Except.ok (w_4, s10))
    (left_2 : s9.node_next = upd s8.node_next s8.node_gen [])
    (right_2 : s9.node_gen = s8.node_gen + 1) (s11 : CFG)
    (h11 : (if (!st.was_default) = true then add_edge st.prev_var_finish (some s8.node_gen) else
      pure ()) s10 = Except.ok (w_5, s11))
    (w_6 : PUnit.{1}) (s12 : CFG)
    (h12 : (if st.was_default = true then add_edge st.prev_var_finish st.default_start else pure
      ()) s11 = Except.ok (w_6, s12))
    (w_7 : Unit) (s13 : CFG) (h13 : add_edge (some s4.node_gen) cs s12 = Except.ok (w_7, s13))
    (w_8 : Unit) (s14 : CFG) (h14 : add_subtrees cs (List.drop 5 t.sons) s13 = Except.ok (w_8, s14))
    (w_9 : Unit)
    (h15 : create_cfg_exit_cycle (some s8.node_gen) (some s8.node_gen) s14 = Except.ok (w_9, s'))
    (h2 : (if t.sons.length < 5 then fail Err.bad_access else pure ()) s2 = Except.ok (w_1, s2))
    (hex : t.sons.get? 0 = some ex) (h1 : create_cfg_enter_cycle s = Except.ok (w, s2))
    (m1 : Mid s.node_gen (0 + 1) 0 s s2) (e1 : s2.node_gen = s.node_gen)
    (hs1 : s2.node_next = s.node_next ∧ s2.break_nodes.length = s.break_nodes.length + 1)
    (k1 : son t 0 s2 = Except.ok (ex, s2)) :
    ∃ expr cs cf sc sc' R fin cont brk s_end, t.sons.get? 0 = some expr ∧ cfg expr sc = Except.ok
      ((cs, cf), sc') ∧ sc.node_gen = s.node_gen ∧ (s.node_gen < node_code cs ∧ node_code cs ≤
      sc'.node_gen) ∧ NodeIn s.node_gen sc'.node_gen cf ∧ (some s3.node_gen, some s8.node_gen) =
      (some sc'.node_gen, some fin) ∧ s'.node_gen = fin + 1 ∧ rounds_ok (sc'.node_gen + 2) R fin ∧
      List.Forall₂ (round_of cfg s_end) (List.drop 5 t.sons) R ∧ s_end.break_nodes.getLast? = some
      brk ∧ s_end.continue_nodes.getLast? = some cont ∧ s_end.break_nodes.length =
      s.break_nodes.length + 1 ∧ Has (switch_edges (some sc'.node_gen) (some (sc'.node_gen + 1)) cs
      cf (some fin) R cont brk) s' ∧ Cen s.node_gen ((s.node_gen, sc'.node_gen) :: round_blocks R)
      (switch_edges (some sc'.node_gen) (some (sc'.node_gen + 1)) cs cf (some fin) R cont brk) s' := by
  have x1 : Has [] s2 := has_nil _
  have c1 : Cen s.node_gen [] [] s2 := cen_same (cen_nil s) e1 hs1.1
  have hb3 := hcfg _ _ _ _ h3
  obtain ⟨mb3, cs1, cs2, cf1, l3⟩ := built_elim hb3
  obtain ⟨m3, _⟩ := mid_built m1 hb3
  have x3 := has_mid x1 mb3
  have c3 := cen_mid c1 mb3
  have t3 : top_grows s2 s3 := top_grows_mid mb3
  obtain ⟨m4, vi1, e4⟩ := mid_new_node m3 h4
  have x4 := has_new_node x3 h4
  have c4 := cen_new_node c3 h4
  have f4 : s4.break_nodes = s3.break_nodes := by cases h4; rfl
  obtain ⟨m5, vr1, e5⟩ := mid_new_node m4 h5
  have x5 := has_new_node x4 h5
  have c5 := cen_new_node c4 h5
  have f5 : s5.break_nodes = s4.break_nodes := by cases h5; rfl
  have x6 := has_add_edge x5 (by omega) h6
  obtain ⟨c6, g6⟩ := cen_add_edge c5 h6
  obtain ⟨m6, e6⟩ := mid_add_edge m5 (by omega)
    (by omega) h6
  have f6 := add_edge_frames h6
  have nd7 := (switch_vars_nodeData s.node_gen (some s3.node_gen) (some s4.node_gen)
    (by omega) (by omega) _).run _ _ _ h7
  obtain ⟨m7, e7⟩ := mid_nodeData m6 nd7
  have x7 := has_nodeData x6 nd7
  have c7 := cen_same c6 nd7.1 nd7.2.1
  have f7 : s7.break_nodes = s6.break_nodes := nd7.2.2.2.1
  obtain ⟨R, r1, r2, r3, r4, r5, r6, r7, r8, r9, r10⟩ := switch_loop_spec cfg hcfg _ x7 c7
    (by exact Or.inl rfl) (by show NodeIn 0 _ cf; omega) h8
  obtain ⟨m8, l8, p1, p2, p3⟩ := mid_switch_loop cfg hcfg _ m7 (by exact Or.inl rfl)
    (by show NodeIn _ _ cf; omega) (by exact Or.inl rfl) h8
  dsimp only at r2 r3 r4 r5
  simp only [Bool.false_or] at r4
  obtain ⟨m9, fin1, e9⟩ := mid_new_node m8 h9
  have x9 := has_new_node r7 h9
  have c9 := cen_new_node r8 h9
  have x10 := has_add_edge x9 (by omega) h10
  obtain ⟨c10, g10⟩ := cen_add_edge c9 h10
  obtain ⟨m10, e10⟩ := mid_add_edge m9 (by omega) (by omega) h10
  have hfin : (if R.any (fun r => r.guard.isNone) then
        [(last_guard_finish cf R, last_default_start none R)]
      else [(last_guard_finish cf R, some s8.node_gen)]) =
      (if (!st.was_default) = true then [(st.prev_var_finish, some s8.node_gen)] else []) ++
      (if st.was_default = true then [(st.prev_var_finish, st.default_start)] else []) := by
    rw [r4, r3, r5]
    cases R.any fun r => r.guard.isNone <;> simp
  have step11 : ∃ E11, (Has (((([] ++ [(some s3.node_gen, some s4.node_gen)]) ++
        loop_edges none cf R) ++ [(st.prev_finish, some s8.node_gen)]) ++ E11) s11 ∧
      Cen s.node_gen (([] ++ [(s2.node_gen, s3.node_gen)]) ++ round_blocks R)
        (((([] ++ [(some s3.node_gen, some s4.node_gen)]) ++
        loop_edges none cf R) ++ [(st.prev_finish, some s8.node_gen)]) ++ E11) s11) ∧
      E11 = (if (!st.was_default) = true then [(st.prev_var_finish, some s8.node_gen)]
        else []) ∧ Mid s.node_gen 1 0 s s11 ∧ s11.node_gen = s10.node_gen := by
    by_cases hc : (!st.was_default) = true
    · rw [if_pos hc] at h11 ⊢
      have x11 := has_add_edge x10 (by omega) h11
      obtain ⟨c11, g11⟩ := cen_add_edge c10 h11
      obtain ⟨m11, e11⟩ := mid_add_edge m10 (by omega)
        (by omega) h11
      exact ⟨_, ⟨x11, c11⟩, rfl, m11, e11⟩
    · rw [if_neg hc] at h11 ⊢
      cases h11
      exact ⟨[], ⟨by simpa using x10, by simpa using c10⟩, rfl, m10, rfl⟩
  obtain ⟨E11, ⟨x11, c11⟩, hE11, m11, e11⟩ := step11
  have step12 : ∃ E12, (Has ((((([] ++ [(some s3.node_gen, some s4.node_gen)]) ++
        loop_edges none cf R) ++ [(st.prev_finish, some s8.node_gen)]) ++ E11) ++ E12) s12 ∧
      Cen s.node_gen (([] ++ [(s2.node_gen, s3.node_gen)]) ++ round_blocks R)
        ((((([] ++ [(some s3.node_gen, some s4.node_gen)]) ++
        loop_edges none cf R) ++ [(st.prev_finish, some s8.node_gen)]) ++ E11) ++ E12) s12) ∧
      E12 = (if st.was_default = true then [(st.prev_var_finish, st.default_start)]
        else []) ∧ Mid s.node_gen 1 0 s s12 ∧ s12.node_gen = s11.node_gen := by
    by_cases hc : st.was_default = true
    · rw [if_pos hc] at h12 ⊢
      have x12 := has_add_edge x11 (by omega) h12
      obtain ⟨c12, g12⟩ := cen_add_edge c11 h12
      obtain ⟨m12, e12⟩ := mid_add_edge m11 (by omega) (by omega) h12
      exact ⟨_, ⟨x12, c12⟩, rfl, m12, e12⟩
    · rw [if_neg hc] at h12 ⊢
      cases h12
      exact ⟨[], ⟨by simpa using x11, by simpa using c11⟩, rfl, m11, rfl⟩
  obtain ⟨E12, ⟨x12, c12⟩, hE12, m12, e12⟩ := step12
  have x13 := has_add_edge x12 (by omega) h13
  obtain ⟨c13, g13⟩ := cen_add_edge c12 h13
  obtain ⟨m13, e13⟩ := mid_add_edge m12 (by omega) (by omega) h13
  have nd14 := (add_subtrees_nodeData s.node_gen cs (by omega) _).run _ _ _ h14
  obtain ⟨m14, e14⟩ := mid_nodeData m13 nd14
  have x14 := has_nodeData x13 nd14
  have c14 := cen_same c13 nd14.1 nd14.2.1
  obtain ⟨cont, brk, q1, q2, q3, q4, q5⟩ := exit_cycle_spec m14 x14 c14 h15
  -- the frames when the loop is left
  have fr14 : s14.break_nodes = s8.break_nodes ∧ s14.continue_nodes = s8.continue_nodes := by
    have a9 : s9.break_nodes = s8.break_nodes ∧ s9.continue_nodes = s8.continue_nodes := by
      cases h9
      exact ⟨rfl, rfl⟩
    have fe : ∀ {a b : Node} {u u' : CFG}, add_edge a b u = Except.ok ((), u') →
        u'.break_nodes = u.break_nodes ∧ u'.continue_nodes = u.continue_nodes := by
      intro a b u u' hu
      cases a with
      | none => cases hu; exact ⟨rfl, rfl⟩
      | some x =>
        cases b with
        | none => cases hu; exact ⟨rfl, rfl⟩
        | some y => cases hu; exact ⟨rfl, rfl⟩
    have a10 := fe h10
    have a11 : s11.break_nodes = s10.break_nodes ∧ s11.continue_nodes = s10.continue_nodes := by
      by_cases hc : (!st.was_default) = true
      · rw [if_pos hc] at h11
        exact fe h11
      · rw [if_neg hc] at h11
        cases h11
        exact ⟨rfl, rfl⟩
    have a12 : s12.break_nodes = s11.break_nodes ∧ s12.continue_nodes = s11.continue_nodes := by
      by_cases hc : st.was_default = true
      · rw [if_pos hc] at h12
        exact fe h12
      · rw [if_neg hc] at h12
        cases h12
        exact ⟨rfl, rfl⟩
    have a13 := fe h13
    have a14 : s14.break_nodes = s13.break_nodes ∧ s14.continue_nodes = s13.continue_nodes :=
      ⟨nd14.2.2.2.1, nd14.2.2.2.2.1⟩
    exact ⟨by rw [a14.1, a13.1, a12.1, a11.1, a10.1, a9.1],
      by rw [a14.2, a13.2, a12.2, a11.2, a10.2, a9.2]⟩
  have hlen8 : s8.break_nodes.length = s.break_nodes.length + 1 := by
    rw [r10.1, f7, f6, f5, f4, t3.1, hs1.2]
  have heq : switch_edges (some s3.node_gen) (some (s3.node_gen + 1)) cs cf
        (some s8.node_gen) R cont brk =
      (((((((([] ++ [(some s3.node_gen, some s4.node_gen)]) ++ loop_edges none cf R) ++
        [(st.prev_finish, some s8.node_gen)]) ++ E11) ++ E12) ++
        [(some s4.node_gen, cs)]) ++ cont.map fun x => (x, some s8.node_gen)) ++
        brk.map fun x => (x, some s8.node_gen)) := by
    unfold switch_edges
    rw [hfin, hE11, hE12, r2, e4]
    simp only [List.nil_append, List.append_assoc, List.singleton_append, List.cons_append]
  refine ⟨ex, cs, cf, s2, s3, R, s8.node_gen, cont, brk, s8, hex, h3, e1, ⟨by omega, cs2⟩, by omega, rfl,
    ?_, ?_, r9, ?_, ?_, hlen8, ?_, ?_⟩
  · omega
  · have : s7.node_gen = s3.node_gen + 2 := by omega
    rw [this] at r6
    exact r6
  · rw [← fr14.1]
    exact q2
  · rw [← fr14.2]
    exact q1
  · rw [heq]
    exact q4
  · rw [heq]
    refine cen_mono q5 ?_ (fun p hp => hp)
    intro b hb
    rw [e1] at hb
    simpa using hb

set_option maxHeartbeats 1000000 in
/-- What the rule of `op_switch` builds: the subject, two nodes for the switch variables,
the rounds of the cases, the finish node; the edges of `switch_edges` and no other edge
out of a new node that leaves the node range of the subject, of a body or of a guard. -/
theorem op_switch_spec (cfg : Vertex → M (Node × Node)) (hcfg : CfgOk cfg)
    (t : Vertex) (s : CFG) (r : Node × Node) (s' : CFG)
    (hr : create_cfg_op_switch cfg t s = Except.ok (r, s')) :
    ∃ expr cs cf sc sc' R fin cont brk s_end,
      t.sons.get? 0 = some expr ∧ cfg expr sc = Except.ok ((cs, cf), sc') ∧
      sc.node_gen = s.node_gen ∧
      (s.node_gen < node_code cs ∧ node_code cs ≤ sc'.node_gen) ∧
      NodeIn s.node_gen sc'.node_gen cf ∧
      r = (some sc'.node_gen, some fin) ∧ s'.node_gen = fin + 1 ∧
      rounds_ok (sc'.node_gen + 2) R fin ∧
      List.Forall₂ (round_of cfg s_end) (t.sons.drop 5) R ∧
      s_end.break_nodes.getLast? = some brk ∧ s_end.continue_nodes.getLast? = some cont ∧
      s_end.break_nodes.length = s.break_nodes.length + 1 ∧
      Has (switch_edges (some sc'.node_gen) (some (sc'.node_gen + 1)) cs cf (some fin) R
        cont brk) s' ∧
      Cen s.node_gen ((s.node_gen, sc'.node_gen) :: round_blocks R)
        (switch_edges (some sc'.node_gen) (some (sc'.node_gen + 1)) cs cf (some fin) R
          cont brk) s' := by
  simp only [create_cfg_op_switch, bind_ok_iff, Prod.exists] at hr
  obtain ⟨_, s1, h1, ex, t1, hq1_1⟩ := hr
  obtain ⟨k1, _, s2, h2, cs, hq1_2⟩ := hq1_1
  obtain ⟨cf, s3, h3, vi, s4, hq1_3⟩ := hq1_2
  obtain ⟨h4, vr, s5, h5, _, hq1_4⟩ := hq1_3
  obtain ⟨rfl, _, _⟩ := new_node_next h4
  obtain ⟨rfl, _, _⟩ := new_node_next h5
  obtain ⟨s6, h6, _, s7, h7, hq1_5⟩ := hq1_4
  obtain ⟨st, s8, h8, fin, s9, hq1_6⟩ := hq1_5
  obtain ⟨h9, _, s10, h10, _, hq1_7⟩ := hq1_6
  obtain ⟨rfl, _, _⟩ := new_node_next h9
  obtain ⟨s11, h11, _, s12, h12, hq1_8⟩ := hq1_7
  obtain ⟨_, s13, h13, _, s14, hq1_9⟩ := hq1_8
  obtain ⟨h14, _, s15, h15, h16⟩ := hq1_9
  cases h16
  obtain ⟨m1, e1⟩ := mid_enter_cycle (mid_refl _) h1
  have hs1 : s1.node_next = s.node_next ∧ s1.break_nodes.length = s.break_nodes.length + 1 := by
    cases h1
    exact ⟨rfl, by simp⟩
  have e2 : s2 = t1 := by
    by_cases hc : t.sons.length < 5
    · rw [if_pos hc] at h2
      cases h2
    · rw [if_neg hc] at h2
      cases h2
      rfl
  subst e2
  obtain ⟨rfl, hex⟩ := son_get k1
  exact op_switch_core cfg hcfg t s s' _ ex _ s2 cs cf s3 h3 s4 s5 _ h4 (by assumption) (by
    assumption) h5 (by assumption) (by assumption) s6 h6 _ s7 h7 st s8 h8 s9 _ s10 _ h9 h10 (by
    assumption) (by assumption) s11 h11 _ s12 h12 _ s13 h13 _ s14 h14 _ h15 h2 hex h1 m1 e1 hs1
    k1

theorem get_zero (r0 : CaseNodes) (rest : List CaseNodes) : (r0 :: rest)[0]? = some r0 := by
  simp

theorem mem_of_get (l : List CaseNodes) (i : Nat) (r : CaseNodes) (h : l[i]? = some r) :
    r ∈ l := by
  obtain ⟨hlt, he⟩ := List.getElem?_eq_some_iff.mp h
  exact he ▸ List.getElem_mem hlt

theorem rounds_ok_le (R : List CaseNodes) : ∀ g G, rounds_ok g R G → g ≤ G := by
  induction R with
  | nil =>
    intro g G h
    exact Nat.le_of_eq h
  | cons r rest ih =>
    intro g G h
    obtain ⟨h1, h2, h3, _, _, _, h7⟩ := h
    have := ih _ _ h7
    omega

/-- The node ranges of a round, read off `rounds_ok`. -/
theorem rounds_ok_get (R : List CaseNodes) :
    ∀ (g G : Nat), rounds_ok g R G → ∀ (i : Nat) (r : CaseNodes), R[i]? = some r →
    g ≤ r.nodes_from ∧ r.nodes_from ≤ r.nodes_mid ∧ r.nodes_mid ≤ r.nodes_to ∧
    r.nodes_to ≤ G ∧
    (r.nodes_from < node_code r.cur_start ∧ node_code r.cur_start ≤ r.nodes_mid) ∧
    NodeIn r.nodes_from r.nodes_mid r.cur_finish ∧
    (∀ gs gf, r.guard = some (gs, gf) →
      (r.nodes_mid < node_code gs ∧ node_code gs ≤ r.nodes_to) ∧
      NodeIn r.nodes_mid r.nodes_to gf) ∧
    (r.guard = none → r.nodes_to = r.nodes_mid) := by
  induction R with
  | nil =>
    intro g G _ i r hi
    simp at hi
  | cons r0 rest ih =>
    intro g G h i r hi
    obtain ⟨h1, h2, h3, h4, h5, h6, h7⟩ := h
    cases i with
    | zero =>
      simp only [List.getElem?_cons_zero, Option.some.injEq] at hi
      subst hi
      have hle := rounds_ok_le _ _ _ h7
      refine ⟨by omega, h2, h3, hle, h4, h5, ?_, ?_⟩
      · intro gs gf hg
        rw [hg] at h6
        exact h6
      · intro hg
        rw [hg] at h6
        exact h6
    | succ i =>
      simp only [List.getElem?_cons_succ] at hi
      obtain ⟨a, b⟩ := ih _ _ h7 i r hi
      exact ⟨by omega, b⟩

/-- The node ranges of the rounds follow one another. -/
theorem rounds_ok_lt (R : List CaseNodes) :
    ∀ (g G : Nat), rounds_ok g R G → ∀ (i j : Nat) (ri rj : CaseNodes), i < j →
    R[i]? = some ri → R[j]? = some rj → ri.nodes_to ≤ rj.nodes_from := by
  induction R with
  | nil =>
    intro g G _ i j ri rj _ hi
    simp at hi
  | cons r0 rest ih =>
    intro g G h i j ri rj hij hi hj
    obtain ⟨h1, h2, h3, h4, h5, h6, h7⟩ := h
    cases j with
    | zero => omega
    | succ j =>
      simp only [List.getElem?_cons_succ] at hj
      cases i with
      | zero =>
        simp only [List.getElem?_cons_zero, Option.some.injEq] at hi
        subst hi
        exact (rounds_ok_get rest _ _ h7 j rj hj).1
      | succ i =>
        simp only [List.getElem?_cons_succ] at hi
        exact ih _ _ h7 i j ri rj (by omega) hi hj

theorem round_blocks_mem (R : List CaseNodes) (b : Nat × Nat) (h : b ∈ round_blocks R) :
    ∃ (i : Nat) (r : CaseNodes), R[i]? = some r ∧
      (b = (r.nodes_from, r.nodes_mid) ∨
        ((∃ p, r.guard = some p) ∧ b = (r.nodes_mid, r.nodes_to))) := by
  induction R with
  | nil => cases h
  | cons r0 rest ih =>
    unfold round_blocks at h
    rcases List.mem_cons.mp h with h | h
    · exact ⟨0, r0, get_zero _ _, Or.inl h⟩
    · rcases List.mem_append.mp h with h | h
      · cases hg : r0.guard with
        | none => rw [hg] at h; cases h
        | some p =>
          rw [hg] at h
          exact ⟨0, r0, get_zero _ _, Or.inr ⟨⟨p, hg⟩, List.mem_singleton.mp h⟩⟩
      · obtain ⟨i, r, hi, hr⟩ := ih h
        exact ⟨i + 1, r, by simpa using hi, hr⟩

/-- The edges of `loop_edges`, by the round that adds them. -/
theorem loop_edges_mem (R : List CaseNodes) :
    ∀ (pf pvf x y : Node), (x, y) ∈ loop_edges pf pvf R →
    ∃ (i : Nat) (r : CaseNodes), R[i]? = some r ∧
      ((x = last_finish pf (R.take i) ∧ y = r.cur_start) ∨
        ∃ gs gf, r.guard = some (gs, gf) ∧
          ((x = gf ∧ y = r.cur_start) ∨
            (x = last_guard_finish pvf (R.take i) ∧ y = gs))) := by
  induction R with
  | nil =>
    intro pf pvf x y h
    cases h
  | cons r0 rest ih =>
    intro pf pvf x y h
    unfold loop_edges at h
    rcases List.mem_cons.mp h with h | h
    · obtain ⟨hx, hy⟩ := Prod.mk.inj h
      exact ⟨0, r0, get_zero _ _, Or.inl ⟨hx, hy⟩⟩
    · rcases List.mem_append.mp h with h | h
      · cases hg : r0.guard with
        | none => rw [hg] at h; cases h
        | some p =>
          obtain ⟨gs, gf⟩ := p
          rw [hg] at h
          dsimp only at h
          rcases List.mem_cons.mp h with h | h
          · obtain ⟨hx, hy⟩ := Prod.mk.inj h
            exact ⟨0, r0, get_zero _ _, Or.inr ⟨gs, gf, hg, Or.inl ⟨hx, hy⟩⟩⟩
          · obtain ⟨hx, hy⟩ := Prod.mk.inj (List.mem_singleton.mp h)
            exact ⟨0, r0, get_zero _ _, Or.inr ⟨gs, gf, hg, Or.inr ⟨hx, hy⟩⟩⟩
      · obtain ⟨i, r, hi, hr⟩ := ih _ _ x y h
        refine ⟨i + 1, r, by simpa using hi, ?_⟩
        simpa [last_finish, last_guard_finish] using hr

/-- Every round adds its edges. -/
theorem loop_edges_has (R : List CaseNodes) :
    ∀ (pf pvf : Node) (i : Nat) (r : CaseNodes), R[i]? = some r →
    (last_finish pf (R.take i), r.cur_start) ∈ loop_edges pf pvf R ∧
    ∀ gs gf, r.guard = some (gs, gf) →
      (gf, r.cur_start) ∈ loop_edges pf pvf R ∧
      (last_guard_finish pvf (R.take i), gs) ∈ loop_edges pf pvf R := by
  induction R with
  | nil =>
    intro pf pvf i r hi
    simp at hi
  | cons r0 rest ih =>
    intro pf pvf i r hi
    cases i with
    | zero =>
      simp only [List.getElem?_cons_zero, Option.some.injEq] at hi
      subst hi
      refine ⟨by simp [loop_edges, last_finish], ?_⟩
      intro gs gf hg
      simp [loop_edges, last_guard_finish, hg]
    | succ i =>
      simp only [List.getElem?_cons_succ] at hi
      obtain ⟨a, b⟩ := ih r0.cur_finish
        (match r0.guard with
          | some (_, gf) => gf
          | none => pvf) i r hi
      refine ⟨?_, ?_⟩
      · unfold loop_edges
        simp only [List.take_succ_cons, last_finish]
        exact List.mem_cons_of_mem _ (List.mem_append_right _ a)
      · intro gs gf hg
        obtain ⟨b1, b2⟩ := b gs gf hg
        unfold loop_edges
        simp only [List.take_succ_cons, last_guard_finish]
        exact ⟨List.mem_cons_of_mem _ (List.mem_append_right _ b1),
          List.mem_cons_of_mem _ (List.mem_append_right _ b2)⟩

theorem last_finish_take (R : List CaseNodes) :
    ∀ (pf : Node) (i : Nat) (r : CaseNodes), R[i]? = some r →
    last_finish pf (R.take (i + 1)) = r.cur_finish := by
  induction R with
  | nil =>
    intro pf i r hi
    simp at hi
  | cons r0 rest ih =>
    intro pf i r hi
    cases i with
    | zero =>
      simp only [List.getElem?_cons_zero, Option.some.injEq] at hi
      subst hi
      simp [last_finish]
    | succ i =>
      simp only [List.getElem?_cons_succ] at hi
      simp only [List.take_succ_cons, last_finish]
      exact ih _ i r hi

/-- The variable `prev_finish` is the initial value or the finish of a body. -/
theorem last_finish_cases (R : List CaseNodes) :
    ∀ (pf : Node), last_finish pf R = pf ∨
      ∃ (i : Nat) (r : CaseNodes), R[i]? = some r ∧ last_finish pf R = r.cur_finish := by
  induction R with
  | nil => intro pf; exact Or.inl rfl
  | cons r0 rest ih =>
    intro pf
    simp only [last_finish]
    rcases ih r0.cur_finish with h | ⟨i, r, hi, hr⟩
    · exact Or.inr ⟨0, r0, get_zero _ _, h⟩
    · exact Or.inr ⟨i + 1, r, by simpa using hi, hr⟩

/-- The variable `prev_var_finish` is the initial value, when no round has a guard, or the
finish of the guard of the last round that has one. -/
theorem last_guard_finish_cases (R : List CaseNodes) :
    ∀ (pvf : Node), (last_guard_finish pvf R = pvf ∧ ∀ r ∈ R, r.guard = none) ∨
      ∃ (i : Nat) (r : CaseNodes) (gs gf : Node), R[i]? = some r ∧ r.guard = some (gs, gf) ∧
        last_guard_finish pvf R = gf ∧
        ∀ (j : Nat) (r' : CaseNodes), i < j → R[j]? = some r' → r'.guard = none := by
  induction R with
  | nil => intro pvf; exact Or.inl ⟨rfl, fun r hr => by cases hr⟩
  | cons r0 rest ih =>
    intro pvf
    simp only [last_guard_finish]
    rcases ih (match r0.guard with
          | some (_, gf) => gf
          | none => pvf) with ⟨h1, h2⟩ | ⟨i, r, gs, gf, hi, hg, hr, hl⟩
    · cases hg : r0.guard with
      | none =>
        rw [hg] at h1
        left
        refine ⟨h1, ?_⟩
        intro r hr
        rcases List.mem_cons.mp hr with rfl | hr
        · exact hg
        · exact h2 r hr
      | some p =>
        obtain ⟨gs, gf⟩ := p
        rw [hg] at h1
        right
        refine ⟨0, r0, gs, gf, get_zero _ _, hg, h1, ?_⟩
        intro j r' hj hr'
        cases j with
        | zero => omega
        | succ j =>
          simp only [List.getElem?_cons_succ] at hr'
          exact h2 r' (mem_of_get _ _ _ hr')
    · right
      refine ⟨i + 1, r, gs, gf, by simpa using hi, hg, hr, ?_⟩
      intro j r' hj hr'
      cases j with
      | zero => omega
      | succ j =>
        simp only [List.getElem?_cons_succ] at hr'
        exact hl j r' (by omega) hr'

/-- The variable `default_start` is the initial value, when no round is a default, or the
start of the body of the last default. -/
theorem last_default_start_cases (R : List CaseNodes) :
    ∀ (ds : Node), (last_default_start ds R = ds ∧ ∀ r ∈ R, r.guard ≠ none) ∨
      ∃ (i : Nat) (r : CaseNodes), R[i]? = some r ∧ r.guard = none ∧
        last_default_start ds R = r.cur_start ∧
        ∀ (j : Nat) (r' : CaseNodes), i < j → R[j]? = some r' → r'.guard ≠ none := by
  induction R with
  | nil => intro ds; exact Or.inl ⟨rfl, fun r hr => by cases hr⟩
  | cons r0 rest ih =>
    intro ds
    simp only [last_default_start]
    rcases ih (match r0.guard with
          | some _ => ds
          | none => r0.cur_start) with ⟨h1, h2⟩ | ⟨i, r, hi, hg, hr, hl⟩
    · cases hg : r0.guard with
      | some p =>
        rw [hg] at h1
        left
        refine ⟨h1, ?_⟩
        intro r hr
        rcases List.mem_cons.mp hr with rfl | hr
        · rw [hg]
          exact fun e => by cases e
        · exact h2 r hr
      | none =>
        rw [hg] at h1
        right
        refine ⟨0, r0, get_zero _ _, hg, h1, ?_⟩
        intro j r' hj hr'
        cases j with
        | zero => omega
        | succ j =>
          simp only [List.getElem?_cons_succ] at hr'
          exact h2 r' (mem_of_get _ _ _ hr')
    · right
      refine ⟨i + 1, r, by simpa using hi, hg, hr, ?_⟩
      intro j r' hj hr'
      cases j with
      | zero => omega
      | succ j =>
        simp only [List.getElem?_cons_succ] at hr'
        exact hl j r' (by omega) hr'

/-- A node belongs to the node range of one round only. -/
theorem round_owner (R : List CaseNodes) (g G : Nat) (h : rounds_ok g R G) (i k : Nat)
    (r rk : CaseNodes) (hi : R[i]? = some r) (hk : R[k]? = some rk) (n : Nat)
    (h1 : r.nodes_from ≤ n) (h2 : n < r.nodes_to) (h3 : rk.nodes_from ≤ n)
    (h4 : n < rk.nodes_to) : i = k ∧ r = rk := by
  have hik : i = k := by
    rcases Nat.lt_trichotomy i k with c | c | c
    · have := rounds_ok_lt R g G h i k r rk c hi hk
      omega
    · exact c
    · have := rounds_ok_lt R g G h k i rk r c hk hi
      omega
  subst hik
  rw [hi] at hk
  exact ⟨rfl, Option.some.inj hk⟩

theorem body_src (R : List CaseNodes) (g G : Nat) (h : rounds_ok g R G) (k : Nat)
    (rk : CaseNodes) (hk : R[k]? = some rk) (n : Nat) (hn : rk.cur_finish = some n) :
    rk.nodes_from ≤ n ∧ n < rk.nodes_mid ∧ n < rk.nodes_to := by
  obtain ⟨_, _, h3, _, _, h6, _⟩ := rounds_ok_get R g G h k rk hk
  rw [hn] at h6
  unfold NodeIn at h6
  simp only [node_code_some] at h6
  omega

theorem body_start (R : List CaseNodes) (g G : Nat) (h : rounds_ok g R G) (k : Nat)
    (rk : CaseNodes) (hk : R[k]? = some rk) (n : Nat) (hn : rk.cur_start = some n) :
    rk.nodes_from ≤ n ∧ n < rk.nodes_mid ∧ n < rk.nodes_to := by
  obtain ⟨_, _, h3, _, h5, _, _⟩ := rounds_ok_get R g G h k rk hk
  rw [hn] at h5
  simp only [node_code_some] at h5
  omega

theorem guard_src (R : List CaseNodes) (g G : Nat) (h : rounds_ok g R G) (k : Nat)
    (rk : CaseNodes) (hk : R[k]? = some rk) (gs : Node) (n : Nat)
    (hn : rk.guard = some (gs, some n)) :
    rk.nodes_mid ≤ n ∧ n < rk.nodes_to ∧ rk.nodes_from ≤ n := by
  obtain ⟨_, h2, _, _, _, _, h7, _⟩ := rounds_ok_get R g G h k rk hk
  obtain ⟨_, h8⟩ := h7 gs (some n) hn
  unfold NodeIn at h8
  simp only [node_code_some] at h8
  omega

theorem guard_start (R : List CaseNodes) (g G : Nat) (h : rounds_ok g R G) (k : Nat)
    (rk : CaseNodes) (hk : R[k]? = some rk) (gf : Node) (n : Nat)
    (hn : rk.guard = some (some n, gf)) :
    rk.nodes_mid ≤ n ∧ n < rk.nodes_to ∧ rk.nodes_from ≤ n := by
  obtain ⟨_, h2, _, _, _, _, h7, _⟩ := rounds_ok_get R g G h k rk hk
  obtain ⟨h8, _⟩ := h7 (some n) gf hn
  simp only [node_code_some] at h8
  omega

theorem get_of_take (R : List CaseNodes) (i k : Nat) (r : CaseNodes)
    (h : (R.take i)[k]? = some r) : R[k]? = some r ∧ k < i := by
  rw [List.getElem?_take] at h
  split at h
  · exact ⟨h, by assumption⟩
  · cases h

/-- The source of a body-chain edge that is a node lies in the body of an earlier round. -/
theorem last_finish_src (R : List CaseNodes) (g G : Nat) (h : rounds_ok g R G) (i n : Nat)
    (hn : last_finish none (R.take i) = some n) :
    ∃ (k : Nat) (rk : CaseNodes), R[k]? = some rk ∧ k < i ∧ rk.cur_finish = some n ∧
      rk.nodes_from ≤ n ∧ n < rk.nodes_mid ∧ n < rk.nodes_to := by
  rcases last_finish_cases (R.take i) none with e | ⟨k, rk, hk, e⟩
  · rw [e] at hn
    cases hn
  · obtain ⟨hk', hlt⟩ := get_of_take R i k rk hk
    rw [e] at hn
    exact ⟨k, rk, hk', hlt, hn, body_src R g G h k rk hk' n hn⟩

/-- The source of a guard-chain edge that is a node is the finish of the subject or lies
in the guard of an earlier round. -/
theorem last_guard_finish_src (R : List CaseNodes) (g G : Nat) (h : rounds_ok g R G)
    (cf : Node) (i n : Nat) (hn : last_guard_finish cf (R.take i) = some n) :
    cf = some n ∨ ∃ (k : Nat) (rk : CaseNodes), R[k]? = some rk ∧ k < i ∧
      rk.nodes_mid ≤ n ∧ n < rk.nodes_to ∧ rk.nodes_from ≤ n := by
  rcases last_guard_finish_cases (R.take i) cf with ⟨e, _⟩ | ⟨k, rk, gs, gf, hk, hg, e, _⟩
  · rw [e] at hn
    exact Or.inl hn
  · obtain ⟨hk', hlt⟩ := get_of_take R i k rk hk
    rw [e] at hn
    rw [hn] at hg
    exact Or.inr ⟨k, rk, hk', hlt, guard_src R g G h k rk hk' gs n hg⟩

theorem take_all (R : List CaseNodes) : R.take R.length = R := List.take_length R

/-- The facts about a switch that the claims on the wiring of switches use: the result of
`op_switch_spec` carried over the marker step of `create_cfg`. -/
theorem create_cfg_switch (fuel : Nat) (t : Vertex) (w ww : Bool) (s s' : CFG)
    (a b : Node) (ht : t.type = Operation.op_switch)
    (h : create_cfg (fuel + 1) t w ww s = Except.ok ((a, b), s')) :
    ∃ expr cs cf sc sc' R fin cont brk s_end,
      t.sons.get? 0 = some expr ∧
      create_cfg fuel expr false false sc = Except.ok ((cs, cf), sc') ∧
      sc.node_gen = s.node_gen ∧
      (s.node_gen < node_code cs ∧ node_code cs ≤ sc'.node_gen) ∧
      NodeIn s.node_gen sc'.node_gen cf ∧
      a = some sc'.node_gen ∧ b = some fin ∧ s'.node_gen = fin + 1 ∧
      rounds_ok (sc'.node_gen + 2) R fin ∧
      List.Forall₂ (round_of (fun v => create_cfg fuel v false false) s_end)
        (t.sons.drop 5) R ∧
      s_end.break_nodes.getLast? = some brk ∧ s_end.continue_nodes.getLast? = some cont ∧
      s_end.break_nodes.length = s.break_nodes.length + 1 ∧
      Has (switch_edges (some sc'.node_gen) (some (sc'.node_gen + 1)) cs cf (some fin) R
        cont brk) s' ∧
      Cen s.node_gen ((s.node_gen, sc'.node_gen) :: round_blocks R)
        (switch_edges (some sc'.node_gen) (some (sc'.node_gen + 1)) cs cf (some fin) R
          cont brk) s' := by
  unfold create_cfg at h
  rw [ht] at h
  obtain ⟨r0, s5, h1, h2⟩ := bind_ok_iff.mp h
  have e := create_cfg_finish_result _ _ _ _ _ _ h2
  subst e
  simp only [create_cfg_finish, bind_ok_iff] at h2
  obtain ⟨_, s6, h3, h4⟩ := h2
  cases h4
  obtain ⟨n1, g1⟩ := add_subtree_next h3
  obtain ⟨ex, cs, cf, sc, sc', hq1_1⟩ := op_switch_spec _ (cfgOk_of_cfgOk3 (built_all fuel).1 false false) t _ _ _ h1
  obtain ⟨R, fin, cont, brk, s_end, hq1_2⟩ := hq1_1
  obtain ⟨q1, q2, q3, q4, q5, hq1_3⟩ := hq1_2
  obtain ⟨q6, q7, q8, q9, q10, hq1_4⟩ := hq1_3
  obtain ⟨q11, q12, q13, q14⟩ := hq1_4
  cases q6
  exact ⟨ex, cs, cf, sc, sc', R, fin, cont, brk, s_end, q1, q2, q3, q4, q5, rfl, rfl,
    by rw [g1]; exact q7, q8, q9, q10, q11, q12, has_frames q13 g1 n1, cen_same q14 g1 n1⟩

theorem add_subtree_frames {a : Node} {st : SubTreeData} {s s' : CFG}
    (h : add_subtree a st s = Except.ok ((), s')) : s'.break_nodes = s.break_nodes := by
  cases a with
  | none => cases h
  | some n => cases h; rfl

/-- A `break` gets a new node as start and the null node as finish; a `break` of level 1
appends its node to the innermost frame of break nodes. -/
theorem op_break_spec (fuel : Nat) (v : Vertex) (w ww : Bool) (sv sv' : CFG) (x y : Node)
    (hv : v.type = Operation.op_break)
    (h : create_cfg (fuel + 1) v w ww sv = Except.ok ((x, y), sv')) :
    y = none ∧ ∀ level, v.sons.get? 0 = some level → atoi level.get_string = 1 →
      sv'.break_nodes.length = sv.break_nodes.length ∧
      ∃ fr, sv'.break_nodes.getLast? = some fr ∧ x ∈ fr := by
  unfold create_cfg at h
  rw [hv] at h
  obtain ⟨r0, s5, h1, h2⟩ := bind_ok_iff.mp h
  have e := create_cfg_finish_result _ _ _ _ _ _ h2
  subst e
  simp only [create_cfg_finish, bind_ok_iff] at h2
  obtain ⟨_, s6, h3, h4⟩ := h2
  cases h4
  have f3 := add_subtree_frames h3
  simp only [create_cfg_op_break, bind_ok_iff] at h1
  obtain ⟨level, s1, k1, start, s2, k2, _, s3, k3, k4⟩ := h1
  cases k4
  refine ⟨rfl, ?_⟩
  intro lv hlv hone
  obtain ⟨rfl, g1⟩ := son_get k1
  rw [hlv] at g1
  cases g1
  rw [hone] at k3
  have f2 : s2.break_nodes = s1.break_nodes := by cases k2; rfl
  unfold create_cfg_add_break_node at k3
  simp only [bind_ok_iff, kphp_assert_run, get_state_run] at k3
  obtain ⟨_, t1, a1, t2, t3, a2, _, t4, a3, a4⟩ := k3
  split at a1
  · cases a1
    cases a2
    split at a3
    · rename_i hpos
      cases a3
      cases a4
      have hlen : 1 ≤ s2.break_nodes.length := by
        simp only [decide_eq_true_eq] at hpos
        omega
      have hne : s2.break_nodes ≠ [] := by
        intro e
        rw [e] at hlen
        simp at hlen
      obtain ⟨es, hes⟩ : ∃ es, s2.break_nodes.getLast? = some es := by
        cases hq : s2.break_nodes.getLast? with
        | none => exact absurd (List.getLast?_eq_none_iff.mp hq) hne
        | some es => exact ⟨es, rfl⟩
      have hidx : ((s2.break_nodes.length : Int) - 1).toNat = s2.break_nodes.length - 1 := by
        omega
      have hb : sv'.break_nodes = push_at s2.break_nodes (s2.break_nodes.length - 1) x := by
        rw [f3]
        show push_at s2.break_nodes ((s2.break_nodes.length : Int) - 1).toNat x = _
        rw [hidx]
      rw [hb, ← dropLast_append_push _ es x hes]
      constructor
      · rw [← f2]
        simp
        omega
      · exact ⟨es ++ [x], by simp, by simp⟩
    · cases a3
  · cases a1

theorem seq_loop_last (cfg : Vertex → M (Node × Node)) (xs : List Vertex) :
    ∀ (last0 : Node) (s s' : CFG) (res : Node) (x : Vertex),
    create_cfg_seq_loop cfg xs last0 s = Except.ok (res, s') → xs.getLast? = some x →
    ∃ sx sx' a, cfg x sx = Except.ok ((a, res), sx') ∧ s'.break_nodes = sx'.break_nodes := by
  induction xs with
  | nil =>
    intro last0 s s' res x _ hx
    cases hx
  | cons y ys ih =>
    intro last0 s s' res x h hx
    unfold create_cfg_seq_loop at h
    simp only [bind_ok_iff, Prod.exists] at h
    obtain ⟨a, b, s1, h1, _, s2, h2, h3⟩ := h
    cases ys with
    | nil =>
      simp at hx
      subst hx
      cases h3
      exact ⟨s, s1, a, h1, add_edge_frames h2⟩
    | cons z zs =>
      have hx' : (z :: zs).getLast? = some x := by
        rw [List.getLast?_cons_cons] at hx
        exact hx
      exact ih b s2 s' res x h3 hx'

/-- The finish of a sequence is the finish of its last statement, and the frames of break
nodes after the sequence are those after its last statement. -/
theorem op_seq_last (fuel : Nat) (cmd : Vertex) (w ww : Bool) (sb sb' : CFG) (a b : Node)
    (last : Vertex) (hc : cmd.type = Operation.op_seq) (hl : cmd.sons.getLast? = some last)
    (h : create_cfg (fuel + 1) cmd w ww sb = Except.ok ((a, b), sb')) :
    ∃ sv sv' x, create_cfg fuel last false false sv = Except.ok ((x, b), sv') ∧
      sb'.break_nodes = sv'.break_nodes := by
  unfold create_cfg at h
  rw [hc] at h
  obtain ⟨r0, s5, h1, h2⟩ := bind_ok_iff.mp h
  have e := create_cfg_finish_result _ _ _ _ _ _ h2
  subst e
  simp only [create_cfg_finish, bind_ok_iff] at h2
  obtain ⟨_, s6, h3, h4⟩ := h2
  cases h4
  have f3 := add_subtree_frames h3
  unfold create_cfg_op_seq at h1
  cases hs : cmd.sons with
  | nil =>
    rw [hs] at hl
    cases hl
  | cons y ys =>
    rw [hs] at h1 hl
    simp only [bind_ok_iff, Prod.exists] at h1
    obtain ⟨rs, b0, s1, k1, rf, s2, k2, k3⟩ := h1
    cases k3
    cases ys with
    | nil =>
      simp at hl
      subst hl
      cases k2
      exact ⟨_, _, _, k1, f3⟩
    | cons z zs =>
      have hl' : (z :: zs).getLast? = some last := by
        rw [List.getLast?_cons_cons] at hl
        exact hl
      obtain ⟨sx, sx', x, q1, q2⟩ := seq_loop_last _ _ _ _ _ _ _ k2 hl'
      exact ⟨sx, sx', x, q1, by rw [f3, q2]⟩

theorem switch_edges_mem (vi vr cs cf fin : Node) (R : List CaseNodes) (cont brk : List Node)
    (p : Node × Node) :
    p ∈ switch_edges vi vr cs cf fin R cont brk ↔
      (p = (vi, vr) ∨ p ∈ loop_edges none cf R ∨ p = (last_finish none R, fin) ∨
        ((R.any fun r => r.guard.isNone) = true ∧
          p = (last_guard_finish cf R, last_default_start none R)) ∨
        ((R.any fun r => r.guard.isNone) = false ∧ p = (last_guard_finish cf R, fin)) ∨
        p = (vr, cs) ∨ (p.2 = fin ∧ (p.1 ∈ cont ∨ p.1 ∈ brk))) := by
  unfold switch_edges
  obtain ⟨x, y⟩ := p
  cases hd : R.any fun r => r.guard.isNone
  · simp only [List.mem_cons, List.mem_append, List.mem_map, Prod.mk.injEq, Bool.false_eq_true,
      if_false, List.mem_singleton, false_and, true_and, false_or, List.not_mem_nil, or_false]
    constructor
    · rintro (h1 | h2 | h3 | h4 | h5 | ⟨z, hz, e1, e2⟩ | ⟨z, hz, e1, e2⟩)
      · exact Or.inl h1
      · exact Or.inr (Or.inl h2)
      · exact Or.inr (Or.inr (Or.inl h3))
      · exact Or.inr (Or.inr (Or.inr (Or.inl h4)))
      · exact Or.inr (Or.inr (Or.inr (Or.inr (Or.inl h5))))
      · exact Or.inr (Or.inr (Or.inr (Or.inr (Or.inr ⟨e2.symm, Or.inl (e1 ▸ hz)⟩))))
      · exact Or.inr (Or.inr (Or.inr (Or.inr (Or.inr ⟨e2.symm, Or.inr (e1 ▸ hz)⟩))))
    · rintro (h1 | h2 | h3 | h4 | h5 | ⟨e, h | h⟩)
      · exact Or.inl h1
      · exact Or.inr (Or.inl h2)
      · exact Or.inr (Or.inr (Or.inl h3))
      · exact Or.inr (Or.inr (Or.inr (Or.inl h4)))
      · exact Or.inr (Or.inr (Or.inr (Or.inr (Or.inl h5))))
      · exact Or.inr (Or.inr (Or.inr (Or.inr (Or.inr (Or.inl ⟨x, h, rfl, e.symm⟩)))))
      · exact Or.inr (Or.inr (Or.inr (Or.inr (Or.inr (Or.inr ⟨x, h, rfl, e.symm⟩)))))
  · simp only [List.mem_cons, List.mem_append, List.mem_map, Prod.mk.injEq,
      if_true, List.mem_singleton, false_and, true_and, false_or, or_false, Bool.true_eq_false,
      List.not_mem_nil]
    constructor
    · rintro (h1 | h2 | h3 | h4 | h5 | ⟨z, hz, e1, e2⟩ | ⟨z, hz, e1, e2⟩)
      · exact Or.inl h1
      · exact Or.inr (Or.inl h2)
      · exact Or.inr (Or.inr (Or.inl h3))
      · exact Or.inr (Or.inr (Or.inr (Or.inl h4)))
      · exact Or.inr (Or.inr (Or.inr (Or.inr (Or.inl h5))))
      · exact Or.inr (Or.inr (Or.inr (Or.inr (Or.inr ⟨e2.symm, Or.inl (e1 ▸ hz)⟩))))
      · exact Or.inr (Or.inr (Or.inr (Or.inr (Or.inr ⟨e2.symm, Or.inr (e1 ▸ hz)⟩))))
    · rintro (h1 | h2 | h3 | h4 | h5 | ⟨e, h | h⟩)
      · exact Or.inl h1
      · exact Or.inr (Or.inl h2)
      · exact Or.inr (Or.inr (Or.inl h3))
      · exact Or.inr (Or.inr (Or.inr (Or.inl h4)))
      · exact Or.inr (Or.inr (Or.inr (Or.inr (Or.inl h5))))
      · exact Or.inr (Or.inr (Or.inr (Or.inr (Or.inr (Or.inl ⟨x, h, rfl, e.symm⟩)))))
      · exact Or.inr (Or.inr (Or.inr (Or.inr (Or.inr (Or.inr ⟨x, h, rfl, e.symm⟩)))))

theorem create_cfg_zero (v : Vertex) (w ww : Bool) (s s' : CFG) (r : Node × Node)
    (h : create_cfg 0 v w ww s = Except.ok (r, s')) : False := by
  unfold create_cfg at h
  cases h

theorem last_finish_last (R : List CaseNodes) (r : CaseNodes) (h : R.getLast? = some r) :
    last_finish none R = r.cur_finish := by
  rw [List.getLast?_eq_getElem?] at h
  have hlen : R.length - 1 < R.length := (List.getElem?_eq_some_iff.mp h).1
  have := last_finish_take R none (R.length - 1) r h
  have e : R.length - 1 + 1 = R.length := by omega
  rw [e, List.take_length] at this
  exact this

/-- C9. For every switch, `create_cfg` builds the bodies of the clauses in source order, each
on a node range of its own (the ranges follow one another): the finish of each body has an
edge to the start of the next body (no edge when the finish is null), and the finish of
the last body has an edge to the finish of the switch.  A body that is a sequence ending in
`break` has the null finish; from the nodes of a body with the null finish every edge
stays among the nodes of the body or leads to the finish of the switch, so none enters
the next body; and the break nodes of the innermost frame after the body, among them the
node of a `break` of level 1 that ends the body, have an edge to the finish of the
switch. -/
theorem switch_fallthrough (fuel : Nat) (t : Vertex) (w ww : Bool) (s s' : CFG) (a b : Node)
    (ht : t.type = Operation.op_switch)
    (h : create_cfg (fuel + 1) t w ww s = Except.ok ((a, b), s')) :
    ∃ (R : List CaseNodes) (fin : Nat), b = some fin ∧ s'.node_gen = fin + 1 ∧
      List.Forall₂ (fun clause r => ∃ cmd sb sb',
          ((clause.type = Operation.op_case ∧ clause.sons.get? 1 = some cmd) ∨
            (clause.type = Operation.op_default ∧ clause.sons.get? 0 = some cmd)) ∧
          create_cfg fuel cmd false false sb = Except.ok ((r.cur_start, r.cur_finish), sb') ∧
          sb.node_gen = r.nodes_from ∧ sb'.node_gen = r.nodes_mid ∧
          sb.break_nodes.length = s.break_nodes.length + 1 ∧
          (∀ fr, sb'.break_nodes.getLast? = some fr → ∀ x ∈ fr, has_edge s' x b) ∧
          (∀ last, cmd.type = Operation.op_seq → cmd.sons.getLast? = some last →
            last.type = Operation.op_break →
            r.cur_finish = none ∧
            ∀ level, last.sons.get? 0 = some level → atoi level.get_string = 1 →
              ∃ f sv sv' x, fuel = f + 2 ∧
                create_cfg (f + 1) last false false sv = Except.ok ((x, none), sv') ∧
                has_edge s' x b))
        (t.sons.drop 5) R ∧
      (∀ (i : Nat) (r1 r2 : CaseNodes), R[i]? = some r1 → R[i + 1]? = some r2 →
        has_edge s' r1.cur_finish r2.cur_start) ∧
      (∀ r, R.getLast? = some r → has_edge s' r.cur_finish b) ∧
      (∀ (i j : Nat) (ri rj : CaseNodes), i < j → R[i]? = some ri → R[j]? = some rj →
        ri.nodes_mid ≤ rj.nodes_from) ∧
      (∀ (i : Nat) (r : CaseNodes), R[i]? = some r →
        (r.nodes_from < node_code r.cur_start ∧ node_code r.cur_start ≤ r.nodes_mid) ∧
        r.nodes_mid ≤ fin) ∧
      (∀ (i : Nat) (r : CaseNodes), R[i]? = some r → r.cur_finish = none →
        ∀ n m, r.nodes_from ≤ n → n < r.nodes_mid → m ∈ s'.node_next n →
          (r.nodes_from ≤ m ∧ m < r.nodes_mid) ∨ m = fin) := by
  obtain ⟨ex, cs, cf, sc, sc', hq1_1⟩ := create_cfg_switch fuel t w ww s s' a b ht h
  obtain ⟨R, fin, cont, brk, s_end, hq1_2⟩ := hq1_1
  obtain ⟨q1, q2, q3, q4, q5, hq1_3⟩ := hq1_2
  obtain ⟨ha, hb, hg, hok, hF, hq1_4⟩ := hq1_3
  obtain ⟨hbrk, hcont, hlen, hHas, hCen⟩ := hq1_4
  subst hb
  have hbrk_edge : ∀ x ∈ brk, has_edge s' x (some fin) := by
    intro x hx
    apply has_edge_of_has hHas
    rw [switch_edges_mem]
    exact Or.inr (Or.inr (Or.inr (Or.inr (Or.inr (Or.inr ⟨rfl, Or.inr hx⟩)))))
  refine ⟨R, fin, rfl, hg, ?_, ?_, ?_, ?_, ?_, ?_⟩
  · refine hF.imp ?_
    intro clause r hr
    obtain ⟨cmd, sb, sb', hcl, hrun, h3, h4, h5, h6⟩ := hr
    have hframes : ∀ fr, sb'.break_nodes.getLast? = some fr →
        ∀ x ∈ fr, has_edge s' x (some fin) := by
      intro fr hfr x hx
      obtain ⟨fe, f1, f2⟩ := h6 fr hfr
      rw [hbrk] at f1
      cases f1
      exact hbrk_edge x (f2 x hx)
    refine ⟨cmd, sb, sb', ?_, hrun, h3, h4, by rw [h5, hlen], hframes, ?_⟩
    · rcases hcl with ⟨a1, a2, _⟩ | ⟨a1, a2, _⟩
      · exact Or.inl ⟨a1, a2⟩
      · exact Or.inr ⟨a1, a2⟩
    · intro last hseq hlast hbreak
      cases fuel with
      | zero => exact absurd (create_cfg_zero _ _ _ _ _ _ hrun) id
      | succ f1 =>
        obtain ⟨sv, sv', x, r1, r2⟩ :=
          op_seq_last f1 cmd false false sb sb' _ _ last hseq hlast hrun
        cases f1 with
        | zero => exact absurd (create_cfg_zero _ _ _ _ _ _ r1) id
        | succ f =>
          obtain ⟨e1, e2⟩ := op_break_spec f last false false sv sv' x _ hbreak r1
          refine ⟨e1, ?_⟩
          intro level hlev hone
          obtain ⟨_, fr, g1, g2⟩ := e2 level hlev hone
          rw [e1] at r1
          refine ⟨f, sv, sv', x, rfl, r1, ?_⟩
          rw [← r2] at g1
          exact hframes fr g1 x g2
  · intro i r1 r2 h1 h2
    obtain ⟨e, _⟩ := loop_edges_has R none cf (i + 1) r2 h2
    rw [last_finish_take R none i r1 h1] at e
    apply has_edge_of_has hHas
    rw [switch_edges_mem]
    exact Or.inr (Or.inl e)
  · intro r hr
    apply has_edge_of_has hHas
    rw [switch_edges_mem, last_finish_last R r hr]
    exact Or.inr (Or.inr (Or.inl rfl))
  · intro i j ri rj hij hi hj
    have := rounds_ok_lt R _ _ hok i j ri rj hij hi hj
    obtain ⟨_, _, c, _⟩ := rounds_ok_get R _ _ hok i ri hi
    omega
  · intro i r hi
    obtain ⟨_, _, c3, c4, c5, _⟩ := rounds_ok_get R _ _ hok i r hi
    exact ⟨c5, by omega⟩
  · intro i r hi hnull n m hn1 hn2 hm
    obtain ⟨c1, c2, c3, c4, _, _, _, _⟩ := rounds_ok_get R _ _ hok i r hi
    have hcf : ∀ x : Nat, cf = some x → x < sc'.node_gen := by
      intro x hx
      rw [hx] at q5
      unfold NodeIn at q5
      simp only [node_code_some] at q5
      omega
    -- a node of the body is not the source of an edge of the guard chain
    have hguard : ∀ k : Nat, last_guard_finish cf (R.take k) = some n → False := by
      intro k hk
      rcases last_guard_finish_src R _ _ hok cf k n hk with e | ⟨k', rk', hk', _, b1, b2, b3⟩
      · have := hcf n e
        omega
      · obtain ⟨_, e⟩ := round_owner R _ _ hok i k' r rk' hi hk' n hn1 (by omega) b3 b2
        subst e
        omega
    rcases hCen n m (by omega) (by omega) hm with ⟨b', hb', d1, d2, d3, d4⟩ | he
    · rcases List.mem_cons.mp hb' with e | e
      · subst e
        dsimp only at d2
        omega
      · obtain ⟨j, rj, hj, hbj⟩ := round_blocks_mem R b' e
        obtain ⟨j1, j2, j3, _⟩ := rounds_ok_get R _ _ hok j rj hj
        rcases hbj with e | ⟨_, e⟩
        · subst e
          dsimp only at d1 d2 d3 d4
          obtain ⟨_, e⟩ := round_owner R _ _ hok i j r rj hi hj n hn1 (by omega) d1 (by omega)
          subst e
          exact Or.inl ⟨d3, d4⟩
        · subst e
          dsimp only at d1 d2 d3 d4
          obtain ⟨_, e⟩ := round_owner R _ _ hok i j r rj hi hj n hn1 (by omega) (by omega) d2
          subst e
          omega
    · rw [switch_edges_mem] at he
      rcases he with e | e | e | ⟨_, e⟩ | ⟨_, e⟩ | e | ⟨e, _⟩
      · have := (Prod.mk.inj e).1
        cases this
        omega
      · obtain ⟨k, rk, hk, hcase⟩ := loop_edges_mem R none cf _ _ e
        rcases hcase with ⟨ex', _⟩ | ⟨gs, gf, hgd, ⟨ex', _⟩ | ⟨ex', _⟩⟩
        · obtain ⟨k', rk', hk', _, hfin', b1, b2, b3⟩ :=
            last_finish_src R _ _ hok k n ex'.symm
          obtain ⟨_, e'⟩ := round_owner R _ _ hok i k' r rk' hi hk' n hn1 (by omega) b1 b3
          subst e'
          rw [hnull] at hfin'
          cases hfin'
        · rw [← ex'] at hgd
          obtain ⟨b1, b2, b3⟩ := guard_src R _ _ hok k rk hk gs n hgd
          obtain ⟨_, e'⟩ := round_owner R _ _ hok i k r rk hi hk n hn1 (by omega) b3 b2
          subst e'
          omega
        · exact absurd (hguard k ex'.symm) id
      · right
        have := (Prod.mk.inj e).2
        exact (Option.some.inj this)
      · have := (Prod.mk.inj e).1
        rw [← List.take_length R] at this
        exact absurd (hguard _ this.symm) id
      · right
        have := (Prod.mk.inj e).2
        exact (Option.some.inj this)
      · have := (Prod.mk.inj e).1
        cases this
        omega
      · right
        exact (Option.some.inj e)

theorem any_default_iff (R : List CaseNodes) :
    (R.any fun r => r.guard.isNone) = true ↔ ∃ r ∈ R, r.guard = none := by
  rw [List.any_eq_true]
  constructor
  · rintro ⟨r, hr, h⟩
    exact ⟨r, hr, Option.isNone_iff_eq_none.mp h⟩
  · rintro ⟨r, hr, h⟩
    exact ⟨r, hr, Option.isNone_iff_eq_none.mpr h⟩

/-- C10. For every switch, `create_cfg` builds the subject, and for the clauses in source
order the body and, for a case, the guard, each on a node range of its own.  The guards
form a chain: the start of a guard has an edge from the finish of the last guard before
it (from the finish of the subject when no case precedes it), and the finish of a guard
has an edge to the start of the body of its case.  The body of the last default clause
has an edge from the finish of the last guard (from the finish of the subject when there
is no case), wherever the default stands among the cases, and this is the only edge from
a node of the subject or of a guard to a node of the body of a default clause.  When
there is no default clause, the finish of the last guard has an edge to the finish of the
switch. -/
theorem switch_default_fallback (fuel : Nat) (t : Vertex) (w ww : Bool) (s s' : CFG)
    (a b : Node) (ht : t.type = Operation.op_switch)
    (h : create_cfg (fuel + 1) t w ww s = Except.ok ((a, b), s')) :
    ∃ (expr : Vertex) (cs cf : Node) (sc sc' : CFG) (R : List CaseNodes) (fin : Nat),
      t.sons.get? 0 = some expr ∧
      create_cfg fuel expr false false sc = Except.ok ((cs, cf), sc') ∧
      sc.node_gen = s.node_gen ∧ b = some fin ∧
      List.Forall₂ (fun clause r =>
          ((clause.type = Operation.op_case ∧
              ∃ guard_expr gs gf sg sg', clause.sons.get? 0 = some guard_expr ∧
                r.guard = some (gs, gf) ∧
                create_cfg fuel guard_expr false false sg = Except.ok ((gs, gf), sg') ∧
                sg.node_gen = r.nodes_mid ∧ sg'.node_gen = r.nodes_to) ∨
            (clause.type = Operation.op_default ∧ r.guard = none)) ∧
          ∃ cmd sb sb',
            (clause.sons.get? 1 = some cmd ∨ clause.sons.get? 0 = some cmd) ∧
            create_cfg fuel cmd false false sb =
              Except.ok ((r.cur_start, r.cur_finish), sb') ∧
            sb.node_gen = r.nodes_from ∧ sb'.node_gen = r.nodes_mid)
        (t.sons.drop 5) R ∧
      (∀ (i : Nat) (r : CaseNodes) (gs gf : Node), R[i]? = some r → r.guard = some (gs, gf) →
        has_edge s' (last_guard_finish cf (R.take i)) gs ∧ has_edge s' gf r.cur_start) ∧
      (∀ i : Nat,
        (last_guard_finish cf (R.take i) = cf ∧
          ∀ (k : Nat) (r : CaseNodes), k < i → R[k]? = some r → r.guard = none) ∨
        ∃ (k : Nat) (r : CaseNodes) (gs gf : Node), k < i ∧ R[k]? = some r ∧
          r.guard = some (gs, gf) ∧ last_guard_finish cf (R.take i) = gf ∧
          ∀ (j : Nat) (r' : CaseNodes), k < j → j < i → R[j]? = some r' → r'.guard = none) ∧
      last_guard_finish cf (R.take R.length) = last_guard_finish cf R ∧
      (∀ (i : Nat) (r : CaseNodes), R[i]? = some r → r.guard = none →
        (∀ (j : Nat) (r' : CaseNodes), i < j → R[j]? = some r' → r'.guard ≠ none) →
        has_edge s' (last_guard_finish cf R) r.cur_start) ∧
      (∀ (i : Nat) (r : CaseNodes), R[i]? = some r → r.guard = none →
        ∀ n m, ((s.node_gen ≤ n ∧ n < sc'.node_gen) ∨
            ∃ (k : Nat) (rk : CaseNodes), R[k]? = some rk ∧ rk.nodes_mid ≤ n ∧
              n < rk.nodes_to) →
          r.nodes_from ≤ m → m < r.nodes_mid → m ∈ s'.node_next n →
          some n = last_guard_finish cf R ∧ some m = r.cur_start ∧
          ∀ (j : Nat) (r' : CaseNodes), i < j → R[j]? = some r' → r'.guard ≠ none) ∧
      ((∀ r ∈ R, r.guard ≠ none) → has_edge s' (last_guard_finish cf R) b) := by
  obtain ⟨ex, cs, cf, sc, sc', hq1_1⟩ := create_cfg_switch fuel t w ww s s' a b ht h
  obtain ⟨R, fin, cont, brk, s_end, hq1_2⟩ := hq1_1
  obtain ⟨q1, q2, q3, q4, q5, hq1_3⟩ := hq1_2
  obtain ⟨ha, hb, hg, hok, hF, hq1_4⟩ := hq1_3
  obtain ⟨hbrk, hcont, hlen, hHas, hCen⟩ := hq1_4
  subst hb
  refine ⟨ex, cs, cf, sc, sc', R, fin, q1, q2, q3, rfl, ?_, ?_, ?_, by rw [List.take_length],
    ?_, ?_, ?_⟩
  · refine hF.imp ?_
    intro clause r hr
    obtain ⟨cmd, sb, sb', hcl, hrun, h3, h4, _, _⟩ := hr
    rcases hcl with ⟨a1, a2, ge, gs, gf, sg, sg', b1, b2, b3, b4, b5⟩ | ⟨a1, a2, a3⟩
    · exact ⟨Or.inl ⟨a1, ge, gs, gf, sg, sg', b1, b2, b3, b4, b5⟩, cmd, sb, sb', Or.inl a2,
        hrun, h3, h4⟩
    · exact ⟨Or.inr ⟨a1, a3⟩, cmd, sb, sb', Or.inr a2, hrun, h3, h4⟩
  · intro i r gs gf hi hgd
    obtain ⟨_, e⟩ := loop_edges_has R none cf i r hi
    obtain ⟨e1, e2⟩ := e gs gf hgd
    constructor
    · apply has_edge_of_has hHas
      rw [switch_edges_mem]
      exact Or.inr (Or.inl e2)
    · apply has_edge_of_has hHas
      rw [switch_edges_mem]
      exact Or.inr (Or.inl e1)
  · intro i
    rcases last_guard_finish_cases (R.take i) cf with ⟨e, hn⟩ | ⟨k, rk, gs, gf, hk, hgd, e, hl⟩
    · left
      refine ⟨e, ?_⟩
      intro k r hk hr
      apply hn r
      have : (R.take i)[k]? = some r := by
        rw [List.getElem?_take, if_pos hk]
        exact hr
      exact mem_of_get _ _ _ this
    · right
      obtain ⟨hk', hlt⟩ := get_of_take R i k rk hk
      refine ⟨k, rk, gs, gf, hlt, hk', hgd, e, ?_⟩
      intro j r' hkj hji hr'
      apply hl j r' hkj
      rw [List.getElem?_take, if_pos hji]
      exact hr'
  · intro i r hi hnone hlast
    have hany : (R.any fun r => r.guard.isNone) = true :=
      (any_default_iff R).mpr ⟨r, mem_of_get _ _ _ hi, hnone⟩
    have hds : last_default_start none R = r.cur_start := by
      rcases last_default_start_cases R none with ⟨_, hn⟩ | ⟨i', r', hi', hg', e, hl'⟩
      · exact absurd hnone (hn r (mem_of_get _ _ _ hi))
      · rcases Nat.lt_trichotomy i i' with c | c | c
        · exact absurd hg' (hlast i' r' c hi')
        · subst c
          rw [hi] at hi'
          cases hi'
          exact e
        · exact absurd hnone (hl' i r c hi)
    apply has_edge_of_has hHas
    rw [switch_edges_mem, hds]
    exact Or.inr (Or.inr (Or.inr (Or.inl ⟨hany, rfl⟩)))
  · intro i r hi hnone n m hn hm1 hm2 hm
    obtain ⟨c1, c2, c3, c4, _, _, _, c8⟩ := rounds_ok_get R _ _ hok i r hi
    have hto := c8 hnone
    have hcslt : s.node_gen ≤ sc'.node_gen := by omega
    -- the node `n` is below the finish and not in a body
    have hn_lt : n < fin := by
      rcases hn with ⟨_, h2⟩ | ⟨k, rk, hk, h1, h2⟩
      · have := rounds_ok_le _ _ _ hok
        omega
      · obtain ⟨_, _, _, d4, _⟩ := rounds_ok_get R _ _ hok k rk hk
        omega
    have hn_ge : s.node_gen ≤ n := by
      rcases hn with ⟨h1, _⟩ | ⟨k, rk, hk, h1, h2⟩
      · exact h1
      · obtain ⟨d1, d2, _⟩ := rounds_ok_get R _ _ hok k rk hk
        omega
    have hnot_body : ∀ (k : Nat) (rk : CaseNodes), R[k]? = some rk → rk.nodes_from ≤ n →
        n < rk.nodes_mid → False := by
      intro k rk hk h1 h2
      obtain ⟨d1, d2, d3, _⟩ := rounds_ok_get R _ _ hok k rk hk
      rcases hn with ⟨_, g2⟩ | ⟨k', rk', hk', g1, g2⟩
      · omega
      · obtain ⟨e1, e2, _⟩ := rounds_ok_get R _ _ hok k' rk' hk'
        obtain ⟨_, e⟩ := round_owner R _ _ hok k k' rk rk' hk hk' n h1 (by omega) (by omega) g2
        subst e
        omega
    have hnot_vars : n ≠ sc'.node_gen ∧ n ≠ sc'.node_gen + 1 := by
      rcases hn with ⟨_, g2⟩ | ⟨k', rk', hk', g1, g2⟩
      · omega
      · obtain ⟨e1, e2, _⟩ := rounds_ok_get R _ _ hok k' rk' hk'
        omega
    rcases hCen n m hn_ge (by omega) hm with ⟨b', hb', d1, d2, d3, d4⟩ | he
    · exfalso
      rcases List.mem_cons.mp hb' with e | e
      · subst e
        dsimp only at d4
        omega
      · obtain ⟨j, rj, hj, hbj⟩ := round_blocks_mem R b' e
        obtain ⟨j1, j2, j3, _⟩ := rounds_ok_get R _ _ hok j rj hj
        rcases hbj with e | ⟨_, e⟩
        · subst e
          dsimp only at d1 d2 d3 d4
          exact hnot_body j rj hj d1 d2
        · subst e
          dsimp only at d1 d2 d3 d4
          obtain ⟨_, e⟩ := round_owner R _ _ hok i j r rj hi hj m hm1 (by omega) (by omega) d4
          subst e
          omega
    · rw [switch_edges_mem] at he
      rcases he with e | e | e | ⟨hany, e⟩ | ⟨_, e⟩ | e | ⟨e, _⟩
      · have := (Prod.mk.inj e).1
        cases this
        omega
      · exfalso
        obtain ⟨k, rk, hk, hcase⟩ := loop_edges_mem R none cf _ _ e
        rcases hcase with ⟨ex', _⟩ | ⟨gs, gf, hgd, ⟨_, ey'⟩ | ⟨_, ey'⟩⟩
        · obtain ⟨k', rk', hk', _, _, b1, b2, _⟩ := last_finish_src R _ _ hok k n ex'.symm
          exact hnot_body k' rk' hk' b1 b2
        · obtain ⟨b1, b2, b3⟩ := body_start R _ _ hok k rk hk m ey'.symm
          obtain ⟨_, e'⟩ := round_owner R _ _ hok i k r rk hi hk m hm1 (by omega) b1 b3
          subst e'
          rw [hnone] at hgd
          cases hgd
        · rw [← ey'] at hgd
          obtain ⟨b1, b2, b3⟩ := guard_start R _ _ hok k rk hk gf m hgd
          obtain ⟨_, e'⟩ := round_owner R _ _ hok i k r rk hi hk m hm1 (by omega) b3 b2
          subst e'
          omega
      · have := Option.some.inj (Prod.mk.inj e).2
        omega
      · obtain ⟨e1, e2⟩ := Prod.mk.inj e
        rcases last_default_start_cases R none with ⟨en, _⟩ | ⟨i', r', hi', hg', e', hl'⟩
        · rw [en] at e2
          cases e2
        · rw [e'] at e2
          obtain ⟨b1, b2, b3⟩ := body_start R _ _ hok i' r' hi' m e2.symm
          obtain ⟨e3, e4⟩ := round_owner R _ _ hok i i' r r' hi hi' m hm1 (by omega) b1 b3
          subst e3
          subst e4
          exact ⟨e1, e2, hl'⟩
      · have := Option.some.inj (Prod.mk.inj e).2
        omega
      · have := (Prod.mk.inj e).1
        cases this
        omega
      · have := Option.some.inj e
        omega
  · intro hno
    have hany : (R.any fun r => r.guard.isNone) = false := by
      rw [Bool.eq_false_iff]
      intro hc
      obtain ⟨r, hr, hn⟩ := (any_default_iff R).mp hc
      exact hno r hr hn
    apply has_edge_of_has hHas
    rw [switch_edges_mem]
    exact Or.inr (Or.inr (Or.inr (Or.inr (Or.inl ⟨hany, rfl⟩))))

/-- Witness of C9: in the sample switch the finish of `echo "a"` (node 4) has its one edge
to the start of `echo "b"` (node 11), the node of the `break` (node 15) has its one edge to
the finish of the switch (node 24), and the theorem applies with three rounds. -/
theorem switch_fallthrough_witness :
    sample_switch.type = Operation.op_switch ∧
    run_result (create_cfg 6 sample_switch false false sample_switch_start) =
      some (some 1, some 24) ∧
    sample_switch_state.node_next 4 = [11] ∧ sample_switch_state.node_next 15 = [24] ∧
    ∃ (R : List CaseNodes) (fin : Nat), some 24 = some fin ∧ R.length = 3 ∧
      (∀ (i : Nat) (r1 r2 : CaseNodes), R[i]? = some r1 → R[i + 1]? = some r2 →
        has_edge sample_switch_state r1.cur_finish r2.cur_start) ∧
      (∀ r, R.getLast? = some r → has_edge sample_switch_state r.cur_finish (some 24)) ∧
      (∀ (i : Nat) (r : CaseNodes), R[i]? = some r → r.cur_finish = none →
        ∀ n m, r.nodes_from ≤ n → n < r.nodes_mid → m ∈ sample_switch_state.node_next n →
          (r.nodes_from ≤ m ∧ m < r.nodes_mid) ∨ m = fin) := by
  have h : run_result (create_cfg 6 sample_switch false false sample_switch_start) =
      some (some 1, some 24) := by decide!
  obtain ⟨R, fin, e1, _, e3, e4, e5, _, _, e8⟩ := switch_fallthrough 5 sample_switch false false
    sample_switch_start sample_switch_state (some 1) (some 24) rfl (run_eq_of_result _ _ h)
  refine ⟨rfl, h, by decide!, by decide!, R, fin, e1, ?_, e4, e5, e8⟩
  have := e3.length_eq
  rw [← this]
  rfl

/-- Witness of C10: in the switch with the default in front, the finish of the subject
(node 0) leads to the first guard (node 11), the finish of the first guard (node 12) to
the body of its case and to the second guard (nodes 7 and 19), and the finish of the last
guard (node 20) to the body of its case and to the body of the default (nodes 15
and 3). -/
theorem switch_default_fallback_witness :
    sample_default_first.type = Operation.op_switch ∧
    run_result (create_cfg 6 sample_default_first false false sample_default_first_start) =
      some (some 1, some 23) ∧
    sample_default_first_state.node_next 0 = [11] ∧
    sample_default_first_state.node_next 12 = [7, 19] ∧
    sample_default_first_state.node_next 20 = [15, 3] ∧
    ∃ (cf : Node) (R : List CaseNodes), R.length = 3 ∧
      (∀ (i : Nat) (r : CaseNodes) (gs gf : Node), R[i]? = some r → r.guard = some (gs, gf) →
        has_edge sample_default_first_state (last_guard_finish cf (R.take i)) gs ∧
        has_edge sample_default_first_state gf r.cur_start) ∧
      (∀ (i : Nat) (r : CaseNodes), R[i]? = some r → r.guard = none →
        (∀ (j : Nat) (r' : CaseNodes), i < j → R[j]? = some r' → r'.guard ≠ none) →
        has_edge sample_default_first_state (last_guard_finish cf R) r.cur_start) ∧
      ((∀ r ∈ R, r.guard ≠ none) →
        has_edge sample_default_first_state (last_guard_finish cf R) (some 23)) := by
  have h : run_result (create_cfg 6 sample_default_first false false
      sample_default_first_start) = some (some 1, some 23) := by decide!
  obtain ⟨ex, cs, cf, sc, sc', R, fin, _, _, _, _, e5, e6, _, _, e9, _, e11⟩ :=
    switch_default_fallback 5 sample_default_first false false sample_default_first_start
      sample_default_first_state (some 1) (some 23) rfl (run_eq_of_result _ _ h)
  refine ⟨rfl, h, by decide!, by decide!, by decide!, cf, R, ?_, e6, e9, e11⟩
  have := e5.length_eq
  rw [← this]
  rfl

theorem Stable.base {R : CFG → CFG → Prop} (h : Stable R) : Stable0 R :=
  ⟨h.rel, h.node, h.usage, h.attach, h.marker, h.edge, h.frames⟩

theorem stable_enter_cycle {R : CFG → CFG → Prop} (h : Stable0 R) :
    Preserves R create_cfg_enter_cycle :=
  preserves_modify_state _ fun s => h.frames _ _ _ s

theorem stable_begin_try {R : CFG → CFG → Prop} (h : Stable0 R) :
    Preserves R create_cfg_begin_try :=
  preserves_modify_state _ fun s => h.frames s.break_nodes s.continue_nodes _ s

theorem stable_add_edges_from {R : CFG → CFG → Prop} (h : Stable0 R) (l : List Node) (dst : Node) :
    Preserves R (add_edges_from l dst) := by
  induction l with
  | nil => exact preserves_pure h.rel _
  | cons a l ih =>
    unfold add_edges_from
    exact preserves_bind h.rel (h.edge _ _) fun _ => ih

theorem stable_exit_cycle {R : CFG → CFG → Prop} (h : Stable0 R) (a b : Node) :
    Preserves R (create_cfg_exit_cycle a b) := by
  unfold create_cfg_exit_cycle
  refine preserves_bind h.rel (preserves_get_state h.rel) fun s => ?_
  split
  · refine preserves_bind h.rel (stable_add_edges_from h _ _) fun _ => ?_
    refine preserves_bind h.rel (stable_add_edges_from h _ _) fun _ => ?_
    exact preserves_modify_state _ fun s => h.frames _ _ s.exception_nodes s
  · exact preserves_fail _

theorem stable_end_try {R : CFG → CFG → Prop} (h : Stable0 R) (a : Node) :
    Preserves R (create_cfg_end_try a) := by
  unfold create_cfg_end_try
  refine preserves_bind h.rel (preserves_get_state h.rel) fun s => ?_
  split
  · refine preserves_bind h.rel (stable_add_edges_from h _ _) fun _ => ?_
    exact preserves_modify_state _ fun s => h.frames s.break_nodes s.continue_nodes _ s
  · exact preserves_fail _

theorem stable_register_exception {R : CFG → CFG → Prop} (h : Stable0 R) (a : Node) :
    Preserves R (create_cfg_register_exception a) := by
  unfold create_cfg_register_exception
  refine preserves_bind h.rel (preserves_get_state h.rel) fun s => ?_
  split
  · exact preserves_pure h.rel _
  · exact preserves_modify_state _ fun s => h.frames s.break_nodes s.continue_nodes _ s

theorem stable_add_break_node {R : CFG → CFG → Prop} (h : Stable0 R) (a : Node) (d : Int) :
    Preserves R (create_cfg_add_break_node a d) := by
  unfold create_cfg_add_break_node
  refine preserves_bind h.rel (preserves_kphp_assert h.rel _) fun _ => ?_
  refine preserves_bind h.rel (preserves_get_state h.rel) fun s => ?_
  refine preserves_bind h.rel (preserves_kphp_assert h.rel _) fun _ => ?_
  exact preserves_modify_state _ fun s => h.frames _ s.continue_nodes s.exception_nodes s

theorem stable_add_continue_node {R : CFG → CFG → Prop} (h : Stable0 R) (a : Node) (d : Int) :
    Preserves R (create_cfg_add_continue_node a d) := by
  unfold create_cfg_add_continue_node
  refine preserves_bind h.rel (preserves_kphp_assert h.rel _) fun _ => ?_
  refine preserves_bind h.rel (preserves_get_state h.rel) fun s => ?_
  refine preserves_bind h.rel (preserves_kphp_assert h.rel _) fun _ => ?_
  exact preserves_modify_state _ fun s => h.frames s.break_nodes _ s.exception_nodes s

theorem stable_for_each_flag {R : CFG → CFG → Prop} (h : Stable0 R) (f : Vertex → Bool → M Bool)
    (hf : ∀ v b, Preserves R (f v b)) (l : List Vertex) (b : Bool) :
    Preserves R (for_each_flag f l b) := by
  induction l generalizing b with
  | nil => exact preserves_pure h.rel _
  | cons a l ih =>
    unfold for_each_flag
    exact preserves_bind h.rel (hf _ _) fun _ => ih _

set_option maxRecDepth 10000 in
set_option linter.unreachableTactic false in
set_option linter.unusedTactic false in
theorem stable_collect_vars_usage {R : CFG → CFG → Prop} (h : Stable0 R) (fuel : Nat) :
    ∀ (t : Vertex) (w r : Node) (b : Bool), Preserves R (collect_vars_usage fuel t w r b) := by
  induction fuel with
  | zero => intro t w r b; exact preserves_fail _
  | succ fuel ih =>
    intro t w r b
    unfold collect_vars_usage
    repeat (first
      | apply ih
      | apply stable_for_each_flag h
      | apply h.usage
      | apply h.attach
      | apply preserves_bind h.rel
      | apply preserves_son h.rel
      | apply preserves_pure h.rel
      | apply preserves_fail
      | intro _
      | dsimp only
      | split)

set_option maxRecDepth 10000 in
set_option linter.unreachableTactic false in
set_option linter.unusedTactic false in
theorem stable_full_cfg {R : CFG → CFG → Prop} (h : Stable0 R)
    (hc : ∀ n, Preserves R (compress_usages n)) (fuel : Nat) (t : Vertex) :
    Preserves R (create_full_cfg fuel t) := by
  unfold create_full_cfg
  repeat (first
    | exact stable_collect_vars_usage h _ _ _ _ _
    | exact stable_register_exception h _
    | exact h.node
    | exact hc _
    | exact h.marker _ _
    | exact h.edge _ _
    | exact preserves_pure h.rel _
    | apply preserves_bind h.rel
    | intro _
    | split
    | dsimp only)

set_option maxRecDepth 10000 in
set_option linter.unreachableTactic false in
set_option linter.unusedTactic false in
theorem stable_seq_loop {R : CFG → CFG → Prop} (h : Stable0 R) (cfg : Vertex → M (Node × Node)) (hcfg : ∀ v, Preserves R (cfg v)) (l : List Vertex) (last : Node) :
    Preserves R (create_cfg_seq_loop cfg l last) := by
  induction l generalizing last with
  | nil => exact preserves_pure h.rel _
  | cons x xs ih =>
    unfold create_cfg_seq_loop
    repeat (first
      | apply ih
      | apply hcfg
      | apply h.node
      | apply h.edge
      | apply h.marker
      | apply h.usage
      | apply h.attach
      | apply stable_enter_cycle h
      | apply stable_exit_cycle h
      | apply stable_begin_try h
      | apply stable_end_try h
      | apply stable_register_exception h
      | apply stable_add_break_node h
      | apply stable_add_continue_node h
        | apply preserves_son h.rel
      | apply preserves_get_state h.rel
      | apply preserves_bind h.rel
      | apply preserves_pure h.rel
      | apply preserves_fail
      | apply preserves_kphp_fail
      | intro _
      | dsimp only
      | split)

set_option maxRecDepth 10000 in
set_option linter.unreachableTactic false in
set_option linter.unusedTactic false in
theorem stable_call_loop {R : CFG → CFG → Prop} (h : Stable0 R) (cfg : Vertex → Bool → Bool → M (Node × Node)) (hcfg : ∀ v w ww, Preserves R (cfg v w ww)) (func : Option FuncInfo) (l : List Vertex) (ii : Nat) (start : Node) :
    Preserves R (create_cfg_call_loop cfg func l ii start) := by
  induction l generalizing ii start with
  | nil => exact preserves_pure h.rel _
  | cons x xs ih =>
    unfold create_cfg_call_loop
    repeat (first
      | apply ih
      | apply hcfg
      | apply h.node
      | apply h.edge
      | apply h.marker
      | apply h.usage
      | apply h.attach
      | apply stable_enter_cycle h
      | apply stable_exit_cycle h
      | apply stable_begin_try h
      | apply stable_end_try h
      | apply stable_register_exception h
      | apply stable_add_break_node h
      | apply stable_add_continue_node h
        | apply preserves_son h.rel
      | apply preserves_get_state h.rel
      | apply preserves_bind h.rel
      | apply preserves_pure h.rel
      | apply preserves_fail
      | apply preserves_kphp_fail
      | intro _
      | dsimp only
      | split)

set_option maxRecDepth 10000 in
set_option linter.unreachableTactic false in
set_option linter.unusedTactic false in
theorem stable_list_loop {R : CFG → CFG → Prop} (h : Stable0 R) (cfg : Vertex → Bool → Bool → M (Node × Node)) (hcfg : ∀ v w ww, Preserves R (cfg v w ww)) (l : List Vertex) (prev : Node) :
    Preserves R (create_cfg_list_loop cfg l prev) := by
  induction l generalizing prev with
  | nil => exact preserves_pure h.rel _
  | cons x xs ih =>
    unfold create_cfg_list_loop
    repeat (first
      | apply ih
      | apply hcfg
      | apply h.node
      | apply h.edge
      | apply h.marker
      | apply h.usage
      | apply h.attach
      | apply stable_enter_cycle h
      | apply stable_exit_cycle h
      | apply stable_begin_try h
      | apply stable_end_try h
      | apply stable_register_exception h
      | apply stable_add_break_node h
      | apply stable_add_continue_node h
        | apply preserves_son h.rel
      | apply preserves_get_state h.rel
      | apply preserves_bind h.rel
      | apply preserves_pure h.rel
      | apply preserves_fail
      | apply preserves_kphp_fail
      | intro _
      | dsimp only
      | split)

set_option maxRecDepth 10000 in
set_option linter.unreachableTactic false in
set_option linter.unusedTactic false in
theorem stable_switch_clause {R : CFG → CFG → Prop} (h : Stable0 R) (i : Vertex) : Preserves R (switch_clause i) := by
  unfold switch_clause
  repeat (first
    | apply h.node
    | apply h.edge
    | apply h.marker
    | apply h.usage
    | apply h.attach
    | apply stable_enter_cycle h
    | apply stable_exit_cycle h
    | apply stable_begin_try h
    | apply stable_end_try h
    | apply stable_register_exception h
    | apply stable_add_break_node h
    | apply stable_add_continue_node h
    | apply preserves_son h.rel
    | apply preserves_get_state h.rel
    | apply preserves_bind h.rel
    | apply preserves_pure h.rel
    | apply preserves_fail
    | apply preserves_kphp_fail
    | intro _
    | dsimp only
    | split)

set_option maxRecDepth 10000 in
set_option linter.unreachableTactic false in
set_option linter.unusedTactic false in
theorem stable_switch_loop {R : CFG → CFG → Prop} (h : Stable0 R) (cfg : Vertex → M (Node × Node)) (hcfg : ∀ v, Preserves R (cfg v)) (l : List Vertex) (st : SwitchLoop) :
    Preserves R (create_cfg_switch_loop cfg l st) := by
  induction l generalizing st with
  | nil => exact preserves_pure h.rel _
  | cons x xs ih =>
    unfold create_cfg_switch_loop
    repeat (first
      | apply ih
      | apply hcfg
      | apply stable_switch_clause h
      | apply h.node
      | apply h.edge
      | apply h.marker
      | apply h.usage
      | apply h.attach
      | apply stable_enter_cycle h
      | apply stable_exit_cycle h
      | apply stable_begin_try h
      | apply stable_end_try h
      | apply stable_register_exception h
      | apply stable_add_break_node h
      | apply stable_add_continue_node h
        | apply preserves_son h.rel
      | apply preserves_get_state h.rel
      | apply preserves_bind h.rel
      | apply preserves_pure h.rel
      | apply preserves_fail
      | apply preserves_kphp_fail
      | intro _
      | dsimp only
      | split)

set_option maxRecDepth 10000 in
set_option linter.unreachableTactic false in
set_option linter.unusedTactic false in
theorem stable_switch_vars {R : CFG → CFG → Prop} (h : Stable0 R) (a b : Node) (l : List Vertex) :
    Preserves R (create_cfg_switch_vars a b l) := by
  induction l with
  | nil => exact preserves_pure h.rel _
  | cons x xs ih =>
    unfold create_cfg_switch_vars
    repeat (first
      | apply ih
      | apply h.node
      | apply h.edge
      | apply h.marker
      | apply h.usage
      | apply h.attach
      | apply stable_enter_cycle h
      | apply stable_exit_cycle h
      | apply stable_begin_try h
      | apply stable_end_try h
      | apply stable_register_exception h
      | apply stable_add_break_node h
      | apply stable_add_continue_node h
        | apply preserves_son h.rel
      | apply preserves_get_state h.rel
      | apply preserves_bind h.rel
      | apply preserves_pure h.rel
      | apply preserves_fail
      | apply preserves_kphp_fail
      | intro _
      | dsimp only
      | split)

set_option maxRecDepth 10000 in
set_option linter.unreachableTactic false in
set_option linter.unusedTactic false in
theorem stable_add_subtrees {R : CFG → CFG → Prop} (h : Stable0 R) (a : Node) (l : List Vertex) :
    Preserves R (add_subtrees a l) := by
  induction l with
  | nil => exact preserves_pure h.rel _
  | cons x xs ih =>
    unfold add_subtrees
    repeat (first
      | apply ih
      | apply h.node
      | apply h.edge
      | apply h.marker
      | apply h.usage
      | apply h.attach
      | apply stable_enter_cycle h
      | apply stable_exit_cycle h
      | apply stable_begin_try h
      | apply stable_end_try h
      | apply stable_register_exception h
      | apply stable_add_break_node h
      | apply stable_add_continue_node h
        | apply preserves_son h.rel
      | apply preserves_get_state h.rel
      | apply preserves_bind h.rel
      | apply preserves_pure h.rel
      | apply preserves_fail
      | apply preserves_kphp_fail
      | intro _
      | dsimp only
      | split)

set_option maxRecDepth 10000 in
set_option linter.unreachableTactic false in
set_option linter.unusedTactic false in
theorem stable_op_seq {R : CFG → CFG → Prop} (h : Stable0 R) (cfg : Vertex → M (Node × Node)) (hcfg : ∀ v, Preserves R (cfg v)) (t : Vertex) :
    Preserves R (create_cfg_op_seq cfg t) := by
  unfold create_cfg_op_seq
  repeat (first
    | apply stable_seq_loop h cfg hcfg
    | apply hcfg
    | apply h.node
    | apply h.edge
    | apply h.marker
    | apply h.usage
    | apply h.attach
    | apply stable_enter_cycle h
    | apply stable_exit_cycle h
    | apply stable_begin_try h
    | apply stable_end_try h
    | apply stable_register_exception h
    | apply stable_add_break_node h
    | apply stable_add_continue_node h
    | apply preserves_son h.rel
    | apply preserves_get_state h.rel
    | apply preserves_bind h.rel
    | apply preserves_pure h.rel
    | apply preserves_fail
    | apply preserves_kphp_fail
    | intro _
    | dsimp only
    | split)

set_option maxRecDepth 10000 in
set_option linter.unreachableTactic false in
set_option linter.unusedTactic false in
theorem stable_op_eq {R : CFG → CFG → Prop} (h : Stable0 R)
    (hfull : ∀ fuel t, Preserves R (create_full_cfg fuel t)) (fuel : Nat) (cfg : Vertex → M (Node × Node)) (hcfg : ∀ v, Preserves R (cfg v)) (t : Vertex) :
    Preserves R (create_cfg_op_eq fuel cfg t) := by
  unfold create_cfg_op_eq
  repeat (first
    | apply hcfg
    | apply h.node
    | apply h.edge
    | apply h.marker
    | apply h.usage
    | apply h.attach
    | apply stable_enter_cycle h
    | apply stable_exit_cycle h
    | apply stable_begin_try h
    | apply stable_end_try h
    | apply stable_register_exception h
    | apply stable_add_break_node h
    | apply stable_add_continue_node h
    | apply hfull
    | apply preserves_son h.rel
    | apply preserves_get_state h.rel
    | apply preserves_bind h.rel
    | apply preserves_pure h.rel
    | apply preserves_fail
    | apply preserves_kphp_fail
    | intro _
    | dsimp only
    | split)

set_option maxRecDepth 10000 in
set_option linter.unreachableTactic false in
set_option linter.unusedTactic false in
theorem stable_op_index {R : CFG → CFG → Prop} (h : Stable0 R) (cfg : Vertex → Bool → Bool → M (Node × Node)) (hcfg : ∀ v w ww, Preserves R (cfg v w ww)) (t : Vertex) (w ww : Bool) :
    Preserves R (create_cfg_op_index cfg t w ww) := by
  unfold create_cfg_op_index
  repeat (first
    | apply hcfg
    | apply h.node
    | apply h.edge
    | apply h.marker
    | apply h.usage
    | apply h.attach
    | apply stable_enter_cycle h
    | apply stable_exit_cycle h
    | apply stable_begin_try h
    | apply stable_end_try h
    | apply stable_register_exception h
    | apply stable_add_break_node h
    | apply stable_add_continue_node h
    | apply preserves_son h.rel
    | apply preserves_get_state h.rel
    | apply preserves_bind h.rel
    | apply preserves_pure h.rel
    | apply preserves_fail
    | apply preserves_kphp_fail
    | intro _
    | dsimp only
    | split)

set_option maxRecDepth 10000 in
set_option linter.unreachableTactic false in
set_option linter.unusedTactic false in
theorem stable_op_log {R : CFG → CFG → Prop} (h : Stable0 R) (cfg : Vertex → M (Node × Node)) (hcfg : ∀ v, Preserves R (cfg v)) (t : Vertex) :
    Preserves R (create_cfg_op_log cfg t) := by
  unfold create_cfg_op_log
  repeat (first
    | apply hcfg
    | apply h.node
    | apply h.edge
    | apply h.marker
    | apply h.usage
    | apply h.attach
    | apply stable_enter_cycle h
    | apply stable_exit_cycle h
    | apply stable_begin_try h
    | apply stable_end_try h
    | apply stable_register_exception h
    | apply stable_add_break_node h
    | apply stable_add_continue_node h
    | apply preserves_son h.rel
    | apply preserves_get_state h.rel
    | apply preserves_bind h.rel
    | apply preserves_pure h.rel
    | apply preserves_fail
    | apply preserves_kphp_fail
    | intro _
    | dsimp only
    | split)

set_option maxRecDepth 10000 in
set_option linter.unreachableTactic false in
set_option linter.unusedTactic false in
theorem stable_op_call {R : CFG → CFG → Prop} (h : Stable0 R) (cfg : Vertex → Bool → Bool → M (Node × Node)) (hcfg : ∀ v w ww, Preserves R (cfg v w ww)) (t : Vertex) :
    Preserves R (create_cfg_op_call cfg t) := by
  unfold create_cfg_op_call
  repeat (first
    | apply stable_call_loop h cfg hcfg
    | apply hcfg
    | apply h.node
    | apply h.edge
    | apply h.marker
    | apply h.usage
    | apply h.attach
    | apply stable_enter_cycle h
    | apply stable_exit_cycle h
    | apply stable_begin_try h
    | apply stable_end_try h
    | apply stable_register_exception h
    | apply stable_add_break_node h
    | apply stable_add_continue_node h
    | apply preserves_son h.rel
    | apply preserves_get_state h.rel
    | apply preserves_bind h.rel
    | apply preserves_pure h.rel
    | apply preserves_fail
    | apply preserves_kphp_fail
    | intro _
    | dsimp only
    | split)

set_option maxRecDepth 10000 in
set_option linter.unreachableTactic false in
set_option linter.unusedTactic false in
theorem stable_op_return {R : CFG → CFG → Prop} (h : Stable0 R) (cfg : Vertex → M (Node × Node)) (hcfg : ∀ v, Preserves R (cfg v)) (t : Vertex) :
    Preserves R (create_cfg_op_return cfg t) := by
  unfold create_cfg_op_return
  repeat (first
    | apply hcfg
    | apply h.node
    | apply h.edge
    | apply h.marker
    | apply h.usage
    | apply h.attach
    | apply stable_enter_cycle h
    | apply stable_exit_cycle h
    | apply stable_begin_try h
    | apply stable_end_try h
    | apply stable_register_exception h
    | apply stable_add_break_node h
    | apply stable_add_continue_node h
    | apply preserves_son h.rel
    | apply preserves_get_state h.rel
    | apply preserves_bind h.rel
    | apply preserves_pure h.rel
    | apply preserves_fail
    | apply preserves_kphp_fail
    | intro _
    | dsimp only
    | split)

set_option maxRecDepth 10000 in
set_option linter.unreachableTactic false in
set_option linter.unusedTactic false in
theorem stable_op_set {R : CFG → CFG → Prop} (h : Stable0 R) (cfg : Vertex → Bool → Bool → M (Node × Node)) (hcfg : ∀ v w ww, Preserves R (cfg v w ww)) (t : Vertex) :
    Preserves R (create_cfg_op_set cfg t) := by
  unfold create_cfg_op_set
  repeat (first
    | apply hcfg
    | apply h.node
    | apply h.edge
    | apply h.marker
    | apply h.usage
    | apply h.attach
    | apply stable_enter_cycle h
    | apply stable_exit_cycle h
    | apply stable_begin_try h
    | apply stable_end_try h
    | apply stable_register_exception h
    | apply stable_add_break_node h
    | apply stable_add_continue_node h
    | apply preserves_son h.rel
    | apply preserves_get_state h.rel
    | apply preserves_bind h.rel
    | apply preserves_pure h.rel
    | apply preserves_fail
    | apply preserves_kphp_fail
    | intro _
    | dsimp only
    | split)

set_option maxRecDepth 10000 in
set_option linter.unreachableTactic false in
set_option linter.unusedTactic false in
theorem stable_op_set_op {R : CFG → CFG → Prop} (h : Stable0 R)
    (hfull : ∀ fuel t, Preserves R (create_full_cfg fuel t)) (fuel : Nat) (cfg : Vertex → M (Node × Node)) (hcfg : ∀ v, Preserves R (cfg v)) (t : Vertex) :
    Preserves R (create_cfg_op_set_op fuel cfg t) := by
  unfold create_cfg_op_set_op
  repeat (first
    | apply hcfg
    | apply h.node
    | apply h.edge
    | apply h.marker
    | apply h.usage
    | apply h.attach
    | apply stable_enter_cycle h
    | apply stable_exit_cycle h
    | apply stable_begin_try h
    | apply stable_end_try h
    | apply stable_register_exception h
    | apply stable_add_break_node h
    | apply stable_add_continue_node h
    | apply hfull
    | apply preserves_son h.rel
    | apply preserves_get_state h.rel
    | apply preserves_bind h.rel
    | apply preserves_pure h.rel
    | apply preserves_fail
    | apply preserves_kphp_fail
    | intro _
    | dsimp only
    | split)

set_option maxRecDepth 10000 in
set_option linter.unreachableTactic false in
set_option linter.unusedTactic false in
theorem stable_op_list {R : CFG → CFG → Prop} (h : Stable0 R) (cfg : Vertex → Bool → Bool → M (Node × Node)) (hcfg : ∀ v w ww, Preserves R (cfg v w ww)) (t : Vertex) :
    Preserves R (create_cfg_op_list cfg t) := by
  unfold create_cfg_op_list
  repeat (first
    | apply stable_list_loop h cfg hcfg
    | apply hcfg
    | apply h.node
    | apply h.edge
    | apply h.marker
    | apply h.usage
    | apply h.attach
    | apply stable_enter_cycle h
    | apply stable_exit_cycle h
    | apply stable_begin_try h
    | apply stable_end_try h
    | apply stable_register_exception h
    | apply stable_add_break_node h
    | apply stable_add_continue_node h
    | apply preserves_son h.rel
    | apply preserves_get_state h.rel
    | apply preserves_bind h.rel
    | apply preserves_pure h.rel
    | apply preserves_fail
    | apply preserves_kphp_fail
    | intro _
    | dsimp only
    | split)

set_option maxRecDepth 10000 in
set_option linter.unreachableTactic false in
set_option linter.unusedTactic false in
theorem stable_op_if {R : CFG → CFG → Prop} (h : Stable0 R) (cfg : Vertex → M (Node × Node)) (hcfg : ∀ v, Preserves R (cfg v)) (cond_cfg : Vertex → M (Node × Node × Node)) (hcond : ∀ v, Preserves R (cond_cfg v)) (t : Vertex) :
    Preserves R (create_cfg_op_if cfg cond_cfg t) := by
  unfold create_cfg_op_if
  repeat (first
    | apply hcfg
    | apply hcond
    | apply h.node
    | apply h.edge
    | apply h.marker
    | apply h.usage
    | apply h.attach
    | apply stable_enter_cycle h
    | apply stable_exit_cycle h
    | apply stable_begin_try h
    | apply stable_end_try h
    | apply stable_register_exception h
    | apply stable_add_break_node h
    | apply stable_add_continue_node h
    | apply preserves_son h.rel
    | apply preserves_get_state h.rel
    | apply preserves_bind h.rel
    | apply preserves_pure h.rel
    | apply preserves_fail
    | apply preserves_kphp_fail
    | intro _
    | dsimp only
    | split)

set_option maxRecDepth 10000 in
set_option linter.unreachableTactic false in
set_option linter.unusedTactic false in
theorem stable_op_ternary {R : CFG → CFG → Prop} (h : Stable0 R) (cfg : Vertex → M (Node × Node)) (hcfg : ∀ v, Preserves R (cfg v)) (cond_cfg : Vertex → M (Node × Node × Node)) (hcond : ∀ v, Preserves R (cond_cfg v)) (t : Vertex) :
    Preserves R (create_cfg_op_ternary cfg cond_cfg t) := by
  unfold create_cfg_op_ternary
  repeat (first
    | apply hcfg
    | apply hcond
    | apply h.node
    | apply h.edge
    | apply h.marker
    | apply h.usage
    | apply h.attach
    | apply stable_enter_cycle h
    | apply stable_exit_cycle h
    | apply stable_begin_try h
    | apply stable_end_try h
    | apply stable_register_exception h
    | apply stable_add_break_node h
    | apply stable_add_continue_node h
    | apply preserves_son h.rel
    | apply preserves_get_state h.rel
    | apply preserves_bind h.rel
    | apply preserves_pure h.rel
    | apply preserves_fail
    | apply preserves_kphp_fail
    | intro _
    | dsimp only
    | split)

set_option maxRecDepth 10000 in
set_option linter.unreachableTactic false in
set_option linter.unusedTactic false in
theorem stable_op_break {R : CFG → CFG → Prop} (h : Stable0 R) (t : Vertex) : Preserves R (create_cfg_op_break t) := by
  unfold create_cfg_op_break
  repeat (first
    | apply h.node
    | apply h.edge
    | apply h.marker
    | apply h.usage
    | apply h.attach
    | apply stable_enter_cycle h
    | apply stable_exit_cycle h
    | apply stable_begin_try h
    | apply stable_end_try h
    | apply stable_register_exception h
    | apply stable_add_break_node h
    | apply stable_add_continue_node h
    | apply preserves_son h.rel
    | apply preserves_get_state h.rel
    | apply preserves_bind h.rel
    | apply preserves_pure h.rel
    | apply preserves_fail
    | apply preserves_kphp_fail
    | intro _
    | dsimp only
    | split)

set_option maxRecDepth 10000 in
set_option linter.unreachableTactic false in
set_option linter.unusedTactic false in
theorem stable_op_continue {R : CFG → CFG → Prop} (h : Stable0 R) (t : Vertex) : Preserves R (create_cfg_op_continue t) := by
  unfold create_cfg_op_continue
  repeat (first
    | apply h.node
    | apply h.edge
    | apply h.marker
    | apply h.usage
    | apply h.attach
    | apply stable_enter_cycle h
    | apply stable_exit_cycle h
    | apply stable_begin_try h
    | apply stable_end_try h
    | apply stable_register_exception h
    | apply stable_add_break_node h
    | apply stable_add_continue_node h
    | apply preserves_son h.rel
    | apply preserves_get_state h.rel
    | apply preserves_bind h.rel
    | apply preserves_pure h.rel
    | apply preserves_fail
    | apply preserves_kphp_fail
    | intro _
    | dsimp only
    | split)

set_option maxRecDepth 10000 in
set_option linter.unreachableTactic false in
set_option linter.unusedTactic false in
theorem stable_op_for {R : CFG → CFG → Prop} (h : Stable0 R) (cfg : Vertex → M (Node × Node)) (hcfg : ∀ v, Preserves R (cfg v)) (cond_cfg : Vertex → M (Node × Node × Node)) (hcond : ∀ v, Preserves R (cond_cfg v)) (t : Vertex) :
    Preserves R (create_cfg_op_for cfg cond_cfg t) := by
  unfold create_cfg_op_for
  repeat (first
    | apply hcfg
    | apply hcond
    | apply h.node
    | apply h.edge
    | apply h.marker
    | apply h.usage
    | apply h.attach
    | apply stable_enter_cycle h
    | apply stable_exit_cycle h
    | apply stable_begin_try h
    | apply stable_end_try h
    | apply stable_register_exception h
    | apply stable_add_break_node h
    | apply stable_add_continue_node h
    | apply preserves_son h.rel
    | apply preserves_get_state h.rel
    | apply preserves_bind h.rel
    | apply preserves_pure h.rel
    | apply preserves_fail
    | apply preserves_kphp_fail
    | intro _
    | dsimp only
    | split)

set_option maxRecDepth 10000 in
set_option linter.unreachableTactic false in
set_option linter.unusedTactic false in
theorem stable_op_while {R : CFG → CFG → Prop} (h : Stable0 R) (cfg : Vertex → M (Node × Node)) (hcfg : ∀ v, Preserves R (cfg v)) (cond_cfg : Vertex → M (Node × Node × Node)) (hcond : ∀ v, Preserves R (cond_cfg v)) (t : Vertex) :
    Preserves R (create_cfg_op_while cfg cond_cfg t) := by
  unfold create_cfg_op_while
  repeat (first
    | apply hcfg
    | apply hcond
    | apply h.node
    | apply h.edge
    | apply h.marker
    | apply h.usage
    | apply h.attach
    | apply stable_enter_cycle h
    | apply stable_exit_cycle h
    | apply stable_begin_try h
    | apply stable_end_try h
    | apply stable_register_exception h
    | apply stable_add_break_node h
    | apply stable_add_continue_node h
    | apply preserves_son h.rel
    | apply preserves_get_state h.rel
    | apply preserves_bind h.rel
    | apply preserves_pure h.rel
    | apply preserves_fail
    | apply preserves_kphp_fail
    | intro _
    | dsimp only
    | split)

set_option maxRecDepth 10000 in
set_option linter.unreachableTactic false in
set_option linter.unusedTactic false in
theorem stable_op_foreach {R : CFG → CFG → Prop} (h : Stable0 R) (cfg : Vertex → M (Node × Node)) (hcfg : ∀ v, Preserves R (cfg v)) (t : Vertex) :
    Preserves R (create_cfg_op_foreach cfg t) := by
  unfold create_cfg_op_foreach
  repeat (first
    | apply hcfg
    | apply h.node
    | apply h.edge
    | apply h.marker
    | apply h.usage
    | apply h.attach
    | apply stable_enter_cycle h
    | apply stable_exit_cycle h
    | apply stable_begin_try h
    | apply stable_end_try h
    | apply stable_register_exception h
    | apply stable_add_break_node h
    | apply stable_add_continue_node h
    | apply preserves_son h.rel
    | apply preserves_get_state h.rel
    | apply preserves_bind h.rel
    | apply preserves_pure h.rel
    | apply preserves_fail
    | apply preserves_kphp_fail
    | intro _
    | dsimp only
    | split)

set_option maxRecDepth 10000 in
set_option linter.unreachableTactic false in
set_option linter.unusedTactic false in
theorem stable_op_switch {R : CFG → CFG → Prop} (h : Stable0 R) (cfg : Vertex → M (Node × Node)) (hcfg : ∀ v, Preserves R (cfg v)) (t : Vertex) :
    Preserves R (create_cfg_op_switch cfg t) := by
  unfold create_cfg_op_switch
  repeat (first
    | apply stable_switch_loop h cfg hcfg
    | apply stable_switch_vars h
    | apply stable_add_subtrees h
    | apply hcfg
    | apply h.node
    | apply h.edge
    | apply h.marker
    | apply h.usage
    | apply h.attach
    | apply stable_enter_cycle h
    | apply stable_exit_cycle h
    | apply stable_begin_try h
    | apply stable_end_try h
    | apply stable_register_exception h
    | apply stable_add_break_node h
    | apply stable_add_continue_node h
    | apply preserves_son h.rel
    | apply preserves_get_state h.rel
    | apply preserves_bind h.rel
    | apply preserves_pure h.rel
    | apply preserves_fail
    | apply preserves_kphp_fail
    | intro _
    | dsimp only
    | split)

set_option maxRecDepth 10000 in
set_option linter.unreachableTactic false in
set_option linter.unusedTactic false in
theorem stable_op_throw {R : CFG → CFG → Prop} (h : Stable0 R) (cfg : Vertex → M (Node × Node)) (hcfg : ∀ v, Preserves R (cfg v)) (t : Vertex) :
    Preserves R (create_cfg_op_throw cfg t) := by
  unfold create_cfg_op_throw
  repeat (first
    | apply hcfg
    | apply h.node
    | apply h.edge
    | apply h.marker
    | apply h.usage
    | apply h.attach
    | apply stable_enter_cycle h
    | apply stable_exit_cycle h
    | apply stable_begin_try h
    | apply stable_end_try h
    | apply stable_register_exception h
    | apply stable_add_break_node h
    | apply stable_add_continue_node h
    | apply preserves_son h.rel
    | apply preserves_get_state h.rel
    | apply preserves_bind h.rel
    | apply preserves_pure h.rel
    | apply preserves_fail
    | apply preserves_kphp_fail
    | intro _
    | dsimp only
    | split)

set_option maxRecDepth 10000 in
set_option linter.unreachableTactic false in
set_option linter.unusedTactic false in
theorem stable_op_try {R : CFG → CFG → Prop} (h : Stable0 R) (cfg : Vertex → Bool → Bool → M (Node × Node)) (hcfg : ∀ v w ww, Preserves R (cfg v w ww)) (t : Vertex) :
    Preserves R (create_cfg_op_try cfg t) := by
  unfold create_cfg_op_try
  repeat (first
    | apply hcfg
    | apply h.node
    | apply h.edge
    | apply h.marker
    | apply h.usage
    | apply h.attach
    | apply stable_enter_cycle h
    | apply stable_exit_cycle h
    | apply stable_begin_try h
    | apply stable_end_try h
    | apply stable_register_exception h
    | apply stable_add_break_node h
    | apply stable_add_continue_node h
    | apply preserves_son h.rel
    | apply preserves_get_state h.rel
    | apply preserves_bind h.rel
    | apply preserves_pure h.rel
    | apply preserves_fail
    | apply preserves_kphp_fail
    | intro _
    | dsimp only
    | split)

set_option maxRecDepth 10000 in
set_option linter.unreachableTactic false in
set_option linter.unusedTactic false in
theorem stable_op_function {R : CFG → CFG → Prop} (h : Stable0 R) (cfg : Vertex → M (Node × Node)) (hcfg : ∀ v, Preserves R (cfg v)) (t : Vertex) :
    Preserves R (create_cfg_op_function cfg t) := by
  unfold create_cfg_op_function
  repeat (first
    | apply hcfg
    | apply h.node
    | apply h.edge
    | apply h.marker
    | apply h.usage
    | apply h.attach
    | apply stable_enter_cycle h
    | apply stable_exit_cycle h
    | apply stable_begin_try h
    | apply stable_end_try h
    | apply stable_register_exception h
    | apply stable_add_break_node h
    | apply stable_add_continue_node h
    | apply preserves_son h.rel
    | apply preserves_get_state h.rel
    | apply preserves_bind h.rel
    | apply preserves_pure h.rel
    | apply preserves_fail
    | apply preserves_kphp_fail
    | intro _
    | dsimp only
    | split)

theorem stable_finish {R : CFG → CFG → Prop} (h : Stable0 R) {m : M (Node × Node)} (t : Vertex) (flag : Bool)
    (hm : Preserves R m) : Preserves R (m >>= create_cfg_finish t flag) := by
  refine preserves_bind h.rel hm fun r => ?_
  unfold create_cfg_finish
  exact preserves_bind h.rel (h.marker _ _) fun _ => preserves_pure h.rel _

theorem stable_son_finish {R : CFG → CFG → Prop} (h : Stable0 R) (cfg : Vertex → M (Node × Node)) (hcfg : ∀ v, Preserves R (cfg v)) (t : Vertex) (flag : Bool) :
    Preserves R (son t 0 >>= fun expr => cfg expr >>= create_cfg_finish t flag) :=
  preserves_bind h.rel (preserves_son h.rel _ _) fun _ => stable_finish h t flag (hcfg _)

set_option maxRecDepth 10000 in
set_option linter.unreachableTactic false in
set_option linter.unusedTactic false in
theorem stable_cond_op_log {R : CFG → CFG → Prop} (h : Stable0 R) (cond_cfg : Vertex → M (Node × Node × Node)) (hcond : ∀ v, Preserves R (cond_cfg v)) (t : Vertex) :
    Preserves R (create_condition_cfg_op_log cond_cfg t) := by
  unfold create_condition_cfg_op_log
  repeat (first
    | apply hcond
    | apply h.node
    | apply h.edge
    | apply h.marker
    | apply h.usage
    | apply h.attach
    | apply stable_enter_cycle h
    | apply stable_exit_cycle h
    | apply stable_begin_try h
    | apply stable_end_try h
    | apply stable_register_exception h
    | apply stable_add_break_node h
    | apply stable_add_continue_node h
    | apply preserves_son h.rel
    | apply preserves_get_state h.rel
    | apply preserves_bind h.rel
    | apply preserves_pure h.rel
    | apply preserves_fail
    | apply preserves_kphp_fail
    | intro _
    | dsimp only
    | split)

set_option maxRecDepth 10000 in
set_option linter.unreachableTactic false in
set_option linter.unusedTactic false in
theorem stable_cond_default {R : CFG → CFG → Prop} (h : Stable0 R) (cfg : Vertex → M (Node × Node)) (hcfg : ∀ v, Preserves R (cfg v)) (t : Vertex) :
    Preserves R (create_condition_cfg_default cfg t) := by
  unfold create_condition_cfg_default
  repeat (first
    | apply hcfg
    | apply h.node
    | apply h.edge
    | apply h.marker
    | apply h.usage
    | apply h.attach
    | apply stable_enter_cycle h
    | apply stable_exit_cycle h
    | apply stable_begin_try h
    | apply stable_end_try h
    | apply stable_register_exception h
    | apply stable_add_break_node h
    | apply stable_add_continue_node h
    | apply preserves_son h.rel
    | apply preserves_get_state h.rel
    | apply preserves_bind h.rel
    | apply preserves_pure h.rel
    | apply preserves_fail
    | apply preserves_kphp_fail
    | intro _
    | dsimp only
    | split)

set_option maxRecDepth 10000 in
set_option linter.unreachableTactic false in
set_option linter.unusedTactic false in
theorem stable_all {R : CFG → CFG → Prop} (h : Stable R) : ∀ fuel,
    (∀ t w ww, Preserves R (create_cfg fuel t w ww)) ∧
      (∀ t, Preserves R (create_condition_cfg fuel t)) := by
  intro fuel
  induction fuel with
  | zero => exact ⟨fun t w ww => preserves_fail _, fun t => preserves_fail _⟩
  | succ fuel ih =>
    obtain ⟨ih1, ih2⟩ := ih
    have h0 := h.base
    have hfull : ∀ fuel t, Preserves R (create_full_cfg fuel t) :=
      fun fuel t => stable_full_cfg h0 h.compress fuel t
    have hcfg : ∀ v, Preserves R (create_cfg fuel v false false) := fun v => ih1 v false false
    constructor
    · intro t w ww
      unfold create_cfg
      dsimp only
      split
      iterate 7 exact stable_finish h0 _ _ (stable_op_seq h0 _ hcfg t)
      exact stable_son_finish h0 _ hcfg t _
      iterate 4 exact stable_finish h0 _ _ (stable_op_eq h0 hfull fuel _ hcfg t)
      exact stable_finish h0 _ _ (stable_op_index h0 _ ih1 t w ww)
      iterate 2 exact stable_finish h0 _ _ (stable_op_log h0 _ hcfg t)
      iterate 2 exact stable_finish h0 _ _ (stable_op_call h0 _ ih1 t)
      exact stable_finish h0 _ _ (stable_op_return h0 _ hcfg t)
      exact stable_finish h0 _ _ (stable_op_set h0 _ ih1 t)
      iterate 12 exact stable_finish h0 _ _ (stable_op_set_op h0 hfull fuel _ hcfg t)
      exact stable_finish h0 _ _ (stable_op_list h0 _ ih1 t)
      exact stable_finish h0 _ _ (h.var t w ww)
      exact stable_finish h0 _ _ (stable_op_if h0 _ hcfg _ ih2 t)
      exact stable_finish h0 _ _ (stable_op_ternary h0 _ hcfg _ ih2 t)
      exact stable_finish h0 _ _ (stable_op_break h0 t)
      exact stable_finish h0 _ _ (stable_op_continue h0 t)
      exact stable_finish h0 _ _ (stable_op_for h0 _ hcfg _ ih2 t)
      iterate 2 exact stable_finish h0 _ _ (stable_op_while h0 _ hcfg _ ih2 t)
      exact stable_finish h0 _ _ (stable_op_foreach h0 _ hcfg t)
      exact stable_finish h0 _ _ (stable_op_switch h0 _ hcfg t)
      exact stable_finish h0 _ _ (stable_op_throw h0 _ hcfg t)
      exact stable_finish h0 _ _ (stable_op_try h0 _ ih1 t)
      iterate 13 exact stable_son_finish h0 _ hcfg t _
      exact stable_finish h0 _ _ (stable_op_function h0 _ hcfg t)
      exact hfull fuel t
    · intro t
      unfold create_condition_cfg
      repeat (first
        | apply ih2
        | apply stable_cond_op_log h0 _ ih2
        | apply stable_cond_default h0 _ hcfg
        | apply h.marker
        | apply preserves_son h.rel
        | apply preserves_bind h.rel
        | apply preserves_pure h.rel
        | intro _
        | dsimp only
        | split)

theorem create_cfg_stable {R : CFG → CFG → Prop} (h : Stable R) (fuel : Nat) (t : Vertex)
    (w ww : Bool) (s : CFG) (r : Node × Node) (s' : CFG)
    (hr : create_cfg fuel t w ww s = Except.ok (r, s')) : R s s' :=
  ((stable_all h fuel).1 t w ww).run s r s' hr

theorem create_condition_cfg_stable {R : CFG → CFG → Prop} (h : Stable R) (fuel : Nat)
    (t : Vertex) (s : CFG) (r : Node × Node × Node) (s' : CFG)
    (hr : create_condition_cfg fuel t s = Except.ok (r, s')) : R s s' :=
  ((stable_all h fuel).2 t).run s r s' hr

theorem keepV_refl (s : CFG) : KeepV s s := fun _ ud h => ⟨ud, h, rfl, rfl⟩

theorem keepV_trans {a b c : CFG} (h1 : KeepV a b) (h2 : KeepV b c) : KeepV a c := by
  intro x ud hx
  obtain ⟨u1, e1, v1, t1⟩ := h1 x ud hx
  obtain ⟨u2, e2, v2, t2⟩ := h2 x u1 e1
  exact ⟨u2, e2, v2.trans v1, t2.trans t1⟩

theorem uStep_rel : StepRel UStep := by
  refine ⟨fun s hi => ⟨hi, keepV_refl s, Nat.le_refl _⟩, ?_⟩
  intro a b c h1 h2 hi
  obtain ⟨i1, k1, l1⟩ := h1 hi
  obtain ⟨i2, k2, l2⟩ := h2 i1
  exact ⟨i2, keepV_trans k1 k2, Nat.le_trans l1 l2⟩

theorem uStep_same {s s' : CFG} (h1 : s'.usage_cnt = s.usage_cnt)
    (h2 : s'.usage_data = s.usage_data) (h3 : s'.node_usages = s.node_usages) : UStep s s' := by
  intro hi
  obtain ⟨i1, i2, i3⟩ := hi
  refine ⟨⟨?_, ?_, ?_⟩, ?_, ?_⟩
  · intro a ha
    rw [h2]
    exact i1 a (by omega)
  · intro a ha
    rw [h2]
    exact i2 a (by omega)
  · intro n a ha
    rw [h3] at ha
    rw [h1]
    exact i3 n a ha
  · intro a ud ha
    exact ⟨ud, by rw [h2]; exact ha, rfl, rfl⟩
  · omega

theorem uStep_new_node : Preserves UStep new_node := by
  refine ⟨fun s r s' h => ?_⟩
  cases h
  intro hi
  obtain ⟨i1, i2, i3⟩ := hi
  refine ⟨⟨i1, i2, ?_⟩, keepV_refl _, Nat.le_refl _⟩
  intro n a ha
  by_cases e : n = s.node_gen
  · subst e
    simp only [upd_same] at ha
    cases ha
  · simp only [upd_other _ _ _ _ e] at ha
    exact i3 n a ha

theorem uStep_new_usage (ty : UsageType) (v : Vertex) : Preserves UStep (new_usage ty v) := by
  refine ⟨fun s r s' h => ?_⟩
  unfold new_usage at h
  split at h
  · cases h
  · split at h
    · cases h
      exact uStep_rel.refl s
    · cases h
      intro hi
      obtain ⟨i1, i2, i3⟩ := hi
      refine ⟨⟨?_, ?_, ?_⟩, ?_, Nat.le_succ _⟩
      · intro a ha
        show upd s.usage_data s.usage_cnt _ a = none
        have hne : a ≠ s.usage_cnt := fun e => by
          rw [e] at ha
          exact Nat.lt_irrefl _ (Nat.lt_of_succ_le ha)
        rw [upd_other _ _ _ _ hne]
        exact i1 a (Nat.le_of_succ_le ha)
      · intro a ha
        show (upd s.usage_data s.usage_cnt _ a).isSome = true
        by_cases e : a = s.usage_cnt
        · rw [e, upd_same]
          rfl
        · rw [upd_other _ _ _ _ e]
          exact i2 a (Nat.lt_of_le_of_ne (Nat.le_of_lt_succ ha) e)
      · intro n a ha
        exact Nat.lt_succ_of_lt (i3 n a ha)
      · intro a ud ha
        have hne : a ≠ s.usage_cnt := fun e => by
          rw [e, i1 _ (Nat.le_refl _)] at ha
          cases ha
        exact ⟨ud, by show upd s.usage_data s.usage_cnt _ a = some ud
                      rw [upd_other _ _ _ _ hne]; exact ha, rfl, rfl⟩

/-- One stored usage is replaced by a usage with the same vertex and kind. -/
theorem uStep_store (s : CFG) (a : Nat) (u u' : UsageData) (l : Nat → List Nat)
    (ha : s.usage_data a = some u) (hv : u'.v = u.v) (ht : u'.type = u.type)
    (hl : ∀ n b, b ∈ l n → b < s.usage_cnt) :
    UStep s { s with node_usages := l, usage_data := upd s.usage_data a (some u') } := by
  intro hi
  obtain ⟨i1, i2, i3⟩ := hi
  have hlt : a < s.usage_cnt := by
    by_contra hge
    rw [i1 a (Nat.le_of_not_lt hge)] at ha
    cases ha
  refine ⟨⟨?_, ?_, hl⟩, ?_, Nat.le_refl _⟩
  · intro b hb
    show upd s.usage_data a _ b = none
    have hne : b ≠ a := fun e => by
      rw [e] at hb
      exact Nat.lt_irrefl _ (Nat.lt_of_lt_of_le hlt hb)
    rw [upd_other _ _ _ _ hne]
    exact i1 b hb
  · intro b hb
    show (upd s.usage_data a _ b).isSome = true
    by_cases e : b = a
    · rw [e, upd_same]
      rfl
    · rw [upd_other _ _ _ _ e]
      exact i2 b hb
  · intro b ud hb
    show ∃ ud', upd s.usage_data a _ b = some ud' ∧ _
    by_cases e : b = a
    · rw [e, upd_same]
      rw [e, ha] at hb
      cases hb
      exact ⟨u', rfl, hv, ht⟩
    · rw [upd_other _ _ _ _ e]
      exact ⟨ud, hb, rfl, rfl⟩

theorem uStep_add_usage (n : Node) (u : UsagePtr) : Preserves UStep (add_usage n u) := by
  refine ⟨fun s r s' h => ?_⟩
  unfold add_usage at h
  cases u with
  | none =>
    cases h
    exact uStep_rel.refl s
  | some a =>
    simp only [bind_ok_iff] at h
    obtain ⟨x, s1, h1, ud, s2, hq1_1⟩ := h
    obtain ⟨h2, s3, s4, h3, _, hq1_2⟩ := hq1_1
    obtain ⟨s5, h5, h6⟩ := hq1_2
    obtain ⟨e1, _⟩ := node_id_ok h1
    subst e1
    obtain ⟨e2, d2⟩ := usage_at_ok h2
    subst e2
    cases h3
    have e5 : s5 = s2 := by
      revert h5
      cases (s2.node_usages x).getLast? with
      | none =>
        intro h5
        cases h5
        rfl
      | some b =>
        intro h5
        simp only [bind_ok_iff] at h5
        obtain ⟨ub, t1, k1, k2⟩ := h5
        obtain ⟨e3, _⟩ := usage_at_ok k1
        subst e3
        unfold kphp_assert at k2
        split at k2
        · cases k2
          rfl
        · cases k2
    subst e5
    cases h6
    intro hi
    have hlt : a < s5.usage_cnt := by
      by_contra hge
      rw [hi.1 a (Nat.le_of_not_lt hge)] at d2
      cases d2
    refine uStep_store s5 a ud { ud with node := some x } _ d2 rfl rfl ?_ hi
    intro m b hb
    by_cases e : m = x
    · rw [e, upd_same] at hb
      rcases List.mem_append.mp hb with q | q
      · exact hi.2.2 x b q
      · rw [List.mem_singleton.mp q]
        exact hlt
    · rw [upd_other _ _ _ _ e] at hb
      exact hi.2.2 m b hb

theorem uStep_op_var (t : Vertex) (w ww : Bool) : Preserves UStep (create_cfg_op_var t w ww) := by
  unfold create_cfg_op_var
  refine preserves_bind uStep_rel uStep_new_node fun res => ?_
  refine preserves_bind uStep_rel (uStep_new_usage _ _) fun usage => ?_
  refine preserves_bind uStep_rel ?_ fun _ => ?_
  · cases usage with
    | none => exact preserves_pure uStep_rel _
    | some a =>
      refine ⟨fun s r s' h => ?_⟩
      simp only [bind_ok_iff] at h
      obtain ⟨ud, s1, h1, h2⟩ := h
      obtain ⟨e0, e1⟩ := usage_at_ok h1
      subst e0
      cases h2
      intro hi
      exact uStep_store s1 a ud { ud with weak_write_flag := ww } s1.node_usages e1 rfl rfl
        hi.2.2 hi
  · exact preserves_bind uStep_rel (uStep_add_usage _ _) fun _ => preserves_pure uStep_rel _

theorem uStep_try_uni (a b : Nat) : Preserves UStep (try_uni_usages a b) := by
  unfold try_uni_usages
  repeat (first
    | apply preserves_bind uStep_rel
    | apply preserves_usage_at uStep_rel
    | apply preserves_get_state uStep_rel
    | apply preserves_pure uStep_rel
    | apply preserves_fail
    | (apply preserves_modify_state; intro s; exact uStep_same rfl rfl rfl)
    | intro _
    | split
    | dsimp only)

theorem try_uni_usages_store (a b : Nat) :
    Preserves (fun s s' => s'.usage_cnt = s.usage_cnt ∧ s'.node_usages = s.node_usages)
      (try_uni_usages a b) := by
  have hrel : StepRel fun s s' : CFG =>
      s'.usage_cnt = s.usage_cnt ∧ s'.node_usages = s.node_usages :=
    ⟨fun _ => ⟨rfl, rfl⟩, fun h1 h2 => ⟨h2.1.trans h1.1, h2.2.trans h1.2⟩⟩
  unfold try_uni_usages
  repeat (first
    | apply preserves_bind hrel
    | apply preserves_usage_at hrel
    | apply preserves_get_state hrel
    | apply preserves_pure hrel
    | apply preserves_fail
    | (apply preserves_modify_state; intro s; exact ⟨rfl, rfl⟩)
    | intro _
    | split
    | dsimp only)

theorem uStep_compress_loop (us : List Nat) : ∀ (prev : Nat) (res : List Nat) (s : CFG)
    (res' : List Nat) (s' : CFG),
    compress_usages_loop prev us res s = Except.ok (res', s') → UInv s →
    (∀ a ∈ us, a < s.usage_cnt) → (∀ a ∈ res, a < s.usage_cnt) →
    UInv s' ∧ KeepV s s' ∧ s'.usage_cnt = s.usage_cnt ∧ s'.node_usages = s.node_usages ∧
      ∀ a ∈ res', a < s.usage_cnt := by
  induction us with
  | nil =>
    intro prev res s res' s' h hi _ hr
    cases h
    exact ⟨hi, keepV_refl _, rfl, rfl, hr⟩
  | cons u us ih =>
    intro prev res s res' s' h hi hu hr
    simp only [compress_usages_loop, bind_ok_iff] at h
    obtain ⟨same, s1, h1, h2⟩ := h
    have q1 : UStep s s1 := (uStep_try_uni u prev).run _ _ _ h1
    have c1 : s1.usage_cnt = s.usage_cnt ∧ s1.node_usages = s.node_usages :=
      (try_uni_usages_store u prev).run _ _ _ h1
    obtain ⟨i1, k1, _⟩ := q1 hi
    cases same with
    | false =>
      simp only [Bool.false_eq_true, if_false] at h2
      obtain ⟨j1, j2, j3, j4, j5⟩ := ih u (res ++ [u]) s1 res' s' h2 i1
        (fun a ha => by rw [c1.1]; exact hu a (List.mem_cons_of_mem _ ha))
        (fun a ha => by
          rw [c1.1]
          rcases List.mem_append.mp ha with q | q
          · exact hr a q
          · rw [List.mem_singleton.mp q]
            exact hu u (List.mem_cons_self _ _))
      exact ⟨j1, keepV_trans k1 j2, by rw [j3, c1.1], by rw [j4, c1.2],
        fun a ha => by rw [← c1.1]; exact j5 a ha⟩
    | true =>
      simp only [if_true] at h2
      revert h2
      cases hb : res.getLast? with
      | none =>
        intro h2
        cases h2
      | some b =>
        intro h2
        simp only [bind_ok_iff] at h2
        obtain ⟨ub, t1, m1, uu, t2, m2, _, t3, m3, m4⟩ := h2
        obtain ⟨e1, eb⟩ := usage_at_ok m1
        subst e1
        obtain ⟨e2, _⟩ := usage_at_ok m2
        subst e2
        cases m3
        have q2 := uStep_store t2 b ub
          { ub with weak_write_flag := ub.weak_write_flag || uu.weak_write_flag }
          t2.node_usages eb rfl rfl i1.2.2
        obtain ⟨i2, k2, _⟩ := q2 i1
        obtain ⟨j1, j2, j3, j4, j5⟩ := ih u res _ res' s' m4 i2
          (fun a ha => by
            show a < t2.usage_cnt
            rw [c1.1]
            exact hu a (List.mem_cons_of_mem _ ha))
          (fun a ha => by
            show a < t2.usage_cnt
            rw [c1.1]
            exact hr a ha)
        refine ⟨j1, keepV_trans k1 (keepV_trans k2 j2), ?_, ?_, ?_⟩
        · rw [j3]
          exact c1.1
        · rw [j4]
          exact c1.2
        · intro a ha
          have := j5 a ha
          rw [← c1.1]
          exact this

theorem uStep_compress (n : Node) : Preserves UStep (compress_usages n) := by
  refine ⟨fun s r s' h => ?_⟩
  unfold compress_usages at h
  simp only [bind_ok_iff] at h
  obtain ⟨x, s1, h1, s2, s3, h2, h3⟩ := h
  obtain ⟨e1, _⟩ := node_id_ok h1
  subst e1
  cases h2
  intro hi
  have hsort : ∀ a ∈ (s1.node_usages x).insertionSort (cmp_by_var_id s1), a < s1.usage_cnt := by
    intro a ha
    exact hi.2.2 x a ((List.perm_insertionSort _ _).mem_iff.mp ha)
  have key : ∃ res s4, s' = { s4 with node_usages := upd s4.node_usages x res } ∧
      UInv s4 ∧ KeepV s1 s4 ∧ s4.usage_cnt = s1.usage_cnt ∧
      s4.node_usages = s1.node_usages ∧ ∀ a ∈ res, a < s1.usage_cnt := by
    revert h3 hsort
    cases (s1.node_usages x).insertionSort (cmp_by_var_id s1) with
    | nil =>
      intro h3 _
      simp only [bind_ok_iff] at h3
      obtain ⟨res, s4, h4, h5⟩ := h3
      cases h4
      cases h5
      exact ⟨[], s1, rfl, hi, keepV_refl _, rfl, rfl, fun a ha => by cases ha⟩
    | cons u us =>
      intro h3 hsort
      simp only [bind_ok_iff] at h3
      obtain ⟨res, s4, h4, h5⟩ := h3
      cases h5
      exact ⟨res, s4, rfl, uStep_compress_loop us u [u] s1 res s4 h4 hi
        (fun a ha => hsort a (List.mem_cons_of_mem _ ha))
        (fun a ha => by
          rw [List.mem_singleton.mp ha]
          exact hsort u (List.mem_cons_self _ _))⟩
  obtain ⟨res, s4, rfl, j1, j2, j3, j4, j5⟩ := key
  refine ⟨⟨j1.1, j1.2.1, ?_⟩, ?_, by show s1.usage_cnt ≤ s4.usage_cnt; omega⟩
  · intro m b hb
    show b < s4.usage_cnt
    by_cases e : m = x
    · rw [e] at hb
      simp only [upd_same] at hb
      rw [j3]
      exact j5 b hb
    · simp only [upd_other _ _ _ _ e] at hb
      exact j1.2.2 m b hb
  · exact j2

theorem uStep_stable : Stable UStep where
  rel := uStep_rel
  node := uStep_new_node
  usage := uStep_new_usage
  attach := uStep_add_usage
  marker := fun n m => by
    refine ⟨fun s r s' h => ?_⟩
    cases n with
    | none => cases h
    | some x => cases h; exact uStep_same rfl rfl rfl
  edge := fun a b => by
    refine ⟨fun s r s' h => ?_⟩
    cases a with
    | none => cases h; exact uStep_rel.refl s
    | some x =>
      cases b with
      | none => cases h; exact uStep_rel.refl s
      | some y => cases h; exact uStep_same rfl rfl rfl
  var := uStep_op_var
  compress := uStep_compress
  frames := fun _ _ _ _ => uStep_same rfl rfl rfl

set_option maxRecDepth 10000 in
set_option linter.unreachableTactic false in
set_option linter.unusedTactic false in
theorem stable_compress_loop {R : CFG → CFG → Prop} (rel : StepRel R)
    (uni : ∀ a b, Preserves R (try_uni_usages a b))
    (store : ∀ (s : CFG) (f : Nat → List Nat) (g : Nat → Option UsageData),
      R s { s with node_usages := f, usage_data := g })
    (us : List Nat) : ∀ (prev : Nat) (res : List Nat),
    Preserves R (compress_usages_loop prev us res) := by
  induction us with
  | nil => intro prev res; exact preserves_pure rel _
  | cons u us ih =>
    intro prev res
    unfold compress_usages_loop
    repeat (first
      | apply ih
      | apply uni
      | apply preserves_usage_at rel
      | apply preserves_bind rel
      | apply preserves_pure rel
      | apply preserves_fail
      | (apply preserves_modify_state; intro s; exact store s s.node_usages _)
      | intro _
      | split
      | dsimp only)

set_option maxRecDepth 10000 in
set_option linter.unreachableTactic false in
set_option linter.unusedTactic false in
theorem stable_of_parts {R : CFG → CFG → Prop} (rel : StepRel R) (node : Preserves R new_node)
    (usage : ∀ ty v, Preserves R (new_usage ty v))
    (uni : ∀ a b, Preserves R (try_uni_usages a b))
    (store : ∀ (s : CFG) (f : Nat → List Nat) (g : Nat → Option UsageData),
      R s { s with node_usages := f, usage_data := g })
    (marker : ∀ n m, Preserves R (add_subtree n m)) (edge : ∀ a b, Preserves R (add_edge a b))
    (frames : ∀ (b c e : List (List Node)) (s : CFG),
      R s { s with break_nodes := b, continue_nodes := c, exception_nodes := e }) :
    Stable R := by
  have attach : ∀ n u, Preserves R (add_usage n u) := by
    intro n u
    unfold add_usage
    repeat (first
      | apply preserves_node_id rel
      | apply preserves_usage_at rel
      | apply preserves_get_state rel
      | apply preserves_kphp_assert rel
      | apply preserves_bind rel
      | apply preserves_pure rel
      | (apply preserves_modify_state; intro s; exact store s _ _)
      | intro _
      | split
      | dsimp only)
  refine ⟨rel, node, usage, attach, marker, edge, ?_, ?_, frames⟩
  · intro t w ww
    unfold create_cfg_op_var
    repeat (first
      | apply node
      | apply usage
      | apply attach
      | apply preserves_usage_at rel
      | apply preserves_bind rel
      | apply preserves_pure rel
      | (apply preserves_modify_state; intro s; exact store s s.node_usages _)
      | intro _
      | split
      | dsimp only)
  · intro n
    unfold compress_usages
    repeat (first
      | apply stable_compress_loop rel uni store
      | apply preserves_node_id rel
      | apply preserves_get_state rel
      | apply preserves_bind rel
      | apply preserves_pure rel
      | (apply preserves_modify_state; intro s; exact store s _ s.usage_data)
      | intro _
      | split
      | dsimp only)

theorem wasStep_rel : StepRel WasStep := by
  refine ⟨fun s => ⟨rfl, fun _ => Or.inl rfl⟩, ?_⟩
  intro a b c h1 h2
  refine ⟨h2.1.trans h1.1, fun n => ?_⟩
  rcases h2.2 n with e | e
  · rcases h1.2 n with e' | e'
    · exact Or.inl (e.trans e')
    · exact Or.inr (e.trans e')
  · exact Or.inr e

theorem wasStep_same {s s' : CFG} (h1 : s'.cur_dfs_mark = s.cur_dfs_mark)
    (h2 : s'.node_was = s.node_was) : WasStep s s' :=
  ⟨h1, fun n => Or.inl (by rw [h2])⟩

set_option maxRecDepth 10000 in
set_option linter.unreachableTactic false in
set_option linter.unusedTactic false in
theorem wasStep_stable : Stable WasStep := by
  refine stable_of_parts wasStep_rel ?_ ?_ ?_ (fun _ _ _ => wasStep_same rfl rfl) ?_ ?_
    (fun _ _ _ _ => wasStep_same rfl rfl)
  · refine ⟨fun s r s' h => ?_⟩
    cases h
    refine ⟨rfl, fun n => ?_⟩
    by_cases e : n = s.node_gen
    · exact Or.inr (by rw [e]; exact upd_same _ _ _)
    · exact Or.inl (upd_other _ _ _ _ e)
  · intro ty v
    refine ⟨fun s r s' h => ?_⟩
    unfold new_usage at h
    split at h
    · cases h
    · split at h
      · cases h
        exact wasStep_rel.refl s
      · cases h
        exact wasStep_same rfl rfl
  · intro a b
    unfold try_uni_usages
    repeat (first
      | apply preserves_bind wasStep_rel
      | apply preserves_usage_at wasStep_rel
      | apply preserves_get_state wasStep_rel
      | apply preserves_pure wasStep_rel
      | apply preserves_fail
      | (apply preserves_modify_state; intro s; exact wasStep_same rfl rfl)
      | intro _
      | split
      | dsimp only)
  · intro n m
    refine ⟨fun s r s' h => ?_⟩
    cases n with
    | none => cases h
    | some x => cases h; exact wasStep_same rfl rfl
  · intro a b
    refine ⟨fun s r s' h => ?_⟩
    cases a with
    | none => cases h; exact wasStep_rel.refl s
    | some x =>
      cases b with
      | none => cases h; exact wasStep_rel.refl s
      | some y => cases h; exact wasStep_same rfl rfl

theorem splitKeep_rel (x : VarPtr) : StepRel (SplitKeep x) :=
  ⟨fun _ h => h, fun h1 h2 h => h2 (h1 h)⟩

theorem splitKeep_same (x : VarPtr) {s s' : CFG} (h : s'.var_split_data = s.var_split_data) :
    SplitKeep x s s' := by
  intro hs
  rw [h]
  exact hs

theorem splitKeep_upd (x y : VarPtr) (s s' : CFG) (v : VarSplitData)
    (h : s'.var_split_data = upd s.var_split_data y (some v)) : SplitKeep x s s' := by
  intro hs
  rw [h]
  by_cases e : x = y
  · rw [e, upd_same]
    rfl
  · rw [upd_other _ _ _ _ e]
    exact hs

set_option maxRecDepth 10000 in
set_option linter.unreachableTactic false in
set_option linter.unusedTactic false in
theorem splitKeep_stable (x : VarPtr) : Stable (SplitKeep x) := by
  refine stable_of_parts (splitKeep_rel x) ?_ ?_ ?_ (fun _ _ _ => splitKeep_same x rfl) ?_ ?_
    (fun _ _ _ _ => splitKeep_same x rfl)
  · refine ⟨fun s r s' h => ?_⟩
    cases h
    exact splitKeep_same x rfl
  · intro ty v
    refine ⟨fun s r s' h => ?_⟩
    unfold new_usage at h
    split at h
    · cases h
    · split at h
      · cases h
        exact (splitKeep_rel x).refl s
      · cases h
        exact splitKeep_upd x _ _ _ _ rfl
  · intro a b
    unfold try_uni_usages
    repeat (first
      | apply preserves_bind (splitKeep_rel x)
      | apply preserves_usage_at (splitKeep_rel x)
      | apply preserves_get_state (splitKeep_rel x)
      | apply preserves_pure (splitKeep_rel x)
      | apply preserves_fail
      | (apply preserves_modify_state; intro s; exact splitKeep_upd x _ _ _ _ rfl)
      | intro _
      | split
      | dsimp only)
  · intro n m
    refine ⟨fun s r s' h => ?_⟩
    cases n with
    | none => cases h
    | some y => cases h; exact splitKeep_same x rfl
  · intro a b
    refine ⟨fun s r s' h => ?_⟩
    cases a with
    | none => cases h; exact (splitKeep_rel x).refl s
    | some y =>
      cases b with
      | none => cases h; exact (splitKeep_rel x).refl s
      | some z => cases h; exact splitKeep_same x rfl

theorem edgeMono_rel : StepRel EdgeMono := by
  refine ⟨fun s => ⟨Nat.le_refl _, fun _ _ _ h => h⟩, ?_⟩
  intro a b c h1 h2
  exact ⟨Nat.le_trans h1.1 h2.1,
    fun n m hn hm => h2.2 n m (Nat.lt_of_lt_of_le hn h1.1) (h1.2 n m hn hm)⟩

theorem edgeMono_same {s s' : CFG} (h1 : s'.node_gen = s.node_gen)
    (h2 : s'.node_next = s.node_next) : EdgeMono s s' :=
  ⟨by rw [h1], fun n m _ hm => by rw [h2]; exact hm⟩

set_option maxRecDepth 10000 in
set_option linter.unreachableTactic false in
set_option linter.unusedTactic false in
theorem edgeMono_stable : Stable EdgeMono := by
  refine stable_of_parts edgeMono_rel ?_ ?_ ?_ (fun _ _ _ => edgeMono_same rfl rfl) ?_ ?_
    (fun _ _ _ _ => edgeMono_same rfl rfl)
  · refine ⟨fun s r s' h => ?_⟩
    cases h
    refine ⟨Nat.le_succ _, fun n m hn hm => ?_⟩
    show m ∈ upd s.node_next s.node_gen [] n
    rw [upd_other _ _ _ _ (Nat.ne_of_lt hn)]
    exact hm
  · intro ty v
    refine ⟨fun s r s' h => ?_⟩
    unfold new_usage at h
    split at h
    · cases h
    · split at h
      · cases h
        exact edgeMono_rel.refl s
      · cases h
        exact edgeMono_same rfl rfl
  · intro a b
    unfold try_uni_usages
    repeat (first
      | apply preserves_bind edgeMono_rel
      | apply preserves_usage_at edgeMono_rel
      | apply preserves_get_state edgeMono_rel
      | apply preserves_pure edgeMono_rel
      | apply preserves_fail
      | (apply preserves_modify_state; intro s; exact edgeMono_same rfl rfl)
      | intro _
      | split
      | dsimp only)
  · intro n m
    refine ⟨fun s r s' h => ?_⟩
    cases n with
    | none => cases h
    | some y => cases h; exact edgeMono_same rfl rfl
  · intro a b
    refine ⟨fun s r s' h => ?_⟩
    cases a with
    | none => cases h; exact edgeMono_rel.refl s
    | some y =>
      cases b with
      | none => cases h; exact edgeMono_rel.refl s
      | some z =>
        cases h
        refine ⟨Nat.le_refl _, fun n m _ hm => ?_⟩
        show m ∈ upd s.node_next y (s.node_next y ++ [z]) n
        by_cases e : n = y
        · rw [e, upd_same]
          rw [e] at hm
          exact List.mem_append_left _ hm
        · rw [upd_other _ _ _ _ e]
          exact hm

theorem later_refl (x : VarPtr) (g : Nat) (s : CFG) : Later x g s s :=
  ⟨fun _ _ => rfl, edgeMono_rel.refl s, uStep_rel.refl s, rfl, (splitKeep_rel x).refl s,
    wasStep_rel.refl s⟩

theorem later_trans {x : VarPtr} {g : Nat} {a b c : CFG} (h1 : Later x g a b)
    (h2 : Later x g b c) : Later x g a c :=
  ⟨fun n hn => (h2.1 n hn).trans (h1.1 n hn), edgeMono_rel.trans h1.2.1 h2.2.1,
    uStep_rel.trans h1.2.2.1 h2.2.2.1, h2.2.2.2.1.trans h1.2.2.2.1,
    (splitKeep_rel x).trans h1.2.2.2.2.1 h2.2.2.2.2.1,
    wasStep_rel.trans h1.2.2.2.2.2 h2.2.2.2.2.2⟩

theorem later_mono {x : VarPtr} {g g' : Nat} {a b : CFG} (hg : g' ≤ g) (h : Later x g a b) :
    Later x g' a b :=
  ⟨fun n hn => h.1 n (Nat.lt_of_lt_of_le hn hg), h.2⟩

theorem later_cfg (x : VarPtr) (g fuel : Nat) (t : Vertex) (w ww : Bool) (s : CFG)
    (r : Node × Node) (s' : CFG) (h : create_cfg fuel t w ww s = Except.ok (r, s'))
    (hg : g ≤ s.node_gen) : Later x g s s' := by
  have hb := (create_cfg_built fuel t w ww s r s' h).1
  exact ⟨fun n hn => hb.usages_below n (Nat.lt_of_lt_of_le hn hg),
    create_cfg_stable edgeMono_stable fuel t w ww s r s' h,
    create_cfg_stable uStep_stable fuel t w ww s r s' h, hb.data,
    create_cfg_stable (splitKeep_stable x) fuel t w ww s r s' h,
    create_cfg_stable wasStep_stable fuel t w ww s r s' h⟩

theorem later_cond (x : VarPtr) (g fuel : Nat) (t : Vertex) (s : CFG)
    (r : Node × Node × Node) (s' : CFG) (h : create_condition_cfg fuel t s = Except.ok (r, s'))
    (hg : g ≤ s.node_gen) : Later x g s s' := by
  have hb := (create_condition_cfg_built fuel t s r s' h).1
  exact ⟨fun n hn => hb.usages_below n (Nat.lt_of_lt_of_le hn hg),
    create_condition_cfg_stable edgeMono_stable fuel t s r s' h,
    create_condition_cfg_stable uStep_stable fuel t s r s' h, hb.data,
    create_condition_cfg_stable (splitKeep_stable x) fuel t s r s' h,
    create_condition_cfg_stable wasStep_stable fuel t s r s' h⟩

theorem later_new_node (x : VarPtr) (g : Nat) (s : CFG) (r : Node) (s' : CFG)
    (h : new_node s = Except.ok (r, s')) (hg : g ≤ s.node_gen) : Later x g s s' := by
  refine ⟨fun n hn => ?_, edgeMono_stable.node.run _ _ _ h, uStep_stable.node.run _ _ _ h, ?_,
    (splitKeep_stable x).node.run _ _ _ h, wasStep_stable.node.run _ _ _ h⟩
  · cases h
    exact upd_other _ _ _ _ (Nat.ne_of_lt (Nat.lt_of_lt_of_le hn hg))
  · cases h
    rfl

theorem later_add_edge (x : VarPtr) (g : Nat) (a b : Node) (s s' : CFG)
    (h : add_edge a b s = Except.ok ((), s')) : Later x g s s' := by
  refine ⟨fun n _ => ?_, (edgeMono_stable.edge a b).run _ _ _ h,
    (uStep_stable.edge a b).run _ _ _ h, ?_, ((splitKeep_stable x).edge a b).run _ _ _ h,
    (wasStep_stable.edge a b).run _ _ _ h⟩
  · cases a with
    | none => cases h; rfl
    | some p =>
      cases b with
      | none => cases h; rfl
      | some q => cases h; rfl
  · cases a with
    | none => cases h; rfl
    | some p =>
      cases b with
      | none => cases h; rfl
      | some q => cases h; rfl

theorem later_add_subtree (x : VarPtr) (g : Nat) (a : Node) (m : SubTreeData) (s s' : CFG)
    (h : add_subtree a m s = Except.ok ((), s')) : Later x g s s' := by
  refine ⟨fun n _ => ?_, (edgeMono_stable.marker a m).run _ _ _ h,
    (uStep_stable.marker a m).run _ _ _ h, ?_, ((splitKeep_stable x).marker a m).run _ _ _ h,
    (wasStep_stable.marker a m).run _ _ _ h⟩
  · cases a with
    | none => cases h
    | some p => cases h; rfl
  · cases a with
    | none => cases h
    | some p => cases h; rfl

theorem usage_var_keep {s s' : CFG} (hk : KeepV s s') (hd : s'.data = s.data) (a : Nat)
    (ha : (s.usage_data a).isSome = true) : usage_var s' a = usage_var s a := by
  obtain ⟨ud, e⟩ := Option.isSome_iff_exists.mp ha
  obtain ⟨ud', e', v', _⟩ := hk a ud e
  unfold usage_var
  rw [e, e', hd]
  show s.data.get_var_id ud'.v = s.data.get_var_id ud.v
  rw [v']

theorem noUse_later {x : VarPtr} {g lo hi : Nat} {s s' : CFG} (h : NoUse x s lo hi)
    (hg : hi ≤ g) (hl : Later x g s s') (hi' : UInv s) : NoUse x s' lo hi := by
  intro n h1 h2 a ha
  rw [hl.1 n (Nat.lt_of_lt_of_le h2 hg)] at ha
  obtain ⟨_, hk, _⟩ := hl.2.2.1 hi'
  rw [usage_var_keep hk hl.2.2.2.1 a (hi'.2.1 a (hi'.2.2 n a ha))]
  exact h n h1 h2 a ha

/-- A node without a usage of `x` carries neither a write nor a weak write of `x`. -/
theorem noUse_clear {x : VarPtr} {lo hi n : Nat} {s : CFG} (h : NoUse x s lo hi) (h1 : lo ≤ n)
    (h2 : n < hi) : ¬ carries_write_or_weak s x n := by
  rintro ⟨a, ha, u, e, hv, _⟩
  refine h n h1 h2 a ha ?_
  unfold usage_var
  rw [e]
  exact hv

/-- A node without a usage of `x` carries no plain read of `x`. -/
theorem noUse_no_read {x : VarPtr} {lo hi n : Nat} {s : CFG} (h : NoUse x s lo hi) (h1 : lo ≤ n)
    (h2 : n < hi) : ¬ carries_plain_read s x n := by
  rintro ⟨a, ha, u, e, hv, _⟩
  refine h n h1 h2 a ha ?_
  unfold usage_var
  rw [e]
  exact hv

/-- A path of a graph built from `s` to `s'` that starts at a new node stays among the
new nodes. -/
theorem path_new {s0 s : CFG} {k j p q : Nat} (hm : Mid s0.node_gen k j s0 s)
    (hp : s0.node_gen ≤ p ∧ p < s.node_gen)
    (h : Relation.ReflTransGen (fun n m => m ∈ s.node_next n) p q) :
    s0.node_gen ≤ q ∧ q < s.node_gen := by
  induction h with
  | refl => exact hp
  | tail _ hstep ih => exact hm.next_local _ _ ih.1 ih.2 hstep

/-- A path among nodes without a usage of `x` is a path in every later graph along which
`x` is not written. -/
theorem path_clear {x : VarPtr} {s s' : CFG} {lo hi p q : Nat}
    (hE : EdgeMono s s') (hhi : hi ≤ s.node_gen)
    (hloc : ∀ n m, lo ≤ n → n < hi → m ∈ s.node_next n → lo ≤ m ∧ m < hi)
    (hn : NoUse x s' lo hi) (hp : lo ≤ p ∧ p < hi)
    (h : Relation.ReflTransGen (fun n m => m ∈ s.node_next n) p q) :
    Relation.ReflTransGen (clear_step s' x) p q ∧ lo ≤ q ∧ q < hi := by
  induction h with
  | refl => exact ⟨Relation.ReflTransGen.refl, hp⟩
  | tail _ hstep ih =>
    obtain ⟨ih1, ih2, ih3⟩ := ih
    refine ⟨Relation.ReflTransGen.tail ih1
      ⟨hE.2 _ _ (Nat.lt_of_lt_of_le ih3 hhi) hstep, noUse_clear hn ih2 ih3⟩, ?_⟩
    exact hloc _ _ ih2 ih3 hstep

theorem son_of_sons {t : Vertex} {i : Nat} {s s' : CFG} {x y : Vertex}
    (hy : t.sons.get? i = some y) (h : son t i s = Except.ok (x, s')) : x = y ∧ s' = s := by
  obtain ⟨e1, e2⟩ := son_get h
  rw [hy] at e2
  cases e2
  exact ⟨rfl, e1⟩

/-- The steps of the rule of a function with the sons `params` and `cmd`. -/
theorem op_function_run (fuel : Nat) (t params cmd : Vertex) (w ww : Bool) (s s' : CFG)
    (a b : Node) (ht : t.type = Operation.op_function) (hs : t.sons = [params, cmd])
    (h : create_cfg (fuel + 1) t w ww s = Except.ok ((a, b), s')) :
    ∃ pb ca s2 s9 s10,
      create_cfg fuel params false false s = Except.ok ((a, pb), s2) ∧
      create_cfg fuel cmd false false s2 = Except.ok ((ca, b), s9) ∧
      add_edge pb ca s9 = Except.ok ((), s10) ∧
      add_subtree a (new_subtree t false) s10 = Except.ok ((), s') := by
  unfold create_cfg at h
  rw [ht] at h
  obtain ⟨r0, s5, h1, h2⟩ := bind_ok_iff.mp h
  have e := create_cfg_finish_result _ _ _ _ _ _ h2
  subst e
  simp only [create_cfg_finish, bind_ok_iff] at h2
  obtain ⟨_, s6, h3, h4⟩ := h2
  cases h4
  simp only [create_cfg_op_function, bind_ok_iff, Prod.exists] at h1
  obtain ⟨p, t1, k1, c, t2, hq1_1⟩ := h1
  obtain ⟨k2, pa, pb, t3, k3, hq1_2⟩ := hq1_1
  obtain ⟨ca, cb, t4, k4, _, hq1_3⟩ := hq1_2
  obtain ⟨t5, k5, k6⟩ := hq1_3
  obtain ⟨rfl, rfl⟩ := son_of_sons (by rw [hs]; rfl) k1
  obtain ⟨rfl, rfl⟩ := son_of_sons (by rw [hs]; rfl) k2
  cases k6
  exact ⟨pb, ca, t3, t4, _, k3, k4, k5, h3⟩

/-- The steps of the rule of a sequence of two statements. -/
theorem op_seq_two_run (fuel : Nat) (t u v : Vertex) (w ww : Bool) (s s' : CFG)
    (a b : Node) (ht : t.type = Operation.op_seq) (hs : t.sons = [u, v])
    (h : create_cfg (fuel + 1) t w ww s = Except.ok ((a, b), s')) :
    ∃ ub va s1 s2 s3,
      create_cfg fuel u false false s = Except.ok ((a, ub), s1) ∧
      create_cfg fuel v false false s1 = Except.ok ((va, b), s2) ∧
      add_edge ub va s2 = Except.ok ((), s3) ∧
      add_subtree a (new_subtree t false) s3 = Except.ok ((), s') := by
  unfold create_cfg at h
  rw [ht] at h
  obtain ⟨r0, s5, h1, h2⟩ := bind_ok_iff.mp h
  have e := create_cfg_finish_result _ _ _ _ _ _ h2
  subst e
  simp only [create_cfg_finish, bind_ok_iff] at h2
  obtain ⟨_, s6, h3, h4⟩ := h2
  cases h4
  unfold create_cfg_op_seq at h1
  rw [hs] at h1
  simp only [create_cfg_seq_loop, bind_ok_iff, Prod.exists] at h1
  obtain ⟨ua, ub, t1, k1, rf, t2, ⟨va, vb, t3, k3, _, t4, k4, k5⟩, k6⟩ := h1
  cases k5
  cases k6
  exact ⟨ub, va, t1, t3, _, k1, k3, k4, h3⟩

/-- The steps of the rule of a sequence of one statement. -/
theorem op_seq_one_run (fuel : Nat) (t u : Vertex) (w ww : Bool) (s s' : CFG)
    (a b : Node) (ht : t.type = Operation.op_seq) (hs : t.sons = [u])
    (h : create_cfg (fuel + 1) t w ww s = Except.ok ((a, b), s')) :
    ∃ s1, create_cfg fuel u false false s = Except.ok ((a, b), s1) ∧
      add_subtree a (new_subtree t false) s1 = Except.ok ((), s') := by
  unfold create_cfg at h
  rw [ht] at h
  obtain ⟨r0, s5, h1, h2⟩ := bind_ok_iff.mp h
  have e := create_cfg_finish_result _ _ _ _ _ _ h2
  subst e
  simp only [create_cfg_finish, bind_ok_iff] at h2
  obtain ⟨_, s6, h3, h4⟩ := h2
  cases h4
  unfold create_cfg_op_seq at h1
  rw [hs] at h1
  simp only [create_cfg_seq_loop, bind_ok_iff, Prod.exists] at h1
  obtain ⟨ua, ub, t1, k1, rf, t2, k2, k6⟩ := h1
  cases k2
  cases k6
  exact ⟨_, k1, h3⟩

/-- The steps of the rule of an `if` without `else`. -/
theorem op_if_run (fuel : Nat) (t c body : Vertex) (w ww : Bool) (s s' : CFG)
    (a b : Node) (ht : t.type = Operation.op_if) (hs : t.sons = [c, body])
    (h : create_cfg (fuel + 1) t w ww s = Except.ok ((a, b), s')) :
    ∃ ct cf bs bf s3 s4 s5 s5a s5b s6,
      new_node s = Except.ok (b, s3) ∧
      create_condition_cfg fuel c s3 = Except.ok ((a, ct, cf), s4) ∧
      create_cfg fuel body false false s4 = Except.ok ((bs, bf), s5) ∧
      add_edge ct bs s5 = Except.ok ((), s5a) ∧
      add_edge bf b s5a = Except.ok ((), s5b) ∧
      add_edge cf b s5b = Except.ok ((), s6) ∧
      add_subtree a (new_subtree t false) s6 = Except.ok ((), s') := by
  unfold create_cfg at h
  rw [ht] at h
  obtain ⟨r0, s5, h1, h2⟩ := bind_ok_iff.mp h
  have e := create_cfg_finish_result _ _ _ _ _ _ h2
  subst e
  simp only [create_cfg_finish, bind_ok_iff] at h2
  obtain ⟨_, s6, h3, h4⟩ := h2
  cases h4
  simp only [create_cfg_op_if, bind_ok_iff, Prod.exists] at h1
  obtain ⟨c', t1, k1, body', t2, hq2_1⟩ := h1
  obtain ⟨k2, fin, t3, k3, cs, hq2_2⟩ := hq2_1
  obtain ⟨ct, cf, t4, k4, bs, hq2_3⟩ := hq2_2
  obtain ⟨bf, t5, k5, _, t6, hq2_4⟩ := hq2_3
  obtain ⟨k6, _, t7, k7, _, hq2_5⟩ := hq2_4
  obtain ⟨t8, k8, k9⟩ := hq2_5
  obtain ⟨rfl, rfl⟩ := son_of_sons (by rw [hs]; rfl) k1
  obtain ⟨rfl, rfl⟩ := son_of_sons (by rw [hs]; rfl) k2
  cases k9
  have hlen : ¬ t.sons.length > 2 := by
    simp [hs]
  rw [if_neg hlen] at k8
  exact ⟨ct, cf, bs, bf, t3, t4, t5, t6, t7, _, k3, k4, k5, k6, k7, k8, h3⟩

/-- The steps of the rule of an assignment. -/
theorem op_set_run (fuel : Nat) (t lhs rhs : Vertex) (w ww : Bool) (s s' : CFG)
    (a b : Node) (ht : t.type = Operation.op_set) (hs : t.sons = [lhs, rhs])
    (h : create_cfg (fuel + 1) t w ww s = Except.ok ((a, b), s')) :
    ∃ eb va se sv sv',
      create_cfg fuel rhs false false s = Except.ok ((a, eb), se) ∧
      create_cfg fuel lhs true false se = Except.ok ((va, b), sv) ∧
      add_edge eb va sv = Except.ok ((), sv') ∧
      add_subtree a (new_subtree t false) sv' = Except.ok ((), s') := by
  unfold create_cfg at h
  rw [ht] at h
  obtain ⟨r0, s5, h1, h2⟩ := bind_ok_iff.mp h
  have e := create_cfg_finish_result _ _ _ _ _ _ h2
  subst e
  simp only [create_cfg_finish, bind_ok_iff] at h2
  obtain ⟨_, s6, h3, h4⟩ := h2
  cases h4
  simp only [create_cfg_op_set, bind_ok_iff, Prod.exists] at h1
  obtain ⟨l, t1, k1, r, t2, hq3_1⟩ := h1
  obtain ⟨k2, ea, eb, t3, k3, hq3_2⟩ := hq3_1
  obtain ⟨va, vb, t4, k4, _, hq3_3⟩ := hq3_2
  obtain ⟨t5, k5, k6⟩ := hq3_3
  obtain ⟨rfl, rfl⟩ := son_of_sons (by rw [hs]; rfl) k1
  obtain ⟨rfl, rfl⟩ := son_of_sons (by rw [hs]; rfl) k2
  cases k6
  exact ⟨eb, va, t3, t4, _, k3, k4, k5, h3⟩

/-- The steps of the rule of a variable. -/
theorem op_var_run (fuel : Nat) (t : Vertex) (w ww : Bool) (s s' : CFG)
    (a b : Node) (ht : t.type = Operation.op_var)
    (h : create_cfg (fuel + 1) t w ww s = Except.ok ((a, b), s')) :
    ∃ s1, create_cfg_op_var t w ww s = Except.ok ((a, b), s1) ∧
      add_subtree a (new_subtree t false) s1 = Except.ok ((), s') := by
  unfold create_cfg at h
  rw [ht] at h
  obtain ⟨r0, s5, h1, h2⟩ := bind_ok_iff.mp h
  have e := create_cfg_finish_result _ _ _ _ _ _ h2
  subst e
  simp only [create_cfg_finish, bind_ok_iff] at h2
  obtain ⟨_, s6, h3, h4⟩ := h2
  cases h4
  exact ⟨_, h1, h3⟩

theorem walkKeep_rel : StepRel WalkKeep := by
  refine ⟨fun s => ⟨rfl, rfl, rfl, rfl, rfl, rfl, rfl, rfl, rfl, fun _ => Or.inl rfl⟩, ?_⟩
  intro a b c h1 h2
  obtain ⟨a1, a2, a3, a4, a5, a6, a7, a8, a9, a10⟩ := h1
  obtain ⟨b1, b2, b3, b4, b5, b6, b7, b8, b9, b10⟩ := h2
  refine ⟨b1.trans a1, b2.trans a2, b3.trans a3, b4.trans a4, b5.trans a5, b6.trans a6,
    b7.trans a7, b8.trans a8, b9.trans a9, fun n => ?_⟩
  rcases b10 n with e | e
  · rcases a10 n with e' | e'
    · exact Or.inl (e.trans e')
    · exact Or.inr (e.trans e')
  · exact Or.inr (e.trans a9)

theorem calc_used_next_keep (walk : Nat → M Unit) (hw : ∀ i, Preserves WalkKeep (walk i))
    (l : List Nat) : Preserves WalkKeep (calc_used_next walk l) := by
  induction l with
  | nil => exact preserves_pure walkKeep_rel _
  | cons a l ih =>
    unfold calc_used_next
    refine preserves_bind walkKeep_rel (preserves_get_state walkKeep_rel) fun s => ?_
    refine preserves_bind walkKeep_rel ?_ fun _ => ih
    split
    · exact hw _
    · exact preserves_pure walkKeep_rel _

theorem calc_used_keep (fuel : Nat) : ∀ v, Preserves WalkKeep (calc_used fuel v) := by
  induction fuel with
  | zero => intro v; exact preserves_fail _
  | succ fuel ih =>
    intro v
    unfold calc_used
    refine preserves_bind walkKeep_rel ?_ fun _ => ?_
    · refine preserves_modify_state _ fun s => ?_
      refine ⟨rfl, rfl, rfl, rfl, rfl, rfl, rfl, rfl, rfl, fun n => ?_⟩
      by_cases e : n = v
      · exact Or.inr (by rw [e]; exact upd_same _ _ _)
      · exact Or.inl (upd_other _ _ _ _ e)
    refine preserves_bind walkKeep_rel ?_ fun _ => ?_
    · exact preserves_modify_state _ fun s =>
        ⟨rfl, rfl, rfl, rfl, rfl, rfl, rfl, rfl, rfl, fun _ => Or.inl rfl⟩
    refine preserves_bind walkKeep_rel (preserves_get_state walkKeep_rel) fun s => ?_
    exact calc_used_next_keep _ ih _

theorem init_var_split_keep (l : List VarPtr) : ∀ (m : VarPtr → Option VarSplitData) (x : VarPtr),
    (m x).isSome = true → (init_var_split l m x).isSome = true := by
  induction l with
  | nil => intro m x h; exact h
  | cons v l ih =>
    intro m x h
    unfold init_var_split
    apply ih
    cases e : m v with
    | some _ => exact h
    | none =>
      show (upd m v (some {}) x).isSome = true
      by_cases q : x = v
      · rw [q, upd_same]
        rfl
      · rw [upd_other _ _ _ _ q]
        exact h

theorem init_var_split_mem (l : List VarPtr) : ∀ (m : VarPtr → Option VarSplitData) (x : VarPtr),
    x ∈ l → (init_var_split l m x).isSome = true := by
  induction l with
  | nil => intro m x h; cases h
  | cons v l ih =>
    intro m x h
    unfold init_var_split
    rcases List.mem_cons.mp h with e | e
    · apply init_var_split_keep
      subst e
      cases q : m x with
      | some _ =>
        show (m x).isSome = true
        rw [q]
        rfl
      | none =>
        show (upd m x (some {}) x).isSome = true
        rw [upd_same]
        rfl
    · exact ih _ x e

/-- The steps of `process_function` up to the forward walk. -/
theorem process_function_build_run (fuel : Nat) (d : CFGData) (vars : List VarPtr) (G : CFG)
    (h : process_function_build fuel { data := d } = Except.ok (vars, G)) :
    find_splittable_vars d = Except.ok vars ∧
    ∃ n0 fin F, create_cfg fuel d.root false false (start_state d vars) =
        Except.ok ((some n0, fin), F) ∧
      calc_used fuel n0
        { F with current_start := some n0, cur_dfs_mark := F.cur_dfs_mark + 1 } =
        Except.ok ((), G) := by
  unfold process_function_build at h
  simp only [bind_ok_iff] at h
  obtain ⟨s0, s0', h0, h1⟩ := h
  cases h0
  dsimp only at h1
  cases hf : find_splittable_vars d with
  | error e =>
    rw [hf] at h1
    cases h1
  | ok vs =>
    rw [hf] at h1
    simp only [bind_ok_iff, Prod.exists] at h1
    obtain ⟨_, t1, k1, st, fin, hq1_1⟩ := h1
    obtain ⟨F, k2, _, t3, k3, hq1_2⟩ := hq1_1
    obtain ⟨_, t4, k4, n0, t5, hq1_3⟩ := hq1_2
    obtain ⟨k5, _, t6, k6, k7⟩ := hq1_3
    cases k1
    cases k3
    cases k4
    obtain ⟨e5, e6⟩ := node_id_ok k5
    subst e5
    subst e6
    cases k7
    exact ⟨rfl, n0, fin, F, k2, k6⟩

theorem sameStore_trans {a b c : CFG} (h1 : SameStore a b) (h2 : SameStore b c) :
    SameStore a c :=
  ⟨h2.1.trans h1.1, h2.2.1.trans h1.2.1, h2.2.2.1.trans h1.2.2.1,
    h2.2.2.2.1.trans h1.2.2.2.1, h2.2.2.2.2.trans h1.2.2.2.2⟩

theorem add_edge_store {a b : Node} {s s' : CFG} (h : add_edge a b s = Except.ok ((), s')) :
    SameStore s s' := by
  cases a with
  | none => cases h; exact ⟨rfl, rfl, rfl, rfl, rfl⟩
  | some p =>
    cases b with
    | none => cases h; exact ⟨rfl, rfl, rfl, rfl, rfl⟩
    | some q => cases h; exact ⟨rfl, rfl, rfl, rfl, rfl⟩

theorem add_subtree_store {a : Node} {m : SubTreeData} {s s' : CFG}
    (h : add_subtree a m s = Except.ok ((), s')) : SameStore s s' := by
  cases a with
  | none => cases h
  | some p => cases h; exact ⟨rfl, rfl, rfl, rfl, rfl⟩

theorem plain_read_store {s t : CFG} (h : SameStore s t) (x : VarPtr) (a : Nat) :
    plain_read t x a ↔ plain_read s x a := by
  obtain ⟨_, h2, h3, _, _⟩ := h
  simp only [plain_read, usage_is, h2, h3]

theorem carries_plain_read_store {s t : CFG} (h : SameStore s t) (x : VarPtr) (n : Nat) :
    carries_plain_read t x n ↔ carries_plain_read s x n := by
  obtain ⟨h1, h2, h3, _, _⟩ := h
  simp only [carries_plain_read, plain_read, usage_is, h1, h2, h3]

theorem carries_write_or_weak_store {s t : CFG} (h : SameStore s t) (x : VarPtr) (n : Nat) :
    carries_write_or_weak t x n ↔ carries_write_or_weak s x n := by
  obtain ⟨h1, h2, h3, _, _⟩ := h
  simp only [carries_write_or_weak, write_or_weak, usage_is, h1, h2, h3]

theorem create_cfg_fuel {fuel : Nat} {t : Vertex} {w ww : Bool} {s : CFG}
    {r : (Node × Node) × CFG} (h : create_cfg fuel t w ww s = Except.ok r) :
    ∃ k, fuel = k + 1 := by
  cases fuel with
  | zero => cases h
  | succ k => exact ⟨k, rfl⟩

theorem later_step {x : VarPtr} {a b c : CFG} (h1 : Later x a.node_gen a b)
    (h2 : Later x b.node_gen b c) : Later x a.node_gen a c :=
  later_trans h1 (later_mono h1.2.1.1 h2)

/-- A path of a graph built from `s0` to `s` along which `x` is not written, started at
a new node, is a path in a later state with the same usages, and stays among the new
nodes. -/
theorem clear_path_store {x : VarPtr} {s0 s t : CFG} {k j p q : Nat}
    (hm : Mid s0.node_gen k j s0 s) (hE : EdgeMono s t) (hst : SameStore s t)
    (hp : s0.node_gen ≤ p ∧ p < s.node_gen)
    (h : Relation.ReflTransGen (clear_step s x) p q) :
    Relation.ReflTransGen (clear_step t x) p q ∧ s0.node_gen ≤ q ∧ q < s.node_gen := by
  induction h with
  | refl => exact ⟨Relation.ReflTransGen.refl, hp⟩
  | tail _ hstep ih =>
    obtain ⟨ih1, ih2, ih3⟩ := ih
    refine ⟨Relation.ReflTransGen.tail ih1 ⟨hE.2 _ _ ih3 hstep.1, ?_⟩,
      hm.next_local _ _ ih2 ih3 hstep.1⟩
    rw [carries_write_or_weak_store hst]
    exact hstep.2

theorem plain_read_var {s : CFG} {x : VarPtr} {a : Nat} (h : plain_read s x a) :
    usage_var s a = some x := by
  obtain ⟨u, e, hv, _⟩ := h
  unfold usage_var
  rw [e]
  exact hv

theorem add_edge_mem {a b : Nat} {s s' : CFG}
    (h : add_edge (some a) (some b) s = Except.ok ((), s')) : b ∈ s'.node_next a := by
  obtain ⟨e, _⟩ := add_edge_next h
  rw [e, upd_same]
  exact List.mem_append_right _ (List.mem_singleton.mpr rfl)

set_option maxHeartbeats 1000000 in
/-- The graph of a function whose body is `if (c) { x = e; } S`: a path along which `x`
is not written leads from the entry to a plain read of `x`, and every plain read of `x`
is an occurrence in `S`. -/
theorem if_graph (x : VarPtr) (d : CFGData) (fuel : Nat)
    (root params cmd ifv S c body setv xv e : Vertex)
    (hroot_t : root.type = Operation.op_function) (hroot_s : root.sons = [params, cmd])
    (hcmd_t : cmd.type = Operation.op_seq) (hcmd_s : cmd.sons = [ifv, S])
    (hif_t : ifv.type = Operation.op_if) (hif_s : ifv.sons = [c, body])
    (hbody_t : body.type = Operation.op_seq) (hbody_s : body.sons = [setv])
    (hset_t : setv.type = Operation.op_set) (hset_s : setv.sons = [xv, e])
    (hxv : xv.type = Operation.op_var) (hxid : d.get_var_id xv = some x)
    (hparams : ∀ k, PassesFree d x (create_cfg k params false false))
    (hc : ∀ k, CondFree d x (create_condition_cfg k c))
    (he : ∀ k, Free d x (create_cfg k e false false))
    (hS : ∀ k, ReadsFirst d x S (create_cfg k S false false))
    (s1 F : CFG) (n0 : Nat) (fin : Node)
    (hd : s1.data = d) (hsp : (s1.var_split_data x).isSome = true) (hinv : UInv s1)
    (hrun : create_cfg fuel root false false s1 = Except.ok ((some n0, fin), F)) :
    (∃ n, Relation.ReflTransGen (clear_step F x) n0 n ∧ carries_plain_read F x n) ∧
    ∀ n a ud, s1.node_gen ≤ n → n < F.node_gen → a ∈ F.node_usages n → plain_read F x a →
      F.usage_data a = some ud → ud.v ∈ S.subtree := by
  obtain ⟨k0, rfl⟩ := create_cfg_fuel hrun
  obtain ⟨pb, ca, s2, s9, s10, hP, hC, hE1, hM1⟩ :=
    op_function_run k0 root params cmd _ _ _ _ _ _ hroot_t hroot_s hrun
  obtain ⟨k1, rfl⟩ := create_cfg_fuel hC
  obtain ⟨ib, Sa, s7, s8, s8e, hI, hSt, hE2, hM2⟩ :=
    op_seq_two_run k1 cmd ifv S _ _ _ _ _ _ hcmd_t hcmd_s hC
  obtain ⟨k2, rfl⟩ := create_cfg_fuel hI
  obtain ⟨ct, cf, bs, bf, s3, s4, s5, s5a, s5b, s6, hN, hc', hB, hE3, hE4, hE5, hM3⟩ :=
    op_if_run k2 ifv c body _ _ _ _ _ _ hif_t hif_s hI
  obtain ⟨k3, rfl⟩ := create_cfg_fuel hB
  obtain ⟨sb, hT, hM4⟩ := op_seq_one_run k3 body setv _ _ _ _ _ _ hbody_t hbody_s hB
  obtain ⟨k4, rfl⟩ := create_cfg_fuel hT
  obtain ⟨eb, va, se, sv, sv', hEe, hV, hE6, hM5⟩ :=
    op_set_run k4 setv xv e _ _ _ _ _ _ hset_t hset_s hT
  obtain ⟨k5, rfl⟩ := create_cfg_fuel hV
  obtain ⟨svv, hVV, hM6⟩ := op_var_run k5 xv _ _ _ _ _ _ hxv hV
  -- the steps, one by one
  have L12 : Later x s1.node_gen s1 s2 := later_cfg x _ _ _ _ _ _ _ _ hP (Nat.le_refl _)
  have L23 : Later x s2.node_gen s2 s3 := later_new_node x _ _ _ _ hN (Nat.le_refl _)
  have L34 : Later x s3.node_gen s3 s4 := later_cond x _ _ _ _ _ _ hc' (Nat.le_refl _)
  have L4e : Later x s4.node_gen s4 se := later_cfg x _ _ _ _ _ _ _ _ hEe (Nat.le_refl _)
  have Lev : Later x se.node_gen se sv := later_cfg x _ _ _ _ _ _ _ _ hV (Nat.le_refl _)
  have Lvv : Later x svv.node_gen svv sv := later_add_subtree x _ _ _ _ _ hM6
  have L1 : Later x sv.node_gen sv sv' := later_add_edge x _ _ _ _ _ hE6
  have L2 : Later x sv'.node_gen sv' sb := later_add_subtree x _ _ _ _ _ hM5
  have L3 : Later x sb.node_gen sb s5 := later_add_subtree x _ _ _ _ _ hM4
  have L4 : Later x s5.node_gen s5 s5a := later_add_edge x _ _ _ _ _ hE3
  have L5 : Later x s5a.node_gen s5a s5b := later_add_edge x _ _ _ _ _ hE4
  have L6 : Later x s5b.node_gen s5b s6 := later_add_edge x _ _ _ _ _ hE5
  have L7 : Later x s6.node_gen s6 s7 := later_add_subtree x _ _ _ _ _ hM3
  have L78 : Later x s7.node_gen s7 s8 := later_cfg x _ _ _ _ _ _ _ _ hSt (Nat.le_refl _)
  have L8 : Later x s8.node_gen s8 s8e := later_add_edge x _ _ _ _ _ hE2
  have L9 : Later x s8e.node_gen s8e s9 := later_add_subtree x _ _ _ _ _ hM2
  have L10 : Later x s9.node_gen s9 s10 := later_add_edge x _ _ _ _ _ hE1
  have L11 : Later x s10.node_gen s10 F := later_add_subtree x _ _ _ _ _ hM1
  -- from each state to the end
  have F8e : Later x s8e.node_gen s8e F := later_step L9 (later_step L10 L11)
  have F8 : Later x s8.node_gen s8 F := later_step L8 F8e
  have F7 : Later x s7.node_gen s7 F := later_step L78 F8
  have F6 : Later x s6.node_gen s6 F := later_step L7 F7
  have F5b : Later x s5b.node_gen s5b F := later_step L6 F6
  have Fv : Later x sv.node_gen sv F :=
    later_step L1 (later_step L2 (later_step L3 (later_step L4 (later_step L5 F5b))))
  have Fvv : Later x svv.node_gen svv F := later_step Lvv Fv
  have Fe : Later x se.node_gen se F := later_step Lev Fv
  have F4 : Later x s4.node_gen s4 F := later_step L4e Fe
  have F3 : Later x s3.node_gen s3 F := later_step L34 F4
  have F2 : Later x s2.node_gen s2 F := later_step L23 F3
  -- from the start to each state
  have P3 : Later x s1.node_gen s1 s3 := later_step L12 L23
  have P4 : Later x s1.node_gen s1 s4 := later_step P3 L34
  have Pe : Later x s1.node_gen s1 se := later_step P4 L4e
  have Pv : Later x s1.node_gen s1 sv := later_step Pe Lev
  have P7 : Later x s1.node_gen s1 s7 :=
    later_step Pv (later_step L1 (later_step L2 (later_step L3 (later_step L4
      (later_step L5 (later_step L6 L7))))))
  have U2 : UInv s2 := (L12.2.2.1 hinv).1
  have U3 : UInv s3 := (P3.2.2.1 hinv).1
  have U4 : UInv s4 := (P4.2.2.1 hinv).1
  have Ue : UInv se := (Pe.2.2.1 hinv).1
  have Uvv : UInv svv := ((uStep_op_var xv true false).run _ _ _ hVV Ue).1
  -- the sizes
  obtain ⟨hib, -, g3⟩ := new_node_next hN
  have B12 := create_cfg_built _ _ _ _ _ _ _ hP
  have B34 := create_condition_cfg_built _ _ _ _ _ hc'
  have B78 := create_cfg_built _ _ _ _ _ _ _ hSt
  have g4e : s4.node_gen ≤ se.node_gen := L4e.2.1.1
  have SSv : SameStore svv sv := add_subtree_store hM6
  have SS7 : SameStore sv s7 :=
    sameStore_trans (add_edge_store hE6) (sameStore_trans (add_subtree_store hM5)
      (sameStore_trans (add_subtree_store hM4) (sameStore_trans (add_edge_store hE3)
        (sameStore_trans (add_edge_store hE4) (sameStore_trans (add_edge_store hE5)
          (add_subtree_store hM3))))))
  have SS6 : SameStore s5b s6 := add_edge_store hE5
  have SS67 : SameStore s6 s7 := add_subtree_store hM3
  have SS8e : SameStore s8 s8e := add_edge_store hE2
  have SSF : SameStore s8 F :=
    sameStore_trans SS8e (sameStore_trans (add_subtree_store hM2)
      (sameStore_trans (add_edge_store hE1) (add_subtree_store hM1)))
  -- the variable on the left of the assignment
  have De : se.data = d := Pe.2.2.2.1.trans hd
  obtain ⟨vs, hvs⟩ := Option.isSome_iff_exists.mp (Pe.2.2.2.2.1 hsp)
  obtain ⟨-, gv, uv, dv⟩ := op_var_usage xv true false x vs se svv _ (by rw [De]; exact hxid)
    hvs hVV
  have g7 : s7.node_gen = se.node_gen + 1 := by
    rw [SS7.2.2.2.1, SSv.2.2.2.1, gv]
  have g6 : s6.node_gen = se.node_gen + 1 := by
    rw [← SS67.2.2.2.1, g7]
  have g78 : s7.node_gen ≤ s8.node_gen := L78.2.1.1
  have gF : F.node_gen = s8.node_gen := SSF.2.2.2.1
  have g12 : s1.node_gen ≤ s2.node_gen := L12.2.1.1
  have g34 : s3.node_gen ≤ s4.node_gen := L34.2.1.1
  -- the hypotheses on the parts
  obtain ⟨nP, p, q, ep, eq, pathP⟩ := hparams _ s1 _ _ s2 hP hd hsp
  cases ep
  subst eq
  obtain ⟨nC, c0, f0, ec, ef, pathC⟩ := hc _ s3 _ _ _ s4 hc' (P3.2.2.2.1.trans hd)
    (P3.2.2.2.2.1 hsp)
  subst ec
  subst ef
  have nE := he _ s4 _ se hEe (P4.2.2.2.1.trans hd) (P4.2.2.2.2.1 hsp)
  obtain ⟨⟨q0, r0, eS, pathS, readS⟩, provS⟩ := hS _ s7 _ _ s8 hSt (P7.2.2.2.1.trans hd)
    (P7.2.2.2.2.1 hsp)
  subst eS
  -- the zones in the final graph
  have NP : NoUse x F s1.node_gen s2.node_gen := noUse_later nP (Nat.le_refl _) F2 U2
  have NC : NoUse x F s3.node_gen s4.node_gen := noUse_later nC (Nat.le_refl _) F4 U4
  have NE : NoUse x F s4.node_gen se.node_gen := noUse_later nE (Nat.le_refl _) Fe Ue
  have Nfin : F.node_usages s2.node_gen = [] := by
    rw [F3.1 _ (by omega)]
    cases hN
    exact upd_same _ _ _
  have Nv : F.node_usages se.node_gen = [se.usage_cnt] := by
    rw [Fvv.1 _ (by omega)]
    exact uv
  constructor
  · -- the path
    have hn0 : s1.node_gen ≤ n0 ∧ n0 < s2.node_gen := by
      have := B12.2.1
      simp only [node_code_some] at this
      omega
    obtain ⟨c1, q1, q2⟩ := path_clear F2.2.1 (Nat.le_refl _)
      (fun n m h1 h2 hm => B12.1.next_local n m h1 h2 hm) NP hn0 pathP
    have hc0 : s3.node_gen ≤ c0 ∧ c0 < s4.node_gen := by
      have := B34.2.1
      simp only [node_code_some] at this
      omega
    obtain ⟨c2, f1, f2⟩ := path_clear F4.2.1 (Nat.le_refl _)
      (fun n m h1 h2 hm => B34.1.next_local n m h1 h2 hm) NC hc0 pathC
    have hq0 : s7.node_gen ≤ q0 ∧ q0 < s8.node_gen := by
      have := B78.2.1
      simp only [node_code_some] at this
      omega
    obtain ⟨c3, _, _⟩ := clear_path_store B78.1 F8.2.1 SSF hq0 pathS
    have e1 : clear_step F x q c0 := by
      refine ⟨?_, noUse_clear NP q1 q2⟩
      rw [(add_subtree_next hM1).1]
      exact add_edge_mem hE1
    have e2 : clear_step F x f0 s2.node_gen := by
      refine ⟨?_, noUse_clear NC f1 f2⟩
      rw [hib] at hE5
      exact F6.2.1.2 _ _ (by omega) (add_edge_mem hE5)
    have e3 : clear_step F x s2.node_gen q0 := by
      refine ⟨?_, ?_⟩
      · rw [hib] at hE2
        exact F8e.2.1.2 _ _ (by rw [SS8e.2.2.2.1]; omega) (add_edge_mem hE2)
      · rintro ⟨a, ha, _⟩
        rw [Nfin] at ha
        cases ha
    refine ⟨r0, ?_, (carries_plain_read_store SSF x r0).mpr readS⟩
    exact ((c1.tail e1).trans c2 |>.tail e2 |>.tail e3).trans c3
  · -- the reads
    intro n a ud h1 h2 ha hpr hud
    by_cases z1 : n < s2.node_gen
    · exact absurd (plain_read_var hpr) (NP n h1 z1 a ha)
    by_cases z2 : n = s2.node_gen
    · rw [z2, Nfin] at ha
      cases ha
    by_cases z3 : n < s4.node_gen
    · exact absurd (plain_read_var hpr) (NC n (by omega) z3 a ha)
    by_cases z4 : n < se.node_gen
    · exact absurd (plain_read_var hpr) (NE n (by omega) z4 a ha)
    by_cases z5 : n = se.node_gen
    · rw [z5, Nv] at ha
      rw [List.mem_singleton.mp ha] at hpr
      obtain ⟨_, hk, _⟩ := Fvv.2.2.1 Uvv
      obtain ⟨ud', e', _, t'⟩ := hk _ _ dv
      obtain ⟨u, eu, _, tu, _⟩ := hpr
      rw [e'] at eu
      cases eu
      rw [tu] at t'
      cases t'
    · have hn : s7.node_gen ≤ n := by omega
      rw [SSF.1] at ha
      rw [SSF.2.1] at hud
      exact provS n hn (by omega) a ha ud hud

/-- The walk of `process_var` runs `process_var_uninited` for a variable that is neither
an in-place local nor a parameter. -/
theorem process_var_walk_block (fuel : Nat) (var : VarPtr) :
    process_var_walk fuel var = (do
      let s ← get_state
      match get_var_split s var with
      | none => fail Err.assert_failed
      | some var_split => do
        let vd ← var_data var
        if vd.type = VarType.var_local_inplace_t then pure none
        else do
          (if vd.type ≠ VarType.var_param_t then process_var_uninited fuel var else pure ())
          modify_state fun s => { s with node_mark := fun _ => none }
          process_var_dfs fuel var_split.usage_gen
          let parts_cnt ← process_var_number var var_split.usage_gen 0
          pure (some parts_cnt)) := by
  funext s
  unfold process_var_walk process_var_uninited
  simp only [bind_run, get_state_run]
  cases get_var_split s var with
  | none => rfl
  | some vs =>
    simp only []
    rw [bind_run, bind_run]
    cases hv : var_data var s with
    | error e => rfl
    | ok p =>
      obtain ⟨vd, s1⟩ := p
      have e1 : s1 = s := by
        unfold var_data at hv
        cases hg : s.data.vars.get? var with
        | none =>
          rw [hg] at hv
          cases hv
        | some w =>
          rw [hg] at hv
          cases hv
          rfl
      subst e1
      simp only []
      split
      · rfl
      · split
        · simp only [bind_run, modify_state_run, get_state_run] <;> rfl
        · rfl

theorem start_state_inv (d : CFGData) (vars : List VarPtr) : UInv (start_state d vars) :=
  ⟨fun _ _ => rfl, fun a ha => absurd ha (Nat.not_lt_zero a), fun n a ha => by cases ha⟩

/-- The walk of `process_var` on a state in which the search from the entry returns usage
`a`: whenever the walk returns, the function record is the one in which the vertex of
`a` is recorded as possibly uninitialised. -/
theorem process_var_walk_records (fuel : Nat) (x : VarPtr) (G G' : CFG) (vd : VarData)
    (start a : Nat) (ud : UsageData)
    (hvd : G.data.vars.get? x = some vd) (hloc : vd.type = VarType.var_local_t)
    (hstart : G.current_start = some start)
    (hsearch : search_uninited fuel start x { G with cur_dfs_mark := G.cur_dfs_mark + 1 } =
      Except.ok (some a, G'))
    (hud : G'.usage_data a = some ud) (r : Option Nat) (t' : CFG)
    (h : process_var_walk fuel x G = Except.ok (r, t')) :
    t'.data = G.data.uninited ud.v := by
  have hdata : G'.data = G.data := by
    have := (search_uninited_data fuel start x).run _ _ _ hsearch
    exact this
  unfold process_var_walk at h
  simp only [bind_ok_iff] at h
  obtain ⟨s0, s0', h0, h1⟩ := h
  cases h0
  cases hs : get_var_split G x with
  | none =>
    rw [hs] at h1
    cases h1
  | some vs =>
    rw [hs] at h1
    simp only [bind_ok_iff] at h1
    obtain ⟨vd', t1, k1, k2⟩ := h1
    have e1 : vd' = vd ∧ t1 = G := by
      unfold var_data at k1
      rw [hvd] at k1
      cases k1
      exact ⟨rfl, rfl⟩
    obtain ⟨rfl, rfl⟩ := e1
    have n1 : ¬ vd'.type = VarType.var_local_inplace_t := by
      rw [hloc]
      decide
    have n2 : vd'.type ≠ VarType.var_param_t := by
      rw [hloc]
      decide
    rw [if_neg n1, if_pos n2] at k2
    simp only [bind_ok_iff] at k2
    obtain ⟨_, t2, ⟨_, t3, m1, st, t4, m2, res, t5, m3, m4⟩, _, t6, m5, _, t7, m6, cnt, t8, m7,
      m8⟩ := k2
    cases m1
    rw [hstart] at m2
    cases m2
    rw [hsearch] at m3
    cases m3
    simp only [bind_ok_iff] at m4
    obtain ⟨u, t9, q1, q2⟩ := m4
    obtain ⟨e9, d9⟩ := usage_at_ok q1
    subst e9
    rw [hud] at d9
    cases d9
    cases q2
    cases m5
    have d6 := (process_var_dfs_data fuel vs.usage_gen).run _ _ _ m6
    have d7 := (process_var_number_data x vs.usage_gen 0).run _ _ _ m7
    cases m8
    unfold DataEq at d6 d7
    rw [d7, d6]
    show CFGData.uninited _ _ = _
    rw [hdata]

/-- When the search from the entry returns usage `a`, `process_var_uninited` returns and
records the vertex of `a` as possibly uninitialised. -/
theorem process_var_uninited_records (fuel : Nat) (x : VarPtr) (G G' : CFG) (start a : Nat)
    (ud : UsageData) (hstart : G.current_start = some start)
    (hsearch : search_uninited fuel start x { G with cur_dfs_mark := G.cur_dfs_mark + 1 } =
      Except.ok (some a, G'))
    (hud : G'.usage_data a = some ud) :
    process_var_uninited fuel x G =
      Except.ok ((), { G' with data := G'.data.uninited ud.v }) := by
  have h1 : node_id G.current_start { G with cur_dfs_mark := G.cur_dfs_mark + 1 } =
      Except.ok (start, { G with cur_dfs_mark := G.cur_dfs_mark + 1 }) := by
    rw [hstart]
    rfl
  have h2 : usage_at a G' = Except.ok (ud, G') := by
    unfold usage_at
    rw [hud]
  unfold process_var_uninited
  simp only [bind_run, modify_state_run, get_state_run]
  rw [h1]
  simp only []
  rw [hsearch]
  simp only [bind_run]
  rw [h2]
  rfl

theorem modify_get_same {α : Type} (f : α → α) (l : List α) (i : Nat) (a : α)
    (h : l.get? i = some a) : (l.modify f i).get? i = some (f a) := by
  induction l generalizing i with
  | nil => cases i <;> cases h
  | cons b l ih =>
    cases i with
    | zero =>
      cases h
      rfl
    | succ i =>
      have := ih i h
      simpa [List.modify, List.modifyTailIdx] using this

/-- What `CFGData::uninited` records for a vertex of kind `op_var` that is neither
superlocal nor `$this`: the vertex is appended to `uninited_vars` and the uninitialised
flag of its variable is set. -/
theorem uninited_records (d : CFGData) (v : Vertex) (x : VarPtr) (vd : VarData)
    (ht : v.type = Operation.op_var)
    (h1 : v.extra.extra_type ≠ ExtraType.op_ex_var_superlocal)
    (h2 : v.extra.extra_type ≠ ExtraType.op_ex_var_this)
    (hx : d.get_var_id v = some x) (hvd : d.vars.get? x = some vd) :
    (d.uninited v).uninited_vars = d.uninited_vars ++ [v] ∧
    (d.uninited v).vars.get? x = some ({ vd with uninited_flag := true } : VarData) := by
  unfold CFGData.uninited
  rw [if_pos ⟨ht, h1, h2⟩]
  refine ⟨rfl, ?_⟩
  show (match d.get_var_id v with
    | some x => d.vars.modify (fun vd : VarData => { vd with uninited_flag := true }) x
    | none => d.vars).get? x = _
  rw [hx]
  exact modify_get_same _ _ _ _ hvd

/-- C3 (amended). Take a function whose body is `if (c) { x = e; } S`, where `x` is a
splittable local of the function, and let `process_function` build its graph with fuel
above the number of nodes.  Suppose that the graphs of the parameter list, of `c` and of
`e` carry no usage of `x`, that a path leads through the graph of the parameter list
from its start to its finish and through the graph of `c` from its start to its false
exit, that in the graph of `S` a path leads from the start to a node with a plain
`Read` of `x` through nodes without a `Write` or weak-write usage of `x`, and that the
occurrences of `x` in `S` are vertices of kind `op_var` that are neither superlocal nor
`$this` (for other vertices `CFGData::uninited` does nothing).  Then the search of
`process_var` for `x` from the entry returns a usage: a plain `Read` of `x` whose vertex
is an occurrence in `S`; the statements of `process_var` around the search return and
record that read as possibly uninitialised: its vertex is appended to `uninited_vars`
and the uninitialised flag of `x` is set; and whenever the walk of `process_var` for `x`
returns, it has recorded exactly this. -/
theorem uninited_through_if (fuel : Nat) (d : CFGData) (x : VarPtr) (vd : VarData)
    (params cmd ifv S c body setv xv e : Vertex) (vars : List VarPtr) (G : CFG)
    (hroot_t : d.root.type = Operation.op_function) (hroot_s : d.root.sons = [params, cmd])
    (hcmd_t : cmd.type = Operation.op_seq) (hcmd_s : cmd.sons = [ifv, S])
    (hif_t : ifv.type = Operation.op_if) (hif_s : ifv.sons = [c, body])
    (hbody_t : body.type = Operation.op_seq) (hbody_s : body.sons = [setv])
    (hset_t : setv.type = Operation.op_set) (hset_s : setv.sons = [xv, e])
    (hxv : xv.type = Operation.op_var) (hxid : d.get_var_id xv = some x)
    (hvd : d.vars.get? x = some vd) (hloc : vd.type = VarType.var_local_t)
    (hparams : ∀ k, PassesFree d x (create_cfg k params false false))
    (hc : ∀ k, CondFree d x (create_condition_cfg k c))
    (he : ∀ k, Free d x (create_cfg k e false false))
    (hS : ∀ k, ReadsFirst d x S (create_cfg k S false false))
    (hplain : ∀ v, v ∈ S.subtree → d.get_var_id v = some x →
      v.type = Operation.op_var ∧ v.extra.extra_type ≠ ExtraType.op_ex_var_superlocal ∧
        v.extra.extra_type ≠ ExtraType.op_ex_var_this)
    (hbuild : process_function_build fuel { data := d } = Except.ok (vars, G))
    (hx : x ∈ vars) (hfuel : G.node_gen < fuel) :
    ∃ start a ud G',
      G.current_start = some start ∧
      search_uninited fuel start x { G with cur_dfs_mark := G.cur_dfs_mark + 1 } =
        Except.ok (some a, G') ∧
      G.usage_data a = some ud ∧ plain_read G x a ∧ ud.v ∈ S.subtree ∧
      (∃ G'', process_var_uninited fuel x G = Except.ok ((), G'') ∧
        G''.data = G.data.uninited ud.v ∧
        G''.data.uninited_vars = G.data.uninited_vars ++ [ud.v] ∧
        G''.data.vars.get? x = some ({ vd with uninited_flag := true } : VarData)) ∧
      ∀ r t', process_var_walk fuel x G = Except.ok (r, t') →
        t'.data = G.data.uninited ud.v ∧
        t'.data.uninited_vars = G.data.uninited_vars ++ [ud.v] ∧
        t'.data.vars.get? x = some ({ vd with uninited_flag := true } : VarData) := by
  obtain ⟨_, n0, fin, F, hrun, hcalc⟩ := process_function_build_run fuel d vars G hbuild
  have hinv := start_state_inv d vars
  have hsp : ((start_state d vars).var_split_data x).isSome = true :=
    init_var_split_mem vars _ x hx
  obtain ⟨⟨nr, hpath, hread⟩, hprov⟩ := if_graph x d fuel d.root params cmd ifv S c body setv
    xv e hroot_t hroot_s hcmd_t hcmd_s hif_t hif_s hbody_t hbody_s hset_t hset_s hxv hxid
    hparams hc he hS (start_state d vars) F n0 fin rfl hsp hinv hrun
  have hB := create_cfg_built _ _ _ _ _ _ _ hrun
  have hW := create_cfg_stable wasStep_stable _ _ _ _ _ _ _ hrun
  have hU := (create_cfg_stable uStep_stable _ _ _ _ _ _ _ hrun hinv).1
  obtain ⟨w1, w2, w3, w4, w5, w6, w7, w8, w9, w10⟩ := (calc_used_keep fuel n0).run _ _ _ hcalc
  have hFd : F.data = d := hB.1.data
  -- the state of the search and the built graph hold the same usages and edges
  have hst : SameStore F { G with cur_dfs_mark := G.cur_dfs_mark + 1 } :=
    ⟨w2, w3, w5, w6, w7⟩
  have hstG : SameStore F G := ⟨w2, w3, w5, w6, w7⟩
  have hstep : clear_step { G with cur_dfs_mark := G.cur_dfs_mark + 1 } x = clear_step F x := by
    funext n m
    show (m ∈ G.node_next n ∧ _) = (m ∈ F.node_next n ∧ _)
    rw [w1]
    exact congrArg _ (congrArg _ (propext (carries_write_or_weak_store hst x n)))
  have hN : G.node_gen = F.node_gen := w6
  have hfin : ∀ n, n < G.node_gen → ∀ m,
      m ∈ ({ G with cur_dfs_mark := G.cur_dfs_mark + 1 } : CFG).node_next n → m < G.node_gen := by
    intro n hn m hm
    rw [hN] at hn ⊢
    exact (hB.1.next_local n m (Nat.zero_le _) hn (by rw [← w1]; exact hm)).2
  have he0 : n0 < G.node_gen := by
    have := hB.2.1.2
    simp only [node_code_some] at this
    omega
  have hfresh : ∀ n, n < G.node_gen →
      ({ G with cur_dfs_mark := G.cur_dfs_mark + 1 } : CFG).node_was n ≠
        ({ G with cur_dfs_mark := G.cur_dfs_mark + 1 } : CFG).cur_dfs_mark := by
    intro n _
    show G.node_was n ≠ G.cur_dfs_mark + 1
    have hm : G.cur_dfs_mark = 1 := by
      rw [w9]
      show F.cur_dfs_mark + 1 = 1
      rw [hW.1]
      rfl
    have hz : F.node_was n = 0 := by
      rcases hW.2 n with e | e
      · rw [e]
        rfl
      · exact e
    rw [hm]
    rcases w10 n with e | e
    · rw [e]
      show F.node_was n ≠ 2
      rw [hz]
      decide
    · rw [e]
      show F.cur_dfs_mark + 1 ≠ 2
      rw [hW.1]
      show 0 + 1 ≠ 2
      decide
  have hUs : ∀ n, n < G.node_gen → ∀ a,
      a ∈ ({ G with cur_dfs_mark := G.cur_dfs_mark + 1 } : CFG).node_usages n →
      (({ G with cur_dfs_mark := G.cur_dfs_mark + 1 } : CFG).usage_data a).isSome = true := by
    intro n _ a ha
    show (G.usage_data a).isSome = true
    rw [w3]
    exact hU.2.1 a (hU.2.2 n a (by rw [← w2]; exact ha))
  obtain ⟨r, G', hs, hiff, hsound⟩ := search_uninited_path_iff x G.node_gen fuel n0
    { G with cur_dfs_mark := G.cur_dfs_mark + 1 } hfin he0 hfuel hfresh hUs
  have hsome : r.isSome = true := by
    rw [hiff, hstep]
    exact ⟨nr, hpath, (carries_plain_read_store hst x nr).mpr hread⟩
  obtain ⟨a, rfl⟩ := Option.isSome_iff_exists.mp hsome
  obtain ⟨hpr, n, han, hreach⟩ := hsound a rfl
  have hn : n < F.node_gen := by
    rw [← hN]
    exact clear_step_reach_lt x G.node_gen n0 _ hfin he0 n hreach
  have hprF : plain_read F x a := (plain_read_store hst x a).mp hpr
  obtain ⟨ud, eud, _⟩ := hprF
  have hv : ud.v ∈ S.subtree :=
    hprov n a ud (Nat.zero_le _) hn (by rw [← w2]; exact han) ((plain_read_store hst x a).mp hpr)
      eud
  have hframe : G'.usage_data = G.usage_data := by
    have hun : unvisited { G with cur_dfs_mark := G.cur_dfs_mark + 1 } G.node_gen < fuel := by
      have : unvisited { G with cur_dfs_mark := G.cur_dfs_mark + 1 } G.node_gen ≤ G.node_gen := by
        unfold unvisited
        exact le_trans (List.length_filter_le _ _) (by simp)
      omega
    obtain ⟨r2, s2, e2, p2⟩ := search_uninited_spec x G.node_gen fuel n0
      { G with cur_dfs_mark := G.cur_dfs_mark + 1 } hfin he0 (hfresh n0 he0) hun hUs
    rw [hs] at e2
    cases e2
    exact (same_but_was_fields p2.frame).2.2.1
  have eudG : G.usage_data a = some ud := by
    rw [w3]
    exact eud
  have hdata : G'.data = G.data := by
    have := (search_uninited_data fuel n0 x).run _ _ _ hs
    exact this
  have hGd : G.data = d := by rw [w5, hFd]
  have hprG : plain_read G x a :=
    (plain_read_store hstG x a).mpr ((plain_read_store hst x a).mp hpr)
  have hvx : d.get_var_id ud.v = some x := by
    obtain ⟨u, hu1, hu2, _⟩ := hprG
    rw [eudG] at hu1
    cases hu1
    rw [← hGd]
    exact hu2
  obtain ⟨p1, p2, p3⟩ := hplain ud.v hv hvx
  obtain ⟨rec1, rec2⟩ := uninited_records G.data ud.v x vd p1 p2 p3 (by rw [hGd]; exact hvx)
    (by rw [hGd]; exact hvd)
  refine ⟨n0, a, ud, G', w8, hs, eudG, hprG, hv,
    ⟨_, process_var_uninited_records fuel x G G' n0 a ud w8 hs (by rw [hframe]; exact eudG),
      by rw [← hdata],
      by show (G'.data.uninited ud.v).uninited_vars = _; rw [hdata]; exact rec1,
      by show (G'.data.uninited ud.v).vars.get? x = _; rw [hdata]; exact rec2⟩,
    fun r t' h => ?_⟩
  have hrec := process_var_walk_records fuel x G G' vd n0 a ud (by rw [hGd]; exact hvd) hloc w8
    hs (by rw [hframe]; exact eudG) r t' h
  exact ⟨hrec, by rw [hrec]; exact rec1, by rw [hrec]; exact rec2⟩

theorem register_exception_store {a : Node} {s s' : CFG}
    (h : create_cfg_register_exception a s = Except.ok ((), s')) : SameStore s s' := by
  unfold create_cfg_register_exception at h
  simp only [bind_ok_iff] at h
  obtain ⟨s0, s1, h0, h1⟩ := h
  cases h0
  revert h1
  cases s.exception_nodes.getLast? with
  | none =>
    intro h1
    cases h1
    exact ⟨rfl, rfl, rfl, rfl, rfl⟩
  | some es =>
    intro h1
    cases h1
    exact ⟨rfl, rfl, rfl, rfl, rfl⟩

/-- Four calls of `new_node` in a row leave the function record and the split states as
they were and give the four nodes no usage. -/
theorem four_new_nodes {s s1 s2 s3 s4 : CFG} {a b c d : Node}
    (h1 : new_node s = Except.ok (a, s1)) (h2 : new_node s1 = Except.ok (b, s2))
    (h3 : new_node s2 = Except.ok (c, s3)) (h4 : new_node s3 = Except.ok (d, s4)) :
    s4.data = s.data ∧ s4.var_split_data = s.var_split_data ∧
    (∀ n, s.node_gen ≤ n → n < s.node_gen + 4 → s4.node_usages n = []) := by
  cases h1; cases h2; cases h3; cases h4
  refine ⟨rfl, rfl, ?_⟩
  intro n hn1 hn2
  show upd (upd (upd (upd s.node_usages _ []) _ []) _ []) _ [] n = []
  simp only [upd]
  split
  · rfl
  · split
    · rfl
    · split
      · rfl
      · split
        · rfl
        · omega

/-- The body of the proof of `full_cfg_run`: the steps of `create_full_cfg` are given one
by one, with the nodes that `new_node` returns written out. -/
theorem full_cfg_core
    (fuel : Nat) (t : Vertex) (s s' s1 s2 : CFG) (h1 : new_node s = Except.ok (some s.node_gen, s1))
    (s3 : CFG) (h2 : new_node s1 = Except.ok (some s1.node_gen, s2))
    (h3 : new_node s2 = Except.ok (some s2.node_gen, s3)) (s4 : CFG) (ct : Bool) (s5 : CFG)
    (h4 : new_node s3 = Except.ok (some s3.node_gen, s4))
    (h5 : collect_vars_usage fuel t (some s2.node_gen) (some s3.node_gen) false s4 = Except.ok (ct,
      s5))
    (w : Unit) (s6 : CFG) (h6 : compress_usages (some s2.node_gen) s5 = Except.ok (w, s6))
    (w_1 : Unit) (s7 : CFG) (h7 : compress_usages (some s3.node_gen) s6 = Except.ok (w_1, s7))
    (w_2 : Unit) (s8 : CFG)
    (h8 : add_subtree (some s.node_gen) (new_subtree t true) s7 = Except.ok (w_2, s8)) (w_3 : Unit)
    (s9 : CFG) (h9 : add_edge (some s.node_gen) (some s2.node_gen) s8 = Except.ok (w_3, s9))
    (w_4 : Unit) (s10 : CFG)
    (h10 : add_edge (some s.node_gen) (some s3.node_gen) s9 = Except.ok (w_4, s10)) (w_5 : Unit)
    (s11 : CFG) (h11 : add_edge (some s2.node_gen) (some s3.node_gen) s10 = Except.ok (w_5, s11))
    (w_6 : Unit) (s12 : CFG)
    (h12 : add_edge (some s2.node_gen) (some s1.node_gen) s11 = Except.ok (w_6, s12)) (w_7 : Unit)
    (s13 : CFG) (h13 : add_edge (some s3.node_gen) (some s1.node_gen) s12 = Except.ok (w_7, s13))
    (w_8 : PUnit.{1})
    (h14 : (if ct = true then create_cfg_register_exception (some s1.node_gen) else pure ()) s13 =
      Except.ok (w_8, s')) :
    ∃ s4 ct s5 s6 s7, s4.data = s.data ∧ s4.var_split_data = s.var_split_data ∧ (∀ (n : Nat),
      s.node_gen ≤ n → n < s.node_gen + 4 → s4.node_usages n = []) ∧ collect_vars_usage fuel t
      (some (s.node_gen + 2)) (some (s.node_gen + 3)) false s4 = Except.ok (ct, s5) ∧
      compress_usages (some (s.node_gen + 2)) s5 = Except.ok ((), s6) ∧ compress_usages (some
      (s.node_gen + 3)) s6 = Except.ok ((), s7) ∧ SameStore s7 s' ∧ s'.node_gen = s.node_gen + 4 ∧
      some s.node_gen = some s.node_gen ∧ some s1.node_gen = some (s.node_gen + 1) ∧ s.node_gen + 3
      ∈ s'.node_next s.node_gen ∧ s.node_gen + 1 ∈ s'.node_next (s.node_gen + 3) := by
  obtain ⟨m1, c1, e1⟩ := mid_new_node (mid_refl s) h1
  obtain ⟨m2, c2, e2⟩ := mid_new_node m1 h2
  obtain ⟨m3, c3, e3⟩ := mid_new_node m2 h3
  obtain ⟨m4, c4, e4⟩ := mid_new_node m3 h4
  obtain ⟨m5, e5⟩ := run_nodeData m4
    (collect_vars_usage_nodeData s.node_gen (some s2.node_gen) (some s3.node_gen) (by omega) (by omega) fuel t false) h5
  obtain ⟨m6, e6⟩ := run_nodeData m5 (compress_usages_nodeData s.node_gen (some s2.node_gen) (by omega)) h6
  obtain ⟨m7, e7⟩ := run_nodeData m6 (compress_usages_nodeData s.node_gen (some s3.node_gen) (by omega)) h7
  obtain ⟨m8, e8⟩ := run_nodeData m7 (add_subtree_nodeData s.node_gen (some s.node_gen) _ (by omega)) h8
  obtain ⟨m9, e9⟩ := mid_add_edge m8 (by omega) (by omega) h9
  obtain ⟨m10, e10⟩ := mid_add_edge m9 (by omega) (by omega) h10
  obtain ⟨m11, e11⟩ := mid_add_edge m10 (by omega) (by omega) h11
  obtain ⟨m12, e12⟩ := mid_add_edge m11 (by omega) (by omega) h12
  obtain ⟨m13, e13⟩ := mid_add_edge m12 (by omega) (by omega) h13
  have q14 : SameStore s13 s' ∧ EdgeMono s13 s' := by
    by_cases hc : ct = true
    · rw [if_pos hc] at h14
      exact ⟨register_exception_store h14,
        (stable_register_exception edgeMono_stable.base _).run _ _ _ h14⟩
    · rw [if_neg hc] at h14
      cases h14
      exact ⟨⟨rfl, rfl, rfl, rfl, rfl⟩, edgeMono_rel.refl _⟩
  obtain ⟨q14, x14⟩ := q14
  have hst : SameStore s7 s' :=
    sameStore_trans (add_subtree_store h8) (sameStore_trans (add_edge_store h9)
      (sameStore_trans (add_edge_store h10) (sameStore_trans (add_edge_store h11)
        (sameStore_trans (add_edge_store h12) (sameStore_trans (add_edge_store h13) q14)))))
  have r2 : s2.node_gen = s.node_gen + 2 := by omega
  have r3 : s3.node_gen = s.node_gen + 3 := by omega
  rw [r2, r3] at h5
  rw [r2] at h6
  rw [r3] at h7 h10
  rw [r3, e1] at h13
  have x11 := (edgeMono_stable.edge _ _).run _ _ _ h11
  have x12 := (edgeMono_stable.edge _ _).run _ _ _ h12
  have x13 := (edgeMono_stable.edge _ _).run _ _ _ h13
  obtain ⟨f1, f2, f3⟩ := four_new_nodes h1 h2 h3 h4
  refine ⟨s4, ct, s5, s6, s7, f1, f2, f3, h5, h6, h7, hst, ?_, rfl, by rw [e1], ?_, ?_⟩
  · have := q14.2.2.2.1
    omega
  · have := add_edge_mem h10
    exact x14.2 _ _ (by omega) (x13.2 _ _ (by omega) (x12.2 _ _ (by omega)
      (x11.2 _ _ (by omega) this)))
  · exact x14.2 _ _ (by omega) (add_edge_mem h13)

/-- The steps of the generic rule: four new nodes (start, finish, writes, reads), the
collection of the usages, their compression, and the edges, among them those from the
start to the reads node and from the reads node to the finish. -/
theorem full_cfg_run (fuel : Nat) (t : Vertex) (s : CFG) (a b : Node) (s' : CFG)
    (h : create_full_cfg fuel t s = Except.ok ((a, b), s')) :
    ∃ s4 ct s5 s6 s7,
      s4.data = s.data ∧ s4.var_split_data = s.var_split_data ∧
      (∀ n, s.node_gen ≤ n → n < s.node_gen + 4 → s4.node_usages n = []) ∧
      collect_vars_usage fuel t (some (s.node_gen + 2)) (some (s.node_gen + 3)) false s4 =
        Except.ok (ct, s5) ∧
      compress_usages (some (s.node_gen + 2)) s5 = Except.ok ((), s6) ∧
      compress_usages (some (s.node_gen + 3)) s6 = Except.ok ((), s7) ∧
      SameStore s7 s' ∧ s'.node_gen = s.node_gen + 4 ∧
      a = some s.node_gen ∧ b = some (s.node_gen + 1) ∧
      s.node_gen + 3 ∈ s'.node_next s.node_gen ∧
      s.node_gen + 1 ∈ s'.node_next (s.node_gen + 3) := by
  simp only [create_full_cfg, bind_ok_iff] at h
  obtain ⟨start, s1, h1, finish, s2, hq1_1⟩ := h
  obtain ⟨rfl, -, -⟩ := new_node_next h1
  obtain ⟨h2, writes, s3, h3, reads, hq1_2⟩ := hq1_1
  obtain ⟨rfl, -, -⟩ := new_node_next h2
  obtain ⟨rfl, -, -⟩ := new_node_next h3
  obtain ⟨s4, h4, ct, s5, h5, hq1_3⟩ := hq1_2
  obtain ⟨rfl, -, -⟩ := new_node_next h4
  obtain ⟨_, s6, h6, _, s7, hq1_4⟩ := hq1_3
  obtain ⟨h7, _, s8, h8, _, hq1_5⟩ := hq1_4
  obtain ⟨s9, h9, _, s10, h10, hq1_6⟩ := hq1_5
  obtain ⟨_, s11, h11, _, s12, hq1_7⟩ := hq1_6
  obtain ⟨h12, _, s13, h13, _, hq1_8⟩ := hq1_7
  obtain ⟨s14, h14, h15⟩ := hq1_8
  cases h15
  exact full_cfg_core fuel t s s' s1 s2 h1 s3 h2 h3 s4 ct s5 h4 h5 _ s6 h6 _ s7 h7 _ s8 h8 _ s9
    h9 _ s10 h10 _ s11 h11 _ s12 h12 _ s13 h13 _ h14

theorem collect_leaf (k : Nat) (t : Vertex) (w r : Node) (b : Bool) (s : CFG)
    (hs : t.sons = []) (h1 : t.type ≠ Operation.op_var) (h2 : t.type ≠ Operation.op_func_call)
    (h3 : t.type ≠ Operation.op_set) :
    collect_vars_usage (k + 1) t w r b s =
      Except.ok (if t.type = Operation.op_throw then true else b, s) := by
  unfold collect_vars_usage
  simp only [h1, h2, h3, hs, if_false, for_each_flag, bind_run, pure_run, Bool.false_eq_true]

theorem compress_nil (n : Nat) (s : CFG) (h : s.node_usages n = []) :
    compress_usages (some n) s =
      Except.ok ((), { s with node_usages := upd s.node_usages n [] }) := by
  simp only [compress_usages, node_id, bind_run, pure_run, get_state_run, h,
    List.insertionSort, modify_state_run]

theorem compress_single (n a : Nat) (s : CFG) (h : s.node_usages n = [a]) :
    compress_usages (some n) s =
      Except.ok ((), { s with node_usages := upd s.node_usages n [a] }) := by
  simp only [compress_usages, node_id, bind_run, pure_run, get_state_run, h,
    List.insertionSort, List.orderedInsert, compress_usages_loop, modify_state_run]

theorem collect_var_leaf (k : Nat) (v : Vertex) (w : Node) (r : Nat) (b : Bool) (s : CFG)
    (x : VarPtr) (vs : VarSplitData) (hs : v.sons = []) (ht : v.type = Operation.op_var)
    (hx : s.data.get_var_id v = some x) (hsp : get_var_split s x = some vs)
    (hr : s.node_usages r = []) :
    ∃ s', collect_vars_usage (k + 1) v w (some r) b s = Except.ok (b, s') ∧
      s'.node_usages = upd s.node_usages r [s.usage_cnt] ∧
      s'.usage_data s.usage_cnt = some
        { id := (vs.usage_gen.length : Int), type := UsageType.usage_read_t, v := v,
          node := some r } ∧
      s'.data = s.data ∧ s'.node_gen = s.node_gen := by
  unfold get_var_split at hsp
  unfold collect_vars_usage
  simp only [ht, hs, if_false, for_each_flag, bind_run, pure_run, Bool.false_eq_true,
    new_usage, get_var_split, hx, hsp, usage_at, upd_same, modify_state_run, add_usage, node_id,
    get_state_run, hr, List.getLast?_nil, if_true, reduceCtorEq, List.nil_append]
  exact ⟨_, rfl, rfl, by show upd _ s.usage_cnt _ s.usage_cnt = _; rw [upd_same], rfl, rfl⟩

/-- The generic rule on a leaf that is neither a variable nor a call nor an assignment:
no usage is attached to the four nodes, and the start leads to the finish. -/
theorem full_leaf_passes (d : CFGData) (x : VarPtr) (t : Vertex) (hs : t.sons = [])
    (h1 : t.type ≠ Operation.op_var) (h2 : t.type ≠ Operation.op_func_call)
    (h3 : t.type ≠ Operation.op_set) (k : Nat) : PassesFree d x (create_full_cfg k t) := by
  intro s a b s' h _ _
  obtain ⟨s4, ct, s5, s6, s7, _, _, hnil, h5, h6, h7, hst, hg, ea, eb, n1, n2⟩ :=
    full_cfg_run k t s a b s' h
  cases k with
  | zero => cases h5
  | succ k =>
    rw [collect_leaf k t _ _ _ _ hs h1 h2 h3] at h5
    cases h5
    rw [compress_nil _ _ (hnil _ (by omega) (by omega))] at h6
    cases h6
    have hr : ({ s4 with node_usages := upd s4.node_usages (s.node_gen + 2) [] } : CFG).node_usages
        (s.node_gen + 3) = [] := by
      show upd s4.node_usages (s.node_gen + 2) [] (s.node_gen + 3) = []
      rw [upd_other _ _ _ _ (by omega)]
      exact hnil _ (by omega) (by omega)
    rw [compress_nil _ _ hr] at h7
    cases h7
    constructor
    · intro n hn1 hn2 u hu
      rw [hst.1] at hu
      have : upd (upd s4.node_usages (s.node_gen + 2) []) (s.node_gen + 3) [] n = [] := by
        simp only [upd]
        split
        · rfl
        · split
          · rfl
          · exact hnil n hn1 (by omega)
      have hu' : u ∈ upd (upd s4.node_usages (s.node_gen + 2) []) (s.node_gen + 3) [] n := hu
      rw [this] at hu'
      cases hu'
    · exact ⟨_, _, ea, eb, Relation.ReflTransGen.tail (Relation.ReflTransGen.single n1) n2⟩

theorem create_cfg_param_list (k : Nat) (t : Vertex) (w ww : Bool)
    (ht : t.type = Operation.op_func_param_list) :
    create_cfg (k + 1) t w ww = create_full_cfg k t := by
  unfold create_cfg
  rw [ht]

theorem create_cfg_int_const (k : Nat) (t : Vertex) (w ww : Bool)
    (ht : t.type = Operation.op_int_const) :
    create_cfg (k + 1) t w ww = create_full_cfg k t := by
  unfold create_cfg
  rw [ht]

theorem create_cfg_echo (k : Nat) (t : Vertex) (w ww : Bool) (ht : t.type = Operation.op_echo) :
    create_cfg (k + 1) t w ww = create_full_cfg k t := by
  unfold create_cfg
  rw [ht]

theorem son_mem_subtree (t v : Vertex) (h : v ∈ t.sons) : v ∈ t.subtree := by
  cases t with
  | mk i ty e sons =>
    have hv : ∀ (l : List Vertex), v ∈ l → v ∈ Vertex.subtree_list l := by
      intro l
      induction l with
      | nil => intro hl; cases hl
      | cons u us ih =>
        intro hl
        unfold Vertex.subtree_list
        rcases List.mem_cons.mp hl with e1 | e1
        · subst e1
          apply List.mem_append_left
          cases v with
          | mk j ty2 e2 s2 =>
            unfold Vertex.subtree
            exact List.mem_cons_self _ _
        · exact List.mem_append_right _ (ih e1)
    unfold Vertex.subtree
    exact List.mem_cons_of_mem _ (hv sons h)

theorem collect_echo (k : Nat) (t xv : Vertex) (w r : Node) (b ct : Bool) (s s5 : CFG)
    (ht : t.type = Operation.op_echo) (hs : t.sons = [xv])
    (h : collect_vars_usage (k + 1) t w r b s = Except.ok (ct, s5)) :
    collect_vars_usage k xv w r b s = Except.ok (ct, s5) := by
  unfold collect_vars_usage at h
  simp only [ht, hs, if_false, for_each_flag, bind_run, pure_run, Bool.false_eq_true,
    reduceCtorEq] at h
  cases e : collect_vars_usage k xv w r b s with
  | error err =>
    rw [e] at h
    cases h
  | ok p =>
    rw [e] at h
    obtain ⟨b', s''⟩ := p
    cases h
    rfl

/-- A statement of the generic kind `echo` whose only operand is the variable `x`: the
start of its graph leads to the reads node, which carries a plain `Read` of `x`, and the
only usage attached to its nodes is that occurrence. -/
theorem echo_reads (d : CFGData) (x : VarPtr) (t xv : Vertex)
    (ht : t.type = Operation.op_echo) (hs : t.sons = [xv])
    (hxt : xv.type = Operation.op_var) (hxs : xv.sons = []) (hx : d.get_var_id xv = some x)
    (k : Nat) : ReadsFirst d x t (create_cfg k t false false) := by
  intro s a b s' h hd hsp
  cases k with
  | zero => cases h
  | succ k =>
    rw [create_cfg_echo k t _ _ ht] at h
    obtain ⟨s4, ct, s5, s6, s7, d4, v4, hnil, h5, h6, h7, hst, hg, ea, eb, n1, n2⟩ :=
      full_cfg_run k t s a b s' h
    cases k with
    | zero => cases h5
    | succ k =>
      have h5' := collect_echo k t xv _ _ _ _ _ _ ht hs h5
      cases k with
      | zero => cases h5'
      | succ k =>
        obtain ⟨vs, hvs⟩ := Option.isSome_iff_exists.mp hsp
        obtain ⟨s5', c1, c2, c3, c4, c5⟩ := collect_var_leaf k xv (some (s.node_gen + 2))
          (s.node_gen + 3) false s4 x vs hxs hxt (by rw [d4, hd]; exact hx)
          (by unfold get_var_split; rw [v4]; exact hvs) (hnil _ (by omega) (by omega))
        rw [c1] at h5'
        cases h5'
        have u2 : s5.node_usages (s.node_gen + 2) = [] := by
          rw [c2, upd_other _ _ _ _ (by omega)]
          exact hnil _ (by omega) (by omega)
        rw [compress_nil _ _ u2] at h6
        cases h6
        have u3 : ({ s5 with node_usages := upd s5.node_usages (s.node_gen + 2) [] } :
            CFG).node_usages (s.node_gen + 3) = [s4.usage_cnt] := by
          show upd s5.node_usages (s.node_gen + 2) [] (s.node_gen + 3) = _
          rw [upd_other _ _ _ _ (by omega), c2, upd_same]
        rw [compress_single _ _ _ u3] at h7
        cases h7
        have hnu : ∀ n, s.node_gen ≤ n → n < s.node_gen + 4 →
            s'.node_usages n = if n = s.node_gen + 3 then [s4.usage_cnt] else [] := by
          intro n hn1 hn2
          rw [hst.1]
          show upd (upd s5.node_usages (s.node_gen + 2) []) (s.node_gen + 3) [s4.usage_cnt] n = _
          by_cases e3 : n = s.node_gen + 3
          · rw [if_pos e3, e3, upd_same]
          · rw [if_neg e3, upd_other _ _ _ _ e3]
            by_cases e2 : n = s.node_gen + 2
            · rw [e2, upd_same]
            · rw [upd_other _ _ _ _ e2, c2, upd_other _ _ _ _ e3]
              exact hnil n hn1 hn2
        have hud : s'.usage_data s4.usage_cnt = some
            { id := (vs.usage_gen.length : Int), type := UsageType.usage_read_t, v := xv,
              node := some (s.node_gen + 3) } := by
          rw [hst.2.1]
          exact c3
        have hdat : s'.data = d := by
          rw [hst.2.2.1]
          show s5.data = d
          rw [c4, d4, hd]
        constructor
        · refine ⟨s.node_gen, s.node_gen + 3, ea, Relation.ReflTransGen.single ⟨n1, ?_⟩, ?_⟩
          · rintro ⟨u, hu, _⟩
            rw [hnu _ (Nat.le_refl _) (by omega), if_neg (by omega)] at hu
            cases hu
          · refine ⟨s4.usage_cnt, ?_, _, hud, ?_, rfl, rfl⟩
            · rw [hnu _ (by omega) (by omega), if_pos rfl]
              exact List.mem_singleton.mpr rfl
            · rw [hdat]
              exact hx
        · intro n hn1 hn2 u hu ud eud
          rw [hg] at hn2
          rw [hnu n hn1 hn2] at hu
          split at hu
          · rw [List.mem_singleton.mp hu, hud] at eud
            cases eud
            exact son_mem_subtree t xv (by rw [hs]; exact List.mem_singleton.mpr rfl)
          · cases hu

/-- The rule of a variable: one new node, start and finish; a usage attached to it is a
usage of the variable. -/
theorem op_var_node (v : Vertex) (w ww : Bool) (y : VarPtr) (s sv : CFG) (r : Node × Node)
    (hy : s.data.get_var_id v = some y)
    (h : create_cfg_op_var v w ww s = Except.ok (r, sv)) :
    r = (some s.node_gen, some s.node_gen) ∧ sv.node_gen = s.node_gen + 1 ∧
      sv.data = s.data ∧ ∀ u ∈ sv.node_usages s.node_gen, usage_var sv u = some y := by
  cases hs : get_var_split s y with
  | some vs =>
    obtain ⟨e1, e2, e3, e4⟩ := op_var_usage v w ww y vs s sv r hy hs h
    have hd : sv.data = s.data := (built_op_var v w ww s r sv h).1.data
    exact ⟨e1, e2, hd, fun u hu => by
      rw [e3] at hu
      rw [List.mem_singleton.mp hu]
      unfold usage_var
      rw [e4, hd]
      exact hy⟩
  | none =>
    unfold get_var_split at hs
    simp only [create_cfg_op_var, bind_run, new_node, new_usage, get_var_split, hy, hs,
      pure_run, add_usage] at h
    cases h
    refine ⟨rfl, rfl, rfl, fun u hu => ?_⟩
    have : u ∈ upd s.node_usages s.node_gen [] s.node_gen := hu
    rw [upd_same] at this
    cases this

theorem usage_var_eq {s t : CFG} (h1 : t.usage_data = s.usage_data) (h2 : t.data = s.data)
    (u : Nat) : usage_var t u = usage_var s u := by
  unfold usage_var
  rw [h1, h2]

/-- A condition that is a variable other than `x`: no usage of `x` is attached to its
three nodes, and the start has an edge to the false exit. -/
theorem cond_var_free (d : CFGData) (x : VarPtr) (c : Vertex) (y : VarPtr)
    (ht : c.type = Operation.op_var) (hy : d.get_var_id c = some y) (hne : y ≠ x) (k : Nat) :
    CondFree d x (create_condition_cfg k c) := by
  intro s a t f s' h hd _
  cases k with
  | zero => cases h
  | succ k =>
    unfold create_condition_cfg at h
    rw [ht] at h
    simp only [bind_ok_iff, Prod.exists] at h
    obtain ⟨a0, t0, f0, s3, k2, _, s4, k3, k4⟩ := h
    cases k4
    simp only [create_condition_cfg_default, bind_ok_iff, Prod.exists] at k2
    obtain ⟨rs, rf, t1, m1, rt, hq1_1⟩ := k2
    obtain ⟨t2, m2, rfa, t3, m3, hq1_2⟩ := hq1_1
    obtain ⟨_, t4, m4, _, t5, hq1_3⟩ := hq1_2
    obtain ⟨m5, m6⟩ := hq1_3
    cases m6
    obtain ⟨k', rfl⟩ := create_cfg_fuel m1
    obtain ⟨sv, hv, hm⟩ := op_var_run k' c _ _ _ _ _ _ ht m1
    obtain ⟨er, gv, dv, uv⟩ := op_var_node c false false y s sv _ (by rw [hd]; exact hy) hv
    cases er
    have S1 : SameStore sv t1 := add_subtree_store hm
    have g1 : t1.node_gen = s.node_gen + 1 := by rw [S1.2.2.2.1, gv]
    have S5 : SameStore t3 s' :=
      sameStore_trans (add_edge_store m4) (sameStore_trans (add_edge_store m5)
        (add_subtree_store k3))
    have hnext : s.node_gen + 2 ∈ s'.node_next s.node_gen := by
      rw [(add_subtree_next k3).1]
      cases m2
      cases m3
      have := add_edge_mem (a := s.node_gen) (b := t1.node_gen + 1) m5
      rw [g1] at this
      exact this
    cases m2
    cases m3
    have hgen : s'.node_gen = s.node_gen + 3 := by
      rw [S5.2.2.2.1]
      show t1.node_gen + 1 + 1 = _
      omega
    have hnu : ∀ n, s'.node_usages n =
        upd (upd t1.node_usages t1.node_gen []) (t1.node_gen + 1) [] n := by
      intro n
      rw [S5.1]
    have hus : ∀ u, usage_var s' u = usage_var sv u := by
      intro u
      exact (usage_var_eq S5.2.1 S5.2.2.1 u).trans (usage_var_eq S1.2.1 S1.2.2.1 u)
    constructor
    · intro n hn1 hn2 u hu
      rw [hnu n] at hu
      by_cases e2 : n = t1.node_gen + 1
      · rw [e2, upd_same] at hu
        cases hu
      · rw [upd_other _ _ _ _ e2] at hu
        by_cases e1 : n = t1.node_gen
        · rw [e1, upd_same] at hu
          cases hu
        · rw [upd_other _ _ _ _ e1, S1.1] at hu
          have hn : n = s.node_gen := by omega
          rw [hn] at hu
          rw [hus u, uv u hu]
          intro e
          exact hne (Option.some.inj e)
    · exact ⟨s.node_gen, s.node_gen + 2, rfl, by rw [g1], Relation.ReflTransGen.single hnext⟩

theorem passes_free_free {d : CFGData} {x : VarPtr} {m : M (Node × Node)}
    (h : PassesFree d x m) : Free d x m :=
  fun s r s' hr hd hs => (h s r.1 r.2 s' hr hd hs).1

theorem param_list_passes (d : CFGData) (x : VarPtr) (t : Vertex)
    (ht : t.type = Operation.op_func_param_list) (hs : t.sons = []) (k : Nat) :
    PassesFree d x (create_cfg k t false false) := by
  cases k with
  | zero => intro s a b s' h; cases h
  | succ k =>
    rw [create_cfg_param_list k t _ _ ht]
    exact full_leaf_passes d x t hs (by rw [ht]; decide) (by rw [ht]; decide)
      (by rw [ht]; decide) k

theorem int_const_passes (d : CFGData) (x : VarPtr) (t : Vertex)
    (ht : t.type = Operation.op_int_const) (hs : t.sons = []) (k : Nat) :
    PassesFree d x (create_cfg k t false false) := by
  cases k with
  | zero => intro s a b s' h; cases h
  | succ k =>
    rw [create_cfg_int_const k t _ _ ht]
    exact full_leaf_passes d x t hs (by rw [ht]; decide) (by rw [ht]; decide)
      (by rw [ht]; decide) k

/-- Witness of C3: the function `function f() { if ($c) { $x = 1; } echo $x; }` of the
specification, built with fuel 30: the search for `$x` from the entry returns a plain
read of `$x` that is an occurrence in `echo $x`, and the statements around the search
record it as possibly uninitialised: its vertex is appended to `uninited_vars` and the
uninitialised flag of `$x` is set. -/
theorem uninited_through_if_witness :
    run_result (process_function_build 30 { data := mk_data sample_if_without_else ["c", "x"] }) =
      some [0, 1] ∧
    (built_state 30 sample_if_without_else ["c", "x"]).node_gen < 30 ∧
    ∃ start a ud G',
      (built_state 30 sample_if_without_else ["c", "x"]).current_start = some start ∧
      search_uninited 30 start 1
        { built_state 30 sample_if_without_else ["c", "x"] with
          cur_dfs_mark := (built_state 30 sample_if_without_else ["c", "x"]).cur_dfs_mark + 1 } =
        Except.ok (some a, G') ∧
      (built_state 30 sample_if_without_else ["c", "x"]).usage_data a = some ud ∧
      plain_read (built_state 30 sample_if_without_else ["c", "x"]) 1 a ∧
      ud.v ∈ (mk_op 9 Operation.op_echo [mk_var 10 1]).subtree ∧
      ∃ G'', process_var_uninited 30 1 (built_state 30 sample_if_without_else ["c", "x"]) =
          Except.ok ((), G'') ∧
        G''.data = (built_state 30 sample_if_without_else ["c", "x"]).data.uninited ud.v ∧
        G''.data.uninited_vars =
          (built_state 30 sample_if_without_else ["c", "x"]).data.uninited_vars ++ [ud.v] ∧
        G''.data.vars.get? 1 =
          some { name := "x", type := VarType.var_local_t, uninited_flag := true } := by
  have h1 : run_result (process_function_build 30
      { data := mk_data sample_if_without_else ["c", "x"] }) = some [0, 1] := by decide!
  have h2 : (built_state 30 sample_if_without_else ["c", "x"]).node_gen < 30 := by decide!
  obtain ⟨start, a, ud, G', q1, q2, q3, q4, q5, q6, _⟩ :=
    uninited_through_if 30 (mk_data sample_if_without_else ["c", "x"]) 1
      { name := "x", type := VarType.var_local_t }
      (mk_op 1 Operation.op_func_param_list [])
      (mk_op 2 Operation.op_seq
        [mk_op 3 Operation.op_if
          [mk_var 4 0, mk_op 5 Operation.op_seq [mk_op 6 Operation.op_set [mk_var 7 1, mk_const 8 "1"]]],
         mk_op 9 Operation.op_echo [mk_var 10 1]])
      (mk_op 3 Operation.op_if
          [mk_var 4 0, mk_op 5 Operation.op_seq [mk_op 6 Operation.op_set [mk_var 7 1, mk_const 8 "1"]]])
      (mk_op 9 Operation.op_echo [mk_var 10 1])
      (mk_var 4 0)
      (mk_op 5 Operation.op_seq [mk_op 6 Operation.op_set [mk_var 7 1, mk_const 8 "1"]])
      (mk_op 6 Operation.op_set [mk_var 7 1, mk_const 8 "1"])
      (mk_var 7 1) (mk_const 8 "1") [0, 1]
      (built_state 30 sample_if_without_else ["c", "x"])
      rfl rfl rfl rfl rfl rfl rfl rfl rfl rfl rfl rfl rfl rfl
      (fun k => param_list_passes (mk_data sample_if_without_else ["c", "x"]) 1
        (mk_op 1 Operation.op_func_param_list []) rfl rfl k)
      (fun k => cond_var_free (mk_data sample_if_without_else ["c", "x"]) 1 (mk_var 4 0) 0 rfl rfl
        (by decide) k)
      (fun k => passes_free_free (int_const_passes (mk_data sample_if_without_else ["c", "x"]) 1
        (mk_const 8 "1") rfl rfl k))
      (fun k => echo_reads (mk_data sample_if_without_else ["c", "x"]) 1
        (mk_op 9 Operation.op_echo [mk_var 10 1]) (mk_var 10 1) rfl rfl rfl rfl rfl k)
      (by
        intro v hv hvx
        have hcases : v = mk_op 9 Operation.op_echo [mk_var 10 1] ∨ v = mk_var 10 1 := by
          simpa [Vertex.subtree, Vertex.subtree_list, mk_op, mk_var] using hv
        rcases hcases with e | e
        · rw [e] at hvx
          cases hvx
        · rw [e]
          exact ⟨rfl, by decide, by decide⟩)
      (run_eq_of_result _ _ h1) (by decide) h2
  exact ⟨h1, h2, start, a, ud, G', q1, q2, q3, q4, q5, q6⟩

/-- Counterexample to C3 as stated, in two functions whose body has the shape
`if (c) { x = e; } S`, where `$x` is a splittable local that occurs neither in `c` nor in
`e`, and `S` reads `$x`.  In `sample_write_then_read` usage 3, a plain `Read` at the
vertex 14 of `echo $x`, is attached to node 21, behind the write `$x = 2`: the search for
`$x` from the entry returns no usage, and the walk of `process_var` records nothing as
possibly uninitialised.  In `sample_superlocal_read` the search returns usage 2, the
plain `Read` at the superlocal vertex 10 of `echo $x`, and the walk of `process_var`
records nothing either: `uninited_vars` stays empty and no uninitialised flag is set. -/
theorem uninited_reads_not_recorded :
    (run_result (process_function_build 30
      { data := mk_data sample_write_then_read ["c", "x"] }) = some [0, 1] ∧
    usage_summary (built_state 30 sample_write_then_read ["c", "x"]) 3 =
      some (14, UsageType.usage_read_t, false) ∧
    (built_state 30 sample_write_then_read ["c", "x"]).node_usages 21 = [3] ∧
    (built_state 30 sample_write_then_read ["c", "x"]).current_start = some 0 ∧
    run_result (search_uninited 30 0 1
      { built_state 30 sample_write_then_read ["c", "x"] with
        cur_dfs_mark := (built_state 30 sample_write_then_read ["c", "x"]).cur_dfs_mark + 1 }) =
      some none ∧
    run_ok (process_var_walk 30 1 (built_state 30 sample_write_then_read ["c", "x"])) = true ∧
    (state_after (process_var_walk 30 1
      (built_state 30 sample_write_then_read ["c", "x"]))).data.uninited_vars.length = 0) ∧
    (run_result (process_function_build 30
      { data := mk_data sample_superlocal_read ["c", "x"] }) = some [0, 1] ∧
    usage_summary (built_state 30 sample_superlocal_read ["c", "x"]) 2 =
      some (10, UsageType.usage_read_t, false) ∧
    (built_state 30 sample_superlocal_read ["c", "x"]).current_start = some 0 ∧
    run_result (search_uninited 30 0 1
      { built_state 30 sample_superlocal_read ["c", "x"] with
        cur_dfs_mark := (built_state 30 sample_superlocal_read ["c", "x"]).cur_dfs_mark + 1 }) =
      some (some 2) ∧
    run_ok (process_var_walk 30 1 (built_state 30 sample_superlocal_read ["c", "x"])) = true ∧
    (state_after (process_var_walk 30 1
      (built_state 30 sample_superlocal_read ["c", "x"]))).data.uninited_vars.length = 0 ∧
    (state_after (process_var_walk 30 1
      (built_state 30 sample_superlocal_read ["c", "x"]))).data.vars.map
        (fun v => v.uninited_flag) = [false, false]) := by
  refine ⟨by decide!, by decide!⟩

theorem vertex_induct {P : Vertex → Prop}
    (h : ∀ i ty e sons, (∀ c ∈ sons, P c) → P (Vertex.mk i ty e sons)) (v : Vertex) : P v :=
  @Vertex.rec P (fun l => ∀ c ∈ l, P c)
    (fun i ty e sons ih => h i ty e sons ih)
    (fun c hc => absurd hc (List.not_mem_nil c))
    (fun x xs hx hxs c hc => by
      rcases List.mem_cons.mp hc with e | e
      · exact e ▸ hx
      · exact hxs c e) v

theorem mem_subtree_list (v : Vertex) (l : List Vertex) :
    v ∈ Vertex.subtree_list l ↔ ∃ c ∈ l, v ∈ c.subtree := by
  induction l with
  | nil =>
    unfold Vertex.subtree_list
    simp
  | cons x xs ih =>
    unfold Vertex.subtree_list
    rw [List.mem_append, ih]
    constructor
    · rintro (h | ⟨c, hc, h⟩)
      · exact ⟨x, List.mem_cons_self _ _, h⟩
      · exact ⟨c, List.mem_cons_of_mem _ hc, h⟩
    · rintro ⟨c, hc, h⟩
      rcases List.mem_cons.mp hc with e | e
      · exact Or.inl (e ▸ h)
      · exact Or.inr ⟨c, e, h⟩

theorem subtree_eq (t : Vertex) : t.subtree = t :: Vertex.subtree_list t.sons := by
  cases t with
  | mk i ty e sons =>
    unfold Vertex.subtree
    rfl

theorem mem_subtree_iff (v t : Vertex) :
    v ∈ t.subtree ↔ v = t ∨ ∃ c ∈ t.sons, v ∈ c.subtree := by
  rw [subtree_eq, List.mem_cons, mem_subtree_list]

theorem self_mem_subtree (t : Vertex) : t ∈ t.subtree :=
  (mem_subtree_iff t t).mpr (Or.inl rfl)

theorem subtree_trans {t u v : Vertex} (h1 : u ∈ t.subtree) (h2 : v ∈ u.subtree) :
    v ∈ t.subtree := by
  induction t using vertex_induct with
  | h i ty e sons ih =>
    rcases (mem_subtree_iff _ _).mp h1 with e1 | ⟨c, hc, h3⟩
    · exact e1 ▸ h2
    · exact (mem_subtree_iff _ _).mpr (Or.inr ⟨c, hc, ih c hc h3⟩)

theorem size_list_mem {c : Vertex} {l : List Vertex} (h : c ∈ l) :
    c.size ≤ Vertex.size_list l := by
  induction l with
  | nil => cases h
  | cons x xs ih =>
    unfold Vertex.size_list
    rcases List.mem_cons.mp h with e | e
    · subst e
      omega
    · have := ih e
      omega

theorem size_son {t c : Vertex} (h : c ∈ t.sons) : c.size < t.size := by
  cases t with
  | mk i ty e sons =>
    have h1 := size_list_mem (l := sons) h
    have h2 : (Vertex.mk i ty e sons).size = 1 + Vertex.size_list sons := by
      rw [Vertex.size]
    rw [h2]
    omega

theorem subtree_size {t v : Vertex} (h : v ∈ t.subtree) : v = t ∨ v.size < t.size := by
  induction t using vertex_induct with
  | h i ty e sons ih =>
    rcases (mem_subtree_iff _ _).mp h with e1 | ⟨c, hc, h3⟩
    · exact Or.inl e1
    · have h4 := size_son (t := Vertex.mk i ty e sons) hc
      rcases ih c hc h3 with e2 | e2
      · subst e2
        exact Or.inr h4
      · exact Or.inr (Nat.lt_trans e2 h4)

theorem subtree_antisymm {u v : Vertex} (h1 : u ∈ v.subtree) (h2 : v ∈ u.subtree) : u = v := by
  rcases subtree_size h1 with e | e
  · exact e
  · rcases subtree_size h2 with e' | e'
    · exact e'.symm
    · omega

theorem nodup_subtree_list {l : List Vertex}
    (h : ((Vertex.subtree_list l).map Vertex.id).Nodup) :
    (∀ c ∈ l, UniqueIds c) ∧
      ∀ c ∈ l, ∀ c' ∈ l, ∀ v ∈ c.subtree, ∀ v' ∈ c'.subtree, v.id = v'.id → c = c' := by
  induction l with
  | nil =>
    exact ⟨fun c hc => absurd hc (List.not_mem_nil c), fun c hc => absurd hc (List.not_mem_nil c)⟩
  | cons x xs ih =>
    unfold Vertex.subtree_list at h
    rw [List.map_append, List.nodup_append] at h
    obtain ⟨h1, h2, h3⟩ := h
    obtain ⟨i1, i2⟩ := ih h2
    have hd : ∀ v ∈ x.subtree, ∀ c' ∈ xs, ∀ v' ∈ c'.subtree, v.id = v'.id → False := by
      intro v hv c' hc' v' hv' e
      refine h3 (List.mem_map_of_mem _ hv) ?_
      rw [e]
      exact List.mem_map_of_mem _ ((mem_subtree_list v' xs).mpr ⟨c', hc', hv'⟩)
    refine ⟨fun c hc => ?_, fun c hc c' hc' v hv v' hv' e => ?_⟩
    · rcases List.mem_cons.mp hc with e | e
      · exact e ▸ h1
      · exact i1 c e
    · rcases List.mem_cons.mp hc with e1 | e1
      · rcases List.mem_cons.mp hc' with e2 | e2
        · rw [e1, e2]
        · subst e1
          exact absurd e (fun e => hd v hv c' e2 v' hv' e)
      · rcases List.mem_cons.mp hc' with e2 | e2
        · subst e2
          exact absurd e.symm (fun e => hd v' hv' c e1 v hv e)
        · exact i2 c e1 c' e2 v hv v' hv' e

theorem uniqueIds_sons {t : Vertex} (h : UniqueIds t) :
    (∀ c ∈ t.sons, UniqueIds c) ∧
      ∀ c ∈ t.sons, ∀ c' ∈ t.sons, ∀ v ∈ c.subtree, ∀ v' ∈ c'.subtree, v.id = v'.id → c = c' := by
  unfold UniqueIds at h
  rw [subtree_eq, List.map_cons, List.nodup_cons] at h
  exact nodup_subtree_list h.2

theorem uniqueIds_subtree {t u : Vertex} (h : UniqueIds t) (hu : u ∈ t.subtree) : UniqueIds u := by
  induction t using vertex_induct with
  | h i ty e sons ih =>
    rcases (mem_subtree_iff _ _).mp hu with e1 | ⟨c, hc, h3⟩
    · exact e1 ▸ h
    · exact ih c hc ((uniqueIds_sons h).1 c hc) h3

/-- In a tree with unique ids, two vertices with the same id are the same vertex. -/
theorem uniqueIds_inj {t u v : Vertex} (h : UniqueIds t) (hu : u ∈ t.subtree)
    (hv : v ∈ t.subtree) (e : u.id = v.id) : u = v := by
  unfold UniqueIds at h
  obtain ⟨i, hi, e1⟩ := List.getElem_of_mem hu
  obtain ⟨j, hj, e2⟩ := List.getElem_of_mem hv
  have hi' : i < (t.subtree.map Vertex.id).length := by simpa using hi
  have hj' : j < (t.subtree.map Vertex.id).length := by simpa using hj
  have key : (t.subtree.map Vertex.id)[i] = (t.subtree.map Vertex.id)[j] := by
    simp only [List.getElem_map]
    rw [e1, e2, e]
  have : i = j := (List.Nodup.getElem_inj_iff h).mp key
  subst this
  rw [← e1, ← e2]

theorem pathUsed_mem {U : Vertex → Prop} {t v : Vertex} (h : PathUsed U t v) : v ∈ t.subtree := by
  induction h with
  | self t _ => exact self_mem_subtree t
  | down t c v _ hc _ ih => exact (mem_subtree_iff _ _).mpr (Or.inr ⟨c, hc, ih⟩)

theorem pathUsed_trans {U : Vertex → Prop} {t u v : Vertex} (h1 : PathUsed U t u)
    (h2 : PathUsed U u v) : PathUsed U t v := by
  induction h1 with
  | self t _ => exact h2
  | down t c u hU hc _ ih => exact PathUsed.down t c v hU hc (ih h2)

theorem pathUsed_mono {U V : Vertex → Prop} (h : ∀ x, U x → V x) {t v : Vertex}
    (hp : PathUsed U t v) : PathUsed V t v := by
  induction hp with
  | self t hU => exact PathUsed.self t (h t hU)
  | down t c v hU hc _ ih => exact PathUsed.down t c v (h t hU) hc ih

theorem pathUsed_of_all {U : Vertex → Prop} {w v : Vertex} (hw : ∀ x ∈ w.subtree, U x)
    (hv : v ∈ w.subtree) : PathUsed U w v := by
  induction w using vertex_induct with
  | h i ty e sons ih =>
    rcases (mem_subtree_iff _ _).mp hv with e1 | ⟨c, hc, h3⟩
    · subst e1
      exact PathUsed.self _ (hw _ (self_mem_subtree _))
    · refine PathUsed.down _ c v (hw _ (self_mem_subtree _)) hc (ih c hc (fun x hx => ?_) h3)
      exact hw x ((mem_subtree_iff _ _).mpr (Or.inr ⟨c, hc, hx⟩))

/-- In a tree with unique ids, a vertex between `t` and `v` lies on every path from `t`
down to `v`. -/
theorem pathUsed_between {U : Vertex → Prop} {t v : Vertex} (hp : PathUsed U t v) :
    UniqueIds t → ∀ u, u ∈ t.subtree → v ∈ u.subtree → U u := by
  induction hp with
  | self t hU =>
    intro _ u h1 h2
    rw [subtree_antisymm h1 h2]
    exact hU
  | down t c v hU hc hp ih =>
    intro hn u h1 h2
    rcases (mem_subtree_iff _ _).mp h1 with e1 | ⟨c', hc', h3⟩
    · rw [e1]
      exact hU
    · obtain ⟨n1, n2⟩ := uniqueIds_sons hn
      have e : c = c' := n2 c hc c' hc' v (pathUsed_mem hp) v (subtree_trans h3 h2) rfl
      subst e
      exact ih (n1 c hc) u h3 h2

theorem confirm_usage_eq (i : Nat) (ty : Operation) (e : VertexExtra) (sons : List Vertex)
    (flag : Bool) (vu : Nat → VertexUsage) :
    confirm_usage (Vertex.mk i ty e sons) flag vu =
      if !(vu i).used || (flag && !(vu i).used_rec) then
        if flag then
          confirm_usage_sons sons
            (upd (upd vu i { vu i with used := true }) i
              { (upd vu i { vu i with used := true }) i with used_rec := true })
        else upd vu i { vu i with used := true }
      else vu := by
  rw [confirm_usage]

theorem confirm_usage_sons_nil (vu : Nat → VertexUsage) : confirm_usage_sons [] vu = vu := by
  rw [confirm_usage_sons]

theorem confirm_usage_sons_cons (x : Vertex) (xs : List Vertex) (vu : Nat → VertexUsage) :
    confirm_usage_sons (x :: xs) vu = confirm_usage_sons xs (confirm_usage x true vu) := by
  rw [confirm_usage_sons]

/-- The loop over the sons, given the specification of `confirm_usage` on each son. -/
theorem confirm_sons_spec (l : List Vertex)
    (ih : ∀ c ∈ l, ∀ vu, UniqueIds c → ClosedBelow c vu →
      ConfirmSpec c true vu (confirm_usage c true vu))
    (hu : ∀ c ∈ l, UniqueIds c)
    (hd : ((Vertex.subtree_list l).map Vertex.id).Nodup) :
    ∀ vu, (∀ c ∈ l, ClosedBelow c vu) →
      ConfirmSonsSpec l vu (confirm_usage_sons l vu) := by
  induction l with
  | nil =>
    intro vu _
    rw [confirm_usage_sons_nil]
    exact ⟨fun i => by simp, fun i => by simp⟩
  | cons x xs ihl =>
    intro vu hc
    rw [confirm_usage_sons_cons]
    obtain ⟨s1, s2⟩ := ih x (List.mem_cons_self _ _) vu (hu x (List.mem_cons_self _ _))
      (hc x (List.mem_cons_self _ _))
    have hd' := hd
    unfold Vertex.subtree_list at hd'
    rw [List.map_append, List.nodup_append] at hd'
    obtain ⟨_, d2, d3⟩ := hd'
    have hc' : ∀ c ∈ xs, ClosedBelow c (confirm_usage x true vu) := by
      intro c hcx w hw hr y hy
      have hr0 : (vu w.id).used_rec = true := by
        rcases (s2 w.id).mp hr with h | ⟨_, z, hz, ez⟩
        · exact h
        · exfalso
          refine d3 (List.mem_map_of_mem _ hz) ?_
          rw [ez]
          exact List.mem_map_of_mem _ ((mem_subtree_list w xs).mpr ⟨c, hcx, hw⟩)
      obtain ⟨q1, q2⟩ := hc c (List.mem_cons_of_mem _ hcx) w hw hr0 y hy
      exact ⟨(s1 y.id).mpr (Or.inl q1), (s2 y.id).mpr (Or.inl q2)⟩
    obtain ⟨r1, r2⟩ := ihl (fun c hcx => ih c (List.mem_cons_of_mem _ hcx))
      (fun c hcx => hu c (List.mem_cons_of_mem _ hcx)) d2 (confirm_usage x true vu) hc'
    constructor
    · intro i
      rw [r1 i, s1 i]
      constructor
      · rintro ((h | h | ⟨_, y, hy, e⟩) | ⟨c, hcx, y, hy, e⟩)
        · exact Or.inl h
        · exact Or.inr ⟨x, List.mem_cons_self _ _, x, self_mem_subtree x, h.symm⟩
        · exact Or.inr ⟨x, List.mem_cons_self _ _, y, hy, e⟩
        · exact Or.inr ⟨c, List.mem_cons_of_mem _ hcx, y, hy, e⟩
      · rintro (h | ⟨c, hcx, y, hy, e⟩)
        · exact Or.inl (Or.inl h)
        · rcases List.mem_cons.mp hcx with e1 | e1
          · subst e1
            exact Or.inl (Or.inr (Or.inr ⟨rfl, y, hy, e⟩))
          · exact Or.inr ⟨c, e1, y, hy, e⟩
    · intro i
      rw [r2 i, s2 i]
      constructor
      · rintro ((h | ⟨_, y, hy, e⟩) | ⟨c, hcx, y, hy, e⟩)
        · exact Or.inl h
        · exact Or.inr ⟨x, List.mem_cons_self _ _, y, hy, e⟩
        · exact Or.inr ⟨c, List.mem_cons_of_mem _ hcx, y, hy, e⟩
      · rintro (h | ⟨c, hcx, y, hy, e⟩)
        · exact Or.inl (Or.inl h)
        · rcases List.mem_cons.mp hcx with e1 | e1
          · subst e1
            exact Or.inl (Or.inr ⟨rfl, y, hy, e⟩)
          · exact Or.inr ⟨c, e1, y, hy, e⟩

/-- The specification of `confirm_usage` on a vertex with unique ids below which the map
is closed. -/
theorem confirm_spec (v : Vertex) : ∀ (flag : Bool) (vu : Nat → VertexUsage), UniqueIds v →
    ClosedBelow v vu → ConfirmSpec v flag vu (confirm_usage v flag vu) := by
  induction v using vertex_induct with
  | h i ty e sons ih =>
    intro flag vu hu hc
    rw [confirm_usage_eq]
    have hid : (Vertex.mk i ty e sons).id = i := rfl
    unfold ConfirmSpec
    rw [hid]
    by_cases hg : (!(vu i).used || (flag && !(vu i).used_rec)) = true
    · rw [if_pos hg]
      cases flag with
      | false =>
        simp only [Bool.false_eq_true, if_false, false_and, or_false]
        constructor
        · intro j
          by_cases ej : j = i
          · subst ej
            rw [upd_same]
            simp
          · rw [upd_other _ _ _ _ ej]
            simp [ej]
        · intro j
          by_cases ej : j = i
          · subst ej
            rw [upd_same]
          · rw [upd_other _ _ _ _ ej]
      | true =>
        simp only [if_true, true_and]
        have hnd : ((Vertex.subtree_list sons).map Vertex.id).Nodup ∧
            i ∉ (Vertex.subtree_list sons).map Vertex.id := by
          have := hu
          unfold UniqueIds at this
          rw [subtree_eq, List.map_cons, List.nodup_cons] at this
          exact ⟨this.2, this.1⟩
        have hsons := uniqueIds_sons hu
        have hne : ∀ c ∈ sons, ∀ w ∈ c.subtree, w.id ≠ i := by
          intro c hcs w hw e1
          refine hnd.2 ?_
          rw [← e1]
          exact List.mem_map_of_mem _ ((mem_subtree_list w sons).mpr ⟨c, hcs, hw⟩)
        have hc1 : ∀ c ∈ sons, ClosedBelow c
            (upd (upd vu i { vu i with used := true }) i
              { (upd vu i { vu i with used := true }) i with used_rec := true }) := by
          intro c hcs w hw hr y hy
          rw [upd_other _ _ _ _ (hne c hcs w hw), upd_other _ _ _ _ (hne c hcs w hw)] at hr
          have hwm : w ∈ (Vertex.mk i ty e sons).subtree :=
            (mem_subtree_iff _ _).mpr (Or.inr ⟨c, hcs, hw⟩)
          obtain ⟨q1, q2⟩ := hc w hwm hr y hy
          have hyne := hne c hcs y (subtree_trans hw hy)
          rw [upd_other _ _ _ _ hyne, upd_other _ _ _ _ hyne]
          exact ⟨q1, q2⟩
        obtain ⟨r1, r2⟩ := confirm_sons_spec sons (fun c hcs vu' h1 h2 => ih c hcs true vu' h1 h2)
          hsons.1 hnd.1 _ hc1
        constructor
        · intro j
          rw [r1 j]
          by_cases ej : j = i
          · subst ej
            rw [upd_same]
            simp [upd_same]
          · rw [upd_other _ _ _ _ ej, upd_other _ _ _ _ ej]
            constructor
            · rintro (h | ⟨c, hcs, y, hy, e1⟩)
              · exact Or.inl h
              · exact Or.inr (Or.inr ⟨y, (mem_subtree_iff _ _).mpr (Or.inr ⟨c, hcs, hy⟩), e1⟩)
            · rintro (h | h | ⟨y, hy, e1⟩)
              · exact Or.inl h
              · exact absurd h ej
              · rcases (mem_subtree_iff _ _).mp hy with e2 | ⟨c, hcs, h3⟩
                · subst e2
                  exact absurd e1.symm ej
                · exact Or.inr ⟨c, hcs, y, h3, e1⟩
        · intro j
          rw [r2 j]
          by_cases ej : j = i
          · subst ej
            rw [upd_same]
            simp only [true_or, true_iff]
            exact Or.inr ⟨_, self_mem_subtree _, rfl⟩
          · rw [upd_other _ _ _ _ ej, upd_other _ _ _ _ ej]
            constructor
            · rintro (h | ⟨c, hcs, y, hy, e1⟩)
              · exact Or.inl h
              · exact Or.inr ⟨y, (mem_subtree_iff _ _).mpr (Or.inr ⟨c, hcs, hy⟩), e1⟩
            · rintro (h | ⟨y, hy, e1⟩)
              · exact Or.inl h
              · rcases (mem_subtree_iff _ _).mp hy with e2 | ⟨c, hcs, h3⟩
                · subst e2
                  exact absurd e1.symm ej
                · exact Or.inr ⟨c, hcs, y, h3, e1⟩
    · rw [if_neg hg]
      have hg1 : (vu i).used = true ∧ (flag = true → (vu i).used_rec = true) := by
        cases h1 : (vu i).used <;> cases h2 : (vu i).used_rec <;> cases flag <;>
          simp [h1, h2] at hg ⊢
      constructor
      · intro j
        constructor
        · exact fun h => Or.inl h
        · rintro (h | h | ⟨hf, y, hy, e1⟩)
          · exact h
          · rw [h]
            exact hg1.1
          · rw [← e1]
            exact (hc _ (self_mem_subtree _) (hg1.2 hf) y hy).1
      · intro j
        constructor
        · exact fun h => Or.inl h
        · rintro (h | ⟨hf, y, hy, e1⟩)
          · exact h
          · rw [← e1]
            exact (hc _ (self_mem_subtree _) (hg1.2 hf) y hy).2

theorem same_but_walk_refl (s : CFG) : same_but_walk s s := rfl

theorem same_but_walk_trans {s s1 s2 : CFG} (h1 : same_but_walk s s1)
    (h2 : same_but_walk s1 s2) : same_but_walk s s2 := by
  unfold same_but_walk at *
  cases s; cases s1; cases s2
  simp only [CFG.mk.injEq] at h1 h2 ⊢
  obtain ⟨a1, a2, a3, a4, a5, hq1_1⟩ := h1
  obtain ⟨a6, a7, a8, a9, a10, hq1_2⟩ := hq1_1
  obtain ⟨a11, a12, a13, a14, a15, hq1_3⟩ := hq1_2
  obtain ⟨a16, a17⟩ := hq1_3
  obtain ⟨b1, b2, b3, b4, b5, hq2_1⟩ := h2
  obtain ⟨b6, b7, b8, b9, b10, hq2_2⟩ := hq2_1
  obtain ⟨b11, b12, b13, b14, b15, hq2_3⟩ := hq2_2
  obtain ⟨b16, b17⟩ := hq2_3
  subst a1 a2 a3 a4 a5 a6 a8 a9 a11 a12 a13 a14 a15 a16 a17
  subst b1 b2 b3 b4 b5 b6 b8 b9 b11 b12 b13 b14 b15 b16 b17
  simp

theorem same_but_walk_fields {s t : CFG} (h : same_but_walk s t) :
    t.node_next = s.node_next ∧ t.node_subtrees = s.node_subtrees ∧
      t.cur_dfs_mark = s.cur_dfs_mark ∧ t.node_gen = s.node_gen ∧
      t.current_start = s.current_start ∧ t.data = s.data ∧ t.node_prev = s.node_prev := by
  unfold same_but_walk at h
  rw [h]
  exact ⟨rfl, rfl, rfl, rfl, rfl, rfl, rfl⟩

theorem reach_congr {s t : CFG} (h : t.node_next = s.node_next) (a b : Nat) :
    Reach t a b ↔ Reach s a b := by
  unfold Reach
  rw [h]

/-- The loop of `calc_used` over the markers of a node, for markers of vertices of `T`. -/
theorem confirm_subtrees_spec (T : Vertex) (hT : UniqueIds T) (l : List SubTreeData) :
    ∀ vu, (∀ mk ∈ l, mk.v ∈ T.subtree) → ClosedBelow T vu →
      ClosedBelow T (confirm_subtrees l vu) ∧
        ∀ i, ((confirm_subtrees l vu) i).used = true ↔
          ((vu i).used = true ∨ ∃ mk ∈ l, covers mk i) := by
  induction l with
  | nil =>
    intro vu _ hc
    unfold confirm_subtrees
    exact ⟨hc, fun i => by simp⟩
  | cons m ms ih =>
    intro vu hl hc
    unfold confirm_subtrees
    have hm := hl m (List.mem_cons_self _ _)
    have hcm : ClosedBelow m.v vu :=
      fun w hw hr x hx => hc w (subtree_trans hm hw) hr x hx
    obtain ⟨s1, s2⟩ := confirm_spec m.v m.recursive_flag vu (uniqueIds_subtree hT hm) hcm
    have hc1 : ClosedBelow T (confirm_usage m.v m.recursive_flag vu) := by
      intro w hw hr x hx
      rcases (s2 w.id).mp hr with h | ⟨hf, y, hy, e⟩
      · obtain ⟨q1, q2⟩ := hc w hw h x hx
        exact ⟨(s1 x.id).mpr (Or.inl q1), (s2 x.id).mpr (Or.inl q2)⟩
      · have e2 : y = w := uniqueIds_inj hT (subtree_trans hm hy) hw e
        subst e2
        have hx' := subtree_trans hy hx
        exact ⟨(s1 x.id).mpr (Or.inr (Or.inr ⟨hf, x, hx', rfl⟩)),
          (s2 x.id).mpr (Or.inr ⟨hf, x, hx', rfl⟩)⟩
    obtain ⟨r1, r2⟩ := ih _ (fun mk hmk => hl mk (List.mem_cons_of_mem _ hmk)) hc1
    refine ⟨r1, fun i => ?_⟩
    rw [r2 i, s1 i]
    constructor
    · rintro ((h | h | h) | ⟨mk, hmk, h⟩)
      · exact Or.inl h
      · exact Or.inr ⟨m, List.mem_cons_self _ _, Or.inl h.symm⟩
      · exact Or.inr ⟨m, List.mem_cons_self _ _, Or.inr h⟩
      · exact Or.inr ⟨mk, List.mem_cons_of_mem _ hmk, h⟩
    · rintro (h | ⟨mk, hmk, h⟩)
      · exact Or.inl (Or.inl h)
      · rcases List.mem_cons.mp hmk with e | e
        · subst e
          rcases h with h | h
          · exact Or.inl (Or.inr (Or.inl h.symm))
          · exact Or.inl (Or.inr (Or.inr h))
        · exact Or.inr ⟨mk, e, h⟩

theorem calc_used_next_spec (T : Vertex) (N fuel : Nat) (walk : Nat → M Unit)
    (ih : ∀ v s, (∀ n, n < N → ∀ m, m ∈ s.node_next n → m < N) → v < N →
      s.node_was v ≠ s.cur_dfs_mark → unvisited s N < fuel → ClosedBelow T s.vertex_usage →
      (∀ n, Reach s v n → ∀ mk ∈ s.node_subtrees n, mk.v ∈ T.subtree) →
      ∃ s', walk v s = Except.ok ((), s') ∧ CalcPost T s v s')
    (l : List Nat) :
    ∀ s, (∀ n, n < N → ∀ m, m ∈ s.node_next n → m < N) → (∀ i ∈ l, i < N) →
      unvisited s N < fuel → ClosedBelow T s.vertex_usage →
      (∀ i ∈ l, ∀ n, Reach s i n → ∀ mk ∈ s.node_subtrees n, mk.v ∈ T.subtree) →
      ∃ s', calc_used_next walk l s = Except.ok ((), s') ∧ CalcLoopPost T s l s' := by
  induction l with
  | nil =>
    intro s _ _ _ hc _
    refine ⟨s, rfl, same_but_walk_refl s, fun _ h => h, ?_, ?_, ?_, hc, ?_⟩
    · intro j hj
      cases hj
    · intro n h1 h2
      exact absurd h2 h1
    · intro n h1 h2
      exact absurd h2 h1
    · intro i
      constructor
      · exact fun h => Or.inl h
      · rintro (h | ⟨n, h1, h2, _⟩)
        · exact h
        · exact absurd h2 h1
  | cons i rest ihl =>
    intro s hfin hl hf hc hg
    unfold calc_used_next
    simp only [bind_run, get_state_run]
    have hl' : ∀ j ∈ rest, j < N := fun j hj => hl j (List.mem_cons_of_mem _ hj)
    by_cases hw : s.node_was i ≠ s.cur_dfs_mark
    · rw [if_pos hw]
      obtain ⟨s1, h1, p1⟩ := ih i s hfin (hl i (List.mem_cons_self _ _)) hw hf hc
        (hg i (List.mem_cons_self _ _))
      obtain ⟨e1, e2, e3, _⟩ := same_but_walk_fields p1.frame
      have hfin1 : ∀ n, n < N → ∀ m, m ∈ s1.node_next n → m < N := by
        rw [e1]
        exact hfin
      have hf1 : unvisited s1 N < fuel :=
        Nat.lt_of_le_of_lt (unvisited_mono N e3 p1.grow) hf
      have hg1 : ∀ j ∈ rest, ∀ n, Reach s1 j n → ∀ mk ∈ s1.node_subtrees n, mk.v ∈ T.subtree := by
        intro j hj n hn
        rw [e2]
        exact hg j (List.mem_cons_of_mem _ hj) n ((reach_congr e1 j n).mp hn)
      obtain ⟨s2, h2, p2⟩ := ihl s1 hfin1 hl' hf1 p1.cb hg1
      rw [h1]
      simp only []
      rw [h2]
      refine ⟨s2, rfl, same_but_walk_trans p1.frame p2.frame, ?_, ?_, ?_, ?_, p2.cb, ?_⟩
      · intro n hn
        have := p2.grow n (by rw [e3]; exact p1.grow n hn)
        rw [e3] at this
        exact this
      · intro j hj
        rcases List.mem_cons.mp hj with e | hj'
        · subst e
          have := p2.grow j (by rw [e3]; exact p1.visited)
          rw [e3] at this
          exact this
        · have := p2.visited j hj'
          rw [e3] at this
          exact this
      · intro n hn1 hn2 m hm
        by_cases hm1 : s1.node_was n = s.cur_dfs_mark
        · have := p2.grow m (by rw [e3]; exact p1.closed n hn1 hm1 m hm)
          rw [e3] at this
          exact this
        · have := p2.closed n (by rw [e3]; exact hm1) (by rw [e3]; exact hn2) m
            (by rw [e1]; exact hm)
          rw [e3] at this
          exact this
      · intro n hn1 hn2
        by_cases hm1 : s1.node_was n = s.cur_dfs_mark
        · exact ⟨i, List.mem_cons_self _ _, p1.sound n hn1 hm1⟩
        · obtain ⟨j, hj, hr⟩ := p2.sound n (by rw [e3]; exact hm1) (by rw [e3]; exact hn2)
          exact ⟨j, List.mem_cons_of_mem _ hj, (reach_congr e1 j n).mp hr⟩
      · intro k
        rw [p2.used k, p1.used k, e3, e2]
        constructor
        · rintro ((h | ⟨n, a1, a2, a3⟩) | ⟨n, a1, a2, a3⟩)
          · exact Or.inl h
          · refine Or.inr ⟨n, a1, ?_, a3⟩
            have := p2.grow n (by rw [e3]; exact a2)
            rw [e3] at this
            exact this
          · exact Or.inr ⟨n, fun c => a1 (p1.grow n c), a2, a3⟩
        · rintro (h | ⟨n, a1, a2, a3⟩)
          · exact Or.inl (Or.inl h)
          · by_cases hm1 : s1.node_was n = s.cur_dfs_mark
            · exact Or.inl (Or.inr ⟨n, a1, hm1, a3⟩)
            · exact Or.inr ⟨n, hm1, a2, a3⟩
    · rw [if_neg hw]
      have hw' : s.node_was i = s.cur_dfs_mark := by
        by_contra c
        exact hw c
      obtain ⟨s2, h2, p2⟩ := ihl s hfin hl' hf hc
        (fun j hj => hg j (List.mem_cons_of_mem _ hj))
      simp only [pure_run]
      rw [h2]
      refine ⟨s2, rfl, p2.frame, p2.grow, ?_, p2.closed, ?_, p2.cb, p2.used⟩
      · intro j hj
        rcases List.mem_cons.mp hj with e | hj'
        · subst e
          exact p2.grow j hw'
        · exact p2.visited j hj'
      · intro n hn1 hn2
        obtain ⟨j, hj, hr⟩ := p2.sound n hn1 hn2
        exact ⟨j, List.mem_cons_of_mem _ hj, hr⟩

theorem calc_used_spec (T : Vertex) (hT : UniqueIds T) (N : Nat) (fuel : Nat) :
    ∀ v s, (∀ n, n < N → ∀ m, m ∈ s.node_next n → m < N) → v < N →
      s.node_was v ≠ s.cur_dfs_mark → unvisited s N < fuel → ClosedBelow T s.vertex_usage →
      (∀ n, Reach s v n → ∀ mk ∈ s.node_subtrees n, mk.v ∈ T.subtree) →
      ∃ s', calc_used fuel v s = Except.ok ((), s') ∧ CalcPost T s v s' := by
  induction fuel with
  | zero =>
    intro v s _ _ _ hf
    exact absurd hf (Nat.not_lt_zero _)
  | succ fuel ih =>
    intro v s hfin hv hw hf hc hg
    obtain ⟨c1, c2⟩ := confirm_subtrees_spec T hT (s.node_subtrees v) s.vertex_usage
      (hg v Relation.ReflTransGen.refl) hc
    have hf0 : unvisited { s with node_was := upd s.node_was v s.cur_dfs_mark } N < fuel := by
      have := unvisited_mark N v hv hw
      omega
    have gr0 : ∀ n, s.node_was n = s.cur_dfs_mark →
        upd s.node_was v s.cur_dfs_mark n = s.cur_dfs_mark := by
      intro n hn
      by_cases e : n = v
      · simp [upd, e]
      · simp [upd, e, hn]
    obtain ⟨s', hl, pl⟩ := calc_used_next_spec T N fuel (calc_used fuel) ih (s.node_next v)
      { s with node_was := upd s.node_was v s.cur_dfs_mark,
               vertex_usage := confirm_subtrees (s.node_subtrees v) s.vertex_usage }
      hfin (fun i hi => hfin v hv i hi) hf0 c1
      (fun i hi n hn => hg n (Relation.ReflTransGen.head hi hn))
    refine ⟨s', ?_, ?_⟩
    · unfold calc_used
      simp only [bind_run, modify_state_run, get_state_run]
      exact hl
    · have fr0 : same_but_walk s
          { s with node_was := upd s.node_was v s.cur_dfs_mark,
                   vertex_usage := confirm_subtrees (s.node_subtrees v) s.vertex_usage } := rfl
      refine ⟨same_but_walk_trans fr0 pl.frame,
        fun n hn => pl.grow n (gr0 n hn), pl.grow v (by simp [upd]), ?_, ?_, pl.cb, ?_⟩
      · intro n hn1 hn2 m hm
        by_cases e : n = v
        · subst e
          exact pl.visited m hm
        · have hn1' : upd s.node_was v s.cur_dfs_mark n ≠ s.cur_dfs_mark := by
            simpa [upd, e] using hn1
          exact pl.closed n hn1' hn2 m hm
      · intro n hn1 hn2
        by_cases e : n = v
        · subst e
          exact Relation.ReflTransGen.refl
        · have hn1' : upd s.node_was v s.cur_dfs_mark n ≠ s.cur_dfs_mark := by
            simpa [upd, e] using hn1
          obtain ⟨j, hj, hr⟩ := pl.sound n hn1' hn2
          exact Relation.ReflTransGen.head hj hr
      · intro k
        rw [pl.used k]
        show ((confirm_subtrees (s.node_subtrees v) s.vertex_usage k).used = true ∨
          ∃ n, upd s.node_was v s.cur_dfs_mark n ≠ s.cur_dfs_mark ∧
            s'.node_was n = s.cur_dfs_mark ∧ ∃ mk ∈ s.node_subtrees n, covers mk k) ↔ _
        rw [c2 k]
        constructor
        · rintro ((h | h) | ⟨n, a1, a2, a3⟩)
          · exact Or.inl h
          · exact Or.inr ⟨v, hw, pl.grow v (by simp [upd]), h⟩
          · refine Or.inr ⟨n, fun c => a1 (gr0 n c), a2, a3⟩
        · rintro (h | ⟨n, a1, a2, a3⟩)
          · exact Or.inl (Or.inl h)
          · by_cases e : n = v
            · subst e
              exact Or.inl (Or.inr a3)
            · refine Or.inr ⟨n, ?_, a2, a3⟩
              simpa [upd, e] using a1

/-- The forward walk from the entry of a graph with nodes below `N`, none of them visited,
with fuel above `N`, when the markers on the reachable nodes are markers of vertices of
a tree `T` with unique ids below which the confirmation map is closed: the walk returns,
changes the visit marks and the confirmation map only, and afterwards a vertex is
confirmed exactly when it was before or a marker on a node reachable from the entry
covers it. -/
theorem calc_used_reach (T : Vertex) (hT : UniqueIds T) (N fuel entry : Nat) (s : CFG)
    (hfin : ∀ n, n < N → ∀ m, m ∈ s.node_next n → m < N) (he : entry < N) (hfuel : N < fuel)
    (hfresh : ∀ n, n < N → s.node_was n ≠ s.cur_dfs_mark)
    (hc : ClosedBelow T s.vertex_usage)
    (hg : ∀ n, Reach s entry n → ∀ mk ∈ s.node_subtrees n, mk.v ∈ T.subtree) :
    ∃ s', calc_used fuel entry s = Except.ok ((), s') ∧ same_but_walk s s' ∧
      ClosedBelow T s'.vertex_usage ∧
      ∀ i, (s'.vertex_usage i).used = true ↔
        ((s.vertex_usage i).used = true ∨
          ∃ n, Reach s entry n ∧ ∃ mk ∈ s.node_subtrees n, covers mk i) := by
  have hu : unvisited s N < fuel := by
    have : unvisited s N ≤ N := by
      unfold unvisited
      exact le_trans (List.length_filter_le _ _) (by simp)
    omega
  obtain ⟨s', h, p⟩ := calc_used_spec T hT N fuel entry s hfin he (hfresh entry he) hu hc hg
  have key : ∀ n, Reach s entry n → n < N ∧ s'.node_was n = s.cur_dfs_mark := by
    intro n hn
    induction hn with
    | refl => exact ⟨he, p.visited⟩
    | tail _ hstep ih =>
      exact ⟨hfin _ ih.1 _ hstep, p.closed _ (hfresh _ ih.1) ih.2 _ hstep⟩
  refine ⟨s', h, p.frame, p.cb, fun i => ?_⟩
  rw [p.used i]
  constructor
  · rintro (h1 | ⟨n, a1, a2, a3⟩)
    · exact Or.inl h1
    · exact Or.inr ⟨n, p.sound n a1 a2, a3⟩
  · rintro (h1 | ⟨n, a1, a3⟩)
    · exact Or.inl h1
    · obtain ⟨k1, k2⟩ := key n a1
      exact Or.inr ⟨n, hfresh n k1, k2, a3⟩

theorem collect_unused_eq (vu : Nat → VertexUsage) (i : Nat) (ty : Operation) (e : VertexExtra)
    (sons : List Vertex) :
    collect_unused vu (Vertex.mk i ty e sons) =
      if !(vu i).used then [Vertex.mk i ty e sons] else collect_unused_sons vu sons := by
  rw [collect_unused]

theorem mem_collect_unused_sons (vu : Nat → VertexUsage) (u : Vertex) (l : List Vertex) :
    u ∈ collect_unused_sons vu l ↔ ∃ c ∈ l, u ∈ collect_unused vu c := by
  induction l with
  | nil =>
    rw [collect_unused_sons]
    simp
  | cons x xs ih =>
    rw [collect_unused_sons, List.mem_append, ih]
    constructor
    · rintro (h | ⟨c, hc, h⟩)
      · exact ⟨x, List.mem_cons_self _ _, h⟩
      · exact ⟨c, List.mem_cons_of_mem _ hc, h⟩
    · rintro ⟨c, hc, h⟩
      rcases List.mem_cons.mp hc with e | e
      · exact Or.inl (e ▸ h)
      · exact Or.inr ⟨c, e, h⟩

/-- The vertices that `collect_unused` collects are unconfirmed vertices of the tree. -/
theorem collect_unused_sound (vu : Nat → VertexUsage) (t u : Vertex)
    (h : u ∈ collect_unused vu t) : u ∈ t.subtree ∧ (vu u.id).used = false := by
  induction t using vertex_induct with
  | h i ty e sons ih =>
    rw [collect_unused_eq] at h
    by_cases hu : (!(vu i).used) = true
    · rw [if_pos hu] at h
      rw [List.mem_singleton.mp h]
      refine ⟨self_mem_subtree _, ?_⟩
      show (vu i).used = false
      simpa using hu
    · rw [if_neg hu] at h
      obtain ⟨c, hc, h1⟩ := (mem_collect_unused_sons vu u sons).mp h
      obtain ⟨q1, q2⟩ := ih c hc h1
      exact ⟨(mem_subtree_iff _ _).mpr (Or.inr ⟨c, hc, q1⟩), q2⟩

/-- Every unconfirmed vertex of the tree lies in the subtree of a collected vertex. -/
theorem collect_unused_complete (vu : Nat → VertexUsage) (t v : Vertex) (hv : v ∈ t.subtree)
    (h : (vu v.id).used = false) : ∃ u ∈ collect_unused vu t, v ∈ u.subtree := by
  induction t using vertex_induct with
  | h i ty e sons ih =>
    rw [collect_unused_eq]
    by_cases hu : (!(vu i).used) = true
    · rw [if_pos hu]
      exact ⟨_, List.mem_singleton.mpr rfl, hv⟩
    · rw [if_neg hu]
      rcases (mem_subtree_iff _ _).mp hv with e1 | ⟨c, hc, h3⟩
      · exfalso
        subst e1
        apply hu
        have : (vu i).used = false := h
        simp [this]
      · obtain ⟨u, hu1, hu2⟩ := ih c hc h3
        exact ⟨u, (mem_collect_unused_sons vu u sons).mpr ⟨c, hc, hu1⟩, hu2⟩

theorem dmid_refl (K : Vertex → Prop) (s : CFG) (hw : W s) : DMid s.node_gen K [] s :=
  ⟨Nat.le_refl _, fun _ _ _ _ _ _ h1 h2 => absurd h2 (Nat.not_lt.mpr h1),
    fun x hx => absurd hx (List.not_mem_nil x), hw⟩

theorem dmid_step {g : Nat} {K : Vertex → Prop} {A A' : List Node} {s s' : CFG}
    (d : DMid g K A s) (hw : W s') (hgen : s.node_gen ≤ s'.node_gen) (hext : Fut g A s s')
    (hA : ∀ x ∈ A', x ∈ A ∨ (s.node_gen < node_code x ∧ node_code x ≤ s'.node_gen))
    (hnew : ∀ F e, Fut g A' s' F → SymEdges F → (e < g ∨ s'.node_gen ≤ e ∨ some e ∈ A') →
      ∀ n, g ≤ n → n < s'.node_gen → Reach F e n → ∀ mk ∈ s'.node_subtrees n,
        (n < s.node_gen ∧ mk ∈ s.node_subtrees n) ∨ ∃ c, K c ∧ PathUsed (Used F e) c mk.v) :
    DMid g K A' s' := by
  refine ⟨Nat.le_trans d.le hgen, ?_, ?_, hw⟩
  · intro F e hF hS he n hn1 hn2 hr mk hmk
    rcases hnew F e hF hS he n hn1 hn2 hr mk hmk with ⟨h1, h2⟩ | h
    · have hF0 : Fut g A s F := by
        obtain ⟨f1, f2, f3⟩ := hF
        obtain ⟨x1, x2, x3⟩ := hext
        refine ⟨fun m hm1 hm2 hm3 => ?_, fun k hk x hx => ?_, fun k hk m hm => ?_⟩
        · have hm4 : some m ∉ A' := by
            intro c
            rcases hA _ c with c1 | c1
            · exact hm3 c1
            · simp only [node_code_some] at c1
              omega
          rw [f1 m hm1 (by omega) hm4]
          exact x1 m hm1 hm2 hm3
        · exact f2 k (by omega) x (x2 k hk x hx)
        · exact f3 k (by omega) m (x3 k hk m hm)
      have he0 : e < g ∨ s.node_gen ≤ e ∨ some e ∈ A := by
        rcases he with c | c | c
        · exact Or.inl c
        · exact Or.inr (Or.inl (by omega))
        · rcases hA _ c with c1 | c1
          · exact Or.inr (Or.inr c1)
          · simp only [node_code_some] at c1
            exact Or.inr (Or.inl (by omega))
      exact d.q F e hF0 hS he0 n hn1 h1 hr mk h2
    · exact h
  · intro x hx
    rcases hA x hx with c | c
    · exact Nat.le_trans (d.bound x c) hgen
    · exact c.2

theorem dmid_restrict {g : Nat} {K : Vertex → Prop} {A A' : List Node} {s : CFG}
    (d : DMid g K A s) (hA : ∀ x ∈ A', x ∈ A) : DMid g K A' s :=
  dmid_step d d.w (Nat.le_refl _) ⟨fun _ _ _ _ => rfl, fun _ _ _ h => h, fun _ _ _ h => h⟩
    (fun x hx => Or.inl (hA x hx))
    (fun _ _ _ _ _ _ _ h2 _ _ hmk => Or.inl ⟨h2, hmk⟩)

theorem dmid_same {g : Nat} {K : Vertex → Prop} {A : List Node} {s s' : CFG}
    (d : DMid g K A s) (h : GraphSame s s') : DMid g K A s' := by
  obtain ⟨h1, h2, h3, h4⟩ := h
  have hw : W s' := by
    intro n m hm
    rw [h1, h3]
    rw [h2] at hm
    exact d.w n m hm
  refine dmid_step d hw (by omega) ⟨fun m _ _ _ => by rw [h3], fun n _ x hx => by rw [h4]; exact hx,
    fun n _ m hm => by rw [h2]; exact hm⟩ (fun x hx => Or.inl hx) ?_
  intro _ _ _ _ _ n _ hn2 _ mk hmk
  rw [h4] at hmk
  exact Or.inl ⟨by omega, hmk⟩

theorem w_new_node {s s' : CFG} {r : Node} (hw : W s)
    (h : new_node s = Except.ok (r, s')) : W s' := by
  unfold new_node at h
  cases h
  intro n m hm
  change m ∈ upd s.node_next s.node_gen [] n at hm
  show m < s.node_gen + 1 ∧ n ∈ upd s.node_prev s.node_gen [] m
  by_cases e : n = s.node_gen
  · rw [e, upd_same] at hm
    cases hm
  · rw [upd_other _ _ _ _ e] at hm
    obtain ⟨w1, w2⟩ := hw n m hm
    rw [upd_other _ _ _ _ (Nat.ne_of_lt w1)]
    exact ⟨Nat.lt_succ_of_lt w1, w2⟩

theorem w_add_edge {s s' : CFG} {p q : Nat} (hw : W s) (hq : q < s.node_gen)
    (h : add_edge (some p) (some q) s = Except.ok ((), s')) : W s' := by
  cases h
  intro n m hm
  change m ∈ upd s.node_next p (s.node_next p ++ [q]) n at hm
  show m < s.node_gen ∧ n ∈ upd s.node_prev q (s.node_prev q ++ [p]) m
  have key : ∀ m, m ∈ s.node_next n → m < s.node_gen ∧
      n ∈ upd s.node_prev q (s.node_prev q ++ [p]) m := by
    intro m hm
    obtain ⟨w1, w2⟩ := hw n m hm
    refine ⟨w1, ?_⟩
    by_cases e2 : m = q
    · rw [e2, upd_same]
      exact List.mem_append_left _ (e2 ▸ w2)
    · rw [upd_other _ _ _ _ e2]
      exact w2
  by_cases e : n = p
  · rw [e, upd_same] at hm
    rcases List.mem_append.mp hm with c | c
    · exact key m (e ▸ c)
    · rw [List.mem_singleton.mp c, upd_same, e]
      exact ⟨hq, List.mem_append_right _ (List.mem_singleton.mpr rfl)⟩
  · rw [upd_other _ _ _ _ e] at hm
    exact key m hm

theorem dmid_new_node {g : Nat} {K : Vertex → Prop} {A : List Node} {s s' : CFG} {r : Node}
    (d : DMid g K A s) (h : new_node s = Except.ok (r, s')) : DMid g K (r :: A) s' := by
  have hw := w_new_node d.w h
  unfold new_node at h
  cases h
  refine dmid_step d hw (Nat.le_succ _) ⟨fun m _ hm _ => ?_, fun n hn x hx => ?_, fun n hn m hm => ?_⟩
    (fun x hx => ?_) ?_
  · exact upd_other _ _ _ _ (Nat.ne_of_lt hm)
  · show x ∈ upd s.node_subtrees s.node_gen [] n
    rw [upd_other _ _ _ _ (Nat.ne_of_lt hn)]
    exact hx
  · show m ∈ upd s.node_next s.node_gen [] n
    rw [upd_other _ _ _ _ (Nat.ne_of_lt hn)]
    exact hm
  · rcases List.mem_cons.mp hx with e | e
    · subst e
      right
      simp only [node_code_some]
      exact ⟨Nat.lt_succ_self _, Nat.le_refl _⟩
    · exact Or.inl e
  · intro _ _ _ _ _ n _ hn2 _ mk hmk
    change n < s.node_gen + 1 at hn2
    change mk ∈ upd s.node_subtrees s.node_gen [] n at hmk
    by_cases e : n = s.node_gen
    · rw [e, upd_same] at hmk
      cases hmk
    · rw [upd_other _ _ _ _ e] at hmk
      exact Or.inl ⟨by omega, hmk⟩

theorem dmid_add_edge {g : Nat} {K : Vertex → Prop} {A : List Node} {s s' : CFG} {a b : Node}
    (d : DMid g K A s) (h : add_edge a b s = Except.ok ((), s')) (hb : b ∈ A) :
    DMid g K A s' := by
  cases a with
  | none =>
    cases b <;> cases h <;> exact d
  | some p =>
    cases b with
    | none =>
      cases h
      exact d
    | some q =>
      have hq : q < s.node_gen := by
        have := d.bound _ hb
        simp only [node_code_some] at this
        omega
      have hw := w_add_edge d.w hq h
      cases h
      refine dmid_step d hw (Nat.le_refl _) ⟨fun m _ _ hm => ?_, fun n _ x hx => hx,
        fun n hn m hm => ?_⟩ (fun x hx => Or.inl hx) ?_
      · have e : m ≠ q := by
          intro c
          subst c
          exact hm hb
        exact upd_other _ _ _ _ e
      · show m ∈ upd s.node_next p (s.node_next p ++ [q]) n
        by_cases e : n = p
        · rw [e, upd_same]
          exact List.mem_append_left _ (e ▸ hm)
        · rw [upd_other _ _ _ _ e]
          exact hm
      · intro _ _ _ _ _ n _ hn2 _ mk hmk
        exact Or.inl ⟨hn2, hmk⟩

theorem dmid_add_edges_from {g : Nat} {K : Vertex → Prop} {A : List Node} {b : Node}
    (hb : b ∈ A) (l : List Node) : ∀ {s s' : CFG}, DMid g K A s →
    add_edges_from l b s = Except.ok ((), s') → DMid g K A s' := by
  induction l with
  | nil =>
    intro s s' d h
    cases h
    exact d
  | cons x xs ih =>
    intro s s' d h
    simp only [add_edges_from, bind_ok_iff] at h
    obtain ⟨_, s1, h1, h2⟩ := h
    exact ih (dmid_add_edge d h1 hb) h2

theorem dmid_add_subtree {g : Nat} {K : Vertex → Prop} {A : List Node} {s s' : CFG} {a : Node}
    {m : SubTreeData} (d : DMid g K A s) (h : add_subtree a m s = Except.ok ((), s'))
    (hk : K m.v) : DMid g K A s' := by
  cases a with
  | none => cases h
  | some p =>
    cases h
    refine dmid_step d d.w (Nat.le_refl _) ⟨fun _ _ _ _ => rfl, fun n _ x hx => ?_,
      fun n _ k hk => hk⟩ (fun x hx => Or.inl hx) ?_
    · show x ∈ upd s.node_subtrees p (s.node_subtrees p ++ [m]) n
      by_cases e : n = p
      · rw [e, upd_same]
        exact List.mem_append_left _ (e ▸ hx)
      · rw [upd_other _ _ _ _ e]
        exact hx
    · intro F e hF _ _ n _ hn2 hr mk hmk
      change n < s.node_gen at hn2
      by_cases e1 : n = p
      · change mk ∈ upd s.node_subtrees p (s.node_subtrees p ++ [m]) n at hmk
        rw [e1, upd_same] at hmk
        rcases List.mem_append.mp hmk with c | c
        · exact Or.inl ⟨hn2, e1 ▸ c⟩
        · rw [List.mem_singleton.mp c]
          refine Or.inr ⟨m.v, hk, PathUsed.self _ ⟨n, hr, m, ?_, rfl⟩⟩
          apply hF.2.1 n hn2
          show m ∈ upd s.node_subtrees p (s.node_subtrees p ++ [m]) n
          rw [e1, upd_same]
          exact List.mem_append_right _ (List.mem_singleton.mpr rfl)
      · change mk ∈ upd s.node_subtrees p (s.node_subtrees p ++ [m]) n at hmk
        rw [upd_other _ _ _ _ e1] at hmk
        exact Or.inl ⟨hn2, hmk⟩

/-- The graph of a vertex `c` of `K`, built inside the construction: its start is a new
open node. -/
theorem dmid_sub {g : Nat} {K : Vertex → Prop} {A : List Node} {s s' : CFG} {a : Node}
    {c : Vertex} (d : DMid g K A s) (hm : Mid s.node_gen 0 0 s s')
    (ha : s.node_gen < node_code a ∧ node_code a ≤ s'.node_gen) (hq : W s → Q c s a s')
    (hk : K c) : DMid g K (a :: A) s' := by
  obtain ⟨hq, hw⟩ := hq d.w
  refine dmid_step d hw hm.le ⟨fun m _ h2 _ => hm.prev_below m h2, fun n hn x hx => ?_,
    fun n hn m h => ?_⟩ (fun x hx => ?_) ?_
  · rw [hm.subtrees_below n hn]
    exact hx
  · rw [hm.next_below n hn]
    exact h
  · rcases List.mem_cons.mp hx with e | e
    · exact Or.inr (e ▸ ha)
    · exact Or.inl e
  · intro F e hF hS he n hn1 hn2 hr mk hmk
    by_cases hn : n < s.node_gen
    · rw [hm.subtrees_below n hn] at hmk
      exact Or.inl ⟨hn, hmk⟩
    · right
      have hF1 : Fut s.node_gen [a] s' F := by
        refine ⟨fun m h1 h2 h3 => hF.1 m (Nat.le_trans d.le h1) h2 ?_, hF.2.1, hF.2.2⟩
        intro c1
        rcases List.mem_cons.mp c1 with c2 | c2
        · exact h3 (c2 ▸ List.mem_singleton.mpr rfl)
        · have := d.bound _ c2
          simp only [node_code_some] at this
          omega
      have he1 : e < s.node_gen ∨ s'.node_gen ≤ e ∨ some e ∈ [a] := by
        rcases he with c1 | c1 | c1
        · exact Or.inl (Nat.lt_of_lt_of_le c1 d.le)
        · exact Or.inr (Or.inl c1)
        · rcases List.mem_cons.mp c1 with c2 | c2
          · exact Or.inr (Or.inr (c2 ▸ List.mem_singleton.mpr rfl))
          · have := d.bound _ c2
            simp only [node_code_some] at this
            exact Or.inl (by omega)
      obtain ⟨c', e', p'⟩ := hq F e hF1 hS he1 n (by omega) hn2 hr mk hmk
      exact ⟨c, hk, e' ▸ p'⟩

theorem dmid_built {g : Nat} {K : Vertex → Prop} {A : List Node} {s s' : CFG} {a b : Node}
    {c : Vertex} (d : DMid g K A s) (hb : Built s (a, b) s') (hq : W s → Q c s a s')
    (hk : K c) :
    DMid g K (a :: A) s' :=
  dmid_sub d hb.1 hb.2.1 hq hk

theorem dmid_builtCond {g : Nat} {K : Vertex → Prop} {A : List Node} {s s' : CFG}
    {a b f : Node} {c : Vertex} (d : DMid g K A s) (hb : BuiltCond s (a, b, f) s')
    (hq : W s → Q c s a s') (hk : K c) : DMid g K (a :: A) s' :=
  dmid_sub d hb.1 hb.2.1 hq hk

theorem graphSame_rel : StepRel GraphSame :=
  ⟨fun _ => ⟨rfl, rfl, rfl, rfl⟩, fun h1 h2 =>
    ⟨h2.1.trans h1.1, h2.2.1.trans h1.2.1, h2.2.2.1.trans h1.2.2.1, h2.2.2.2.trans h1.2.2.2⟩⟩

theorem graphSame_store (s : CFG) (f : Nat → List Nat) (g : Nat → Option UsageData) :
    GraphSame s { s with node_usages := f, usage_data := g } :=
  ⟨rfl, rfl, rfl, rfl⟩

theorem graphSame_frames (b c e : List (List Node)) (s : CFG) :
    GraphSame s { s with break_nodes := b, continue_nodes := c, exception_nodes := e } :=
  ⟨rfl, rfl, rfl, rfl⟩

theorem graphSame_new_usage (ty : UsageType) (v : Vertex) :
    Preserves GraphSame (new_usage ty v) := by
  refine ⟨fun s a s' h => ?_⟩
  unfold new_usage at h
  cases e1 : s.data.get_var_id v with
  | none =>
    rw [e1] at h
    cases h
  | some x =>
    rw [e1] at h
    dsimp only at h
    cases e2 : get_var_split s x with
    | none =>
      rw [e2] at h
      cases h
      exact ⟨rfl, rfl, rfl, rfl⟩
    | some vs =>
      rw [e2] at h
      cases h
      exact ⟨rfl, rfl, rfl, rfl⟩

set_option maxRecDepth 10000 in
set_option linter.unreachableTactic false in
set_option linter.unusedTactic false in
theorem graphSame_try_uni (a b : Nat) : Preserves GraphSame (try_uni_usages a b) := by
  unfold try_uni_usages
  repeat (first
    | apply preserves_usage_at graphSame_rel
    | apply preserves_get_state graphSame_rel
    | apply preserves_bind graphSame_rel
    | apply preserves_pure graphSame_rel
    | apply preserves_fail
    | (apply preserves_modify_state; intro s; exact ⟨rfl, rfl, rfl, rfl⟩)
    | intro _
    | split
    | dsimp only)

set_option maxRecDepth 10000 in
set_option linter.unreachableTactic false in
set_option linter.unusedTactic false in
theorem graphSame_add_usage (n : Node) (u : UsagePtr) : Preserves GraphSame (add_usage n u) := by
  unfold add_usage
  repeat (first
    | apply preserves_node_id graphSame_rel
    | apply preserves_usage_at graphSame_rel
    | apply preserves_get_state graphSame_rel
    | apply preserves_kphp_assert graphSame_rel
    | apply preserves_bind graphSame_rel
    | apply preserves_pure graphSame_rel
    | (apply preserves_modify_state; intro s; exact graphSame_store s _ _)
    | intro _
    | split
    | dsimp only)

set_option maxRecDepth 10000 in
set_option linter.unreachableTactic false in
set_option linter.unusedTactic false in
theorem graphSame_compress (n : Node) : Preserves GraphSame (compress_usages n) := by
  unfold compress_usages
  repeat (first
    | apply stable_compress_loop graphSame_rel graphSame_try_uni graphSame_store
    | apply preserves_node_id graphSame_rel
    | apply preserves_get_state graphSame_rel
    | apply preserves_bind graphSame_rel
    | apply preserves_pure graphSame_rel
    | (apply preserves_modify_state; intro s; exact graphSame_store s _ s.usage_data)
    | intro _
    | split
    | dsimp only)

theorem graphSame_for_each_flag (f : Vertex → Bool → M Bool)
    (hf : ∀ v b, Preserves GraphSame (f v b)) (l : List Vertex) (b : Bool) :
    Preserves GraphSame (for_each_flag f l b) := by
  induction l generalizing b with
  | nil => exact preserves_pure graphSame_rel _
  | cons a l ih =>
    unfold for_each_flag
    exact preserves_bind graphSame_rel (hf _ _) fun _ => ih _

set_option maxRecDepth 10000 in
set_option linter.unreachableTactic false in
set_option linter.unusedTactic false in
theorem graphSame_collect (fuel : Nat) :
    ∀ (t : Vertex) (w r : Node) (b : Bool),
      Preserves GraphSame (collect_vars_usage fuel t w r b) := by
  induction fuel with
  | zero => intro t w r b; exact preserves_fail _
  | succ fuel ih =>
    intro t w r b
    unfold collect_vars_usage
    repeat (first
      | apply ih
      | apply graphSame_for_each_flag
      | apply graphSame_new_usage
      | apply graphSame_add_usage
      | apply preserves_bind graphSame_rel
      | apply preserves_son graphSame_rel
      | apply preserves_pure graphSame_rel
      | apply preserves_fail
      | intro _
      | dsimp only
      | split)

theorem graphSame_enter_cycle : Preserves GraphSame create_cfg_enter_cycle :=
  preserves_modify_state _ fun s => graphSame_frames _ _ _ s

theorem graphSame_begin_try : Preserves GraphSame create_cfg_begin_try :=
  preserves_modify_state _ fun s => graphSame_frames s.break_nodes s.continue_nodes _ s

theorem graphSame_register_exception (a : Node) :
    Preserves GraphSame (create_cfg_register_exception a) := by
  unfold create_cfg_register_exception
  refine preserves_bind graphSame_rel (preserves_get_state graphSame_rel) fun s => ?_
  split
  · exact preserves_pure graphSame_rel _
  · exact preserves_modify_state _ fun s => graphSame_frames s.break_nodes s.continue_nodes _ s

theorem graphSame_add_break_node (a : Node) (d : Int) :
    Preserves GraphSame (create_cfg_add_break_node a d) := by
  unfold create_cfg_add_break_node
  refine preserves_bind graphSame_rel (preserves_kphp_assert graphSame_rel _) fun _ => ?_
  refine preserves_bind graphSame_rel (preserves_get_state graphSame_rel) fun s => ?_
  refine preserves_bind graphSame_rel (preserves_kphp_assert graphSame_rel _) fun _ => ?_
  exact preserves_modify_state _ fun s => graphSame_frames _ s.continue_nodes s.exception_nodes s

theorem graphSame_add_continue_node (a : Node) (d : Int) :
    Preserves GraphSame (create_cfg_add_continue_node a d) := by
  unfold create_cfg_add_continue_node
  refine preserves_bind graphSame_rel (preserves_kphp_assert graphSame_rel _) fun _ => ?_
  refine preserves_bind graphSame_rel (preserves_get_state graphSame_rel) fun s => ?_
  refine preserves_bind graphSame_rel (preserves_kphp_assert graphSame_rel _) fun _ => ?_
  exact preserves_modify_state _ fun s => graphSame_frames s.break_nodes _ s.exception_nodes s

theorem dmid_run {g : Nat} {K : Vertex → Prop} {A : List Node} {s s' : CFG} {α : Type}
    {m : M α} {a : α} (d : DMid g K A s) (hm : Preserves GraphSame m)
    (h : m s = Except.ok (a, s')) : DMid g K A s' :=
  dmid_same d (hm.run s a s' h)

theorem dmid_exit_cycle {g : Nat} {K : Vertex → Prop} {A : List Node} {s s' : CFG}
    {c b : Node} (d : DMid g K A s) (h : create_cfg_exit_cycle c b s = Except.ok ((), s'))
    (hc : c ∈ A) (hb : b ∈ A) : DMid g K A s' := by
  unfold create_cfg_exit_cycle at h
  simp only [bind_run, get_state_run] at h
  cases e1 : s.continue_nodes.getLast? with
  | none =>
    rw [e1] at h
    cases h
  | some cs =>
    cases e2 : s.break_nodes.getLast? with
    | none =>
      rw [e1, e2] at h
      cases h
    | some bs =>
      rw [e1, e2] at h
      simp only [bind_ok_iff] at h
      obtain ⟨_, s2, h2, _, s3, h3, h4⟩ := h
      cases h4
      exact dmid_same (dmid_add_edges_from hb _ (dmid_add_edges_from hc _ d h2) h3)
        (graphSame_frames _ _ s3.exception_nodes s3)

theorem dmid_end_try {g : Nat} {K : Vertex → Prop} {A : List Node} {s s' : CFG}
    {b : Node} (d : DMid g K A s) (h : create_cfg_end_try b s = Except.ok ((), s'))
    (hb : b ∈ A) : DMid g K A s' := by
  unfold create_cfg_end_try at h
  simp only [bind_run, get_state_run] at h
  cases e1 : s.exception_nodes.getLast? with
  | none =>
    rw [e1] at h
    cases h
  | some es =>
    rw [e1] at h
    simp only [bind_ok_iff] at h
    obtain ⟨_, s2, h2, h4⟩ := h
    cases h4
    exact dmid_same (dmid_add_edges_from hb _ d h2)
      (graphSame_frames s2.break_nodes s2.continue_nodes _ s2)

theorem qOk_of_qOk3 {cfg : Vertex → Bool → Bool → M (Node × Node)} (h : QOk3 cfg)
    (w ww : Bool) : QOk fun v => cfg v w ww :=
  fun v s r s' hr => h v w ww s r s' hr

theorem son_mem {v : Vertex} {i : Nat} {s s' : CFG} {x : Vertex}
    (h : son v i s = Except.ok (x, s')) : x ∈ v.sons := by
  have h1 := (son_get h).2
  rw [List.get?_eq_getElem?] at h1
  obtain ⟨hlt, he⟩ := List.getElem?_eq_some_iff.mp h1
  exact he ▸ List.getElem_mem hlt

theorem kt_son {v : Vertex} {i : Nat} {s s' : CFG} {x : Vertex}
    (h : son v i s = Except.ok (x, s')) : Kt v x :=
  Or.inr (son_mem h)

/-- In a later state in which only the start of a graph got new incoming edges, a
reachable node of the graph is reached through the start. -/
theorem dominate {g p : Nat} {s F : CFG} (hF : Fut g [some p] s F) (hS : SymEdges F)
    (hloc : ∀ n m, g ≤ n → n < s.node_gen → m ∈ s.node_prev n → g ≤ m ∧ m < s.node_gen)
    {e n : Nat} (he : e < g ∨ s.node_gen ≤ e ∨ some e ∈ [some p]) (hr : Reach F e n)
    (hn : g ≤ n ∧ n < s.node_gen) : Reach F e p := by
  induction hr with
  | refl =>
    rcases he with c | c | c
    · omega
    · omega
    · simp only [List.mem_singleton, Option.some.injEq] at c
      rw [c]
      exact Relation.ReflTransGen.refl
  | tail hr' hstep ih =>
    rename_i k n'
    by_cases e1 : n' = p
    · rw [← e1]
      exact Relation.ReflTransGen.tail hr' hstep
    · have h1 := hS _ _ hstep
      rw [hF.1 n' hn.1 hn.2 (by simpa using e1)] at h1
      exact ih (hloc n' k hn.1 hn.2 h1)

/-- The end of a rule: the marker of the vertex goes on the start. -/
theorem q_finish {t : Vertex} {flag : Bool} {A : List Node} {s s1 s' : CFG} {a : Node}
    (d : DMid s.node_gen (Kt t) A s1) (ha : a ∈ A) (hm : Mid s.node_gen 0 0 s s1)
    (hc : s.node_gen < node_code a ∧ node_code a ≤ s1.node_gen)
    (h : add_subtree a (new_subtree t flag) s1 = Except.ok ((), s')) : Q t s a s' := by
  cases a with
  | none => cases h
  | some p =>
    cases h
    simp only [node_code_some] at hc
    refine ⟨?_, fun n m hm => d.w n m hm⟩
    intro F e hF hS he n hn1 hn2 hr mk hmk
    change n < s1.node_gen at hn2
    have hF1 : Fut s.node_gen [some p] s1 F := by
      refine ⟨hF.1, fun k hk x hx => hF.2.1 k hk x ?_, hF.2.2⟩
      show x ∈ upd s1.node_subtrees p (s1.node_subtrees p ++ [new_subtree t flag]) k
      by_cases e1 : k = p
      · rw [e1, upd_same]
        exact List.mem_append_left _ (e1 ▸ hx)
      · rw [upd_other _ _ _ _ e1]
        exact hx
    have hp : Reach F e p :=
      dominate hF1 hS hm.prev_local he hr ⟨hn1, hn2⟩
    have hU : Used F e t := by
      refine ⟨p, hp, new_subtree t flag, hF.2.1 p (by show p < s1.node_gen; omega) _ ?_, rfl⟩
      show new_subtree t flag ∈ upd s1.node_subtrees p (s1.node_subtrees p ++ [new_subtree t flag]) p
      rw [upd_same]
      exact List.mem_append_right _ (List.mem_singleton.mpr rfl)
    have hold : mk ∈ s1.node_subtrees n → ∃ c, c = t ∧ PathUsed (Used F e) c mk.v := by
      intro hmk1
      obtain ⟨c, hk, hp'⟩ := (@dmid_restrict _ _ _ [some p] _ d
        (fun x hx => by rw [List.mem_singleton.mp hx]; exact ha)).q F e hF1 hS he n hn1 hn2 hr
        mk hmk1
      rcases hk with e1 | e1
      · exact ⟨c, e1, hp'⟩
      · exact ⟨t, rfl, PathUsed.down t c _ hU e1 hp'⟩
    change mk ∈ upd s1.node_subtrees p (s1.node_subtrees p ++ [new_subtree t flag]) n at hmk
    by_cases e1 : n = p
    · rw [e1, upd_same] at hmk
      rcases List.mem_append.mp hmk with c | c
      · exact hold (e1 ▸ c)
      · rw [List.mem_singleton.mp c]
        exact ⟨t, rfl, PathUsed.self t hU⟩
    · rw [upd_other _ _ _ _ e1] at hmk
      exact hold hmk

theorem q_full_cfg (fuel : Nat) (t : Vertex) (s : CFG) (r : Node × Node) (s' : CFG)
    (hr : create_full_cfg fuel t s = Except.ok (r, s')) : W s → Q t s r.1 s' := by
  intro hw
  simp only [create_full_cfg, bind_ok_iff] at hr
  obtain ⟨start, s1, h1, finish, s2, hq1_1⟩ := hr
  obtain ⟨h2, writes, s3, h3, reads, hq1_2⟩ := hq1_1
  obtain ⟨s4, h4, ct, s5, h5, hq1_3⟩ := hq1_2
  obtain ⟨_, s6, h6, _, s7, hq1_4⟩ := hq1_3
  obtain ⟨h7, _, s8, h8, _, hq1_5⟩ := hq1_4
  obtain ⟨s9, h9, _, s10, h10, hq1_6⟩ := hq1_5
  obtain ⟨_, s11, h11, _, s12, hq1_7⟩ := hq1_6
  obtain ⟨h12, _, s13, h13, _, hq1_8⟩ := hq1_7
  obtain ⟨s14, h14, h15⟩ := hq1_8
  have d1 := dmid_new_node (dmid_refl (fun c => c = t) s hw) h1
  have d2 := dmid_new_node d1 h2
  have d3 := dmid_new_node d2 h3
  have d4 := dmid_new_node d3 h4
  have d5 := dmid_run d4 (graphSame_collect fuel t writes reads false) h5
  have d6 := dmid_run d5 (graphSame_compress writes) h6
  have d7 := dmid_run d6 (graphSame_compress reads) h7
  have d8 := dmid_add_subtree d7 h8 rfl
  have d9 := dmid_add_edge d8 h9 (by simp)
  have d10 := dmid_add_edge d9 h10 (by simp)
  have d11 := dmid_add_edge d10 h11 (by simp)
  have d12 := dmid_add_edge d11 h12 (by simp)
  have d13 := dmid_add_edge d12 h13 (by simp)
  have d14 : DMid s.node_gen (fun c => c = t) [reads, writes, finish, start] s14 := by
    by_cases hc : ct = true
    · rw [if_pos hc] at h14
      exact dmid_run d13 (graphSame_register_exception _) h14
    · rw [if_neg hc] at h14
      cases h14
      exact d13
  cases h15
  have dd := @dmid_restrict _ _ _ [start] _ d14 (fun x hx => by
    rw [List.mem_singleton.mp hx]
    simp)
  exact ⟨dd.q, dd.w⟩

/-- The graph of `t` itself, built by `create_full_cfg` inside the rule of `t`. -/
theorem rule_full_cfg (fuel : Nat) (t : Vertex) : RuleOk t (create_full_cfg fuel t) := by
  intro s r s' hr hw
  have hb := built_full_cfg fuel t s r s' hr
  exact ⟨[r.1], dmid_built (dmid_refl _ s hw) hb (q_full_cfg fuel t s r s' hr) (Or.inl rfl),
    List.mem_singleton.mpr rfl⟩

theorem dmid_seq_loop (cfg : Vertex → M (Node × Node)) (hcfg : CfgOk cfg) (hq : QOk cfg)
    {K : Vertex → Prop} (l : List Vertex) (hl : ∀ x ∈ l, K x) :
    ∀ {g : Nat} {A : List Node} {s s' : CFG} {last r : Node}, DMid g K A s →
    create_cfg_seq_loop cfg l last s = Except.ok (r, s') →
    ∃ A', DMid g K A' s' ∧ ∀ x ∈ A, x ∈ A' := by
  induction l with
  | nil =>
    intro g A s s' last r d hr
    cases hr
    exact ⟨A, d, fun x hx => hx⟩
  | cons x xs ih =>
    intro g A s s' last r d hr
    simp only [create_cfg_seq_loop, bind_ok_iff, Prod.exists] at hr
    obtain ⟨a, b, s1, h1, _, s2, h2, h3⟩ := hr
    have d1 := dmid_built d (hcfg _ _ _ _ h1) (hq _ _ _ _ h1) (hl x (List.mem_cons_self _ _))
    have d2 := dmid_add_edge d1 h2 (by simp)
    obtain ⟨A', d3, hA⟩ := ih (fun y hy => hl y (List.mem_cons_of_mem _ hy)) d2 h3
    exact ⟨A', d3, fun y hy => hA y (List.mem_cons_of_mem _ hy)⟩

theorem rule_op_seq (cfg : Vertex → M (Node × Node)) (hcfg : CfgOk cfg) (hq : QOk cfg)
    (t : Vertex) : RuleOk t (create_cfg_op_seq cfg t) := by
  intro s r s' hr hw
  unfold create_cfg_op_seq at hr
  cases e : t.sons with
  | nil =>
    rw [e] at hr
    simp only [bind_ok_iff] at hr
    obtain ⟨a, s1, h1, h2⟩ := hr
    have d1 := dmid_new_node (dmid_refl (Kt t) s hw) h1
    cases h2
    exact ⟨_, d1, by simp⟩
  | cons x xs =>
    rw [e] at hr
    simp only [bind_ok_iff, Prod.exists] at hr
    obtain ⟨a, b, s1, h1, f, s2, h2, h3⟩ := hr
    have hx : Kt t x := Or.inr (by rw [e]; exact List.mem_cons_self _ _)
    have d1 := dmid_built (dmid_refl (Kt t) s hw) (hcfg _ _ _ _ h1) (hq _ _ _ _ h1) hx
    obtain ⟨A', d2, hA⟩ := dmid_seq_loop cfg hcfg hq xs
      (fun y hy => Or.inr (by rw [e]; exact List.mem_cons_of_mem _ hy)) d1 h2
    cases h3
    exact ⟨A', d2, hA _ (by simp)⟩

theorem rule_op_eq (fuel : Nat) (cfg : Vertex → M (Node × Node)) (hcfg : CfgOk cfg)
    (hq : QOk cfg) (t : Vertex) : RuleOk t (create_cfg_op_eq fuel cfg t) := by
  intro s r s' hr hw
  simp only [create_cfg_op_eq, bind_ok_iff] at hr
  obtain ⟨lhs, s1, h1, rhs, s2, h2, h3⟩ := hr
  have k1 := kt_son h1
  have k2 := kt_son h2
  obtain rfl := son_ok h1
  obtain rfl := son_ok h2
  by_cases hc : rhs.type = Operation.op_false ∨ rhs.type = Operation.op_null
  · rw [if_pos hc] at h3
    simp only [bind_ok_iff, Prod.exists] at h3
    obtain ⟨a, b, s3, h4, c, d, s4, h5, _, s5, h6, h7⟩ := h3
    have d3 := dmid_built (dmid_refl (Kt t) _ hw) (hcfg _ _ _ _ h4) (hq _ _ _ _ h4) k1
    have d4 := dmid_built d3 (hcfg _ _ _ _ h5) (hq _ _ _ _ h5) k2
    have d5 := dmid_add_edge d4 h6 (by simp)
    cases h7
    exact ⟨_, d5, by simp⟩
  · rw [if_neg hc] at h3
    exact rule_full_cfg fuel t _ r s' h3 hw

theorem rule_op_index (cfg : Vertex → Bool → Bool → M (Node × Node)) (hcfg : CfgOk3 cfg)
    (hq : QOk3 cfg) (t : Vertex) (w ww : Bool) : RuleOk t (create_cfg_op_index cfg t w ww) := by
  intro s r s' hr hw
  simp only [create_cfg_op_index, bind_ok_iff, Prod.exists] at hr
  obtain ⟨array, s1, h1, a, b, s2, h2, h3⟩ := hr
  have k1 := kt_son h1
  obtain rfl := son_ok h1
  have d2 := dmid_built (dmid_refl (Kt t) _ hw) (hcfg _ _ _ _ _ _ h2) (hq _ _ _ _ _ _ h2) k1
  by_cases hc : t.sons.length > 1
  · rw [if_pos hc] at h3
    simp only [bind_ok_iff, Prod.exists] at h3
    obtain ⟨key, s3, h4, c, d, s4, h5, _, s5, h6, h7⟩ := h3
    have k2 := kt_son h4
    obtain rfl := son_ok h4
    have d4 := dmid_built d2 (hcfg _ _ _ _ _ _ h5) (hq _ _ _ _ _ _ h5) k2
    have d5 := dmid_add_edge d4 h6 (by simp)
    cases h7
    exact ⟨_, d5, by simp⟩
  · rw [if_neg hc] at h3
    cases h3
    exact ⟨_, d2, by simp⟩

theorem rule_op_log (cfg : Vertex → M (Node × Node)) (hcfg : CfgOk cfg) (hq : QOk cfg)
    (t : Vertex) : RuleOk t (create_cfg_op_log cfg t) := by
  intro s r s' hr hw
  simp only [create_cfg_op_log, bind_ok_iff, Prod.exists] at hr
  obtain ⟨lhs, s1, h1, rhs, s2, hq2_1⟩ := hr
  obtain ⟨h2, a, b, s3, h3, hq2_2⟩ := hq2_1
  obtain ⟨c, d, s4, h4, f, hq2_3⟩ := hq2_2
  obtain ⟨s5, h5, _, s6, h6, hq2_4⟩ := hq2_3
  obtain ⟨_, s7, h7, _, s8, hq2_5⟩ := hq2_4
  obtain ⟨h8, h9⟩ := hq2_5
  have k1 := kt_son h1
  have k2 := kt_son h2
  obtain rfl := son_ok h1
  obtain rfl := son_ok h2
  have d3 := dmid_built (dmid_refl (Kt t) _ hw) (hcfg _ _ _ _ h3) (hq _ _ _ _ h3) k1
  have d4 := dmid_built d3 (hcfg _ _ _ _ h4) (hq _ _ _ _ h4) k2
  have d5 := dmid_new_node d4 h5
  have d6 := dmid_add_edge d5 h6 (by simp)
  have d7 := dmid_add_edge d6 h7 (by simp)
  have d8 := dmid_add_edge d7 h8 (by simp)
  cases h9
  exact ⟨_, d8, by simp⟩

theorem dmid_call_loop (cfg : Vertex → Bool → Bool → M (Node × Node)) (hcfg : CfgOk3 cfg)
    (hq : QOk3 cfg) {K : Vertex → Prop} (func : Option FuncInfo) (l : List Vertex)
    (hl : ∀ x ∈ l, K x) :
    ∀ {g : Nat} {A : List Node} {s s' : CFG} {ii : Nat} {start r : Node}, DMid g K A s →
    create_cfg_call_loop cfg func l ii start s = Except.ok (r, s') →
    ∃ A', DMid g K A' s' ∧ ∀ x ∈ A, x ∈ A' := by
  induction l with
  | nil =>
    intro g A s s' ii start r d hr
    cases hr
    exact ⟨A, d, fun x hx => hx⟩
  | cons x xs ih =>
    intro g A s s' ii start r d hr
    have key : ∀ fl, (cfg x false fl >>= fun p => add_edge start p.1 >>= fun _ =>
        create_cfg_call_loop cfg func xs (ii + 1) p.2) s = Except.ok (r, s') →
        ∃ A', DMid g K A' s' ∧ ∀ x ∈ A, x ∈ A' := by
      intro fl hk
      simp only [bind_ok_iff, Prod.exists] at hk
      obtain ⟨a, b, s1, h1, _, s2, h2, h3⟩ := hk
      have d1 := dmid_built d (hcfg _ _ _ _ _ _ h1) (hq _ _ _ _ _ _ h1)
        (hl x (List.mem_cons_self _ _))
      have d2 := dmid_add_edge d1 h2 (by simp)
      obtain ⟨A', d3, hA⟩ := ih (fun y hy => hl y (List.mem_cons_of_mem _ hy)) d2 h3
      exact ⟨A', d3, fun y hy => hA y (List.mem_cons_of_mem _ hy)⟩
    unfold create_cfg_call_loop at hr
    cases func with
    | none => exact key false hr
    | some f =>
      dsimp only at hr
      cases e : f.params.get? ii with
      | none => rw [e] at hr; cases hr
      | some o =>
        rw [e] at hr
        cases o with
        | none => exact key false hr
        | some q => exact key q hr

theorem rule_op_call (cfg : Vertex → Bool → Bool → M (Node × Node)) (hcfg : CfgOk3 cfg)
    (hq : QOk3 cfg) (t : Vertex) : RuleOk t (create_cfg_op_call cfg t) := by
  intro s r s' hr hw
  simp only [create_cfg_op_call, bind_ok_iff] at hr
  obtain ⟨start, s1, h1, f, s2, h2, h3⟩ := hr
  have d1 := dmid_new_node (dmid_refl (Kt t) s hw) h1
  obtain ⟨A', d2, hA⟩ := dmid_call_loop cfg hcfg hq _ t.sons (fun y hy => Or.inr hy) d1 h2
  cases e : t.get_func_id with
  | none => rw [e] at h3; cases h3
  | some fi =>
    rw [e] at h3
    simp only [bind_ok_iff] at h3
    obtain ⟨_, s3, h4, h5⟩ := h3
    have d3 : DMid s.node_gen (Kt t) A' s3 := by
      by_cases hc : fi.can_throw = true
      · rw [if_pos hc] at h4
        exact dmid_run d2 (graphSame_register_exception _) h4
      · rw [if_neg hc] at h4
        cases h4
        exact d2
    cases h5
    exact ⟨A', d3, hA _ (by simp)⟩

theorem rule_op_return (cfg : Vertex → M (Node × Node)) (hcfg : CfgOk cfg) (hq : QOk cfg)
    (t : Vertex) : RuleOk t (create_cfg_op_return cfg t) := by
  intro s r s' hr hw
  unfold create_cfg_op_return at hr
  cases e : t.sons with
  | nil =>
    rw [e] at hr
    simp only [bind_ok_iff] at hr
    obtain ⟨a, s1, h1, h2⟩ := hr
    have d1 := dmid_new_node (dmid_refl (Kt t) s hw) h1
    cases h2
    exact ⟨_, d1, by simp⟩
  | cons x xs =>
    rw [e] at hr
    simp only [bind_ok_iff, Prod.exists] at hr
    obtain ⟨a, b, s1, h1, h2⟩ := hr
    have hx : Kt t x := Or.inr (by rw [e]; exact List.mem_cons_self _ _)
    have d1 := dmid_built (dmid_refl (Kt t) s hw) (hcfg _ _ _ _ h1) (hq _ _ _ _ h1) hx
    cases h2
    exact ⟨_, d1, by simp⟩

theorem rule_op_set (cfg : Vertex → Bool → Bool → M (Node × Node)) (hcfg : CfgOk3 cfg)
    (hq : QOk3 cfg) (t : Vertex) : RuleOk t (create_cfg_op_set cfg t) := by
  intro s r s' hr hw
  simp only [create_cfg_op_set, bind_ok_iff, Prod.exists] at hr
  obtain ⟨lhs, s1, h1, rhs, s2, hq1_1⟩ := hr
  obtain ⟨h2, a, b, s3, h3, hq1_2⟩ := hq1_1
  obtain ⟨c, d, s4, h4, _, hq1_3⟩ := hq1_2
  obtain ⟨s5, h5, h6⟩ := hq1_3
  have k1 := kt_son h1
  have k2 := kt_son h2
  obtain rfl := son_ok h1
  obtain rfl := son_ok h2
  have d3 := dmid_built (dmid_refl (Kt t) _ hw) (hcfg _ _ _ _ _ _ h3) (hq _ _ _ _ _ _ h3) k2
  have d4 := dmid_built d3 (hcfg _ _ _ _ _ _ h4) (hq _ _ _ _ _ _ h4) k1
  have d5 := dmid_add_edge d4 h5 (by simp)
  cases h6
  exact ⟨_, d5, by simp⟩

theorem rule_op_set_op (fuel : Nat) (cfg : Vertex → M (Node × Node)) (hcfg : CfgOk cfg)
    (hq : QOk cfg) (t : Vertex) : RuleOk t (create_cfg_op_set_op fuel cfg t) := by
  intro s r s' hr hw
  simp only [create_cfg_op_set_op, bind_ok_iff, Prod.exists] at hr
  obtain ⟨lhs, s1, h1, rhs, s2, hq2_1⟩ := hr
  obtain ⟨h2, a, b, s3, h3, hq2_2⟩ := hq2_1
  obtain ⟨c, d, s4, h4, _, hq2_3⟩ := hq2_2
  obtain ⟨s5, h5, h6⟩ := hq2_3
  have k1 := kt_son h1
  have k2 := kt_son h2
  obtain rfl := son_ok h1
  obtain rfl := son_ok h2
  have d3 := dmid_built (dmid_refl (Kt t) _ hw) (hcfg _ _ _ _ h3) (hq _ _ _ _ h3) k2
  have d4 := dmid_built d3 (built_full_cfg _ _ _ _ _ h4) (q_full_cfg _ _ _ _ _ h4) k1
  have d5 := dmid_add_edge d4 h5 (by simp)
  cases h6
  exact ⟨_, d5, by simp⟩

theorem dmid_list_loop (cfg : Vertex → Bool → Bool → M (Node × Node)) (hcfg : CfgOk3 cfg)
    (hq : QOk3 cfg) {K : Vertex → Prop} (l : List Vertex) (hl : ∀ x ∈ l, K x) :
    ∀ {g : Nat} {A : List Node} {s s' : CFG} {prev r : Node}, DMid g K A s →
    create_cfg_list_loop cfg l prev s = Except.ok (r, s') →
    ∃ A', DMid g K A' s' ∧ ∀ x ∈ A, x ∈ A' := by
  induction l with
  | nil =>
    intro g A s s' prev r d hr
    cases hr
    exact ⟨A, d, fun x hx => hx⟩
  | cons x xs ih =>
    intro g A s s' prev r d hr
    simp only [create_cfg_list_loop, bind_ok_iff, Prod.exists] at hr
    obtain ⟨a, b, s1, h1, _, s2, h2, h3⟩ := hr
    have d1 := dmid_built d (hcfg _ _ _ _ _ _ h1) (hq _ _ _ _ _ _ h1)
      (hl x (List.mem_cons_self _ _))
    have d2 := dmid_add_edge d1 h2 (by simp)
    obtain ⟨A', d3, hA⟩ := ih (fun y hy => hl y (List.mem_cons_of_mem _ hy)) d2 h3
    exact ⟨A', d3, fun y hy => hA y (List.mem_cons_of_mem _ hy)⟩

theorem rule_op_list (cfg : Vertex → Bool → Bool → M (Node × Node)) (hcfg : CfgOk3 cfg)
    (hq : QOk3 cfg) (t : Vertex) : RuleOk t (create_cfg_op_list cfg t) := by
  intro s r s' hr hw
  unfold create_cfg_op_list at hr
  cases e : t.sons.getLast? with
  | none => rw [e] at hr; cases hr
  | some array =>
    rw [e] at hr
    simp only [bind_ok_iff, Prod.exists] at hr
    obtain ⟨a, b, s1, h1, f, s2, h2, h3⟩ := hr
    have hx : Kt t array := by
      obtain ⟨ys, e1⟩ := List.getLast?_eq_some_iff.mp e
      right
      rw [e1]
      simp
    have d1 := dmid_built (dmid_refl (Kt t) s hw) (hcfg _ _ _ _ _ _ h1) (hq _ _ _ _ _ _ h1) hx
    obtain ⟨A', d2, hA⟩ := dmid_list_loop cfg hcfg hq t.sons.dropLast.reverse
      (fun y hy => Or.inr (List.dropLast_subset _ (List.mem_reverse.mp hy))) d1 h2
    cases h3
    exact ⟨A', d2, hA _ (by simp)⟩

theorem rule_op_var (t : Vertex) (w ww : Bool) : RuleOk t (create_cfg_op_var t w ww) := by
  intro s r s' hr hw
  simp only [create_cfg_op_var, bind_ok_iff] at hr
  obtain ⟨res, s1, h1, usage, s2, hq3_1⟩ := hr
  obtain ⟨h2, _, s3, h3, _, hq3_2⟩ := hq3_1
  obtain ⟨s4, h4, h5⟩ := hq3_2
  have d1 := dmid_new_node (dmid_refl (Kt t) s hw) h1
  have d2 := dmid_run d1 (graphSame_new_usage _ _) h2
  have d3 : DMid s.node_gen (Kt t) [res] s3 := by
    cases usage with
    | none =>
      cases h3
      exact d2
    | some a =>
      simp only [bind_ok_iff] at h3
      obtain ⟨u, s5, h6, h7⟩ := h3
      obtain ⟨rfl, _⟩ := usage_at_ok h6
      cases h7
      exact dmid_same d2 (graphSame_store _ _ _)
  have d4 := dmid_run d3 (graphSame_add_usage _ _) h4
  cases h5
  exact ⟨_, d4, by simp⟩

theorem rule_op_if (cfg : Vertex → M (Node × Node)) (cond_cfg : Vertex → M (Node × Node × Node))
    (hcfg : CfgOk cfg) (hcond : CondOk cond_cfg) (hq : QOk cfg) (hqc : QCondOk cond_cfg)
    (t : Vertex) : RuleOk t (create_cfg_op_if cfg cond_cfg t) := by
  intro s r s' hr hw
  simp only [create_cfg_op_if, bind_ok_iff, Prod.exists] at hr
  obtain ⟨cond, s1, h1, cmd, s2, hq4_1⟩ := hr
  obtain ⟨h2, finish, s3, h3, a, hq4_2⟩ := hq4_1
  obtain ⟨ct, cf, s4, h4, b, hq4_3⟩ := hq4_2
  obtain ⟨c, s5, h5, _, s6, hq4_4⟩ := hq4_3
  obtain ⟨h6, _, s7, h7, _, hq4_5⟩ := hq4_4
  obtain ⟨s8, h8, h9⟩ := hq4_5
  have k1 := kt_son h1
  have k2 := kt_son h2
  obtain rfl := son_ok h1
  obtain rfl := son_ok h2
  have d3 := dmid_new_node (dmid_refl (Kt t) _ hw) h3
  have d4 := dmid_builtCond d3 (hcond _ _ _ _ h4) (hqc _ _ _ _ h4) k1
  have d5 := dmid_built d4 (hcfg _ _ _ _ h5) (hq _ _ _ _ h5) k2
  have d6 := dmid_add_edge d5 h6 (by simp)
  have d7 := dmid_add_edge d6 h7 (by simp)
  have d8 : ∃ A, DMid s2.node_gen (Kt t) A s8 ∧ a ∈ A := by
    by_cases hc : t.sons.length > 2
    · rw [if_pos hc] at h8
      simp only [bind_ok_iff, Prod.exists] at h8
      obtain ⟨fc, s9, h10, d, e, s10, h11, _, s11, h12, h13⟩ := h8
      have k3 := kt_son h10
      obtain rfl := son_ok h10
      have d10 := dmid_built d7 (hcfg _ _ _ _ h11) (hq _ _ _ _ h11) k3
      have d11 := dmid_add_edge d10 h12 (by simp)
      have d12 := dmid_add_edge d11 h13 (by simp)
      exact ⟨_, d12, by simp⟩
    · rw [if_neg hc] at h8
      have d9 := dmid_add_edge d7 h8 (by simp)
      exact ⟨_, d9, by simp⟩
  cases h9
  exact d8

theorem rule_op_ternary (cfg : Vertex → M (Node × Node))
    (cond_cfg : Vertex → M (Node × Node × Node)) (hcfg : CfgOk cfg) (hcond : CondOk cond_cfg)
    (hq : QOk cfg) (hqc : QCondOk cond_cfg) (t : Vertex) :
    RuleOk t (create_cfg_op_ternary cfg cond_cfg t) := by
  intro s r s' hr hw
  simp only [create_cfg_op_ternary, bind_ok_iff, Prod.exists] at hr
  obtain ⟨cond, s1, h1, te, s2, hq5_1⟩ := hr
  obtain ⟨h2, fe, s2', h2', finish, hq5_2⟩ := hq5_1
  obtain ⟨s3, h3, a, ct, cf, hq5_3⟩ := hq5_2
  obtain ⟨s4, h4, b, c, s5, hq5_4⟩ := hq5_3
  obtain ⟨h5, _, s6, h6, _, hq5_5⟩ := hq5_4
  obtain ⟨s7, h7, d, e, s8, hq5_6⟩ := hq5_5
  obtain ⟨h8, _, s9, h9, _, hq5_7⟩ := hq5_6
  obtain ⟨s10, h10, h11⟩ := hq5_7
  have k1 := kt_son h1
  have k2 := kt_son h2
  have k3 := kt_son h2'
  obtain rfl := son_ok h1
  obtain rfl := son_ok h2
  obtain rfl := son_ok h2'
  have d3 := dmid_new_node (dmid_refl (Kt t) _ hw) h3
  have d4 := dmid_builtCond d3 (hcond _ _ _ _ h4) (hqc _ _ _ _ h4) k1
  have d5 := dmid_built d4 (hcfg _ _ _ _ h5) (hq _ _ _ _ h5) k2
  have d6 := dmid_add_edge d5 h6 (by simp)
  have d7 := dmid_add_edge d6 h7 (by simp)
  have d8 := dmid_built d7 (hcfg _ _ _ _ h8) (hq _ _ _ _ h8) k3
  have d9 := dmid_add_edge d8 h9 (by simp)
  have d10 := dmid_add_edge d9 h10 (by simp)
  cases h11
  exact ⟨_, d10, by simp⟩

theorem rule_op_break (t : Vertex) : RuleOk t (create_cfg_op_break t) := by
  intro s r s' hr hw
  simp only [create_cfg_op_break, bind_ok_iff] at hr
  obtain ⟨level, s1, h1, start, s2, h2, _, s3, h3, h4⟩ := hr
  obtain rfl := son_ok h1
  have d2 := dmid_new_node (dmid_refl (Kt t) _ hw) h2
  have d3 := dmid_run d2 (graphSame_add_break_node _ _) h3
  cases h4
  exact ⟨_, d3, by simp⟩

theorem rule_op_continue (t : Vertex) : RuleOk t (create_cfg_op_continue t) := by
  intro s r s' hr hw
  simp only [create_cfg_op_continue, bind_ok_iff] at hr
  obtain ⟨level, s1, h1, start, s2, h2, _, s3, h3, h4⟩ := hr
  obtain rfl := son_ok h1
  have d2 := dmid_new_node (dmid_refl (Kt t) _ hw) h2
  have d3 := dmid_run d2 (graphSame_add_continue_node _ _) h3
  cases h4
  exact ⟨_, d3, by simp⟩

theorem rule_op_for (cfg : Vertex → M (Node × Node)) (cond_cfg : Vertex → M (Node × Node × Node))
    (hcfg : CfgOk cfg) (hcond : CondOk cond_cfg) (hq : QOk cfg) (hqc : QCondOk cond_cfg)
    (t : Vertex) : RuleOk t (create_cfg_op_for cfg cond_cfg t) := by
  intro s r s' hr hw
  simp only [create_cfg_op_for, bind_ok_iff, Prod.exists] at hr
  obtain ⟨_, s1, h1, v0, t1, hq1_1⟩ := hr
  obtain ⟨k1, v1, t2, k2, v2, hq1_2⟩ := hq1_1
  obtain ⟨t3, k3, v3, t4, k4, hq1_3⟩ := hq1_2
  obtain ⟨is_, if_, s5, h5, cs, hq1_4⟩ := hq1_3
  obtain ⟨ct, cf, s6, h6, ns, hq1_5⟩ := hq1_4
  obtain ⟨nf, s7, h7, af, s8, hq1_6⟩ := hq1_5
  obtain ⟨h8, as, afp, s9, h9, hq1_7⟩ := hq1_6
  obtain ⟨_, s10, h10, _, s11, hq1_8⟩ := hq1_7
  obtain ⟨h11, _, s12, h12, _, hq1_9⟩ := hq1_8
  obtain ⟨s13, h13, _, s14, h14, hq1_10⟩ := hq1_9
  obtain ⟨fin, s15, h15, _, s16, hq1_11⟩ := hq1_10
  obtain ⟨h16, _, s17, h17, h18⟩ := hq1_11
  have d1 := dmid_run (dmid_refl (Kt t) s hw) graphSame_enter_cycle h1
  have c1 := kt_son k1
  have c2 := kt_son k2
  have c3 := kt_son k3
  have c4 := kt_son k4
  obtain rfl := son_ok k1
  obtain rfl := son_ok k2
  obtain rfl := son_ok k3
  obtain rfl := son_ok k4
  have d5 := dmid_built d1 (hcfg _ _ _ _ h5) (hq _ _ _ _ h5) c1
  have d6 := dmid_builtCond d5 (hcond _ _ _ _ h6) (hqc _ _ _ _ h6) c2
  have d7 := dmid_built d6 (hcfg _ _ _ _ h7) (hq _ _ _ _ h7) c3
  have d8 := dmid_new_node d7 h8
  have d9 := dmid_built d8 (hcfg _ _ _ _ h9) (hq _ _ _ _ h9) c4
  have d10 := dmid_add_edge d9 h10 (by simp)
  have d11 := dmid_add_edge d10 h11 (by simp)
  have d12 := dmid_add_edge d11 h12 (by simp)
  have d13 := dmid_add_edge d12 h13 (by simp)
  have d14 := dmid_add_edge d13 h14 (by simp)
  have d15 := dmid_new_node d14 h15
  have d16 := dmid_add_edge d15 h16 (by simp)
  have d17 := dmid_exit_cycle d16 h17 (by simp) (by simp)
  cases h18
  exact ⟨_, d17, by simp⟩

theorem rule_op_while (cfg : Vertex → M (Node × Node))
    (cond_cfg : Vertex → M (Node × Node × Node)) (hcfg : CfgOk cfg) (hcond : CondOk cond_cfg)
    (hq : QOk cfg) (hqc : QCondOk cond_cfg) (t : Vertex) :
    RuleOk t (create_cfg_op_while cfg cond_cfg t) := by
  intro s r s' hr hw
  simp only [create_cfg_op_while, bind_ok_iff, Prod.exists] at hr
  obtain ⟨_, s1, h1, cond, t1, hq2_1⟩ := hr
  obtain ⟨k1, cmd, t2, k2, cs, hq2_2⟩ := hq2_1
  obtain ⟨ct, cf, s6, h6, af, hq2_3⟩ := hq2_2
  obtain ⟨s8, h8, as, afp, s9, hq2_4⟩ := hq2_3
  obtain ⟨h9, _, s10, h10, _, hq2_5⟩ := hq2_4
  obtain ⟨s11, h11, _, s12, h12, hq2_6⟩ := hq2_5
  obtain ⟨fin, s15, h15, _, s16, hq2_7⟩ := hq2_6
  obtain ⟨h16, _, s17, h17, _, hq2_8⟩ := hq2_7
  obtain ⟨s18, h18, h19⟩ := hq2_8
  have d1 := dmid_run (dmid_refl (Kt t) s hw) graphSame_enter_cycle h1
  have c1 := kt_son k1
  have c2 := kt_son k2
  obtain rfl := son_ok k1
  obtain rfl := son_ok k2
  have d6 := dmid_builtCond d1 (hcond _ _ _ _ h6) (hqc _ _ _ _ h6) c1
  have d8 := dmid_new_node d6 h8
  have d9 := dmid_built d8 (hcfg _ _ _ _ h9) (hq _ _ _ _ h9) c2
  have d10 := dmid_add_edge d9 h10 (by simp)
  have d11 := dmid_add_edge d10 h11 (by simp)
  have d12 := dmid_add_edge d11 h12 (by simp)
  have d15 := dmid_new_node d12 h15
  have d16 := dmid_add_edge d15 h16 (by simp)
  have d17 : DMid s.node_gen (Kt t) [fin, as, af, cs] s17 := by
    by_cases hc : t.type = Operation.op_do ∧ afp.isSome = true
    · rw [if_pos hc] at h17
      exact dmid_add_subtree d16 h17 c1
    · rw [if_neg hc] at h17
      cases h17
      exact d16
  have d18 := dmid_exit_cycle d17 h18 (by simp) (by simp)
  cases h19
  refine ⟨_, d18, ?_⟩
  show (if t.type = Operation.op_do then as else cs) ∈ [fin, as, af, cs]
  split <;> simp

theorem rule_op_throw (cfg : Vertex → M (Node × Node)) (hcfg : CfgOk cfg) (hq : QOk cfg)
    (t : Vertex) : RuleOk t (create_cfg_op_throw cfg t) := by
  intro s r s' hr hw
  simp only [create_cfg_op_throw, bind_ok_iff, Prod.exists] at hr
  obtain ⟨e, s1, h1, a, b, hq3_1⟩ := hr
  obtain ⟨s2, h2, _, s3, h3, hq3_2⟩ := hq3_1
  obtain ⟨f, s4, h4, h5⟩ := hq3_2
  have c1 := kt_son h1
  obtain rfl := son_ok h1
  have d2 := dmid_built (dmid_refl (Kt t) _ hw) (hcfg _ _ _ _ h2) (hq _ _ _ _ h2) c1
  have d3 := dmid_run d2 (graphSame_register_exception _) h3
  have d4 := dmid_new_node d3 h4
  cases h5
  exact ⟨_, d4, by simp⟩

theorem rule_op_try (cfg : Vertex → Bool → Bool → M (Node × Node)) (hcfg : CfgOk3 cfg)
    (hq : QOk3 cfg) (t : Vertex) : RuleOk t (create_cfg_op_try cfg t) := by
  intro s r s' hr hw
  simp only [create_cfg_op_try, bind_ok_iff, Prod.exists] at hr
  obtain ⟨tc, t1, k1, ex, t2, hq4_1⟩ := hr
  obtain ⟨k2, cc, t3, k3, es, hq4_2⟩ := hq4_1
  obtain ⟨ef, s4, h4, _, s5, hq4_3⟩ := hq4_2
  obtain ⟨h5, ts, tf, s6, h6, hq4_4⟩ := hq4_3
  obtain ⟨_, s7, h7, cs, cf, hq4_5⟩ := hq4_4
  obtain ⟨s8, h8, _, s9, h9, hq4_6⟩ := hq4_5
  obtain ⟨fin, s10, h10, _, s11, hq4_7⟩ := hq4_6
  obtain ⟨h11, _, s12, h12, _, hq4_8⟩ := hq4_7
  obtain ⟨s13, h13, _, s14, h14, h15⟩ := hq4_8
  have c1 := kt_son k1
  have c2 := kt_son k2
  have c3 := kt_son k3
  obtain rfl := son_ok k1
  obtain rfl := son_ok k2
  obtain rfl := son_ok k3
  have d4 := dmid_built (dmid_refl (Kt t) _ hw) (hcfg _ _ _ _ _ _ h4) (hq _ _ _ _ _ _ h4) c2
  have d5 := dmid_run d4 graphSame_begin_try h5
  have d6 := dmid_built d5 (hcfg _ _ _ _ _ _ h6) (hq _ _ _ _ _ _ h6) c1
  have d7 := dmid_end_try d6 h7 (by simp)
  have d8 := dmid_built d7 (hcfg _ _ _ _ _ _ h8) (hq _ _ _ _ _ _ h8) c3
  have d9 := dmid_add_edge d8 h9 (by simp)
  have d10 := dmid_new_node d9 h10
  have d11 := dmid_add_edge d10 h11 (by simp)
  have d12 := dmid_add_edge d11 h12 (by simp)
  have d13 := dmid_add_subtree d12 h13 c2
  have d14 := dmid_add_subtree d13 h14 c3
  cases h15
  exact ⟨_, d14, by simp⟩

theorem rule_op_function (cfg : Vertex → M (Node × Node)) (hcfg : CfgOk cfg) (hq : QOk cfg)
    (t : Vertex) : RuleOk t (create_cfg_op_function cfg t) := by
  intro s r s' hr hw
  simp only [create_cfg_op_function, bind_ok_iff, Prod.exists] at hr
  obtain ⟨lhs, s1, h1, rhs, s2, hq5_1⟩ := hr
  obtain ⟨h2, a, b, s3, h3, hq5_2⟩ := hq5_1
  obtain ⟨c, d, s4, h4, _, hq5_3⟩ := hq5_2
  obtain ⟨s5, h5, h6⟩ := hq5_3
  have c1 := kt_son h1
  have c2 := kt_son h2
  obtain rfl := son_ok h1
  obtain rfl := son_ok h2
  have d3 := dmid_built (dmid_refl (Kt t) _ hw) (hcfg _ _ _ _ h3) (hq _ _ _ _ h3) c1
  have d4 := dmid_built d3 (hcfg _ _ _ _ h4) (hq _ _ _ _ h4) c2
  have d5 := dmid_add_edge d4 h5 (by simp)
  cases h6
  exact ⟨_, d5, by simp⟩

theorem markMono_rel : StepRel MarkMono := by
  refine ⟨fun s => ⟨Nat.le_refl _, fun _ _ _ h => h⟩, ?_⟩
  intro a b c h1 h2
  exact ⟨Nat.le_trans h1.1 h2.1,
    fun n hn x hx => h2.2 n (Nat.lt_of_lt_of_le hn h1.1) x (h1.2 n hn x hx)⟩

theorem markMono_same {s s' : CFG} (h1 : s'.node_gen = s.node_gen)
    (h2 : s'.node_subtrees = s.node_subtrees) : MarkMono s s' :=
  ⟨by rw [h1], fun n _ x hx => by rw [h2]; exact hx⟩

set_option maxRecDepth 10000 in
set_option linter.unreachableTactic false in
set_option linter.unusedTactic false in
theorem markMono_stable : Stable MarkMono := by
  refine stable_of_parts markMono_rel ?_ ?_ ?_ (fun _ _ _ => markMono_same rfl rfl) ?_ ?_
    (fun _ _ _ _ => markMono_same rfl rfl)
  · refine ⟨fun s r s' h => ?_⟩
    cases h
    refine ⟨Nat.le_succ _, fun n hn x hx => ?_⟩
    show x ∈ upd s.node_subtrees s.node_gen [] n
    rw [upd_other _ _ _ _ (Nat.ne_of_lt hn)]
    exact hx
  · intro ty v
    refine ⟨fun s r s' h => ?_⟩
    unfold new_usage at h
    split at h
    · cases h
    · split at h
      · cases h
        exact markMono_rel.refl s
      · cases h
        exact markMono_same rfl rfl
  · intro a b
    unfold try_uni_usages
    repeat (first
      | apply preserves_bind markMono_rel
      | apply preserves_usage_at markMono_rel
      | apply preserves_get_state markMono_rel
      | apply preserves_pure markMono_rel
      | apply preserves_fail
      | (apply preserves_modify_state; intro s; exact markMono_same rfl rfl)
      | intro _
      | split
      | dsimp only)
  · intro n m
    refine ⟨fun s r s' h => ?_⟩
    cases n with
    | none => cases h
    | some y =>
      cases h
      refine ⟨Nat.le_refl _, fun n _ x hx => ?_⟩
      show x ∈ upd s.node_subtrees y (s.node_subtrees y ++ [m]) n
      by_cases e : n = y
      · rw [e, upd_same]
        rw [e] at hx
        exact List.mem_append_left _ hx
      · rw [upd_other _ _ _ _ e]
        exact hx
  · intro a b
    refine ⟨fun s r s' h => ?_⟩
    cases a with
    | none => cases h; exact markMono_rel.refl s
    | some y =>
      cases b with
      | none => cases h; exact markMono_rel.refl s
      | some z =>
        cases h
        exact markMono_same rfl rfl

theorem markMono_built {s s' : CFG} {r : Node × Node} (h : Built s r s') : MarkMono s s' :=
  ⟨h.1.le, fun n hn x hx => by rw [h.1.subtrees_below n hn]; exact hx⟩

/-- A path of the graph from a node of the range is a path of every later state and
stays in the range. -/
theorem reach_fut {g : Nat} {A : List Node} {s F : CFG} (hF : Fut g A s F)
    (hnext : ∀ n m, g ≤ n → n < s.node_gen → m ∈ s.node_next n → g ≤ m ∧ m < s.node_gen)
    {p m : Nat} (hp : g ≤ p ∧ p < s.node_gen) (hr : Reach s p m) :
    Reach F p m ∧ g ≤ m ∧ m < s.node_gen := by
  induction hr with
  | refl => exact ⟨Relation.ReflTransGen.refl, hp⟩
  | tail _ hstep ih =>
    obtain ⟨i1, i2, i3⟩ := ih
    exact ⟨Relation.ReflTransGen.tail i1 (hF.2.2 _ i3 _ hstep), hnext _ _ i2 i3 hstep⟩

/-- From the vertices `K` to the vertices `K'`: a vertex of `K` is one of `K'` or a son
of a vertex of `K'` that has a marker on a node reachable from the start. -/
theorem dmid_lift {g p : Nat} {K K' : Vertex → Prop} {A : List Node} {s : CFG}
    (d : DMid g K A s) (ha : some p ∈ A)
    (hloc : ∀ n m, g ≤ n → n < s.node_gen → m ∈ s.node_prev n → g ≤ m ∧ m < s.node_gen)
    (hnext : ∀ n m, g ≤ n → n < s.node_gen → m ∈ s.node_next n → g ≤ m ∧ m < s.node_gen)
    (hp : g ≤ p ∧ p < s.node_gen)
    (h : ∀ c, K c → K' c ∨ ∃ i, K' i ∧ c ∈ i.sons ∧
      ∃ m, Reach s p m ∧ ∃ mk ∈ s.node_subtrees m, mk.v = i) :
    DMid g K' [some p] s := by
  have d1 : DMid g K [some p] s :=
    dmid_restrict d (fun x hx => by rw [List.mem_singleton.mp hx]; exact ha)
  refine ⟨d.le, ?_, d1.bound, d.w⟩
  intro F e hF hS he n hn1 hn2 hr mk hmk
  obtain ⟨c, hk, hpu⟩ := d1.q F e hF hS he n hn1 hn2 hr mk hmk
  rcases h c hk with h1 | ⟨i, hi, hc, m, hm, mk', hmk', e'⟩
  · exact ⟨c, h1, hpu⟩
  · have hpF : Reach F e p := dominate hF hS hloc he hr ⟨hn1, hn2⟩
    obtain ⟨r1, _, r3⟩ := reach_fut hF hnext hp hm
    have hU : Used F e i :=
      ⟨m, Relation.ReflTransGen.trans hpF r1, mk', hF.2.1 m r3 mk' hmk', e'⟩
    exact ⟨i, hi, PathUsed.down i c _ hU hc hpu⟩

theorem add_subtrees_mem (l : List Vertex) : ∀ {s s' : CFG} {c : Nat},
    add_subtrees (some c) l s = Except.ok ((), s') →
    s'.node_gen = s.node_gen ∧ (∀ x ∈ s.node_subtrees c, x ∈ s'.node_subtrees c) ∧
      ∀ i ∈ l, new_subtree i false ∈ s'.node_subtrees c := by
  induction l with
  | nil =>
    intro s s' c h
    cases h
    exact ⟨rfl, fun _ hx => hx, fun i hi => absurd hi (List.not_mem_nil i)⟩
  | cons x xs ih =>
    intro s s' c h
    simp only [add_subtrees, bind_ok_iff] at h
    obtain ⟨_, s1, h1, h2⟩ := h
    cases h1
    obtain ⟨e1, e2, e3⟩ := ih h2
    have hx : ∀ y ∈ s.node_subtrees c ++ [new_subtree x false], y ∈ s'.node_subtrees c := by
      intro y hy
      apply e2
      show y ∈ upd s.node_subtrees c (s.node_subtrees c ++ [new_subtree x false]) c
      rw [upd_same]
      exact hy
    refine ⟨e1, fun y hy => hx y (List.mem_append_left _ hy), fun i hi => ?_⟩
    rcases List.mem_cons.mp hi with e | e
    · rw [e]
      exact hx _ (List.mem_append_right _ (List.mem_singleton.mpr rfl))
    · exact e3 i e

theorem add_subtree_mem {c : Nat} {m : SubTreeData} {s s' : CFG}
    (h : add_subtree (some c) m s = Except.ok ((), s')) :
    m ∈ s'.node_subtrees c ∧ s'.node_gen = s.node_gen := by
  cases h
  refine ⟨?_, rfl⟩
  show m ∈ upd s.node_subtrees c (s.node_subtrees c ++ [m]) c
  rw [upd_same]
  exact List.mem_append_right _ (List.mem_singleton.mpr rfl)

theorem rule_op_foreach (cfg : Vertex → M (Node × Node)) (hcfg : CfgOk cfg) (hq : QOk cfg)
    (t : Vertex) : RuleOk t (create_cfg_op_foreach cfg t) := by
  intro s r s' hr hw
  have hb := built_op_foreach cfg hcfg t s r s' hr
  simp only [create_cfg_op_foreach, bind_ok_iff, Prod.exists] at hr
  obtain ⟨_, s1, h1, fp, t1, hq1_1⟩ := hr
  obtain ⟨k1, cmd, t2, k2, xs, hq1_2⟩ := hq1_1
  obtain ⟨t3, k3, x, t4, k4, hq1_3⟩ := hq1_2
  obtain ⟨vs, vf, s5, h5, writes, hq1_4⟩ := hq1_3
  obtain ⟨s6, h6, u, s7, h7, hq1_5⟩ := hq1_4
  obtain ⟨_, s8, h8, _, s9, hq1_6⟩ := hq1_5
  obtain ⟨h9, _, s10, h10, _, hq1_7⟩ := hq1_6
  obtain ⟨s11, h11, fin, s12, h12, hq1_8⟩ := hq1_7
  obtain ⟨cc, s13, h13, _, s14, hq1_9⟩ := hq1_8
  obtain ⟨h14, _, s15, h15, _, hq1_10⟩ := hq1_9
  obtain ⟨s16, h16, af, s17, h17, hq1_11⟩ := hq1_10
  obtain ⟨as, afp, s18, h18, _, hq1_12⟩ := hq1_11
  obtain ⟨s19, h19, _, s20, h20, hq1_13⟩ := hq1_12
  obtain ⟨_, s21, h21, _, s22, hq1_14⟩ := hq1_13
  obtain ⟨h22, h23⟩ := hq1_14
  have d1 := dmid_run (dmid_refl (fun c => Kt t c ∨ c ∈ fp.sons) s hw) graphSame_enter_cycle h1
  have c1 := kt_son k1
  have c2 := kt_son k2
  have c3 := son_mem k3
  obtain rfl := son_ok k1
  obtain rfl := son_ok k2
  obtain rfl := son_ok k3
  obtain rfl := son_ok k4
  have hb5 := hcfg _ _ _ _ h5
  have d5 := dmid_built d1 hb5 (hq _ _ _ _ h5) (Or.inr c3)
  have d6 := dmid_new_node d5 h6
  have d7 := dmid_run d6 (graphSame_new_usage _ _) h7
  have d8 := dmid_run d7 (graphSame_add_usage _ _) h8
  have d9 : DMid s.node_gen (fun c => Kt t c ∨ c ∈ fp.sons) [writes, vs] s9 := by
    by_cases hc : (!x.ref_flag) = true
    · rw [if_pos hc] at h9
      simp only [bind_ok_iff] at h9
      obtain ⟨tv, q1, j1, u2, q2, j2, j3⟩ := h9
      obtain rfl := son_ok j1
      exact dmid_run (dmid_run d8 (graphSame_new_usage _ _) j2) (graphSame_add_usage _ _) j3
    · rw [if_neg hc] at h9
      cases h9
      exact d8
  have d10 : DMid s.node_gen (fun c => Kt t c ∨ c ∈ fp.sons) [writes, vs] s10 := by
    by_cases hc : fp.sons.length > 3
    · rw [if_pos hc] at h10
      simp only [bind_ok_iff] at h10
      obtain ⟨tv, q1, j1, u2, q2, j2, j3⟩ := h10
      obtain rfl := son_ok j1
      exact dmid_run (dmid_run d9 (graphSame_new_usage _ _) j2) (graphSame_add_usage _ _) j3
    · rw [if_neg hc] at h10
      cases h10
      exact d9
  have d11 := dmid_add_subtree d10 h11 (Or.inl c1)
  have d12 := dmid_new_node d11 h12
  have d13 := dmid_new_node d12 h13
  have d14 := dmid_add_edge d13 h14 (by simp)
  have d15 := dmid_add_edge d14 h15 (by simp)
  have d16 := dmid_add_edge d15 h16 (by simp)
  have d17 := dmid_new_node d16 h17
  have d18 := dmid_built d17 (hcfg _ _ _ _ h18) (hq _ _ _ _ h18) (Or.inl c2)
  have d19 := dmid_add_edge d18 h19 (by simp)
  have d20 := dmid_add_edge d19 h20 (by simp)
  have d21 := dmid_add_edge d20 h21 (by simp)
  have d22 := dmid_exit_cycle d21 h22 (by simp) (by simp)
  cases h23
  obtain ⟨p, rfl, _⟩ := node_code_pos hb.2.1.1
  obtain ⟨mk1, g11⟩ := add_subtree_mem h11
  have hp11 : p < s11.node_gen := by
    have := d11.bound (some p) (by simp)
    simp only [node_code_some] at this
    omega
  have mm : MarkMono s11 s' := by
    have m12 := markMono_stable.node.run _ _ _ h12
    have m13 := markMono_stable.node.run _ _ _ h13
    have m14 := (markMono_stable.edge _ _).run _ _ _ h14
    have m15 := (markMono_stable.edge _ _).run _ _ _ h15
    have m16 := (markMono_stable.edge _ _).run _ _ _ h16
    have m17 := markMono_stable.node.run _ _ _ h17
    have m18 := markMono_built (hcfg _ _ _ _ h18)
    have m19 := (markMono_stable.edge _ _).run _ _ _ h19
    have m20 := (markMono_stable.edge _ _).run _ _ _ h20
    have m21 := (markMono_stable.edge _ _).run _ _ _ h21
    have m22 := (stable_exit_cycle markMono_stable.base _ _).run _ _ _ h22
    exact markMono_rel.trans m12 (markMono_rel.trans m13 (markMono_rel.trans m14
      (markMono_rel.trans m15 (markMono_rel.trans m16 (markMono_rel.trans m17
      (markMono_rel.trans m18 (markMono_rel.trans m19 (markMono_rel.trans m20
      (markMono_rel.trans m21 m22)))))))))
  have hpr : s.node_gen ≤ p ∧ p < s'.node_gen := by
    have := hb.2.1
    simp only [node_code_some] at this
    omega
  refine ⟨[some p], dmid_lift d22 (by simp) hb.1.prev_local hb.1.next_local hpr ?_,
    List.mem_singleton.mpr rfl⟩
  intro c hc
  rcases hc with h | h
  · exact Or.inl h
  · exact Or.inr ⟨fp, c1, h, p, Relation.ReflTransGen.refl, new_subtree fp true,
      mm.2 p hp11 _ mk1, rfl⟩

theorem stable_and {R S : CFG → CFG → Prop} (hR : Stable R) (hS : Stable S) :
    Stable fun s s' => R s s' ∧ S s s' :=
  ⟨⟨fun s => ⟨hR.rel.refl s, hS.rel.refl s⟩,
      fun h1 h2 => ⟨hR.rel.trans h1.1 h2.1, hS.rel.trans h1.2 h2.2⟩⟩,
    ⟨fun s a s' h => ⟨hR.node.run s a s' h, hS.node.run s a s' h⟩⟩,
    fun ty v => ⟨fun s a s' h => ⟨(hR.usage ty v).run s a s' h, (hS.usage ty v).run s a s' h⟩⟩,
    fun n u => ⟨fun s a s' h => ⟨(hR.attach n u).run s a s' h, (hS.attach n u).run s a s' h⟩⟩,
    fun n m => ⟨fun s a s' h => ⟨(hR.marker n m).run s a s' h, (hS.marker n m).run s a s' h⟩⟩,
    fun x y => ⟨fun s a s' h => ⟨(hR.edge x y).run s a s' h, (hS.edge x y).run s a s' h⟩⟩,
    fun t w ww => ⟨fun s a s' h => ⟨(hR.var t w ww).run s a s' h, (hS.var t w ww).run s a s' h⟩⟩,
    fun n => ⟨fun s a s' h => ⟨(hR.compress n).run s a s' h, (hS.compress n).run s a s' h⟩⟩,
    fun b c e s => ⟨hR.frames b c e s, hS.frames b c e s⟩⟩

theorem grow_stable : Stable Grow := stable_and edgeMono_stable markMono_stable

theorem grow_built {s s' : CFG} {r : Node × Node} (h : Built s r s') : Grow s s' :=
  ⟨⟨h.1.le, fun n m hn hm => by rw [h.1.next_below n hn]; exact hm⟩, markMono_built h⟩

theorem grow_cfg {cfg : Vertex → M (Node × Node)} (hcfg : CfgOk cfg) (v : Vertex) :
    Preserves Grow (cfg v) :=
  ⟨fun s r s' h => grow_built (hcfg v s r s' h)⟩

theorem dmid_add_edge_opt {g : Nat} {K : Vertex → Prop} {A : List Node} {s s' : CFG}
    {a b : Node} (d : DMid g K A s) (h : add_edge a b s = Except.ok ((), s'))
    (hb : b = none ∨ b ∈ A) : DMid g K A s' := by
  rcases hb with e | e
  · subst e
    cases a <;> cases h <;> exact d
  · exact dmid_add_edge d h e

theorem dmid_add_subtrees {g : Nat} {K : Vertex → Prop} {A : List Node} {a : Node}
    (l : List Vertex) (hl : ∀ i ∈ l, K i) : ∀ {s s' : CFG}, DMid g K A s →
    add_subtrees a l s = Except.ok ((), s') → DMid g K A s' := by
  induction l with
  | nil =>
    intro s s' d h
    cases h
    exact d
  | cons x xs ih =>
    intro s s' d h
    simp only [add_subtrees, bind_ok_iff] at h
    obtain ⟨_, s1, h1, h2⟩ := h
    exact ih (fun i hi => hl i (List.mem_cons_of_mem _ hi))
      (dmid_add_subtree d h1 (hl x (List.mem_cons_self _ _))) h2

theorem dmid_switch_vars {g : Nat} {K : Vertex → Prop} {A : List Node} {vi vr : Node}
    (l : List Vertex) (hl : ∀ i ∈ l, K i) : ∀ {s s' : CFG}, DMid g K A s →
    create_cfg_switch_vars vi vr l s = Except.ok ((), s') → DMid g K A s' := by
  induction l with
  | nil =>
    intro s s' d h
    cases h
    exact d
  | cons x xs ih =>
    intro s s' d h
    simp only [create_cfg_switch_vars, bind_ok_iff] at h
    obtain ⟨u1, s1, h1, _, s2, hq1_1⟩ := h
    obtain ⟨h2, u2, s3, h3, _, hq1_2⟩ := hq1_1
    obtain ⟨s4, h4, _, s5, h5, hq1_3⟩ := hq1_2
    obtain ⟨_, s6, h6, h7⟩ := hq1_3
    have d1 := dmid_run d (graphSame_new_usage _ _) h1
    have d2 := dmid_run d1 (graphSame_add_usage _ _) h2
    have d3 := dmid_run d2 (graphSame_new_usage _ _) h3
    have d4 := dmid_run d3 (graphSame_add_usage _ _) h4
    have d5 := dmid_add_subtree d4 h5 (hl x (List.mem_cons_self _ _))
    have d6 := dmid_add_subtree d5 h6 (hl x (List.mem_cons_self _ _))
    exact ih (fun i hi => hl i (List.mem_cons_of_mem _ hi)) d6 h7

theorem switch_clause_mem {i : Vertex} {s s' : CFG} {p : Bool × Vertex}
    (h : switch_clause i s = Except.ok (p, s')) : p.2 ∈ i.sons := by
  unfold switch_clause at h
  by_cases h1 : i.type = Operation.op_case
  · rw [if_pos h1] at h
    simp only [bind_ok_iff] at h
    obtain ⟨c, s1, k1, k2⟩ := h
    cases k2
    exact son_mem k1
  · rw [if_neg h1] at h
    by_cases h2 : i.type = Operation.op_default
    · rw [if_pos h2] at h
      simp only [bind_ok_iff] at h
      obtain ⟨c, s1, k1, k2⟩ := h
      cases k2
      exact son_mem k1
    · rw [if_neg h2] at h
      cases h

theorem dmid_switch_loop (cfg : Vertex → M (Node × Node)) (hcfg : CfgOk cfg) (hq : QOk cfg)
    {K : Vertex → Prop} (l : List Vertex) (hl : ∀ i ∈ l, ∀ c ∈ i.sons, K c) :
    ∀ {g : Nat} {A : List Node} {s s' : CFG} {st st' : SwitchLoop}, DMid g K A s →
    (st.default_start = none ∨ st.default_start ∈ A) →
    create_cfg_switch_loop cfg l st s = Except.ok (st', s') →
    ∃ A', DMid g K A' s' ∧ (∀ x ∈ A, x ∈ A') ∧
      (st'.default_start = none ∨ st'.default_start ∈ A') := by
  induction l with
  | nil =>
    intro g A s s' st st' d hd hr
    cases hr
    exact ⟨A, d, fun x hx => hx, hd⟩
  | cons i rest ih =>
    intro g A s s' st st' d hd hr
    unfold create_cfg_switch_loop at hr
    have hr' := hr
    clear hr
    simp only [bind_ok_iff, Prod.exists, get_state_run, Except.ok.injEq, Prod.mk.injEq] at hr'
    obtain ⟨isd, cmd, s1, k1, bf, s2, ⟨rfl, rfl⟩, a, b, s3, k3, bt, s4, ⟨rfl, rfl⟩, _, s5, k5, k6⟩ := hr'
    have c1 : K cmd := hl i (List.mem_cons_self _ _) cmd (switch_clause_mem k1)
    obtain rfl := switch_clause_ok k1
    have d3 := dmid_built d (hcfg _ _ _ _ k3) (hq _ _ _ _ k3) c1
    have d5 := dmid_add_edge d3 k5 (by simp)
    have hl' : ∀ j ∈ rest, ∀ c ∈ j.sons, K c := fun j hj => hl j (List.mem_cons_of_mem _ hj)
    by_cases hd' : isd = true
    · rw [if_pos hd'] at k6
      obtain ⟨A', d6, hA, hds⟩ := ih hl' d5 (Or.inr (by simp)) k6
      exact ⟨A', d6, fun x hx => hA x (List.mem_cons_of_mem _ hx), hds⟩
    · rw [if_neg hd'] at k6
      simp only [bind_ok_iff, Prod.exists, get_state_run, Except.ok.injEq, Prod.mk.injEq] at k6
      obtain ⟨ex, s6, k7, c, e, s7, k8, gd, s8, ⟨rfl, rfl⟩, _, s9, k9, _, s10, k10, k11⟩ := k6
      have c2 : K ex := hl i (List.mem_cons_self _ _) ex (son_mem k7)
      obtain rfl := son_ok k7
      have d8 := dmid_built d5 (hcfg _ _ _ _ k8) (hq _ _ _ _ k8) c2
      have d9 := dmid_add_edge d8 k9 (by simp)
      have d10 := dmid_add_edge d9 k10 (by simp)
      obtain ⟨A', d11, hA, hds⟩ := ih hl' d10 (by
        rcases hd with h | h
        · exact Or.inl h
        · exact Or.inr (List.mem_cons_of_mem _ (List.mem_cons_of_mem _ h))) k11
      exact ⟨A', d11, fun x hx => hA x (List.mem_cons_of_mem _ (List.mem_cons_of_mem _ hx)), hds⟩

theorem rule_op_switch (cfg : Vertex → M (Node × Node)) (hcfg : CfgOk cfg) (hq : QOk cfg)
    (t : Vertex) : RuleOk t (create_cfg_op_switch cfg t) := by
  intro s r s' hr hw
  have hb := built_op_switch cfg hcfg t s r s' hr
  simp only [create_cfg_op_switch, bind_ok_iff, Prod.exists] at hr
  obtain ⟨_, s1, h1, ex, t1, hq1_1⟩ := hr
  obtain ⟨k1, _, s2, h2, cs, hq1_2⟩ := hq1_1
  obtain ⟨cf, s3, h3, vi, s4, hq1_3⟩ := hq1_2
  obtain ⟨h4, vr, s5, h5, _, hq1_4⟩ := hq1_3
  obtain ⟨s6, h6, _, s7, h7, hq1_5⟩ := hq1_4
  obtain ⟨st, s8, h8, fin, s9, hq1_6⟩ := hq1_5
  obtain ⟨h9, _, s10, h10, _, hq1_7⟩ := hq1_6
  obtain ⟨s11, h11, _, s12, h12, hq1_8⟩ := hq1_7
  obtain ⟨_, s13, h13, _, s14, hq1_9⟩ := hq1_8
  obtain ⟨h14, _, s15, h15, h16⟩ := hq1_9
  have d1 := dmid_run (dmid_refl (fun c => Kt t c ∨ ∃ i ∈ t.sons.drop 5, c ∈ i.sons) s hw)
    graphSame_enter_cycle h1
  have e2 : s2 = t1 := by
    by_cases hc : t.sons.length < 5
    · rw [if_pos hc] at h2
      cases h2
    · rw [if_neg hc] at h2
      cases h2
      rfl
  subst e2
  have c1 := kt_son k1
  obtain rfl := son_ok k1
  have hb3 := hcfg _ _ _ _ h3
  have d3 := dmid_built d1 hb3 (hq _ _ _ _ h3) (Or.inl c1)
  have d4 := dmid_new_node d3 h4
  have d5 := dmid_new_node d4 h5
  have d6 := dmid_add_edge d5 h6 (by simp)
  have hsub : ∀ (n : Nat) (i : Vertex), i ∈ t.sons.drop n → i ∈ t.sons :=
    fun n i hi => List.drop_subset n _ hi
  have d7 := dmid_switch_vars ((t.sons.drop 1).take 4)
    (fun i hi => Or.inl (Or.inr (hsub 1 i (List.take_subset 4 _ hi)))) d6 h7
  obtain ⟨A', d8, hA, hds⟩ := dmid_switch_loop cfg hcfg hq (t.sons.drop 5)
    (fun i hi c hc => Or.inr ⟨i, hi, hc⟩) d7 (Or.inl rfl) h8
  have d9 := dmid_new_node d8 h9
  have d10 := dmid_add_edge d9 h10 (by simp)
  have d11 : DMid s.node_gen (fun c => Kt t c ∨ ∃ i ∈ t.sons.drop 5, c ∈ i.sons) (fin :: A')
      s11 := by
    by_cases hc : (!st.was_default) = true
    · rw [if_pos hc] at h11
      exact dmid_add_edge d10 h11 (by simp)
    · rw [if_neg hc] at h11
      cases h11
      exact d10
  have d12 : DMid s.node_gen (fun c => Kt t c ∨ ∃ i ∈ t.sons.drop 5, c ∈ i.sons) (fin :: A')
      s12 := by
    by_cases hc : st.was_default = true
    · rw [if_pos hc] at h12
      refine dmid_add_edge_opt d11 h12 ?_
      rcases hds with h | h
      · exact Or.inl h
      · exact Or.inr (List.mem_cons_of_mem _ h)
    · rw [if_neg hc] at h12
      cases h12
      exact d11
  have hcs : cs ∈ A' := hA cs (by simp)
  have hvi : vi ∈ A' := hA vi (by simp)
  have d13 := dmid_add_edge d12 h13 (List.mem_cons_of_mem _ hcs)
  have d14 := dmid_add_subtrees (t.sons.drop 5) (fun i hi => Or.inl (Or.inr (hsub 5 i hi))) d13 h14
  have d15 := dmid_exit_cycle d14 h15 (by simp) (by simp)
  -- the edges from the start to the subject and the markers of the cases
  obtain ⟨ev, _, g4⟩ := new_node_next h4
  obtain ⟨er, _, g5⟩ := new_node_next h5
  obtain ⟨c0, ec, _⟩ := node_code_pos hb3.2.1.1
  subst ev er ec
  have hc3 : c0 < s3.node_gen := by
    have := hb3.2.1.2
    simp only [node_code_some] at this
    omega
  have x6 := add_edge_mem h6
  have g6 := (add_edge_next h6).2
  have w7 := (stable_switch_vars grow_stable.base _ _ _).run _ _ _ h7
  have w8 := (stable_switch_loop grow_stable.base cfg (grow_cfg hcfg) _ _).run _ _ _ h8
  have w9 := grow_stable.node.run _ _ _ h9
  have w10 := (grow_stable.edge _ _).run _ _ _ h10
  have w11 : Grow s10 s11 := by
    by_cases hc : (!st.was_default) = true
    · rw [if_pos hc] at h11
      exact (grow_stable.edge _ _).run _ _ _ h11
    · rw [if_neg hc] at h11
      cases h11
      exact grow_stable.rel.refl _
  have w12 : Grow s11 s12 := by
    by_cases hc : st.was_default = true
    · rw [if_pos hc] at h12
      exact (grow_stable.edge _ _).run _ _ _ h12
    · rw [if_neg hc] at h12
      cases h12
      exact grow_stable.rel.refl _
  have w13 := (grow_stable.edge _ _).run _ _ _ h13
  have w14 := (stable_add_subtrees grow_stable.base _ _).run _ _ _ h14
  have w15 := (stable_exit_cycle grow_stable.base _ _).run _ _ _ h15
  have x13 := add_edge_mem h13
  obtain ⟨g14, _, x14⟩ := add_subtrees_mem _ h14
  have w6_13 : Grow s6 s13 := grow_stable.rel.trans w7 (grow_stable.rel.trans w8
    (grow_stable.rel.trans w9 (grow_stable.rel.trans w10 (grow_stable.rel.trans w11
    (grow_stable.rel.trans w12 w13)))))
  have w13_15 : Grow s13 s15 := grow_stable.rel.trans w14 w15
  have l6 : s3.node_gen + 1 < s6.node_gen := by omega
  have l13 : s6.node_gen ≤ s13.node_gen := w6_13.1.1
  have e1 : s4.node_gen ∈ s15.node_next s3.node_gen :=
    w13_15.1.2 _ _ (by omega) (w6_13.1.2 _ _ (by omega) x6)
  have e2 : c0 ∈ s15.node_next s4.node_gen := w13_15.1.2 _ _ (by omega) x13
  have hmk : ∀ i ∈ t.sons.drop 5, new_subtree i false ∈ s15.node_subtrees c0 :=
    fun i hi => w15.2.2 c0 (by omega) _ (x14 i hi)
  cases h16
  have hpr : s.node_gen ≤ s3.node_gen ∧ s3.node_gen < s'.node_gen := by
    have := hb.2.1
    simp only [node_code_some] at this
    omega
  refine ⟨[some s3.node_gen], dmid_lift d15 (List.mem_cons_of_mem _ hvi) hb.1.prev_local
    hb.1.next_local hpr ?_, List.mem_singleton.mpr rfl⟩
  intro c hc
  rcases hc with h | ⟨i, hi, hci⟩
  · exact Or.inl h
  · exact Or.inr ⟨i, Or.inr (hsub 5 i hi), hci, c0,
      Relation.ReflTransGen.tail (Relation.ReflTransGen.single e1) e2,
      new_subtree i false, hmk i hi, rfl⟩

theorem qM_finish {m : M (Node × Node)} (t : Vertex) (flag : Bool) (hr : RuleOk t m)
    (hb : BuiltM m) : QM t (m >>= create_cfg_finish t flag) := by
  intro s r s' h hw
  obtain ⟨r0, s1, h1, h2⟩ := bind_ok_iff.mp h
  simp only [create_cfg_finish, bind_ok_iff] at h2
  obtain ⟨_, s2, h3, h4⟩ := h2
  obtain ⟨A, d, ha⟩ := hr s r0 s1 h1 hw
  have hb1 := hb s r0 s1 h1
  cases h4
  exact q_finish d ha hb1.1 hb1.2.1 h3

theorem qM_son_finish (cfg : Vertex → M (Node × Node)) (hcfg : CfgOk cfg) (hq : QOk cfg)
    (t : Vertex) (flag : Bool) :
    QM t (son t 0 >>= fun expr => cfg expr >>= create_cfg_finish t flag) := by
  intro s r s' h hw
  obtain ⟨e, s1, h1, h2⟩ := bind_ok_iff.mp h
  have c1 := kt_son h1
  obtain rfl := son_ok h1
  obtain ⟨r0, s2, h3, h4⟩ := bind_ok_iff.mp h2
  simp only [create_cfg_finish, bind_ok_iff] at h4
  obtain ⟨_, s3, h5, h6⟩ := h4
  cases h6
  have hb := hcfg _ _ _ _ h3
  have d := dmid_built (dmid_refl (Kt t) _ hw) hb (hq _ _ _ _ h3) c1
  exact q_finish d (List.mem_singleton.mpr rfl) hb.1 hb.2.1 h5

theorem ruleCond_op_log (cond_cfg : Vertex → M (Node × Node × Node)) (hcond : CondOk cond_cfg)
    (hqc : QCondOk cond_cfg) (t : Vertex) :
    RuleCondOk t (create_condition_cfg_op_log cond_cfg t) := by
  intro s r s' hr hw
  simp only [create_condition_cfg_op_log, bind_ok_iff, Prod.exists] at hr
  obtain ⟨lhs, s1, h1, rhs, s2, hq1_1⟩ := hr
  obtain ⟨h2, a, at_, af, s3, hq1_2⟩ := hq1_1
  obtain ⟨h3, b, bt, bf, s4, hq1_3⟩ := hq1_2
  obtain ⟨h4, rt, s5, h5, rf, hq1_4⟩ := hq1_3
  obtain ⟨s6, h6, _, s7, h7, hq1_5⟩ := hq1_4
  obtain ⟨_, s8, h8, _, s9, hq1_6⟩ := hq1_5
  obtain ⟨h9, _, s10, h10, h11⟩ := hq1_6
  have c1 := kt_son h1
  have c2 := kt_son h2
  obtain rfl := son_ok h1
  obtain rfl := son_ok h2
  have d3 := dmid_builtCond (dmid_refl (Kt t) _ hw) (hcond _ _ _ _ h3) (hqc _ _ _ _ h3) c1
  have d4 := dmid_builtCond d3 (hcond _ _ _ _ h4) (hqc _ _ _ _ h4) c2
  have d5 := dmid_new_node d4 h5
  have d6 := dmid_new_node d5 h6
  have d7 := dmid_add_edge d6 h7 (by split <;> simp)
  have d8 := dmid_add_edge d7 h8 (by split <;> simp)
  have d9 := dmid_add_edge d8 h9 (by simp)
  have d10 := dmid_add_edge d9 h10 (by simp)
  cases h11
  exact ⟨_, d10, by simp⟩

theorem ruleCond_default (cfg : Vertex → M (Node × Node)) (hcfg : CfgOk cfg) (hq : QOk cfg)
    (t : Vertex) : RuleCondOk t (create_condition_cfg_default cfg t) := by
  intro s r s' hr hw
  simp only [create_condition_cfg_default, bind_ok_iff, Prod.exists] at hr
  obtain ⟨a, b, s3, h3, rt, hq2_1⟩ := hr
  obtain ⟨s5, h5, rf, s6, h6, hq2_2⟩ := hq2_1
  obtain ⟨_, s7, h7, _, s8, hq2_3⟩ := hq2_2
  obtain ⟨h8, h11⟩ := hq2_3
  have d3 := dmid_built (dmid_refl (Kt t) _ hw) (hcfg _ _ _ _ h3) (hq _ _ _ _ h3) (Or.inl rfl)
  have d5 := dmid_new_node d3 h5
  have d6 := dmid_new_node d5 h6
  have d7 := dmid_add_edge d6 h7 (by simp)
  have d8 := dmid_add_edge d7 h8 (by simp)
  cases h11
  exact ⟨_, d8, by simp⟩

theorem q_all : ∀ fuel, QOk3 (create_cfg fuel) ∧ QCondOk (create_condition_cfg fuel) := by
  intro fuel
  induction fuel with
  | zero =>
    constructor
    · intro v w ww s r s' h
      cases h
    · intro v s r s' h
      cases h
  | succ fuel ih =>
    obtain ⟨ih1, ih2⟩ := ih
    have hb3 : CfgOk3 (create_cfg fuel) := (built_all fuel).1
    have hbc : CondOk (create_condition_cfg fuel) := (built_all fuel).2
    have hcfg : CfgOk fun v => create_cfg fuel v false false := cfgOk_of_cfgOk3 hb3 false false
    have hq : QOk fun v => create_cfg fuel v false false := qOk_of_qOk3 ih1 false false
    constructor
    · intro t w ww
      show QM t (create_cfg (fuel + 1) t w ww)
      unfold create_cfg
      dsimp only
      split
      iterate 7 exact qM_finish _ _ (rule_op_seq _ hcfg hq t) (built_op_seq _ hcfg t)
      exact qM_son_finish _ hcfg hq t _
      iterate 4 exact qM_finish _ _ (rule_op_eq fuel _ hcfg hq t) (built_op_eq fuel _ hcfg t)
      exact qM_finish _ _ (rule_op_index _ hb3 ih1 t w ww) (built_op_index _ hb3 t w ww)
      iterate 2 exact qM_finish _ _ (rule_op_log _ hcfg hq t) (built_op_log _ hcfg t)
      iterate 2 exact qM_finish _ _ (rule_op_call _ hb3 ih1 t) (built_op_call _ hb3 t)
      exact qM_finish _ _ (rule_op_return _ hcfg hq t) (built_op_return _ hcfg t)
      exact qM_finish _ _ (rule_op_set _ hb3 ih1 t) (built_op_set _ hb3 t)
      iterate 12 exact (qM_finish _ _ (rule_op_set_op fuel _ hcfg hq t)
        (built_op_set_op fuel _ hcfg t))
      exact qM_finish _ _ (rule_op_list _ hb3 ih1 t) (built_op_list _ hb3 t)
      exact qM_finish _ _ (rule_op_var t w ww) (built_op_var t w ww)
      exact qM_finish _ _ (rule_op_if _ _ hcfg hbc hq ih2 t) (built_op_if _ _ hcfg hbc t)
      exact (qM_finish _ _ (rule_op_ternary _ _ hcfg hbc hq ih2 t)
        (built_op_ternary _ _ hcfg hbc t))
      exact qM_finish _ _ (rule_op_break t) (built_op_break t)
      exact qM_finish _ _ (rule_op_continue t) (built_op_continue t)
      exact qM_finish _ _ (rule_op_for _ _ hcfg hbc hq ih2 t) (built_op_for _ _ hcfg hbc t)
      iterate 2 exact (qM_finish _ _ (rule_op_while _ _ hcfg hbc hq ih2 t)
        (built_op_while _ _ hcfg hbc t))
      exact qM_finish _ _ (rule_op_foreach _ hcfg hq t) (built_op_foreach _ hcfg t)
      exact qM_finish _ _ (rule_op_switch _ hcfg hq t) (built_op_switch _ hcfg t)
      exact qM_finish _ _ (rule_op_throw _ hcfg hq t) (built_op_throw _ hcfg t)
      exact qM_finish _ _ (rule_op_try _ hb3 ih1 t) (built_op_try _ hb3 t)
      iterate 13 exact qM_son_finish _ hcfg hq t _
      exact qM_finish _ _ (rule_op_function _ hcfg hq t) (built_op_function _ hcfg t)
      exact q_full_cfg fuel t
    · intro t
      show ∀ s r s', create_condition_cfg (fuel + 1) t s = Except.ok (r, s') → W s → Q t s r.1 s'
      unfold create_condition_cfg
      split
      · intro s r s' h hw
        simp only [bind_ok_iff, Prod.exists] at h
        obtain ⟨e, s2, k1, a, b, c, s3, k2, _, s4, k3, k4⟩ := h
        have c1 := kt_son k1
        obtain rfl := son_ok k1
        cases k4
        have hb := hbc _ _ _ _ k2
        exact q_finish (dmid_builtCond (dmid_refl (Kt t) _ hw) hb (ih2 _ _ _ _ k2) c1)
          (List.mem_singleton.mpr rfl) hb.1 hb.2.1 k3
      · intro s r s' h hw
        simp only [bind_ok_iff, Prod.exists] at h
        obtain ⟨e, s2, k1, a, b, hq3_1⟩ := h
        obtain ⟨c, s3, k2, x, y, hq3_2⟩ := hq3_1
        obtain ⟨z, s5, k5, _, s4, hq3_3⟩ := hq3_2
        obtain ⟨k3, k4⟩ := hq3_3
        have c1 := kt_son k1
        obtain rfl := son_ok k1
        cases k5
        cases k4
        have hb := hbc _ _ _ _ k2
        exact q_finish (dmid_builtCond (dmid_refl (Kt t) _ hw) hb (ih2 _ _ _ _ k2) c1)
          (List.mem_singleton.mpr rfl) hb.1 hb.2.1 k3
      · intro s r s' h hw
        simp only [bind_ok_iff, Prod.exists] at h
        obtain ⟨a, b, c, s3, k2, _, s4, k3, k4⟩ := h
        cases k4
        obtain ⟨A, d, ha⟩ := ruleCond_op_log _ hbc ih2 t _ _ _ k2 hw
        have hb := builtCond_op_log _ hbc t _ _ _ k2
        exact q_finish d ha hb.1 hb.2.1 k3
      · intro s r s' h hw
        simp only [bind_ok_iff, Prod.exists] at h
        obtain ⟨a, b, c, s3, k2, _, s4, k3, k4⟩ := h
        cases k4
        obtain ⟨A, d, ha⟩ := ruleCond_op_log _ hbc ih2 t _ _ _ k2 hw
        have hb := builtCond_op_log _ hbc t _ _ _ k2
        exact q_finish d ha hb.1 hb.2.1 k3
      · intro s r s' h hw
        simp only [bind_ok_iff, Prod.exists] at h
        obtain ⟨a, b, c, s3, k2, _, s4, k3, k4⟩ := h
        cases k4
        obtain ⟨A, d, ha⟩ := ruleCond_default _ hcfg hq t _ _ _ k2 hw
        have hb := builtCond_default _ hcfg t _ _ _ k2
        exact q_finish d ha hb.1 hb.2.1 k3

theorem create_cfg_q (fuel : Nat) (t : Vertex) (w ww : Bool) (s : CFG) (r : Node × Node)
    (s' : CFG) (h : create_cfg fuel t w ww s = Except.ok (r, s')) (hw : W s) : Q t s r.1 s' :=
  (q_all fuel).1 t w ww s r s' h hw

theorem vuSame_rel : StepRel VuSame :=
  ⟨fun _ => rfl, fun h1 h2 => Eq.trans h2 h1⟩

set_option maxRecDepth 10000 in
set_option linter.unreachableTactic false in
set_option linter.unusedTactic false in
theorem vuSame_stable : Stable VuSame := by
  refine stable_of_parts vuSame_rel ?_ ?_ ?_ (fun _ _ _ => rfl) ?_ ?_ (fun _ _ _ _ => rfl)
  · refine ⟨fun s r s' h => ?_⟩
    cases h
    rfl
  · intro ty v
    refine ⟨fun s r s' h => ?_⟩
    unfold new_usage at h
    split at h
    · cases h
    · split at h
      · cases h
        rfl
      · cases h
        rfl
  · intro a b
    unfold try_uni_usages
    repeat (first
      | apply preserves_usage_at vuSame_rel
      | apply preserves_get_state vuSame_rel
      | apply preserves_bind vuSame_rel
      | apply preserves_pure vuSame_rel
      | apply preserves_fail
      | (apply preserves_modify_state; intro s; rfl)
      | intro _
      | split
      | dsimp only)
  · intro n m
    refine ⟨fun s r s' h => ?_⟩
    cases n with
    | none => cases h
    | some p =>
      cases h
      rfl
  · intro a b
    refine ⟨fun s r s' h => ?_⟩
    cases a with
    | none => cases h; rfl
    | some p =>
      cases b with
      | none => cases h; rfl
      | some q => cases h; rfl

theorem w_symEdges {F : CFG} (h : W F) : SymEdges F :=
  fun n m hm => (h n m hm).2

theorem w_reach {F : CFG} (h : W F) {e n : Nat} (he : e < F.node_gen) (hr : Reach F e n) :
    n < F.node_gen := by
  induction hr with
  | refl => exact he
  | tail _ hstep _ => exact (h _ _ hstep).1

theorem fut_self (g : Nat) (A : List Node) (F : CFG) : Fut g A F F :=
  ⟨fun _ _ _ _ => rfl, fun _ _ _ h => h, fun _ _ _ h => h⟩

/-- In a tree with distinct ids a marker covers the id of a vertex exactly when it is the
marker of the vertex or a recursive marker of one of its ancestors. -/
theorem covers_iff {T : Vertex} (hT : UniqueIds T) {mk : SubTreeData} {v : Vertex}
    (hm : mk.v ∈ T.subtree) (hv : v ∈ T.subtree) :
    covers mk v.id ↔ (mk.v = v ∨ (mk.recursive_flag = true ∧ v ∈ mk.v.subtree)) := by
  unfold covers
  constructor
  · rintro (h | ⟨h1, x, hx, h2⟩)
    · exact Or.inl (uniqueIds_inj hT hm hv h)
    · have := uniqueIds_inj hT (subtree_trans hm hx) hv h2
      exact Or.inr ⟨h1, this ▸ hx⟩
  · rintro (h | ⟨h1, h2⟩)
    · exact Or.inl (by rw [h])
    · exact Or.inr ⟨h1, v, h2, rfl⟩

/-- The graph of the function before the forward walk: every marker on a node reachable
from the entry belongs to a vertex that hangs below the root on a chain of vertices with
markers on reachable nodes, and the walk confirms exactly the covered vertices. -/
theorem build_confirmed (fuel : Nat) (d : CFGData) (vars : List VarPtr) (G : CFG)
    (hbuild : process_function_build fuel { data := d } = Except.ok (vars, G))
    (hfuel : G.node_gen < fuel) (hids : UniqueIds d.root) :
    ∃ start, G.current_start = some start ∧
      ClosedBelow d.root G.vertex_usage ∧
      (∀ n, Reach G start n → ∀ mk ∈ G.node_subtrees n,
        PathUsed (fun x => (G.vertex_usage x.id).used = true) d.root mk.v) ∧
      ∀ v ∈ d.root.subtree, ((G.vertex_usage v.id).used = true ↔
        ∃ n, Reach G start n ∧ ∃ mk ∈ G.node_subtrees n,
          mk.v = v ∨ (mk.recursive_flag = true ∧ v ∈ mk.v.subtree)) := by
  obtain ⟨_, n0, fin, F, hrun, hcalc⟩ := process_function_build_run fuel d vars G hbuild
  have hw0 : W (start_state d vars) := fun n m hm => absurd hm (List.not_mem_nil m)
  obtain ⟨hq, hwF⟩ := create_cfg_q fuel d.root false false _ _ _ hrun hw0
  have hB := create_cfg_built _ _ _ _ _ _ _ hrun
  have hWs := create_cfg_stable wasStep_stable _ _ _ _ _ _ _ hrun
  have hvu : F.vertex_usage = (start_state d vars).vertex_usage :=
    create_cfg_stable vuSame_stable _ _ _ _ _ _ _ hrun
  obtain ⟨w1, w2, w3, w4, w5, w6, w7, w8, w9, w10⟩ := (calc_used_keep fuel n0).run _ _ _ hcalc
  have he0 : n0 < F.node_gen := by
    have := hB.2.1.2
    simp only [node_code_some] at this
    omega
  have hpath : ∀ n, Reach F n0 n → ∀ mk ∈ F.node_subtrees n,
      PathUsed (Used F n0) d.root mk.v := by
    intro n hn mk hmk
    obtain ⟨c, hc, hp⟩ := hq F n0 (fut_self _ _ F) (w_symEdges hwF)
      (Or.inr (Or.inr (List.mem_singleton.mpr rfl))) n (Nat.zero_le _) (w_reach hwF he0 hn) hn
      mk hmk
    exact hc ▸ hp
  obtain ⟨G', hG', hsame, hcb, hused⟩ := calc_used_reach d.root hids F.node_gen fuel n0
    { F with current_start := some n0, cur_dfs_mark := F.cur_dfs_mark + 1 }
    (fun n _ m hm => (hwF n m hm).1) he0 (by rw [← w6]; exact hfuel)
    (by
      intro n _
      show F.node_was n ≠ F.cur_dfs_mark + 1
      have hm : F.cur_dfs_mark = 0 := hWs.1
      have hz : F.node_was n = 0 := by
        rcases hWs.2 n with e | e
        · rw [e]
          rfl
        · exact e
      rw [hm, hz]
      decide)
    (by
      intro w _ hr
      change (F.vertex_usage w.id).used_rec = true at hr
      rw [hvu] at hr
      cases hr)
    (fun n hn mk hmk => pathUsed_mem (hpath n hn mk hmk))
  rw [hcalc] at hG'
  cases hG'
  obtain ⟨f1, f2, f3, f4, f5, f6, f7⟩ := same_but_walk_fields hsame
  have hreach : ∀ n, Reach G n0 n ↔ Reach F n0 n := fun n => reach_congr f1 n0 n
  have hold : ∀ i, ((F.vertex_usage i).used = true) = False := by
    intro i
    rw [hvu]
    exact eq_false (fun h => Bool.noConfusion h)
  have hU : ∀ x, Used F n0 x → (G.vertex_usage x.id).used = true := by
    rintro x ⟨m, hm, mk, hmk, e⟩
    exact (hused x.id).mpr (Or.inr ⟨m, hm, mk, hmk, Or.inl (by rw [e])⟩)
  refine ⟨n0, f5, hcb, ?_, ?_⟩
  · intro n hn mk hmk
    rw [f2] at hmk
    exact pathUsed_mono hU (hpath n ((hreach n).mp hn) mk hmk)
  · intro v hv
    rw [hused v.id]
    change ((F.vertex_usage v.id).used = true ∨ _) ↔ _
    rw [hold, false_or]
    constructor
    · rintro ⟨n, hn, mk, hmk, hc⟩
      exact ⟨n, (hreach n).mpr hn, mk, by rw [f2]; exact hmk,
        (covers_iff hids (pathUsed_mem (hpath n hn mk hmk)) hv).mp hc⟩
    · rintro ⟨n, hn, mk, hmk, hc⟩
      rw [f2] at hmk
      have hn' := (hreach n).mp hn
      exact ⟨n, hn', mk, hmk, (covers_iff hids (pathUsed_mem (hpath n hn' mk hmk)) hv).mpr hc⟩

/-- C2. Dead-code soundness. Let the steps of `process_function` up to the forward walk
succeed on a function whose vertices have distinct ids, with fuel above the number of
nodes, and let `v` be a vertex of the function body `cmd` (son 1 of the root). Then the
walk started at a node `start`, and: `v` is reported dead, that is `collect_unused` on the
body collects `v` itself or a vertex whose subtree holds `v`, if and only if `v` is not
confirmed; `v` is not confirmed if and only if no node reachable from `start` carries a
marker of `v` or a recursive marker of a vertex whose subtree holds `v`; and a confirmed
`v` is not reported dead. -/
theorem dead_code_soundness (fuel : Nat) (d : CFGData) (vars : List VarPtr) (G : CFG)
    (cmd v : Vertex)
    (hbuild : process_function_build fuel { data := d } = Except.ok (vars, G))
    (hfuel : G.node_gen < fuel) (hids : UniqueIds d.root)
    (hcmd : d.root.sons.get? 1 = some cmd) (hv : v ∈ cmd.subtree) :
    ∃ start, G.current_start = some start ∧
      ((∃ u ∈ collect_unused G.vertex_usage cmd, v ∈ u.subtree) ↔
        (G.vertex_usage v.id).used = false) ∧
      ((G.vertex_usage v.id).used = false ↔
        ¬ ∃ n, Reach G start n ∧ ∃ mk ∈ G.node_subtrees n,
          mk.v = v ∨ (mk.recursive_flag = true ∧ v ∈ mk.v.subtree)) ∧
      ((G.vertex_usage v.id).used = true →
        ¬ ∃ u ∈ collect_unused G.vertex_usage cmd, v ∈ u.subtree) := by
  obtain ⟨start, hs, _, hpath, hused⟩ := build_confirmed fuel d vars G hbuild hfuel hids
  have hcr : cmd ∈ d.root.subtree := by
    rw [List.get?_eq_getElem?] at hcmd
    obtain ⟨hlt, he⟩ := List.getElem?_eq_some_iff.mp hcmd
    exact (mem_subtree_iff _ _).mpr (Or.inr ⟨cmd, he ▸ List.getElem_mem hlt, self_mem_subtree _⟩)
  have hvr : v ∈ d.root.subtree := subtree_trans hcr hv
  have key : (∃ u ∈ collect_unused G.vertex_usage cmd, v ∈ u.subtree) ↔
      (G.vertex_usage v.id).used = false := by
    constructor
    · rintro ⟨u, hu, hvu⟩
      obtain ⟨hu1, hu2⟩ := collect_unused_sound _ _ _ hu
      have hur : u ∈ d.root.subtree := subtree_trans hcr hu1
      cases hc : (G.vertex_usage v.id).used with
      | false => rfl
      | true =>
        exfalso
        obtain ⟨n, hn, mk, hmk, hcov⟩ := (hused v hvr).mp hc
        have hp := hpath n hn mk hmk
        have hp2 : PathUsed (fun x => (G.vertex_usage x.id).used = true) d.root v := by
          rcases hcov with e | ⟨e1, e2⟩
          · exact e ▸ hp
          · refine pathUsed_trans hp (pathUsed_of_all (fun x hx => ?_) e2)
            exact (hused x (subtree_trans (pathUsed_mem hp) hx)).mpr
              ⟨n, hn, mk, hmk, Or.inr ⟨e1, hx⟩⟩
        have := pathUsed_between hp2 hids u hur hvu
        rw [hu2] at this
        cases this
    · exact collect_unused_complete _ _ _ hv
  refine ⟨start, hs, key, ?_, ?_⟩
  · rw [← hused v hvr]
    cases (G.vertex_usage v.id).used <;> simp
  · intro h1 h2
    rw [key.mp h2] at h1
    cases h1

/-- Witness of C2: the function
`function f() { $x = 1; echo $x; $x = "s"; echo $x; return; echo $x; }`, built with fuel
30, and the occurrence of `$x` in the statement after the `return` (vertex 15). -/
theorem dead_code_soundness_witness :
    run_result (process_function_build 30 { data := mk_data sample_dead_usage ["x"] }) =
      some [0] ∧
    (built_state 30 sample_dead_usage ["x"]).node_gen < 30 ∧
    UniqueIds (mk_data sample_dead_usage ["x"]).root ∧
    ∃ start, (built_state 30 sample_dead_usage ["x"]).current_start = some start ∧
      ((∃ u ∈ collect_unused (built_state 30 sample_dead_usage ["x"]).vertex_usage
          (mk_op 2 Operation.op_seq
            [mk_op 3 Operation.op_set [mk_var 4 0, mk_const 5 "1"],
             mk_op 6 Operation.op_echo [mk_var 7 0],
             mk_op 8 Operation.op_set [mk_var 9 0, mk_const 10 "s"],
             mk_op 11 Operation.op_echo [mk_var 12 0],
             mk_op 13 Operation.op_return [],
             mk_op 14 Operation.op_echo [mk_var 15 0]]), mk_var 15 0 ∈ u.subtree) ↔
        ((built_state 30 sample_dead_usage ["x"]).vertex_usage (mk_var 15 0).id).used = false) ∧
      (((built_state 30 sample_dead_usage ["x"]).vertex_usage (mk_var 15 0).id).used = false ↔
        ¬ ∃ n, Reach (built_state 30 sample_dead_usage ["x"]) start n ∧
          ∃ mk ∈ (built_state 30 sample_dead_usage ["x"]).node_subtrees n,
            mk.v = mk_var 15 0 ∨ (mk.recursive_flag = true ∧ mk_var 15 0 ∈ mk.v.subtree)) ∧
      (((built_state 30 sample_dead_usage ["x"]).vertex_usage (mk_var 15 0).id).used = true →
        ¬ ∃ u ∈ collect_unused (built_state 30 sample_dead_usage ["x"]).vertex_usage
          (mk_op 2 Operation.op_seq
            [mk_op 3 Operation.op_set [mk_var 4 0, mk_const 5 "1"],
             mk_op 6 Operation.op_echo [mk_var 7 0],
             mk_op 8 Operation.op_set [mk_var 9 0, mk_const 10 "s"],
             mk_op 11 Operation.op_echo [mk_var 12 0],
             mk_op 13 Operation.op_return [],
             mk_op 14 Operation.op_echo [mk_var 15 0]]), mk_var 15 0 ∈ u.subtree) := by
  have h1 : run_result (process_function_build 30
      { data := mk_data sample_dead_usage ["x"] }) = some [0] := by decide!
  have h2 : (built_state 30 sample_dead_usage ["x"]).node_gen < 30 := by decide!
  have h3 : UniqueIds (mk_data sample_dead_usage ["x"]).root := by
    unfold UniqueIds
    decide
  exact ⟨h1, h2, h3, dead_code_soundness 30 (mk_data sample_dead_usage ["x"]) [0]
    (built_state 30 sample_dead_usage ["x"]) _ (mk_var 15 0) (run_eq_of_result _ _ h1) h2 h3
    rfl ((mem_subtree_iff _ _).mpr (Or.inr ⟨mk_op 14 Operation.op_echo [mk_var 15 0],
      by simp [mk_op, Vertex.sons],
      (mem_subtree_iff _ _).mpr (Or.inr ⟨mk_var 15 0, by simp [mk_op, Vertex.sons],
        self_mem_subtree _⟩)⟩))⟩

theorem flagsKept_refl (vu : Nat → VertexUsage) : FlagsKept vu vu :=
  fun _ => ⟨fun h => h, fun h => h⟩

theorem flagsKept_trans {a b c : Nat → VertexUsage} (h1 : FlagsKept a b) (h2 : FlagsKept b c) :
    FlagsKept a c :=
  fun i => ⟨fun h => (h2 i).1 ((h1 i).1 h), fun h => (h2 i).2 ((h1 i).2 h)⟩

theorem flagsKept_used (vu : Nat → VertexUsage) (i : Nat) :
    FlagsKept vu (upd vu i { vu i with used := true }) := by
  intro j
  by_cases e : j = i
  · subst e
    rw [upd_same]
    exact ⟨fun _ => rfl, fun h => h⟩
  · rw [upd_other _ _ _ _ e]
    exact ⟨fun h => h, fun h => h⟩

theorem flagsKept_used_rec (vu : Nat → VertexUsage) (i : Nat) :
    FlagsKept vu (upd vu i { vu i with used_rec := true }) := by
  intro j
  by_cases e : j = i
  · subst e
    rw [upd_same]
    exact ⟨fun h => h, fun _ => rfl⟩
  · rw [upd_other _ _ _ _ e]
    exact ⟨fun h => h, fun h => h⟩

theorem confirm_sons_kept (l : List Vertex)
    (ih : ∀ c ∈ l, ∀ flag vu, FlagsKept vu (confirm_usage c flag vu)) :
    ∀ vu, FlagsKept vu (confirm_usage_sons l vu) := by
  induction l with
  | nil =>
    intro vu
    rw [confirm_usage_sons_nil]
    exact flagsKept_refl vu
  | cons x xs ihl =>
    intro vu
    rw [confirm_usage_sons_cons]
    exact flagsKept_trans (ih x (List.mem_cons_self _ _) true vu)
      (ihl (fun c hc => ih c (List.mem_cons_of_mem _ hc)) _)

/-- The function `confirm_usage` clears no flag. -/
theorem confirm_usage_kept (v : Vertex) :
    ∀ (flag : Bool) (vu : Nat → VertexUsage), FlagsKept vu (confirm_usage v flag vu) := by
  induction v using vertex_induct with
  | h i ty e sons ih =>
    intro flag vu
    rw [confirm_usage_eq]
    by_cases hg : (!(vu i).used || (flag && !(vu i).used_rec)) = true
    · rw [if_pos hg]
      cases flag with
      | false =>
        simp only [Bool.false_eq_true, if_false]
        exact flagsKept_used vu i
      | true =>
        simp only [if_true]
        exact flagsKept_trans (flagsKept_used vu i)
          (flagsKept_trans (flagsKept_used_rec _ i) (confirm_sons_kept sons ih _))
    · rw [if_neg hg]
      exact flagsKept_refl vu

/-- A second run of `confirm_usage` with the same arguments changes nothing. -/
theorem confirm_usage_twice (v : Vertex) (flag : Bool) (vu : Nat → VertexUsage) :
    confirm_usage v flag (confirm_usage v flag vu) = confirm_usage v flag vu := by
  obtain ⟨i, ty, e, sons⟩ := v
  have key : (!((confirm_usage (Vertex.mk i ty e sons) flag vu) i).used ||
      (flag && !((confirm_usage (Vertex.mk i ty e sons) flag vu) i).used_rec)) = false := by
    rw [confirm_usage_eq]
    by_cases hg : (!(vu i).used || (flag && !(vu i).used_rec)) = true
    · rw [if_pos hg]
      cases flag with
      | false =>
        simp only [Bool.false_eq_true, if_false, upd_same, Bool.not_true, Bool.false_and,
          Bool.or_false]
      | true =>
        simp only [if_true]
        have k := confirm_sons_kept sons (fun c _ => confirm_usage_kept c)
          (upd (upd vu i { vu i with used := true }) i
            { (upd vu i { vu i with used := true }) i with used_rec := true }) i
        rw [upd_same] at k
        have k1 := k.1 (by show (upd vu i { vu i with used := true } i).used = true
                           rw [upd_same])
        have k2 := k.2 rfl
        rw [k1, k2]
        rfl
    · rw [if_neg hg]
      simpa using hg
  conv_lhs => rw [confirm_usage_eq]
  rw [key]
  rfl

theorem confirm_subtrees_kept (l : List SubTreeData) :
    ∀ vu, FlagsKept vu (confirm_subtrees l vu) := by
  induction l with
  | nil =>
    intro vu
    unfold confirm_subtrees
    exact flagsKept_refl vu
  | cons m ms ih =>
    intro vu
    unfold confirm_subtrees
    exact flagsKept_trans (confirm_usage_kept m.v m.recursive_flag vu) (ih _)

/-- The recursive flags after the loop over the markers `l` of vertices of `T`. -/
theorem confirm_subtrees_rec (T : Vertex) (hT : UniqueIds T) (l : List SubTreeData) :
    ∀ vu, (∀ mk ∈ l, mk.v ∈ T.subtree) → ClosedBelow T vu →
      ∀ i, ((confirm_subtrees l vu) i).used_rec = true ↔
        ((vu i).used_rec = true ∨ ∃ mk ∈ l, covers_rec mk i) := by
  induction l with
  | nil =>
    intro vu _ _ i
    unfold confirm_subtrees
    simp
  | cons m ms ih =>
    intro vu hl hc i
    have hm := hl m (List.mem_cons_self _ _)
    have hcm : ClosedBelow m.v vu :=
      fun w hw hr x hx => hc w (subtree_trans hm hw) hr x hx
    obtain ⟨_, s2⟩ := confirm_spec m.v m.recursive_flag vu (uniqueIds_subtree hT hm) hcm
    have hc1 : ClosedBelow T (confirm_usage m.v m.recursive_flag vu) :=
      (confirm_subtrees_spec T hT [m] vu
        (fun mk hmk => by rw [List.mem_singleton.mp hmk]; exact hm) hc).1
    have r := ih _ (fun mk hmk => hl mk (List.mem_cons_of_mem _ hmk)) hc1 i
    unfold confirm_subtrees
    rw [r, s2 i]
    unfold covers_rec
    constructor
    · rintro ((h | h) | ⟨mk, hmk, h⟩)
      · exact Or.inl h
      · exact Or.inr ⟨m, List.mem_cons_self _ _, h⟩
      · exact Or.inr ⟨mk, List.mem_cons_of_mem _ hmk, h⟩
    · rintro (h | ⟨mk, hmk, h⟩)
      · exact Or.inl (Or.inl h)
      · rcases List.mem_cons.mp hmk with e1 | e1
        · subst e1
          exact Or.inl (Or.inr h)
        · exact Or.inr ⟨mk, e1, h⟩

theorem vertexUsage_ext {a b : VertexUsage} (h1 : a.used = true ↔ b.used = true)
    (h2 : a.used_rec = true ↔ b.used_rec = true) : a = b := by
  obtain ⟨a1, a2⟩ := a
  obtain ⟨b1, b2⟩ := b
  have e1 : a1 = b1 := Bool.eq_iff_iff.mpr h1
  have e2 : a2 = b2 := Bool.eq_iff_iff.mpr h2
  rw [e1, e2]

/-- C29. Confirmation is monotonic and order-independent. The function `confirm_usage`
clears no `used` and no `used_rec` flag, and a second run with the same arguments changes
nothing. For markers of vertices of a tree `T` with distinct ids, applied to a map that is
closed below `T` (as the initial map is), the final map is the same for every order of the
markers, and a vertex id is confirmed afterwards exactly when it was confirmed before, or
it is the id of the target of an applied marker, or of a vertex in the subtree of the
target of an applied recursive marker. -/
theorem confirm_monotonic_order_independent (T : Vertex) (hT : UniqueIds T)
    (vu : Nat → VertexUsage) (hc : ClosedBelow T vu) :
    (∀ v flag vu0, FlagsKept vu0 (confirm_usage v flag vu0)) ∧
    (∀ v flag vu0, confirm_usage v flag (confirm_usage v flag vu0) = confirm_usage v flag vu0) ∧
    (∀ l l' : List SubTreeData, (∀ mk ∈ l, mk.v ∈ T.subtree) → l.Perm l' →
      confirm_subtrees l vu = confirm_subtrees l' vu) ∧
    (∀ l : List SubTreeData, (∀ mk ∈ l, mk.v ∈ T.subtree) →
      ∀ i, ((confirm_subtrees l vu) i).used = true ↔
        ((vu i).used = true ∨ ∃ mk ∈ l, mk.v.id = i ∨
          (mk.recursive_flag = true ∧ ∃ x ∈ mk.v.subtree, x.id = i))) := by
  refine ⟨fun v => confirm_usage_kept v, confirm_usage_twice, ?_, ?_⟩
  · intro l l' hl hp
    have hl' : ∀ mk ∈ l', mk.v ∈ T.subtree := fun mk hmk => hl mk (hp.mem_iff.mpr hmk)
    funext i
    apply vertexUsage_ext
    · rw [(confirm_subtrees_spec T hT l vu hl hc).2 i,
        (confirm_subtrees_spec T hT l' vu hl' hc).2 i]
      exact or_congr Iff.rfl
        ⟨fun ⟨mk, h1, h2⟩ => ⟨mk, hp.mem_iff.mp h1, h2⟩,
          fun ⟨mk, h1, h2⟩ => ⟨mk, hp.mem_iff.mpr h1, h2⟩⟩
    · rw [confirm_subtrees_rec T hT l vu hl hc i, confirm_subtrees_rec T hT l' vu hl' hc i]
      exact or_congr Iff.rfl
        ⟨fun ⟨mk, h1, h2⟩ => ⟨mk, hp.mem_iff.mp h1, h2⟩,
          fun ⟨mk, h1, h2⟩ => ⟨mk, hp.mem_iff.mpr h1, h2⟩⟩
  · intro l hl i
    exact (confirm_subtrees_spec T hT l vu hl hc).2 i

/-- Witness of C29: the tree `echo 1; echo 2;` and the initial map, in which no vertex is
confirmed. -/
theorem confirm_monotonic_order_independent_witness :
    UniqueIds sample_two_echo ∧ ClosedBelow sample_two_echo (fun _ => {}) ∧
    (∀ v flag vu0, FlagsKept vu0 (confirm_usage v flag vu0)) ∧
    (∀ v flag vu0, confirm_usage v flag (confirm_usage v flag vu0) = confirm_usage v flag vu0) ∧
    (∀ l l' : List SubTreeData, (∀ mk ∈ l, mk.v ∈ sample_two_echo.subtree) → l.Perm l' →
      confirm_subtrees l (fun _ => {}) = confirm_subtrees l' (fun _ => {})) ∧
    (∀ l : List SubTreeData, (∀ mk ∈ l, mk.v ∈ sample_two_echo.subtree) →
      ∀ i, ((confirm_subtrees l (fun _ => {})) i).used = true ↔
        (((fun _ => {} : Nat → VertexUsage) i).used = true ∨ ∃ mk ∈ l, mk.v.id = i ∨
          (mk.recursive_flag = true ∧ ∃ x ∈ mk.v.subtree, x.id = i))) :=
  have h1 : UniqueIds sample_two_echo := by
    unfold UniqueIds
    decide
  have h2 : ClosedBelow sample_two_echo (fun _ => {}) :=
    fun _ _ hr => Bool.noConfusion hr
  ⟨h1, h2, confirm_monotonic_order_independent sample_two_echo h1 (fun _ => {}) h2⟩

theorem new_node_graph {r : Node} {s s' : CFG} (h : new_node s = Except.ok (r, s')) :
    r = some s.node_gen ∧ s'.node_gen = s.node_gen + 1 ∧
      s'.node_next = upd s.node_next s.node_gen [] ∧
      s'.node_subtrees = upd s.node_subtrees s.node_gen [] := by
  cases h
  exact ⟨rfl, rfl, rfl, rfl⟩

theorem add_edge_graph {a b : Nat} {s s' : CFG}
    (h : add_edge (some a) (some b) s = Except.ok ((), s')) :
    s'.node_gen = s.node_gen ∧ s'.node_next = upd s.node_next a (s.node_next a ++ [b]) ∧
      s'.node_subtrees = s.node_subtrees := by
  cases h
  exact ⟨rfl, rfl, rfl⟩

theorem add_subtree_graph {n : Nat} {st : SubTreeData} {s s' : CFG}
    (h : add_subtree (some n) st s = Except.ok ((), s')) :
    s'.node_gen = s.node_gen ∧ s'.node_next = s.node_next ∧
      s'.node_subtrees = upd s.node_subtrees n (s.node_subtrees n ++ [st]) := by
  cases h
  exact ⟨rfl, rfl, rfl⟩

/-- The nodes, edges and markers of the generic graph. -/
theorem full_cfg_graph (fuel : Nat) (t : Vertex) (s : CFG) (a b : Node) (s' : CFG)
    (h : create_full_cfg fuel t s = Except.ok ((a, b), s')) :
    a = some s.node_gen ∧ b = some (s.node_gen + 1) ∧ s'.node_gen = s.node_gen + 4 ∧
    s'.node_next s.node_gen = [s.node_gen + 2, s.node_gen + 3] ∧
    s'.node_next (s.node_gen + 2) = [s.node_gen + 3, s.node_gen + 1] ∧
    s'.node_next (s.node_gen + 3) = [s.node_gen + 1] ∧
    s'.node_next (s.node_gen + 1) = [] ∧
    s'.node_subtrees s.node_gen = [new_subtree t true] ∧
    s'.node_subtrees (s.node_gen + 1) = [] ∧ s'.node_subtrees (s.node_gen + 2) = [] ∧
    s'.node_subtrees (s.node_gen + 3) = [] ∧
    (∀ n, n < s.node_gen → s'.node_next n = s.node_next n ∧
      s'.node_subtrees n = s.node_subtrees n) := by
  simp only [create_full_cfg, bind_ok_iff] at h
  obtain ⟨start, s1, h1, finish, s2, hq1_1⟩ := h
  obtain ⟨h2, writes, s3, h3, reads, hq1_2⟩ := hq1_1
  obtain ⟨s4, h4, ct, s5, h5, hq1_3⟩ := hq1_2
  obtain ⟨_, s6, h6, _, s7, hq1_4⟩ := hq1_3
  obtain ⟨h7, _, s8, h8, _, hq1_5⟩ := hq1_4
  obtain ⟨s9, h9, _, s10, h10, hq1_6⟩ := hq1_5
  obtain ⟨_, s11, h11, _, s12, hq1_7⟩ := hq1_6
  obtain ⟨h12, _, s13, h13, _, hq1_8⟩ := hq1_7
  obtain ⟨s14, h14, h15⟩ := hq1_8
  obtain ⟨rfl, g1, x1, y1⟩ := new_node_graph h1
  obtain ⟨rfl, g2, x2, y2⟩ := new_node_graph h2
  obtain ⟨rfl, g3, x3, y3⟩ := new_node_graph h3
  obtain ⟨rfl, g4, x4, y4⟩ := new_node_graph h4
  obtain ⟨g5, x5, _, y5⟩ := (graphSame_collect fuel t _ _ false).run _ _ _ h5
  obtain ⟨g6, x6, _, y6⟩ := (graphSame_compress _).run _ _ _ h6
  obtain ⟨g7, x7, _, y7⟩ := (graphSame_compress _).run _ _ _ h7
  obtain ⟨g8, x8, y8⟩ := add_subtree_graph h8
  obtain ⟨g9, x9, y9⟩ := add_edge_graph h9
  obtain ⟨g10, x10, y10⟩ := add_edge_graph h10
  obtain ⟨g11, x11, y11⟩ := add_edge_graph h11
  obtain ⟨g12, x12, y12⟩ := add_edge_graph h12
  obtain ⟨g13, x13, y13⟩ := add_edge_graph h13
  have q14 : GraphSame s13 s14 := by
    by_cases hc : ct = true
    · rw [if_pos hc] at h14
      exact (graphSame_register_exception _).run _ _ _ h14
    · rw [if_neg hc] at h14
      cases h14
      exact graphSame_rel.refl _
  obtain ⟨g14, x14, _, y14⟩ := q14
  cases h15
  have e1 : s1.node_gen = s.node_gen + 1 := g1
  have e2 : s2.node_gen = s.node_gen + 2 := by omega
  have e3 : s3.node_gen = s.node_gen + 3 := by omega
  simp only [x14, x13, x12, x11, x10, x9, x8, x7, x6, x5, x4, x3, x2, x1,
    y14, y13, y12, y11, y10, y9, y8, y7, y6, y5, y4, y3, y2, y1, e1, e2, e3]
  refine ⟨trivial, trivial, by omega, ?_, ?_, ?_, ?_, ?_, ?_, ?_, ?_, ?_⟩
  all_goals simp [upd]
  intro n hn
  have e0 : n ≠ s.node_gen := by omega
  have e1 : n ≠ s.node_gen + 1 := by omega
  have e2 : n ≠ s.node_gen + 2 := by omega
  have e3 : n ≠ s.node_gen + 3 := by omega
  simp [e0, e1, e2, e3]

/-- C25 (amended). The generic rule creates exactly four nodes, in the order start,
finish, writes, reads, and exactly five edges among them: start to writes, start to
reads, writes to reads, writes to finish, and reads to finish; the finish has no
successor. It attaches to the start exactly one marker, the recursive marker of the
vertex, and leaves the edges and markers of the nodes that existed as they were. -/
theorem full_cfg_shape (fuel : Nat) (t : Vertex) (s : CFG) (a b : Node) (s' : CFG)
    (h : create_full_cfg fuel t s = Except.ok ((a, b), s')) :
    a = some s.node_gen ∧ b = some (s.node_gen + 1) ∧ s'.node_gen = s.node_gen + 4 ∧
    s'.node_next s.node_gen = [s.node_gen + 2, s.node_gen + 3] ∧
    s'.node_next (s.node_gen + 2) = [s.node_gen + 3, s.node_gen + 1] ∧
    s'.node_next (s.node_gen + 3) = [s.node_gen + 1] ∧
    s'.node_next (s.node_gen + 1) = [] ∧
    s'.node_subtrees s.node_gen = [new_subtree t true] ∧
    s'.node_subtrees (s.node_gen + 1) = [] ∧ s'.node_subtrees (s.node_gen + 2) = [] ∧
    s'.node_subtrees (s.node_gen + 3) = [] ∧
    (∀ n, n < s.node_gen → s'.node_next n = s.node_next n ∧
      s'.node_subtrees n = s.node_subtrees n) :=
  full_cfg_graph fuel t s a b s' h

/-- Counterexample to C25 as stated: in the generic graph of a constant (start 0, finish 1,
writes 2, reads 3) the start has an edge to the reads node and the writes node has an edge
to the finish, so the four nodes are not a chain: the path 0, 3, 1 from the start to the
finish does not pass through the writes node, and the path 0, 2, 1 does not pass through
the reads node. -/
theorem full_cfg_not_a_chain :
    run_result (create_full_cfg 2 (mk_const 1 "1") {}) = some (some 0, some 1) ∧
    sample_full_const.node_next 0 = [2, 3] ∧ sample_full_const.node_next 2 = [3, 1] ∧
    sample_full_const.node_next 3 = [1] ∧
    (3 ∈ sample_full_const.node_next 0 ∧ 1 ∈ sample_full_const.node_next 3) ∧
    (2 ∈ sample_full_const.node_next 0 ∧ 1 ∈ sample_full_const.node_next 2) := by
  refine ⟨by decide!, by decide!, by decide!, by decide!, ⟨by decide!, by decide!⟩,
    ⟨by decide!, by decide!⟩⟩

/-- Witness of C25 (amended): the generic graph of a constant built in the empty state. -/
theorem full_cfg_shape_witness :
    run_result (create_full_cfg 2 (mk_const 1 "1") {}) = some (some 0, some 1) ∧
    sample_full_const.node_gen = 4 ∧
    sample_full_const.node_next 0 = [2, 3] ∧ sample_full_const.node_next 2 = [3, 1] ∧
    sample_full_const.node_next 3 = [1] ∧ sample_full_const.node_next 1 = [] ∧
    sample_full_const.node_subtrees 0 = [new_subtree (mk_const 1 "1") true] := by
  have h : run_result (create_full_cfg 2 (mk_const 1 "1") {}) = some (some 0, some 1) := by
    decide!
  obtain ⟨_, _, q3, q4, q5, q6, q7, q8, _⟩ := full_cfg_shape 2 (mk_const 1 "1") {} (some 0)
    (some 1) sample_full_const (run_eq_of_result _ _ h)
  have z : ({} : CFG).node_gen = 0 := rfl
  rw [z] at q3 q4 q5 q6 q7 q8
  simp only [Nat.zero_add] at q3 q4 q5 q6 q7
  exact ⟨h, q3, q4, q5, q6, q7, q8⟩

/-- The graph of a variable with a split state: one new node without edges that is start
and finish and carries the one new usage, of the kind and with the weak-write flag that the
flags of the call give. -/
theorem op_var_built (k : Nat) (v : Vertex) (w ww : Bool) (x : VarPtr) (vs : VarSplitData)
    (s s' : CFG) (a b : Node) (hv : v.type = Operation.op_var)
    (hx : s.data.get_var_id v = some x) (hs : get_var_split s x = some vs)
    (h : create_cfg (k + 1) v w ww s = Except.ok ((a, b), s')) :
    a = some s.node_gen ∧ b = some s.node_gen ∧ s'.node_gen = s.node_gen + 1 ∧
    s'.usage_cnt = s.usage_cnt + 1 ∧
    s'.node_usages s.node_gen = [s.usage_cnt] ∧
    s'.usage_data s.usage_cnt = some
      { id := (vs.usage_gen.length : Int)
        type := if w then UsageType.usage_write_t else UsageType.usage_read_t
        weak_write_flag := ww
        v := v
        node := some s.node_gen } ∧
    s'.node_prev s.node_gen = [] ∧ s'.node_next s.node_gen = [] ∧
    (∀ n, n ≠ s.node_gen → s'.node_prev n = s.node_prev n ∧ s'.node_next n = s.node_next n) := by
  obtain ⟨s1, h1, h2⟩ := op_var_run k v w ww s s' a b hv h
  unfold get_var_split at hs
  simp only [create_cfg_op_var, bind_run, new_node, new_usage, get_var_split, hx, hs, usage_at,
    upd_same, modify_state_run, add_usage, node_id, pure_run, get_state_run,
    List.getLast?_nil] at h1
  cases h1
  cases h2
  refine ⟨rfl, rfl, rfl, rfl, ?_, ?_, ?_, ?_, ?_⟩
  · show upd _ s.node_gen _ s.node_gen = _
    rw [upd_same]
    rfl
  · show upd _ s.usage_cnt _ s.usage_cnt = _
    rw [upd_same]
  · show upd _ s.node_gen _ s.node_gen = _
    rw [upd_same]
  · show upd _ s.node_gen _ s.node_gen = _
    rw [upd_same]
  · intro n hn
    exact ⟨upd_other _ _ _ _ hn, upd_other _ _ _ _ hn⟩

/-- C22. Assignment order. For a plain assignment `lhs = rhs`, `create_cfg` builds `rhs`
first, with both flags unset, and then `lhs` with the write flag set and the weak-write
flag unset; the start of the assignment is the start of `rhs`, the finish is the finish
of `lhs`, and the finish of `rhs` has an edge to the start of `lhs`. When `lhs` is a
variable with a split state, its graph is one node created after the graph of `rhs`,
the only usage created for it is a `Write` without the weak-write flag attached to that
node, and the only predecessor of that node is the finish of `rhs`. -/
theorem assignment_order (fuel : Nat) (t lhs rhs : Vertex) (w ww : Bool) (s s' : CFG)
    (a b : Node) (ht : t.type = Operation.op_set) (hs : t.sons = [lhs, rhs])
    (h : create_cfg (fuel + 1) t w ww s = Except.ok ((a, b), s')) :
    ∃ eb va se sv,
      create_cfg fuel rhs false false s = Except.ok ((a, eb), se) ∧
      create_cfg fuel lhs true false se = Except.ok ((va, b), sv) ∧
      (∀ e v, eb = some e → va = some v → v ∈ s'.node_next e ∧ e ∈ s'.node_prev v) ∧
      (∀ x vs, lhs.type = Operation.op_var → se.data.get_var_id lhs = some x →
        get_var_split se x = some vs →
        s.node_gen ≤ se.node_gen ∧ va = some se.node_gen ∧ b = some se.node_gen ∧
        s'.node_gen = se.node_gen + 1 ∧ s'.usage_cnt = se.usage_cnt + 1 ∧
        s'.node_usages se.node_gen = [se.usage_cnt] ∧
        s'.usage_data se.usage_cnt = some
          { id := (vs.usage_gen.length : Int)
            type := UsageType.usage_write_t
            weak_write_flag := false
            v := lhs
            node := some se.node_gen } ∧
        s'.node_prev se.node_gen = eb.toList) := by
  obtain ⟨eb, va, se, sv, sv', h1, h2, h3, h4⟩ := op_set_run fuel t lhs rhs w ww s s' a b ht hs h
  have st3 := add_edge_store h3
  have st4 := add_subtree_store h4
  have hprev : s'.node_prev = sv'.node_prev := by
    cases a with
    | none => cases h4
    | some p => cases h4; rfl
  have hnext : s'.node_next = sv'.node_next := (add_subtree_next h4).1
  have hcnt4 : s'.usage_cnt = sv'.usage_cnt := by
    cases a with
    | none => cases h4
    | some p => cases h4; rfl
  refine ⟨eb, va, se, sv, h1, h2, ?_, ?_⟩
  · intro e v he hv
    subst he
    subst hv
    cases h3
    rw [hprev, hnext]
    constructor
    · show v ∈ upd sv.node_next e (sv.node_next e ++ [v]) e
      rw [upd_same]
      exact List.mem_append_right _ (List.mem_singleton.mpr rfl)
    · show e ∈ upd sv.node_prev v (sv.node_prev v ++ [e]) v
      rw [upd_same]
      exact List.mem_append_right _ (List.mem_singleton.mpr rfl)
  · intro x vs hv hx hsp
    cases fuel with
    | zero => cases h2
    | succ k =>
      obtain ⟨q1, q2, q3, q4, q5, q6, q7, q8, _⟩ :=
        op_var_built k lhs true false x vs se sv va b hv hx hsp h2
      have hle : s.node_gen ≤ se.node_gen := (create_cfg_built _ _ _ _ _ _ _ h1).1.le
      have hcnt3 : sv'.usage_cnt = sv.usage_cnt := by
        cases eb with
        | none => cases h3; rfl
        | some e =>
          rw [q1] at h3
          cases h3
          rfl
      refine ⟨hle, q1, q2, ?_, ?_, ?_, ?_, ?_⟩
      · rw [st4.2.2.2.1, st3.2.2.2.1, q3]
      · rw [hcnt4, hcnt3, q4]
      · rw [st4.1, st3.1, q5]
      · rw [st4.2.1, st3.2.1, q6]
        rfl
      · rw [hprev]
        subst q1
        cases eb with
        | none =>
          cases h3
          exact q7
        | some e =>
          cases h3
          show upd sv.node_prev se.node_gen (sv.node_prev se.node_gen ++ [e]) se.node_gen = [e]
          rw [upd_same, q7]
          rfl

/-- Witness of C22: the assignment `$x = $y` built with fuel 3: the graph of `$y` is node 0,
the graph of `$x` is node 1, and node 0 has an edge to node 1. -/
theorem assignment_order_witness :
    run_result (create_cfg 3 (mk_op 3 Operation.op_set [mk_var 4 0, mk_var 5 1]) false false
      sample_assign_state) = some (some 0, some 1) ∧
    ∃ eb va se sv,
      create_cfg 2 (mk_var 5 1) false false sample_assign_state = Except.ok ((some 0, eb), se) ∧
      create_cfg 2 (mk_var 4 0) true false se = Except.ok ((va, some 1), sv) ∧
      (∀ e v, eb = some e → va = some v →
        v ∈ (state_after (create_cfg 3 (mk_op 3 Operation.op_set [mk_var 4 0, mk_var 5 1])
          false false sample_assign_state)).node_next e ∧
        e ∈ (state_after (create_cfg 3 (mk_op 3 Operation.op_set [mk_var 4 0, mk_var 5 1])
          false false sample_assign_state)).node_prev v) := by
  have h : run_result (create_cfg 3 (mk_op 3 Operation.op_set [mk_var 4 0, mk_var 5 1])
      false false sample_assign_state) = some (some 0, some 1) := by decide!
  obtain ⟨eb, va, se, sv, q1, q2, q3, _⟩ := assignment_order 2
    (mk_op 3 Operation.op_set [mk_var 4 0, mk_var 5 1]) (mk_var 4 0) (mk_var 5 1) false false
    sample_assign_state _ (some 0) (some 1) rfl rfl (run_eq_of_result _ _ h)
  exact ⟨h, eb, va, se, sv, q1, q2, q3⟩

theorem new_node_store {r : Node} {s s' : CFG} (h : new_node s = Except.ok (r, s')) :
    r = some s.node_gen ∧ s'.node_gen = s.node_gen + 1 ∧ s'.usage_cnt = s.usage_cnt ∧
      s'.usage_data = s.usage_data ∧ s'.data = s.data ∧
      s'.var_split_data = s.var_split_data ∧
      s'.node_usages = upd s.node_usages s.node_gen [] := by
  cases h
  exact ⟨rfl, rfl, rfl, rfl, rfl, rfl, rfl⟩

theorem collect_var_leaf_cnt (k : Nat) (v : Vertex) (w : Node) (r : Nat) (b : Bool) (s : CFG)
    (x : VarPtr) (vs : VarSplitData) (hs : v.sons = []) (ht : v.type = Operation.op_var)
    (hx : s.data.get_var_id v = some x) (hsp : get_var_split s x = some vs)
    (hr : s.node_usages r = []) :
    ∃ s', collect_vars_usage (k + 1) v w (some r) b s = Except.ok (b, s') ∧
      s'.node_usages = upd s.node_usages r [s.usage_cnt] ∧
      s'.usage_data s.usage_cnt = some
        { id := (vs.usage_gen.length : Int), type := UsageType.usage_read_t, v := v,
          node := some r } ∧
      s'.usage_cnt = s.usage_cnt + 1 ∧ s'.node_gen = s.node_gen ∧
      s'.node_next = s.node_next := by
  unfold get_var_split at hsp
  unfold collect_vars_usage
  simp only [ht, hs, if_false, for_each_flag, bind_run, pure_run, Bool.false_eq_true,
    new_usage, get_var_split, hx, hsp, usage_at, upd_same, modify_state_run, add_usage, node_id,
    get_state_run, hr, List.getLast?_nil, if_true, reduceCtorEq, List.nil_append]
  exact ⟨_, rfl, rfl, by show upd _ s.usage_cnt _ s.usage_cnt = _; rw [upd_same], rfl, rfl, rfl⟩

/-- The generic rule on a variable with a split state: the one usage created is a `Read`
attached to the reads node, and the writes node carries no usage. -/
theorem full_cfg_var_leaf (k : Nat) (v : Vertex) (s : CFG) (a b : Node) (s' : CFG)
    (x : VarPtr) (vs : VarSplitData) (hs : v.sons = []) (ht : v.type = Operation.op_var)
    (hx : s.data.get_var_id v = some x) (hsp : get_var_split s x = some vs)
    (h : create_full_cfg k v s = Except.ok ((a, b), s')) :
    s'.usage_cnt = s.usage_cnt + 1 ∧
    s'.usage_data s.usage_cnt = some
      { id := (vs.usage_gen.length : Int), type := UsageType.usage_read_t, v := v,
        node := some (s.node_gen + 3) } ∧
    s'.node_usages (s.node_gen + 3) = [s.usage_cnt] ∧
    s'.node_usages (s.node_gen + 2) = [] := by
  simp only [create_full_cfg, bind_ok_iff] at h
  obtain ⟨start, s1, h1, finish, s2, hq1_1⟩ := h
  obtain ⟨h2, writes, s3, h3, reads, hq1_2⟩ := hq1_1
  obtain ⟨s4, h4, ct, s5, h5, hq1_3⟩ := hq1_2
  obtain ⟨_, s6, h6, _, s7, hq1_4⟩ := hq1_3
  obtain ⟨h7, _, s8, h8, _, hq1_5⟩ := hq1_4
  obtain ⟨s9, h9, _, s10, h10, hq1_6⟩ := hq1_5
  obtain ⟨_, s11, h11, _, s12, hq1_7⟩ := hq1_6
  obtain ⟨h12, _, s13, h13, _, hq1_8⟩ := hq1_7
  obtain ⟨s14, h14, h15⟩ := hq1_8
  obtain ⟨rfl, g1, c1, u1, d1, v1, n1⟩ := new_node_store h1
  obtain ⟨rfl, g2, c2, u2, d2, v2, n2⟩ := new_node_store h2
  obtain ⟨rfl, g3, c3, u3, d3, v3, n3⟩ := new_node_store h3
  obtain ⟨rfl, g4, c4, u4, d4, v4, n4⟩ := new_node_store h4
  have e2 : s2.node_gen = s.node_gen + 2 := by omega
  have e3 : s3.node_gen = s.node_gen + 3 := by omega
  cases k with
  | zero => cases h5
  | succ k =>
    have hr : s4.node_usages s3.node_gen = [] := by
      rw [n4, upd_same]
    have hw : s4.node_usages s2.node_gen = [] := by
      rw [n4, upd_other _ _ _ _ (by omega), n3, upd_same]
    have hx4 : s4.data.get_var_id v = some x := by
      rw [d4, d3, d2, d1]
      exact hx
    have hsp4 : get_var_split s4 x = some vs := by
      unfold get_var_split at hsp ⊢
      rw [v4, v3, v2, v1]
      exact hsp
    obtain ⟨s5', e5, q1, q2, q3, _, _⟩ := collect_var_leaf_cnt k v (some s2.node_gen)
      s3.node_gen false s4 x vs hs ht hx4 hsp4 hr
    rw [e5] at h5
    cases h5
    have hw5 : s5.node_usages s2.node_gen = [] := by
      rw [q1, upd_other _ _ _ _ (by omega)]
      exact hw
    rw [compress_nil _ _ hw5] at h6
    cases h6
    have hr6 : ({ s5 with node_usages := upd s5.node_usages s2.node_gen [] } : CFG).node_usages
        s3.node_gen = [s4.usage_cnt] := by
      show upd s5.node_usages s2.node_gen [] s3.node_gen = _
      rw [upd_other _ _ _ _ (by omega), q1, upd_same]
    rw [compress_single _ _ _ hr6] at h7
    cases h7
    cases h8
    cases h9
    cases h10
    cases h11
    cases h12
    cases h13
    simp only [Bool.false_eq_true, if_false] at h14
    cases h14
    cases h15
    have ec : s4.usage_cnt = s.usage_cnt := by omega
    refine ⟨?_, ?_, ?_, ?_⟩
    · show s5.usage_cnt = _
      omega
    · show s5.usage_data s.usage_cnt = _
      rw [← ec, q2, e3]
    · show upd (upd s5.node_usages s2.node_gen []) s3.node_gen [s4.usage_cnt] (s.node_gen + 3) = _
      rw [← e3, upd_same, ec]
    · show upd (upd s5.node_usages s2.node_gen []) s3.node_gen [s4.usage_cnt] (s.node_gen + 2) = _
      rw [← e2, upd_other _ _ _ _ (by omega), upd_same]

theorem create_cfg_compound (k : Nat) (t : Vertex) (w ww : Bool)
    (ht : compound_set t.type = true) :
    create_cfg (k + 1) t w ww =
      create_cfg_op_set_op k (fun v => create_cfg k v false false) t >>=
        create_cfg_finish t false := by
  rw [create_cfg]
  revert ht
  generalize t.type = ty
  cases ty <;> intro ht <;> first | exact absurd ht (by decide) | rfl

/-- C21 (amended). For a compound assignment `lhs op= rhs`, `create_cfg` builds `rhs`
first and then the generic graph of `lhs` (start, finish, writes, reads, in this order of
creation); the start of the assignment is the start of `rhs`, the finish is the finish
node of the generic graph, the finish of `rhs` has an edge to the start of the generic
graph, and that start has an edge to the reads node. When `lhs` is a variable with a
split state, exactly one usage is created for it, a `Read` attached to the reads node,
and no usage is attached to the writes node: no `Write` is recorded. -/
theorem compound_assignment_reads_target (fuel : Nat) (t lhs rhs : Vertex) (w ww : Bool)
    (s s' : CFG) (a b : Node) (ht : compound_set t.type = true) (hs : t.sons = [lhs, rhs])
    (h : create_cfg (fuel + 1) t w ww s = Except.ok ((a, b), s')) :
    ∃ eb se,
      create_cfg fuel rhs false false s = Except.ok ((a, eb), se) ∧
      b = some (se.node_gen + 1) ∧ s'.node_gen = se.node_gen + 4 ∧
      (∀ e, eb = some e → se.node_gen ∈ s'.node_next e) ∧
      se.node_gen + 3 ∈ s'.node_next se.node_gen ∧
      (∀ x vs, lhs.type = Operation.op_var → lhs.sons = [] →
        se.data.get_var_id lhs = some x → get_var_split se x = some vs →
        s'.usage_cnt = se.usage_cnt + 1 ∧
        s'.usage_data se.usage_cnt = some
          { id := (vs.usage_gen.length : Int), type := UsageType.usage_read_t, v := lhs,
            node := some (se.node_gen + 3) } ∧
        s'.node_usages (se.node_gen + 3) = [se.usage_cnt] ∧
        s'.node_usages (se.node_gen + 2) = []) := by
  rw [create_cfg_compound fuel t w ww ht] at h
  obtain ⟨r0, s5, h1, h2⟩ := bind_ok_iff.mp h
  have e := create_cfg_finish_result _ _ _ _ _ _ h2
  subst e
  simp only [create_cfg_finish, bind_ok_iff] at h2
  obtain ⟨_, s6, h3, h4⟩ := h2
  cases h4
  simp only [create_cfg_op_set_op, bind_ok_iff, Prod.exists] at h1
  obtain ⟨l, t1, k1, r, t2, hq1_1⟩ := h1
  obtain ⟨k2, ea, eb, se, k3, hq1_2⟩ := hq1_1
  obtain ⟨va, vb, sv, k4, _, hq1_3⟩ := hq1_2
  obtain ⟨t5, k5, k6⟩ := hq1_3
  obtain ⟨rfl, rfl⟩ := son_of_sons (by rw [hs]; rfl) k1
  obtain ⟨rfl, rfl⟩ := son_of_sons (by rw [hs]; rfl) k2
  cases k6
  obtain ⟨p1, p2, p3, p4, _⟩ := full_cfg_graph fuel l se va _ sv k4
  subst p1
  subst p2
  have st5 := add_edge_store k5
  have st3 := add_subtree_store h3
  have hnext3 : s'.node_next = s5.node_next := (add_subtree_next h3).1
  have hcnt3 : s'.usage_cnt = s5.usage_cnt := by
    cases a with
    | none => cases h3
    | some p => cases h3; rfl
  have hcnt5 : s5.usage_cnt = sv.usage_cnt := by
    cases eb with
    | none => cases k5; rfl
    | some e => cases k5; rfl
  refine ⟨eb, se, k3, rfl, ?_, ?_, ?_, ?_⟩
  · rw [st3.2.2.2.1, st5.2.2.2.1, p3]
  · intro e he
    subst he
    rw [hnext3]
    exact add_edge_mem k5
  · rw [hnext3]
    cases eb with
    | none =>
      cases k5
      rw [p4]
      simp
    | some e =>
      cases k5
      show se.node_gen + 3 ∈ upd sv.node_next e (sv.node_next e ++ [se.node_gen]) se.node_gen
      by_cases q : se.node_gen = e
      · rw [q, upd_same]
        rw [q] at p4
        rw [p4]
        simp
      · rw [upd_other _ _ _ _ q, p4]
        simp
  · intro x vs hv hl hx hsp
    obtain ⟨q1, q2, q3, q4⟩ := full_cfg_var_leaf fuel l se _ _ sv x vs hl hv hx hsp k4
    refine ⟨?_, ?_, ?_, ?_⟩
    · rw [hcnt3, hcnt5, q1]
    · rw [st3.2.1, st5.2.1, q2]
    · rw [st3.1, st5.1, q3]
    · rw [st3.1, st5.1, q4]

/-- Counterexample to C21 as stated: in `function f() { $x += 1; }` the only usage
recorded for `$x` is the occurrence in the compound assignment (vertex 4) as a `Read`;
there is no `Write` usage of `$x`. -/
theorem compound_assignment_no_write :
    run_result (process_function_build 30 { data := mk_data sample_compound ["x"] }) =
      some [0] ∧
    usage_gen_ids (built_state 30 sample_compound ["x"]) 0 = [4] ∧
    usage_gen_types (built_state 30 sample_compound ["x"]) 0 = [UsageType.usage_read_t] ∧
    UsageType.usage_write_t ∉ usage_gen_types (built_state 30 sample_compound ["x"]) 0 := by
  refine ⟨by decide!, by decide!, by decide!, by decide!⟩

/-- Witness of C21 (amended): the compound assignment `$x += 1` built with fuel 3. -/
theorem compound_assignment_reads_target_witness :
    run_result (create_cfg 3 (mk_op 3 Operation.op_set_add [mk_var 4 0, mk_const 5 "1"])
      false false (start_state (mk_data sample_compound ["x"]) [0])) = some (some 0, some 5) ∧
    ∃ eb se,
      create_cfg 2 (mk_const 5 "1") false false (start_state (mk_data sample_compound ["x"]) [0]) =
        Except.ok ((some 0, eb), se) ∧
      some 5 = some (se.node_gen + 1) ∧
      (∀ e, eb = some e → se.node_gen ∈
        (state_after (create_cfg 3 (mk_op 3 Operation.op_set_add [mk_var 4 0, mk_const 5 "1"])
          false false (start_state (mk_data sample_compound ["x"]) [0]))).node_next e) := by
  have h : run_result (create_cfg 3 (mk_op 3 Operation.op_set_add [mk_var 4 0, mk_const 5 "1"])
      false false (start_state (mk_data sample_compound ["x"]) [0])) = some (some 0, some 5) := by
    decide!
  obtain ⟨eb, se, q1, q2, _, q4, _⟩ := compound_assignment_reads_target 2
    (mk_op 3 Operation.op_set_add [mk_var 4 0, mk_const 5 "1"]) (mk_var 4 0) (mk_const 5 "1")
    false false (start_state (mk_data sample_compound ["x"]) [0])
    (state_after (create_cfg 3 (mk_op 3 Operation.op_set_add [mk_var 4 0, mk_const 5 "1"])
      false false (start_state (mk_data sample_compound ["x"]) [0])))
    (some 0) (some 5) rfl rfl (run_eq_of_result _ _ h)
  exact ⟨h, eb, se, q1, q2, q4⟩

theorem splittable_params_spec (d : CFGData) : ∀ (ps l : List VarPtr),
    splittable_params d ps = Except.ok l → l = ps.filter fun p => !(binding_by_ref d p) := by
  intro ps
  induction ps with
  | nil =>
    intro l h
    cases h
    rfl
  | cons p ps ih =>
    intro l h
    unfold splittable_params at h
    cases e1 : d.vars.get? p with
    | none => rw [e1] at h; cases h
    | some vd =>
      rw [e1] at h
      dsimp only at h
      cases e2 : (get_function_params d.root).get? vd.param_i.toNat with
      | none => rw [e2] at h; cases h
      | some param =>
        rw [e2] at h
        dsimp only at h
        cases e3 : param.sons.head? with
        | none => rw [e3] at h; cases h
        | some init =>
          rw [e3] at h
          dsimp only at h
          split at h
          · cases h
          · split at h
            · cases h
            · cases e4 : splittable_params d ps with
              | error e => rw [e4] at h; cases h
              | ok l' =>
                rw [e4] at h
                cases h
                have hl := ih l' e4
                have hb : binding_by_ref d p = init.ref_flag := by
                  unfold binding_by_ref
                  rw [e1]
                  dsimp only
                  rw [e2]
                  dsimp only
                  rw [e3]
                rw [List.filter_cons, hb, ← hl]

theorem collect_ref_vars_eq (d : CFGData) (i : Nat) (t : Operation) (e : VertexExtra)
    (sons : List Vertex) :
    collect_ref_vars d (Vertex.mk i t e sons) =
      (if t = Operation.op_var ∧ e.ref_flag = true then
        (d.get_var_id (Vertex.mk i t e sons)).toList else []) ++
        collect_ref_vars_sons d sons := by
  rw [collect_ref_vars]

theorem mem_collect_ref_vars_sons (d : CFGData) (x : VarPtr) (l : List Vertex) :
    x ∈ collect_ref_vars_sons d l ↔ ∃ c ∈ l, x ∈ collect_ref_vars d c := by
  induction l with
  | nil =>
    rw [collect_ref_vars_sons]
    simp
  | cons c cs ih =>
    rw [collect_ref_vars_sons, List.mem_append, ih]
    simp

/-- The set that `collect_ref_vars` collects: the variables with a by-reference
occurrence. -/
theorem mem_collect_ref_vars (d : CFGData) (x : VarPtr) (t : Vertex) :
    x ∈ collect_ref_vars d t ↔ has_ref_occurrence d t x = true := by
  induction t using vertex_induct with
  | h i ty e sons ih =>
    rw [collect_ref_vars_eq, List.mem_append, mem_collect_ref_vars_sons]
    unfold has_ref_occurrence
    rw [subtree_eq, List.any_cons, Bool.or_eq_true, List.any_eq_true]
    apply or_congr
    · by_cases hc : ty = Operation.op_var ∧ e.ref_flag = true
      · rw [if_pos hc]
        obtain ⟨h1, h2⟩ := hc
        have h3 : (Vertex.mk i ty e sons).ref_flag = true := h2
        have h4 : (Vertex.mk i ty e sons).type = Operation.op_var := h1
        simp only [Option.mem_toList, Option.mem_def, h3, h4, decide_True, Bool.and_self,
          Bool.true_and, decide_eq_true_eq]
      · rw [if_neg hc]
        have : (decide ((Vertex.mk i ty e sons).type = Operation.op_var) &&
            (Vertex.mk i ty e sons).ref_flag) = false := by
          cases hq : (decide ((Vertex.mk i ty e sons).type = Operation.op_var) &&
            (Vertex.mk i ty e sons).ref_flag) with
          | false => rfl
          | true =>
            exfalso
            rw [Bool.and_eq_true, decide_eq_true_eq] at hq
            exact hc hq
        rw [this]
        simp
    · constructor
      · rintro ⟨c, hc, hx⟩
        have := (ih c hc).mp hx
        unfold has_ref_occurrence at this
        obtain ⟨v, hv, hp⟩ := List.any_eq_true.mp this
        exact ⟨v, (mem_subtree_list v sons).mpr ⟨c, hc, hv⟩, hp⟩
      · rintro ⟨v, hv, hp⟩
        obtain ⟨c, hc, hvc⟩ := (mem_subtree_list v sons).mp hv
        refine ⟨c, hc, (ih c hc).mpr ?_⟩
        unfold has_ref_occurrence
        exact List.any_eq_true.mpr ⟨v, hvc, hp⟩

/-- The result of `find_splittable_vars` is the splittable set of the specification. -/
theorem find_splittable_vars_spec (d : CFGData) (vars : List VarPtr)
    (h : find_splittable_vars d = Except.ok vars) : vars = splittable_spec d := by
  unfold find_splittable_vars at h
  cases e : splittable_params d d.param_ids with
  | error err => rw [e] at h; cases h
  | ok ps =>
    rw [e] at h
    cases h
    rw [splittable_params_spec d _ _ e]
    unfold splittable_spec
    apply List.filter_congr
    intro x _
    have : (collect_ref_vars d d.root).contains x = has_ref_occurrence d d.root x := by
      cases q : has_ref_occurrence d d.root x with
      | true => exact List.elem_iff.mpr ((mem_collect_ref_vars d x d.root).mpr q)
      | false =>
        cases q2 : (collect_ref_vars d d.root).contains x with
        | false => rfl
        | true =>
          have := (mem_collect_ref_vars d x d.root).mp (List.elem_iff.mp q2)
          rw [q] at this
          cases this
    rw [this]

theorem cntData_rel : StepRel CntData :=
  ⟨fun s => ⟨rfl, rfl, fun x => (splitKeep_rel x).refl s⟩,
    fun h1 h2 => ⟨h2.1.trans h1.1, h2.2.1.trans h1.2.1,
      fun x => (splitKeep_rel x).trans (h1.2.2 x) (h2.2.2 x)⟩⟩

theorem cntData_same {s s' : CFG} (h1 : s'.usage_cnt = s.usage_cnt) (h2 : s'.data = s.data)
    (h3 : s'.var_split_data = s.var_split_data) : CntData s s' :=
  ⟨h1, h2, fun x => splitKeep_same x h3⟩

theorem cntData_new_node : Preserves CntData new_node := by
  refine ⟨fun s r s' h => ?_⟩
  cases h
  exact cntData_same rfl rfl rfl

set_option maxRecDepth 10000 in
set_option linter.unreachableTactic false in
set_option linter.unusedTactic false in
theorem cntData_try_uni (a b : Nat) : Preserves CntData (try_uni_usages a b) := by
  unfold try_uni_usages
  repeat (first
    | apply preserves_usage_at cntData_rel
    | apply preserves_get_state cntData_rel
    | apply preserves_bind cntData_rel
    | apply preserves_pure cntData_rel
    | apply preserves_fail
    | (apply preserves_modify_state; intro s
       exact ⟨rfl, rfl, fun x => splitKeep_upd x _ _ _ _ rfl⟩)
    | intro _
    | split
    | dsimp only)

set_option maxRecDepth 10000 in
set_option linter.unreachableTactic false in
set_option linter.unusedTactic false in
theorem cntData_add_usage (n : Node) (u : UsagePtr) : Preserves CntData (add_usage n u) := by
  unfold add_usage
  repeat (first
    | apply preserves_node_id cntData_rel
    | apply preserves_usage_at cntData_rel
    | apply preserves_get_state cntData_rel
    | apply preserves_kphp_assert cntData_rel
    | apply preserves_bind cntData_rel
    | apply preserves_pure cntData_rel
    | (apply preserves_modify_state; intro s; exact cntData_same rfl rfl rfl)
    | intro _
    | split
    | dsimp only)

set_option maxRecDepth 10000 in
set_option linter.unreachableTactic false in
set_option linter.unusedTactic false in
theorem cntData_compress (n : Node) : Preserves CntData (compress_usages n) := by
  unfold compress_usages
  repeat (first
    | apply stable_compress_loop cntData_rel cntData_try_uni
        (fun s f g => cntData_same rfl rfl rfl)
    | apply preserves_node_id cntData_rel
    | apply preserves_get_state cntData_rel
    | apply preserves_bind cntData_rel
    | apply preserves_pure cntData_rel
    | (apply preserves_modify_state; intro s; exact cntData_same rfl rfl rfl)
    | intro _
    | split
    | dsimp only)

theorem gStep_rel : StepRel GStep := by
  refine ⟨fun s => ⟨uStep_rel.refl s, rfl, fun x => (splitKeep_rel x).refl s, fun _ h => h⟩, ?_⟩
  intro a b c h1 h2
  refine ⟨uStep_rel.trans h1.1 h2.1, h2.2.1.trans h1.2.1,
    fun x => (splitKeep_rel x).trans (h1.2.2.1 x) (h2.2.2.1 x), fun hi hu => ?_⟩
  exact h2.2.2.2 (h1.1 hi).1 (h1.2.2.2 hi hu)

theorem gStep_of_cntData {s s' : CFG} (h1 : UStep s s') (h2 : CntData s s') : GStep s s' := by
  refine ⟨h1, h2.2.1, h2.2.2, fun hi hu a ud' ha => ?_⟩
  obtain ⟨i', k, _⟩ := h1 hi
  have hlt : a < s.usage_cnt := by
    by_contra hge
    have := i'.1 a (by rw [h2.1]; omega)
    rw [this] at ha
    cases ha
  obtain ⟨ud, hud⟩ := Option.isSome_iff_exists.mp (hi.2.1 a hlt)
  obtain ⟨ud'', e1, e2, _⟩ := k a ud hud
  rw [ha] at e1
  cases e1
  obtain ⟨x, q1, q2⟩ := hu a ud hud
  exact ⟨x, by rw [h2.2.1, e2]; exact q1, h2.2.2 x q2⟩

theorem preserves_gStep {α : Type} {m : M α} (h1 : Preserves UStep m) (h2 : Preserves CntData m) :
    Preserves GStep m :=
  ⟨fun s a s' h => gStep_of_cntData (h1.run s a s' h) (h2.run s a s' h)⟩

theorem gStep_new_usage (ty : UsageType) (v : Vertex) : Preserves GStep (new_usage ty v) := by
  refine ⟨fun s r s' h => ?_⟩
  have hU := (uStep_new_usage ty v).run s r s' h
  have hK := fun x => ((splitKeep_stable x).usage ty v).run s r s' h
  unfold new_usage at h
  cases e1 : s.data.get_var_id v with
  | none =>
    rw [e1] at h
    cases h
  | some y =>
    rw [e1] at h
    dsimp only at h
    cases e2 : get_var_split s y with
    | none =>
      rw [e2] at h
      cases h
      exact gStep_rel.refl s
    | some vs =>
      rw [e2] at h
      cases h
      refine ⟨hU, rfl, hK, fun hi hu a ud ha => ?_⟩
      change upd s.usage_data s.usage_cnt _ a = some ud at ha
      by_cases q : a = s.usage_cnt
      · rw [q, upd_same] at ha
        cases ha
        refine ⟨y, e1, ?_⟩
        show (upd s.var_split_data y _ y).isSome = true
        rw [upd_same]
        rfl
      · rw [upd_other _ _ _ _ q] at ha
        obtain ⟨x, q1, q2⟩ := hu a ud ha
        refine ⟨x, q1, ?_⟩
        show (upd s.var_split_data y _ x).isSome = true
        by_cases q3 : x = y
        · rw [q3, upd_same]
          rfl
        · rw [upd_other _ _ _ _ q3]
          exact q2

theorem gStep_op_var (t : Vertex) (w ww : Bool) : Preserves GStep (create_cfg_op_var t w ww) := by
  unfold create_cfg_op_var
  refine preserves_bind gStep_rel (preserves_gStep uStep_new_node cntData_new_node) fun res => ?_
  refine preserves_bind gStep_rel (gStep_new_usage _ _) fun usage => ?_
  refine preserves_bind gStep_rel ?_ fun _ => ?_
  · cases usage with
    | none => exact preserves_pure gStep_rel _
    | some a =>
      refine ⟨fun s r s' h => ?_⟩
      simp only [bind_ok_iff] at h
      obtain ⟨ud, s1, h1, h2⟩ := h
      obtain ⟨e0, e1⟩ := usage_at_ok h1
      subst e0
      cases h2
      refine gStep_of_cntData (fun hi => ?_) (cntData_same rfl rfl rfl)
      exact uStep_store s1 a ud { ud with weak_write_flag := ww } s1.node_usages e1 rfl rfl
        hi.2.2 hi
  · exact preserves_bind gStep_rel
      (preserves_gStep (uStep_add_usage _ _) (cntData_add_usage _ _))
      fun _ => preserves_pure gStep_rel _

theorem gStep_stable : Stable GStep where
  rel := gStep_rel
  node := preserves_gStep uStep_new_node cntData_new_node
  usage := gStep_new_usage
  attach := fun n u => preserves_gStep (uStep_add_usage n u) (cntData_add_usage n u)
  marker := fun n m => by
    refine preserves_gStep (uStep_stable.marker n m) ⟨fun s r s' h => ?_⟩
    cases n with
    | none => cases h
    | some x => cases h; exact cntData_same rfl rfl rfl
  edge := fun a b => by
    refine preserves_gStep (uStep_stable.edge a b) ⟨fun s r s' h => ?_⟩
    cases a with
    | none => cases h; exact cntData_rel.refl s
    | some x =>
      cases b with
      | none => cases h; exact cntData_rel.refl s
      | some y => cases h; exact cntData_same rfl rfl rfl
  var := gStep_op_var
  compress := fun n => preserves_gStep (uStep_compress n) (cntData_compress n)
  frames := fun b c e s =>
    gStep_of_cntData (uStep_stable.frames b c e s) (cntData_same rfl rfl rfl)

theorem splitNone_rel (x : VarPtr) : StepRel (SplitNone x) :=
  ⟨fun _ h => h, fun h1 h2 h => h2 (h1 h)⟩

theorem splitNone_same (x : VarPtr) {s s' : CFG} (h : s'.var_split_data = s.var_split_data) :
    SplitNone x s s' := by
  intro hs
  rw [h]
  exact hs

theorem splitNone_upd (x y : VarPtr) (s s' : CFG) (v w : VarSplitData)
    (hy : s.var_split_data y = some w)
    (h : s'.var_split_data = upd s.var_split_data y (some v)) : SplitNone x s s' := by
  intro hs
  rw [h]
  by_cases e : x = y
  · rw [e, hy] at hs
    cases hs
  · rw [upd_other _ _ _ _ e]
    exact hs

theorem splitNone_try_uni (x : VarPtr) (a b : Nat) :
    Preserves (SplitNone x) (try_uni_usages a b) := by
  refine ⟨fun s r s' h => ?_⟩
  unfold try_uni_usages at h
  simp only [bind_ok_iff] at h
  obtain ⟨u, s1, h1, au, s2, h2, s3, s4, h3, h4⟩ := h
  obtain ⟨e1, _⟩ := usage_at_ok h1
  obtain ⟨e2, _⟩ := usage_at_ok h2
  subst e1
  subst e2
  cases h3
  by_cases hc : s2.data.get_var_id u.v = s2.data.get_var_id au.v
  · rw [if_pos hc] at h4
    cases e : s2.data.get_var_id u.v with
    | none =>
      rw [e] at h4
      cases h4
    | some y =>
      rw [e] at h4
      dsimp only at h4
      cases e3 : get_var_split s2 y with
      | none =>
        rw [e3] at h4
        cases h4
      | some vs =>
        rw [e3] at h4
        cases h4
        exact splitNone_upd x y _ _ _ vs e3 rfl
  · rw [if_neg hc] at h4
    cases h4
    exact (splitNone_rel x).refl _

set_option maxRecDepth 10000 in
set_option linter.unreachableTactic false in
set_option linter.unusedTactic false in
theorem splitNone_stable (x : VarPtr) : Stable (SplitNone x) := by
  refine stable_of_parts (splitNone_rel x) ?_ ?_ (splitNone_try_uni x)
    (fun _ _ _ => splitNone_same x rfl) ?_ ?_ (fun _ _ _ _ => splitNone_same x rfl)
  · refine ⟨fun s r s' h => ?_⟩
    cases h
    exact splitNone_same x rfl
  · intro ty v
    refine ⟨fun s r s' h => ?_⟩
    unfold new_usage at h
    cases e1 : s.data.get_var_id v with
    | none =>
      rw [e1] at h
      cases h
    | some y =>
      rw [e1] at h
      dsimp only at h
      cases e2 : get_var_split s y with
      | none =>
        rw [e2] at h
        cases h
        exact (splitNone_rel x).refl s
      | some vs =>
        rw [e2] at h
        cases h
        exact splitNone_upd x y _ _ _ vs e2 rfl
  · intro n m
    refine ⟨fun s r s' h => ?_⟩
    cases n with
    | none => cases h
    | some y => cases h; exact splitNone_same x rfl
  · intro a b
    refine ⟨fun s r s' h => ?_⟩
    cases a with
    | none => cases h; exact (splitNone_rel x).refl s
    | some y =>
      cases b with
      | none => cases h; exact (splitNone_rel x).refl s
      | some z => cases h; exact splitNone_same x rfl

theorem init_var_split_none (l : List VarPtr) :
    ∀ (m : VarPtr → Option VarSplitData) (x : VarPtr),
    x ∉ l → m x = none → init_var_split l m x = none := by
  induction l with
  | nil => intro m x _ h; exact h
  | cons v l ih =>
    intro m x hx h
    unfold init_var_split
    apply ih _ _ (fun q => hx (List.mem_cons_of_mem _ q))
    cases e : m v with
    | some _ => exact h
    | none =>
      show upd m v (some {}) x = none
      rw [upd_other _ _ _ _ (fun q => hx (by rw [q]; exact List.mem_cons_self _ _))]
      exact h

/-- C27. Splittable set. When the steps of `process_function` up to the forward walk
succeed with the list `vars` and the state `G`, then `vars`, the result of
`find_splittable_vars`, is the splittable set of the specification (the locals, then the
parameters whose binding occurrence is not by-reference, without the variables that have
a by-reference occurrence in the tree); exactly the variables of `vars` have a split
state; `new_usage` returns the null usage, and leaves the state as it is, for a variable
without split state; every usage stored in `G` is a usage of a variable of `vars`; and
`process_function` runs `process_var` for the variables of `vars` and no others. -/
theorem splittable_set (fuel : Nat) (d : CFGData) (vars : List VarPtr) (G : CFG)
    (hbuild : process_function_build fuel { data := d } = Except.ok (vars, G)) :
    find_splittable_vars d = Except.ok vars ∧ vars = splittable_spec d ∧
    (∀ x, (G.var_split_data x).isSome = true ↔ x ∈ vars) ∧
    (∀ (ty : UsageType) (v : Vertex) (x : VarPtr) (s : CFG),
      s.data.get_var_id v = some x → get_var_split s x = none →
      new_usage ty v s = Except.ok (none, s)) ∧
    (∀ a ud, G.usage_data a = some ud → ∃ x ∈ vars, d.get_var_id ud.v = some x) ∧
    (d.func_local = true →
      process_function fuel { data := d } =
        (do
          let cmd ← son d.root 1
          modify_state fun s =>
            { s with data := { s.data with unused := collect_unused s.vertex_usage cmd } }
          process_vars fuel vars) G) := by
  obtain ⟨hf, n0, fin, F, hrun, hcalc⟩ := process_function_build_run fuel d vars G hbuild
  obtain ⟨w1, w2, w3, w4, w5, w6, w7, w8, w9, w10⟩ := (calc_used_keep fuel n0).run _ _ _ hcalc
  have hdom : ∀ x, (G.var_split_data x).isSome = true ↔ x ∈ vars := by
    intro x
    rw [w7]
    show (F.var_split_data x).isSome = true ↔ _
    constructor
    · intro h
      by_contra hx
      have h0 : (start_state d vars).var_split_data x = none :=
        init_var_split_none vars _ x hx rfl
      have := create_cfg_stable (splitNone_stable x) _ _ _ _ _ _ _ hrun h0
      rw [this] at h
      cases h
    · intro hx
      exact create_cfg_stable (splitKeep_stable x) _ _ _ _ _ _ _ hrun
        (init_var_split_mem vars _ x hx)
  have hG := create_cfg_stable gStep_stable _ _ _ _ _ _ _ hrun
  have hUF : USplit F :=
    hG.2.2.2 (start_state_inv d vars) (fun a ud ha => by cases ha)
  have hFd : F.data = d := hG.2.1
  refine ⟨hf, find_splittable_vars_spec d vars hf, hdom, ?_, ?_, ?_⟩
  · intro ty v x s hx hs
    unfold new_usage
    rw [hx]
    dsimp only
    rw [hs]
  · intro a ud ha
    rw [w3] at ha
    obtain ⟨x, q1, q2⟩ := hUF a ud ha
    refine ⟨x, (hdom x).mp ?_, by rw [← hFd]; exact q1⟩
    rw [w7]
    exact q2
  · intro hl
    unfold process_function
    rw [bind_run, get_state_run]
    dsimp only
    rw [if_pos hl, bind_run, hbuild]

/-- Witness of C27: a function with a by-value parameter `$p`, a by-reference parameter
`$q`, a local `$x` and a local `$y` with a by-reference occurrence: the splittable
variables are `$x` and `$p`. -/
theorem splittable_set_witness :
    run_result (process_function_build 30 { data := sample_params_data }) = some [2, 0] ∧
    splittable_spec sample_params_data = [2, 0] ∧
    find_splittable_vars sample_params_data = Except.ok [2, 0] ∧
    (∀ x, ((state_after (process_function_build 30
      { data := sample_params_data })).var_split_data x).isSome = true ↔ x ∈ [2, 0]) := by
  have h : run_result (process_function_build 30 { data := sample_params_data }) =
      some [2, 0] := by decide!
  obtain ⟨q1, q2, q3, _⟩ := splittable_set 30 sample_params_data [2, 0]
    (state_after (process_function_build 30 { data := sample_params_data }))
    (run_eq_of_result _ _ h)
  exact ⟨h, q2.symm, q1, q3⟩

theorem call_loop_chain (cfg : Vertex → Bool → Bool → M (Node × Node)) (hcfg : CfgOk3 cfg)
    (hmono : ∀ v w ww, Preserves EdgeMono (cfg v w ww)) (f : FuncInfo) (S : CFG) :
    ∀ (l : List Vertex) (ii : Nat) (start : Node) (s : CFG) (fin : Node) (s1 : CFG),
      NodeIn 0 s.node_gen start →
      create_cfg_call_loop cfg (some f) l ii start s = Except.ok (fin, s1) →
      EdgeMono s1 S → ArgChain cfg f S l ii start s fin s1 ∧ EdgeMono s s1 := by
  intro l
  induction l with
  | nil =>
    intro ii start s fin s1 _ h _
    cases h
    exact ⟨⟨rfl, rfl⟩, edgeMono_rel.refl _⟩
  | cons cur rest ih =>
    intro ii start s fin s1 hst h hS
    unfold create_cfg_call_loop at h
    dsimp only at h
    have key : ∃ a b s2 s3, cfg cur false (by_ref_param f ii) s = Except.ok ((a, b), s2) ∧
        add_edge start a s2 = Except.ok ((), s3) ∧
        create_cfg_call_loop cfg (some f) rest (ii + 1) b s3 = Except.ok (fin, s1) := by
      unfold by_ref_param
      cases e : f.params.get? ii with
      | none =>
        rw [e] at h
        cases h
      | some p =>
        rw [e] at h
        cases p with
        | none =>
          simp only [bind_ok_iff, Prod.exists, pure_run] at h
          obtain ⟨fl, s0, h0, a, b, s2, h1, _, s3, h2, h3⟩ := h
          cases h0
          exact ⟨a, b, s2, s3, by simpa using h1, h2, h3⟩
        | some r =>
          simp only [bind_ok_iff, Prod.exists, pure_run] at h
          obtain ⟨fl, s0, h0, a, b, s2, h1, _, s3, h2, h3⟩ := h
          cases h0
          exact ⟨a, b, s2, s3, by cases r <;> simpa using h1, h2, h3⟩
    obtain ⟨a, b, s2, s3, h1, h2, h3⟩ := key
    have hb := hcfg _ _ _ _ _ _ h1
    have hm1 := (hmono _ _ _).run _ _ _ h1
    have hm2 := (edgeMono_stable.edge _ _).run _ _ _ h2
    have hg3 : s3.node_gen = s2.node_gen := (add_edge_store h2).2.2.2.1
    have hbn : NodeIn 0 s3.node_gen b := by
      rw [hg3]
      have hq : NodeIn s.node_gen s2.node_gen b := hb.2.2
      rcases hq with q | q
      · exact Or.inl q
      · exact Or.inr ⟨by omega, q.2⟩
    obtain ⟨c1, c2⟩ := ih (ii + 1) b s3 fin s1 hbn h3 hS
    refine ⟨⟨a, b, s2, s3, h1, h2, ?_, c1⟩,
      edgeMono_rel.trans hm1 (edgeMono_rel.trans hm2 c2)⟩
    intro u m hu hm
    subst hu
    subst hm
    have hu3 : u < s3.node_gen := by
      have h4 := hb.1.le
      have h5 : NodeIn 0 s.node_gen (some u) := hst
      rcases h5 with q | q
      · simp only [node_code_some] at q
        omega
      · have q2 := q.2
        simp only [node_code_some] at q2
        omega
    exact hS.2 u m (Nat.lt_of_lt_of_le hu3 c2.1) (c2.2 u m hu3 (add_edge_mem h2))

/-- C23. Call arguments. For a call of a function or of a constructor, `create_cfg`
needs the callee, creates a fresh start node, and builds the arguments in their order,
each with the write flag unset and with the weak-write flag set exactly when the
parameter of the callee at the index of the argument is by-reference; the start node has
an edge to the start of the first argument, the finish of every argument has an edge to
the start of the next one, and the finish of the call is the finish of the last argument,
or the start node when there is no argument. When the callee may throw, the finish of
the call is appended to the innermost try frame, and the stack of try frames stays as
it is when it is empty or the callee does not throw. -/
theorem call_arguments (fuel : Nat) (t : Vertex) (w ww : Bool) (s s' : CFG) (a b : Node)
    (ht : t.type = Operation.op_func_call ∨ t.type = Operation.op_constructor_call)
    (h : create_cfg (fuel + 1) t w ww s = Except.ok ((a, b), s')) :
    ∃ f s0 s1,
      t.get_func_id = some f ∧ a = some s.node_gen ∧ new_node s = Except.ok (a, s0) ∧
      ArgChain (create_cfg fuel) f s' t.sons 0 a s0 b s1 ∧
      (t.sons = [] → b = a) ∧
      s'.exception_nodes =
        (if f.can_throw then registered s1.exception_nodes b else s1.exception_nodes) := by
  have hrule : create_cfg (fuel + 1) t w ww =
      create_cfg_op_call (create_cfg fuel) t >>= create_cfg_finish t false := by
    rw [create_cfg]
    rcases ht with e | e <;> rw [e]
  rw [hrule] at h
  obtain ⟨r0, s5, h1, h2⟩ := bind_ok_iff.mp h
  have e := create_cfg_finish_result _ _ _ _ _ _ h2
  subst e
  simp only [create_cfg_finish, bind_ok_iff] at h2
  obtain ⟨_, s6, h3, h4⟩ := h2
  cases h4
  simp only [create_cfg_op_call, bind_ok_iff] at h1
  obtain ⟨st, s0, k1, fin, s1, k2, k3⟩ := h1
  cases hf : t.get_func_id with
  | none =>
    rw [hf] at k3
    cases k3
  | some f =>
    rw [hf] at k2 k3
    simp only [bind_ok_iff] at k3
    obtain ⟨_, s2, k4, k5⟩ := k3
    cases k5
    obtain ⟨rfl, _, hg0⟩ := new_node_next k1
    have hfr3 : s'.exception_nodes = s5.exception_nodes ∧ EdgeMono s5 s' := by
      refine ⟨?_, (edgeMono_stable.marker _ _).run _ _ _ h3⟩
      cases h3
      rfl
    have hreg : s5.exception_nodes =
        (if f.can_throw then registered s1.exception_nodes b else s1.exception_nodes) ∧
        EdgeMono s1 s5 := by
      by_cases hc : f.can_throw = true
      · rw [if_pos hc] at k4 ⊢
        refine ⟨?_, (stable_register_exception edgeMono_stable.base _).run _ _ _ k4⟩
        unfold create_cfg_register_exception at k4
        simp only [bind_run, get_state_run] at k4
        unfold registered
        cases he : s1.exception_nodes.getLast? with
        | none =>
          rw [he] at k4
          cases k4
          rfl
        | some es =>
          rw [he] at k4
          cases k4
          rfl
      · rw [if_neg hc] at k4 ⊢
        cases k4
        exact ⟨rfl, edgeMono_rel.refl _⟩
    have hst : NodeIn 0 s0.node_gen (some s.node_gen) := by
      refine Or.inr ⟨?_, ?_⟩ <;> simp only [node_code_some] <;> omega
    obtain ⟨c1, _⟩ := call_loop_chain (create_cfg fuel) (built_all fuel).1
      (fun v w ww => (stable_all edgeMono_stable fuel).1 v w ww) f s' t.sons 0 _ s0 b s1
      hst k2 (edgeMono_rel.trans hreg.2 hfr3.2)
    refine ⟨f, s0, s1, rfl, rfl, k1, c1, ?_, ?_⟩
    · intro hs
      rw [hs] at c1
      exact c1.1
    · rw [hfr3.1, hreg.1]

/-- Witness of C23: the call `f($x, $y)` of a function that may throw and whose second
parameter is by-reference, built with one open try frame: start node 0, `$x` on node 1
with a plain `Read`, `$y` on node 2 with a `Read` that has the weak-write flag, and the
finish, node 2, registered in the try frame. -/
theorem call_arguments_witness :
    run_result (create_cfg 3 sample_call false false sample_call_state) =
      some (some 0, some 2) ∧
    (state_after (create_cfg 3 sample_call false false sample_call_state)).exception_nodes =
      [[some 2]] ∧
    usage_summary (state_after (create_cfg 3 sample_call false false sample_call_state)) 0 =
      some (2, UsageType.usage_read_t, false) ∧
    usage_summary (state_after (create_cfg 3 sample_call false false sample_call_state)) 1 =
      some (3, UsageType.usage_read_t, true) ∧
    ∃ f s0 s1, sample_call.get_func_id = some f ∧
      ArgChain (create_cfg 2) f
        (state_after (create_cfg 3 sample_call false false sample_call_state))
        sample_call.sons 0 (some 0) s0 (some 2) s1 ∧
      (state_after (create_cfg 3 sample_call false false sample_call_state)).exception_nodes =
        (if f.can_throw then registered s1.exception_nodes (some 2)
          else s1.exception_nodes) := by
  have h : run_result (create_cfg 3 sample_call false false sample_call_state) =
      some (some 0, some 2) := by decide!
  obtain ⟨f, s0, s1, q1, _, _, q4, _, q6⟩ := call_arguments 2 sample_call false false
    sample_call_state
    (state_after (create_cfg 3 sample_call false false sample_call_state))
    (some 0) (some 2) (Or.inl rfl) (run_eq_of_result _ _ h)
  exact ⟨h, by decide!, by decide!, by decide!, f, s0, s1, q1, q4, q6⟩

theorem vkey_eq_iff {k : Nat → Option VarPtr} {a b : Nat} (ha : (k a).isSome = true)
    (hb : (k b).isSome = true) : vkey k a = vkey k b ↔ k a = k b := by
  unfold vkey
  obtain ⟨x, hx⟩ := Option.isSome_iff_exists.mp ha
  obtain ⟨y, hy⟩ := Option.isSome_iff_exists.mp hb
  rw [hx, hy]
  simp

theorem heads_sub (k : Nat → Option VarPtr) : ∀ (l : List Nat) (p h : Nat),
    h ∈ heads k p l → h ∈ l := by
  intro l
  induction l with
  | nil =>
    intro p h hh
    cases hh
  | cons u us ih =>
    intro p h hh
    unfold heads at hh
    rcases List.mem_append.mp hh with q | q
    · by_cases e : k u = k p
      · rw [if_pos e] at q
        cases q
      · rw [if_neg e] at q
        rw [List.mem_singleton.mp q]
        exact List.mem_cons_self _ _
    · exact List.mem_cons_of_mem _ (ih u h q)

theorem heads_gt (k : Nat → Option VarPtr) : ∀ (l : List Nat) (p : Nat),
    (∀ a ∈ p :: l, (k a).isSome = true) →
    List.Pairwise (fun a b => vkey k a ≤ vkey k b) (p :: l) →
    ∀ h ∈ heads k p l, vkey k p < vkey k h := by
  intro l
  induction l with
  | nil =>
    intro p _ _ h hh
    cases hh
  | cons u us ih =>
    intro p hs hp h hh
    obtain ⟨hp1, hp2⟩ := List.pairwise_cons.mp hp
    have hu := hp1 u (List.mem_cons_self _ _)
    unfold heads at hh
    rcases List.mem_append.mp hh with q | q
    · by_cases e : k u = k p
      · rw [if_pos e] at q
        cases q
      · rw [if_neg e] at q
        rw [List.mem_singleton.mp q]
        have hne : vkey k u ≠ vkey k p := fun c =>
          e ((vkey_eq_iff (hs u (by simp)) (hs p (by simp))).mp c)
        omega
    · have := ih u (fun a ha => hs a (List.mem_cons_of_mem _ ha)) hp2 h q
      omega

theorem heads_pairwise (k : Nat → Option VarPtr) : ∀ (l : List Nat) (p : Nat),
    (∀ a ∈ p :: l, (k a).isSome = true) →
    List.Pairwise (fun a b => vkey k a ≤ vkey k b) (p :: l) →
    List.Pairwise (fun a b => vkey k a < vkey k b) (p :: heads k p l) := by
  intro l
  induction l with
  | nil =>
    intro p _ _
    unfold heads
    exact List.pairwise_singleton _ _
  | cons u us ih =>
    intro p hs hp
    have hgt := heads_gt k (u :: us) p hs hp
    obtain ⟨_, hp2⟩ := List.pairwise_cons.mp hp
    have ih' := ih u (fun a ha => hs a (List.mem_cons_of_mem _ ha)) hp2
    refine List.pairwise_cons.mpr ⟨hgt, ?_⟩
    unfold heads
    by_cases e : k u = k p
    · rw [if_pos e, List.nil_append]
      exact (List.pairwise_cons.mp ih').2
    · rw [if_neg e]
      exact ih'

theorem heads_cover (k : Nat → Option VarPtr) : ∀ (l : List Nat) (p : Nat),
    ∀ a ∈ p :: l, ∃ r ∈ p :: heads k p l, k r = k a := by
  intro l
  induction l with
  | nil =>
    intro p a ha
    rw [List.mem_singleton.mp ha]
    exact ⟨p, List.mem_cons_self _ _, rfl⟩
  | cons u us ih =>
    intro p a ha
    rcases List.mem_cons.mp ha with e | e
    · exact ⟨p, List.mem_cons_self _ _, by rw [e]⟩
    · obtain ⟨r, hr, hk⟩ := ih u a e
      unfold heads
      rcases List.mem_cons.mp hr with q | q
      · by_cases c : k u = k p
        · exact ⟨p, List.mem_cons_self _ _, by rw [← hk, q, c]⟩
        · rw [if_neg c]
          exact ⟨u, by simp, by rw [← hk, q]⟩
      · exact ⟨r, List.mem_cons_of_mem _ (List.mem_append_right _ q), hk⟩

/-- In a list sorted by the variable whose neighbours with equal variable are related by
the equivalence `E`, any two members with equal variable are related. -/
theorem chain_joined (k : Nat → Option VarPtr) (E : Nat → Nat → Prop)
    (hsymm : ∀ a b, E a b → E b a) (htrans : ∀ a b c, E a b → E b c → E a c) :
    ∀ (l : List Nat) (p : Nat), (∀ a ∈ p :: l, E a a) →
    (∀ a ∈ p :: l, (k a).isSome = true) →
    List.Pairwise (fun a b => vkey k a ≤ vkey k b) (p :: l) →
    List.Chain (fun a b => k b = k a → E b a) p l →
    ∀ a ∈ p :: l, ∀ b ∈ p :: l, k a = k b → E a b := by
  intro l
  induction l with
  | nil =>
    intro p hrefl _ _ _ a ha b hb _
    rw [List.mem_singleton.mp ha, List.mem_singleton.mp hb]
    exact hrefl p (List.mem_cons_self _ _)
  | cons u us ih =>
    intro p hrefl hs hp hc
    obtain ⟨hp1, hp2⟩ := List.pairwise_cons.mp hp
    obtain ⟨hc1, hc2⟩ := List.chain_cons.mp hc
    have ih' := ih u (fun a ha => hrefl a (List.mem_cons_of_mem _ ha))
      (fun a ha => hs a (List.mem_cons_of_mem _ ha)) hp2 hc2
    have key : ∀ a ∈ u :: us, k a = k p → E a p := by
      intro a ha e
      have h1 : vkey k p ≤ vkey k u := hp1 u (List.mem_cons_self _ _)
      have h2 : vkey k u ≤ vkey k a := by
        rcases List.mem_cons.mp ha with q | q
        · rw [q]
        · exact (List.pairwise_cons.mp hp2).1 a q
      have h3 : vkey k a = vkey k p := by
        unfold vkey
        rw [e]
      have h4 : k u = k p :=
        (vkey_eq_iff (hs u (by simp)) (hs p (by simp))).mp (by omega)
      exact htrans a u p (ih' a ha u (List.mem_cons_self _ _) (by rw [e, h4])) (hc1 h4)
    intro a ha b hb e
    rcases List.mem_cons.mp ha with qa | qa
    · rcases List.mem_cons.mp hb with qb | qb
      · rw [qa, qb]
        exact hrefl p (List.mem_cons_self _ _)
      · rw [qa]
        exact hsymm _ _ (key b qb (by rw [← e, qa]))
    · rcases List.mem_cons.mp hb with qb | qb
      · rw [qb]
        exact key a qa (by rw [e, qb])
      · exact ih' a qa b qb e

theorem compressKeep_refl (s : CFG) : CompressKeep s s :=
  ⟨rfl, rfl, fun _ => rfl, fun _ h => h, fun _ _ _ h => h, fun _ ud h => ⟨ud, h, rfl, rfl, rfl⟩⟩

theorem compressKeep_trans {a b c : CFG} (h1 : CompressKeep a b) (h2 : CompressKeep b c) :
    CompressKeep a c :=
  ⟨h2.data.trans h1.data, h2.usages.trans h1.usages, fun x => (h2.var x).trans (h1.var x),
    fun x h => h2.wf x (h1.wf x h), fun y i j h => h2.sets y i j (h1.sets y i j h),
    fun x ud h => by
      obtain ⟨u1, e1, v1, t1, n1⟩ := h1.kind x ud h
      obtain ⟨u2, e2, v2, t2, n2⟩ := h2.kind x u1 e1
      exact ⟨u2, e2, v2.trans v1, t2.trans t1, n2.trans n1⟩⟩

theorem wfU_var {s : CFG} {a : Nat} (h : WfU s a) : (usage_var s a).isSome = true := by
  obtain ⟨ud, x, vs, h1, h2, _⟩ := h
  unfold usage_var
  rw [h1]
  dsimp only
  rw [h2]
  rfl

/-- The union of two usages in `try_uni_usages`. -/
theorem try_uni_keep (a b : Nat) (s : CFG) (ha : WfU s a) (hb : WfU s b) :
    ∃ r s', try_uni_usages a b s = Except.ok (r, s') ∧ CompressKeep s s' ∧
      s'.usage_data = s.usage_data ∧
      (r = true ↔ usage_var s a = usage_var s b) ∧
      (r = true → ∀ x, usage_var s a = some x → same_set s' x a b) := by
  obtain ⟨ua, x, vs, a1, a2, a3⟩ := ha
  obtain ⟨ub, y, ws, b1, b2, b3⟩ := hb
  obtain ⟨r, s', h1, h2, _, h4, h5, h6⟩ := try_uni_usages_spec x a b s ua ub vs a1 b1 a2 a3
  obtain ⟨f1, f2, f3, f4, f5⟩ := same_but_marks_fields h2
  have hva : usage_var s a = some x := by
    unfold usage_var
    rw [a1]
    exact a2
  have hvb : usage_var s b = s.data.get_var_id ub.v := by
    unfold usage_var
    rw [b1]
  have hsets : ∀ z i j, same_set s z i j → same_set s' z i j := by
    intro z i j hz
    by_cases e : z = x
    · rw [e] at hz ⊢
      exact h5 i j hz
    · obtain ⟨zs, q1, q2⟩ := hz
      refine ⟨zs, ?_, q2⟩
      unfold get_var_split at q1 ⊢
      rw [h2.2.1 z e]
      exact q1
  have hsplit : ∀ z zs, get_var_split s z = some zs → ∃ zs', get_var_split s' z = some zs' := by
    intro z zs hz
    unfold get_var_split at hz ⊢
    by_cases e : z = x
    · rw [e] at hz ⊢
      obtain ⟨vs', q, _⟩ := h2.2.2 zs hz
      exact ⟨vs', q⟩
    · rw [h2.2.1 z e]
      exact ⟨zs, hz⟩
  refine ⟨r, s', h1, ⟨f5, f3, fun c => ?_, fun c hc => ?_, hsets, fun c ud hc => ?_⟩, f4, ?_, ?_⟩
  · unfold usage_var
    rw [f4, f5]
  · obtain ⟨uc, z, zs, c1, c2, c3⟩ := hc
    obtain ⟨zs', q⟩ := hsplit z zs c3
    exact ⟨uc, z, zs', by rw [f4]; exact c1, by rw [f5]; exact c2, q⟩
  · exact ⟨ud, by rw [f4]; exact hc, rfl, rfl, rfl⟩
  · rw [h4, hva, hvb]
    exact ⟨fun h => h.symm, fun h => h.symm⟩
  · intro hr z hz
    rw [hva] at hz
    cases hz
    exact h6 hr

/-- One round of the loop of `compress_usages` on a usage whose variable is the variable
of the usage before it: the two are united and the weak-write flag of the usage is added
to the last usage kept. -/
theorem compress_round_same (u prev b : Nat) (us res : List Nat) (s : CFG)
    (hu : WfU s u) (hp : WfU s prev) (hb : WfU s b) (hl : res.getLast? = some b)
    (he : usage_var s u = usage_var s prev) :
    ∃ s1, compress_usages_loop prev (u :: us) res s = compress_usages_loop u us res s1 ∧
      CompressKeep s s1 ∧ (∀ x, usage_var s u = some x → same_set s1 x u prev) ∧
      uweak s1 b = (uweak s b || uweak s u) ∧ ∀ a, a ≠ b → uweak s1 a = uweak s a := by
  obtain ⟨r, s', h1, h2, h3, h4, h5⟩ := try_uni_keep u prev s hu hp
  have hr : r = true := h4.mpr he
  subst hr
  obtain ⟨ub, xb, vb, b1, b2, b3⟩ := h2.wf b hb
  obtain ⟨uu, xu, vu, u1, u2, u3⟩ := h2.wf u hu
  have hbt : usage_at b s' = Except.ok (ub, s') := by simp [usage_at, b1]
  have hut : usage_at u s' = Except.ok (uu, s') := by simp [usage_at, u1]
  obtain ⟨nb, hnb⟩ : ∃ nb : UsageData, nb =
      { ub with weak_write_flag := ub.weak_write_flag || uu.weak_write_flag } := ⟨_, rfl⟩
  obtain ⟨s1, hs1⟩ : ∃ s1 : CFG, s1 = { s' with usage_data := upd s'.usage_data b (some nb) } :=
    ⟨_, rfl⟩
  have d1 : s1.data = s'.data := by rw [hs1]
  have d2 : s1.usage_data = upd s'.usage_data b (some nb) := by rw [hs1]
  have d3 : s1.var_split_data = s'.var_split_data := by rw [hs1]
  have d4 : s1.node_usages = s'.node_usages := by rw [hs1]
  have n1 : nb.v = ub.v := by rw [hnb]
  have n2 : nb.type = ub.type := by rw [hnb]
  have n3 : nb.node = ub.node := by rw [hnb]
  have n4 : nb.weak_write_flag = (ub.weak_write_flag || uu.weak_write_flag) := by rw [hnb]
  refine ⟨s1, ?_,
    compressKeep_trans h2 ⟨d1, d4, fun a => ?_, fun a ha => ?_, fun y i j h => ?_,
      fun a ud ha => ?_⟩, fun x hx => ?_, ?_, fun a ha => ?_⟩
  · conv_lhs => unfold compress_usages_loop
    simp only [bind_run, h1, if_true, hl, hbt, hut, modify_state_run]
    rw [hs1, hnb]
  · unfold usage_var
    rw [d1, d2]
    by_cases e : a = b
    · rw [e, upd_same, b1]
      dsimp only
      rw [n1]
    · rw [upd_other _ _ _ _ e]
  · obtain ⟨ua, x, vs, a1, a2, a3⟩ := ha
    unfold WfU get_var_split
    rw [d1, d2, d3]
    by_cases e : a = b
    · subst e
      rw [b1] at a1
      cases a1
      exact ⟨nb, x, vs, upd_same _ _ _, by rw [n1]; exact a2, a3⟩
    · exact ⟨ua, x, vs, (upd_other _ _ _ _ e).trans a1, a2, a3⟩
  · obtain ⟨vs, q1, q2⟩ := h
    refine ⟨vs, ?_, q2⟩
    unfold get_var_split at q1 ⊢
    rw [d3]
    exact q1
  · rw [d2]
    by_cases e : a = b
    · subst e
      rw [b1] at ha
      cases ha
      exact ⟨nb, upd_same _ _ _, n1, n2, n3⟩
    · exact ⟨ud, (upd_other _ _ _ _ e).trans ha, rfl, rfl, rfl⟩
  · obtain ⟨vs, q1, q2⟩ := h5 rfl x hx
    refine ⟨vs, ?_, q2⟩
    unfold get_var_split at q1 ⊢
    rw [d3]
    exact q1
  · unfold uweak
    rw [d2, upd_same, ← h3, b1, u1]
    exact n4
  · unfold uweak
    rw [d2, upd_other _ _ _ _ ha, h3]

/-- One round of the loop of `compress_usages` on a usage of another variable than the
usage before it: the usage is kept. -/
theorem compress_round_other (u prev : Nat) (us res : List Nat) (s : CFG)
    (hu : WfU s u) (hp : WfU s prev) (he : usage_var s u ≠ usage_var s prev) :
    ∃ s1, compress_usages_loop prev (u :: us) res s =
        compress_usages_loop u us (res ++ [u]) s1 ∧
      CompressKeep s s1 ∧ s1.usage_data = s.usage_data := by
  obtain ⟨r, s', h1, h2, h3, h4, _⟩ := try_uni_keep u prev s hu hp
  have hr : r = false := by
    cases r with
    | false => rfl
    | true => exact absurd (h4.mp rfl) he
  subst hr
  refine ⟨s', ?_, h2, h3⟩
  conv_lhs => unfold compress_usages_loop
  simp only [bind_run, h1, Bool.false_eq_true, if_false]

theorem any_congr_mem {l : List Nat} {f g : Nat → Bool} (h : ∀ a ∈ l, f a = g a) :
    l.any f = l.any g := by
  induction l with
  | nil => rfl
  | cons x xs ih =>
    rw [List.any_cons, List.any_cons, h x (List.mem_cons_self _ _),
      ih (fun a ha => h a (List.mem_cons_of_mem _ ha))]

theorem filter_any_congr {l : List Nat} {p : Nat → Bool} {f g : Nat → Bool}
    (h : ∀ a ∈ l, f a = g a) : (l.filter p).any f = (l.filter p).any g :=
  any_congr_mem fun a ha => h a (List.mem_of_mem_filter ha)

/-- The loop of `compress_usages` on a list sorted by the variable: it succeeds, keeps
the first usage of every variable after `prev`, unites neighbours of the same variable,
and gives each usage kept the disjunction of the weak-write flags of the usages of its
variable. -/
theorem compress_loop_spec : ∀ (us : List Nat) (prev b : Nat) (res : List Nat) (s : CFG),
    (∀ a ∈ prev :: us, WfU s a) → WfU s b → res.getLast? = some b →
    usage_var s b = usage_var s prev →
    List.Pairwise (fun p q => vkey (usage_var s) p ≤ vkey (usage_var s) q) (prev :: us) →
    (∀ u ∈ us, u ≠ b) → us.Nodup →
    ∃ s', compress_usages_loop prev us res s =
        Except.ok (res ++ heads (usage_var s) prev us, s') ∧
      CompressKeep s s' ∧
      List.Chain (fun p q => usage_var s q = usage_var s p →
        ∀ x, usage_var s q = some x → same_set s' x q p) prev us ∧
      uweak s' b = (uweak s b ||
        (us.filter fun a => decide (usage_var s a = usage_var s prev)).any (uweak s)) ∧
      (∀ h ∈ heads (usage_var s) prev us, uweak s' h =
        (us.filter fun a => decide (usage_var s a = usage_var s h)).any (uweak s)) ∧
      (∀ a, a ≠ b → a ∉ heads (usage_var s) prev us → uweak s' a = uweak s a) := by
  intro us
  induction us with
  | nil =>
    intro prev b res s _ _ _ _ _ _ _
    refine ⟨s, ?_, compressKeep_refl s, List.Chain.nil, ?_, ?_, ?_⟩
    · unfold compress_usages_loop heads
      rw [List.append_nil]
      rfl
    · simp
    · intro h hh
      cases hh
    · intro a _ _
      rfl
  | cons u us ih =>
    intro prev b res s hwf hb hl hbp hsort hne hnd
    have hwu : WfU s u := hwf u (by simp)
    have hwp : WfU s prev := hwf prev (by simp)
    obtain ⟨hs1, hs2⟩ := List.pairwise_cons.mp hsort
    obtain ⟨hn1, hn2⟩ := List.nodup_cons.mp hnd
    have hsome : ∀ a ∈ prev :: u :: us, (usage_var s a).isSome = true :=
      fun a ha => wfU_var (hwf a ha)
    by_cases he : usage_var s u = usage_var s prev
    · obtain ⟨s1, e1, k1, j1, f1, g1⟩ := compress_round_same u prev b us res s hwu hwp hb hl he
      have hk : usage_var s1 = usage_var s := funext k1.var
      obtain ⟨s', e2, k2, c2, f2, h2, g2⟩ := ih u b res s1
        (fun a ha => k1.wf a (hwf a (List.mem_cons_of_mem _ ha))) (k1.wf b hb) hl
        (by rw [hk, hbp, he]) (by rw [hk]; exact hs2)
        (fun a ha => hne a (List.mem_cons_of_mem _ ha)) hn2
      rw [hk] at e2 c2 f2 h2 g2
      have hw1 : ∀ a ∈ us, uweak s1 a = uweak s a :=
        fun a ha => g1 a (hne a (List.mem_cons_of_mem _ ha))
      have hheads : heads (usage_var s) prev (u :: us) = heads (usage_var s) u us := by
        conv_lhs => unfold heads
        rw [if_pos he, List.nil_append]
      refine ⟨s', ?_, compressKeep_trans k1 k2, List.Chain.cons ?_ c2, ?_, ?_, ?_⟩
      · rw [e1, e2, hheads]
      · intro _ x hx
        exact k2.sets x u prev (j1 x hx)
      · rw [f2, f1, filter_any_congr hw1, List.filter_cons, he]
        simp only [decide_True, if_true, List.any_cons, Bool.or_assoc]
      · rw [hheads]
        intro h hh
        rw [h2 h hh, filter_any_congr hw1, List.filter_cons]
        have hg := heads_gt (usage_var s) us u
          (fun a ha => hsome a (List.mem_cons_of_mem _ ha)) hs2 h hh
        have hneq : usage_var s u ≠ usage_var s h := by
          intro c
          unfold vkey at hg
          rw [c] at hg
          omega
        simp only [hneq, decide_False, Bool.false_eq_true, if_false]
      · rw [hheads]
        intro a ha1 ha2
        rw [g2 a ha1 ha2, g1 a ha1]
    · obtain ⟨s1, e1, k1, d1⟩ := compress_round_other u prev us res s hwu hwp he
      have hk : usage_var s1 = usage_var s := funext k1.var
      have hw : uweak s1 = uweak s := by
        funext a
        unfold uweak
        rw [d1]
      obtain ⟨s', e2, k2, c2, f2, h2, g2⟩ := ih u u (res ++ [u]) s1
        (fun a ha => k1.wf a (hwf a (List.mem_cons_of_mem _ ha))) (k1.wf u hwu)
        (by simp) rfl (by rw [hk]; exact hs2)
        (fun a ha c => hn1 (c ▸ ha)) hn2
      rw [hk] at e2 c2 f2 h2 g2
      rw [hw] at f2 h2 g2
      have hheads : heads (usage_var s) prev (u :: us) = u :: heads (usage_var s) u us := by
        conv_lhs => unfold heads
        rw [if_neg he]
        rfl
      have hlt : vkey (usage_var s) prev < vkey (usage_var s) u := by
        have h1 := hs1 u (List.mem_cons_self _ _)
        have h2 : vkey (usage_var s) u ≠ vkey (usage_var s) prev := fun c =>
          he ((vkey_eq_iff (hsome u (by simp)) (hsome prev (by simp))).mp c)
        omega
      have hfar : ∀ a ∈ u :: us, usage_var s a ≠ usage_var s prev := by
        intro a ha c
        have h1 : vkey (usage_var s) u ≤ vkey (usage_var s) a := by
          rcases List.mem_cons.mp ha with q | q
          · rw [q]
          · exact (List.pairwise_cons.mp hs2).1 a q
        have h2 : vkey (usage_var s) a = vkey (usage_var s) prev := by
          unfold vkey
          rw [c]
        omega
      have hbu : b ≠ u := fun c => hne u (List.mem_cons_self _ _) c.symm
      have hbh : b ∉ heads (usage_var s) u us := fun c =>
        hne b (List.mem_cons_of_mem _ (heads_sub _ _ _ _ c)) rfl
      refine ⟨s', ?_, compressKeep_trans k1 k2, List.Chain.cons ?_ c2, ?_, ?_, ?_⟩
      · rw [e1, e2, hheads, List.append_assoc]
        rfl
      · intro c
        exact absurd c he
      · rw [g2 b hbu hbh]
        have : (List.filter (fun a => decide (usage_var s a = usage_var s prev)) (u :: us)) = [] :=
          List.filter_eq_nil_iff.mpr fun a ha => by simpa using hfar a ha
        rw [this]
        simp
      · rw [hheads]
        intro h hh
        rcases List.mem_cons.mp hh with q | q
        · rw [q, f2, List.filter_cons]
          simp only [decide_True, if_true, List.any_cons]
        · rw [h2 h q, List.filter_cons]
          have hg := heads_gt (usage_var s) us u
            (fun a ha => hsome a (List.mem_cons_of_mem _ ha)) hs2 h q
          have hneq : usage_var s u ≠ usage_var s h := by
            intro c
            unfold vkey at hg
            rw [c] at hg
            omega
          simp only [hneq, decide_False, Bool.false_eq_true, if_false]
      · rw [hheads]
        intro a ha1 ha2
        exact g2 a (fun c => ha2 (c ▸ List.mem_cons_self _ _))
          (fun c => ha2 (List.mem_cons_of_mem _ c))

theorem filter_any_and (l : List Nat) (p f : Nat → Bool) :
    (l.filter p).any f = l.any fun a => p a && f a := by
  induction l with
  | nil => rfl
  | cons x xs ih =>
    rw [List.filter_cons, List.any_cons]
    cases hp : p x with
    | true =>
      simp only [if_true, List.any_cons, ih, Bool.true_and]
    | false =>
      simp only [Bool.false_eq_true, if_false, ih, Bool.false_and, Bool.false_or]

theorem any_perm {l l' : List Nat} (h : l.Perm l') (f : Nat → Bool) : l.any f = l'.any f := by
  apply Bool.eq_iff_iff.mpr
  rw [List.any_eq_true, List.any_eq_true]
  exact ⟨fun ⟨x, hx, hf⟩ => ⟨x, h.mem_iff.mp hx, hf⟩, fun ⟨x, hx, hf⟩ => ⟨x, h.mem_iff.mpr hx, hf⟩⟩

theorem same_set_of_split {s s' : CFG} (h : s'.var_split_data = s.var_split_data) (x : VarPtr)
    (i j : Nat) (hs : same_set s x i j) : same_set s' x i j := by
  obtain ⟨vs, q1, q2⟩ := hs
  refine ⟨vs, ?_, q2⟩
  unfold get_var_split at q1 ⊢
  rw [h]
  exact q1

theorem uweak_of_data {s s' : CFG} (h : s'.usage_data = s.usage_data) : uweak s' = uweak s := by
  funext a
  unfold uweak
  rw [h]

theorem usage_var_of_data {s s' : CFG} (h1 : s'.usage_data = s.usage_data)
    (h2 : s'.data = s.data) (a : Nat) : usage_var s' a = usage_var s a := by
  unfold usage_var
  rw [h1, h2]

/-- The run of `compress_usages` on a node whose usages are distinct and well formed. -/
theorem compress_usages_run (n : Nat) (s : CFG)
    (hwf : ∀ a ∈ s.node_usages n, WfU s a) (hnd : (s.node_usages n).Nodup) :
    ∃ s', compress_usages (some n) s = Except.ok ((), s') ∧
      (∀ r ∈ s'.node_usages n, r ∈ s.node_usages n) ∧
      List.Pairwise (fun a b => vkey (usage_var s) a < vkey (usage_var s) b)
        (s'.node_usages n) ∧
      (∀ a ∈ s.node_usages n, ∃ r ∈ s'.node_usages n, usage_var s r = usage_var s a) ∧
      (∀ a ∈ s.node_usages n, ∀ b ∈ s.node_usages n, ∀ x,
        usage_var s a = some x → usage_var s b = some x → same_set s' x a b) ∧
      (∀ r ∈ s'.node_usages n, uweak s' r =
        (s.node_usages n).any fun a => decide (usage_var s a = usage_var s r) && uweak s a) ∧
      (∀ m, m ≠ n → s'.node_usages m = s.node_usages m) ∧
      (∀ a ud, s.usage_data a = some ud → ∃ ud', s'.usage_data a = some ud' ∧
        ud'.v = ud.v ∧ ud'.type = ud.type ∧ ud'.node = ud.node) := by
  haveI : IsTotal Nat (cmp_by_var_id s) := ⟨fun a b => Nat.le_total _ _⟩
  haveI : IsTrans Nat (cmp_by_var_id s) := ⟨fun a b c h1 h2 => Nat.le_trans h1 h2⟩
  have hperm := List.perm_insertionSort (cmp_by_var_id s) (s.node_usages n)
  have hsorted := List.sorted_insertionSort (cmp_by_var_id s) (s.node_usages n)
  unfold compress_usages
  simp only [bind_run, node_id, pure_run, get_state_run]
  cases hL : (s.node_usages n).insertionSort (cmp_by_var_id s) with
  | nil =>
    rw [hL] at hperm
    have hnil : s.node_usages n = [] := List.perm_nil.mp hperm.symm
    simp only [pure_run, modify_state_run]
    refine ⟨_, rfl, ?_, ?_, ?_, ?_, ?_, ?_, ?_⟩
    · intro r hr
      change r ∈ upd s.node_usages n [] n at hr
      rw [upd_same] at hr
      cases hr
    · show List.Pairwise _ (upd s.node_usages n [] n)
      rw [upd_same]
      exact List.Pairwise.nil
    · intro a ha
      rw [hnil] at ha
      cases ha
    · intro a ha
      rw [hnil] at ha
      cases ha
    · intro r hr
      change r ∈ upd s.node_usages n [] n at hr
      rw [upd_same] at hr
      cases hr
    · intro m hm
      exact upd_other _ _ _ _ hm
    · intro a ud ha
      exact ⟨ud, ha, rfl, rfl, rfl⟩
  | cons u us =>
    rw [hL] at hperm hsorted
    have hmem : ∀ a, a ∈ u :: us ↔ a ∈ s.node_usages n := fun a => hperm.mem_iff
    have hndL : (u :: us).Nodup := hperm.nodup_iff.mpr hnd
    obtain ⟨hn1, hn2⟩ := List.nodup_cons.mp hndL
    have hwfL : ∀ a ∈ u :: us, WfU s a := fun a ha => hwf a ((hmem a).mp ha)
    have hsort : List.Pairwise (fun p q => vkey (usage_var s) p ≤ vkey (usage_var s) q)
        (u :: us) := hsorted
    obtain ⟨s', e, k, c, f, h, g⟩ := compress_loop_spec us u u [u] s hwfL
      (hwfL u (List.mem_cons_self _ _)) rfl rfl hsort (fun a ha q => hn1 (q ▸ ha)) hn2
    have hsome : ∀ a ∈ u :: us, (usage_var s a).isSome = true := fun a ha => wfU_var (hwfL a ha)
    obtain ⟨sf, hsf⟩ : ∃ sf : CFG, sf = { s' with node_usages := upd s'.node_usages n (u :: heads (usage_var s) u us) } :=
      ⟨_, rfl⟩
    have d1 : sf.node_usages = upd s'.node_usages n (u :: heads (usage_var s) u us) := by rw [hsf]
    have d2 : sf.usage_data = s'.usage_data := by rw [hsf]
    have d3 : sf.var_split_data = s'.var_split_data := by rw [hsf]
    have hflag : ∀ r ∈ u :: heads (usage_var s) u us, uweak s' r =
        ((u :: us).filter fun a => decide (usage_var s a = usage_var s r)).any (uweak s) := by
      intro r hr
      rw [List.filter_cons]
      rcases List.mem_cons.mp hr with q | q
      · rw [q, f]
        simp only [decide_True, if_true, List.any_cons]
      · rw [h r q]
        have hg := heads_gt (usage_var s) us u hsome hsort r q
        have hneq : usage_var s u ≠ usage_var s r := by
          intro c0
          unfold vkey at hg
          rw [c0] at hg
          omega
        simp only [hneq, decide_False, Bool.false_eq_true, if_false]
    refine ⟨sf, ?_, ?_, ?_, ?_, ?_, ?_, ?_, ?_⟩
    · dsimp only
      rw [bind_run, e, hsf]
      rfl
    · intro r hr
      rw [d1, upd_same] at hr
      rcases List.mem_cons.mp hr with q | q
      · rw [q]
        exact (hmem u).mp (List.mem_cons_self _ _)
      · exact (hmem r).mp (List.mem_cons_of_mem _ (heads_sub _ _ _ _ q))
    · rw [d1, upd_same]
      exact heads_pairwise (usage_var s) us u hsome hsort
    · intro a ha
      obtain ⟨r, hr, hk⟩ := heads_cover (usage_var s) us u a ((hmem a).mpr ha)
      refine ⟨r, ?_, hk⟩
      rw [d1, upd_same]
      exact hr
    · intro a ha b hb x hxa hxb
      have hjoin := chain_joined (usage_var s)
        (fun p q => usage_var s p = usage_var s q ∧
          ∀ y, usage_var s p = some y → same_set s' y p q)
        (fun p q hpq => ⟨hpq.1.symm, fun y hy =>
          same_set_symm (hpq.2 y (by rw [hpq.1]; exact hy))⟩)
        (fun p q r hpq hqr => ⟨hpq.1.trans hqr.1, fun y hy =>
          same_set_trans (hpq.2 y hy) (hqr.2 y (by rw [← hpq.1]; exact hy))⟩)
        us u
        (fun p hp => ⟨rfl, fun y hy => by
          obtain ⟨ud, z, vs, q1, q2, q3⟩ := k.wf p (hwfL p hp)
          have hz : usage_var s' p = some z := by
            unfold usage_var
            rw [q1]
            exact q2
          rw [k.var p, hy] at hz
          cases hz
          exact ⟨vs, q3, rfl⟩⟩)
        hsome hsort
        (List.Chain.imp (fun p q hpq e0 => ⟨e0, fun y hy => hpq e0 y hy⟩) c)
        a ((hmem a).mpr ha) b ((hmem b).mpr hb) (by rw [hxa, hxb])
      exact same_set_of_split d3 x a b (hjoin.2 x hxa)
    · intro r hr
      rw [d1, upd_same] at hr
      rw [uweak_of_data d2, hflag r hr, filter_any_and]
      exact any_perm hperm _
    · intro m hm
      rw [d1, upd_other _ _ _ _ hm, k.usages]
    · intro a ud ha
      rw [d2]
      exact k.kind a ud ha

/-- C28. Usage compression. Let the usages attached to node `n` be distinct, stored, and
usages of variables with a split state. Then `compress_usages` succeeds, and afterwards
the list of the node holds usages of the original list only, with strictly increasing
variables (one usage per variable, ordered by the variable), a usage for every variable
of the original list; any two original usages of one variable are in one union-find
set; the weak-write flag of every usage kept is the disjunction of the weak-write flags
of the original usages of its variable; and the lists of the other nodes, and the vertex,
kind and node of every usage, are as before. -/
theorem compress_usages_spec (n : Nat) (s : CFG)
    (hwf : ∀ a ∈ s.node_usages n, WfU s a) (hnd : (s.node_usages n).Nodup) :
    ∃ s', compress_usages (some n) s = Except.ok ((), s') ∧
      (∀ r ∈ s'.node_usages n, r ∈ s.node_usages n) ∧
      List.Pairwise (fun a b => vkey (usage_var s) a < vkey (usage_var s) b)
        (s'.node_usages n) ∧
      (∀ a ∈ s.node_usages n, ∃ r ∈ s'.node_usages n, usage_var s r = usage_var s a) ∧
      (∀ a ∈ s.node_usages n, ∀ b ∈ s.node_usages n, ∀ x,
        usage_var s a = some x → usage_var s b = some x → same_set s' x a b) ∧
      (∀ r ∈ s'.node_usages n, uweak s' r =
        (s.node_usages n).any fun a => decide (usage_var s a = usage_var s r) && uweak s a) ∧
      (∀ m, m ≠ n → s'.node_usages m = s.node_usages m) ∧
      (∀ a ud, s.usage_data a = some ud → ∃ ud', s'.usage_data a = some ud' ∧
        ud'.v = ud.v ∧ ud'.type = ud.type ∧ ud'.node = ud.node) :=
  compress_usages_run n s hwf hnd

/-- Witness of C28: the node of `sample_compress_state`: after the compression its list
is usage 1 (of `$x`) followed by usage 0 (of `$y`), and usage 1 has the weak-write
flag. -/
theorem compress_usages_spec_witness :
    (∀ a ∈ sample_compress_state.node_usages 0, WfU sample_compress_state a) ∧
    (sample_compress_state.node_usages 0).Nodup ∧
    (state_after (compress_usages (some 0) sample_compress_state)).node_usages 0 = [1, 0] ∧
    uweak (state_after (compress_usages (some 0) sample_compress_state)) 1 = true ∧
    ∃ s', compress_usages (some 0) sample_compress_state = Except.ok ((), s') ∧
      (∀ r ∈ s'.node_usages 0, r ∈ sample_compress_state.node_usages 0) ∧
      List.Pairwise (fun a b => vkey (usage_var sample_compress_state) a <
        vkey (usage_var sample_compress_state) b) (s'.node_usages 0) ∧
      (∀ a ∈ sample_compress_state.node_usages 0, ∀ b ∈ sample_compress_state.node_usages 0,
        ∀ x, usage_var sample_compress_state a = some x →
          usage_var sample_compress_state b = some x → same_set s' x a b) := by
  have h1 : ∀ a ∈ sample_compress_state.node_usages 0, WfU sample_compress_state a := by
    intro a ha
    have h0 : a = 0 ∨ a = 1 ∨ a = 2 := by
      have : a ∈ [0, 1, 2] := ha
      simpa using this
    rcases h0 with e | e | e
    · rw [e]
      exact ⟨_, 1, _, rfl, rfl, rfl⟩
    · rw [e]
      exact ⟨_, 0, _, rfl, rfl, rfl⟩
    · rw [e]
      exact ⟨_, 0, _, rfl, rfl, rfl⟩
  have h2 : (sample_compress_state.node_usages 0).Nodup := by decide
  obtain ⟨s', q1, q2, q3, _, q5, _⟩ := compress_usages_spec 0 sample_compress_state h1 h2
  exact ⟨h1, h2, by decide!, by decide!, s', q1, q2, q3, q5⟩

theorem number_roots_split : ∀ (rs A : List Nat), A.Nodup →
    ∃ B, number_roots rs A = A ++ B ∧ (A ++ B).Nodup ∧ (∀ b ∈ B, b ∈ rs) ∧
      (∀ r ∈ rs, r ∈ A ∨ r ∈ B) ∧
      List.Pairwise (fun a b => rs.indexOf a < rs.indexOf b) B := by
  intro rs
  induction rs with
  | nil =>
    intro A hA
    exact ⟨[], by simp [number_roots], by simpa using hA, by simp, by simp, List.Pairwise.nil⟩
  | cons r rs ih =>
    intro A hA
    unfold number_roots
    by_cases hr : r ∈ A
    · rw [if_pos hr]
      obtain ⟨B, e, hnd, hsub, hcov, hord⟩ := ih A hA
      have hdis : ∀ b ∈ B, b ≠ r := by
        intro b hb c
        rw [c] at hb
        exact (List.nodup_append.mp hnd).2.2 hr hb
      refine ⟨B, e, hnd, fun b hb => List.mem_cons_of_mem _ (hsub b hb), ?_, ?_⟩
      · intro x hx
        rcases List.mem_cons.mp hx with q | q
        · exact Or.inl (q ▸ hr)
        · exact hcov x q
      · refine List.Pairwise.imp_of_mem ?_ hord
        intro a b ha hb hab
        rw [List.indexOf_cons_ne _ (hdis a ha).symm, List.indexOf_cons_ne _ (hdis b hb).symm]
        omega
    · rw [if_neg hr]
      have hA' : (A ++ [r]).Nodup := by
        rw [List.nodup_append]
        refine ⟨hA, List.nodup_singleton r, ?_⟩
        intro x hx hx'
        rw [List.mem_singleton.mp hx'] at hx
        exact hr hx
      obtain ⟨B, e, hnd, hsub, hcov, hord⟩ := ih (A ++ [r]) hA'
      have hdis : ∀ b ∈ B, b ≠ r := by
        intro b hb c
        rw [c] at hb
        exact (List.nodup_append.mp hnd).2.2 (List.mem_append_right _ (List.mem_singleton.mpr rfl)) hb
      refine ⟨r :: B, by rw [e, List.append_assoc]; rfl, ?_, ?_, ?_, ?_⟩
      · rw [List.append_assoc] at hnd
        exact hnd
      · intro b hb
        rcases List.mem_cons.mp hb with q | q
        · rw [q]
          exact List.mem_cons_self _ _
        · exact List.mem_cons_of_mem _ (hsub b q)
      · intro x hx
        rcases List.mem_cons.mp hx with q | q
        · exact Or.inr (q ▸ List.mem_cons_self _ _)
        · rcases hcov x q with c | c
          · rcases List.mem_append.mp c with c1 | c1
            · exact Or.inl c1
            · exact Or.inr (List.mem_singleton.mp c1 ▸ List.mem_cons_self _ _)
          · exact Or.inr (List.mem_cons_of_mem _ c)
      · refine List.pairwise_cons.mpr ⟨?_, ?_⟩
        · intro b hb
          rw [List.indexOf_cons_self, List.indexOf_cons_ne _ (hdis b hb).symm]
          omega
        · refine List.Pairwise.imp_of_mem ?_ hord
          intro a b ha hb hab
          rw [List.indexOf_cons_ne _ (hdis a ha).symm, List.indexOf_cons_ne _ (hdis b hb).symm]
          omega

/-- The numbering from the empty list: the distinct representatives in the order of
their first occurrence. -/
theorem number_roots_spec (rs : List Nat) :
    (number_roots rs []).Nodup ∧ (∀ r, r ∈ number_roots rs [] ↔ r ∈ rs) ∧
    List.Pairwise (fun a b => rs.indexOf a < rs.indexOf b) (number_roots rs []) ∧
    (number_roots rs []).head? = rs.head? := by
  obtain ⟨B, e, hnd, hsub, hcov, hord⟩ := number_roots_split rs [] List.nodup_nil
  rw [e, List.nil_append]
  rw [List.nil_append] at hnd
  refine ⟨hnd, fun r => ⟨hsub r, fun h => ?_⟩, hord, ?_⟩
  · rcases hcov r h with c | c
    · cases c
    · exact c
  · cases rs with
    | nil =>
      have : B = [] := by
        cases B with
        | nil => rfl
        | cons b bs => exact absurd (hsub b (List.mem_cons_self _ _)) (List.not_mem_nil b)
      rw [this]
    | cons r rs =>
      have hB : number_roots (r :: rs) [] = [] ++ B := e
      unfold number_roots at hB
      rw [if_neg (List.not_mem_nil r)] at hB
      obtain ⟨B', e', _⟩ := number_roots_split rs ([] ++ [r]) (List.nodup_singleton r)
      rw [e'] at hB
      have hB' : B = r :: B' := by simpa using hB.symm
      rw [hB']
      rfl

theorem partOnly_refl (s : CFG) : PartOnly s s := by
  refine ⟨rfl, rfl, fun a => ?_⟩
  cases e : s.usage_data a with
  | none => rfl
  | some u => exact ⟨u.part_id, rfl⟩

theorem partOnly_data {s0 s : CFG} (h : PartOnly s0 s) {a : Nat} {u0 : UsageData}
    (h0 : s0.usage_data a = some u0) : ∃ p, s.usage_data a = some { u0 with part_id := p } := by
  have := h.2.2 a
  rw [h0] at this
  exact this

theorem partOnly_visited {s0 s : CFG} (h : PartOnly s0 s) (a : Nat) :
    usage_visited s a = usage_visited s0 a := by
  unfold usage_visited
  have := h.2.2 a
  cases e : s0.usage_data a with
  | none =>
    rw [e] at this
    rw [this]
  | some u0 =>
    rw [e] at this
    obtain ⟨p, hp⟩ := this
    rw [hp, h.1]

theorem number_loop (var : VarPtr) (s0 : CFG) (vs : VarSplitData)
    (hvs : get_var_split s0 var = some vs) :
    ∀ (gen A : List Nat) (s : CFG), number_ready s0 vs gen = true → PartOnly s0 s →
      A.Nodup → (∀ r ∈ A, upart s r = some (A.indexOf r : Int)) →
      (∀ r, r ∉ A → upart s r = upart s0 r) →
      ∃ s', process_var_number var gen A.length s =
          Except.ok ((number_roots (visited_roots s0 vs gen) A).length, s') ∧
        PartOnly s0 s' ∧
        (∀ r ∈ number_roots (visited_roots s0 vs gen) A,
          upart s' r = some ((number_roots (visited_roots s0 vs gen) A).indexOf r : Int)) ∧
        (∀ r, r ∉ number_roots (visited_roots s0 vs gen) A → upart s' r = upart s0 r) := by
  intro gen
  induction gen with
  | nil =>
    intro A s _ hp _ hA hO
    exact ⟨s, rfl, hp, hA, hO⟩
  | cons i rest ih =>
    intro A s hr hp hnd hA hO
    unfold number_ready at hr
    rw [List.all_cons, Bool.and_eq_true] at hr
    obtain ⟨hr1, hr2⟩ := hr
    have hrest : number_ready s0 vs rest = true := hr2
    cases e0 : s0.usage_data i with
    | none =>
      rw [e0] at hr1
      cases hr1
    | some ud0 =>
      rw [e0] at hr1
      dsimp only at hr1
      rw [Bool.and_eq_true] at hr1
      obtain ⟨hn, hroot⟩ := hr1
      obtain ⟨n, hn'⟩ := Option.isSome_iff_exists.mp hn
      obtain ⟨p, hp'⟩ := partOnly_data hp e0
      have hat : usage_at i s = Except.ok ({ ud0 with part_id := p }, s) := by
        simp [usage_at, hp']
      have hnode : node_id ({ ud0 with part_id := p } : UsageData).node s = Except.ok (n, s) := by
        show node_id ud0.node s = _
        rw [hn']
        rfl
      have hvis : usage_visited s0 i = (s0.node_was n != 0) := by
        unfold usage_visited
        rw [e0]
        dsimp only
        rw [hn']
      have hsplit : get_var_split s var = some vs := by
        unfold get_var_split at hvs ⊢
        rw [hp.2.1]
        exact hvs
      unfold process_var_number
      simp only [bind_run, hat, hnode, get_state_run]
      by_cases hw : s.node_was n ≠ 0
      · rw [if_pos hw]
        have hv : usage_visited s0 i = true := by
          rw [hvis, ← hp.1]
          simpa using hw
        have hroots : visited_roots s0 vs (i :: rest) =
            dsu_get vs.parent i :: visited_roots s0 vs rest := by
          unfold visited_roots
          rw [List.filter_cons, hv]
          rfl
        rw [hv] at hroot
        simp only [Bool.not_true, Bool.false_or] at hroot
        cases eu : s0.usage_data (dsu_get vs.parent i) with
        | none =>
          rw [eu] at hroot
          cases hroot
        | some uu0 =>
          rw [eu] at hroot
          have hfresh : uu0.part_id = -1 := by simpa using hroot
          obtain ⟨q, hq⟩ := partOnly_data hp eu
          have hatu : usage_at (dsu_get vs.parent i) s =
              Except.ok ({ uu0 with part_id := q }, s) := by
            simp [usage_at, hq]
          have hupart : upart s (dsu_get vs.parent i) = some q := by
            unfold upart
            rw [hq]
            rfl
          simp only [hsplit, bind_run, hatu]
          rw [hroots]
          unfold number_roots
          by_cases hin : dsu_get vs.parent i ∈ A
          · rw [if_pos hin]
            have hqv : q = (A.indexOf (dsu_get vs.parent i) : Int) := by
              have := hA _ hin
              rw [hupart] at this
              exact Option.some.inj this
            have hne : ¬ (q = -1) := by
              rw [hqv]
              omega
            rw [if_neg hne]
            exact ih A s hrest hp hnd hA hO
          · rw [if_neg hin]
            have hqv : q = -1 := by
              have := hO _ hin
              rw [hupart] at this
              unfold upart at this
              rw [eu] at this
              have := Option.some.inj this
              rw [this]
              exact hfresh
            rw [if_pos hqv]
            simp only [bind_run, modify_state_run]
            have hlen : A.length + 1 = (A ++ [dsu_get vs.parent i]).length := by simp
            rw [hlen]
            refine ih (A ++ [dsu_get vs.parent i]) _ hrest ?_ ?_ ?_ ?_
            · refine ⟨hp.1, hp.2.1, fun a => ?_⟩
              show match s0.usage_data a with
                | some u0 => ∃ p, upd s.usage_data (dsu_get vs.parent i) _ a = some _
                | none => upd s.usage_data (dsu_get vs.parent i) _ a = none
              by_cases ea : a = dsu_get vs.parent i
              · rw [ea, eu, upd_same]
                exact ⟨_, rfl⟩
              · rw [upd_other _ _ _ _ ea]
                exact hp.2.2 a
            · rw [List.nodup_append]
              refine ⟨hnd, List.nodup_singleton _, ?_⟩
              intro x hx hx'
              rw [List.mem_singleton.mp hx'] at hx
              exact hin hx
            · intro r hr
              unfold upart
              show (upd s.usage_data (dsu_get vs.parent i) _ r).map _ = _
              rcases List.mem_append.mp hr with c | c
              · have hne : r ≠ dsu_get vs.parent i := fun c0 => hin (c0 ▸ c)
                rw [upd_other _ _ _ _ hne, List.indexOf_append_of_mem c]
                exact hA r c
              · rw [List.mem_singleton.mp c, upd_same,
                  List.indexOf_append_of_not_mem hin, List.indexOf_cons_self]
                simp
            · intro r hr
              have h1 : r ∉ A := fun c => hr (List.mem_append_left _ c)
              have h2 : r ≠ dsu_get vs.parent i := fun c =>
                hr (List.mem_append_right _ (List.mem_singleton.mpr c))
              unfold upart
              show (upd s.usage_data (dsu_get vs.parent i) _ r).map _ = _
              rw [upd_other _ _ _ _ h2]
              exact hO r h1
      · rw [if_neg hw]
        have hv : usage_visited s0 i = false := by
          rw [hvis, ← hp.1]
          simpa using hw
        have hroots : visited_roots s0 vs (i :: rest) = visited_roots s0 vs rest := by
          unfold visited_roots
          rw [List.filter_cons, hv]
          rfl
        rw [hroots]
        exact ih A s hrest hp hnd hA hO

/-- An element whose representative is numbered before another one has an occurrence in
`gen`, on a visited node, before every visited occurrence of the other one. -/
theorem first_before (vis : Nat → Bool) (root : Nat → Nat) (x y : Nat) :
    ∀ gen : List Nat, x ∈ (gen.filter vis).map root →
      ((gen.filter vis).map root).indexOf x < ((gen.filter vis).map root).indexOf y →
      ∃ g1 a g2, gen = g1 ++ a :: g2 ∧ vis a = true ∧ root a = x ∧
        ∀ b ∈ g1, vis b = true → root b ≠ y := by
  intro gen
  induction gen with
  | nil =>
    intro hx
    cases hx
  | cons h t ih =>
    intro hx hlt
    cases hv : vis h with
    | false =>
      rw [List.filter_cons, hv] at hx hlt
      obtain ⟨g1, a, g2, e, h1, h2, h3⟩ := ih hx hlt
      refine ⟨h :: g1, a, g2, by rw [e]; rfl, h1, h2, ?_⟩
      intro b hb hvb
      rcases List.mem_cons.mp hb with c | c
      · rw [c, hv] at hvb
        cases hvb
      · exact h3 b c hvb
    | true =>
      rw [List.filter_cons, hv] at hx hlt
      simp only [if_true, List.map_cons] at hx hlt
      by_cases e1 : root h = x
      · exact ⟨[], h, t, rfl, hv, e1, fun b hb => by cases hb⟩
      · have e1' : x ≠ root h := fun c => e1 c.symm
        by_cases e2 : root h = y
        · rw [← e2, List.indexOf_cons_self] at hlt
          omega
        · have e2' : y ≠ root h := fun c => e2 c.symm
          rw [List.indexOf_cons_ne _ e1'.symm, List.indexOf_cons_ne _ e2'.symm] at hlt
          have hx' : x ∈ (t.filter vis).map root := by
            rcases List.mem_cons.mp hx with c | c
            · exact absurd c e1'
            · exact c
          obtain ⟨g1, a, g2, e, h1, h2, h3⟩ := ih hx' (by omega)
          refine ⟨h :: g1, a, g2, by rw [e]; rfl, h1, h2, ?_⟩
          intro b hb hvb
          rcases List.mem_cons.mp hb with c | c
          · rw [c]
            exact e2
          · exact h3 b c hvb

theorem visited_roots_mem {s : CFG} {vs : VarSplitData} {gen : List Nat} {r : Nat} :
    r ∈ visited_roots s vs gen ↔
      ∃ i ∈ gen, usage_visited s i = true ∧ dsu_get vs.parent i = r := by
  unfold visited_roots
  simp only [List.mem_map, List.mem_filter]
  constructor
  · rintro ⟨i, ⟨h1, h2⟩, h3⟩
    exact ⟨i, h1, h2, h3⟩
  · rintro ⟨i, h1, h2, h3⟩
    exact ⟨i, ⟨h1, h2⟩, h3⟩

theorem visited_roots_congr {s t : CFG} {vs vt : VarSplitData} {gen : List Nat}
    (hv : ∀ i ∈ gen, usage_visited t i = usage_visited s i)
    (hr : ∀ i ∈ gen, dsu_get vt.parent i = dsu_get vs.parent i) :
    visited_roots t vt gen = visited_roots s vs gen := by
  unfold visited_roots
  have e : gen.filter (usage_visited t) = gen.filter (usage_visited s) :=
    List.filter_congr hv
  rw [e]
  exact List.map_congr_left fun i hi => hr i (List.mem_filter.mp hi).1

/-- The numbering loop on a ready state: it returns the number of representatives of the
usages on visited nodes, and the partition id of every usage on a visited node is the
index of its representative in the numbering. -/
theorem number_run (var : VarPtr) (s : CFG) (vs : VarSplitData) (gen : List Nat)
    (hvs : get_var_split s var = some vs) (hr : number_ready s vs gen = true) :
    ∃ s', process_var_number var gen 0 s =
        Except.ok ((number_roots (visited_roots s vs gen) []).length, s') ∧
      PartOnly s s' ∧
      ∀ i ∈ gen, usage_visited s i = true →
        usage_part s' var i =
          some ((number_roots (visited_roots s vs gen) []).indexOf (dsu_get vs.parent i)) ∧
        (number_roots (visited_roots s vs gen) []).indexOf (dsu_get vs.parent i) <
          (number_roots (visited_roots s vs gen) []).length := by
  obtain ⟨s', h1, h2, h3, _⟩ := number_loop var s vs hvs gen [] s hr (partOnly_refl s)
    List.nodup_nil (fun r hr => by cases hr) (fun _ _ => rfl)
  refine ⟨s', h1, h2, fun i hi hv => ?_⟩
  have hm : dsu_get vs.parent i ∈ number_roots (visited_roots s vs gen) [] :=
    ((number_roots_spec _).2.1 _).mpr (visited_roots_mem.mpr ⟨i, hi, hv, rfl⟩)
  refine ⟨?_, List.indexOf_lt_length.mpr hm⟩
  have hp := h3 _ hm
  have hsplit : get_var_split s' var = some vs := by
    unfold get_var_split at hvs ⊢
    rw [h2.2.1]
    exact hvs
  unfold usage_part
  rw [hsplit]
  dsimp only
  unfold upart at hp
  cases e : s'.usage_data (dsu_get vs.parent i) with
  | none =>
    rw [e] at hp
    cases hp
  | some uu =>
    rw [e] at hp
    have hq : uu.part_id =
        ((number_roots (visited_roots s vs gen) []).indexOf (dsu_get vs.parent i) : Int) :=
      Option.some.inj hp
    dsimp only
    rw [hq, if_neg (by omega)]
    simp

/-- C30. The numbering loop of `process_var`, run on the usages `usage_gen` of a variable
(oldest first) in a state in which no representative has a partition id yet, returns the
number `k` of partitions, and: the usages on visited nodes get the ids `0..k-1`, each id
is taken, for `p < q` a usage of partition `p` on a visited node stands in `usage_gen`
before every such usage of partition `q`, the first usage on a visited node is in
partition 0, and the numbering is the same in every state with the same usages, the same
visited nodes and the same representatives. -/
theorem partition_numbering (var : VarPtr) (s : CFG) (vs : VarSplitData)
    (hvs : get_var_split s var = some vs) (hr : number_ready s vs vs.usage_gen = true) :
    ∃ k s', process_var_number var vs.usage_gen 0 s = Except.ok (k, s') ∧
      (∀ i, usage_visited s' i = usage_visited s i) ∧
      get_var_split s' var = some vs ∧
      (∀ i ∈ vs.usage_gen, usage_visited s i = true →
        ∃ p, p < k ∧ usage_part s' var i = some p) ∧
      (∀ p, p < k →
        ∃ i ∈ vs.usage_gen, usage_visited s i = true ∧ usage_part s' var i = some p) ∧
      (∀ p q, p < q → q < k →
        ∃ g1 a g2, vs.usage_gen = g1 ++ a :: g2 ∧ usage_visited s a = true ∧
          usage_part s' var a = some p ∧
          ∀ b ∈ g1, usage_visited s b = true → usage_part s' var b ≠ some q) ∧
      (∀ a, (vs.usage_gen.filter (usage_visited s)).head? = some a →
        usage_part s' var a = some 0) ∧
      (∀ t vt, get_var_split t var = some vt → vt.usage_gen = vs.usage_gen →
        (∀ i ∈ vs.usage_gen, dsu_get vt.parent i = dsu_get vs.parent i) →
        (∀ i ∈ vs.usage_gen, usage_visited t i = usage_visited s i) →
        number_ready t vt vs.usage_gen = true →
        ∃ t', process_var_number var vs.usage_gen 0 t = Except.ok (k, t') ∧
          ∀ i ∈ vs.usage_gen, usage_visited s i = true →
            usage_part t' var i = usage_part s' var i) := by
  obtain ⟨s', h1, h2, h3⟩ := number_run var s vs vs.usage_gen hvs hr
  obtain ⟨hnd, hmem, hpw, hhead⟩ := number_roots_spec (visited_roots s vs vs.usage_gen)
  have hsplit : get_var_split s' var = some vs := by
    unfold get_var_split at hvs ⊢
    rw [h2.2.1]
    exact hvs
  refine ⟨_, s', h1, partOnly_visited h2, hsplit, ?_, ?_, ?_, ?_, ?_⟩
  · intro i hi hv
    exact ⟨_, (h3 i hi hv).2, (h3 i hi hv).1⟩
  · intro p hp
    have hm := (hmem _).mp (List.getElem_mem hp)
    obtain ⟨i, hi, hv, e⟩ := visited_roots_mem.mp hm
    refine ⟨i, hi, hv, ?_⟩
    rw [(h3 i hi hv).1, e, List.indexOf_getElem hnd]
  · intro p q hpq hq
    have hp : p < (number_roots (visited_roots s vs vs.usage_gen) []).length := by omega
    have hlt := List.pairwise_iff_getElem.mp hpw p q hp hq hpq
    have hm := (hmem _).mp (List.getElem_mem hp)
    obtain ⟨g1, a, g2, e, hv, hra, hb⟩ := first_before _ _ _ _ vs.usage_gen hm hlt
    have ha : a ∈ vs.usage_gen := by
      rw [e]
      exact List.mem_append_right _ (List.mem_cons_self _ _)
    refine ⟨g1, a, g2, e, hv, ?_, ?_⟩
    · rw [(h3 a ha hv).1, hra, List.indexOf_getElem hnd]
    · intro b hbm hvb hpart
      have hbg : b ∈ vs.usage_gen := by
        rw [e]
        exact List.mem_append_left _ hbm
      rw [(h3 b hbg hvb).1] at hpart
      have hq' := Option.some.inj hpart
      apply hb b hbm hvb
      have hl := (h3 b hbg hvb).2
      have := List.getElem_indexOf hl
      rw [← this]
      congr 1
  · intro a ha
    have hmf : a ∈ vs.usage_gen.filter (usage_visited s) := List.mem_of_mem_head? ha
    obtain ⟨hag, hav⟩ := List.mem_filter.mp hmf
    rw [(h3 a hag hav).1]
    have hrs : (visited_roots s vs vs.usage_gen).head? = some (dsu_get vs.parent a) := by
      unfold visited_roots
      rw [List.head?_map, ha]
      rfl
    rw [hrs] at hhead
    cases hR : number_roots (visited_roots s vs vs.usage_gen) [] with
    | nil =>
      rw [hR] at hhead
      cases hhead
    | cons x R =>
      rw [hR] at hhead
      have hx : x = dsu_get vs.parent a := Option.some.inj hhead
      rw [hx, List.indexOf_cons_self]
  · intro t vt hvt hgen hroot hvis hrt
    obtain ⟨t', g1, _, g3⟩ := number_run var t vt vs.usage_gen hvt hrt
    rw [visited_roots_congr hvis hroot] at g1 g3
    refine ⟨t', g1, fun i hi hv => ?_⟩
    rw [(h3 i hi hv).1, (g3 i hi ((hvis i hi).trans hv)).1, hroot i hi]

/-- Witness of C30: `$x` of `sample_dead_usage` has five usages, four of them on visited
nodes, and the loop numbers two partitions. -/
theorem partition_numbering_witness :
    usage_gen_of sample_numbering_state 0 = [0, 1, 2, 3, 4] ∧
    (usage_gen_of sample_numbering_state 0).filter (usage_visited sample_numbering_state) =
      [0, 1, 2, 3] ∧
    run_result (process_var_number 0 (usage_gen_of sample_numbering_state 0) 0
      sample_numbering_state) = some 2 ∧
    ∃ vs, get_var_split sample_numbering_state 0 = some vs ∧
      number_ready sample_numbering_state vs vs.usage_gen = true ∧
      ∃ k s', process_var_number 0 vs.usage_gen 0 sample_numbering_state = Except.ok (k, s') ∧
        ∀ p, p < k → ∃ i ∈ vs.usage_gen, usage_visited sample_numbering_state i = true ∧
          usage_part s' 0 i = some p := by
  refine ⟨by decide!, by decide!, by decide!, ?_⟩
  have h : number_ready_of sample_numbering_state 0 = true := by decide!
  unfold number_ready_of at h
  cases e : get_var_split sample_numbering_state 0 with
  | none =>
    rw [e] at h
    cases h
  | some vs =>
    rw [e] at h
    obtain ⟨k, s', h1, _, _, _, h5, _⟩ := partition_numbering 0 sample_numbering_state vs e h
    exact ⟨vs, rfl, h, k, s', h1, h5⟩

theorem track_all_append (w r : Node) (l1 l2 : List (UsageType × Vertex)) :
    track_all w r (l1 ++ l2) = (do track_all w r l1; track_all w r l2) := by
  funext s
  induction l1 generalizing s with
  | nil => rfl
  | cons o os ih =>
    simp only [List.cons_append, track_all, bind_run]
    cases h1 : new_usage o.1 o.2 s with
    | error e => rfl
    | ok p =>
      dsimp only
      cases h2 : add_usage (node_of w r o.1) p.1 p.2 with
      | error e => rfl
      | ok q =>
        dsimp only
        have := ih q.2
        rw [bind_run] at this
        exact this

theorem occurrences_sons_plain (first : Bool) (l : List Vertex) :
    occurrences_sons false first l = occurrences_sons false false l := by
  cases l with
  | nil => simp [occurrences_sons]
  | cons v vs => simp [occurrences_sons]

theorem occurrences_not_var (lhs : Bool) (v : Vertex) (h : v.type ≠ Operation.op_var) :
    occurrences lhs v = occurrences false v := by
  cases v with
  | mk i t e sons =>
    have h' : t ≠ Operation.op_var := h
    simp [occurrences, h']

theorem generic_wf_sons_mem {l : List Vertex} (h : generic_wf_sons l = true) :
    ∀ v ∈ l, generic_wf v = true := by
  induction l with
  | nil =>
    intro v hv
    cases hv
  | cons x xs ih =>
    rw [generic_wf_sons, Bool.and_eq_true] at h
    intro v hv
    rcases List.mem_cons.mp hv with c | c
    · rw [c]
      exact h.1
    · exact ih h.2 v c

/-- The loop over the children records the occurrences of the children in order. -/
theorem for_each_tracks (fuel : Nat) (w r : Node) (sons : List Vertex)
    (h : ∀ v ∈ sons, ∀ b, ∃ ct, ∀ s, collect_vars_usage fuel v w r b s =
      (track_all w r (occurrences false v) >>= fun _ => pure ct) s) :
    ∀ b, ∃ ct, ∀ s, for_each_flag (fun i b => collect_vars_usage fuel i w r b) sons b s =
      (track_all w r (occurrences_sons false false sons) >>= fun _ => pure ct) s := by
  induction sons with
  | nil =>
    intro b
    exact ⟨b, fun s => rfl⟩
  | cons v vs ih =>
    intro b
    obtain ⟨c1, h1⟩ := h v (List.mem_cons_self _ _) b
    obtain ⟨c2, h2⟩ := ih (fun x hx => h x (List.mem_cons_of_mem _ hx)) c1
    refine ⟨c2, fun s => ?_⟩
    have e : occurrences_sons false false (v :: vs) =
        occurrences false v ++ occurrences_sons false false vs := by
      rw [occurrences_sons]
      rfl
    rw [e, track_all_append]
    unfold for_each_flag
    simp only [bind_run]
    rw [h1 s, bind_run]
    cases h3 : track_all w r (occurrences false v) s with
    | error e => rfl
    | ok p =>
      dsimp only [pure_run]
      rw [h2 p.2, bind_run]
      rfl

theorem son_run {v : Vertex} {i : Nat} {x : Vertex} (h : v.sons.get? i = some x) (s : CFG) :
    son v i s = Except.ok (x, s) := by
  unfold son
  rw [h]
  rfl

/-- A vertex that is neither a plain assignment nor a variable: the scan goes through the
children. -/
theorem collect_tracks_other (fuel : Nat) (i : Nat) (ty : Operation) (e : VertexExtra)
    (sons : List Vertex) (w r : Node) (b : Bool)
    (hset : ty ≠ Operation.op_set) (hvar : ty ≠ Operation.op_var)
    (hc : ty = Operation.op_func_call → e.func_id.isSome = true)
    (hsons : ∀ v ∈ sons, ∀ b, ∃ ct, ∀ s, collect_vars_usage fuel v w r b s =
      (track_all w r (occurrences false v) >>= fun _ => pure ct) s) :
    ∃ ct, ∀ s, collect_vars_usage (fuel + 1) (Vertex.mk i ty e sons) w r b s =
      (track_all w r (occurrences false (Vertex.mk i ty e sons)) >>= fun _ => pure ct) s := by
  have e1 : ¬ (Vertex.mk i ty e sons).type = Operation.op_set := hset
  have e2 : ¬ (Vertex.mk i ty e sons).type = Operation.op_var := hvar
  have e3 : occurrences false (Vertex.mk i ty e sons) = occurrences_sons false false sons := by
    rw [occurrences, if_neg hvar, decide_eq_false hset, occurrences_sons_plain]
    rfl
  by_cases hfc : ty = Operation.op_func_call
  · obtain ⟨f, hf⟩ := Option.isSome_iff_exists.mp (hc hfc)
    have e4 : (Vertex.mk i ty e sons).type = Operation.op_func_call := hfc
    have e5 : (Vertex.mk i ty e sons).get_func_id = some f := hf
    obtain ⟨ct, hct⟩ := for_each_tracks fuel w r sons hsons f.can_throw
    refine ⟨ct, fun s => ?_⟩
    rw [collect_vars_usage, e3, ← hct s]
    simp only [bind_run, if_neg e1, if_neg e2, if_pos e4, e5, pure_run, Bool.false_eq_true,
      if_false]
    rfl
  · have e4 : ¬ (Vertex.mk i ty e sons).type = Operation.op_func_call := hfc
    obtain ⟨ct, hct⟩ := for_each_tracks fuel w r sons hsons
      (if (Vertex.mk i ty e sons).type = Operation.op_throw then true else b)
    refine ⟨ct, fun s => ?_⟩
    rw [collect_vars_usage, e3, ← hct s]
    simp only [bind_run, if_neg e1, if_neg e2, if_neg e4, pure_run, Bool.false_eq_true,
      if_false]
    rfl

/-- A variable that is not the target of a plain assignment: one read. -/
theorem collect_tracks_var (fuel : Nat) (i : Nat) (e : VertexExtra) (w r : Node) (b : Bool) :
    ∀ s, collect_vars_usage (fuel + 1) (Vertex.mk i Operation.op_var e []) w r b s =
      (track_all w r (occurrences false (Vertex.mk i Operation.op_var e [])) >>=
        fun _ => pure b) s := by
  intro s
  have e3 : occurrences false (Vertex.mk i Operation.op_var e []) =
      [(UsageType.usage_read_t, Vertex.mk i Operation.op_var e [])] := by
    simp [occurrences, occurrences_sons]
  rw [collect_vars_usage, e3]
  simp only [Vertex.type, Vertex.sons, bind_run, pure_run, reduceCtorEq, if_false, if_true,
    Bool.false_eq_true, track_all, node_of, for_each_flag]
  cases h1 : new_usage UsageType.usage_read_t (Vertex.mk i Operation.op_var e []) s with
  | error x => rfl
  | ok p =>
    dsimp only
    cases h2 : add_usage r p.1 p.2 with
    | error x => rfl
    | ok q => rfl

/-- A plain assignment to a variable: one write for the target, then the scan of the
right-hand side. -/
theorem collect_tracks_set_var (fuel : Nat) (i j : Nat) (e e' : VertexExtra) (rr : Vertex)
    (w r : Node) (b : Bool)
    (hrr : ∃ ct, ∀ s, collect_vars_usage fuel rr w r b s =
      (track_all w r (occurrences false rr) >>= fun _ => pure ct) s) :
    ∃ ct, ∀ s, collect_vars_usage (fuel + 1)
        (Vertex.mk i Operation.op_set e [Vertex.mk j Operation.op_var e' [], rr]) w r b s =
      (track_all w r (occurrences false
        (Vertex.mk i Operation.op_set e [Vertex.mk j Operation.op_var e' [], rr])) >>=
        fun _ => pure ct) s := by
  obtain ⟨ct, hct⟩ := hrr
  refine ⟨ct, fun s => ?_⟩
  have e3 : occurrences false
      (Vertex.mk i Operation.op_set e [Vertex.mk j Operation.op_var e' [], rr]) =
      (UsageType.usage_write_t, Vertex.mk j Operation.op_var e' []) :: occurrences false rr := by
    simp [occurrences, occurrences_sons]
  rw [collect_vars_usage, e3]
  simp only [Vertex.type, Vertex.sons, bind_run, pure_run, reduceCtorEq, if_false, if_true,
    Bool.false_eq_true, track_all, node_of, son, List.get?, decide_True]
  cases h1 : new_usage UsageType.usage_write_t (Vertex.mk j Operation.op_var e' []) s with
  | error x => rfl
  | ok p =>
    dsimp only
    cases h2 : add_usage w p.1 p.2 with
    | error x => rfl
    | ok q =>
      dsimp only
      rw [hct q.2, bind_run]
      rfl

/-- A plain assignment whose target is not a variable: the scan goes through both
children. -/
theorem collect_tracks_set_other (fuel : Nat) (i : Nat) (e : VertexExtra) (l rr : Vertex)
    (w r : Node) (b : Bool) (hl : l.type ≠ Operation.op_var)
    (hsons : ∀ v ∈ [l, rr], ∀ b, ∃ ct, ∀ s, collect_vars_usage fuel v w r b s =
      (track_all w r (occurrences false v) >>= fun _ => pure ct) s) :
    ∃ ct, ∀ s, collect_vars_usage (fuel + 1) (Vertex.mk i Operation.op_set e [l, rr]) w r b s =
      (track_all w r (occurrences false (Vertex.mk i Operation.op_set e [l, rr])) >>=
        fun _ => pure ct) s := by
  obtain ⟨ct, hct⟩ := for_each_tracks fuel w r [l, rr] hsons b
  refine ⟨ct, fun s => ?_⟩
  have e3 : occurrences false (Vertex.mk i Operation.op_set e [l, rr]) =
      occurrences_sons false false [l, rr] := by
    simp [occurrences, occurrences_sons, occurrences_not_var true l hl]
  have t1 : (Vertex.mk i Operation.op_set e [l, rr]).type = Operation.op_set := rfl
  have t2 : (Vertex.mk i Operation.op_set e [l, rr]).sons = [l, rr] := rfl
  rw [collect_vars_usage, e3, ← hct s]
  simp only [t1, t2, bind_run, pure_run, reduceCtorEq, if_false, if_true,
    Bool.false_eq_true, son, List.get?, decide_eq_false hl]

/-- The recursive scan of `collect_vars_usage` creates and attaches the usages of the
occurrences of the subtree, in their order. -/
theorem collect_tracks : ∀ (fuel : Nat) (t : Vertex), t.size < fuel → generic_wf t = true →
    ∀ (w r : Node) (b : Bool), ∃ ct, ∀ s, collect_vars_usage fuel t w r b s =
      (track_all w r (occurrences false t) >>= fun _ => pure ct) s := by
  intro fuel
  induction fuel with
  | zero =>
    intro t h
    omega
  | succ fuel ih =>
    intro t hsize hwf w r b
    cases t with
    | mk i ty e sons =>
      rw [Vertex.size] at hsize
      rw [generic_wf] at hwf
      simp only [Bool.and_eq_true] at hwf
      obtain ⟨⟨⟨w1, w2⟩, w3⟩, w4⟩ := hwf
      have hsons : ∀ v ∈ sons, ∀ b, ∃ ct, ∀ s, collect_vars_usage fuel v w r b s =
          (track_all w r (occurrences false v) >>= fun _ => pure ct) s := by
        intro v hv b
        have := size_list_mem hv
        exact ih v (by omega) (generic_wf_sons_mem w4 v hv) w r b
      by_cases hset : ty = Operation.op_set
      · subst hset
        simp only [if_true, beq_iff_eq] at w2
        match sons, w2, hsons, w4 with
        | [l, rr], _, hsons, w4 =>
          by_cases hl : l.type = Operation.op_var
          · cases l with
            | mk j tl el sl =>
              have hl' : tl = Operation.op_var := hl
              subst hl'
              have hwl := generic_wf_sons_mem w4 _ (List.mem_cons_self _ _)
              rw [generic_wf] at hwl
              simp only [Bool.and_eq_true, if_true, List.isEmpty_iff] at hwl
              have hsl : sl = [] := hwl.1.1.1
              subst hsl
              exact collect_tracks_set_var fuel i j e el rr w r b
                (hsons rr (by simp) b)
          · exact collect_tracks_set_other fuel i e l rr w r b hl hsons
      · by_cases hvar : ty = Operation.op_var
        · subst hvar
          simp only [if_true, List.isEmpty_iff] at w1
          subst w1
          exact ⟨b, collect_tracks_var fuel i e w r b⟩
        · exact collect_tracks_other fuel i ty e sons w r b hset hvar
            (fun hc => by simpa [hc] using w3) hsons

/-- One step of the recording for a variable with a split state. -/
theorem track_step (n : Nat) (ty : UsageType) (v : Vertex) (s : CFG) (x : VarPtr)
    (vs : VarSplitData) (hx : s.data.get_var_id v = some x) (hs : get_var_split s x = some vs)
    (hinv : NodeInv s n ty) :
    ∃ s1, (new_usage ty v >>= fun u => add_usage (some n) u) s = Except.ok ((), s1) ∧
      s1.data = s.data ∧ s1.node_gen = s.node_gen ∧ s1.usage_cnt = s.usage_cnt + 1 ∧
      s1.usage_data = upd s.usage_data s.usage_cnt (some
        { id := (vs.usage_gen.length : Int), type := ty, v := v, node := some n }) ∧
      s1.var_split_data = upd s.var_split_data x (some
        { usage_gen := vs.usage_gen ++ [s.usage_cnt],
          parent := upd vs.parent s.usage_cnt s.usage_cnt }) ∧
      s1.node_usages = upd s.node_usages n (s.node_usages n ++ [s.usage_cnt]) := by
  unfold get_var_split at hs
  cases hl : (s.node_usages n).getLast? with
  | none =>
    simp only [bind_run, new_usage, get_var_split, hx, hs, add_usage, node_id, pure_run,
      usage_at, upd_same, get_state_run, hl, modify_state_run]
    exact ⟨_, rfl, rfl, rfl, rfl, by
      show upd (upd s.usage_data s.usage_cnt _) s.usage_cnt _ = _
      funext a
      unfold upd
      split <;> rfl, rfl, rfl⟩
  | some b =>
    have hb : b ∈ s.node_usages n := List.mem_of_mem_getLast? hl
    obtain ⟨hlt, ub, hub, hty, _⟩ := hinv.2 b hb
    have hne : b ≠ s.usage_cnt := by omega
    simp only [bind_run, new_usage, get_var_split, hx, hs, add_usage, node_id, pure_run,
      usage_at, upd_same, get_state_run, hl, modify_state_run, upd_other _ _ _ _ hne, hub, hty,
      kphp_assert, decide_True, if_true]
    exact ⟨_, rfl, rfl, rfl, rfl, by
      show upd (upd s.usage_data s.usage_cnt _) s.usage_cnt _ = _
      funext a
      unfold upd
      split <;> rfl, rfl, rfl⟩

theorem tracked_congr {s s1 : CFG} (h1 : s1.data = s.data)
    (h2 : ∀ x, (get_var_split s1 x).isSome = (get_var_split s x).isSome) :
    tracked s1 = tracked s := by
  funext o
  unfold tracked
  rw [h1]
  cases s.data.get_var_id o.2 with
  | none => rfl
  | some x => exact h2 x

theorem wfU_step {s s1 : CFG} {x : VarPtr} {c : Nat} {ud : UsageData} {vs1 : VarSplitData}
    (hd : s1.data = s.data) (hu : s1.usage_data = upd s.usage_data c (some ud))
    (hv : s1.var_split_data = upd s.var_split_data x (some vs1))
    {a : Nat} (ha : a ≠ c) (h : WfU s a) : WfU s1 a := by
  obtain ⟨u, y, vs, h1, h2, h3⟩ := h
  by_cases e : y = x
  · refine ⟨u, y, vs1, ?_, ?_, ?_⟩
    · rw [hu, upd_other _ _ _ _ ha]
      exact h1
    · rw [hd]
      exact h2
    · unfold get_var_split
      rw [hv, e, upd_same]
  · refine ⟨u, y, vs, ?_, ?_, ?_⟩
    · rw [hu, upd_other _ _ _ _ ha]
      exact h1
    · rw [hd]
      exact h2
    · unfold get_var_split at h3 ⊢
      rw [hv, upd_other _ _ _ _ e]
      exact h3

/-- The invariant of a node after a step that attaches a new usage to node `n`. -/
theorem nodeInv_step {s s1 : CFG} {x : VarPtr} {n : Nat} {ty : UsageType} {ud : UsageData}
    {vs1 : VarSplitData}
    (hd : s1.data = s.data) (hc : s1.usage_cnt = s.usage_cnt + 1)
    (hu : s1.usage_data = upd s.usage_data s.usage_cnt (some ud))
    (hv : s1.var_split_data = upd s.var_split_data x (some vs1))
    (hn : s1.node_usages = upd s.node_usages n (s.node_usages n ++ [s.usage_cnt]))
    (hty : ud.type = ty) (hx : s.data.get_var_id ud.v = some x)
    (m : Nat) (ty' : UsageType) (hm : m = n → ty' = ty) (h : NodeInv s m ty') :
    NodeInv s1 m ty' := by
  have hold : ∀ a ∈ s.node_usages m, a < s1.usage_cnt ∧
      ∃ u, s1.usage_data a = some u ∧ u.type = ty' ∧ WfU s1 a := by
    intro a ha
    obtain ⟨h1, u, h2, h3, h4⟩ := h.2 a ha
    have hne : a ≠ s.usage_cnt := by omega
    refine ⟨by omega, u, ?_, h3, wfU_step hd hu hv hne h4⟩
    rw [hu, upd_other _ _ _ _ hne]
    exact h2
  by_cases e : m = n
  · subst e
    have e1 : s1.node_usages m = s.node_usages m ++ [s.usage_cnt] := by
      rw [hn, upd_same]
    rw [NodeInv, e1]
    refine ⟨?_, ?_⟩
    · rw [List.pairwise_append]
      refine ⟨h.1, List.pairwise_singleton _ _, ?_⟩
      intro a ha b hb
      rw [List.mem_singleton.mp hb]
      exact (h.2 a ha).1
    · intro a ha
      rcases List.mem_append.mp ha with c | c
      · exact hold a c
      · rw [List.mem_singleton.mp c]
        refine ⟨by omega, ud, ?_, ?_, ud, x, vs1, ?_, ?_, ?_⟩
        · rw [hu, upd_same]
        · rw [hty, hm rfl]
        · rw [hu, upd_same]
        · rw [hd]
          exact hx
        · unfold get_var_split
          rw [hv, upd_same]
  · have e1 : s1.node_usages m = s.node_usages m := by
      rw [hn, upd_other _ _ _ _ e]
    rw [NodeInv, e1]
    exact ⟨h.1, hold⟩

theorem tracked_nil (wn rn : Nat) (s : CFG) (hw : NodeInv s wn UsageType.usage_write_t)
    (hr : NodeInv s rn UsageType.usage_read_t) : Tracked wn rn [] s s :=
  { data := rfl
    gen := rfl
    dom := fun _ => rfl
    mono := fun _ vs h => ⟨vs, h, fun _ ha => ha⟩
    cnt := rfl
    old := fun _ _ => rfl
    nodes := fun _ _ h => h
    others := fun _ _ _ => rfl
    created := fun j hj => absurd hj (Nat.not_lt_zero j)
    winv := hw
    rinv := hr }

/-- A step that creates the usage of the occurrence `o`, followed by the recording of
`rest`. -/
theorem tracked_cons {wn rn : Nat} {o : UsageType × Vertex} {rest : List (UsageType × Vertex)}
    {s s1 s' : CFG} {x : VarPtr} {vs vs1 : VarSplitData} {n : Nat} {ud : UsageData}
    (hx : s.data.get_var_id o.2 = some x) (hs : get_var_split s x = some vs)
    (hnode : node_of (some wn) (some rn) o.1 = some n) (hnn : n = wn ∨ n = rn)
    (hd : s1.data = s.data) (hg : s1.node_gen = s.node_gen)
    (hc : s1.usage_cnt = s.usage_cnt + 1)
    (hu : s1.usage_data = upd s.usage_data s.usage_cnt (some ud))
    (hv : s1.var_split_data = upd s.var_split_data x (some vs1))
    (hn : s1.node_usages = upd s.node_usages n (s.node_usages n ++ [s.usage_cnt]))
    (u1 : ud.v = o.2) (u2 : ud.type = o.1) (u3 : ud.weak_write_flag = false)
    (u4 : ud.part_id = -1) (u5 : ud.node = some n)
    (g1 : s.usage_cnt ∈ vs1.usage_gen) (g2 : ∀ a ∈ vs.usage_gen, a ∈ vs1.usage_gen)
    (t : Tracked wn rn rest s1 s') : Tracked wn rn (o :: rest) s s' := by
  have hsplit1 : get_var_split s1 x = some vs1 := by
    unfold get_var_split
    rw [hv, upd_same]
  have hmem1 : ∀ m a, a ∈ s.node_usages m → a ∈ s1.node_usages m := by
    intro m a ha
    rw [hn]
    by_cases e : m = n
    · rw [e, upd_same]
      exact List.mem_append_left _ (e ▸ ha)
    · rw [upd_other _ _ _ _ e]
      exact ha
  refine
    { data := t.data.trans hd
      gen := t.gen.trans hg
      dom := ?_
      mono := ?_
      cnt := ?_
      old := ?_
      nodes := fun m a ha => t.nodes m a (hmem1 m a ha)
      others := ?_
      created := ?_
      winv := t.winv
      rinv := t.rinv }
  · intro y
    rw [t.dom y]
    unfold get_var_split at hs ⊢
    rw [hv]
    by_cases e : y = x
    · rw [e, upd_same, hs]
      rfl
    · rw [upd_other _ _ _ _ e]
  · intro y vy hy
    by_cases e : y = x
    · subst e
      rw [hs] at hy
      have hvy : vs = vy := Option.some.inj hy
      subst hvy
      obtain ⟨vs', h1, h2⟩ := t.mono y vs1 hsplit1
      exact ⟨vs', h1, fun a ha => h2 a (g2 a ha)⟩
    · have hy1 : get_var_split s1 y = some vy := by
        unfold get_var_split at hy ⊢
        rw [hv, upd_other _ _ _ _ e]
        exact hy
      exact t.mono y vy hy1
  · rw [t.cnt, hc, List.length_cons]
    omega
  · intro a ha
    rw [t.old a (by omega), hu, upd_other _ _ _ _ (by omega)]
  · intro m h1 h2
    rw [t.others m h1 h2, hn, upd_other]
    rcases hnn with e | e
    · rw [e]
      exact h1
    · rw [e]
      exact h2
  · intro j hj
    cases j with
    | zero =>
      obtain ⟨vs', h1, h2⟩ := t.mono x vs1 hsplit1
      refine ⟨ud, n, x, vs', ?_, u1, u2, u3, u4, u5, hnode, ?_, hx, h1, h2 _ g1⟩
      · rw [Nat.add_zero, t.old _ (by omega), hu, upd_same]
      · rw [Nat.add_zero]
        apply t.nodes
        rw [hn, upd_same]
        exact List.mem_append_right _ (List.mem_singleton.mpr rfl)
    | succ j =>
      have hj' : j < rest.length := by
        rw [List.length_cons] at hj
        omega
      obtain ⟨u, m, y, vy, c1, hq1_1⟩ := t.created j hj'
      obtain ⟨c2, c3, c4, c5, c6, hq1_2⟩ := hq1_1
      obtain ⟨c7, c8, c9, c10, c11⟩ := hq1_2
      have e : s.usage_cnt + (j + 1) = s1.usage_cnt + j := by omega
      rw [hd] at c9
      refine ⟨u, m, y, vy, ?_, c2, c3, c4, c5, c6, c7, ?_, c9, c10, ?_⟩
      · rw [e]
        exact c1
      · rw [e]
        exact c8
      · rw [e]
        exact c11

/-- The recording of a list of occurrences of variables succeeds, and it creates one
usage for every occurrence of a variable with a split state, in the order of the list. -/
theorem track_all_spec (wn rn : Nat) (hne : wn ≠ rn) :
    ∀ (O : List (UsageType × Vertex)) (s : CFG),
      (∀ o ∈ O, (s.data.get_var_id o.2).isSome = true) →
      NodeInv s wn UsageType.usage_write_t → NodeInv s rn UsageType.usage_read_t →
      ∃ s', track_all (some wn) (some rn) O s = Except.ok ((), s') ∧
        Tracked wn rn (O.filter (tracked s)) s s' := by
  intro O
  induction O with
  | nil =>
    intro s _ hw hr
    exact ⟨s, rfl, tracked_nil wn rn s hw hr⟩
  | cons o os ih =>
    intro s hO hw hr
    obtain ⟨x, hx⟩ := Option.isSome_iff_exists.mp (hO o (List.mem_cons_self _ _))
    have hO' : ∀ o' ∈ os, (s.data.get_var_id o'.2).isSome = true :=
      fun o' h => hO o' (List.mem_cons_of_mem _ h)
    cases hs : get_var_split s x with
    | none =>
      have ht : tracked s o = false := by
        unfold tracked
        rw [hx]
        dsimp only
        rw [hs]
        rfl
      obtain ⟨s', h1, h2⟩ := ih s hO' hw hr
      refine ⟨s', ?_, ?_⟩
      · rw [track_all, bind_run]
        have e1 : new_usage o.1 o.2 s = Except.ok (none, s) := by
          unfold new_usage
          rw [hx]
          dsimp only
          rw [hs]
        rw [e1]
        exact h1
      · rw [List.filter_cons, ht]
        exact h2
    | some vs =>
      have ht : tracked s o = true := by
        unfold tracked
        rw [hx]
        dsimp only
        rw [hs]
        rfl
      obtain ⟨n, hnode, hnn, hinv⟩ : ∃ n, node_of (some wn) (some rn) o.1 = some n ∧
          (n = wn ∨ n = rn) ∧ NodeInv s n o.1 := by
        cases e : o.1 with
        | usage_write_t => exact ⟨wn, rfl, Or.inl rfl, hw⟩
        | usage_read_t => exact ⟨rn, rfl, Or.inr rfl, hr⟩
      obtain ⟨s1, k1, k2, k3, k4, k5, k6, k7⟩ := track_step n o.1 o.2 s x vs hx hs hinv
      have hw1 : NodeInv s1 wn UsageType.usage_write_t := by
        refine nodeInv_step k2 k4 k5 k6 k7 rfl hx wn _ ?_ hw
        intro e
        rcases hnn with c | c
        · rw [c] at hnode
          cases e' : o.1 with
          | usage_write_t => rfl
          | usage_read_t =>
            rw [e'] at hnode
            exact absurd (Option.some.inj hnode) (fun q => hne q.symm)
        · exact absurd (e.trans c) hne
      have hr1 : NodeInv s1 rn UsageType.usage_read_t := by
        refine nodeInv_step k2 k4 k5 k6 k7 rfl hx rn _ ?_ hr
        intro e
        rcases hnn with c | c
        · exact absurd (c.symm.trans e.symm) hne
        · rw [c] at hnode
          cases e' : o.1 with
          | usage_read_t => rfl
          | usage_write_t =>
            rw [e'] at hnode
            exact absurd (Option.some.inj hnode) hne
      have hO1 : ∀ o' ∈ os, (s1.data.get_var_id o'.2).isSome = true := by
        intro o' h
        rw [k2]
        exact hO' o' h
      obtain ⟨s', h1, h2⟩ := ih s1 hO1 hw1 hr1
      have hdom : ∀ y, (get_var_split s1 y).isSome = (get_var_split s y).isSome := by
        intro y
        unfold get_var_split at hs ⊢
        rw [k6]
        by_cases e : y = x
        · rw [e, upd_same, hs]
          rfl
        · rw [upd_other _ _ _ _ e]
      rw [tracked_congr k2 hdom] at h2
      refine ⟨s', ?_, ?_⟩
      · rw [track_all, bind_run]
        rw [bind_run] at k1
        cases e1 : new_usage o.1 o.2 s with
        | error x =>
          rw [e1] at k1
          cases k1
        | ok p =>
          rw [e1] at k1
          dsimp only at k1 ⊢
          rw [hnode, bind_run, k1]
          exact h1
      · rw [List.filter_cons, ht]
        exact tracked_cons hx hs hnode hnn k2 k3 k4 k5 k6 k7 rfl rfl rfl rfl rfl
          (List.mem_append_right _ (List.mem_singleton.mpr rfl))
          (fun a ha => List.mem_append_left _ ha) h2

theorem genKeep_rel : StepRel GenKeep := by
  refine ⟨fun s x vs h => ⟨vs, h, rfl⟩, ?_⟩
  intro a b c h1 h2 x vs h
  obtain ⟨v1, e1, g1⟩ := h1 x vs h
  obtain ⟨v2, e2, g2⟩ := h2 x v1 e1
  exact ⟨v2, e2, g2.trans g1⟩

theorem genKeep_same {s s' : CFG} (h : s'.var_split_data = s.var_split_data) : GenKeep s s' := by
  intro x vs hx
  exact ⟨vs, by rw [h]; exact hx, rfl⟩

theorem genKeep_try_uni (a b : Nat) : Preserves GenKeep (try_uni_usages a b) := by
  refine ⟨fun s r s' h => ?_⟩
  unfold try_uni_usages at h
  simp only [bind_ok_iff, Prod.exists] at h
  obtain ⟨u, s1, h1, au, s2, h2, s3, s4, h3, h4⟩ := h
  obtain ⟨rfl, _⟩ := usage_at_ok h1
  obtain ⟨rfl, _⟩ := usage_at_ok h2
  cases h3
  by_cases e : s2.data.get_var_id u.v = s2.data.get_var_id au.v
  · rw [if_pos e] at h4
    cases hx : s2.data.get_var_id u.v with
    | none =>
      rw [hx] at h4
      cases h4
    | some x =>
      rw [hx] at h4
      dsimp only at h4
      cases hs : get_var_split s2 x with
      | none =>
        rw [hs] at h4
        cases h4
      | some vs =>
        rw [hs] at h4
        simp only [bind_ok_iff, Prod.exists] at h4
        obtain ⟨_, s5, h5, h6⟩ := h4
        cases h5
        cases h6
        intro y vy hy
        show ∃ vs', upd s2.var_split_data x _ y = some vs' ∧ _
        by_cases e' : y = x
        · rw [e', upd_same]
          rw [e'] at hy
          unfold get_var_split at hs
          rw [hs] at hy
          cases hy
          exact ⟨_, rfl, rfl⟩
        · rw [upd_other _ _ _ _ e']
          exact ⟨vy, hy, rfl⟩
  · rw [if_neg e] at h4
    cases h4
    exact genKeep_rel.refl _

set_option maxRecDepth 10000 in
set_option linter.unreachableTactic false in
set_option linter.unusedTactic false in
theorem genKeep_compress (n : Node) : Preserves GenKeep (compress_usages n) := by
  unfold compress_usages
  repeat (first
    | apply stable_compress_loop genKeep_rel genKeep_try_uni
        (fun s f g => genKeep_same rfl)
    | apply preserves_node_id genKeep_rel
    | apply preserves_get_state genKeep_rel
    | apply preserves_bind genKeep_rel
    | apply preserves_pure genKeep_rel
    | (apply preserves_modify_state; intro s; exact genKeep_same rfl)
    | intro _
    | split
    | dsimp only)

/-- A run of `compress_usages` on a node whose usages are distinct and well formed: what
it keeps. -/
theorem compress_step (n : Nat) (s : CFG)
    (hwf : ∀ a ∈ s.node_usages n, WfU s a) (hnd : (s.node_usages n).Nodup) :
    ∃ s', compress_usages (some n) s = Except.ok ((), s') ∧
      s'.data = s.data ∧ s'.usage_cnt = s.usage_cnt ∧ GenKeep s s' ∧
      (∀ m, m ≠ n → s'.node_usages m = s.node_usages m) ∧
      (∀ r ∈ s'.node_usages n, r ∈ s.node_usages n) ∧
      (∀ a ud, s.usage_data a = some ud → ∃ ud', s'.usage_data a = some ud' ∧
        ud'.v = ud.v ∧ ud'.type = ud.type ∧ ud'.node = ud.node) ∧
      (∀ a, WfU s a → WfU s' a) := by
  obtain ⟨s', h1, h2, _, _, _, _, h7, h8⟩ := compress_usages_run n s hwf hnd
  have hc := (cntData_compress (some n)).run _ _ _ h1
  have hg := (genKeep_compress (some n)).run _ _ _ h1
  refine ⟨s', h1, hc.2.1, hc.1, hg, h7, h2, h8, ?_⟩
  rintro a ⟨ud, x, vs, a1, a2, a3⟩
  obtain ⟨ud', b1, b2, _, _⟩ := h8 a ud a1
  obtain ⟨vs', c1, _⟩ := hg x vs a3
  exact ⟨ud', x, vs', b1, by rw [hc.2.1, b2]; exact a2, c1⟩

theorem register_total (ct : Bool) (n : Node) (s : CFG) :
    ∃ s', (if ct = true then create_cfg_register_exception n else pure ()) s =
      Except.ok ((), s') ∧ SameStore s s' := by
  cases ct with
  | false => exact ⟨s, rfl, rfl, rfl, rfl, rfl, rfl⟩
  | true =>
    rw [if_pos rfl]
    have h : ∃ s', create_cfg_register_exception n s = Except.ok ((), s') := by
      unfold create_cfg_register_exception
      simp only [bind_run, get_state_run]
      cases s.exception_nodes.getLast? with
      | none => exact ⟨_, rfl⟩
      | some es => exact ⟨_, rfl⟩
    obtain ⟨s', h⟩ := h
    exact ⟨s', h, register_exception_store h⟩

theorem full_cfg_nodes_run (s : CFG) :
    ∃ s4, full_cfg_nodes s = Except.ok
        ((some s.node_gen, some (s.node_gen + 1), some (s.node_gen + 2),
          some (s.node_gen + 3)), s4) ∧
      s4.usage_cnt = s.usage_cnt ∧ s4.usage_data = s.usage_data ∧ s4.data = s.data ∧
      s4.var_split_data = s.var_split_data ∧ s4.node_gen = s.node_gen + 4 ∧
      s4.node_usages (s.node_gen + 2) = [] ∧ s4.node_usages (s.node_gen + 3) = [] :=
  ⟨_, rfl, rfl, rfl, rfl, rfl, rfl, by
    show upd (upd _ (s.node_gen + 1 + 1) []) (s.node_gen + 1 + 1 + 1) [] (s.node_gen + 2) = []
    rw [upd_other _ _ _ _ (by omega), upd_same], by
    show upd _ (s.node_gen + 1 + 1 + 1) [] (s.node_gen + 3) = []
    rw [upd_same]⟩

/-- The generic rule succeeds when the scan and the two compressions do, and the last
steps leave the usages as they are. -/
theorem full_cfg_total (fuel : Nat) (t : Vertex) (s s4 s5 s6 s7 : CFG) (ct : Bool)
    (h4 : full_cfg_nodes s = Except.ok
      ((some s.node_gen, some (s.node_gen + 1), some (s.node_gen + 2),
        some (s.node_gen + 3)), s4))
    (h5 : collect_vars_usage fuel t (some (s.node_gen + 2)) (some (s.node_gen + 3)) false s4 =
      Except.ok (ct, s5))
    (h6 : compress_usages (some (s.node_gen + 2)) s5 = Except.ok ((), s6))
    (h7 : compress_usages (some (s.node_gen + 3)) s6 = Except.ok ((), s7)) :
    ∃ s', create_full_cfg fuel t s =
        Except.ok ((some s.node_gen, some (s.node_gen + 1)), s') ∧ SameStore s7 s' := by
  obtain ⟨s8, h8⟩ : ∃ s8, add_subtree (some s.node_gen) (new_subtree t true) s7 =
    Except.ok ((), s8) := ⟨_, rfl⟩
  obtain ⟨s9, h9⟩ : ∃ s9, add_edge (some s.node_gen) (some (s.node_gen + 2)) s8 =
    Except.ok ((), s9) := ⟨_, rfl⟩
  obtain ⟨s10, h10⟩ : ∃ s10, add_edge (some s.node_gen) (some (s.node_gen + 3)) s9 =
    Except.ok ((), s10) := ⟨_, rfl⟩
  obtain ⟨s11, h11⟩ : ∃ s11, add_edge (some (s.node_gen + 2)) (some (s.node_gen + 3)) s10 =
    Except.ok ((), s11) := ⟨_, rfl⟩
  obtain ⟨s12, h12⟩ : ∃ s12, add_edge (some (s.node_gen + 2)) (some (s.node_gen + 1)) s11 =
    Except.ok ((), s12) := ⟨_, rfl⟩
  obtain ⟨s13, h13⟩ : ∃ s13, add_edge (some (s.node_gen + 3)) (some (s.node_gen + 1)) s12 =
    Except.ok ((), s13) := ⟨_, rfl⟩
  obtain ⟨s14, h14, k14⟩ := register_total ct (some (s.node_gen + 1)) s13
  have hst : SameStore s7 s14 :=
    sameStore_trans (add_subtree_store h8) (sameStore_trans (add_edge_store h9)
      (sameStore_trans (add_edge_store h10) (sameStore_trans (add_edge_store h11)
        (sameStore_trans (add_edge_store h12) (sameStore_trans (add_edge_store h13) k14)))))
  refine ⟨s14, ?_, hst⟩
  simp only [full_cfg_nodes, bind_ok_iff] at h4
  obtain ⟨a1, s1, g1, a2, s2, hq1_1⟩ := h4
  obtain ⟨g2, a3, s3, g3, a4, hq1_2⟩ := hq1_1
  obtain ⟨s4', g4, g5⟩ := hq1_2
  cases g5
  simp only [create_full_cfg, bind_ok_iff]
  exact ⟨_, _, g1, _, _, g2, _, _, g3, _, _, g4, _, _, h5, _, _, h6, _, _, h7, _, _, h8,
    _, _, h9, _, _, h10, _, _, h11, _, _, h12, _, _, h13, _, _, h14, rfl⟩

/-- C26. The generic rule on a subtree in which every variable is a leaf, every plain
assignment has two children, every call has a callee and every variable occurrence is
bound to a variable, given fuel above the size of the subtree: the rule succeeds; the scan
`collect_vars_usage` creates exactly one usage for every occurrence of a variable with a
split state, in the order of the occurrences and after the usages that existed, which it
leaves as they were; the usage is a write attached to the writes node when the occurrence
is the direct left-hand side of a plain assignment and a read attached to the reads node
otherwise; and after the two compressions and the rest of the rule every such usage still
has its vertex, its kind and its node, and is still in the list of usages of the split
state of its variable. -/
theorem generic_tracks_occurrences (fuel : Nat) (t : Vertex) (s : CFG)
    (hwf : generic_wf t = true) (hfuel : t.size < fuel)
    (hvars : ∀ o ∈ occurrences false t, (s.data.get_var_id o.2).isSome = true) :
    ∃ s4 ct s5 s6 s7 s',
      full_cfg_nodes s = Except.ok
        ((some s.node_gen, some (s.node_gen + 1), some (s.node_gen + 2),
          some (s.node_gen + 3)), s4) ∧
      collect_vars_usage fuel t (some (s.node_gen + 2)) (some (s.node_gen + 3)) false s4 =
        Except.ok (ct, s5) ∧
      compress_usages (some (s.node_gen + 2)) s5 = Except.ok ((), s6) ∧
      compress_usages (some (s.node_gen + 3)) s6 = Except.ok ((), s7) ∧
      create_full_cfg fuel t s = Except.ok ((some s.node_gen, some (s.node_gen + 1)), s') ∧
      s5.usage_cnt = s.usage_cnt + (tracked_occurrences s t).length ∧
      (∀ a, a < s.usage_cnt → s5.usage_data a = s.usage_data a) ∧
      ∀ j (hj : j < (tracked_occurrences s t).length), ∃ n x,
        node_of (some (s.node_gen + 2)) (some (s.node_gen + 3))
          (tracked_occurrences s t)[j].1 = some n ∧
        s.data.get_var_id (tracked_occurrences s t)[j].2 = some x ∧
        (∃ u vs, s5.usage_data (s.usage_cnt + j) = some u ∧
          u.v = (tracked_occurrences s t)[j].2 ∧ u.type = (tracked_occurrences s t)[j].1 ∧
          u.node = some n ∧ s.usage_cnt + j ∈ s5.node_usages n ∧
          get_var_split s5 x = some vs ∧ s.usage_cnt + j ∈ vs.usage_gen) ∧
        (∃ u vs, s'.usage_data (s.usage_cnt + j) = some u ∧
          u.v = (tracked_occurrences s t)[j].2 ∧ u.type = (tracked_occurrences s t)[j].1 ∧
          u.node = some n ∧ get_var_split s' x = some vs ∧
          s.usage_cnt + j ∈ vs.usage_gen) := by
  obtain ⟨s4, h4, c4, u4, d4, v4, _, nw, nr⟩ := full_cfg_nodes_run s
  obtain ⟨ct, hct⟩ := collect_tracks fuel t hfuel hwf (some (s.node_gen + 2))
    (some (s.node_gen + 3)) false
  have hw4 : NodeInv s4 (s.node_gen + 2) UsageType.usage_write_t := by
    rw [NodeInv, nw]
    exact ⟨List.Pairwise.nil, fun a ha => by cases ha⟩
  have hr4 : NodeInv s4 (s.node_gen + 3) UsageType.usage_read_t := by
    rw [NodeInv, nr]
    exact ⟨List.Pairwise.nil, fun a ha => by cases ha⟩
  have hvars4 : ∀ o ∈ occurrences false t, (s4.data.get_var_id o.2).isSome = true := by
    intro o ho
    rw [d4]
    exact hvars o ho
  obtain ⟨s5, h5, tr⟩ := track_all_spec (s.node_gen + 2) (s.node_gen + 3) (by omega)
    (occurrences false t) s4 hvars4 hw4 hr4
  have htr : tracked s4 = tracked s :=
    tracked_congr d4 (fun x => by unfold get_var_split; rw [v4])
  rw [htr] at tr
  change Tracked _ _ (tracked_occurrences s t) s4 s5 at tr
  have hc5 : collect_vars_usage fuel t (some (s.node_gen + 2)) (some (s.node_gen + 3)) false
      s4 = Except.ok (ct, s5) := by
    rw [hct s4, bind_run, h5]
    rfl
  have wfw : ∀ a ∈ s5.node_usages (s.node_gen + 2), WfU s5 a := by
    intro a ha
    obtain ⟨_, u, _, _, hwfu⟩ := tr.winv.2 a ha
    exact hwfu
  have wfr : ∀ a ∈ s5.node_usages (s.node_gen + 3), WfU s5 a := by
    intro a ha
    obtain ⟨_, u, _, _, hwfu⟩ := tr.rinv.2 a ha
    exact hwfu
  obtain ⟨s6, h6, d6, c6, g6, o6, _, k6, f6⟩ := compress_step (s.node_gen + 2) s5 wfw
    (tr.winv.1.imp (fun h => Nat.ne_of_lt h))
  have er : s6.node_usages (s.node_gen + 3) = s5.node_usages (s.node_gen + 3) :=
    o6 _ (by omega)
  obtain ⟨s7, h7, d7, c7, g7, _, _, k7, _⟩ := compress_step (s.node_gen + 3) s6
    (fun a ha => f6 a (wfr a (er ▸ ha)))
    (by rw [er]; exact tr.rinv.1.imp (fun h => Nat.ne_of_lt h))
  obtain ⟨s', h', st⟩ := full_cfg_total fuel t s s4 s5 s6 s7 ct h4 hc5 h6 h7
  obtain ⟨_, st2, _, _, st5⟩ := st
  refine ⟨s4, ct, s5, s6, s7, s', h4, hc5, h6, h7, h', ?_, ?_, ?_⟩
  · rw [tr.cnt, c4]
  · intro a ha
    rw [tr.old a (by omega), u4]
  · intro j hj
    obtain ⟨u, n, x, vs, e1, hq1_1⟩ := tr.created j hj
    obtain ⟨e2, e3, _, _, e6, hq1_2⟩ := hq1_1
    obtain ⟨e7, e8, e9, e10, e11⟩ := hq1_2
    rw [c4] at e1 e8 e11
    rw [d4] at e9
    obtain ⟨u6, a1, a2, a3, a4⟩ := k6 _ u e1
    obtain ⟨u7, b1, b2, b3, b4⟩ := k7 _ u6 a1
    obtain ⟨vs6, p1, p2⟩ := g6 x vs e10
    obtain ⟨vs7, q1, q2⟩ := g7 x vs6 p1
    refine ⟨n, x, e7, e9, ⟨u, vs, e1, e2, e3, e6, e8, e10, e11⟩,
      ⟨u7, vs7, ?_, b2.trans (a2.trans e2), b3.trans (a3.trans e3), b4.trans (a4.trans e6), ?_, ?_⟩⟩
    · rw [st2]
      exact b1
    · unfold get_var_split
      rw [st5]
      exact q1
    · rw [q2, p2]
      exact e11

/-- Witness of C26: in `($x = $y) + $x` with `$x` the one splittable variable, the generic
rule creates two usages: a write for vertex 5 and a read for vertex 7. -/
theorem generic_tracks_occurrences_witness :
    generic_wf sample_generic = true ∧ sample_generic.size < 10 ∧
    (tracked_occurrences sample_generic_state sample_generic).map (fun o => (o.1, o.2.id)) =
      [(UsageType.usage_write_t, 5), (UsageType.usage_read_t, 7)] ∧
    ∃ s4 ct s5 s',
      collect_vars_usage 10 sample_generic (some 2) (some 3) false s4 = Except.ok (ct, s5) ∧
      create_full_cfg 10 sample_generic sample_generic_state =
        Except.ok ((some 0, some 1), s') ∧
      s5.usage_cnt = 2 := by
  have h1 : generic_wf sample_generic = true := by decide!
  have h2 : sample_generic.size < 10 := by decide!
  have h3 : (tracked_occurrences sample_generic_state sample_generic).map
      (fun o => (o.1, o.2.id)) =
      [(UsageType.usage_write_t, 5), (UsageType.usage_read_t, 7)] := by decide!
  have h4 : ∀ o ∈ occurrences false sample_generic,
      (sample_generic_state.data.get_var_id o.2).isSome = true := by decide!
  obtain ⟨s4, ct, s5, s6, s7, s', q1, q2, q3, q4, q5, q6, _⟩ :=
    generic_tracks_occurrences 10 sample_generic sample_generic_state h1 h2 h4
  have hl : (tracked_occurrences sample_generic_state sample_generic).length = 2 := by
    have := congrArg List.length h3
    simpa using this
  rw [hl] at q6
  exact ⟨h1, h2, h3, s4, ct, s5, s', q2, q5, q6⟩

theorem marked_mono {s s' : CFG} (h : MarkMono s s') {p : Vertex} (hp : Marked s p) :
    Marked s' p := by
  obtain ⟨n, hn, mk, hmk, e⟩ := hp
  exact ⟨n, Nat.lt_of_lt_of_le hn h.1, mk, h.2 n hn mk hmk, e⟩

theorem weakSource_mono {s s' : CFG} (h : MarkMono s s') {x : Vertex} (hx : WeakSource s x) :
    WeakSource s' x := by
  obtain ⟨c, p, h1, h2, h3⟩ := hx
  exact ⟨c, p, h1, marked_mono h h2, h3⟩

theorem wStep_rel (Pend : Vertex → Prop) : StepRel (WStep Pend) := by
  refine ⟨fun s => ⟨markMono_rel.refl s, fun a u' h1 h2 => Or.inr (Or.inr ⟨u', h1, h2, rfl⟩)⟩, ?_⟩
  intro a b c h1 h2
  refine ⟨markMono_rel.trans h1.1 h2.1, fun i u' k1 k2 => ?_⟩
  rcases h2.2 i u' k1 k2 with q | q | ⟨u1, q1, q2, q3⟩
  · exact Or.inl q
  · exact Or.inr (Or.inl q)
  · rcases h1.2 i u1 q1 q2 with r | r | ⟨u0, r1, r2, r3⟩
    · exact Or.inl (q3 ▸ weakSource_mono h2.1 r)
    · exact Or.inr (Or.inl (q3 ▸ r))
    · exact Or.inr (Or.inr ⟨u0, r1, r2, r3.trans q3⟩)

theorem wStep_mono {P Q : Vertex → Prop} (h : ∀ x, P x → Q x) {s s' : CFG}
    (hs : WStep P s s') : WStep Q s s' := by
  refine ⟨hs.1, fun a u' h1 h2 => ?_⟩
  rcases hs.2 a u' h1 h2 with q | q | q
  · exact Or.inl q
  · exact Or.inr (Or.inl (h _ q))
  · exact Or.inr (Or.inr q)

theorem preserves_wStep_mono {P Q : Vertex → Prop} (h : ∀ x, P x → Q x) {α : Type} {m : M α}
    (hm : Preserves (WStep P) m) : Preserves (WStep Q) m :=
  ⟨fun s r s' hr => wStep_mono h (hm.run s r s' hr)⟩

/-- A step that keeps the markers and sets no weak-write flag. -/
theorem wStep_of (Pend : Vertex → Prop) {s s' : CFG} (hm : MarkMono s s')
    (hu : ∀ a u', s'.usage_data a = some u' → u'.weak_write_flag = true →
      ∃ u, s.usage_data a = some u ∧ u.weak_write_flag = true ∧ u.v = u'.v) :
    WStep Pend s s' :=
  ⟨hm, fun a u' h1 h2 => Or.inr (Or.inr (hu a u' h1 h2))⟩

theorem wStep_same (Pend : Vertex → Prop) {s s' : CFG} (hm : MarkMono s s')
    (hu : s'.usage_data = s.usage_data) : WStep Pend s s' :=
  wStep_of Pend hm fun a u' h1 h2 => ⟨u', by rw [← hu]; exact h1, h2, rfl⟩

theorem through_size {x c : Vertex} (h : Through x c) : x.size ≤ c.size := by
  induction h with
  | here => exact Nat.le_refl _
  | index a c ht hs _ ih =>
    have hm : a ∈ c.sons := by
      rw [List.get?_eq_getElem?] at hs
      obtain ⟨hlt, he⟩ := List.getElem?_eq_some_iff.mp hs
      exact he ▸ List.getElem_mem hlt
    have h1 := size_list_mem hm
    have h2 : c.size = 1 + Vertex.size_list c.sons := by
      cases c with
      | mk i ty e sons => rw [Vertex.size]; rfl
    omega

theorem through_son_ne {x a c : Vertex} (hs : c.sons.get? 0 = some a) (h : Through x a) :
    x ≠ c := by
  intro e
  have h0 := through_size h
  have hm : a ∈ c.sons := by
    rw [List.get?_eq_getElem?] at hs
    obtain ⟨hlt, he⟩ := List.getElem?_eq_some_iff.mp hs
    exact he ▸ List.getElem_mem hlt
  have h1 := size_list_mem hm
  have h2 : c.size = 1 + Vertex.size_list c.sons := by
    cases c with
    | mk i ty e sons => rw [Vertex.size]; rfl
  rw [e] at h0
  omega

theorem wStep_new_usage (Pend : Vertex → Prop) (ty : UsageType) (v : Vertex) :
    Preserves (WStep Pend) (new_usage ty v) := by
  refine ⟨fun s r s' h => ?_⟩
  have hm := (markMono_stable.usage ty v).run s r s' h
  refine wStep_of Pend hm fun a u' h1 h2 => ?_
  unfold new_usage at h
  cases hx : s.data.get_var_id v with
  | none =>
    rw [hx] at h
    cases h
  | some x =>
    rw [hx] at h
    dsimp only at h
    cases hs : get_var_split s x with
    | none =>
      rw [hs] at h
      cases h
      exact ⟨u', h1, h2, rfl⟩
    | some vs =>
      rw [hs] at h
      cases h
      change upd s.usage_data s.usage_cnt _ a = some u' at h1
      by_cases e : a = s.usage_cnt
      · rw [e, upd_same] at h1
        cases h1
        cases h2
      · rw [upd_other _ _ _ _ e] at h1
        exact ⟨u', h1, h2, rfl⟩

theorem wStep_add_usage (Pend : Vertex → Prop) (n : Node) (u : UsagePtr) :
    Preserves (WStep Pend) (add_usage n u) := by
  refine ⟨fun s r s' h => ?_⟩
  have hm := (markMono_stable.attach n u).run s r s' h
  refine wStep_of Pend hm fun a u' h1 h2 => ?_
  cases u with
  | none =>
    cases h
    exact ⟨u', h1, h2, rfl⟩
  | some b =>
    unfold add_usage at h
    simp only [bind_ok_iff] at h
    obtain ⟨m, s1, k1, ub, s2, hq1_1⟩ := h
    obtain ⟨k2, s3, s4, k3, _, hq1_2⟩ := hq1_1
    obtain ⟨s5, k4, k5⟩ := hq1_2
    have e1 : s1 = s := (node_id_ok k1).1
    rw [e1] at k2
    obtain ⟨e2, hub⟩ := usage_at_ok k2
    rw [e2] at k3
    cases k3
    have e5 : s5 = s := by
      cases hl : (s.node_usages m).getLast? with
      | none =>
        rw [hl] at k4
        cases k4
        rfl
      | some c =>
        rw [hl] at k4
        simp only [bind_ok_iff] at k4
        obtain ⟨uc, s6, q1, q2⟩ := k4
        have e6 : s6 = s := (usage_at_ok q1).1
        rw [e6] at q2
        unfold kphp_assert at q2
        split at q2
        · cases q2
          rfl
        · cases q2
    rw [e5] at k5
    cases k5
    change upd s.usage_data b _ a = some u' at h1
    by_cases e : a = b
    · rw [e, upd_same] at h1
      cases h1
      exact ⟨ub, e ▸ hub, h2, rfl⟩
    · rw [upd_other _ _ _ _ e] at h1
      exact ⟨u', h1, h2, rfl⟩

/-- The steps on nodes, markers, edges and frames, and the creation and the attachment of
a usage, keep the markers and set no weak-write flag. -/
theorem wStep_stable (Pend : Vertex → Prop) : Stable0 (WStep Pend) where
  rel := wStep_rel Pend
  node := ⟨fun s r s' h =>
    wStep_same Pend (markMono_stable.node.run s r s' h) (by cases h; rfl)⟩
  usage := wStep_new_usage Pend
  attach := wStep_add_usage Pend
  marker := fun n m => ⟨fun s r s' h =>
    wStep_same Pend ((markMono_stable.marker n m).run s r s' h) (add_subtree_store h).2.1⟩
  edge := fun a b => ⟨fun s r s' h =>
    wStep_same Pend ((markMono_stable.edge a b).run s r s' h) (add_edge_store h).2.1⟩
  frames := fun b c e s => wStep_same Pend (markMono_stable.frames b c e s) rfl

theorem nwStep_rel (wn rn : Nat) : StepRel (NWStep wn rn) :=
  ⟨fun _ h => h, fun h1 h2 h => h2 (h1 h)⟩

theorem usageSame_rel : StepRel UsageSame :=
  ⟨fun _ => rfl, fun h1 h2 => Eq.trans h2 h1⟩

theorem preserves_for_each_flag {R : CFG → CFG → Prop} (rel : StepRel R)
    (f : Vertex → Bool → M Bool) (hf : ∀ v b, Preserves R (f v b)) (l : List Vertex) (b : Bool) :
    Preserves R (for_each_flag f l b) := by
  induction l generalizing b with
  | nil => exact preserves_pure rel _
  | cons a l ih =>
    unfold for_each_flag
    exact preserves_bind rel (hf _ _) fun _ => ih _

/-- What a successful `new_usage` does to the lists of the nodes and to the store. -/
theorem new_usage_ok {ty : UsageType} {v : Vertex} {s s1 : CFG} {u : UsagePtr}
    (h : new_usage ty v s = Except.ok (u, s1)) :
    (u = none ∧ s1 = s) ∨
    (u = some s.usage_cnt ∧ s1.node_usages = s.node_usages ∧
      ∃ ud, s1.usage_data = upd s.usage_data s.usage_cnt (some ud) ∧
        ud.weak_write_flag = false ∧ ud.v = v ∧ ud.type = ty) := by
  unfold new_usage at h
  cases hx : s.data.get_var_id v with
  | none =>
    rw [hx] at h
    cases h
  | some x =>
    rw [hx] at h
    dsimp only at h
    cases hs : get_var_split s x with
    | none =>
      rw [hs] at h
      cases h
      exact Or.inl ⟨rfl, rfl⟩
    | some vs =>
      rw [hs] at h
      cases h
      exact Or.inr ⟨rfl, rfl, _, rfl, rfl, rfl, rfl⟩

/-- What a successful `add_usage` of a usage does to the lists of the nodes and to the
store. -/
theorem add_usage_ok {n : Node} {a : Nat} {s s' : CFG}
    (h : add_usage n (some a) s = Except.ok ((), s')) :
    ∃ m ub, n = some m ∧ s.usage_data a = some ub ∧
      s'.node_usages = upd s.node_usages m (s.node_usages m ++ [a]) ∧
      s'.usage_data = upd s.usage_data a (some { ub with node := some m }) := by
  unfold add_usage at h
  simp only [bind_ok_iff] at h
  obtain ⟨m, s2, k1, ub, s3, hq1_1⟩ := h
  obtain ⟨k2, s4, s5, k3, _, hq1_2⟩ := hq1_1
  obtain ⟨s6, k4, k5⟩ := hq1_2
  obtain ⟨e1, hn⟩ := node_id_ok k1
  rw [e1] at k2
  obtain ⟨e2, hub⟩ := usage_at_ok k2
  rw [e2] at k3
  cases k3
  have e6 : s6 = s := by
    cases hl : (s.node_usages m).getLast? with
    | none =>
      rw [hl] at k4
      cases k4
      rfl
    | some c =>
      rw [hl] at k4
      simp only [bind_ok_iff] at k4
      obtain ⟨uc, s7, q1, q2⟩ := k4
      have e7 : s7 = s := (usage_at_ok q1).1
      rw [e7] at q2
      unfold kphp_assert at q2
      split at q2
      · cases q2
        rfl
      · cases q2
  rw [e6] at k5
  cases k5
  exact ⟨m, ub, hn, hub, rfl, rfl⟩

/-- A usage that is created and attached at once has no weak-write flag. -/
theorem nwStep_track (wn rn : Nat) (ty : UsageType) (v : Vertex) (n : Node) :
    Preserves (NWStep wn rn) (new_usage ty v >>= fun u => add_usage n u) := by
  refine ⟨fun s r s' h => ?_⟩
  rw [bind_ok_iff] at h
  obtain ⟨u, s1, h1, h2⟩ := h
  rcases new_usage_ok h1 with ⟨e1, e2⟩ | ⟨e1, e2, ud, e3, e4, _, _⟩
  · rw [e1, e2] at h2
    cases h2
    exact fun h => h
  · rw [e1] at h2
    obtain ⟨m, ub, _, f2, f3, f4⟩ := add_usage_ok h2
    rw [e3, upd_same] at f2
    have hw : ub.weak_write_flag = false := by
      cases f2
      exact e4
    intro hnw
    have key : ∀ k, NW s k → NW s' k := by
      intro k hk a ha
      rw [f3, e2] at ha
      rw [f4, e3]
      by_cases ea : a = s.usage_cnt
      · rw [ea, upd_same]
        exact ⟨_, rfl, hw⟩
      · rw [upd_other _ _ _ _ ea, upd_other _ _ _ _ ea]
        apply hk
        by_cases ek : k = m
        · rw [ek, upd_same] at ha
          rcases List.mem_append.mp ha with c | c
          · rw [ek]
            exact c
          · exact absurd (List.mem_singleton.mp c) ea
        · rw [upd_other _ _ _ _ ek] at ha
          exact ha
    exact ⟨key wn hnw.1, key rn hnw.2⟩

theorem nwStep_track_bind (wn rn : Nat) (ty : UsageType) (v : Vertex) (n : Node) {α : Type}
    {k : M α} (hk : Preserves (NWStep wn rn) k) :
    Preserves (NWStep wn rn) (new_usage ty v >>= fun u => add_usage n u >>= fun _ => k) := by
  refine ⟨fun s r s' h => ?_⟩
  rw [bind_ok_iff] at h
  obtain ⟨u, s1, h1, h2⟩ := h
  rw [bind_ok_iff] at h2
  obtain ⟨_, s2, h3, h4⟩ := h2
  have h5 : (new_usage ty v >>= fun u => add_usage n u) s = Except.ok ((), s2) := by
    rw [bind_ok_iff]
    exact ⟨u, s1, h1, h3⟩
  exact (nwStep_rel wn rn).trans ((nwStep_track wn rn ty v n).run _ _ _ h5) (hk.run _ _ _ h4)

set_option maxRecDepth 10000 in
set_option linter.unreachableTactic false in
set_option linter.unusedTactic false in
theorem nwStep_collect (wn rn : Nat) (fuel : Nat) :
    ∀ (t : Vertex) (w r : Node) (b : Bool),
      Preserves (NWStep wn rn) (collect_vars_usage fuel t w r b) := by
  induction fuel with
  | zero => intro t w r b; exact preserves_fail _
  | succ fuel ih =>
    intro t w r b
    unfold collect_vars_usage
    repeat (first
      | apply ih
      | apply preserves_for_each_flag (nwStep_rel wn rn)
      | apply nwStep_track_bind
      | apply nwStep_track
      | apply preserves_bind (nwStep_rel wn rn)
      | apply preserves_son (nwStep_rel wn rn)
      | apply preserves_pure (nwStep_rel wn rn)
      | apply preserves_fail
      | intro _
      | dsimp only
      | split)

set_option maxRecDepth 10000 in
set_option linter.unreachableTactic false in
set_option linter.unusedTactic false in
theorem usageSame_try_uni (a b : Nat) : Preserves UsageSame (try_uni_usages a b) := by
  unfold try_uni_usages
  repeat (first
    | apply preserves_bind usageSame_rel
    | apply preserves_usage_at usageSame_rel
    | apply preserves_get_state usageSame_rel
    | apply preserves_pure usageSame_rel
    | apply preserves_fail
    | (apply preserves_modify_state; intro s; exact rfl)
    | intro _
    | split
    | dsimp only)

theorem upd_self {α : Type} (f : Nat → α) (a : Nat) (v : α) (h : f a = v) : upd f a v = f := by
  funext b
  unfold upd
  split
  · next e => rw [e, h]
  · rfl

/-- The loop of `compress_usages` on usages without weak-write flag leaves the store of
usages and the lists of the nodes as they are. -/
theorem compress_loop_nw : ∀ (us : List Nat) (prev : Nat) (res : List Nat) (s : CFG)
    (res' : List Nat) (s' : CFG),
    (∀ a ∈ res, ∃ u, s.usage_data a = some u ∧ u.weak_write_flag = false) →
    (∀ a ∈ us, ∃ u, s.usage_data a = some u ∧ u.weak_write_flag = false) →
    compress_usages_loop prev us res s = Except.ok (res', s') →
    s'.usage_data = s.usage_data ∧ s'.node_usages = s.node_usages := by
  intro us
  induction us with
  | nil =>
    intro prev res s res' s' _ _ h
    cases h
    exact ⟨rfl, rfl⟩
  | cons u us ih =>
    intro prev res s res' s' hres hus h
    unfold compress_usages_loop at h
    rw [bind_ok_iff] at h
    obtain ⟨same, s1, h1, h2⟩ := h
    have e1 : s1.usage_data = s.usage_data := (usageSame_try_uni u prev).run _ _ _ h1
    have n1 : s1.node_usages = s.node_usages := ((try_uni_usages_store u prev).run _ _ _ h1).2
    cases same with
    | false =>
      simp only [Bool.false_eq_true, if_false] at h2
      rw [← e1] at hres hus
      have := ih u (res ++ [u]) s1 res' s' (fun a ha => by
        rcases List.mem_append.mp ha with c | c
        · exact hres a c
        · rw [List.mem_singleton.mp c]
          exact hus u (List.mem_cons_self _ _))
        (fun a ha => hus a (List.mem_cons_of_mem _ ha)) h2
      exact ⟨this.1.trans e1, this.2.trans n1⟩
    | true =>
      simp only [if_true] at h2
      cases hl : res.getLast? with
      | none =>
        rw [hl] at h2
        cases h2
      | some b =>
        rw [hl] at h2
        simp only [bind_ok_iff] at h2
        obtain ⟨ub, s2, k1, uu, s3, k2, _, s4, k3, k4⟩ := h2
        obtain ⟨e2, hub⟩ := usage_at_ok k1
        rw [e2] at k2
        obtain ⟨e3, huu⟩ := usage_at_ok k2
        rw [e3] at k3
        cases k3
        rw [← e1] at hres hus
        obtain ⟨ub', q1, q2⟩ := hres b (List.mem_of_mem_getLast? hl)
        obtain ⟨uu', q3, q4⟩ := hus u (List.mem_cons_self _ _)
        rw [hub] at q1
        rw [huu] at q3
        cases q1
        cases q3
        have hrec : ({ ub with weak_write_flag := ub.weak_write_flag || uu.weak_write_flag } :
            UsageData) = ub := by
          rw [q2, q4]
          cases ub
          simp only [Bool.or_self] at q2 ⊢
          cases q2
          rfl
        rw [hrec] at k4
        have hsame : upd s1.usage_data b (some ub) = s1.usage_data := upd_self _ _ _ hub
        have := ih u res _ res' s'
          (fun a ha => by
            show ∃ u, upd s1.usage_data b (some ub) a = some u ∧ _
            rw [hsame]
            exact hres a ha)
          (fun a ha => by
            show ∃ u, upd s1.usage_data b (some ub) a = some u ∧ _
            rw [hsame]
            exact hus a (List.mem_cons_of_mem _ ha)) k4
        refine ⟨?_, this.2.trans n1⟩
        rw [this.1]
        show upd s1.usage_data b (some ub) = s.usage_data
        rw [hsame]
        exact e1

/-- The compression of the usages of a node without weak-write flag leaves the store of
usages and the lists of the other nodes as they are. -/
theorem compress_nw (n : Nat) (s s' : CFG) (hn : NW s n)
    (h : compress_usages (some n) s = Except.ok ((), s')) :
    s'.usage_data = s.usage_data ∧ ∀ m, m ≠ n → s'.node_usages m = s.node_usages m := by
  unfold compress_usages at h
  simp only [bind_run, node_id, pure_run, get_state_run] at h
  have hperm := List.perm_insertionSort (cmp_by_var_id s) (s.node_usages n)
  cases hL : (s.node_usages n).insertionSort (cmp_by_var_id s) with
  | nil =>
    rw [hL] at h
    cases h
    refine ⟨rfl, fun m hm => ?_⟩
    show upd s.node_usages n [] m = _
    rw [upd_other _ _ _ _ hm]
  | cons u us =>
    rw [hL] at h hperm
    dsimp only at h
    rw [bind_ok_iff] at h
    obtain ⟨res, s1, hk, h2⟩ := h
    cases h2
    have hall : ∀ a ∈ u :: us, ∃ ud, s.usage_data a = some ud ∧ ud.weak_write_flag = false :=
      fun a ha => hn a (hperm.mem_iff.mp ha)
    obtain ⟨q1, q2⟩ := compress_loop_nw us u [u] s res s1
      (fun a ha => hall a (by rw [List.mem_singleton.mp ha]; exact List.mem_cons_self _ _))
      (fun a ha => hall a (List.mem_cons_of_mem _ ha)) hk
    refine ⟨q1, fun m hm => ?_⟩
    show upd s1.node_usages n res m = _
    rw [upd_other _ _ _ _ hm, q2]

/-- The generic rule keeps the markers and sets no weak-write flag. -/
theorem wStep_full_cfg (Pend : Vertex → Prop) (fuel : Nat) (t : Vertex) :
    Preserves (WStep Pend) (create_full_cfg fuel t) := by
  refine ⟨fun s r s' h => ?_⟩
  have h0 := wStep_stable Pend
  have rel := wStep_rel Pend
  simp only [create_full_cfg, bind_ok_iff] at h
  obtain ⟨start, s1, h1, finish, s2, hq1_1⟩ := h
  obtain ⟨h2, writes, s3, h3, reads, hq1_2⟩ := hq1_1
  obtain ⟨s4, h4, ct, s5, h5, hq1_3⟩ := hq1_2
  obtain ⟨_, s6, h6, _, s7, hq1_4⟩ := hq1_3
  obtain ⟨h7, _, s8, h8, _, hq1_5⟩ := hq1_4
  obtain ⟨s9, h9, _, s10, h10, hq1_6⟩ := hq1_5
  obtain ⟨_, s11, h11, _, s12, hq1_7⟩ := hq1_6
  obtain ⟨h12, _, s13, h13, _, hq1_8⟩ := hq1_7
  obtain ⟨s14, h14, h15⟩ := hq1_8
  cases h15
  obtain ⟨ew, g3, _, _, _, _, n3⟩ := new_node_store h3
  obtain ⟨er, g4, _, _, _, _, n4⟩ := new_node_store h4
  have hne : s2.node_gen ≠ s3.node_gen := by omega
  have nw4 : NW s4 s2.node_gen ∧ NW s4 s3.node_gen := by
    constructor
    · intro a ha
      rw [n4, upd_other _ _ _ _ hne, n3, upd_same] at ha
      cases ha
    · intro a ha
      rw [n4, upd_same] at ha
      cases ha
  rw [ew, er] at h5
  have nw5 := (nwStep_collect s2.node_gen s3.node_gen fuel t _ _ _).run _ _ _ h5 nw4
  rw [ew] at h6
  rw [er] at h7
  obtain ⟨u6, o6⟩ := compress_nw _ _ _ nw5.1 h6
  have nw6 : NW s6 s3.node_gen := by
    intro a ha
    rw [o6 _ (fun e => hne e.symm)] at ha
    rw [u6]
    exact nw5.2 a ha
  obtain ⟨u7, _⟩ := compress_nw _ _ _ nw6 h7
  have w1 := h0.node.run _ _ _ h1
  have w2 := h0.node.run _ _ _ h2
  have w3 := h0.node.run _ _ _ h3
  have w4 := h0.node.run _ _ _ h4
  have w5 := (stable_collect_vars_usage h0 fuel t _ _ _).run _ _ _ h5
  have w6 : WStep Pend s5 s6 :=
    wStep_same Pend ((markMono_stable.compress _).run _ _ _ h6) u6
  have w7 : WStep Pend s6 s7 :=
    wStep_same Pend ((markMono_stable.compress _).run _ _ _ h7) u7
  have w8 := (h0.marker _ _).run _ _ _ h8
  have w9 := (h0.edge _ _).run _ _ _ h9
  have w10 := (h0.edge _ _).run _ _ _ h10
  have w11 := (h0.edge _ _).run _ _ _ h11
  have w12 := (h0.edge _ _).run _ _ _ h12
  have w13 := (h0.edge _ _).run _ _ _ h13
  have w14 : WStep Pend s13 s' := by
    by_cases hc : ct = true
    · rw [if_pos hc] at h14
      exact (stable_register_exception h0 _).run _ _ _ h14
    · rw [if_neg hc] at h14
      cases h14
      exact rel.refl _
  exact rel.trans w1 (rel.trans w2 (rel.trans w3 (rel.trans w4 (rel.trans w5 (rel.trans w6
    (rel.trans w7 (rel.trans w8 (rel.trans w9 (rel.trans w10 (rel.trans w11 (rel.trans w12
      (rel.trans w13 w14))))))))))))

theorem pendOf_plain {v x : Vertex} {P : Prop} (h : PendOf v false false x) : P := by
  rcases h with ⟨h1, _⟩ | ⟨h1, _⟩
  · cases h1
  · cases h1

/-- The builder without flags, seen as a step with any pending set. -/
theorem wStep_plain {cfg : Vertex → Bool → Bool → M (Node × Node)}
    (ih : ∀ v w ww, Preserves (WStep (PendOf v w ww)) (cfg v w ww)) (Pend : Vertex → Prop)
    (v : Vertex) : Preserves (WStep Pend) (cfg v false false) :=
  preserves_wStep_mono (fun _ h => pendOf_plain h) (ih v false false)

/-- The rule of a variable: the usage gets the weak-write flag when the flag is passed. -/
theorem wStep_op_var (Pend : Vertex → Prop) (t : Vertex) (w ww : Bool)
    (hp : ww = true → Pend t) : Preserves (WStep Pend) (create_cfg_op_var t w ww) := by
  refine ⟨fun s r s' h => ?_⟩
  have h0 := wStep_stable Pend
  have rel := wStep_rel Pend
  simp only [create_cfg_op_var, bind_ok_iff] at h
  obtain ⟨res, s1, h1, u, s2, hq1_1⟩ := h
  obtain ⟨h2, _, s3, h3, _, hq1_2⟩ := hq1_1
  obtain ⟨s4, h4, h5⟩ := hq1_2
  cases h5
  have w1 := h0.node.run _ _ _ h1
  have w2 := (h0.usage _ _).run _ _ _ h2
  have w4 := (h0.attach _ _).run _ _ _ h4
  have w3 : WStep Pend s2 s3 := by
    rcases new_usage_ok h2 with ⟨e1, e2⟩ | ⟨e1, e2, ud, e3, e4, e5, _⟩
    · rw [e1] at h3
      cases h3
      exact rel.refl _
    · rw [e1] at h3
      simp only [bind_ok_iff] at h3
      obtain ⟨ub, s5, k1, k2⟩ := h3
      obtain ⟨e6, hub⟩ := usage_at_ok k1
      rw [e6] at k2
      cases k2
      rw [e3, upd_same] at hub
      cases hub
      refine ⟨markMono_same rfl rfl, fun a u' q1 q2 => ?_⟩
      change upd s2.usage_data s1.usage_cnt _ a = some u' at q1
      by_cases ea : a = s1.usage_cnt
      · rw [ea, upd_same] at q1
        cases q1
        refine Or.inr (Or.inl ?_)
        show Pend ud.v
        rw [e5]
        exact hp q2
      · rw [upd_other _ _ _ _ ea] at q1
        exact Or.inr (Or.inr ⟨u', q1, q2, rfl⟩)
  exact rel.trans w1 (rel.trans w2 (rel.trans w3 w4))

/-- The rule of an index expression: the array is built with the weak-write flag when the
expression is built with one of the flags. -/
theorem wStep_op_index (cfg : Vertex → Bool → Bool → M (Node × Node))
    (ih : ∀ v w ww, Preserves (WStep (PendOf v w ww)) (cfg v w ww))
    (t : Vertex) (w ww : Bool) (ht : t.type = Operation.op_index) :
    Preserves (WStep (PendOf t w ww)) (create_cfg_op_index cfg t w ww) := by
  refine ⟨fun s r s' h => ?_⟩
  have h0 := wStep_stable (PendOf t w ww)
  have rel := wStep_rel (PendOf t w ww)
  simp only [create_cfg_op_index, bind_ok_iff, Prod.exists] at h
  obtain ⟨array, s0, k1, vs, vf, s1, k2, k3⟩ := h
  obtain ⟨e0, hson⟩ := son_get k1
  rw [e0] at k2
  have w1 : WStep (PendOf t w ww) s s1 := by
    refine wStep_mono ?_ ((ih array false (w || ww)).run _ _ _ k2)
    intro x hx
    rcases hx with ⟨q1, q2⟩ | ⟨q1, _⟩
    · have hth : Through x t := Through.index x array t ht hson q2
      cases hww : ww with
      | true => exact Or.inl ⟨rfl, hth⟩
      | false =>
        rw [hww, Bool.or_false] at q1
        exact Or.inr ⟨q1, hth, through_son_ne hson q2⟩
    · cases q1
  by_cases hc : t.sons.length > 1
  · rw [if_pos hc] at k3
    simp only [bind_ok_iff, Prod.exists] at k3
    obtain ⟨key, s2, k4, is, ie, s3, k5, _, s4, k6, k7⟩ := k3
    cases k7
    have e2 := (son_get k4).1
    rw [e2] at k5
    have w2 := (wStep_plain ih (PendOf t w ww) key).run _ _ _ k5
    have w3 := (h0.edge _ _).run _ _ _ k6
    exact rel.trans w1 (rel.trans w2 w3)
  · rw [if_neg hc] at k3
    cases k3
    exact w1

/-- The rule of a plain assignment: the left-hand side is built with the write flag. -/
theorem wStep_op_set (cfg : Vertex → Bool → Bool → M (Node × Node))
    (ih : ∀ v w ww, Preserves (WStep (PendOf v w ww)) (cfg v w ww))
    (t : Vertex) (w ww : Bool) (ht : t.type = Operation.op_set) :
    Preserves (WStep (PendIn t w ww)) (create_cfg_op_set cfg t) := by
  refine ⟨fun s r s' h => ?_⟩
  have h0 := wStep_stable (PendIn t w ww)
  have rel := wStep_rel (PendIn t w ww)
  simp only [create_cfg_op_set, bind_ok_iff, Prod.exists] at h
  obtain ⟨l, t1, k1, r, t2, hq2_1⟩ := h
  obtain ⟨k2, ea, eb, t3, k3, hq2_2⟩ := hq2_1
  obtain ⟨va, vb, t4, k4, _, hq2_3⟩ := hq2_2
  obtain ⟨t5, k5, k6⟩ := hq2_3
  cases k6
  obtain ⟨e1, hl⟩ := son_get k1
  rw [e1] at k2
  obtain ⟨e2, _⟩ := son_get k2
  rw [e2] at k3
  have w1 := (wStep_plain ih (PendIn t w ww) r).run _ _ _ k3
  have w2 : WStep (PendIn t w ww) t3 t4 := by
    refine wStep_mono ?_ ((ih l true false).run _ _ _ k4)
    intro x hx
    rcases hx with ⟨q1, _⟩ | ⟨_, q2, q3⟩
    · cases q1
    · exact Or.inr ⟨l, q2, Or.inr ⟨q3, Or.inl ⟨ht, hl⟩⟩⟩
  have w3 := (h0.edge _ _).run _ _ _ k5
  exact rel.trans w1 (rel.trans w2 w3)

/-- The rule of a try: the exception variable is built with the write flag. -/
theorem wStep_op_try (cfg : Vertex → Bool → Bool → M (Node × Node))
    (ih : ∀ v w ww, Preserves (WStep (PendOf v w ww)) (cfg v w ww))
    (t : Vertex) (w ww : Bool) (ht : t.type = Operation.op_try) :
    Preserves (WStep (PendIn t w ww)) (create_cfg_op_try cfg t) := by
  refine ⟨fun s r s' h => ?_⟩
  have h0 := wStep_stable (PendIn t w ww)
  have rel := wStep_rel (PendIn t w ww)
  simp only [create_cfg_op_try, bind_ok_iff, Prod.exists] at h
  obtain ⟨tc, t1, k1, ex, t2, hq3_1⟩ := h
  obtain ⟨k2, cc, t3, k3, es, hq3_2⟩ := hq3_1
  obtain ⟨ef, t4, k4, _, t5, hq3_3⟩ := hq3_2
  obtain ⟨k5, ts, tf, t6, k6, hq3_4⟩ := hq3_3
  obtain ⟨_, t7, k7, cs, cf, hq3_5⟩ := hq3_4
  obtain ⟨t8, k8, _, t9, k9, hq3_6⟩ := hq3_5
  obtain ⟨fin, t10, k10, _, t11, hq3_7⟩ := hq3_6
  obtain ⟨k11, _, t12, k12, _, hq3_8⟩ := hq3_7
  obtain ⟨t13, k13, _, t14, k14, k15⟩ := hq3_8
  cases k15
  have e1 := (son_get k1).1
  rw [e1] at k2
  obtain ⟨e2, hex⟩ := son_get k2
  rw [e2] at k3
  have e3 := (son_get k3).1
  rw [e3] at k4
  have w4 : WStep (PendIn t w ww) s t4 := by
    refine wStep_mono ?_ ((ih ex true false).run _ _ _ k4)
    intro x hx
    rcases hx with ⟨q1, _⟩ | ⟨_, q2, q3⟩
    · cases q1
    · exact Or.inr ⟨ex, q2, Or.inr ⟨q3, Or.inr (Or.inr ⟨ht, hex⟩)⟩⟩
  have w5 := (stable_begin_try h0).run _ _ _ k5
  have w6 := (wStep_plain ih (PendIn t w ww) tc).run _ _ _ k6
  have w7 := (stable_end_try h0 _).run _ _ _ k7
  have w8 := (wStep_plain ih (PendIn t w ww) cc).run _ _ _ k8
  have w9 := (h0.edge _ _).run _ _ _ k9
  have w10 := h0.node.run _ _ _ k10
  have w11 := (h0.edge _ _).run _ _ _ k11
  have w12 := (h0.edge _ _).run _ _ _ k12
  have w13 := (h0.marker _ _).run _ _ _ k13
  have w14 := (h0.marker _ _).run _ _ _ k14
  exact rel.trans w4 (rel.trans w5 (rel.trans w6 (rel.trans w7 (rel.trans w8 (rel.trans w9
    (rel.trans w10 (rel.trans w11 (rel.trans w12 (rel.trans w13 w14)))))))))

/-- The loop over the arguments of a call: an argument is built with the weak-write flag
when its parameter is by-reference. -/
theorem wStep_call_loop (cfg : Vertex → Bool → Bool → M (Node × Node))
    (ih : ∀ v w ww, Preserves (WStep (PendOf v w ww)) (cfg v w ww))
    (t : Vertex) (w ww : Bool)
    (ht : t.type = Operation.op_func_call ∨ t.type = Operation.op_constructor_call)
    (func : Option FuncInfo) (hfunc : t.get_func_id = func) :
    ∀ (l : List Vertex) (ii : Nat) (start : Node),
      (∀ j c, l.get? j = some c → t.sons.get? (ii + j) = some c) →
      Preserves (WStep (PendIn t w ww)) (create_cfg_call_loop cfg func l ii start) := by
  have h0 := wStep_stable (PendIn t w ww)
  have rel := wStep_rel (PendIn t w ww)
  intro l
  induction l with
  | nil =>
    intro ii start _
    exact preserves_pure rel _
  | cons cur rest ihl =>
    intro ii start hl
    have key : ∀ flag : Bool,
        (flag = true → ∃ f, t.get_func_id = some f ∧ by_ref_param f ii = true) →
        Preserves (WStep (PendIn t w ww)) (cfg cur false flag >>= fun d =>
          add_edge start d.1 >>= fun _ => create_cfg_call_loop cfg func rest (ii + 1) d.2) := by
      intro flag hflag
      refine preserves_bind rel ?_ fun d => preserves_bind rel (h0.edge _ _) fun _ =>
        ihl (ii + 1) d.2 (fun j c hj => by
          have := hl (j + 1) c hj
          rw [Nat.add_assoc, Nat.add_comm 1 j]
          exact this)
      refine preserves_wStep_mono ?_ (ih cur false flag)
      intro x hx
      rcases hx with ⟨q1, q2⟩ | ⟨q1, _⟩
      · obtain ⟨f, hf, hb⟩ := hflag q1
        exact Or.inr ⟨cur, q2, Or.inl ⟨ht, f, ii, hf, hl 0 cur rfl, hb⟩⟩
      · cases q1
    unfold create_cfg_call_loop
    cases func with
    | none => exact key false (fun q => by cases q)
    | some f =>
      dsimp only
      cases hp : f.params.get? ii with
      | none => exact preserves_fail _
      | some o =>
        cases o with
        | none => exact key false (fun q => by cases q)
        | some b =>
          refine key b (fun q => ⟨f, hfunc, ?_⟩)
          unfold by_ref_param
          rw [hp, q]
          exact decide_eq_true rfl

/-- The rule of a call. -/
theorem wStep_op_call (cfg : Vertex → Bool → Bool → M (Node × Node))
    (ih : ∀ v w ww, Preserves (WStep (PendOf v w ww)) (cfg v w ww))
    (t : Vertex) (w ww : Bool)
    (ht : t.type = Operation.op_func_call ∨ t.type = Operation.op_constructor_call) :
    Preserves (WStep (PendIn t w ww)) (create_cfg_op_call cfg t) := by
  have h0 := wStep_stable (PendIn t w ww)
  have rel := wStep_rel (PendIn t w ww)
  unfold create_cfg_op_call
  refine preserves_bind rel h0.node fun start => ?_
  refine preserves_bind rel (wStep_call_loop cfg ih t w ww ht _ rfl t.sons 0 start
    (fun j c hj => by rw [Nat.zero_add]; exact hj)) fun fin => ?_
  split
  · exact preserves_fail _
  · refine preserves_bind rel ?_ fun _ => preserves_pure rel _
    split
    · exact stable_register_exception h0 _
    · exact preserves_pure rel _

/-- The loop over the targets of a list assignment: each is built with the write flag. -/
theorem wStep_list_loop (cfg : Vertex → Bool → Bool → M (Node × Node))
    (ih : ∀ v w ww, Preserves (WStep (PendOf v w ww)) (cfg v w ww))
    (t : Vertex) (w ww : Bool) (ht : t.type = Operation.op_list) :
    ∀ (l : List Vertex) (prev : Node), (∀ c ∈ l, c ∈ t.sons.dropLast) →
      Preserves (WStep (PendIn t w ww)) (create_cfg_list_loop cfg l prev) := by
  have h0 := wStep_stable (PendIn t w ww)
  have rel := wStep_rel (PendIn t w ww)
  intro l
  induction l with
  | nil =>
    intro prev _
    exact preserves_pure rel _
  | cons param rest ihl =>
    intro prev hl
    refine ⟨fun s r s' h => ?_⟩
    unfold create_cfg_list_loop at h
    simp only [bind_ok_iff, Prod.exists] at h
    obtain ⟨a, b, s1, k1, _, s2, k2, k3⟩ := h
    have w1 : WStep (PendIn t w ww) s s1 := by
      refine wStep_mono ?_ ((ih param true false).run _ _ _ k1)
      intro x hx
      rcases hx with ⟨q1, _⟩ | ⟨_, q2, q3⟩
      · cases q1
      · exact Or.inr ⟨param, q2, Or.inr ⟨q3, Or.inr (Or.inl
          ⟨ht, hl param (List.mem_cons_self _ _)⟩)⟩⟩
    have w2 := (h0.edge _ _).run _ _ _ k2
    have w3 := (ihl b (fun c hc => hl c (List.mem_cons_of_mem _ hc))).run _ _ _ k3
    exact rel.trans w1 (rel.trans w2 w3)

/-- The rule of a list assignment. -/
theorem wStep_op_list (cfg : Vertex → Bool → Bool → M (Node × Node))
    (ih : ∀ v w ww, Preserves (WStep (PendOf v w ww)) (cfg v w ww))
    (t : Vertex) (w ww : Bool) (ht : t.type = Operation.op_list) :
    Preserves (WStep (PendIn t w ww)) (create_cfg_op_list cfg t) := by
  have h0 := wStep_stable (PendIn t w ww)
  have rel := wStep_rel (PendIn t w ww)
  unfold create_cfg_op_list
  split
  · exact preserves_fail _
  · refine preserves_bind rel (wStep_plain ih _ _) fun r => ?_
    refine preserves_bind rel (wStep_list_loop cfg ih t w ww ht _ _
      (fun c hc => List.mem_reverse.mp hc)) fun _ => preserves_pure rel _

theorem finish_marker {m : M (Node × Node)} {t : Vertex} {flag : Bool} {s s' : CFG}
    {r : Node × Node} (h : (m >>= create_cfg_finish t flag) s = Except.ok (r, s')) :
    ∃ n fl, r.1 = some n ∧ new_subtree t fl ∈ s'.node_subtrees n := by
  rw [bind_ok_iff] at h
  obtain ⟨r0, s1, _, h2⟩ := h
  simp only [create_cfg_finish, bind_ok_iff] at h2
  obtain ⟨_, s2, h3, h4⟩ := h2
  cases h4
  cases hr : r.1 with
  | none =>
    rw [hr] at h3
    cases h3
  | some n =>
    rw [hr] at h3
    cases h3
    refine ⟨n, flag, rfl, ?_⟩
    show new_subtree t flag ∈ upd s1.node_subtrees n (s1.node_subtrees n ++ [new_subtree t flag]) n
    rw [upd_same]
    exact List.mem_append_right _ (List.mem_singleton.mpr rfl)

theorem son_finish_marker {cfg : Vertex → M (Node × Node)} {t : Vertex} {flag : Bool}
    {s s' : CFG} {r : Node × Node}
    (h : (son t 0 >>= fun expr => cfg expr >>= create_cfg_finish t flag) s =
      Except.ok (r, s')) :
    ∃ n fl, r.1 = some n ∧ new_subtree t fl ∈ s'.node_subtrees n := by
  rw [bind_ok_iff] at h
  obtain ⟨e, s1, _, h2⟩ := h
  exact finish_marker h2

theorem full_marker {fuel : Nat} {t : Vertex} {s s' : CFG} {r : Node × Node}
    (h : create_full_cfg fuel t s = Except.ok (r, s')) :
    ∃ n fl, r.1 = some n ∧ new_subtree t fl ∈ s'.node_subtrees n := by
  obtain ⟨h1, _, _, _, _, _, _, h8, _⟩ := full_cfg_graph fuel t s r.1 r.2 s' h
  exact ⟨s.node_gen, true, h1, by rw [h8]; exact List.mem_singleton.mpr rfl⟩

set_option maxRecDepth 10000 in
theorem create_cfg_marksM (fuel : Nat) (t : Vertex) (w ww : Bool) :
    MarksM t (create_cfg fuel t w ww) := by
  cases fuel with
  | zero =>
    intro s r s' h
    cases h
  | succ fuel =>
    unfold create_cfg
    dsimp only
    split
    all_goals first
      | exact fun s r s' h => finish_marker h
      | exact fun s r s' h => son_finish_marker h
      | exact fun s r s' h => full_marker h

/-- The builder attaches a marker of the vertex to the start node. -/
theorem create_cfg_marker (fuel : Nat) (t : Vertex) (w ww : Bool) (s s' : CFG)
    (r : Node × Node) (h : create_cfg fuel t w ww s = Except.ok (r, s')) :
    ∃ n fl, r.1 = some n ∧ new_subtree t fl ∈ s'.node_subtrees n :=
  create_cfg_marksM fuel t w ww s r s' h

/-- After the builder has returned, the vertex carries a marker in the graph. -/
theorem create_cfg_marked (fuel : Nat) (t : Vertex) (w ww : Bool) (s s' : CFG)
    (r : Node × Node) (h : create_cfg fuel t w ww s = Except.ok (r, s')) : Marked s' t := by
  obtain ⟨n, fl, h1, h2⟩ := create_cfg_marker fuel t w ww s s' r h
  have hb := (create_cfg_built fuel t w ww s r s' h).2.1
  rw [h1] at hb
  simp only [node_code_some] at hb
  exact ⟨n, by omega, _, h2, rfl⟩

/-- Once the vertex carries its marker, the occurrences that were pending inside its rule
have a source in the graph or are pending for the flags of the vertex. -/
theorem wStep_close {t : Vertex} {w ww : Bool} {s s' : CFG}
    (h : WStep (PendIn t w ww) s s') (hm : Marked s' t) : WStep (PendOf t w ww) s s' := by
  refine ⟨h.1, fun a u' h1 h2 => ?_⟩
  rcases h.2 a u' h1 h2 with q | q | q
  · exact Or.inl q
  · rcases q with q | ⟨c, th, q⟩
    · exact Or.inr (Or.inl q)
    · rcases q with q | q
      · exact Or.inl ⟨c, t, th, hm, Or.inl q⟩
      · exact Or.inl ⟨c, t, th, hm, Or.inr (Or.inr q)⟩
  · exact Or.inr (Or.inr q)

set_option maxRecDepth 10000 in
set_option linter.unreachableTactic false in
set_option linter.unusedTactic false in
/-- One level of the builder, before the marker of the vertex counts. -/
theorem weak_pre (fuel : Nat)
    (ih1 : ∀ v w ww, Preserves (WStep (PendOf v w ww)) (create_cfg fuel v w ww))
    (ih2 : ∀ v, Preserves (WStep NoPend) (create_condition_cfg fuel v)) (t : Vertex)
    (w ww : Bool) : Preserves (WStep (PendIn t w ww)) (create_cfg (fuel + 1) t w ww) := by
  have h0 := wStep_stable (PendIn t w ww)
  have hcfg : ∀ v, Preserves (WStep (PendIn t w ww)) (create_cfg fuel v false false) :=
    fun v => wStep_plain ih1 _ v
  have hcond : ∀ v, Preserves (WStep (PendIn t w ww)) (create_condition_cfg fuel v) :=
    fun v => preserves_wStep_mono (fun _ q => False.elim q) (ih2 v)
  have hfull : ∀ fuel v, Preserves (WStep (PendIn t w ww)) (create_full_cfg fuel v) :=
    fun fuel v => wStep_full_cfg _ fuel v
  unfold create_cfg
  dsimp only
  split
  iterate 7 exact stable_finish h0 _ _ (stable_op_seq h0 _ hcfg t)
  exact stable_son_finish h0 _ hcfg t _
  iterate 4 exact stable_finish h0 _ _ (stable_op_eq h0 hfull fuel _ hcfg t)
  exact stable_finish h0 _ _ (preserves_wStep_mono (fun _ q => Or.inl q)
    (wStep_op_index _ ih1 t w ww (by assumption)))
  iterate 2 exact stable_finish h0 _ _ (stable_op_log h0 _ hcfg t)
  exact stable_finish h0 _ _ (wStep_op_call _ ih1 t w ww (Or.inl (by assumption)))
  exact stable_finish h0 _ _ (wStep_op_call _ ih1 t w ww (Or.inr (by assumption)))
  exact stable_finish h0 _ _ (stable_op_return h0 _ hcfg t)
  exact stable_finish h0 _ _ (wStep_op_set _ ih1 t w ww (by assumption))
  iterate 12 exact stable_finish h0 _ _ (stable_op_set_op h0 hfull fuel _ hcfg t)
  exact stable_finish h0 _ _ (wStep_op_list _ ih1 t w ww (by assumption))
  exact stable_finish h0 _ _ (wStep_op_var _ t w ww
    (fun q => Or.inl (Or.inl ⟨q, Through.here t⟩)))
  exact stable_finish h0 _ _ (stable_op_if h0 _ hcfg _ hcond t)
  exact stable_finish h0 _ _ (stable_op_ternary h0 _ hcfg _ hcond t)
  exact stable_finish h0 _ _ (stable_op_break h0 t)
  exact stable_finish h0 _ _ (stable_op_continue h0 t)
  exact stable_finish h0 _ _ (stable_op_for h0 _ hcfg _ hcond t)
  iterate 2 exact stable_finish h0 _ _ (stable_op_while h0 _ hcfg _ hcond t)
  exact stable_finish h0 _ _ (stable_op_foreach h0 _ hcfg t)
  exact stable_finish h0 _ _ (stable_op_switch h0 _ hcfg t)
  exact stable_finish h0 _ _ (stable_op_throw h0 _ hcfg t)
  exact stable_finish h0 _ _ (wStep_op_try _ ih1 t w ww (by assumption))
  iterate 13 exact stable_son_finish h0 _ hcfg t _
  exact stable_finish h0 _ _ (stable_op_function h0 _ hcfg t)
  exact hfull fuel t

set_option maxRecDepth 10000 in
set_option linter.unreachableTactic false in
set_option linter.unusedTactic false in
/-- The builder keeps the markers, and every usage that gets the weak-write flag has a
source in the graph or is pending for the flags that the vertex is built with. -/
theorem weak_all : ∀ fuel,
    (∀ t w ww, Preserves (WStep (PendOf t w ww)) (create_cfg fuel t w ww)) ∧
      (∀ t, Preserves (WStep NoPend) (create_condition_cfg fuel t)) := by
  intro fuel
  induction fuel with
  | zero => exact ⟨fun t w ww => preserves_fail _, fun t => preserves_fail _⟩
  | succ fuel ih =>
    obtain ⟨ih1, ih2⟩ := ih
    constructor
    · intro t w ww
      exact ⟨fun s r s' h => wStep_close ((weak_pre fuel ih1 ih2 t w ww).run s r s' h)
        (create_cfg_marked _ t w ww s s' r h)⟩
    · intro t
      have h0 := wStep_stable NoPend
      have hcfg : ∀ v, Preserves (WStep NoPend) (create_cfg fuel v false false) :=
        fun v => wStep_plain ih1 _ v
      unfold create_condition_cfg
      repeat (first
        | apply ih2
        | apply stable_cond_op_log h0 _ ih2
        | apply stable_cond_default h0 _ hcfg
        | apply h0.marker
        | apply preserves_son h0.rel
        | apply preserves_bind h0.rel
        | apply preserves_pure h0.rel
        | intro _
        | dsimp only
        | split)

/-- C24 (amended). In every graph that `create_cfg` builds, with both flags unset, from a
state without weak-write usage, a usage has the weak-write flag only if its occurrence is,
through enclosing index expressions, an argument bound to a by-reference parameter of a
call or a by-reference loop variable of a foreach, or is, through at least one enclosing
index expression, the target of a plain assignment, an element of a list assignment or
the exception variable of a try; the call, foreach, assignment or try is a vertex that
carries a marker in the graph. -/
theorem weak_write_sources (fuel : Nat) (t : Vertex) (s s' : CFG) (r : Node × Node)
    (h : create_cfg fuel t false false s = Except.ok (r, s'))
    (hs : ∀ a u, s.usage_data a = some u → u.weak_write_flag = false) :
    ∀ a u, s'.usage_data a = some u → u.weak_write_flag = true → WeakSource s' u.v := by
  intro a u h1 h2
  rcases (((weak_all fuel).1 t false false).run s r s' h).2 a u h1 h2 with q | q | ⟨u0, q1, q2, _⟩
  · exact q
  · exact pendOf_plain q
  · rw [hs a u0 q1] at q2
    cases q2

/-- Counterexample to C24 as stated: in the graph of `function f() { $a[1] = 2; }` the
usage of `$a` (vertex 5) has the weak-write flag, and no vertex with a marker is a call or
a foreach, so that the occurrence is neither an argument bound to a by-reference parameter
nor a by-reference loop variable. -/
theorem indexed_assignment_weak_write :
    usage_summary sample_index_graph 0 = some (5, UsageType.usage_read_t, true) ∧
    ∃ u, sample_index_graph.usage_data 0 = some u ∧ u.weak_write_flag = true ∧
      ¬ WeakSourceNamed sample_index_graph u.v := by
  have hsum : usage_summary sample_index_graph 0 = some (5, UsageType.usage_read_t, true) := by
    decide!
  have hno : ∀ n, n < sample_index_graph.node_gen → ∀ mk ∈ sample_index_graph.node_subtrees n,
      mk.v.type ≠ Operation.op_func_call ∧ mk.v.type ≠ Operation.op_constructor_call ∧
      mk.v.type ≠ Operation.op_foreach := by decide!
  refine ⟨hsum, ?_⟩
  unfold usage_summary at hsum
  cases hu : sample_index_graph.usage_data 0 with
  | none =>
    rw [hu] at hsum
    cases hsum
  | some u =>
    rw [hu] at hsum
    have hw : u.weak_write_flag = true := by
      have := congrArg (fun o => o.map fun p => p.2.2) hsum
      simpa using this
    refine ⟨u, rfl, hw, ?_⟩
    rintro ⟨c, p, _, ⟨n, hn, mk, hmk, e⟩, hb | hf⟩
    · obtain ⟨k1, k2, _⟩ := hno n hn mk hmk
      rw [e] at k1 k2
      rcases hb.1 with q | q
      · exact k1 q
      · exact k2 q
    · obtain ⟨_, _, k3⟩ := hno n hn mk hmk
      rw [e] at k3
      exact k3 hf.1

/-- Witness of C24 (amended): the graph of `function f() { $a[1] = 2; }`: the usage of
`$a` has the weak-write flag, and its occurrence is a source of a weak write. -/
theorem weak_write_sources_witness :
    run_ok (create_cfg 30 sample_index_assign false false sample_index_start) = true ∧
    (∀ a u, sample_index_start.usage_data a = some u → u.weak_write_flag = false) ∧
    usage_summary sample_index_graph 0 = some (5, UsageType.usage_read_t, true) ∧
    ∀ a u, sample_index_graph.usage_data a = some u → u.weak_write_flag = true →
      WeakSource sample_index_graph u.v := by
  have hok : run_ok (create_cfg 30 sample_index_assign false false sample_index_start) = true := by
    decide!
  have hs : ∀ a u, sample_index_start.usage_data a = some u → u.weak_write_flag = false :=
    fun a u h => by cases h
  exact ⟨hok, hs, by decide!,
    weak_write_sources 30 sample_index_assign sample_index_start sample_index_graph _
      (run_eq_of_ok _ hok) hs⟩

theorem start_of_code {g G : Nat} {a : Node} (h : g < node_code a ∧ node_code a ≤ G) :
    ∃ n, a = some n ∧ g ≤ n ∧ n < G := by
  cases a with
  | none => simp [node_code] at h
  | some n =>
    simp only [node_code] at h
    exact ⟨n, rfl, by omega, by omega⟩

theorem startOk_of_builtM {rule : M (Node × Node)} (h : BuiltM rule) (st : SubTreeData) :
    StartOk rule st := by
  intro s r0 s1 hr
  obtain ⟨n, e, h1, h2⟩ := start_of_code (h s r0 s1 hr).2.1
  refine ⟨n, e, h1, h2, ?_⟩
  rw [e]
  rfl

theorem bind_bind_run {α β γ : Type} (m : M α) (f : α → M β) (g : β → M γ) :
    (m >>= fun x => f x >>= g) = ((m >>= f) >>= g) := by
  funext s
  simp only [bind_run]
  cases m s with
  | error e => rfl
  | ok p => rfl

theorem ruleThenMarker_of {fuel : Nat} {t : Vertex} {w ww : Bool} {rule : M (Node × Node)}
    {flag : Bool} (h : BuiltM rule)
    (e : create_cfg (fuel + 1) t w ww = (rule >>= create_cfg_finish t flag)) :
    RuleThenMarker fuel t w ww :=
  ⟨rule, flag, e, startOk_of_builtM h _⟩

theorem builtM_son (cfg : Vertex → M (Node × Node)) (hcfg : CfgOk cfg) (t : Vertex) :
    BuiltM (son t 0 >>= cfg) := by
  intro s r s' hr
  obtain ⟨e, s1, h1, h2⟩ := bind_ok_iff.mp hr
  obtain rfl := son_ok h1
  exact hcfg e _ r s' h2

set_option maxRecDepth 10000 in
theorem rule_then_marker (fuel : Nat) (t : Vertex) (w ww : Bool) :
    create_cfg (fuel + 1) t w ww = create_full_cfg fuel t ∨ RuleThenMarker fuel t w ww := by
  obtain ⟨ih1, ih2⟩ := built_all fuel
  have hcfg : CfgOk fun v => create_cfg fuel v false false := cfgOk_of_cfgOk3 ih1 false false
  unfold RuleThenMarker
  unfold create_cfg
  dsimp only
  split
  iterate 7 exact Or.inr ⟨_, _, rfl, startOk_of_builtM (built_op_seq _ hcfg t) _⟩
  exact Or.inr ⟨_, _, bind_bind_run _ _ _, startOk_of_builtM (builtM_son _ hcfg t) _⟩
  iterate 4 exact Or.inr ⟨_, _, rfl, startOk_of_builtM (built_op_eq fuel _ hcfg t) _⟩
  exact Or.inr ⟨_, _, rfl, startOk_of_builtM (built_op_index _ ih1 t w ww) _⟩
  iterate 2 exact Or.inr ⟨_, _, rfl, startOk_of_builtM (built_op_log _ hcfg t) _⟩
  iterate 2 exact Or.inr ⟨_, _, rfl, startOk_of_builtM (built_op_call _ ih1 t) _⟩
  exact Or.inr ⟨_, _, rfl, startOk_of_builtM (built_op_return _ hcfg t) _⟩
  exact Or.inr ⟨_, _, rfl, startOk_of_builtM (built_op_set _ ih1 t) _⟩
  iterate 12 exact Or.inr ⟨_, _, rfl, startOk_of_builtM (built_op_set_op fuel _ hcfg t) _⟩
  exact Or.inr ⟨_, _, rfl, startOk_of_builtM (built_op_list _ ih1 t) _⟩
  exact Or.inr ⟨_, _, rfl, startOk_of_builtM (built_op_var t w ww) _⟩
  exact Or.inr ⟨_, _, rfl, startOk_of_builtM (built_op_if _ _ hcfg ih2 t) _⟩
  exact Or.inr ⟨_, _, rfl, startOk_of_builtM (built_op_ternary _ _ hcfg ih2 t) _⟩
  exact Or.inr ⟨_, _, rfl, startOk_of_builtM (built_op_break t) _⟩
  exact Or.inr ⟨_, _, rfl, startOk_of_builtM (built_op_continue t) _⟩
  exact Or.inr ⟨_, _, rfl, startOk_of_builtM (built_op_for _ _ hcfg ih2 t) _⟩
  iterate 2 exact Or.inr ⟨_, _, rfl, startOk_of_builtM (built_op_while _ _ hcfg ih2 t) _⟩
  exact Or.inr ⟨_, _, rfl, startOk_of_builtM (built_op_foreach _ hcfg t) _⟩
  exact Or.inr ⟨_, _, rfl, startOk_of_builtM (built_op_switch _ hcfg t) _⟩
  exact Or.inr ⟨_, _, rfl, startOk_of_builtM (built_op_throw _ hcfg t) _⟩
  exact Or.inr ⟨_, _, rfl, startOk_of_builtM (built_op_try _ ih1 t) _⟩
  iterate 13 exact Or.inr ⟨_, _, bind_bind_run _ _ _, startOk_of_builtM (builtM_son _ hcfg t) _⟩
  exact Or.inr ⟨_, _, rfl, startOk_of_builtM (built_op_function _ hcfg t) _⟩
  exact Or.inl rfl

theorem startOkCond_of {rule : M (Node × Node × Node)} (h : BuiltCondM rule) (st : SubTreeData) :
    StartOkCond rule st := by
  intro s r0 s1 hr
  obtain ⟨n, e, h1, h2⟩ := start_of_code (h s r0 s1 hr).2.1
  refine ⟨n, e, h1, h2, ?_⟩
  rw [e]
  rfl

theorem cond_rule_then_marker (fuel : Nat) (t : Vertex) : CondRuleThenMarker fuel t := by
  obtain ⟨ih1, ih2⟩ := built_all fuel
  have hcfg : CfgOk fun v => create_cfg fuel v false false := cfgOk_of_cfgOk3 ih1 false false
  constructor
  · rw [create_condition_cfg]
    unfold create_condition_cfg_rule
    split
    · rename_i hty
      try rw [hty]
      funext s
      simp only [bind_run]
      cases son t 0 s with
      | error e => rfl
      | ok p => rfl
    · rename_i hty
      try rw [hty]
      funext s
      simp only [bind_run]
      cases son t 0 s with
      | error e => rfl
      | ok p =>
        simp only []
        cases create_condition_cfg fuel p.1 p.2 with
        | error e => rfl
        | ok q => rfl
    · rename_i hty
      first
        | rfl
        | rw [hty]
    · rename_i hty
      first
        | rfl
        | rw [hty]
    · first
        | rfl
        | (split
           · rename_i h1 _ _ _ _ h2
             exact absurd h2 h1
           · rename_i h1 _ _ _ h2
             exact absurd h2 h1
           · rename_i h1 _ _ h2
             exact absurd h2 h1
           · rename_i h1 _ h2
             exact absurd h2 h1
           · rfl)
  apply startOkCond_of
  unfold create_condition_cfg_rule
  split
  · intro s r s' h
    simp only [bind_ok_iff] at h
    obtain ⟨e, s2, k1, k2⟩ := h
    obtain rfl := son_ok k1
    exact ih2 _ _ _ _ k2
  · intro s r s' h
    simp only [bind_ok_iff, Prod.exists] at h
    obtain ⟨e, s2, k1, a, b, c, s3, k2, k4⟩ := h
    obtain rfl := son_ok k1
    cases k4
    obtain ⟨m, x1, x2, y1, z1, _⟩ := builtCond_elim (ih2 _ _ _ _ k2)
    exact ⟨m, ⟨x1, x2⟩, z1, y1⟩
  · intro s r s' h
    exact builtCond_op_log _ ih2 t _ _ _ h
  · intro s r s' h
    exact builtCond_op_log _ ih2 t _ _ _ h
  · intro s r s' h
    exact builtCond_default _ hcfg t _ _ _ h

/-- C36: start nodes are never null.  For every vertex, whenever `create_cfg` or
`create_condition_cfg` returns, the start node it returns is a node that the call created
(not the null node).  Moreover each builder is one construction rule followed by
`add_subtree` on the start node that the rule returned (or, for `create_cfg`, the generic
rule `create_full_cfg`, which marks a node it has just created), and no successful run of
a rule returns the null start: `add_subtree` succeeds after every rule, its assertion is
never violated. -/
theorem start_never_null (fuel : Nat) (t : Vertex) (w ww : Bool) :
    (∀ s r s', create_cfg fuel t w ww s = Except.ok (r, s') →
      ∃ n, r.1 = some n ∧ s.node_gen ≤ n ∧ n < s'.node_gen) ∧
    (∀ s r s', create_condition_cfg fuel t s = Except.ok (r, s') →
      ∃ n, r.1 = some n ∧ s.node_gen ≤ n ∧ n < s'.node_gen) ∧
    (create_cfg (fuel + 1) t w ww = create_full_cfg fuel t ∨ RuleThenMarker fuel t w ww) ∧
    CondRuleThenMarker fuel t :=
  ⟨fun s r s' h => start_of_code (create_cfg_built fuel t w ww s r s' h).2.1,
    fun s r s' h => start_of_code (create_condition_cfg_built fuel t s r s' h).2.1,
    rule_then_marker fuel t w ww, cond_rule_then_marker fuel t⟩

/-- Witness of C36: `return;` built in the empty state gets start node 0 and the null
finish. -/
theorem start_never_null_witness :
    run_result (create_cfg 3 (mk_op 13 Operation.op_return []) false false {}) =
      some (some 0, none) ∧
    ∃ n, (some 0 : Node) = some n ∧ ({} : CFG).node_gen ≤ n ∧
      n < (state_after (create_cfg 3 (mk_op 13 Operation.op_return []) false false {})).node_gen := by
  have h1 : run_result (create_cfg 3 (mk_op 13 Operation.op_return []) false false {}) =
      some (some 0, none) := by decide!
  exact ⟨h1, (start_never_null 3 (mk_op 13 Operation.op_return []) false false).1 _ _ _
    (run_eq_of_result _ _ h1)⟩

theorem framesSame_rel : StepRel FramesSame :=
  ⟨fun _ => ⟨rfl, rfl, rfl⟩, fun h1 h2 =>
    ⟨h2.1.trans h1.1, h2.2.1.trans h1.2.1, h2.2.2.trans h1.2.2⟩⟩

theorem frameStep_of_same {s s' : CFG} (h : FramesSame s s') : FrameStep 0 0 s s' := by
  obtain ⟨h1, h2, h3⟩ := h
  exact ⟨by rw [h1]; simp, by rw [h2]; simp, by rw [h3]; simp⟩

theorem frameStep_rel_refl (s : CFG) : FrameStep 0 0 s s :=
  frameStep_of_same ⟨rfl, rfl, rfl⟩

theorem frameStep_of_preserves {α : Type} {m : M α} (h : Preserves FramesSame m) :
    Preserves (FrameStep 0 0) m :=
  ⟨fun _ _ _ hr => frameStep_of_same (h.run _ _ _ hr)⟩

theorem framesSame_of_nodeData {α : Type} {m : M α} (h : Preserves (NodeData 0) m) :
    Preserves FramesSame m := by
  refine ⟨fun s a s' hr => ?_⟩
  obtain ⟨_, _, _, h1, h2, h3, _⟩ := h.run _ _ _ hr
  exact ⟨h1, h2, h3⟩

theorem framesSame_add_edge (a b : Node) : Preserves FramesSame (add_edge a b) := by
  refine ⟨fun s x s' hr => ?_⟩
  unfold add_edge at hr
  split at hr
  · cases hr
    exact ⟨rfl, rfl, rfl⟩
  · cases hr
    exact ⟨rfl, rfl, rfl⟩

theorem framesSame_add_edges_from (l : List Node) (dst : Node) :
    Preserves FramesSame (add_edges_from l dst) := by
  induction l with
  | nil => exact preserves_pure framesSame_rel _
  | cons a l ih =>
    unfold add_edges_from
    exact preserves_bind framesSame_rel (framesSame_add_edge _ _) fun _ => ih

theorem framesSame_new_node : Preserves FramesSame new_node := by
  refine ⟨fun s x s' hr => ?_⟩
  unfold new_node at hr
  cases hr
  exact ⟨rfl, rfl, rfl⟩

theorem dropLast_length_int {α : Type} {l : List α} {x : α} (h : l.getLast? = some x) :
    (l.dropLast.length : Int) = l.length + -1 := by
  cases l with
  | nil => cases h
  | cons a l => simp

theorem frameStep_enter_cycle : Preserves (FrameStep 1 0) create_cfg_enter_cycle :=
  preserves_modify_state _ fun s => ⟨by simp, by simp, by simp⟩

theorem frameStep_begin_try : Preserves (FrameStep 0 1) create_cfg_begin_try :=
  preserves_modify_state _ fun s => ⟨by simp, by simp, by simp⟩

theorem frameStep_exit_cycle (a b : Node) :
    Preserves (FrameStep (-1) 0) (create_cfg_exit_cycle a b) := by
  refine ⟨fun s x s' hr => ?_⟩
  unfold create_cfg_exit_cycle at hr
  simp only [bind_run, get_state_run] at hr
  cases e1 : s.continue_nodes.getLast? with
  | none =>
    rw [e1] at hr
    cases hr
  | some cs =>
    cases e2 : s.break_nodes.getLast? with
    | none =>
      rw [e1, e2] at hr
      cases hr
    | some bs =>
      rw [e1, e2] at hr
      have h2 : (add_edges_from cs a >>= fun _ => add_edges_from bs b >>= fun _ =>
          modify_state fun s => { s with continue_nodes := s.continue_nodes.dropLast,
                                         break_nodes := s.break_nodes.dropLast }) s =
          Except.ok (x, s') := hr
      simp only [bind_ok_iff] at h2
      obtain ⟨_, s1, k1, _, s2, k2, k3⟩ := h2
      cases k3
      obtain ⟨f1, f2, f3⟩ := framesSame_rel.trans
        ((framesSame_add_edges_from _ _).run _ _ _ k1)
        ((framesSame_add_edges_from _ _).run _ _ _ k2)
      refine ⟨?_, ?_, ?_⟩
      · show ((s2.break_nodes.dropLast).length : Int) = _
        rw [f1]
        exact dropLast_length_int e2
      · show ((s2.continue_nodes.dropLast).length : Int) = _
        rw [f2]
        exact dropLast_length_int e1
      · show ((s2.exception_nodes).length : Int) = _
        rw [f3]
        simp

theorem frameStep_end_try (a : Node) :
    Preserves (FrameStep 0 (-1)) (create_cfg_end_try a) := by
  refine ⟨fun s x s' hr => ?_⟩
  unfold create_cfg_end_try at hr
  simp only [bind_run, get_state_run] at hr
  cases e1 : s.exception_nodes.getLast? with
  | none =>
    rw [e1] at hr
    cases hr
  | some es =>
    rw [e1] at hr
    have h2 : (add_edges_from es a >>= fun _ =>
        modify_state fun s => { s with exception_nodes := s.exception_nodes.dropLast }) s =
        Except.ok (x, s') := hr
    simp only [bind_ok_iff] at h2
    obtain ⟨_, s1, k1, k3⟩ := h2
    cases k3
    obtain ⟨f1, f2, f3⟩ := (framesSame_add_edges_from _ _).run _ _ _ k1
    refine ⟨?_, ?_, ?_⟩
    · show ((s1.break_nodes).length : Int) = _
      rw [f1]
      simp
    · show ((s1.continue_nodes).length : Int) = _
      rw [f2]
      simp
    · show ((s1.exception_nodes.dropLast).length : Int) = _
      rw [f3]
      exact dropLast_length_int e1

theorem frameStep_register_exception (a : Node) :
    Preserves (FrameStep 0 0) (create_cfg_register_exception a) := by
  refine ⟨fun s x s' hr => ?_⟩
  unfold create_cfg_register_exception at hr
  simp only [bind_run, get_state_run] at hr
  cases e1 : s.exception_nodes.getLast? with
  | none =>
    rw [e1] at hr
    cases hr
    exact frameStep_rel_refl s
  | some es =>
    rw [e1] at hr
    cases hr
    refine ⟨by simp, by simp, ?_⟩
    show (((s.exception_nodes.dropLast ++ [es ++ [a]]).length : Nat) : Int) = _
    have := dropLast_length_int e1
    simp only [List.length_append, List.length_singleton, Nat.cast_add, Nat.cast_one]
    omega

theorem frameStep_add_break_node (v : Node) (d : Int) :
    Preserves (FrameStep 0 0) (create_cfg_add_break_node v d) := by
  refine ⟨fun s x s' hr => ?_⟩
  unfold create_cfg_add_break_node at hr
  simp only [bind_ok_iff, kphp_assert_run, get_state_run] at hr
  obtain ⟨_, s1, h1, s2, s3, h2, _, s4, h3, h4⟩ := hr
  split at h1
  · cases h1
    cases h2
    split at h3
    · cases h3
      cases h4
      refine ⟨?_, by simp, by simp⟩
      show ((push_at _ _ _).length : Int) = _
      rw [push_at_length]
      simp
    · cases h3
  · cases h1

theorem frameStep_add_continue_node (v : Node) (d : Int) :
    Preserves (FrameStep 0 0) (create_cfg_add_continue_node v d) := by
  refine ⟨fun s x s' hr => ?_⟩
  unfold create_cfg_add_continue_node at hr
  simp only [bind_ok_iff, kphp_assert_run, get_state_run] at hr
  obtain ⟨_, s1, h1, s2, s3, h2, _, s4, h3, h4⟩ := hr
  split at h1
  · cases h1
    cases h2
    split at h3
    · cases h3
      cases h4
      refine ⟨by simp, ?_, by simp⟩
      show ((push_at _ _ _).length : Int) = _
      rw [push_at_length]
      simp
    · cases h3
  · cases h1

theorem frame_table : FrameTable where
  enter := frameStep_enter_cycle
  exit := frameStep_exit_cycle
  add_break := frameStep_add_break_node
  add_continue := frameStep_add_continue_node
  begin_try := frameStep_begin_try
  end_try := frameStep_end_try
  register := frameStep_register_exception
  node := frameStep_of_preserves framesSame_new_node
  edge := fun a b => frameStep_of_preserves (framesSame_add_edge a b)
  marker := fun n m => frameStep_of_preserves
    (framesSame_of_nodeData (add_subtree_nodeData 0 n m (Nat.eq_zero_or_pos _)))
  usage := fun ty v => frameStep_of_preserves (framesSame_of_nodeData (new_usage_nodeData 0 ty v))
  attach := fun n u => frameStep_of_preserves
    (framesSame_of_nodeData (add_usage_nodeData 0 n u (Nat.eq_zero_or_pos _)))
  compress := fun n => frameStep_of_preserves
    (framesSame_of_nodeData (compress_usages_nodeData 0 n (Nat.eq_zero_or_pos _)))

theorem framesExt_length {g G k : Nat} {old new : List (List Node)}
    (h : FramesExt g G k old new) : new.length = old.length + k := h.1

theorem frameStep_of_mid {g : Nat} {s s' : CFG} (h : Mid g 0 0 s s') : FrameStep 0 0 s s' :=
  ⟨by rw [h.brk.1]; simp, by rw [h.cont.1]; simp, by rw [h.exc.1]; simp⟩

/-- C37: frame stacks are balanced.  When `create_cfg` completes on a vertex, the
break-target stack, the continue-target stack and the exception-escape stack have on
return the depth they had on entry, so the first two are of equal depth on return when
they were on entry; the same holds for `create_condition_cfg`.  Between entry and return
the state changes by the primitive steps of `FrameTable` only, and each of them changes
the depth of the break-target stack and of the continue-target stack by the same amount:
the two stacks have equal depth at every point of the build. -/
theorem frame_stacks_balanced (fuel : Nat) (t : Vertex) (w ww : Bool) (s s' : CFG)
    (r : Node × Node) (h : create_cfg fuel t w ww s = Except.ok (r, s')) :
    s'.break_nodes.length = s.break_nodes.length ∧
    s'.continue_nodes.length = s.continue_nodes.length ∧
    s'.exception_nodes.length = s.exception_nodes.length ∧
    (s.break_nodes.length = s.continue_nodes.length →
      s'.break_nodes.length = s'.continue_nodes.length) ∧
    (∀ c, Preserves (FrameStep 0 0) (create_condition_cfg fuel c)) ∧
    FrameTable := by
  have hm := (create_cfg_built fuel t w ww s r s' h).1
  have e1 : s'.break_nodes.length = s.break_nodes.length := hm.brk.1
  have e2 : s'.continue_nodes.length = s.continue_nodes.length := hm.cont.1
  refine ⟨e1, e2, hm.exc.1, fun e => by rw [e1, e2]; exact e, fun c => ⟨fun s0 rc s1 hc => ?_⟩,
    frame_table⟩
  exact frameStep_of_mid (create_condition_cfg_built fuel c s0 rc s1 hc).1

/-- Witness of C37: the graph of `for (; $c; ) { while ($c) { break 2; } }` is built from
the empty state, and all three stacks are empty again on return. -/
theorem frame_stacks_balanced_witness :
    run_ok (create_cfg 10 sample_for_while_break false false {}) = true ∧
    (state_after (create_cfg 10 sample_for_while_break false false {})).break_nodes.length = 0 ∧
    (state_after (create_cfg 10 sample_for_while_break false false {})).continue_nodes.length = 0 ∧
    (state_after (create_cfg 10 sample_for_while_break false false {})).exception_nodes.length = 0 := by
  have hok : run_ok (create_cfg 10 sample_for_while_break false false {}) = true := by decide!
  have h := frame_stacks_balanced 10 sample_for_while_break false false {} _ _
    (run_eq_of_ok _ hok)
  exact ⟨hok, h.1, h.2.1, h.2.2.1⟩

/-- The body of the proof of `op_for_spec`: the steps of the rule of `op_for` are given
one by one, with the nodes that `new_node` returns written out. -/
theorem op_for_core
    (cfg : Vertex → M (Node × Node)) (cond_cfg : Vertex → M (Node × Node × Node)) (hcfg : CfgOk cfg)
    (hcond : CondOk cond_cfg) (t : Vertex) (s s' : CFG) (w : Unit) (v0 v1 v2 : Vertex)
    (g1 : t.sons.get? 0 = some v0) (g2 : t.sons.get? 1 = some v1) (v3 : Vertex) (t4 : CFG)
    (g3 : t.sons.get? 2 = some v2) (g4 : t.sons.get? 3 = some v3)
    (k4 : son t 3 t4 = Except.ok (v3, t4)) (k2 : son t 1 t4 = Except.ok (v1, t4))
    (h1 : create_cfg_enter_cycle s = Except.ok (w, t4)) (k1 : son t 0 t4 = Except.ok (v0, t4))
    (k3 : son t 2 t4 = Except.ok (v2, t4)) (is_ if_ : Node) (s5 : CFG)
    (h5 : cfg v0 t4 = Except.ok ((is_, if_), s5)) (cs ct cf : Node) (s6 : CFG)
    (h6 : cond_cfg v1 s5 = Except.ok ((cs, ct, cf), s6)) (ns nf : Node) (s7 : CFG)
    (h7 : cfg v2 s6 = Except.ok ((ns, nf), s7)) (s8 : CFG) (as afp : Node) (s9 : CFG)
    (h9 : cfg v3 s8 = Except.ok ((as, afp), s9))
    (h8 : new_node s7 = Except.ok (some s7.node_gen, s8))
    (left : s8.node_next = upd s7.node_next s7.node_gen []) (right : s8.node_gen = s7.node_gen + 1)
    (w_1 : Unit) (s10 : CFG) (h10 : add_edge afp (some s7.node_gen) s9 = Except.ok (w_1, s10))
    (w_2 : Unit) (s11 : CFG) (h11 : add_edge if_ cs s10 = Except.ok (w_2, s11)) (w_3 : Unit)
    (s12 : CFG) (h12 : add_edge ct as s11 = Except.ok (w_3, s12)) (w_4 : Unit) (s13 : CFG)
    (h13 : add_edge (some s7.node_gen) ns s12 = Except.ok (w_4, s13)) (w_5 : Unit) (s14 : CFG)
    (h14 : add_edge nf cs s13 = Except.ok (w_5, s14)) (s15 : CFG) (w_6 : Unit) (s16 : CFG)
    (h15 : new_node s14 = Except.ok (some s14.node_gen, s15))
    (left_1 : s15.node_next = upd s14.node_next s14.node_gen [])
    (right_1 : s15.node_gen = s14.node_gen + 1)
    (h16 : add_edge cf (some s14.node_gen) s15 = Except.ok (w_6, s16)) (w_7 : Unit)
    (h17 : create_cfg_exit_cycle (some s7.node_gen) (some s14.node_gen) s16 = Except.ok (w_7, s')) :
    ∃ pre cond post cmd s1 is__1 if_ s2 cs ct cf s3 ns nf s4 s5 as afp s6 cont brk, t.sons.get? 0 =
      some pre ∧ t.sons.get? 1 = some cond ∧ t.sons.get? 2 = some post ∧ t.sons.get? 3 = some cmd ∧
      create_cfg_enter_cycle s = Except.ok ((), s1) ∧ cfg pre s1 = Except.ok ((is__1, if_), s2) ∧
      cond_cfg cond s2 = Except.ok ((cs, ct, cf), s3) ∧ cfg post s3 = Except.ok ((ns, nf), s4) ∧
      new_node s4 = Except.ok (some s4.node_gen, s5) ∧ cfg cmd s5 = Except.ok ((as, afp), s6) ∧
      (is_, some s14.node_gen) = (is__1, some s6.node_gen) ∧ s'.node_gen = s6.node_gen + 1 ∧
      s1.node_gen = s.node_gen ∧ s5.node_gen = s4.node_gen + 1 ∧ s6.continue_nodes.getLast? = some
      cont ∧ s6.break_nodes.getLast? = some brk ∧ Has (for_edges if_ cs ct cf ns nf as afp (some
      s4.node_gen) (some s6.node_gen) cont brk) s' ∧ Cen s.node_gen [(s1.node_gen, s2.node_gen),
      (s2.node_gen, s3.node_gen), (s3.node_gen, s4.node_gen), (s5.node_gen, s6.node_gen)]
      (for_edges if_ cs ct cf ns nf as afp (some s4.node_gen) (some s6.node_gen) cont brk) s' := by
  obtain ⟨m1, e1⟩ := mid_enter_cycle (mid_refl _) h1
  have hs1 : t4.node_next = s.node_next := by
    cases h1
    rfl
  have x1 : Has [] t4 := has_nil _
  have c1 : Cen s.node_gen [] [] t4 := cen_same (cen_nil s) e1 hs1
  have hb5 := hcfg _ _ _ _ h5
  obtain ⟨m5, is1, is2, if1, l5, _⟩ := mid_built m1 hb5
  have x5 := has_mid x1 hb5.1
  have c5 := cen_mid c1 hb5.1
  have hb6 := hcond _ _ _ _ h6
  obtain ⟨m6, cs1, cs2, ct1, cf1, l6, _⟩ := mid_builtCond m5 hb6
  have x6 := has_mid x5 hb6.1
  have c6 := cen_mid c5 hb6.1
  have hb7 := hcfg _ _ _ _ h7
  obtain ⟨m7, ns1, ns2, nf1, l7, _⟩ := mid_built m6 hb7
  have x7 := has_mid x6 hb7.1
  have c7 := cen_mid c6 hb7.1
  obtain ⟨m8, af1, e8⟩ := mid_new_node m7 h8
  have x8 := has_new_node x7 h8
  have c8 := cen_new_node c7 h8
  have hb9 := hcfg _ _ _ _ h9
  obtain ⟨m9, as1, as2, afp1, l9, _⟩ := mid_built m8 hb9
  have x9 := has_mid x8 hb9.1
  have c9 := cen_mid c8 hb9.1
  have x10 := has_add_edge x9 (by omega) h10
  obtain ⟨c10, g10⟩ := cen_add_edge c9 h10
  obtain ⟨m10, e10⟩ := mid_add_edge m9 (by omega) (by omega) h10
  have x11 := has_add_edge x10 (by omega) h11
  obtain ⟨c11, g11⟩ := cen_add_edge c10 h11
  obtain ⟨m11, e11⟩ := mid_add_edge m10 (by omega) (by omega) h11
  have x12 := has_add_edge x11 (by omega) h12
  obtain ⟨c12, g12⟩ := cen_add_edge c11 h12
  obtain ⟨m12, e12⟩ := mid_add_edge m11 (by omega) (by omega) h12
  have x13 := has_add_edge x12 (by omega) h13
  obtain ⟨c13, g13⟩ := cen_add_edge c12 h13
  obtain ⟨m13, e13⟩ := mid_add_edge m12 (by omega)
    (by omega) h13
  have x14 := has_add_edge x13 (by omega) h14
  obtain ⟨c14, g14⟩ := cen_add_edge c13 h14
  obtain ⟨m14, e14⟩ := mid_add_edge m13 (by omega) (by omega) h14
  obtain ⟨m15, fin1, e15⟩ := mid_new_node m14 h15
  have x15 := has_new_node x14 h15
  have c15 := cen_new_node c14 h15
  have x16 := has_add_edge x15 (by omega) h16
  obtain ⟨c16, g16⟩ := cen_add_edge c15 h16
  obtain ⟨m16, e16⟩ := mid_add_edge m15 (by omega)
    (by omega) h16
  obtain ⟨cont, brk, f1, f2, f3, x17, c17⟩ := exit_cycle_spec m16 x16 c16 h17
  have hg : s14.node_gen = s9.node_gen := by omega
  have q1 : s16.continue_nodes = s9.continue_nodes ∧ s16.break_nodes = s9.break_nodes := by
    obtain ⟨a10, b10, _⟩ := (framesSame_add_edge _ _).run _ _ _ h10
    obtain ⟨a11, b11, _⟩ := (framesSame_add_edge _ _).run _ _ _ h11
    obtain ⟨a12, b12, _⟩ := (framesSame_add_edge _ _).run _ _ _ h12
    obtain ⟨a13, b13, _⟩ := (framesSame_add_edge _ _).run _ _ _ h13
    obtain ⟨a14, b14, _⟩ := (framesSame_add_edge _ _).run _ _ _ h14
    obtain ⟨a15, b15, _⟩ := framesSame_new_node.run _ _ _ h15
    obtain ⟨a16, b16, _⟩ := (framesSame_add_edge _ _).run _ _ _ h16
    exact ⟨by rw [b16, b15, b14, b13, b12, b11, b10], by rw [a16, a15, a14, a13, a12, a11, a10]⟩
  rw [hg] at x17 c17
  refine ⟨v0, v1, v2, v3, t4, is_, if_, s5, cs, ct, cf, s6, ns, nf, s7, s8, as, afp, s9, cont,
    brk, g1, g2, g3, g4, h1, h5, h6, h7, h8, h9, by rw [hg], by omega, e1, e8,
    by rw [← q1.1]; exact f1, by rw [← q1.2]; exact f2, ?_, ?_⟩
  · exact has_mono x17 (by
      intro p hp
      simpa [for_edges] using hp)
  · exact cen_mono c17 (by
      intro b hb
      simpa using hb) (by
      intro p hp
      simpa [for_edges] using hp)

/-- What the rule of `op_for` builds: the graphs of the initialisation, of the condition,
of the increment and, after the node `join`, of the body, then the finish node; the edges
of `for_edges` and no other edge out of a new node that leaves the node range of one of
the four graphs. -/
theorem op_for_spec (cfg : Vertex → M (Node × Node)) (cond_cfg : Vertex → M (Node × Node × Node))
    (hcfg : CfgOk cfg) (hcond : CondOk cond_cfg)
    (t : Vertex) (s : CFG) (r : Node × Node) (s' : CFG)
    (hr : create_cfg_op_for cfg cond_cfg t s = Except.ok (r, s')) :
    ∃ pre cond post cmd s1 is_ if_ s2 cs ct cf s3 ns nf s4 s5 as afp s6 cont brk,
      t.sons.get? 0 = some pre ∧ t.sons.get? 1 = some cond ∧ t.sons.get? 2 = some post ∧
      t.sons.get? 3 = some cmd ∧
      create_cfg_enter_cycle s = Except.ok ((), s1) ∧
      cfg pre s1 = Except.ok ((is_, if_), s2) ∧
      cond_cfg cond s2 = Except.ok ((cs, ct, cf), s3) ∧
      cfg post s3 = Except.ok ((ns, nf), s4) ∧
      new_node s4 = Except.ok (some s4.node_gen, s5) ∧
      cfg cmd s5 = Except.ok ((as, afp), s6) ∧
      r = (is_, some s6.node_gen) ∧ s'.node_gen = s6.node_gen + 1 ∧
      s1.node_gen = s.node_gen ∧ s5.node_gen = s4.node_gen + 1 ∧
      s6.continue_nodes.getLast? = some cont ∧ s6.break_nodes.getLast? = some brk ∧
      Has (for_edges if_ cs ct cf ns nf as afp (some s4.node_gen) (some s6.node_gen) cont brk) s' ∧
      Cen s.node_gen [(s1.node_gen, s2.node_gen), (s2.node_gen, s3.node_gen),
          (s3.node_gen, s4.node_gen), (s5.node_gen, s6.node_gen)]
        (for_edges if_ cs ct cf ns nf as afp (some s4.node_gen) (some s6.node_gen) cont brk) s' := by
  simp only [create_cfg_op_for, bind_ok_iff, Prod.exists] at hr
  obtain ⟨_, s1, h1, v0, t1, hq1_1⟩ := hr
  obtain ⟨k1, v1, t2, k2, v2, hq1_2⟩ := hq1_1
  obtain ⟨rfl, g1⟩ := son_get k1
  obtain ⟨rfl, g2⟩ := son_get k2
  obtain ⟨t3, k3, v3, t4, k4, hq1_3⟩ := hq1_2
  obtain ⟨rfl, g3⟩ := son_get k3
  obtain ⟨rfl, g4⟩ := son_get k4
  obtain ⟨is_, if_, s5, h5, cs, hq1_4⟩ := hq1_3
  obtain ⟨ct, cf, s6, h6, ns, hq1_5⟩ := hq1_4
  obtain ⟨nf, s7, h7, af, s8, hq1_6⟩ := hq1_5
  obtain ⟨h8, as, afp, s9, h9, hq1_7⟩ := hq1_6
  obtain ⟨rfl, _, _⟩ := new_node_next h8
  obtain ⟨_, s10, h10, _, s11, hq1_8⟩ := hq1_7
  obtain ⟨h11, _, s12, h12, _, hq1_9⟩ := hq1_8
  obtain ⟨s13, h13, _, s14, h14, hq1_10⟩ := hq1_9
  obtain ⟨fin, s15, h15, _, s16, hq1_11⟩ := hq1_10
  obtain ⟨rfl, _, _⟩ := new_node_next h15
  obtain ⟨h16, _, s17, h17, h18⟩ := hq1_11
  cases h18
  exact op_for_core cfg cond_cfg hcfg hcond t s s' _ v0 v1 v2 g1 g2 v3 t4 g3 g4 k4 k2 h1 k1 k3
    is_ if_ s5 h5 cs ct cf s6 h6 ns nf s7 h7 s8 as afp s9 h9 h8 (by assumption) (by assumption) _
    s10 h10 _ s11 h11 _ s12 h12 _ s13 h13 _ s14 h14 s15 _ s16 h15 (by assumption) (by assumption)
    h16 _ h17

theorem create_cfg_finish_graph {t : Vertex} {flag : Bool} {r0 r : Node × Node} {s s' : CFG}
    (h : create_cfg_finish t flag r0 s = Except.ok (r, s')) :
    r = r0 ∧ s'.node_next = s.node_next ∧ s'.node_gen = s.node_gen := by
  simp only [create_cfg_finish, bind_ok_iff] at h
  obtain ⟨_, s1, h1, h2⟩ := h
  cases h2
  obtain ⟨e1, e2⟩ := add_subtree_next h1
  exact ⟨rfl, e1, e2⟩

/-- In the graph of a `for` loop every path from a node of the body or from the join node
to the start of the condition enters the start of the increment. -/
theorem for_path {s' : CFG} {lo g1 g2 g3 g4 g5 g6 cs ns : Nat} {if_ ct cf nf as afp : Node}
    {cont brk : List Node}
    (hc : Cen lo [(g1, g2), (g2, g3), (g3, g4), (g5, g6)]
      (for_edges if_ (some cs) ct cf (some ns) nf as afp (some g4) (some g6) cont brk) s')
    (h1 : lo ≤ g1) (h2 : g1 ≤ g2) (h3 : g2 ≤ g3) (h4 : g3 ≤ g4) (h5 : g5 = g4 + 1)
    (h6 : g5 ≤ g6) (hg : s'.node_gen = g6 + 1)
    (hif : NodeIn g1 g2 if_) (hct : NodeIn g2 g3 ct) (hnf : NodeIn g3 g4 nf)
    (hcs : g2 ≤ cs ∧ cs < g3) (c : Nat) (hcb : (g5 ≤ c ∧ c < g6) ∨ c = g4) :
    ¬ Relation.ReflTransGen (step_avoiding s' ns) c cs := by
  intro hp
  have key : ∀ x, Relation.ReflTransGen (step_avoiding s' ns) c x →
      (g5 ≤ x ∧ x < g6) ∨ x = g4 ∨ x = g6 := by
    intro x hx
    induction hx with
    | refl =>
      rcases hcb with q | q
      · exact Or.inl q
      · exact Or.inr (Or.inl q)
    | @tail a b _ hstep ih =>
      obtain ⟨hm, hne⟩ := hstep
      have ha : lo ≤ a ∧ a < s'.node_gen := by omega
      rcases hc a b ha.1 ha.2 hm with ⟨blk, hblk, b1, b2, b3, b4⟩ | hE
      · simp only [List.mem_cons, List.mem_singleton, List.not_mem_nil, or_false] at hblk
        rcases hblk with e | e | e | e <;> subst e <;> simp only at b1 b2 b3 b4 <;> omega
      · simp only [for_edges, List.mem_append, List.mem_cons, List.mem_singleton,
          List.not_mem_nil, or_false, Prod.mk.injEq, List.mem_map] at hE
        rcases hE with ((q | q | q | q | q | q) | ⟨y, _, q⟩) | ⟨y, _, q⟩
        · have := q.2
          simp only [Option.some.injEq] at this
          omega
        · have e := q.1
          rw [← e] at hif
          simp only [NodeIn, node_code_some] at hif
          omega
        · have e := q.1
          rw [← e] at hct
          simp only [NodeIn, node_code_some] at hct
          omega
        · have := q.2
          simp only [Option.some.injEq] at this
          exact absurd this hne
        · have e := q.1
          rw [← e] at hnf
          simp only [NodeIn, node_code_some] at hnf
          omega
        · have := q.2
          simp only [Option.some.injEq] at this
          omega
        · have := q.2
          simp only [Option.some.injEq] at this
          omega
        · have := q.2
          simp only [Option.some.injEq] at this
          omega
  have := key cs hp
  omega

theorem last_grows {g G : Nat} {old new : List (List Node)} (h : FramesExt g G 0 old new)
    {f : List Node} (hf : old.getLast? = some f) :
    ∃ ext, new.getLast? = some (f ++ ext) ∧ ∀ x ∈ ext, NodeIn g G x := by
  obtain ⟨h1, h2, _⟩ := h
  rw [List.getLast?_eq_getElem?] at hf
  obtain ⟨ext, e1, e2⟩ := h2 _ f hf
  refine ⟨ext, ?_, e2⟩
  rw [List.getLast?_eq_getElem?]
  have : new.length = old.length := by omega
  rw [this]
  exact e1

/-- A `continue` of level 1 that is built while the stack of continue frames is not
empty: the builder succeeds, creates one node without successors, returns it as start
with the null finish, and appends it to the innermost frame. -/
theorem continue_level_one (fuel : Nat) (v lvl : Vertex) (w ww : Bool) (σ : CFG)
    (hv : v.type = Operation.op_continue) (hl : v.sons.get? 0 = some lvl)
    (ha : atoi lvl.get_string = 1) (hd : 1 ≤ σ.continue_nodes.length) :
    ∃ σ', create_cfg (fuel + 1) v w ww σ = Except.ok ((some σ.node_gen, none), σ') ∧
      σ'.continue_nodes =
        push_at σ.continue_nodes (σ.continue_nodes.length - 1) (some σ.node_gen) ∧
      σ'.break_nodes = σ.break_nodes ∧ σ'.node_gen = σ.node_gen + 1 ∧
      σ'.node_next σ.node_gen = [] := by
  have h1 : son v 0 σ = Except.ok (lvl, σ) := by
    unfold son
    rw [hl]
    rfl
  obtain ⟨σ1, hn⟩ : ∃ σ1, new_node σ = Except.ok (some σ.node_gen, σ1) := ⟨_, rfl⟩
  have f1 := framesSame_new_node.run _ _ _ hn
  obtain ⟨_, n1, n2⟩ := new_node_next hn
  have h3 := create_cfg_add_continue_node_ok σ1 (some σ.node_gen) 1 (le_refl _)
    (by rw [f1.2.1]; exact hd)
  refine ⟨{ σ1 with
      continue_nodes := push_at σ1.continue_nodes (σ1.continue_nodes.length - 1) (some σ.node_gen)
      node_subtrees := upd σ1.node_subtrees σ.node_gen
        (σ1.node_subtrees σ.node_gen ++ [new_subtree v true]) }, ?_, ?_, ?_, ?_, ?_⟩
  · unfold create_cfg
    simp only [hv, create_cfg_op_continue, create_cfg_finish, bind_run, h1, hn, ha]
    have h3' : create_cfg_add_continue_node (some σ.node_gen) 1 σ1 = _ := h3
    rw [h3']
    rfl
  · show push_at σ1.continue_nodes (σ1.continue_nodes.length - 1) _ = _
    rw [f1.2.1]
  · show σ1.break_nodes = _
    exact f1.1
  · show σ1.node_gen = _
    exact n2
  · show σ1.node_next _ = _
    rw [n1, upd_same]

/-- A `break` of level 1 that is built while the stack of break frames is not empty:
the builder succeeds, creates one node without successors, returns it as start with the
null finish, and appends it to the innermost frame. -/
theorem break_level_one (fuel : Nat) (v lvl : Vertex) (w ww : Bool) (σ : CFG)
    (hv : v.type = Operation.op_break) (hl : v.sons.get? 0 = some lvl)
    (ha : atoi lvl.get_string = 1) (hd : 1 ≤ σ.break_nodes.length) :
    ∃ σ', create_cfg (fuel + 1) v w ww σ = Except.ok ((some σ.node_gen, none), σ') ∧
      σ'.break_nodes =
        push_at σ.break_nodes (σ.break_nodes.length - 1) (some σ.node_gen) ∧
      σ'.continue_nodes = σ.continue_nodes ∧ σ'.node_gen = σ.node_gen + 1 ∧
      σ'.node_next σ.node_gen = [] := by
  have h1 : son v 0 σ = Except.ok (lvl, σ) := by
    unfold son
    rw [hl]
    rfl
  obtain ⟨σ1, hn⟩ : ∃ σ1, new_node σ = Except.ok (some σ.node_gen, σ1) := ⟨_, rfl⟩
  have f1 := framesSame_new_node.run _ _ _ hn
  obtain ⟨_, n1, n2⟩ := new_node_next hn
  have h3 := create_cfg_add_break_node_ok σ1 (some σ.node_gen) 1 (le_refl _)
    (by rw [f1.1]; exact hd)
  refine ⟨{ σ1 with
      break_nodes := push_at σ1.break_nodes (σ1.break_nodes.length - 1) (some σ.node_gen)
      node_subtrees := upd σ1.node_subtrees σ.node_gen
        (σ1.node_subtrees σ.node_gen ++ [new_subtree v true]) }, ?_, ?_, ?_, ?_, ?_⟩
  · unfold create_cfg
    simp only [hv, create_cfg_op_break, create_cfg_finish, bind_run, h1, hn, ha]
    have h3' : create_cfg_add_break_node (some σ.node_gen) 1 σ1 = _ := h3
    rw [h3']
    rfl
  · show push_at σ1.break_nodes (σ1.break_nodes.length - 1) _ = _
    rw [f1.1]
  · show σ1.continue_nodes = _
    exact f1.2.1
  · show σ1.node_gen = _
    exact n2
  · show σ1.node_next _ = _
    rw [n1, upd_same]

theorem enter_cycle_lengths {s s1 : CFG} (h : create_cfg_enter_cycle s = Except.ok ((), s1)) :
    s1.continue_nodes = s.continue_nodes ++ [[]] ∧ s1.break_nodes = s.break_nodes ++ [[]] ∧
    s1.node_gen = s.node_gen := by
  cases h
  exact ⟨rfl, rfl, rfl⟩

/-- The innermost frames after four graphs built one after the other, with one new node
between the third and the fourth: the entries that were added lie in the node ranges of
the graphs. -/
theorem frames_of_builds {s1 s2 s3 s4 s5 s6 : CFG}
    (m2 : Mid s1.node_gen 0 0 s1 s2) (m3 : Mid s2.node_gen 0 0 s2 s3)
    (m4 : Mid s3.node_gen 0 0 s3 s4) (h5 : new_node s4 = Except.ok (some s4.node_gen, s5))
    (m6 : Mid s5.node_gen 0 0 s5 s6)
    (hc : s1.continue_nodes.getLast? = some []) (hb : s1.break_nodes.getLast? = some []) :
    ∃ cont brk, s6.continue_nodes.getLast? = some cont ∧ s6.break_nodes.getLast? = some brk ∧
      (∀ x ∈ cont ++ brk, NodeIn s1.node_gen s4.node_gen x ∨ NodeIn s5.node_gen s6.node_gen x) ∧
      s5.continue_nodes.length = s1.continue_nodes.length ∧
      s5.break_nodes.length = s1.break_nodes.length := by
  obtain ⟨f1, f2, _⟩ := framesSame_new_node.run _ _ _ h5
  obtain ⟨c2, a2, b2⟩ := last_grows m2.cont hc
  obtain ⟨c3, a3, b3⟩ := last_grows m3.cont a2
  obtain ⟨c4, a4, b4⟩ := last_grows m4.cont a3
  rw [← f2] at a4
  obtain ⟨c6, a6, b6⟩ := last_grows m6.cont a4
  obtain ⟨d2, p2, q2⟩ := last_grows m2.brk hb
  obtain ⟨d3, p3, q3⟩ := last_grows m3.brk p2
  obtain ⟨d4, p4, q4⟩ := last_grows m4.brk p3
  rw [← f1] at p4
  obtain ⟨d6, p6, q6⟩ := last_grows m6.brk p4
  have l2 := m2.le
  have l3 := m3.le
  have l4 := m4.le
  refine ⟨_, _, a6, p6, ?_, ?_, ?_⟩
  · intro x hx
    simp only [List.mem_append, List.not_mem_nil, false_or] at hx
    rcases hx with (((hx | hx) | hx) | hx) | (((hx | hx) | hx) | hx)
    · have := b2 x hx
      left
      unfold NodeIn at *
      omega
    · have := b3 x hx
      left
      unfold NodeIn at *
      omega
    · have := b4 x hx
      left
      unfold NodeIn at *
      omega
    · exact Or.inr (b6 x hx)
    · have := q2 x hx
      left
      unfold NodeIn at *
      omega
    · have := q3 x hx
      left
      unfold NodeIn at *
      omega
    · have := q4 x hx
      left
      unfold NodeIn at *
      omega
    · exact Or.inr (q6 x hx)
  · rw [f2, m4.cont.1, m3.cont.1, m2.cont.1]
    rfl
  · rw [f1, m4.brk.1, m3.brk.1, m2.brk.1]
    rfl

/-- C32: for-loop wiring and continue target.  The builder of a `for` vertex pushes one
frame on both loop stacks, builds the graphs of the initialisation, of the condition and
of the increment, creates the join node, builds the graph of the body and creates the
finish node.  In the resulting graph the finish of the initialisation has an edge to the
start of the condition, the true exit of the condition to the start of the body, the
finish of the body to the join node, the finish of the increment to the start of the
condition and the false exit of the condition to the finish of the loop, which the
builder returns; the only successor of the join node is the start of the increment.
Every node of the innermost frame of continue nodes after the body has an edge to the
join node and every node of the innermost frame of break nodes has an edge to the finish
of the loop; a `continue` or `break` of level 1 that is built at the stack depth of the
body succeeds and appends its node to that innermost frame.  No path from a node of the
body or from the join node reaches the start of the condition without entering the start
of the increment. -/
theorem for_loop_wiring (fuel : Nat) (t : Vertex) (w ww : Bool) (s s' : CFG) (r : Node × Node)
    (ht : t.type = Operation.op_for)
    (h : create_cfg (fuel + 1) t w ww s = Except.ok (r, s')) :
    ∃ pre cond post cmd s1 is_ if_ s2 cs ct cf s3 ns nf s4 s5 as afp s6 cont brk,
      t.sons.get? 0 = some pre ∧ t.sons.get? 1 = some cond ∧ t.sons.get? 2 = some post ∧
      t.sons.get? 3 = some cmd ∧
      create_cfg_enter_cycle s = Except.ok ((), s1) ∧
      create_cfg fuel pre false false s1 = Except.ok ((is_, if_), s2) ∧
      create_condition_cfg fuel cond s2 = Except.ok ((some cs, some ct, some cf), s3) ∧
      create_cfg fuel post false false s3 = Except.ok ((some ns, nf), s4) ∧
      new_node s4 = Except.ok (some s4.node_gen, s5) ∧
      create_cfg fuel cmd false false s5 = Except.ok ((some as, afp), s6) ∧
      r = (is_, some s6.node_gen) ∧
      s5.continue_nodes.length = s.continue_nodes.length + 1 ∧
      s5.break_nodes.length = s.break_nodes.length + 1 ∧
      s6.continue_nodes.getLast? = some cont ∧ s6.break_nodes.getLast? = some brk ∧
      has_edge s' if_ (some cs) ∧ as ∈ s'.node_next ct ∧
      has_edge s' afp (some s4.node_gen) ∧
      (∀ m, m ∈ s'.node_next s4.node_gen ↔ m = ns) ∧
      has_edge s' nf (some cs) ∧ s6.node_gen ∈ s'.node_next cf ∧
      (∀ x ∈ cont, has_edge s' x (some s4.node_gen)) ∧
      (∀ x ∈ brk, has_edge s' x (some s6.node_gen)) ∧
      (∀ c, (s5.node_gen ≤ c ∧ c < s6.node_gen) ∨ c = s4.node_gen →
        ¬ Relation.ReflTransGen (step_avoiding s' ns) c cs) ∧
      (∀ (f : Nat) (v lvl : Vertex) (w1 ww1 : Bool) (σ : CFG),
        v.type = Operation.op_continue → v.sons.get? 0 = some lvl → atoi lvl.get_string = 1 →
        σ.continue_nodes.length = s5.continue_nodes.length →
        ∃ σ', create_cfg (f + 1) v w1 ww1 σ = Except.ok ((some σ.node_gen, none), σ') ∧
          σ'.continue_nodes =
            push_at σ.continue_nodes s.continue_nodes.length (some σ.node_gen)) ∧
      (∀ (f : Nat) (v lvl : Vertex) (w1 ww1 : Bool) (σ : CFG),
        v.type = Operation.op_break → v.sons.get? 0 = some lvl → atoi lvl.get_string = 1 →
        σ.break_nodes.length = s5.break_nodes.length →
        ∃ σ', create_cfg (f + 1) v w1 ww1 σ = Except.ok ((some σ.node_gen, none), σ') ∧
          σ'.break_nodes = push_at σ.break_nodes s.break_nodes.length (some σ.node_gen)) := by
  unfold create_cfg at h
  rw [ht] at h
  obtain ⟨r0, s0, h1, h2⟩ := bind_ok_iff.mp h
  obtain ⟨rfl, n1, n2⟩ := create_cfg_finish_graph h2
  have hcfg : CfgOk fun v => create_cfg fuel v false false :=
    cfgOk_of_cfgOk3 (built_all fuel).1 false false
  obtain ⟨pre, cond, post, cmd, s1, is_, if_, s2, cs, ct, cf, s3, ns, nf, s4, s5, as, afp, s6,
    cont, brk, g1, g2, g3, g4, k1, k2, k3, k4, k5, k6, er, eg, e1, e5, fc, fb, hx, hc⟩ :=
    op_for_spec _ _ hcfg (built_all fuel).2 t s r s0 h1
  obtain ⟨m2, is1, is2, if1, l2⟩ := built_elim (hcfg _ _ _ _ k2)
  obtain ⟨m3, cs1, cs2, ct1, cf1, l3⟩ := builtCond_elim ((built_all fuel).2 _ _ _ _ k3)
  obtain ⟨m4, ns1, ns2, nf1, l4⟩ := built_elim (hcfg _ _ _ _ k4)
  obtain ⟨m6, as1, as2, afp1, l6⟩ := built_elim (hcfg _ _ _ _ k6)
  obtain ⟨csn, rfl, cs3⟩ := node_code_pos cs1
  obtain ⟨nsn, rfl, ns3⟩ := node_code_pos ns1
  obtain ⟨asn, rfl, as3⟩ := node_code_pos as1
  obtain ⟨ctn, cfn, ect, ecf, _, _, _⟩ := cond_exits fuel cond s2 _ s3 k3
  simp only at ect ecf
  subst ect
  subst ecf
  obtain ⟨en1, en2, _⟩ := enter_cycle_lengths k1
  obtain ⟨cont', brk', fc', fb', hfr, d1, d2⟩ := frames_of_builds m2 m3 m4 k5 m6
    (by rw [en1]; simp) (by rw [en2]; simp)
  rw [fc] at fc'
  rw [fb] at fb'
  cases fc'
  cases fb'
  simp only [node_code_some] at *
  have hx' : Has (for_edges if_ (some csn) (some ctn) (some cfn) (some nsn) nf (some asn) afp
      (some s4.node_gen) (some s6.node_gen) cont brk) s' := has_frames hx n2 n1
  have hc' := cen_same hc n2 n1
  have hd1 : s5.continue_nodes.length = s.continue_nodes.length + 1 := by
    rw [d1, en1]
    simp
  have hd2 : s5.break_nodes.length = s.break_nodes.length + 1 := by
    rw [d2, en2]
    simp
  have hmem : ∀ p, p ∈ for_edges if_ (some csn) (some ctn) (some cfn) (some nsn) nf (some asn)
      afp (some s4.node_gen) (some s6.node_gen) cont brk → has_edge s' p.1 p.2 :=
    fun p hp => has_edge_of_has hx' p.1 p.2 hp
  refine ⟨pre, cond, post, cmd, s1, is_, if_, s2, csn, ctn, cfn, s3, nsn, nf, s4, s5, asn, afp,
    s6, cont, brk, g1, g2, g3, g4, k1, k2, k3, k4, k5, k6, er, hd1, hd2, fc, fb,
    hmem (if_, some csn) (by simp [for_edges]),
    hmem (some ctn, some asn) (by simp [for_edges]) ctn asn rfl rfl,
    hmem (afp, some s4.node_gen) (by simp [for_edges]), ?_,
    hmem (nf, some csn) (by simp [for_edges]),
    hmem (some cfn, some s6.node_gen) (by simp [for_edges]) cfn _ rfl rfl,
    fun x hx => hmem (x, some s4.node_gen) (by simp [for_edges, hx]),
    fun x hx => hmem (x, some s6.node_gen) (by simp [for_edges, hx]), ?_, ?_, ?_⟩

  · intro m
    constructor
    · intro hm
      have hlo : s.node_gen ≤ s4.node_gen := by omega
      rcases hc' s4.node_gen m hlo (by omega) hm with ⟨blk, hblk, b1, b2, b3, b4⟩ | hE
      · simp only [List.mem_cons, List.mem_singleton, List.not_mem_nil, or_false] at hblk
        rcases hblk with e | e | e | e <;> subst e <;> simp only at b1 b2 b3 b4 <;> omega
      · simp only [for_edges, List.mem_append, List.mem_cons, List.mem_singleton,
          List.not_mem_nil, or_false, Prod.mk.injEq, List.mem_map] at hE
        rcases hE with ((q | q | q | q | q | q) | ⟨y, hy, q⟩) | ⟨y, hy, q⟩
        · have e := q.1
          rw [← e] at afp1
          simp only [NodeIn, node_code_some] at afp1
          omega
        · have e := q.1
          rw [← e] at if1
          simp only [NodeIn, node_code_some] at if1
          omega
        · have e := q.1
          simp only [Option.some.injEq] at e
          simp only [NodeIn, node_code_some] at ct1
          omega
        · have e := q.2
          simp only [Option.some.injEq] at e
          exact e
        · have e := q.1
          rw [← e] at nf1
          simp only [NodeIn, node_code_some] at nf1
          omega
        · have e := q.1
          simp only [Option.some.injEq] at e
          simp only [NodeIn, node_code_some] at cf1
          omega
        · have e := hfr y (List.mem_append_left _ hy)
          rw [q.1] at e
          simp only [NodeIn, node_code_some] at e
          omega
        · have e := hfr y (List.mem_append_right _ hy)
          rw [q.1] at e
          simp only [NodeIn, node_code_some] at e
          omega
    · intro e
      rw [e]
      exact hmem (some s4.node_gen, some nsn) (by simp [for_edges]) _ _ rfl rfl
  · intro c hcb
    exact for_path hc' (by omega) l2 l3 l4 e5 l6 (by omega) if1 ct1 nf1 ⟨cs3, by omega⟩ c hcb
  · intro f v lvl w1 ww1 σ hv hl ha hσ
    obtain ⟨σ', r1, r2, _⟩ := continue_level_one f v lvl w1 ww1 σ hv hl ha (by omega)
    refine ⟨σ', r1, ?_⟩
    rw [r2]
    congr 1
    omega
  · intro f v lvl w1 ww1 σ hv hl ha hσ
    obtain ⟨σ', r1, r2, _⟩ := break_level_one f v lvl w1 ww1 σ hv hl ha (by omega)
    refine ⟨σ', r1, ?_⟩
    rw [r2]
    congr 1
    omega

/-- Witness of C32: the graph of `sample_for_continue` built from the empty state. -/
theorem for_loop_wiring_witness :
    sample_for_continue.type = Operation.op_for ∧
    run_ok (create_cfg 10 sample_for_continue false false {}) = true ∧
    ∃ (join ns cs fin : Nat) (cont brk : List Node),
      (∀ m, m ∈ (state_after (create_cfg 10 sample_for_continue false false {})).node_next join ↔
        m = ns) ∧
      (∀ x ∈ cont,
        has_edge (state_after (create_cfg 10 sample_for_continue false false {})) x (some join)) ∧
      (∀ x ∈ brk,
        has_edge (state_after (create_cfg 10 sample_for_continue false false {})) x (some fin)) ∧
      ¬ Relation.ReflTransGen
        (step_avoiding (state_after (create_cfg 10 sample_for_continue false false {})) ns)
        join cs := by
  have hok : run_ok (create_cfg 10 sample_for_continue false false {}) = true := by decide!
  have H := for_loop_wiring 9 sample_for_continue false false {} _ _ rfl (run_eq_of_ok _ hok)
  refine ⟨rfl, hok, ?_⟩
  revert H
  generalize state_after (create_cfg 10 sample_for_continue false false {}) = S
  intro H
  obtain ⟨pre, cond, post, cmd, s1, hq1_1⟩ := H
  obtain ⟨is_, if_, s2, cs, ct, hq1_2⟩ := hq1_1
  obtain ⟨cf, s3, ns, nf, s4, hq1_3⟩ := hq1_2
  obtain ⟨s5, as, afp, s6, cont, hq1_4⟩ := hq1_3
  obtain ⟨brk, _, _, _, _, hq1_5⟩ := hq1_4
  obtain ⟨_, _, _, _, _, hq1_6⟩ := hq1_5
  obtain ⟨_, _, _, _, _, hq1_7⟩ := hq1_6
  obtain ⟨_, _, _, _, w1, hq1_8⟩ := hq1_7
  obtain ⟨_, _, w2, w3, w4, _⟩ := hq1_8
  exact ⟨s4.node_gen, ns, cs, s6.node_gen, cont, brk, w1, w2, w3, w4 _ (Or.inr rfl)⟩

theorem depthSame_rel : StepRel DepthSame :=
  ⟨fun _ => ⟨rfl, rfl⟩, fun h1 h2 => ⟨h2.1.trans h1.1, h2.2.trans h1.2⟩⟩

theorem depthSame_of_frames {s s' : CFG} (h : FramesSame s s') : DepthSame s s' :=
  ⟨by rw [h.2.1], by rw [h.1]⟩

theorem depthSame_of_mid {g : Nat} {s s' : CFG} (h : Mid g 0 0 s s') : DepthSame s s' :=
  ⟨h.cont.1, h.brk.1⟩

theorem depthSame_of_nodeData {g : Nat} {s s' : CFG} (h : NodeData g s s') : DepthSame s s' := by
  obtain ⟨_, _, _, h1, h2, _⟩ := h
  exact ⟨by rw [h2], by rw [h1]⟩

/-- The loop over the clauses of a switch keeps the depth of both loop stacks, and the
body of every clause is built in a state whose loop stacks are as deep as at the start
of the loop. -/
theorem switch_loop_depth (cfg : Vertex → M (Node × Node)) (hcfg : CfgOk cfg)
    (l : List Vertex) :
    ∀ {s s' : CFG} {st st' : SwitchLoop},
    create_cfg_switch_loop cfg l st s = Except.ok (st', s') →
    DepthSame s s' ∧
    ∀ clause ∈ l, ∃ cmd sb rb sb', clause_body clause cmd ∧
      cfg cmd sb = Except.ok (rb, sb') ∧ DepthSame s sb := by
  induction l with
  | nil =>
    intro s s' st st' hr
    cases hr
    exact ⟨depthSame_rel.refl _, fun c hc => by cases hc⟩
  | cons i rest ih =>
    intro s s' st st' hr
    unfold create_cfg_switch_loop at hr
    have hr' := hr
    clear hr
    simp only [bind_ok_iff, Prod.exists, get_state_run, Except.ok.injEq, Prod.mk.injEq] at hr'
    obtain ⟨isd, cmd, s1, k1, bf, s2, ⟨rfl, rfl⟩, a, b, s3, k3, bt, s4, ⟨rfl, rfl⟩, _, s5, k5,
      k6⟩ := hr'
    obtain ⟨rfl, hclause⟩ := switch_clause_spec k1
    have d3 : DepthSame s1 s3 := depthSame_of_mid (hcfg _ _ _ _ k3).1
    have d5 : DepthSame s3 s5 := depthSame_of_frames ((framesSame_add_edge _ _).run _ _ _ k5)
    have hbody : clause_body i cmd := by
      rcases hclause with ⟨_, e1, e2⟩ | ⟨_, e1, e2⟩
      · exact Or.inl ⟨e1, e2⟩
      · exact Or.inr ⟨e1, e2⟩
    have hrest : ∃ s6, DepthSame s5 s6 ∧ ∃ st6, create_cfg_switch_loop cfg rest st6 s6 =
        Except.ok (st', s') := by
      by_cases hd : isd = true
      · rw [if_pos hd] at k6
        exact ⟨s5, depthSame_rel.refl _, _, k6⟩
      · rw [if_neg hd] at k6
        simp only [bind_ok_iff, Prod.exists, get_state_run, Except.ok.injEq, Prod.mk.injEq] at k6
        obtain ⟨ex, s6, k7, c, d, s7, k8, gd, s8, ⟨rfl, rfl⟩, _, s9, k9, _, s10, k10, k11⟩ := k6
        obtain ⟨rfl, _⟩ := son_get k7
        have d8 : DepthSame s6 s7 := depthSame_of_mid (hcfg _ _ _ _ k8).1
        have d9 := depthSame_of_frames ((framesSame_add_edge _ _).run _ _ _ k9)
        have d10 := depthSame_of_frames ((framesSame_add_edge _ _).run _ _ _ k10)
        exact ⟨s10, depthSame_rel.trans d8 (depthSame_rel.trans d9 d10), _, k11⟩
    obtain ⟨s6, d6, st6, k⟩ := hrest
    obtain ⟨dr, hr⟩ := ih k
    have d16 := depthSame_rel.trans d3 (depthSame_rel.trans d5 d6)
    refine ⟨depthSame_rel.trans d16 dr, fun clause hc => ?_⟩
    rcases List.mem_cons.mp hc with e | e
    · subst e
      exact ⟨cmd, s1, (a, b), s3, hbody, k3, depthSame_rel.refl _⟩
    · obtain ⟨cmd', sb, rb, sb', q1, q2, q3⟩ := hr clause e
      exact ⟨cmd', sb, rb, sb', q1, q2, depthSame_rel.trans d16 q3⟩

theorem getLast_concat {α : Type} {l : List α} {x : α} (h : l.getLast? = some x) :
    l = l.dropLast ++ [x] := by
  have hne : l ≠ [] := by
    intro e
    rw [e] at h
    cases h
  have := List.dropLast_append_getLast hne
  rw [List.getLast?_eq_getLast _ hne] at h
  cases h
  exact this.symm

/-- Leaving a loop frame: the innermost frames are wired to their targets and removed. -/
theorem exit_cycle_edges {cd bd : Node} {s s' : CFG}
    (hr : create_cfg_exit_cycle cd bd s = Except.ok ((), s')) :
    ∃ cont brk, s.continue_nodes.getLast? = some cont ∧ s.break_nodes.getLast? = some brk ∧
      s'.continue_nodes = s.continue_nodes.dropLast ∧
      s'.break_nodes = s.break_nodes.dropLast ∧
      ∀ a, s'.node_next a =
        s.node_next a ++ frame_targets cont cd a ++ frame_targets brk bd a := by
  cases e1 : s.continue_nodes.getLast? with
  | none =>
    unfold create_cfg_exit_cycle at hr
    simp only [bind_run, get_state_run] at hr
    rw [e1] at hr
    cases hr
  | some cont =>
    cases e2 : s.break_nodes.getLast? with
    | none =>
      unfold create_cfg_exit_cycle at hr
      simp only [bind_run, get_state_run] at hr
      rw [e1, e2] at hr
      cases hr
    | some brk =>
      obtain ⟨t, h1, h2, h3, h4⟩ := create_cfg_exit_cycle_run cd bd s _ cont _ brk
        (getLast_concat e1) (getLast_concat e2)
      rw [h1] at hr
      cases hr
      exact ⟨cont, brk, rfl, rfl, h2, h3, h4⟩

theorem frame_targets_mem {frame : List Node} {a m : Nat} (h : some a ∈ frame) :
    m ∈ frame_targets frame (some m) a := by
  unfold frame_targets
  simp only [List.mem_replicate, ne_eq, and_true]
  exact fun e => absurd (List.count_eq_zero.mp e) (not_not.mpr h)

theorem depthSame_add_edge {a b : Node} {s s' : CFG}
    (h : add_edge a b s = Except.ok ((), s')) : DepthSame s s' :=
  depthSame_of_frames ((framesSame_add_edge _ _).run _ _ _ h)

theorem depthSame_new_node {r : Node} {s s' : CFG}
    (h : new_node s = Except.ok (r, s')) : DepthSame s s' :=
  depthSame_of_frames (framesSame_new_node.run _ _ _ h)

/-- The frame of a switch: the rule pushes one frame on both loop stacks, builds the body
of every clause at that depth, and on leaving wires the innermost frames of continue
nodes and of break nodes to the finish node and removes them. -/
theorem op_switch_frames (cfg : Vertex → M (Node × Node)) (hcfg : CfgOk cfg)
    (t : Vertex) (s : CFG) (r : Node × Node) (s' : CFG)
    (hr : create_cfg_op_switch cfg t s = Except.ok (r, s')) :
    ∃ (fin : Nat) (s_end : CFG) (cont brk : List Node),
      r.2 = some fin ∧
      (∀ clause ∈ t.sons.drop 5, ∃ cmd sb rb sb', clause_body clause cmd ∧
        cfg cmd sb = Except.ok (rb, sb') ∧
        sb.continue_nodes.length = s.continue_nodes.length + 1 ∧
        sb.break_nodes.length = s.break_nodes.length + 1) ∧
      s_end.continue_nodes.getLast? = some cont ∧ s_end.break_nodes.getLast? = some brk ∧
      s_end.continue_nodes.length = s.continue_nodes.length + 1 ∧
      s_end.break_nodes.length = s.break_nodes.length + 1 ∧
      s'.continue_nodes = s_end.continue_nodes.dropLast ∧
      s'.break_nodes = s_end.break_nodes.dropLast ∧
      ∀ a, s'.node_next a =
        s_end.node_next a ++ frame_targets cont (some fin) a ++ frame_targets brk (some fin) a := by
  simp only [create_cfg_op_switch, bind_ok_iff, Prod.exists] at hr
  obtain ⟨_, s1, h1, ex, t1, hq1_1⟩ := hr
  obtain ⟨k1, _, s2, h2, cs, hq1_2⟩ := hq1_1
  obtain ⟨cf, s3, h3, vi, s4, hq1_3⟩ := hq1_2
  obtain ⟨h4, vr, s5, h5, _, hq1_4⟩ := hq1_3
  obtain ⟨s6, h6, _, s7, h7, hq1_5⟩ := hq1_4
  obtain ⟨st, s8, h8, fin, s9, hq1_6⟩ := hq1_5
  obtain ⟨h9, _, s10, h10, _, hq1_7⟩ := hq1_6
  obtain ⟨s11, h11, _, s12, h12, hq1_8⟩ := hq1_7
  obtain ⟨_, s13, h13, _, s14, hq1_9⟩ := hq1_8
  obtain ⟨h14, _, s15, h15, h16⟩ := hq1_9
  obtain ⟨en1, en2, _⟩ := enter_cycle_lengths h1
  have e2 : s2 = t1 := by
    by_cases hc : t.sons.length < 5
    · rw [if_pos hc] at h2
      cases h2
    · rw [if_neg hc] at h2
      cases h2
      rfl
  subst e2
  obtain rfl := son_ok k1
  have d3 : DepthSame s2 s3 := depthSame_of_mid (hcfg _ _ _ _ h3).1
  have d4 := depthSame_new_node h4
  have d5 := depthSame_new_node h5
  have d6 := depthSame_add_edge h6
  have d7 := depthSame_of_nodeData ((switch_vars_nodeData 0 vi vr (Nat.eq_zero_or_pos _)
    (Nat.eq_zero_or_pos _) _).run _ _ _ h7)
  obtain ⟨d8, hb⟩ := switch_loop_depth cfg hcfg _ h8
  have d9 := depthSame_new_node h9
  obtain ⟨rfl, _, _⟩ := new_node_next h9
  have d10 := depthSame_add_edge h10
  have d11 : DepthSame s10 s11 := by
    by_cases hc : (!st.was_default) = true
    · rw [if_pos hc] at h11
      exact depthSame_add_edge h11
    · rw [if_neg hc] at h11
      cases h11
      exact depthSame_rel.refl _
  have d12 : DepthSame s11 s12 := by
    by_cases hc : st.was_default = true
    · rw [if_pos hc] at h12
      exact depthSame_add_edge h12
    · rw [if_neg hc] at h12
      cases h12
      exact depthSame_rel.refl _
  have d13 := depthSame_add_edge h13
  have d14 := depthSame_of_nodeData ((add_subtrees_nodeData 0 cs (Nat.eq_zero_or_pos _) _).run
    _ _ _ h14)
  obtain ⟨cont, brk, q1, q2, q3, q4, q5⟩ := exit_cycle_edges h15
  cases h16
  have d27 : DepthSame s2 s7 :=
    depthSame_rel.trans d3 (depthSame_rel.trans d4 (depthSame_rel.trans d5
      (depthSame_rel.trans d6 d7)))
  have d814 : DepthSame s8 s14 :=
    depthSame_rel.trans d9 (depthSame_rel.trans d10 (depthSame_rel.trans d11
      (depthSame_rel.trans d12 (depthSame_rel.trans d13 d14))))
  have d214 := depthSame_rel.trans d27 (depthSame_rel.trans d8 d814)
  have l1 : s2.continue_nodes.length = s.continue_nodes.length + 1 := by
    rw [en1]
    simp
  have l2 : s2.break_nodes.length = s.break_nodes.length + 1 := by
    rw [en2]
    simp
  refine ⟨s8.node_gen, s14, cont, brk, rfl, fun clause hc => ?_, q1, q2,
    by rw [d214.1, l1], by rw [d214.2, l2], q3, q4, q5⟩
  obtain ⟨cmd, sb, rb, sb', b1, b2, b3⟩ := hb clause hc
  have := depthSame_rel.trans d27 b3
  exact ⟨cmd, sb, rb, sb', b1, b2, by rw [this.1, l1], by rw [this.2, l2]⟩

/-- A `continue` of level `N` that is built while the stack of continue frames has at
least `N` frames: the builder succeeds, creates one node, returns it as start with the
null finish, and appends it to the `N`-th frame counted from the innermost one. -/
theorem continue_level (fuel : Nat) (v lvl : Vertex) (w ww : Bool) (σ : CFG) (N : Nat)
    (hv : v.type = Operation.op_continue) (hl : v.sons.get? 0 = some lvl)
    (ha : atoi lvl.get_string = (N : Int)) (h1 : 1 ≤ N) (hd : N ≤ σ.continue_nodes.length) :
    ∃ σ', create_cfg (fuel + 1) v w ww σ = Except.ok ((some σ.node_gen, none), σ') ∧
      σ'.continue_nodes =
        push_at σ.continue_nodes (σ.continue_nodes.length - N) (some σ.node_gen) ∧
      σ'.break_nodes = σ.break_nodes := by
  have hs : son v 0 σ = Except.ok (lvl, σ) := by
    unfold son
    rw [hl]
    rfl
  obtain ⟨σ1, hn⟩ : ∃ σ1, new_node σ = Except.ok (some σ.node_gen, σ1) := ⟨_, rfl⟩
  have f1 := framesSame_new_node.run _ _ _ hn
  have h3 := create_cfg_add_continue_node_ok σ1 (some σ.node_gen) N h1
    (by rw [f1.2.1]; exact hd)
  refine ⟨{ σ1 with
      continue_nodes := push_at σ1.continue_nodes (σ1.continue_nodes.length - N) (some σ.node_gen)
      node_subtrees := upd σ1.node_subtrees σ.node_gen
        (σ1.node_subtrees σ.node_gen ++ [new_subtree v true]) }, ?_, ?_, ?_⟩
  · unfold create_cfg
    simp only [hv, create_cfg_op_continue, create_cfg_finish, bind_run, hs, hn, ha]
    rw [h3]
    rfl
  · show push_at σ1.continue_nodes (σ1.continue_nodes.length - N) _ = _
    rw [f1.2.1]
  · show σ1.break_nodes = _
    exact f1.1

/-- A `break` of level `N` that is built while the stack of break frames has at least
`N` frames: the builder succeeds, creates one node, returns it as start with the null
finish, and appends it to the `N`-th frame counted from the innermost one. -/
theorem break_level (fuel : Nat) (v lvl : Vertex) (w ww : Bool) (σ : CFG) (N : Nat)
    (hv : v.type = Operation.op_break) (hl : v.sons.get? 0 = some lvl)
    (ha : atoi lvl.get_string = (N : Int)) (h1 : 1 ≤ N) (hd : N ≤ σ.break_nodes.length) :
    ∃ σ', create_cfg (fuel + 1) v w ww σ = Except.ok ((some σ.node_gen, none), σ') ∧
      σ'.break_nodes =
        push_at σ.break_nodes (σ.break_nodes.length - N) (some σ.node_gen) ∧
      σ'.continue_nodes = σ.continue_nodes := by
  have hs : son v 0 σ = Except.ok (lvl, σ) := by
    unfold son
    rw [hl]
    rfl
  obtain ⟨σ1, hn⟩ : ∃ σ1, new_node σ = Except.ok (some σ.node_gen, σ1) := ⟨_, rfl⟩
  have f1 := framesSame_new_node.run _ _ _ hn
  have h3 := create_cfg_add_break_node_ok σ1 (some σ.node_gen) N h1
    (by rw [f1.1]; exact hd)
  refine ⟨{ σ1 with
      break_nodes := push_at σ1.break_nodes (σ1.break_nodes.length - N) (some σ.node_gen)
      node_subtrees := upd σ1.node_subtrees σ.node_gen
        (σ1.node_subtrees σ.node_gen ++ [new_subtree v true]) }, ?_, ?_, ?_⟩
  · unfold create_cfg
    simp only [hv, create_cfg_op_break, create_cfg_finish, bind_run, hs, hn, ha]
    rw [h3]
    rfl
  · show push_at σ1.break_nodes (σ1.break_nodes.length - N) _ = _
    rw [f1.1]
  · show σ1.continue_nodes = _
    exact f1.2.1

theorem create_cfg_finish_frames {t : Vertex} {flag : Bool} {r0 r : Node × Node} {s s' : CFG}
    (h : create_cfg_finish t flag r0 s = Except.ok (r, s')) : FramesSame s s' := by
  simp only [create_cfg_finish, bind_ok_iff] at h
  obtain ⟨_, s1, h1, h2⟩ := h
  cases h2
  cases hr : r0.1 with
  | none =>
    rw [hr] at h1
    cases h1
  | some n =>
    rw [hr] at h1
    cases h1
    exact ⟨rfl, rfl, rfl⟩

/-- C39: a switch is a loop frame for both break and continue.  The builder of a `switch`
vertex pushes one frame on both loop stacks: the body of every clause is built with both
stacks one deeper than at the entry of the switch.  When the switch is left, every node of
the innermost frame of continue nodes and every node of the innermost frame of break nodes
has an edge to the finish node of the switch, which the builder returns, and the two
frames are removed.  A `continue` or `break` of level `N` that is built at the stack
depth of the clause bodies succeeds and appends its node to the frame with index
`depth at entry + 1 - N`: for level 1 this is the frame of the switch, for level 2 it is
the innermost frame at the entry of the switch, the frame of the loop that directly
encloses the switch. -/
theorem switch_is_loop_frame (fuel : Nat) (t : Vertex) (w ww : Bool) (s s' : CFG)
    (r : Node × Node) (ht : t.type = Operation.op_switch)
    (h : create_cfg (fuel + 1) t w ww s = Except.ok (r, s')) :
    ∃ (fin : Nat) (s_end : CFG) (cont brk : List Node),
      r.2 = some fin ∧
      (∀ clause ∈ t.sons.drop 5, ∃ cmd sb rb sb', clause_body clause cmd ∧
        create_cfg fuel cmd false false sb = Except.ok (rb, sb') ∧
        sb.continue_nodes.length = s.continue_nodes.length + 1 ∧
        sb.break_nodes.length = s.break_nodes.length + 1) ∧
      s_end.continue_nodes.getLast? = some cont ∧ s_end.break_nodes.getLast? = some brk ∧
      s_end.continue_nodes.length = s.continue_nodes.length + 1 ∧
      s_end.break_nodes.length = s.break_nodes.length + 1 ∧
      s'.continue_nodes = s_end.continue_nodes.dropLast ∧
      s'.break_nodes = s_end.break_nodes.dropLast ∧
      (∀ x ∈ cont, has_edge s' x (some fin)) ∧ (∀ x ∈ brk, has_edge s' x (some fin)) ∧
      (∀ (f : Nat) (v lvl : Vertex) (w1 ww1 : Bool) (σ : CFG) (N : Nat),
        v.type = Operation.op_continue → v.sons.get? 0 = some lvl →
        atoi lvl.get_string = (N : Int) → 1 ≤ N → N ≤ s.continue_nodes.length + 1 →
        σ.continue_nodes.length = s.continue_nodes.length + 1 →
        ∃ σ', create_cfg (f + 1) v w1 ww1 σ = Except.ok ((some σ.node_gen, none), σ') ∧
          σ'.continue_nodes =
            push_at σ.continue_nodes (s.continue_nodes.length + 1 - N) (some σ.node_gen)) ∧
      (∀ (f : Nat) (v lvl : Vertex) (w1 ww1 : Bool) (σ : CFG) (N : Nat),
        v.type = Operation.op_break → v.sons.get? 0 = some lvl →
        atoi lvl.get_string = (N : Int) → 1 ≤ N → N ≤ s.break_nodes.length + 1 →
        σ.break_nodes.length = s.break_nodes.length + 1 →
        ∃ σ', create_cfg (f + 1) v w1 ww1 σ = Except.ok ((some σ.node_gen, none), σ') ∧
          σ'.break_nodes =
            push_at σ.break_nodes (s.break_nodes.length + 1 - N) (some σ.node_gen)) := by
  unfold create_cfg at h
  rw [ht] at h
  obtain ⟨r0, s0, h1, h2⟩ := bind_ok_iff.mp h
  obtain ⟨rfl, n1, n2⟩ := create_cfg_finish_graph h2
  obtain ⟨f1, f2, _⟩ := create_cfg_finish_frames h2
  have hcfg : CfgOk fun v => create_cfg fuel v false false :=
    cfgOk_of_cfgOk3 (built_all fuel).1 false false
  obtain ⟨fin, s_end, cont, brk, e1, hb, q1, q2, l1, l2, q3, q4, q5⟩ :=
    op_switch_frames _ hcfg t s r s0 h1
  refine ⟨fin, s_end, cont, brk, e1, hb, q1, q2, l1, l2, by rw [f2, q3], by rw [f1, q4],
    ?_, ?_, ?_, ?_⟩
  · intro x hx u m eu em
    cases em
    rw [eu] at hx
    rw [n1, q5]
    exact List.mem_append_left _ (List.mem_append_right _ (frame_targets_mem hx))
  · intro x hx u m eu em
    cases em
    rw [eu] at hx
    rw [n1, q5]
    exact List.mem_append_right _ (frame_targets_mem hx)
  · intro f v lvl w1 ww1 σ N hv hl ha hN1 hN2 hσ
    obtain ⟨σ', r1, r2, _⟩ := continue_level f v lvl w1 ww1 σ N hv hl ha hN1 (by omega)
    refine ⟨σ', r1, ?_⟩
    rw [r2, hσ]
  · intro f v lvl w1 ww1 σ N hv hl ha hN1 hN2 hσ
    obtain ⟨σ', r1, r2, _⟩ := break_level f v lvl w1 ww1 σ N hv hl ha hN1 (by omega)
    refine ⟨σ', r1, ?_⟩
    rw [r2, hσ]

/-- Witness of C39: the sample switch built inside one loop; the frame of the loop is
still on the stack after the switch. -/
theorem switch_is_loop_frame_witness :
    sample_switch_levels.type = Operation.op_switch ∧
    run_ok (create_cfg 6 sample_switch_levels false false sample_switch_levels_start) = true ∧
    ∃ (fin : Nat) (brk : List Node),
      ∀ x ∈ brk, has_edge (state_after (create_cfg 6 sample_switch_levels false false
        sample_switch_levels_start)) x (some fin) := by
  have hok : run_ok (create_cfg 6 sample_switch_levels false false
      sample_switch_levels_start) = true := by decide!
  have H := switch_is_loop_frame 5 sample_switch_levels false false sample_switch_levels_start
    _ _ rfl (run_eq_of_ok _ hok)
  refine ⟨rfl, hok, ?_⟩
  revert H
  generalize state_after (create_cfg 6 sample_switch_levels false false
    sample_switch_levels_start) = S
  intro H
  obtain ⟨fin, s_end, cont, brk, _, hq1_1⟩ := H
  obtain ⟨_, _, _, _, _, hq1_2⟩ := hq1_1
  obtain ⟨_, _, _, w2, _⟩ := hq1_2
  exact ⟨fin, brk, w2⟩

theorem pin_nil (s : CFG) : Pin s.node_gen [] [] s := by
  intro n m h1 h2 _
  omega

theorem pin_mono {lo : Nat} {B B' : List (Nat × Nat)} {E E' : List (Node × Node)} {s : CFG}
    (h : Pin lo B E s) (hB : ∀ b ∈ B, b ∈ B') (hE : ∀ p ∈ E, p ∈ E') : Pin lo B' E' s := by
  intro n m h1 h2 h3
  rcases h n m h1 h2 h3 with ⟨b, hb, r⟩ | q
  · exact Or.inl ⟨b, hB b hb, r⟩
  · exact Or.inr (hE _ q)

theorem pin_same {lo : Nat} {B : List (Nat × Nat)} {E : List (Node × Node)} {s s' : CFG}
    (h : Pin lo B E s) (h1 : s'.node_gen = s.node_gen) (h2 : s'.node_prev = s.node_prev) :
    Pin lo B E s' := by
  intro n m a b c
  rw [h1] at b
  rw [h2] at c
  exact h n m a b c

theorem pin_mid {lo : Nat} {B : List (Nat × Nat)} {E : List (Node × Node)} {s s' : CFG}
    (h : Pin lo B E s) (hm : Mid s.node_gen 0 0 s s') :
    Pin lo (B ++ [(s.node_gen, s'.node_gen)]) E s' := by
  intro n m a b c
  by_cases hn : n < s.node_gen
  · rw [hm.prev_below n hn] at c
    rcases h n m a hn c with ⟨x, hx, r⟩ | q
    · exact Or.inl ⟨x, List.mem_append_left _ hx, r⟩
    · exact Or.inr q
  · obtain ⟨q1, q2⟩ := hm.prev_local n m (by omega) b c
    exact Or.inl ⟨(s.node_gen, s'.node_gen), List.mem_append_right _ (List.mem_singleton.mpr rfl),
      by dsimp only; omega, b, q1, q2⟩

theorem new_node_prev {r : Node} {s s' : CFG} (h : new_node s = Except.ok (r, s')) :
    s'.node_prev = upd s.node_prev s.node_gen [] := by
  cases h
  rfl

theorem add_edge_prev {a b : Nat} {s s' : CFG}
    (h : add_edge (some a) (some b) s = Except.ok ((), s')) :
    s'.node_prev = upd s.node_prev b (s.node_prev b ++ [a]) := by
  cases h
  rfl

theorem pin_new_node {lo : Nat} {B : List (Nat × Nat)} {E : List (Node × Node)} {s s' : CFG}
    {r : Node} (h : Pin lo B E s) (hr : new_node s = Except.ok (r, s')) : Pin lo B E s' := by
  obtain ⟨_, _, g1⟩ := new_node_next hr
  have n1 := new_node_prev hr
  intro n m a b c
  rw [n1] at c
  by_cases hn : n = s.node_gen
  · subst hn
    rw [upd_same] at c
    cases c
  · rw [upd_other _ _ _ _ hn] at c
    exact h n m a (by omega) c

theorem pin_add_edge {lo : Nat} {B : List (Nat × Nat)} {E : List (Node × Node)} {s s' : CFG}
    {a b : Node} (h : Pin lo B E s) (hr : add_edge a b s = Except.ok ((), s')) :
    Pin lo B (E ++ [(a, b)]) s' ∧ s'.node_gen = s.node_gen := by
  cases a with
  | none =>
    cases hr
    exact ⟨pin_mono h (fun _ hb => hb) (fun _ hp => List.mem_append_left _ hp), rfl⟩
  | some x =>
    cases b with
    | none =>
      cases hr
      exact ⟨pin_mono h (fun _ hb => hb) (fun _ hp => List.mem_append_left _ hp), rfl⟩
    | some y =>
      obtain ⟨_, g1⟩ := add_edge_next hr
      have n1 := add_edge_prev hr
      refine ⟨?_, g1⟩
      intro n m p q c
      rw [g1] at q
      rw [n1] at c
      by_cases e : n = y
      · subst e
        rw [upd_same] at c
        rcases List.mem_append.mp c with c | c
        · rcases h n m p q c with r | r
          · exact Or.inl r
          · exact Or.inr (List.mem_append_left _ r)
        · rw [List.mem_singleton.mp c]
          exact Or.inr (List.mem_append_right _ (List.mem_singleton.mpr rfl))
      · rw [upd_other _ _ _ _ e] at c
        rcases h n m p q c with r | r
        · exact Or.inl r
        · exact Or.inr (List.mem_append_left _ r)

theorem pin_add_edges_from {lo : Nat} {B : List (Nat × Nat)} {b : Node} (l : List Node) :
    ∀ {E : List (Node × Node)} {s s' : CFG}, Pin lo B E s →
    add_edges_from l b s = Except.ok ((), s') →
    Pin lo B (E ++ l.map fun x => (x, b)) s' ∧ s'.node_gen = s.node_gen := by
  induction l with
  | nil =>
    intro E s s' h hr
    cases hr
    exact ⟨by simpa using h, rfl⟩
  | cons x l ih =>
    intro E s s' h hr
    unfold add_edges_from at hr
    obtain ⟨u, s1, h1, h2⟩ := bind_ok_iff.mp hr
    obtain ⟨c1, g1⟩ := pin_add_edge h h1
    obtain ⟨c2, g2⟩ := ih c1 h2
    refine ⟨?_, by omega⟩
    simpa using c2

theorem pin_nodeData {lo g : Nat} {B : List (Nat × Nat)} {E : List (Node × Node)} {s s' : CFG}
    (h : Pin lo B E s) (hd : NodeData g s s') : Pin lo B E s' :=
  pin_same h hd.1 hd.2.2.1

/-- Leaving a loop frame keeps the account of the incoming edges, extended by the edges
from the nodes of the two innermost frames. -/
theorem pin_exit_cycle {lo : Nat} {B : List (Nat × Nat)} {E : List (Node × Node)} {s s' : CFG}
    {cd bd : Node} {cont brk : List Node} (h : Pin lo B E s)
    (hc : s.continue_nodes.getLast? = some cont) (hb : s.break_nodes.getLast? = some brk)
    (hr : create_cfg_exit_cycle cd bd s = Except.ok ((), s')) :
    Pin lo B ((E ++ cont.map fun x => (x, cd)) ++ brk.map fun x => (x, bd)) s' := by
  unfold create_cfg_exit_cycle at hr
  simp only [bind_run, get_state_run] at hr
  rw [hc, hb] at hr
  have h2 : (add_edges_from cont cd >>= fun _ => add_edges_from brk bd >>= fun _ =>
      modify_state fun s => { s with continue_nodes := s.continue_nodes.dropLast,
                                     break_nodes := s.break_nodes.dropLast }) s =
      Except.ok ((), s') := hr
  simp only [bind_ok_iff] at h2
  obtain ⟨_, s3, h3, _, s4, h4, h5⟩ := h2
  obtain ⟨c3, _⟩ := pin_add_edges_from cont h h3
  obtain ⟨c4, _⟩ := pin_add_edges_from brk c3 h4
  cases h5
  exact pin_same c4 rfl rfl

theorem splitsKept_rel : StepRel SplitsKept :=
  ⟨fun _ => ⟨rfl, fun _ => rfl⟩, fun h1 h2 =>
    ⟨h2.1.trans h1.1, fun y => (h2.2 y).trans (h1.2 y)⟩⟩

theorem tracked_var_kept {s s' : CFG} (h : SplitsKept s s') (v : Vertex) :
    tracked_var s' v = tracked_var s v := by
  unfold tracked_var
  rw [h.1]
  cases s.data.get_var_id v with
  | none => rfl
  | some x => exact h.2 x

/-- What `new_usage` does: nothing when the variable has no split state, and otherwise
it stores a new usage at the address `usage_cnt` and records it in the split state. -/
theorem new_usage_full {ty : UsageType} {v : Vertex} {s sA : CFG} {u : UsagePtr}
    (h : new_usage ty v s = Except.ok (u, sA)) :
    ∃ x, s.data.get_var_id v = some x ∧
      ((get_var_split s x = none ∧ u = none ∧ sA = s) ∨
        (∃ vs ud, get_var_split s x = some vs ∧ u = some s.usage_cnt ∧
          ud.v = v ∧ ud.type = ty ∧
          sA.usage_cnt = s.usage_cnt + 1 ∧
          sA.usage_data = upd s.usage_data s.usage_cnt (some ud) ∧
          sA.node_usages = s.node_usages ∧ sA.data = s.data ∧
          ∀ y, (sA.var_split_data y).isSome = (s.var_split_data y).isSome)) := by
  unfold new_usage at h
  cases hx : s.data.get_var_id v with
  | none =>
    rw [hx] at h
    cases h
  | some x =>
    rw [hx] at h
    dsimp only at h
    refine ⟨x, rfl, ?_⟩
    cases hs : get_var_split s x with
    | none =>
      rw [hs] at h
      cases h
      exact Or.inl ⟨rfl, rfl, rfl⟩
    | some vs =>
      rw [hs] at h
      cases h
      refine Or.inr ⟨vs, _, rfl, rfl, rfl, rfl, rfl, rfl, rfl, rfl, fun y => ?_⟩
      show (upd s.var_split_data x _ y).isSome = _
      by_cases e : y = x
      · rw [e, upd_same]
        have : s.var_split_data x = some vs := hs
        rw [this]
        rfl
      · rw [upd_other _ _ _ _ e]

/-- What `add_usage` leaves alone. -/
theorem add_usage_rest {n : Node} {a : Nat} {s s' : CFG}
    (h : add_usage n (some a) s = Except.ok ((), s')) :
    s'.usage_cnt = s.usage_cnt ∧ s'.data = s.data ∧ s'.var_split_data = s.var_split_data := by
  unfold add_usage at h
  simp only [bind_ok_iff] at h
  obtain ⟨m, s2, k1, ub, s3, hq1_1⟩ := h
  obtain ⟨k2, s4, s5, k3, _, hq1_2⟩ := hq1_1
  obtain ⟨s6, k4, k5⟩ := hq1_2
  obtain ⟨e1, hn⟩ := node_id_ok k1
  rw [e1] at k2
  obtain ⟨e2, hub⟩ := usage_at_ok k2
  rw [e2] at k3
  cases k3
  have e6 : s6 = s := by
    cases hl : (s.node_usages m).getLast? with
    | none =>
      rw [hl] at k4
      cases k4
      rfl
    | some c =>
      rw [hl] at k4
      simp only [bind_ok_iff] at k4
      obtain ⟨uc, s7, q1, q2⟩ := k4
      have e7 : s7 = s := (usage_at_ok q1).1
      rw [e7] at q2
      unfold kphp_assert at q2
      split at q2
      · cases q2
        rfl
      · cases q2
  rw [e6] at k5
  cases k5
  exact ⟨rfl, rfl, rfl⟩

/-- Creating a `Write` usage of `v` and attaching it to node `W`: the usage, if the
variable is tracked, is appended to the usages of `W`; nothing else changes on the nodes. -/
theorem attach_write_spec {W : Nat} {v : Vertex} {s sA sB : CFG} {u : UsagePtr}
    (h1 : new_usage UsageType.usage_write_t v s = Except.ok (u, sA))
    (h2 : add_usage (some W) u sA = Except.ok ((), sB)) :
    sB.node_usages = upd s.node_usages W (s.node_usages W ++ u.toList) ∧
    (∀ a, u = some a → write_of sB a v) ∧
    (∀ a ud, s.usage_data a = some ud → a < s.usage_cnt → sB.usage_data a = some ud) ∧
    u.isSome = tracked_var s v ∧ SplitsKept s sB ∧ s.usage_cnt ≤ sB.usage_cnt ∧
    (∀ a, u = some a → a = s.usage_cnt ∧ sB.usage_cnt = s.usage_cnt + 1) := by
  obtain ⟨x, hx, hc⟩ := new_usage_full h1
  rcases hc with ⟨hs, e1, e2⟩ | ⟨vs, ud, hs, e1, ev, et, ec, ed, en, eda, esp⟩
  · subst e1
    subst e2
    cases h2
    refine ⟨?_, (fun a h => by cases h), (fun a ud h _ => h), ?_, ⟨rfl, fun _ => rfl⟩,
      Nat.le_refl _, (fun a h => by cases h)⟩
    · funext n
      by_cases e : n = W
      · rw [e, upd_same]
        simp
      · rw [upd_other _ _ _ _ e]
    · simp [tracked_var, hx, hs]
  · subst e1
    obtain ⟨m, ub, q1, q2, q3, q4⟩ := add_usage_ok h2
    obtain ⟨r1, r2, r3⟩ := add_usage_rest h2
    cases q1
    rw [ed, upd_same] at q2
    cases q2
    refine ⟨by rw [q3, en]; rfl, ?_, ?_, ?_, ⟨by rw [r2, eda], fun y => by
      rw [r3]; exact esp y⟩, by omega, ?_⟩
    · intro a ha
      cases ha
      have hq := congrFun q4 s.usage_cnt
      rw [upd_same] at hq
      exact ⟨_, hq, ev, et⟩
    · intro a ud' ha hlt
      rw [q4, upd_other _ _ _ _ (by omega), ed, upd_other _ _ _ _ (by omega)]
      exact ha
    · simp [tracked_var, hx, hs]
    · intro a ha
      cases ha
      exact ⟨rfl, by omega⟩

theorem write_of_keep {s s' : CFG} (h : KeepV s s') {a : Nat} {v : Vertex}
    (hw : write_of s a v) : write_of s' a v := by
  obtain ⟨ud, e1, e2, e3⟩ := hw
  obtain ⟨ud', q1, q2, q3⟩ := h a ud e1
  exact ⟨ud', q1, q2.trans e2, q3.trans e3⟩

theorem written_keep {s0 s1 s s' : CFG} {v : Vertex} {u : UsagePtr} (h : written s0 s v u)
    (hk : KeepV s s') (hs : SplitsKept s1 s0) : written s1 s' v u :=
  ⟨h.1.trans (tracked_var_kept hs v), fun a ha => write_of_keep hk (h.2 a ha)⟩

/-- One write of the iteration: a `Write` usage of `v` is created and attached to the
node `W`. -/
theorem write_step {W g : Nat} {v : Vertex} {s sA sB : CFG} {u : UsagePtr}
    (h1 : new_usage UsageType.usage_write_t v s = Except.ok (u, sA))
    (h2 : add_usage (some W) u sA = Except.ok ((), sB)) (hi : UInv s) (hg : g ≤ W) :
    sB.node_usages W = s.node_usages W ++ u.toList ∧ written s sB v u ∧
      SplitsKept s sB ∧ UInv sB ∧ KeepV s sB ∧ NodeData g s sB := by
  obtain ⟨a1, a2, _, a4, a5, _, _⟩ := attach_write_spec h1 h2
  have u1 := (uStep_new_usage _ _).run _ _ _ h1
  have u2 := (uStep_add_usage _ _).run _ _ _ h2
  obtain ⟨i2, k2, _⟩ := uStep_rel.trans u1 u2 hi
  have d1 := (new_usage_nodeData g _ _).run _ _ _ h1
  have d2 := (add_usage_nodeData g (some W) u (Or.inr (by
    simp only [node_code_some]
    omega))).run _ _ _ h2
  refine ⟨?_, ⟨a4, a2⟩, a5, i2, k2, (nodeData_rel g).trans d1 d2⟩
  rw [a1, upd_same]

/-- An optional write of the iteration, made under the condition `c` for son `i` of the
vertex `fp`. -/
theorem opt_write_step {c : Prop} [Decidable c] {fp : Vertex} {i W g : Nat} {s s' : CFG}
    (h : (if c then (son fp i >>= fun v => new_usage UsageType.usage_write_t v >>= fun u =>
        add_usage (some W) u) else pure ()) s = Except.ok ((), s'))
    (hi : UInv s) (hg : g ≤ W) :
    ∃ u : UsagePtr, s'.node_usages W = s.node_usages W ++ u.toList ∧
      (if c then ∃ v, fp.sons.get? i = some v ∧ written s s' v u else u = none) ∧
      SplitsKept s s' ∧ UInv s' ∧ KeepV s s' ∧ NodeData g s s' := by
  by_cases hc : c
  · rw [if_pos hc] at h
    obtain ⟨v, s1, k1, h⟩ := bind_ok_iff.mp h
    obtain ⟨u, s2, k2, k3⟩ := bind_ok_iff.mp h
    obtain ⟨rfl, gv⟩ := son_get k1
    obtain ⟨a1, a2, a3, a4, a5, a6⟩ := write_step k2 k3 hi hg
    refine ⟨u, a1, ?_, a3, a4, a5, a6⟩
    rw [if_pos hc]
    exact ⟨v, gv, a2⟩
  · rw [if_neg hc] at h
    cases h
    refine ⟨none, by simp, ?_, splitsKept_rel.refl _, hi, keepV_refl _, (nodeData_rel g).refl _⟩
    rw [if_neg hc]

theorem add_edge_usages {a b : Node} {s s' : CFG} (h : add_edge a b s = Except.ok ((), s')) :
    s'.node_usages = s.node_usages := by
  cases a with
  | none => cases h; rfl
  | some x =>
    cases b with
    | none => cases h; rfl
    | some y => cases h; rfl

theorem add_edges_from_usages {b : Node} (l : List Node) : ∀ {s s' : CFG},
    add_edges_from l b s = Except.ok ((), s') → s'.node_usages = s.node_usages := by
  induction l with
  | nil =>
    intro s s' h
    cases h
    rfl
  | cons x l ih =>
    intro s s' h
    unfold add_edges_from at h
    obtain ⟨_, s1, h1, h2⟩ := bind_ok_iff.mp h
    rw [ih h2, add_edge_usages h1]

theorem exit_cycle_usages {cd bd : Node} {s s' : CFG}
    (hr : create_cfg_exit_cycle cd bd s = Except.ok ((), s')) :
    s'.node_usages = s.node_usages := by
  unfold create_cfg_exit_cycle at hr
  simp only [bind_run, get_state_run] at hr
  cases hc : s.continue_nodes.getLast? with
  | none =>
    rw [hc] at hr
    cases hr
  | some cont =>
    cases hb : s.break_nodes.getLast? with
    | none =>
      rw [hc, hb] at hr
      cases hr
    | some brk =>
      rw [hc, hb] at hr
      have h2 : (add_edges_from cont cd >>= fun _ => add_edges_from brk bd >>= fun _ =>
          modify_state fun s => { s with continue_nodes := s.continue_nodes.dropLast,
                                         break_nodes := s.break_nodes.dropLast }) s =
          Except.ok ((), s') := hr
      simp only [bind_ok_iff] at h2
      obtain ⟨_, s3, h3, _, s4, h4, h5⟩ := h2
      cases h5
      show s4.node_usages = _
      rw [add_edges_from_usages brk h4, add_edges_from_usages cont h3]

theorem add_subtree_usages {a : Node} {st : SubTreeData} {s s' : CFG}
    (h : add_subtree a st s = Except.ok ((), s')) : s'.node_usages = s.node_usages := by
  cases a with
  | none => cases h
  | some n => cases h; rfl

theorem new_node_usages {r : Node} {s s' : CFG} (h : new_node s = Except.ok (r, s')) :
    s'.node_usages = upd s.node_usages s.node_gen [] := by
  cases h
  rfl

theorem create_cfg_splitsKept (fuel : Nat) (t : Vertex) (w ww : Bool) (s : CFG)
    (r : Node × Node) (s' : CFG) (h : create_cfg fuel t w ww s = Except.ok (r, s')) :
    SplitsKept s s' := by
  have g := create_cfg_stable gStep_stable fuel t w ww s r s' h
  refine ⟨g.2.1, fun y => ?_⟩
  have k := g.2.2.1 y
  have n := create_cfg_stable (splitNone_stable y) fuel t w ww s r s' h
  unfold SplitKeep at k
  unfold SplitNone at n
  cases e : s.var_split_data y with
  | none => rw [n e]
  | some z =>
    rw [e] at k
    exact k rfl

/-- The store of usages stays consistent along a step, and what was stored before an
earlier state is kept. -/
theorem ustep_next {s0 s s' : CFG} (h : UInv s ∧ KeepV s0 s) (u : UStep s s') :
    UInv s' ∧ KeepV s0 s' := by
  obtain ⟨i1, k1, _⟩ := u h.1
  exact ⟨i1, keepV_trans h.2 k1⟩

theorem splitsKept_enter_cycle {s s' : CFG}
    (h : create_cfg_enter_cycle s = Except.ok ((), s')) : SplitsKept s s' := by
  cases h
  exact ⟨rfl, fun _ => rfl⟩

theorem splitsKept_new_node {r : Node} {s s' : CFG} (h : new_node s = Except.ok (r, s')) :
    SplitsKept s s' := by
  cases h
  exact ⟨rfl, fun _ => rfl⟩

/-- The body of the proof of `op_foreach_spec`: the steps of the rule of `op_foreach` are
given one by one, with the nodes that `new_node` returns written out. -/
theorem op_foreach_core (fuel : Nat) (t : Vertex) (s s' : CFG) (hi : UInv s)
    (hcfg : CfgOk fun v => create_cfg fuel v false false) (w : Unit) (fp cmd xs : Vertex) (g1 : t.sons.get? 0 = some fp)
    (g2 : t.sons.get? 1 = some cmd) (x : Vertex) (t4 : CFG) (g3 : fp.sons.get? 0 = some xs) (g4 : fp.sons.get? 1 = some x)
    (k4 : son fp 1 t4 = Except.ok (x, t4)) (k2 : son t 1 t4 = Except.ok (cmd, t4))
    (h1 : create_cfg_enter_cycle s = Except.ok (w, t4)) (k1 : son t 0 t4 = Except.ok (fp, t4))
    (k3 : son fp 0 t4 = Except.ok (xs, t4)) (vs vf : Node) (s5 : CFG)
    (h5 : create_cfg fuel xs false false t4 = Except.ok ((vs, vf), s5)) (s6 : CFG) (u : UsagePtr) (s7 : CFG)
    (h7 : new_usage UsageType.usage_write_t x s6 = Except.ok (u, s7))
    (h6 : new_node s5 = Except.ok (some s5.node_gen, s6)) (left : s6.node_next = upd s5.node_next s5.node_gen [])
    (right : s6.node_gen = s5.node_gen + 1) (w_1 : Unit) (s8 : CFG)
    (h8 : add_usage (some s5.node_gen) u s7 = Except.ok (w_1, s8)) (w_2 : PUnit.{1}) (s9 : CFG)
    (h9 :
      (if (!x.ref_flag) = true then do
            let temp_var ← son fp 2
            let usage ← new_usage UsageType.usage_write_t temp_var
            add_usage (some s5.node_gen) usage
          else pure ())
          s8 =
        Except.ok (w_2, s9))
    (w_3 : PUnit.{1}) (s10 : CFG)
    (h10 :
      (if fp.sons.length > 3 then do
            let temp_var ← son fp 3
            let usage ← new_usage UsageType.usage_write_t temp_var
            add_usage (some s5.node_gen) usage
          else pure ())
          s9 =
        Except.ok (w_3, s10))
    (w_4 : Unit) (s11 : CFG) (h11 : add_subtree vs (new_subtree fp true) s10 = Except.ok (w_4, s11)) (s12 : CFG)
    (h12 : new_node s11 = Except.ok (some s11.node_gen, s12)) (left_1 : s12.node_next = upd s11.node_next s11.node_gen [])
    (right_1 : s12.node_gen = s11.node_gen + 1) (s13 : CFG) (w_5 : Unit) (s14 : CFG)
    (h13 : new_node s12 = Except.ok (some s12.node_gen, s13)) (left_2 : s13.node_next = upd s12.node_next s12.node_gen [])
    (right_2 : s13.node_gen = s12.node_gen + 1) (h14 : add_edge vf (some s12.node_gen) s13 = Except.ok (w_5, s14))
    (w_6 : Unit) (s15 : CFG) (h15 : add_edge (some s12.node_gen) (some s5.node_gen) s14 = Except.ok (w_6, s15))
    (w_7 : Unit) (s16 : CFG) (h16 : add_edge (some s12.node_gen) (some s11.node_gen) s15 = Except.ok (w_7, s16))
    (s17 : CFG) (h17 : new_node s16 = Except.ok (some s16.node_gen, s17))
    (left_3 : s17.node_next = upd s16.node_next s16.node_gen []) (right_3 : s17.node_gen = s16.node_gen + 1)
    (as afp : Node) (s18 : CFG) (h18 : create_cfg fuel cmd false false s17 = Except.ok ((as, afp), s18)) (w_8 : Unit)
    (s19 : CFG) (h19 : add_edge afp (some s16.node_gen) s18 = Except.ok (w_8, s19)) (w_9 : Unit) (s20 : CFG)
    (h20 : add_edge (some s5.node_gen) as s19 = Except.ok (w_9, s20)) (w_10 : Unit) (s21 : CFG)
    (h21 : add_edge (some s16.node_gen) (some s12.node_gen) s20 = Except.ok (w_10, s21)) (w_11 : Unit)
    (h22 : create_cfg_exit_cycle (some s16.node_gen) (some s11.node_gen) s21 = Except.ok (w_11, s')) :
    ∃ fp cmd xs x s1 vs_1 vf s2 s4 as afp s5 cont brk ux ut uk,
      t.sons.get? 0 = some fp ∧
        t.sons.get? 1 = some cmd ∧
          fp.sons.get? 0 = some xs ∧
            fp.sons.get? 1 = some x ∧
              create_cfg_enter_cycle s = Except.ok ((), s1) ∧
                create_cfg fuel xs false false s1 = Except.ok ((vs_1, vf), s2) ∧
                  create_cfg fuel cmd false false s4 = Except.ok ((as, afp), s5) ∧
                    s1.node_gen = s.node_gen ∧
                      s4.node_gen = s2.node_gen + 4 ∧
                        s'.node_gen = s5.node_gen ∧
                          (vs, some s11.node_gen) = (vs_1, some (s2.node_gen + 1)) ∧
                            s5.continue_nodes.getLast? = some cont ∧
                              s5.break_nodes.getLast? = some brk ∧
                                s'.node_usages s2.node_gen = Option.toList ux ++ Option.toList ut ++ Option.toList uk ∧
                                  written s s' x ux ∧
                                    ((!x.ref_flag) = true → ∃ tv, fp.sons.get? 2 = some tv ∧ written s s' tv ut) ∧
                                      (¬(!x.ref_flag) = true → ut = none) ∧
                                        (fp.sons.length > 3 → ∃ key, fp.sons.get? 3 = some key ∧ written s s' key uk) ∧
                                          (¬fp.sons.length > 3 → uk = none) ∧
                                            UInv s' ∧
                                              KeepV s s' ∧
                                                Has
                                                    (foreach_edges vf (some (s2.node_gen + 2)) (some s2.node_gen)
                                                      (some (s2.node_gen + 1)) as afp (some (s2.node_gen + 3)) cont brk)
                                                    s' ∧
                                                  Pin s.node_gen [(s1.node_gen, s2.node_gen), (s4.node_gen, s5.node_gen)]
                                                    (foreach_edges vf (some (s2.node_gen + 2)) (some s2.node_gen)
                                                      (some (s2.node_gen + 1)) as afp (some (s2.node_gen + 3)) cont brk)
                                                    s' := by
  obtain ⟨m1, e1⟩ := mid_enter_cycle (mid_refl _) h1
  have hs1 : t4.node_next = s.node_next := by
    cases h1
    rfl
  have hp1 : t4.node_prev = s.node_prev := by
    cases h1
    rfl
  have w1 : UInv t4 ∧ KeepV s t4 :=
    ustep_next ⟨hi, keepV_refl s⟩ ((stable_enter_cycle uStep_stable.base).run _ _ _ h1)
  have sk1 := splitsKept_enter_cycle h1
  have x1 : Has [] t4 := has_nil _
  have c1 : Cen s.node_gen [] [] t4 := cen_same (cen_nil s) e1 hs1
  have p1 : Pin s.node_gen [] [] t4 := pin_same (pin_nil s) e1 hp1
  have hb5 := hcfg _ _ _ _ h5
  obtain ⟨m5, vs1, vs2, vf1, l5, _⟩ := mid_built m1 hb5
  have x5 := has_mid x1 hb5.1
  have c5 := cen_mid c1 hb5.1
  have p5 := pin_mid p1 hb5.1
  have w5 := ustep_next w1 (create_cfg_stable uStep_stable _ _ _ _ _ _ _ h5)
  have sk5 := splitsKept_rel.trans sk1 (create_cfg_splitsKept _ _ _ _ _ _ _ h5)
  obtain ⟨m6, wn1, e6⟩ := mid_new_node m5 h6
  have x6 := has_new_node x5 h6
  have c6 := cen_new_node c5 h6
  have p6 := pin_new_node p5 h6
  have w6 := ustep_next w5 (uStep_new_node.run _ _ _ h6)
  have sk6 := splitsKept_rel.trans sk5 (splitsKept_new_node h6)
  have n6 : s6.node_usages s5.node_gen = [] := by
    rw [new_node_usages h6, upd_same]
  have hg : s.node_gen ≤ s5.node_gen := by omega
  obtain ⟨n8, wr8, sk8, i8, v8, d8⟩ := write_step h7 h8 w6.1 hg
  obtain ⟨ut, n9, wr9a, sk9, i9, v9, d9⟩ := opt_write_step h9 i8 hg
  obtain ⟨uk, n10, wr10a, sk10, i10, v10, d10⟩ := opt_write_step h10 i9 hg
  have d610 := (nodeData_rel s.node_gen).trans ((nodeData_rel s.node_gen).trans d8 d9) d10
  obtain ⟨m10, e10⟩ := mid_nodeData m6 d610
  have x10 := has_nodeData x6 d610
  have c10 := cen_same c6 d610.1 d610.2.1
  have p10 := pin_nodeData p6 d610
  have w10 : UInv s10 ∧ KeepV s10 s10 := ⟨i10, keepV_refl _⟩
  have d11 := (add_subtree_nodeData s.node_gen vs _ (by omega)).run _ _ _ h11
  obtain ⟨m11, e11⟩ := mid_nodeData m10 d11
  have x11 := has_nodeData x10 d11
  have c11 := cen_same c10 d11.1 d11.2.1
  have p11 := pin_nodeData p10 d11
  have w11 := ustep_next w10 ((uStep_stable.marker _ _).run _ _ _ h11)
  have n11 := add_subtree_usages h11
  obtain ⟨m12, fin1, e12⟩ := mid_new_node m11 h12
  have x12 := has_new_node x11 h12
  have c12 := cen_new_node c11 h12
  have p12 := pin_new_node p11 h12
  have w12 := ustep_next w11 (uStep_new_node.run _ _ _ h12)
  have n12 := new_node_usages h12
  obtain ⟨m13, cc1, e13⟩ := mid_new_node m12 h13
  have x13 := has_new_node x12 h13
  have c13 := cen_new_node c12 h13
  have p13 := pin_new_node p12 h13
  have w13 := ustep_next w12 (uStep_new_node.run _ _ _ h13)
  have n13 := new_node_usages h13
  have x14 := has_add_edge x13 (by omega) h14
  obtain ⟨c14, _⟩ := cen_add_edge c13 h14
  obtain ⟨p14, _⟩ := pin_add_edge p13 h14
  obtain ⟨m14, e14⟩ := mid_add_edge m13 (by omega) (by omega) h14
  have w14 := ustep_next w13 ((uStep_stable.edge _ _).run _ _ _ h14)
  have n14 := add_edge_usages h14
  have x15 := has_add_edge x14 (by omega) h15
  obtain ⟨c15, _⟩ := cen_add_edge c14 h15
  obtain ⟨p15, _⟩ := pin_add_edge p14 h15
  obtain ⟨m15, e15⟩ := mid_add_edge m14 (by omega) (by omega) h15
  have w15 := ustep_next w14 ((uStep_stable.edge _ _).run _ _ _ h15)
  have n15 := add_edge_usages h15
  have x16 := has_add_edge x15 (by omega) h16
  obtain ⟨c16, _⟩ := cen_add_edge c15 h16
  obtain ⟨p16, _⟩ := pin_add_edge p15 h16
  obtain ⟨m16, e16⟩ := mid_add_edge m15 (by omega) (by omega) h16
  have w16 := ustep_next w15 ((uStep_stable.edge _ _).run _ _ _ h16)
  have n16 := add_edge_usages h16
  obtain ⟨m17, af1, e17⟩ := mid_new_node m16 h17
  have x17 := has_new_node x16 h17
  have c17 := cen_new_node c16 h17
  have p17 := pin_new_node p16 h17
  have w17 := ustep_next w16 (uStep_new_node.run _ _ _ h17)
  have n17 := new_node_usages h17
  have hb18 := hcfg _ _ _ _ h18
  obtain ⟨m18, as1, as2, afp1, l18, _⟩ := mid_built m17 hb18
  have x18 := has_mid x17 hb18.1
  have c18 := cen_mid c17 hb18.1
  have p18 := pin_mid p17 hb18.1
  have w18 := ustep_next w17 (create_cfg_stable uStep_stable _ _ _ _ _ _ _ h18)
  have n18 := hb18.1.usages_below s5.node_gen (by omega)
  have x19 := has_add_edge x18 (by omega) h19
  obtain ⟨c19, _⟩ := cen_add_edge c18 h19
  obtain ⟨p19, _⟩ := pin_add_edge p18 h19
  obtain ⟨m19, e19⟩ := mid_add_edge m18 (by omega) (by omega) h19
  have w19 := ustep_next w18 ((uStep_stable.edge _ _).run _ _ _ h19)
  have n19 := add_edge_usages h19
  have x20 := has_add_edge x19 (by omega) h20
  obtain ⟨c20, _⟩ := cen_add_edge c19 h20
  obtain ⟨p20, _⟩ := pin_add_edge p19 h20
  obtain ⟨m20, e20⟩ := mid_add_edge m19 (by omega) (by omega) h20
  have w20 := ustep_next w19 ((uStep_stable.edge _ _).run _ _ _ h20)
  have n20 := add_edge_usages h20
  have x21 := has_add_edge x20 (by omega) h21
  obtain ⟨c21, _⟩ := cen_add_edge c20 h21
  obtain ⟨p21, _⟩ := pin_add_edge p20 h21
  obtain ⟨m21, e21⟩ := mid_add_edge m20 (by omega) (by omega) h21
  have w21 := ustep_next w20 ((uStep_stable.edge _ _).run _ _ _ h21)
  have n21 := add_edge_usages h21
  obtain ⟨cont, brk, f1, f2, f3, x22, c22⟩ := exit_cycle_spec m21 x21 c21 h22
  have p22 := pin_exit_cycle p21 f1 f2 h22
  have w22 := ustep_next w21 ((stable_exit_cycle uStep_stable.base _ _).run _ _ _ h22)
  have n22 := exit_cycle_usages h22
  have q1 : s21.continue_nodes = s18.continue_nodes ∧ s21.break_nodes = s18.break_nodes := by
    obtain ⟨a19, b19, _⟩ := (framesSame_add_edge _ _).run _ _ _ h19
    obtain ⟨a20, b20, _⟩ := (framesSame_add_edge _ _).run _ _ _ h20
    obtain ⟨a21, b21, _⟩ := (framesSame_add_edge _ _).run _ _ _ h21
    exact ⟨by rw [b21, b20, b19], by rw [a21, a20, a19]⟩
  have hW : s'.node_usages s5.node_gen = (u.toList ++ ut.toList) ++ uk.toList := by
    rw [n22, n21, n20, n19, n18, n17, upd_other _ _ _ _ (by omega), n16, n15, n14, n13,
      upd_other _ _ _ _ (by omega), n12, upd_other _ _ _ _ (by omega), n11, n10, n9, n8, n6]
    rfl
  have k10 : KeepV s10 s' := w22.2
  have k9 : KeepV s9 s' := keepV_trans v10 k10
  have k8 : KeepV s8 s' := keepV_trans v9 k9
  have k6 : KeepV s6 s' := keepV_trans v8 k8
  have sk68 := splitsKept_rel.trans sk6 sk8
  have sk69 := splitsKept_rel.trans sk68 sk9
  have hgen : s17.node_gen = s5.node_gen + 4 := by omega
  refine ⟨fp, cmd, xs, x, t4, vs, vf, s5, s17, as, afp, s18, cont, brk, u, ut, uk,
    g1, g2, g3, g4, h1, h5, h18, e1, hgen, by omega, by rw [e11, e10, e6],
    by rw [← q1.1]; exact f1, by rw [← q1.2]; exact f2, hW,
    written_keep wr8 k8 sk6, ?_, ?_, ?_, ?_, w22.1, keepV_trans w6.2 k6, ?_, ?_⟩
  · intro hc
    rw [if_pos hc] at wr9a
    obtain ⟨tv, gt, wt⟩ := wr9a
    exact ⟨tv, gt, written_keep wt k9 sk68⟩
  · intro hc
    rw [if_neg hc] at wr9a
    exact wr9a
  · intro hc
    rw [if_pos hc] at wr10a
    obtain ⟨tv, gt, wt⟩ := wr10a
    exact ⟨tv, gt, written_keep wt k10 sk69⟩
  · intro hc
    rw [if_neg hc] at wr10a
    exact wr10a
  · have e : s5.node_gen + 1 = s11.node_gen := by omega
    have e2 : s5.node_gen + 2 = s12.node_gen := by omega
    have e3 : s5.node_gen + 3 = s16.node_gen := by omega
    rw [e, e2, e3]
    exact has_mono x22 (by
      intro p hp
      simpa [foreach_edges] using hp)
  · have e : s5.node_gen + 1 = s11.node_gen := by omega
    have e2 : s5.node_gen + 2 = s12.node_gen := by omega
    have e3 : s5.node_gen + 3 = s16.node_gen := by omega
    rw [e, e2, e3]
    exact pin_mono p22 (by
      intro b hb
      simpa using hb) (by
      intro p hp
      simpa [foreach_edges] using hp)

/-- What the rule of `op_foreach` builds: the graph of the collection, the node of the
iteration writes with its usages, the finish node, the check node, the join node and the
graph of the body; the edges of `foreach_edges` and no other edge into a new node from
outside the node range of the graph that holds the node. -/
theorem op_foreach_spec (fuel : Nat) (t : Vertex) (s : CFG) (r : Node × Node) (s' : CFG)
    (hi : UInv s)
    (hr : create_cfg_op_foreach (fun v => create_cfg fuel v false false) t s =
      Except.ok (r, s')) :
    ∃ (fp cmd xs x : Vertex) (s1 : CFG) (vs vf : Node) (s2 s4 : CFG) (as afp : Node) (s5 : CFG)
      (cont brk : List Node) (ux ut uk : UsagePtr),
      t.sons.get? 0 = some fp ∧ t.sons.get? 1 = some cmd ∧
      fp.sons.get? 0 = some xs ∧ fp.sons.get? 1 = some x ∧
      create_cfg_enter_cycle s = Except.ok ((), s1) ∧
      create_cfg fuel xs false false s1 = Except.ok ((vs, vf), s2) ∧
      create_cfg fuel cmd false false s4 = Except.ok ((as, afp), s5) ∧
      s1.node_gen = s.node_gen ∧ s4.node_gen = s2.node_gen + 4 ∧ s'.node_gen = s5.node_gen ∧
      r = (vs, some (s2.node_gen + 1)) ∧
      s5.continue_nodes.getLast? = some cont ∧ s5.break_nodes.getLast? = some brk ∧
      s'.node_usages s2.node_gen = ux.toList ++ ut.toList ++ uk.toList ∧
      written s s' x ux ∧
      ((!x.ref_flag) = true → ∃ tv, fp.sons.get? 2 = some tv ∧ written s s' tv ut) ∧
      (¬ (!x.ref_flag) = true → ut = none) ∧
      (fp.sons.length > 3 → ∃ key, fp.sons.get? 3 = some key ∧ written s s' key uk) ∧
      (¬ fp.sons.length > 3 → uk = none) ∧
      UInv s' ∧ KeepV s s' ∧
      Has (foreach_edges vf (some (s2.node_gen + 2)) (some s2.node_gen) (some (s2.node_gen + 1))
        as afp (some (s2.node_gen + 3)) cont brk) s' ∧
      Pin s.node_gen [(s1.node_gen, s2.node_gen), (s4.node_gen, s5.node_gen)]
        (foreach_edges vf (some (s2.node_gen + 2)) (some s2.node_gen) (some (s2.node_gen + 1))
          as afp (some (s2.node_gen + 3)) cont brk) s' := by
  have hcfg : CfgOk fun v => create_cfg fuel v false false :=
    cfgOk_of_cfgOk3 (built_all fuel).1 false false
  simp only [create_cfg_op_foreach, bind_ok_iff, Prod.exists] at hr
  obtain ⟨_, s1, h1, fp, t1, hq1_1⟩ := hr
  obtain ⟨k1, cmd, t2, k2, xs, hq1_2⟩ := hq1_1
  obtain ⟨rfl, g1⟩ := son_get k1
  obtain ⟨rfl, g2⟩ := son_get k2
  obtain ⟨t3, k3, x, t4, k4, hq1_3⟩ := hq1_2
  obtain ⟨rfl, g3⟩ := son_get k3
  obtain ⟨rfl, g4⟩ := son_get k4
  obtain ⟨vs, vf, s5, h5, writes, hq1_4⟩ := hq1_3
  obtain ⟨s6, h6, u, s7, h7, hq1_5⟩ := hq1_4
  obtain ⟨rfl, _, _⟩ := new_node_next h6
  obtain ⟨_, s8, h8, _, s9, hq1_6⟩ := hq1_5
  obtain ⟨h9, _, s10, h10, _, hq1_7⟩ := hq1_6
  obtain ⟨s11, h11, fin, s12, h12, hq1_8⟩ := hq1_7
  obtain ⟨rfl, _, _⟩ := new_node_next h12
  obtain ⟨cc, s13, h13, _, s14, hq1_9⟩ := hq1_8
  obtain ⟨rfl, _, _⟩ := new_node_next h13
  obtain ⟨h14, _, s15, h15, _, hq1_10⟩ := hq1_9
  obtain ⟨s16, h16, af, s17, h17, hq1_11⟩ := hq1_10
  obtain ⟨rfl, _, _⟩ := new_node_next h17
  obtain ⟨as, afp, s18, h18, _, hq1_12⟩ := hq1_11
  obtain ⟨s19, h19, _, s20, h20, hq1_13⟩ := hq1_12
  obtain ⟨_, s21, h21, _, s22, hq1_14⟩ := hq1_13
  obtain ⟨h22, h23⟩ := hq1_14
  cases h23
  exact op_foreach_core fuel t s s' hi hcfg _ fp cmd xs g1 g2 x t4 g3 g4 k4 k2 h1 k1 k3 vs vf s5
    h5 s6 u s7 h7 h6 (by assumption) (by assumption) _ s8 h8 _ s9 h9 _ s10 h10 _ s11 h11 s12 h12
    (by assumption) (by assumption) s13 _ s14 h13 (by assumption) (by assumption) h14 _ s15 h15 _
    s16 h16 s17 h17 (by assumption) (by assumption) as afp s18 h18 _ s19 h19 _ s20 h20 _ s21 h21
    _ h22

theorem add_subtree_prev {a : Node} {st : SubTreeData} {s s' : CFG}
    (h : add_subtree a st s = Except.ok ((), s')) : s'.node_prev = s.node_prev := by
  cases a with
  | none => cases h
  | some n => cases h; rfl

/-- The marker that closes a rule leaves the predecessor lists and the usages of the nodes
alone and keeps the store of usages. -/
theorem create_cfg_finish_store {t : Vertex} {flag : Bool} {r0 r : Node × Node} {s s' : CFG}
    (h : create_cfg_finish t flag r0 s = Except.ok (r, s')) :
    s'.node_prev = s.node_prev ∧ s'.node_usages = s.node_usages ∧ UStep s s' := by
  simp only [create_cfg_finish, bind_ok_iff] at h
  obtain ⟨_, s1, h1, h2⟩ := h
  cases h2
  exact ⟨add_subtree_prev h1, add_subtree_usages h1, (uStep_stable.marker _ _).run _ _ _ h1⟩

/-- C33: foreach iteration writes.  The builder of a `foreach` vertex builds the graph of
the collection, then creates the node of the iteration writes, the finish node, the check
node and the join node, and builds the graph of the body.  The node of the writes carries
exactly the usages created for the loop variable, for the internal iteration-state
variable when the loop variable is not bound by reference, and for the key variable when
the parameter has one, in this order; each of them is a `Write` usage of its variable and
is present exactly if the variable has a split state.  The check node has an edge to the
node of the writes and an edge to the finish node, which the builder returns; the node of
the writes has an edge to the start of the body; the finish of the collection and the join
node have an edge to the check node and the finish of the body has an edge to the join
node.  The only predecessor of the node of the writes is the check node; a predecessor of
a node of the body is a node of the body or it is the node of the writes and the node is
the start of the body, so every walk back from a node of the body that avoids the node of
the writes stays in the body. -/
theorem foreach_iteration_writes (fuel : Nat) (t : Vertex) (w ww : Bool) (s s' : CFG)
    (r : Node × Node) (ht : t.type = Operation.op_foreach) (hi : UInv s)
    (h : create_cfg (fuel + 1) t w ww s = Except.ok (r, s')) :
    ∃ (fp cmd xs x : Vertex) (s1 : CFG) (vs vf : Node) (s2 s4 : CFG) (as : Nat) (afp : Node)
      (s5 : CFG) (ux ut uk : UsagePtr),
      t.sons.get? 0 = some fp ∧ t.sons.get? 1 = some cmd ∧
      fp.sons.get? 0 = some xs ∧ fp.sons.get? 1 = some x ∧
      create_cfg_enter_cycle s = Except.ok ((), s1) ∧
      create_cfg fuel xs false false s1 = Except.ok ((vs, vf), s2) ∧
      create_cfg fuel cmd false false s4 = Except.ok ((some as, afp), s5) ∧
      s4.node_gen = s2.node_gen + 4 ∧ s4.node_gen ≤ as ∧ as < s5.node_gen ∧
      r = (vs, some (s2.node_gen + 1)) ∧
      s'.node_usages s2.node_gen = ux.toList ++ ut.toList ++ uk.toList ∧
      written s s' x ux ∧
      (x.ref_flag = false → ∃ tv, fp.sons.get? 2 = some tv ∧ written s s' tv ut) ∧
      (x.ref_flag = true → ut = none) ∧
      (3 < fp.sons.length → ∃ key, fp.sons.get? 3 = some key ∧ written s s' key uk) ∧
      (fp.sons.length ≤ 3 → uk = none) ∧
      has_edge s' vf (some (s2.node_gen + 2)) ∧
      s2.node_gen ∈ s'.node_next (s2.node_gen + 2) ∧
      s2.node_gen + 1 ∈ s'.node_next (s2.node_gen + 2) ∧
      as ∈ s'.node_next s2.node_gen ∧
      has_edge s' afp (some (s2.node_gen + 3)) ∧
      s2.node_gen + 2 ∈ s'.node_next (s2.node_gen + 3) ∧
      (∀ m, m ∈ s'.node_prev s2.node_gen → m = s2.node_gen + 2) ∧
      (∀ n m, s4.node_gen ≤ n → n < s5.node_gen → m ∈ s'.node_prev n →
        (s4.node_gen ≤ m ∧ m < s5.node_gen) ∨ (m = s2.node_gen ∧ n = as)) ∧
      (∀ n c, s4.node_gen ≤ n → n < s5.node_gen →
        Relation.ReflTransGen (back_avoiding s' s2.node_gen) n c →
        s4.node_gen ≤ c ∧ c < s5.node_gen) := by
  unfold create_cfg at h
  rw [ht] at h
  obtain ⟨r0, s0, h1, h2⟩ := bind_ok_iff.mp h
  obtain ⟨rfl, n1, n2⟩ := create_cfg_finish_graph h2
  obtain ⟨np, nu, us⟩ := create_cfg_finish_store h2
  have hcfg : CfgOk fun v => create_cfg fuel v false false :=
    cfgOk_of_cfgOk3 (built_all fuel).1 false false
  obtain ⟨fp, cmd, xs, x, s1, hq1_1⟩ := op_foreach_spec fuel t s r s0 hi h1
  obtain ⟨vs, vf, s2, s4, as, hq1_2⟩ := hq1_1
  obtain ⟨afp, s5, cont, brk, ux, hq1_3⟩ := hq1_2
  obtain ⟨ut, uk, g1, g2, g3, hq1_4⟩ := hq1_3
  obtain ⟨g4, k1, k2, k3, e1, hq1_5⟩ := hq1_4
  obtain ⟨e4, eg, er, fc, fb, hq1_6⟩ := hq1_5
  obtain ⟨hW, wx, wt1, wt2, wk1, hq1_7⟩ := hq1_6
  obtain ⟨wk2, i0, kv, hx, hp⟩ := hq1_7
  obtain ⟨m2, vs1, vs2, vf1, l2⟩ := built_elim (hcfg _ _ _ _ k2)
  obtain ⟨m5, as1, as2, afp1, l5⟩ := built_elim (hcfg _ _ _ _ k3)
  obtain ⟨asn, rfl, as3⟩ := node_code_pos as1
  simp only [node_code_some] at as1 as2
  obtain ⟨_, kf, _⟩ := us i0
  have sk : SplitsKept s s := splitsKept_rel.refl s
  have edge : ∀ a b : Nat, (some a, some b) ∈ foreach_edges vf (some (s2.node_gen + 2))
      (some s2.node_gen) (some (s2.node_gen + 1)) (some asn) afp (some (s2.node_gen + 3))
      cont brk → b ∈ s'.node_next a := by
    intro a b hab
    rw [n1]
    exact (hx _ hab a b rfl rfl).2
  have hedge : ∀ a : Node, ∀ b : Nat, (a, some b) ∈ foreach_edges vf (some (s2.node_gen + 2))
      (some s2.node_gen) (some (s2.node_gen + 1)) (some asn) afp (some (s2.node_gen + 3))
      cont brk → has_edge s' a (some b) := by
    intro a b hab u m e1 e2
    cases e2
    rw [n1]
    exact (hx _ hab u b e1 rfl).2
  have pin : ∀ n m, s.node_gen ≤ n → n < s5.node_gen → m ∈ s'.node_prev n →
      (s1.node_gen ≤ n ∧ n < s2.node_gen ∧ s1.node_gen ≤ m ∧ m < s2.node_gen) ∨
      (s4.node_gen ≤ n ∧ n < s5.node_gen ∧ s4.node_gen ≤ m ∧ m < s5.node_gen) ∨
      (m = s2.node_gen + 2 ∧ n = s2.node_gen) ∨ (m = s2.node_gen ∧ n = asn) ∨
      n = s2.node_gen + 1 ∨ n = s2.node_gen + 2 ∨ n = s2.node_gen + 3 := by
    intro n m a b c
    rw [np] at c
    rcases hp n m a (by omega) c with ⟨blk, hblk, b1, b2, b3, b4⟩ | hE
    · simp only [List.mem_cons, List.mem_singleton, List.not_mem_nil, or_false] at hblk
      rcases hblk with e | e
      · subst e
        exact Or.inl ⟨b1, b2, b3, b4⟩
      · subst e
        exact Or.inr (Or.inl ⟨b1, b2, b3, b4⟩)
    · simp only [foreach_edges, List.mem_append, List.mem_cons, List.mem_singleton,
        List.not_mem_nil, or_false, Prod.mk.injEq, List.mem_map, Option.some.injEq] at hE
      rcases hE with ((q | q | q | q | q | q) | ⟨y, _, q⟩) | ⟨y, _, q⟩
      · omega
      · omega
      · omega
      · omega
      · omega
      · omega
      · omega
      · omega
  refine ⟨fp, cmd, xs, x, s1, vs, vf, s2, s4, asn, afp, s5, ux, ut, uk, g1, g2, g3, g4, k1, k2,
    k3, e4, by omega, by omega, er, by rw [nu]; exact hW, written_keep wx kf sk, ?_, ?_, ?_, ?_,
    hedge _ _ (by simp [foreach_edges]), edge _ _ (by simp [foreach_edges]),
    edge _ _ (by simp [foreach_edges]), edge _ _ (by simp [foreach_edges]),
    hedge _ _ (by simp [foreach_edges]), edge _ _ (by simp [foreach_edges]), ?_, ?_, ?_⟩
  · intro hf
    obtain ⟨tv, gt, wt⟩ := wt1 (by rw [hf]; rfl)
    exact ⟨tv, gt, written_keep wt kf sk⟩
  · intro hf
    exact wt2 (by rw [hf]; decide)
  · intro hl
    obtain ⟨key, gk, wk⟩ := wk1 hl
    exact ⟨key, gk, written_keep wk kf sk⟩
  · intro hl
    exact wk2 (by omega)
  · intro m hm
    have := pin s2.node_gen m (by omega) (by omega) hm
    omega
  · intro n m a b c
    have := pin n m (by omega) b c
    omega
  · intro n c a b hpath
    induction hpath with
    | refl => exact ⟨a, b⟩
    | @tail u v _ hstep ih =>
      obtain ⟨hm, hne⟩ := hstep
      have := pin u v (by omega) ih.2 hm
      omega

theorem uInv_start_state (d : CFGData) (vars : List VarPtr) : UInv (start_state d vars) :=
  ⟨fun _ _ => rfl, fun a h => absurd h (Nat.not_lt_zero a), fun _ _ h => by cases h⟩

/-- Witness of C33: the graph of `sample_foreach` built from `sample_foreach_start`. -/
theorem foreach_iteration_writes_witness :
    sample_foreach.type = Operation.op_foreach ∧ UInv sample_foreach_start ∧
    run_ok (create_cfg 10 sample_foreach false false sample_foreach_start) = true ∧
    ∃ (W : Nat) (ux ut uk : UsagePtr),
      (state_after (create_cfg 10 sample_foreach false false sample_foreach_start)).node_usages W =
        ux.toList ++ ut.toList ++ uk.toList ∧
      (∀ m, m ∈ (state_after
        (create_cfg 10 sample_foreach false false sample_foreach_start)).node_prev W →
          m = W + 2) ∧
      W + 1 ∈ (state_after
        (create_cfg 10 sample_foreach false false sample_foreach_start)).node_next (W + 2) := by
  have hok : run_ok (create_cfg 10 sample_foreach false false sample_foreach_start) = true := by
    decide!
  have hinv : UInv sample_foreach_start := uInv_start_state _ _
  have H := foreach_iteration_writes 9 sample_foreach false false sample_foreach_start _ _ rfl
    hinv (run_eq_of_ok _ hok)
  refine ⟨rfl, hinv, hok, ?_⟩
  revert H
  generalize state_after (create_cfg 10 sample_foreach false false sample_foreach_start) = S
  intro H
  obtain ⟨fp, cmd, xs, x, s1, hq1_1⟩ := H
  obtain ⟨vs, vf, s2, s4, as, hq1_2⟩ := hq1_1
  obtain ⟨afp, s5, ux, ut, uk, hq1_3⟩ := hq1_2
  obtain ⟨_, _, _, _, _, hq1_4⟩ := hq1_3
  obtain ⟨_, _, _, _, _, hq1_5⟩ := hq1_4
  obtain ⟨_, hW, _, _, _, hq1_6⟩ := hq1_5
  obtain ⟨_, _, _, _, hF, hq1_7⟩ := hq1_6
  obtain ⟨_, _, _, hP, _, _⟩ := hq1_7
  exact ⟨s2.node_gen, ux, ut, uk, hW, hP, hF⟩

/-- Closing a try frame keeps the account of the incoming edges, extended by the edges
from the escape points of the innermost frame. -/
theorem pin_end_try {lo : Nat} {B : List (Nat × Nat)} {E : List (Node × Node)} {s s' : CFG}
    {dst : Node} {frame : List Node} (h : Pin lo B E s)
    (hf : s.exception_nodes.getLast? = some frame)
    (hr : create_cfg_end_try dst s = Except.ok ((), s')) :
    Pin lo B (E ++ frame.map fun x => (x, dst)) s' := by
  unfold create_cfg_end_try at hr
  simp only [bind_run, get_state_run] at hr
  rw [hf] at hr
  have h2 : (add_edges_from frame dst >>= fun _ =>
      modify_state fun s => { s with exception_nodes := s.exception_nodes.dropLast }) s =
      Except.ok ((), s') := hr
  simp only [bind_ok_iff] at h2
  obtain ⟨_, s3, h3, h5⟩ := h2
  obtain ⟨c3, _⟩ := pin_add_edges_from frame h h3
  cases h5
  exact pin_same c3 rfl rfl

/-- What the rule of `op_try` builds, by incoming edges: the graphs of the exception
variable, of the try body and of the catch body, then the finish node; no edge enters a
new node from outside the node range of the graph that holds the node but the edges of
`try_edges`; the markers of the exception variable and of the catch body are on the
starts of their graphs. -/
theorem op_try_pin (cfg : Vertex → Bool → Bool → M (Node × Node)) (hcfg : CfgOk3 cfg)
    (t : Vertex) (s : CFG) (r : Node × Node) (s' : CFG)
    (hr : create_cfg_op_try cfg t s = Except.ok (r, s')) :
    ∃ (try_cmd exception catch_cmd : Vertex) (es : Nat) (ef : Node) (s1 : CFG) (ts tf : Node)
      (s2 : CFG) (frame : List Node) (s3 : CFG) (cs : Nat) (cf : Node) (s4 : CFG),
      t.sons.get? 0 = some try_cmd ∧ t.sons.get? 1 = some exception ∧
      t.sons.get? 2 = some catch_cmd ∧
      cfg exception true false s = Except.ok ((some es, ef), s1) ∧
      cfg try_cmd false false { s1 with exception_nodes := s1.exception_nodes ++ [[]] } =
        Except.ok ((ts, tf), s2) ∧
      s2.exception_nodes.getLast? = some frame ∧
      create_cfg_end_try (some es) s2 = Except.ok ((), s3) ∧
      cfg catch_cmd false false s3 = Except.ok ((some cs, cf), s4) ∧
      r = (ts, some s4.node_gen) ∧ s'.node_gen = s4.node_gen + 1 ∧
      s.node_gen ≤ es ∧ es < s1.node_gen ∧ s1.node_gen < node_code ts ∧
      node_code ts ≤ s2.node_gen ∧ s3.node_gen = s2.node_gen ∧
      s3.node_gen ≤ cs ∧ cs < s4.node_gen ∧
      new_subtree exception false ∈ s'.node_subtrees es ∧
      new_subtree catch_cmd true ∈ s'.node_subtrees cs ∧
      Pin s.node_gen [(s.node_gen, s1.node_gen), (s1.node_gen, s2.node_gen),
          (s3.node_gen, s4.node_gen)]
        (try_edges frame (some es) ef (some cs) cf tf (some s4.node_gen)) s' := by
  simp only [create_cfg_op_try, bind_ok_iff, Prod.exists] at hr
  obtain ⟨tc, t1, k1, ex, t2, hq1_1⟩ := hr
  obtain ⟨k2, cc, t3, k3, es, hq1_2⟩ := hq1_1
  obtain ⟨ef, s4, h4, _, s5, hq1_3⟩ := hq1_2
  obtain ⟨h5, ts, tf, s6, h6, hq1_4⟩ := hq1_3
  obtain ⟨_, s7, h7, cs, cf, hq1_5⟩ := hq1_4
  obtain ⟨s8, h8, _, s9, h9, hq1_6⟩ := hq1_5
  obtain ⟨fin, s10, h10, _, s11, hq1_7⟩ := hq1_6
  obtain ⟨h11, _, s12, h12, _, hq1_8⟩ := hq1_7
  obtain ⟨s13, h13, _, s14, h14, h15⟩ := hq1_8
  obtain ⟨rfl, g1⟩ := son_get k1
  obtain ⟨rfl, g2⟩ := son_get k2
  obtain ⟨rfl, g3⟩ := son_get k3
  have hb4 := hcfg _ _ _ _ _ _ h4
  obtain ⟨m4, es1, es2, ef1, l4, _⟩ := mid_built (mid_refl _) hb4
  have p4 := pin_mid (pin_nil t3) hb4.1
  obtain ⟨m5, e5⟩ := mid_begin_try m4 h5
  have hs5 : s5 = { s4 with exception_nodes := s4.exception_nodes ++ [[]] } := by
    cases h5
    rfl
  have p5 : Pin t3.node_gen ([] ++ [(t3.node_gen, s4.node_gen)]) [] s5 :=
    pin_same p4 e5 (by rw [hs5])
  have hb6 := hcfg _ _ _ _ _ _ h6
  obtain ⟨m6, ts1, ts2, tf1, l6, _⟩ := mid_built m5 hb6
  have p6 := pin_mid p5 hb6.1
  obtain ⟨m7, e7⟩ := mid_end_try m6 (by omega) h7
  obtain ⟨frame, f1, f2, f3, _⟩ := end_try_spec m6 (has_nil s6) h7
  have p7 := pin_end_try p6 f1 h7
  have hb8 := hcfg _ _ _ _ _ _ h8
  obtain ⟨m8, cs1, cs2, cf1, l8, _⟩ := mid_built m7 hb8
  have p8 := pin_mid p7 hb8.1
  obtain ⟨p9, _⟩ := pin_add_edge p8 h9
  obtain ⟨m9, e9⟩ := mid_add_edge m8 (by omega) (by omega) h9
  have p10 := pin_new_node p9 h10
  obtain ⟨m10, fin1, e10⟩ := mid_new_node m9 h10
  obtain ⟨rfl, _, _⟩ := new_node_next h10
  obtain ⟨p11, _⟩ := pin_add_edge p10 h11
  obtain ⟨m11, e11⟩ := mid_add_edge m10 (by omega) (by omega) h11
  obtain ⟨p12, _⟩ := pin_add_edge p11 h12
  obtain ⟨m12, e12⟩ := mid_add_edge m11 (by omega) (by omega) h12
  obtain ⟨esn, rfl, es3⟩ := node_code_pos es1
  obtain ⟨csn, rfl, cs3⟩ := node_code_pos cs1
  simp only [node_code_some] at es2 cs2
  have d13 := (add_subtree_nodeData 0 (some esn) _ (by simp)).run _ _ _ h13
  have p13 := pin_nodeData p12 d13
  obtain ⟨k13, _⟩ := add_subtree_mem h13
  have d14 := (add_subtree_nodeData 0 (some csn) _ (by simp)).run _ _ _ h14
  have p14 := pin_nodeData p13 d14
  obtain ⟨k14, _⟩ := add_subtree_mem h14
  have mm14 := (markMono_stable.marker _ _).run _ _ _ h14
  cases h15
  have hgen : s9.node_gen = s8.node_gen := by omega
  refine ⟨tc, ex, cc, esn, ef, s4, ts, tf, s6, frame, s7, csn, cf, s8, g1, g2, g3, h4,
    by rw [← hs5]; exact h6, f1, h7, h8, by rw [hgen], ?_, es3, by omega, by omega, by omega,
    f3, cs3, by omega, mm14.2 esn (by rw [d13.1]; omega) _ k13, k14, ?_⟩
  · rw [d14.1, d13.1]
    omega
  · exact pin_mono p14 (by
      intro b hb
      simpa [e5] using hb) (by
      intro p hp
      simpa [try_edges, hgen] using hp)

/-- The marker that closes a rule keeps the markers of the nodes. -/
theorem create_cfg_finish_markers {t : Vertex} {flag : Bool} {r0 r : Node × Node} {s s' : CFG}
    (h : create_cfg_finish t flag r0 s = Except.ok (r, s')) : MarkMono s s' := by
  simp only [create_cfg_finish, bind_ok_iff] at h
  obtain ⟨_, s1, h1, h2⟩ := h
  cases h2
  exact (markMono_stable.marker _ _).run _ _ _ h1

/-- C40 (amended).  For a try/catch, `create_cfg` builds the graph of the exception
variable, the graph of the try body and the graph of the catch body; the marker of the
exception variable is on the start of the first and the recursive marker of the catch
body on the start of the last.  When the try body has registered no escape point, then in
every later state of the graph in which only the start of the construct got new incoming
edges, no node of the graph of the exception variable and no node of the graph of the
catch body is reachable from the start of the construct or from a node outside the
construct; the forward walk from such an entry returns and confirms a vertex exactly when
it was confirmed before or a marker on a reachable node, which is a node outside these
two graphs, covers it. -/
theorem catch_without_thrower (fuel : Nat) (t : Vertex) (w ww : Bool) (s s' : CFG)
    (r : Node × Node) (ht : t.type = Operation.op_try)
    (h : create_cfg (fuel + 1) t w ww s = Except.ok (r, s')) :
    ∃ (try_cmd exception catch_cmd : Vertex) (es : Nat) (ef : Node) (s1 : CFG) (tf : Node)
      (s2 : CFG) (frame : List Node) (s3 : CFG) (cs : Nat) (cf : Node) (s4 : CFG),
      t.sons.get? 0 = some try_cmd ∧ t.sons.get? 1 = some exception ∧
      t.sons.get? 2 = some catch_cmd ∧
      create_cfg fuel exception true false s = Except.ok ((some es, ef), s1) ∧
      create_cfg fuel try_cmd false false
        { s1 with exception_nodes := s1.exception_nodes ++ [[]] } = Except.ok ((r.1, tf), s2) ∧
      s2.exception_nodes.getLast? = some frame ∧
      create_cfg_end_try (some es) s2 = Except.ok ((), s3) ∧
      create_cfg fuel catch_cmd false false s3 = Except.ok ((some cs, cf), s4) ∧
      catch_side s.node_gen s1.node_gen s3.node_gen s4.node_gen es ∧
      catch_side s.node_gen s1.node_gen s3.node_gen s4.node_gen cs ∧
      new_subtree exception false ∈ s'.node_subtrees es ∧
      new_subtree catch_cmd true ∈ s'.node_subtrees cs ∧
      (frame = [] →
        ∀ F e, Fut s.node_gen [r.1] s' F → SymEdges F →
          (e < s.node_gen ∨ s'.node_gen ≤ e ∨ some e = r.1) →
          (∀ n, Reach F e n →
            ¬ catch_side s.node_gen s1.node_gen s3.node_gen s4.node_gen n) ∧
          ∀ (T : Vertex) (N fuel' : Nat), UniqueIds T →
            (∀ n, n < N → ∀ m, m ∈ F.node_next n → m < N) → e < N → N < fuel' →
            (∀ n, n < N → F.node_was n ≠ F.cur_dfs_mark) → ClosedBelow T F.vertex_usage →
            (∀ n, Reach F e n → ∀ mk ∈ F.node_subtrees n, mk.v ∈ T.subtree) →
            ∃ G, calc_used fuel' e F = Except.ok ((), G) ∧ same_but_walk F G ∧
              ∀ i, (G.vertex_usage i).used = true ↔
                ((F.vertex_usage i).used = true ∨
                  ∃ n, Reach F e n ∧
                    ¬ catch_side s.node_gen s1.node_gen s3.node_gen s4.node_gen n ∧
                    ∃ mk ∈ F.node_subtrees n, covers mk i)) := by
  unfold create_cfg at h
  rw [ht] at h
  obtain ⟨r0, s0, h1, h2⟩ := bind_ok_iff.mp h
  obtain ⟨rfl, n1, n2⟩ := create_cfg_finish_graph h2
  obtain ⟨np, _, _⟩ := create_cfg_finish_store h2
  have mm := create_cfg_finish_markers h2
  obtain ⟨tc, ex, cc, es, ef, s1, ts, tf, s2, frame, s3, cs, cf, s4, g1, g2, g3, k1, k2, f1, k3,
    k4, er, eg, a1, a2, a3, a4, a5, a6, a7, mk1, mk2, hp⟩ :=
    op_try_pin _ (built_all fuel).1 t s r s0 h1
  obtain ⟨_, _, _, ef1, _⟩ := built_elim (create_cfg_built _ _ _ _ _ _ _ k1)
  have hr1 : r.1 = ts := by rw [er]
  have hle : s1.node_gen ≤ s2.node_gen := by omega
  have hle4 : s3.node_gen ≤ s4.node_gen := by omega
  refine ⟨tc, ex, cc, es, ef, s1, tf, s2, frame, s3, cs, cf, s4, g1, g2, g3, k1,
    by rw [hr1]; exact k2, f1, k3, k4, Or.inl ⟨a1, a2⟩, Or.inr ⟨a6, a7⟩,
    mm.2 es (by omega) _ mk1, mm.2 cs (by omega) _ mk2, ?_⟩
  intro hfr F e hF hS he
  subst hfr
  have closed : ∀ n, catch_side s.node_gen s1.node_gen s3.node_gen s4.node_gen n →
      ∀ m, m ∈ F.node_prev n →
        catch_side s.node_gen s1.node_gen s3.node_gen s4.node_gen m := by
    intro n hn m hm
    have hn1 : s.node_gen ≤ n ∧ n < s0.node_gen := by
      rcases hn with c | c <;> omega
    have hne : some n ∉ [r.1] := by
      rw [hr1]
      intro hc
      have e1 := List.mem_singleton.mp hc
      rw [← e1] at a3 a4
      simp only [node_code_some] at a3 a4
      rcases hn with c | c <;> omega
    rw [hF.1 n hn1.1 (by omega) hne, np] at hm
    rcases hp n m hn1.1 hn1.2 hm with ⟨blk, hblk, b1, b2, b3, b4⟩ | hE
    · simp only [List.mem_cons, List.mem_singleton, List.not_mem_nil, or_false] at hblk
      rcases hblk with e1 | e1 | e1
      · subst e1
        exact Or.inl ⟨b3, b4⟩
      · subst e1
        simp only at b1 b2
        rcases hn with c | c <;> omega
      · subst e1
        exact Or.inr ⟨b3, b4⟩
    · simp only [try_edges, List.map_nil, List.nil_append, List.mem_cons, List.mem_singleton,
        List.not_mem_nil, or_false, Prod.mk.injEq, Option.some.injEq] at hE
      rcases hE with q | q | q
      · have e1 := q.1
        rw [← e1] at ef1
        simp only [NodeIn, node_code_some] at ef1
        exact Or.inl (by omega)
      · rcases hn with c | c <;> omega
      · rcases hn with c | c <;> omega
  have unreach : ∀ n, Reach F e n →
      ¬ catch_side s.node_gen s1.node_gen s3.node_gen s4.node_gen n := by
    intro n hr hn
    have back : catch_side s.node_gen s1.node_gen s3.node_gen s4.node_gen e := by
      induction hr with
      | refl => exact hn
      | @tail a b _ hstep ih => exact ih (closed b hn a (hS _ _ hstep))
    rcases he with c | c | c
    · rcases back with d | d <;> omega
    · rcases back with d | d <;> omega
    · rw [hr1] at c
      rw [← c] at a3 a4
      simp only [node_code_some] at a3 a4
      rcases back with d | d <;> omega
  refine ⟨unreach, ?_⟩
  intro T N fuel' hT hfin heN hfuel hfresh hc hg
  obtain ⟨G, hG, hsame, _, hused⟩ := calc_used_reach T hT N fuel' e F hfin heN hfuel hfresh hc hg
  refine ⟨G, hG, hsame, fun i => ?_⟩
  rw [hused i]
  constructor
  · rintro (c | ⟨n, hn, mk, hmk, hcov⟩)
    · exact Or.inl c
    · exact Or.inr ⟨n, hn, unreach n hn, mk, hmk, hcov⟩
  · rintro (c | ⟨n, hn, _, mk, hmk, hcov⟩)
    · exact Or.inl c
    · exact Or.inr ⟨n, hn, mk, hmk, hcov⟩

/-- Counterexample to C40 as stated: in `sample_quiet_try_in_catch` the try body of the
inner try/catch registers no escape point, the node of its exception variable (node 10)
has no predecessor, and the forward walk visits the start of the inner try/catch (node 11)
but neither that node nor the start of the inner catch body (node 15); still the inner
catch body (vertex 14) and its exception variable (vertex 13) are confirmed, and nothing is
collected as dead code. -/
theorem quiet_try_in_catch_not_collected :
    run_ok (process_function_build 30
      { data := mk_data sample_quiet_try_in_catch ["a", "b"] }) = true ∧
    marker_ids (state_after (process_function_build 30
      { data := mk_data sample_quiet_try_in_catch ["a", "b"] })) 11 = [11, 10, 9, 8, 8] ∧
    marker_ids (state_after (process_function_build 30
      { data := mk_data sample_quiet_try_in_catch ["a", "b"] })) 10 = [13, 13] ∧
    marker_ids (state_after (process_function_build 30
      { data := mk_data sample_quiet_try_in_catch ["a", "b"] })) 15 = [15, 14, 14] ∧
    (state_after (process_function_build 30
      { data := mk_data sample_quiet_try_in_catch ["a", "b"] })).node_prev 10 = [] ∧
    ((List.range 21).map (state_after (process_function_build 30
      { data := mk_data sample_quiet_try_in_catch ["a", "b"] })).node_was) =
      [1, 1, 1, 1, 1, 1, 1, 1, 1, 0, 0, 1, 1, 1, 1, 0, 0, 0, 0, 1, 1] ∧
    ((state_after (process_function_build 30
      { data := mk_data sample_quiet_try_in_catch ["a", "b"] })).vertex_usage 14).used = true ∧
    ((state_after (process_function_build 30
      { data := mk_data sample_quiet_try_in_catch ["a", "b"] })).vertex_usage 13).used = true ∧
    unused_ids 30 (mk_data sample_quiet_try_in_catch ["a", "b"]) = [] := by
  decide!

/-- Witness of C40 (amended): the graph of `sample_quiet_try`, built from the state with
the record of the statement, taken as its own later state with the start of the construct
as entry.  The try body registers no escape point, so the nodes with the markers of the
exception variable and of the catch body are unreachable; in the function with this one
statement the exception variable and the catch body are collected as dead code. -/
theorem catch_without_thrower_witness :
    sample_quiet_try.type = Operation.op_try ∧
    run_result (create_cfg 10 sample_quiet_try false false
      { data := mk_data sample_quiet_try ["e"] }) = some (some 1, some 9) ∧
    (∃ es cs : Nat,
      new_subtree (mk_var 7 0) false ∈ (state_after (create_cfg 10 sample_quiet_try false false
        { data := mk_data sample_quiet_try ["e"] })).node_subtrees es ∧
      new_subtree (mk_op 8 Operation.op_seq [mk_op 9 Operation.op_echo [mk_const 10 "2"]]) true ∈
        (state_after (create_cfg 10 sample_quiet_try false false
          { data := mk_data sample_quiet_try ["e"] })).node_subtrees cs ∧
      ∀ n, Reach (state_after (create_cfg 10 sample_quiet_try false false
        { data := mk_data sample_quiet_try ["e"] })) 1 n → n ≠ es ∧ n ≠ cs) ∧
    unused_ids 30 (mk_data (mk_function [sample_quiet_try]) ["e"]) = [7, 8] := by
  have hres : run_result (create_cfg 10 sample_quiet_try false false
      { data := mk_data sample_quiet_try ["e"] }) = some (some 1, some 9) := by decide!
  have hrun := run_eq_of_result _ _ hres
  have hw0 : W ({ data := mk_data sample_quiet_try ["e"] } : CFG) :=
    fun n m hm => absurd hm (List.not_mem_nil m)
  have hS := w_symEdges (create_cfg_q _ _ _ _ _ _ _ hrun hw0).2
  have H := catch_without_thrower 9 sample_quiet_try false false _ _ _ rfl hrun
  have hfr : (state_after (create_cfg 9
      (mk_op 4 Operation.op_seq [mk_op 5 Operation.op_echo [mk_const 6 "1"]]) false false
      { state_after (create_cfg 9 (mk_var 7 0) true false
          { data := mk_data sample_quiet_try ["e"] }) with
        exception_nodes := (state_after (create_cfg 9 (mk_var 7 0) true false
          { data := mk_data sample_quiet_try ["e"] })).exception_nodes ++ [[]] })
      ).exception_nodes.getLast? = some [] := by decide!
  refine ⟨rfl, hres, ?_, by decide!⟩
  revert H hS
  generalize state_after (create_cfg 10 sample_quiet_try false false
    { data := mk_data sample_quiet_try ["e"] }) = S
  intro hS H
  obtain ⟨tc, ex, cc, es, ef, hq1_1⟩ := H
  obtain ⟨s1, tf, s2, frame, s3, hq1_2⟩ := hq1_1
  obtain ⟨cs, cf, s4, g1, g2, hq1_3⟩ := hq1_2
  obtain ⟨g3, k1, k2, f1, k3, hq1_4⟩ := hq1_3
  obtain ⟨k4, c1, c2, m1, m2, hdead⟩ := hq1_4
  cases g1
  cases g2
  cases g3
  have e1 : s1 = state_after (create_cfg 9 (mk_var 7 0) true false
      { data := mk_data sample_quiet_try ["e"] }) := by
    rw [k1]
    rfl
  subst e1
  have e2 := congrArg state_after k2
  rw [show state_after (Except.ok ((some 1, tf), s2) : Except Err ((Node × Node) × CFG)) = s2
    from rfl] at e2
  rw [← e2, hfr] at f1
  cases f1
  have hd := (hdead rfl S 1 (fut_self _ _ S) hS (Or.inr (Or.inr rfl))).1
  refine ⟨es, cs, m1, m2, fun n hn => ⟨?_, ?_⟩⟩
  · intro e
    exact hd n hn (e ▸ c1)
  · intro e
    exact hd n hn (e ▸ c2)

/-- C34: no live code inside a dead subtree.  For every run of the builder on a vertex,
the start node carries a marker of the vertex, and in every later state of the graph in
which only the start got new incoming edges, a node of the graph of the vertex that is
reachable from an entry outside the graph or from the start is reached through the
start.  After the steps of `process_function` up to the forward walk on a function whose
vertices have distinct ids, with fuel above the number of nodes: every vertex above the
vertex of a marker on a node reachable from the entry is confirmed; whenever a vertex of
the function is confirmed, every vertex above it, its parent first, is confirmed; and no
vertex in the subtree of a vertex that `collect_unused` collects in the body is
confirmed. -/
theorem no_live_code_in_dead_subtree (fuel : Nat) (d : CFGData) (vars : List VarPtr) (G : CFG)
    (hbuild : process_function_build fuel { data := d } = Except.ok (vars, G))
    (hfuel : G.node_gen < fuel) (hids : UniqueIds d.root) :
    (∀ k t w ww s r s', create_cfg k t w ww s = Except.ok (r, s') →
      ∃ st fl, r.1 = some st ∧ s.node_gen ≤ st ∧ st < s'.node_gen ∧
        new_subtree t fl ∈ s'.node_subtrees st ∧
        ∀ F e, Fut s.node_gen [some st] s' F → SymEdges F →
          (e < s.node_gen ∨ s'.node_gen ≤ e ∨ e = st) →
          ∀ n, s.node_gen ≤ n → n < s'.node_gen → Reach F e n → Reach F e st) ∧
    ∃ start, G.current_start = some start ∧
      (∀ n, Reach G start n → ∀ mk ∈ G.node_subtrees n, ∀ u ∈ d.root.subtree,
        mk.v ∈ u.subtree → (G.vertex_usage u.id).used = true) ∧
      (∀ v ∈ d.root.subtree, (G.vertex_usage v.id).used = true →
        ∀ u ∈ d.root.subtree, v ∈ u.subtree → (G.vertex_usage u.id).used = true) ∧
      (∀ p ∈ d.root.subtree, ∀ c ∈ p.sons, (G.vertex_usage c.id).used = true →
        (G.vertex_usage p.id).used = true) ∧
      (∀ cmd, d.root.sons.get? 1 = some cmd → ∀ x ∈ collect_unused G.vertex_usage cmd,
        ∀ v ∈ x.subtree, (G.vertex_usage v.id).used = false) := by
  obtain ⟨start, hs, _, hpath, hused⟩ := build_confirmed fuel d vars G hbuild hfuel hids
  have up : ∀ v ∈ d.root.subtree, (G.vertex_usage v.id).used = true →
      ∀ u ∈ d.root.subtree, v ∈ u.subtree → (G.vertex_usage u.id).used = true := by
    intro v hvr hc u hur hvu
    obtain ⟨n, hn, mk, hmk, hcov⟩ := (hused v hvr).mp hc
    have hp := hpath n hn mk hmk
    have hp2 : PathUsed (fun x => (G.vertex_usage x.id).used = true) d.root v := by
      rcases hcov with e | ⟨e1, e2⟩
      · exact e ▸ hp
      · refine pathUsed_trans hp (pathUsed_of_all (fun x hx => ?_) e2)
        exact (hused x (subtree_trans (pathUsed_mem hp) hx)).mpr
          ⟨n, hn, mk, hmk, Or.inr ⟨e1, hx⟩⟩
    exact pathUsed_between hp2 hids u hur hvu
  refine ⟨?_, start, hs, ?_, up, ?_, ?_⟩
  · intro k t w ww s r s' h
    obtain ⟨st, fl, e1, mk1⟩ := create_cfg_marker k t w ww s s' r h
    have hb := create_cfg_built k t w ww s r s' h
    have h1 := hb.2.1
    rw [e1] at h1
    simp only [node_code_some] at h1
    refine ⟨st, fl, e1, by omega, by omega, mk1, ?_⟩
    intro F e hF hS he n hn1 hn2 hr
    refine dominate hF hS hb.1.prev_local ?_ hr ⟨hn1, hn2⟩
    rcases he with c | c | c
    · exact Or.inl c
    · exact Or.inr (Or.inl c)
    · exact Or.inr (Or.inr (List.mem_singleton.mpr (by rw [c])))
  · intro n hn mk hmk u hur hvu
    exact pathUsed_between (hpath n hn mk hmk) hids u hur hvu
  · intro p hp c hc hcu
    have hcp : c ∈ p.subtree := (mem_subtree_iff _ _).mpr (Or.inr ⟨c, hc, self_mem_subtree _⟩)
    exact up c (subtree_trans hp hcp) hcu p hp hcp
  · intro cmd hcmd x hx v hv
    have hcr : cmd ∈ d.root.subtree := by
      rw [List.get?_eq_getElem?] at hcmd
      obtain ⟨hlt, he⟩ := List.getElem?_eq_some_iff.mp hcmd
      exact (mem_subtree_iff _ _).mpr
        (Or.inr ⟨cmd, he ▸ List.getElem_mem hlt, self_mem_subtree _⟩)
    obtain ⟨hx1, hx2⟩ := collect_unused_sound _ _ _ hx
    have hxr := subtree_trans hcr hx1
    cases hc : (G.vertex_usage v.id).used with
    | false => rfl
    | true =>
      have := up v (subtree_trans hxr hv) hc x hxr hv
      rw [hx2] at this
      cases this

/-- Witness of C34: the function
`function f() { $x = 1; echo $x; $x = "s"; echo $x; return; echo $x; }`, built with fuel
30: the occurrence of `$x` in the last statement (vertex 15) lies in a collected subtree,
in which no vertex is confirmed. -/
theorem no_live_code_in_dead_subtree_witness :
    run_result (process_function_build 30 { data := mk_data sample_dead_usage ["x"] }) =
      some [0] ∧
    (built_state 30 sample_dead_usage ["x"]).node_gen < 30 ∧
    UniqueIds (mk_data sample_dead_usage ["x"]).root ∧
    ∃ cmd, (mk_data sample_dead_usage ["x"]).root.sons.get? 1 = some cmd ∧
      ∃ u ∈ collect_unused (built_state 30 sample_dead_usage ["x"]).vertex_usage cmd,
        mk_var 15 0 ∈ u.subtree ∧
        ∀ v ∈ u.subtree, ((built_state 30 sample_dead_usage ["x"]).vertex_usage v.id).used =
          false := by
  have h1 : run_result (process_function_build 30
      { data := mk_data sample_dead_usage ["x"] }) = some [0] := by decide!
  have h2 : (built_state 30 sample_dead_usage ["x"]).node_gen < 30 := by decide!
  have h3 : UniqueIds (mk_data sample_dead_usage ["x"]).root := by
    unfold UniqueIds
    decide
  have h15 : ((built_state 30 sample_dead_usage ["x"]).vertex_usage (mk_var 15 0).id).used =
      false := by decide!
  obtain ⟨_, start, _, _, _, _, hdead⟩ := no_live_code_in_dead_subtree 30
    (mk_data sample_dead_usage ["x"]) [0] (built_state 30 sample_dead_usage ["x"])
    (run_eq_of_result _ _ h1) h2 h3
  obtain ⟨u, hu, hvu⟩ := collect_unused_complete
    (built_state 30 sample_dead_usage ["x"]).vertex_usage _ (mk_var 15 0)
    ((mem_subtree_iff _ (mk_op 2 Operation.op_seq
        [mk_op 3 Operation.op_set [mk_var 4 0, mk_const 5 "1"],
         mk_op 6 Operation.op_echo [mk_var 7 0],
         mk_op 8 Operation.op_set [mk_var 9 0, mk_const 10 "s"],
         mk_op 11 Operation.op_echo [mk_var 12 0],
         mk_op 13 Operation.op_return [],
         mk_op 14 Operation.op_echo [mk_var 15 0]])).mpr
      (Or.inr ⟨mk_op 14 Operation.op_echo [mk_var 15 0], by simp [mk_op, Vertex.sons],
        (mem_subtree_iff _ _).mpr (Or.inr ⟨mk_var 15 0, by simp [mk_op, Vertex.sons],
          self_mem_subtree _⟩)⟩)) h15
  exact ⟨h1, h2, h3, _, rfl, u, hu, hvu, hdead _ rfl u hu⟩

theorem calc_used_next_total (N fuel : Nat) (walk : Nat → M Unit)
    (ih : ∀ v s, (∀ n, n < N → ∀ m, m ∈ s.node_next n → m < N) → v < N →
      s.node_was v ≠ s.cur_dfs_mark → unvisited s N < fuel →
      ∃ s', walk v s = Except.ok ((), s') ∧ ForwardPost s v s')
    (l : List Nat) :
    ∀ s, (∀ n, n < N → ∀ m, m ∈ s.node_next n → m < N) → (∀ i ∈ l, i < N) →
      unvisited s N < fuel →
      ∃ s', calc_used_next walk l s = Except.ok ((), s') ∧ ForwardLoopPost s l s' := by
  induction l with
  | nil =>
    intro s _ _ _
    refine ⟨s, rfl, same_but_walk_refl s, fun _ h => h, ?_, ?_, ?_, fun _ => Or.inl rfl⟩
    · intro j hj
      cases hj
    · intro n h1 h2
      exact absurd h2 h1
    · intro n h1 h2
      exact absurd h2 h1
  | cons i rest ihl =>
    intro s hfin hl hf
    unfold calc_used_next
    simp only [bind_run, get_state_run]
    have hl' : ∀ j ∈ rest, j < N := fun j hj => hl j (List.mem_cons_of_mem _ hj)
    by_cases hw : s.node_was i ≠ s.cur_dfs_mark
    · rw [if_pos hw]
      obtain ⟨s1, h1, p1⟩ := ih i s hfin (hl i (List.mem_cons_self _ _)) hw hf
      obtain ⟨e1, e2, e3, _⟩ := same_but_walk_fields p1.frame
      have hfin1 : ∀ n, n < N → ∀ m, m ∈ s1.node_next n → m < N := by
        rw [e1]
        exact hfin
      have hf1 : unvisited s1 N < fuel :=
        Nat.lt_of_le_of_lt (unvisited_mono N e3 p1.grow) hf
      obtain ⟨s2, h2, p2⟩ := ihl s1 hfin1 hl' hf1
      rw [h1]
      simp only []
      rw [h2]
      refine ⟨s2, rfl, same_but_walk_trans p1.frame p2.frame, ?_, ?_, ?_, ?_, ?_⟩
      · intro n hn
        have := p2.grow n (by rw [e3]; exact p1.grow n hn)
        rw [e3] at this
        exact this
      · intro j hj
        rcases List.mem_cons.mp hj with e | hj'
        · subst e
          have := p2.grow j (by rw [e3]; exact p1.visited)
          rw [e3] at this
          exact this
        · have := p2.visited j hj'
          rw [e3] at this
          exact this
      · intro n hn1 hn2 m hm
        by_cases hm1 : s1.node_was n = s.cur_dfs_mark
        · have := p2.grow m (by rw [e3]; exact p1.closed n hn1 hm1 m hm)
          rw [e3] at this
          exact this
        · have := p2.closed n (by rw [e3]; exact hm1) (by rw [e3]; exact hn2) m
            (by rw [e1]; exact hm)
          rw [e3] at this
          exact this
      · intro n hn1 hn2
        by_cases hm1 : s1.node_was n = s.cur_dfs_mark
        · exact ⟨i, List.mem_cons_self _ _, p1.sound n hn1 hm1⟩
        · obtain ⟨j, hj, hr⟩ := p2.sound n (by rw [e3]; exact hm1) (by rw [e3]; exact hn2)
          exact ⟨j, List.mem_cons_of_mem _ hj, (reach_congr e1 j n).mp hr⟩
      · intro n
        rcases p2.only n with c | c
        · rcases p1.only n with d | d
          · exact Or.inl (c.trans d)
          · exact Or.inr (c.trans d)
        · exact Or.inr (by rw [c, e3])
    · rw [if_neg hw]
      have hw' : s.node_was i = s.cur_dfs_mark := by
        by_contra c
        exact hw c
      obtain ⟨s2, h2, p2⟩ := ihl s hfin hl' hf
      simp only [pure_run]
      rw [h2]
      refine ⟨s2, rfl, p2.frame, p2.grow, ?_, p2.closed, ?_, p2.only⟩
      · intro j hj
        rcases List.mem_cons.mp hj with e | hj'
        · subst e
          exact p2.grow j hw'
        · exact p2.visited j hj'
      · intro n hn1 hn2
        obtain ⟨j, hj, hr⟩ := p2.sound n hn1 hn2
        exact ⟨j, List.mem_cons_of_mem _ hj, hr⟩

/-- The forward walk returns on every graph with nodes below `N`, whatever its edges and
markers, when the fuel exceeds the number of unvisited nodes. -/
theorem calc_used_total (N : Nat) (fuel : Nat) :
    ∀ v s, (∀ n, n < N → ∀ m, m ∈ s.node_next n → m < N) → v < N →
      s.node_was v ≠ s.cur_dfs_mark → unvisited s N < fuel →
      ∃ s', calc_used fuel v s = Except.ok ((), s') ∧ ForwardPost s v s' := by
  induction fuel with
  | zero =>
    intro v s _ _ _ hf
    exact absurd hf (Nat.not_lt_zero _)
  | succ fuel ih =>
    intro v s hfin hv hw hf
    have hf0 : unvisited { s with node_was := upd s.node_was v s.cur_dfs_mark } N < fuel := by
      have := unvisited_mark N v hv hw
      omega
    have gr0 : ∀ n, s.node_was n = s.cur_dfs_mark →
        upd s.node_was v s.cur_dfs_mark n = s.cur_dfs_mark := by
      intro n hn
      by_cases e : n = v
      · simp [upd, e]
      · simp [upd, e, hn]
    obtain ⟨s', hl, pl⟩ := calc_used_next_total N fuel (calc_used fuel) ih (s.node_next v)
      { s with node_was := upd s.node_was v s.cur_dfs_mark,
               vertex_usage := confirm_subtrees (s.node_subtrees v) s.vertex_usage }
      hfin (fun i hi => hfin v hv i hi) hf0
    refine ⟨s', ?_, ?_⟩
    · unfold calc_used
      simp only [bind_run, modify_state_run, get_state_run]
      exact hl
    · have fr0 : same_but_walk s
          { s with node_was := upd s.node_was v s.cur_dfs_mark,
                   vertex_usage := confirm_subtrees (s.node_subtrees v) s.vertex_usage } := rfl
      refine ⟨same_but_walk_trans fr0 pl.frame,
        fun n hn => pl.grow n (gr0 n hn), pl.grow v (by simp [upd]), ?_, ?_, ?_⟩
      · intro n hn1 hn2 m hm
        by_cases e : n = v
        · subst e
          exact pl.visited m hm
        · have hn1' : upd s.node_was v s.cur_dfs_mark n ≠ s.cur_dfs_mark := by
            simpa [upd, e] using hn1
          exact pl.closed n hn1' hn2 m hm
      · intro n hn1 hn2
        by_cases e : n = v
        · subst e
          exact Relation.ReflTransGen.refl
        · have hn1' : upd s.node_was v s.cur_dfs_mark n ≠ s.cur_dfs_mark := by
            simpa [upd, e] using hn1
          obtain ⟨j, hj, hr⟩ := pl.sound n hn1' hn2
          exact Relation.ReflTransGen.head hj hr
      · intro n
        rcases pl.only n with c | c
        · by_cases e : n = v
          · subst e
            exact Or.inr (pl.grow n (by simp [upd]))
          · refine Or.inl (c.trans ?_)
            show upd s.node_was v s.cur_dfs_mark n = _
            simp [upd, e]
        · exact Or.inr c

/-- The loop of the forward walk calls the walk on unvisited nodes only: two walks that
agree on the unvisited nodes give the same loop. -/
theorem calc_used_next_skips (walk walk' : Nat → M Unit)
    (h : ∀ i t, t.node_was i ≠ t.cur_dfs_mark → walk i t = walk' i t) :
    ∀ l t, calc_used_next walk l t = calc_used_next walk' l t := by
  intro l
  induction l with
  | nil =>
    intro t
    rfl
  | cons i rest ih =>
    intro t
    unfold calc_used_next
    simp only [bind_run, get_state_run]
    by_cases hw : t.node_was i ≠ t.cur_dfs_mark
    · simp only [if_pos hw, h i t hw]
      cases walk' i t with
      | error e => rfl
      | ok p => exact ih p.2
    · simp only [if_neg hw, pure_run]
      exact ih t

/-- The loop of the search calls the search on unvisited nodes only. -/
theorem search_uninited_next_skips (search search' : Nat → M UsagePtr)
    (h : ∀ i t, t.node_was i ≠ t.cur_dfs_mark → search i t = search' i t) :
    ∀ l t, search_uninited_next search l t = search_uninited_next search' l t := by
  intro l
  induction l with
  | nil =>
    intro t
    rfl
  | cons i rest ih =>
    intro t
    unfold search_uninited_next
    simp only [bind_run, get_state_run]
    by_cases hw : t.node_was i ≠ t.cur_dfs_mark
    · simp only [if_pos hw, bind_run, h i t hw]
      cases search' i t with
      | error e => rfl
      | ok p =>
        dsimp only
        cases p.1.isSome with
        | true => rfl
        | false => exact ih p.2
    · simp only [if_neg hw]
      exact ih t

/-- The backward walk on a marked node unites the two usages and returns: it does not
go to the predecessors of the node. -/
theorem dfs_marked_run (fuel v o m : Nat) (t : CFG) (hm : t.node_mark v = some m) :
    dfs (fuel + 1) v o t = (try_uni_usages o m >>= fun _ => pure ()) t := by
  unfold dfs
  simp only [bind_run, get_state_run, hm]

/-- C31: traversals terminate on cyclic graphs.  On a graph with nodes below `N`, whatever
its edges: the forward walk from an unvisited node returns when the fuel exceeds the number
of unvisited nodes, every visited node stays visited and the start is visited afterwards;
so does the search when the usages attached to the nodes are stored; and the backward walk
with a usage of `x` returns when the fuel exceeds the number of unmarked nodes, and every
mark stays.  The loops of the forward walk and of the search over the successors call the
walk on unvisited nodes only, and the backward walk on a marked node does not go to the
predecessors of the node: a node is expanded when it gets its mark and not again. -/
theorem traversals_terminate (N : Nat) (s : CFG)
    (hnext : ∀ n, n < N → ∀ m, m ∈ s.node_next n → m < N) :
    (∀ fuel v, v < N → s.node_was v ≠ s.cur_dfs_mark → unvisited s N < fuel →
      ∃ s', calc_used fuel v s = Except.ok ((), s') ∧ ForwardPost s v s') ∧
    (∀ x fuel v, v < N → s.node_was v ≠ s.cur_dfs_mark → unvisited s N < fuel →
      (∀ n, n < N → ∀ a, a ∈ s.node_usages n → (s.usage_data a).isSome = true) →
      ∃ r s', search_uninited fuel v x s = Except.ok (r, s') ∧ same_but_was s s' ∧
        (∀ n, s.node_was n = s.cur_dfs_mark → s'.node_was n = s.cur_dfs_mark) ∧
        (r = none → s'.node_was v = s.cur_dfs_mark)) ∧
    (∀ x o fuel v, WalkPre x N s → v < N → (usage_is s x o fun _ => True) →
      unmarked s N < fuel →
      ∃ s', dfs fuel v o s = Except.ok ((), s') ∧
        (∀ n m, s.node_mark n = some m → s'.node_mark n = some m) ∧
        (s'.node_mark v).isSome = true) ∧
    (∀ (walk walk' : Nat → M Unit),
      (∀ i t, t.node_was i ≠ t.cur_dfs_mark → walk i t = walk' i t) →
      ∀ l t, calc_used_next walk l t = calc_used_next walk' l t) ∧
    (∀ (search search' : Nat → M UsagePtr),
      (∀ i t, t.node_was i ≠ t.cur_dfs_mark → search i t = search' i t) →
      ∀ l t, search_uninited_next search l t = search_uninited_next search' l t) ∧
    (∀ fuel v o m t, t.node_mark v = some m →
      dfs (fuel + 1) v o t = (try_uni_usages o m >>= fun _ => pure ()) t) := by
  refine ⟨?_, ?_, ?_, calc_used_next_skips, search_uninited_next_skips, dfs_marked_run⟩
  · intro fuel v hv hw hf
    exact calc_used_total N fuel v s hnext hv hw hf
  · intro x fuel v hv hw hf hU
    obtain ⟨r, s', h, p⟩ := search_uninited_spec x N fuel v s hnext hv hw hf hU
    exact ⟨r, s', h, p.frame, p.grow, p.visited⟩
  · intro x o fuel v hp hv ho hf
    obtain ⟨s', h, w, m, hm, _⟩ := dfs_spec x N o fuel v s hp hv ho hf
    exact ⟨s', h, w.keep, by rw [hm]; rfl⟩

/-- Witness of C31: the forward walk from node 0 of `sample_cycle_graph` returns with fuel
4 and visits the three nodes. -/
theorem traversals_terminate_witness :
    (∀ n, n < 3 → ∀ m, m ∈ sample_cycle_graph.node_next n → m < 3) ∧
    run_ok (calc_used 4 0 sample_cycle_graph) = true ∧
    (List.range 3).map (state_after (calc_used 4 0 sample_cycle_graph)).node_was = [1, 1, 1] ∧
    ∃ s', calc_used 4 0 sample_cycle_graph = Except.ok ((), s') ∧
      s'.node_was 0 = sample_cycle_graph.cur_dfs_mark := by
  have h1 : ∀ n, n < 3 → ∀ m, m ∈ sample_cycle_graph.node_next n → m < 3 := by decide
  obtain ⟨s', h, p⟩ := (traversals_terminate 3 sample_cycle_graph h1).1 4 0 (by decide)
    (by decide) (by decide)
  exact ⟨h1, by decide, by decide, s', h, p.visited⟩

theorem wasGraph_rel : StepRel WasGraph :=
  ⟨fun _ => ⟨rfl, rfl, rfl, rfl, rfl⟩, fun h1 h2 =>
    ⟨h2.1.trans h1.1, h2.2.1.trans h1.2.1, h2.2.2.1.trans h1.2.2.1,
      h2.2.2.2.1.trans h1.2.2.2.1, h2.2.2.2.2.trans h1.2.2.2.2⟩⟩

theorem try_uni_usages_was (a b : Nat) : Preserves WasGraph (try_uni_usages a b) := by
  unfold try_uni_usages
  repeat (first
    | apply preserves_bind wasGraph_rel
    | apply preserves_usage_at wasGraph_rel
    | apply preserves_get_state wasGraph_rel
    | apply preserves_pure wasGraph_rel
    | apply preserves_fail
    | (apply preserves_modify_state; intro _; exact ⟨rfl, rfl, rfl, rfl, rfl⟩)
    | intro _
    | split
    | dsimp only)

theorem dfs_usages_was (usage : Nat) (l : List Nat) (b : Bool) :
    Preserves WasGraph (dfs_usages usage l b) := by
  induction l generalizing b with
  | nil => exact preserves_pure wasGraph_rel _
  | cons a l ih =>
    unfold dfs_usages
    repeat (first
      | apply ih
      | apply try_uni_usages_was
      | apply preserves_bind wasGraph_rel
      | apply preserves_usage_at wasGraph_rel
      | apply preserves_pure wasGraph_rel
      | intro _
      | split
      | dsimp only)

theorem dfs_prev_was (walk : Nat → M Unit) (h : ∀ i, Preserves WasGraph (walk i))
    (l : List Nat) : Preserves WasGraph (dfs_prev walk l) := by
  induction l with
  | nil => exact preserves_pure wasGraph_rel _
  | cons a l ih =>
    unfold dfs_prev
    repeat (first
      | apply ih
      | apply h
      | apply preserves_bind wasGraph_rel
      | intro _)

theorem dfs_was (fuel v usage : Nat) : Preserves WasGraph (dfs fuel v usage) := by
  induction fuel generalizing v with
  | zero => exact preserves_fail _
  | succ fuel ih =>
    unfold dfs
    repeat (first
      | apply dfs_prev_was
      | apply dfs_usages_was
      | apply try_uni_usages_was
      | apply ih
      | apply preserves_bind wasGraph_rel
      | apply preserves_get_state wasGraph_rel
      | apply preserves_pure wasGraph_rel
      | (apply preserves_modify_state; intro _; exact ⟨rfl, rfl, rfl, rfl, rfl⟩)
      | intro _
      | split
      | dsimp only)

theorem process_var_dfs_was (fuel : Nat) (l : List Nat) :
    Preserves WasGraph (process_var_dfs fuel l) := by
  induction l with
  | nil => exact preserves_pure wasGraph_rel _
  | cons a l ih =>
    unfold process_var_dfs
    repeat (first
      | apply ih
      | apply dfs_was
      | apply preserves_bind wasGraph_rel
      | apply preserves_usage_at wasGraph_rel
      | apply preserves_node_id wasGraph_rel
      | intro _)

theorem process_var_number_was (var : VarPtr) (l : List Nat) (cnt : Nat) :
    Preserves WasGraph (process_var_number var l cnt) := by
  induction l generalizing cnt with
  | nil => exact preserves_pure wasGraph_rel _
  | cons a l ih =>
    unfold process_var_number
    repeat (first
      | apply ih
      | apply preserves_bind wasGraph_rel
      | apply preserves_usage_at wasGraph_rel
      | apply preserves_node_id wasGraph_rel
      | apply preserves_get_state wasGraph_rel
      | apply preserves_fail
      | (apply preserves_modify_state; intro _; exact ⟨rfl, rfl, rfl, rfl, rfl⟩)
      | intro _
      | split
      | dsimp only)

theorem process_var_parts_was (var : VarPtr) (l : List Nat) (parts : List (List Vertex)) :
    Preserves WasGraph (process_var_parts var l parts) := by
  induction l generalizing parts with
  | nil => exact preserves_pure wasGraph_rel _
  | cons a l ih =>
    unfold process_var_parts
    repeat (first
      | apply ih
      | apply preserves_bind wasGraph_rel
      | apply preserves_usage_at wasGraph_rel
      | apply preserves_node_id wasGraph_rel
      | apply preserves_get_state wasGraph_rel
      | apply preserves_fail
      | intro _
      | split
      | dsimp only)

/-- The loop of the search over the usages of a node reads the state only. -/
theorem search_uninited_usages_state (var : VarPtr) (l : List Nat) :
    ∀ (b : Bool) (s : CFG) (r : UsagePtr × Bool) (s' : CFG),
      search_uninited_usages var l b s = Except.ok (r, s') → s' = s := by
  induction l with
  | nil =>
    intro b s r s' h
    cases h
    rfl
  | cons a l ih =>
    intro b s r s' h
    unfold search_uninited_usages at h
    obtain ⟨u, s1, h1, h2⟩ := bind_ok_iff.mp h
    obtain ⟨e1, _⟩ := usage_at_ok h1
    subst e1
    simp only [bind_run, get_state_run] at h2
    split at h2
    · split at h2
      · exact ih _ _ _ _ h2
      · split at h2
        · cases h2
          rfl
        · exact ih _ _ _ _ h2
    · exact ih _ _ _ _ h2

theorem search_next_marks (x : VarPtr) (search : Nat → M UsagePtr)
    (ih : ∀ v s r s', search v s = Except.ok (r, s') → SearchMarks v s s') (l : List Nat) :
    ∀ s r s', search_uninited_next search l s = Except.ok (r, s') →
      s'.node_next = s.node_next ∧ s'.current_start = s.current_start ∧
        s'.cur_dfs_mark = s.cur_dfs_mark ∧ s'.node_gen = s.node_gen ∧
        ∀ n, s'.node_was n = s.node_was n ∨
          (s'.node_was n = s.cur_dfs_mark ∧ ∃ i ∈ l, Reach s i n) := by
  induction l with
  | nil =>
    intro s r s' h
    cases h
    exact ⟨rfl, rfl, rfl, rfl, fun _ => Or.inl rfl⟩
  | cons i rest ihl =>
    intro s r s' h
    unfold search_uninited_next at h
    simp only [bind_run, get_state_run] at h
    by_cases hw : s.node_was i ≠ s.cur_dfs_mark
    · simp only [if_pos hw, bind_run] at h
      cases hs : search i s with
      | error e =>
        rw [hs] at h
        cases h
      | ok p =>
        obtain ⟨res, s1⟩ := p
        rw [hs] at h
        dsimp only at h
        obtain ⟨a1, a2, a3, a4, a5⟩ := ih i s res s1 hs
        cases hres : res.isSome with
        | true =>
          rw [hres] at h
          simp only [if_true, pure_run] at h
          cases h
          refine ⟨a1, a2, a3, a4, fun n => ?_⟩
          rcases a5 n with c | ⟨c, d⟩
          · exact Or.inl c
          · exact Or.inr ⟨c, i, List.mem_cons_self _ _, d⟩
        | false =>
          rw [hres] at h
          simp only [Bool.false_eq_true, if_false] at h
          obtain ⟨b1, b2, b3, b4, b5⟩ := ihl s1 r s' h
          refine ⟨b1.trans a1, b2.trans a2, b3.trans a3, b4.trans a4, fun n => ?_⟩
          rcases b5 n with c | ⟨c, j, hj, d⟩
          · rcases a5 n with c' | ⟨c', d'⟩
            · exact Or.inl (c.trans c')
            · exact Or.inr ⟨c.trans c', i, List.mem_cons_self _ _, d'⟩
          · exact Or.inr ⟨by rw [c, a3], j, List.mem_cons_of_mem _ hj,
              (reach_congr a1 j n).mp d⟩
    · simp only [if_neg hw] at h
      obtain ⟨b1, b2, b3, b4, b5⟩ := ihl s r s' h
      refine ⟨b1, b2, b3, b4, fun n => ?_⟩
      rcases b5 n with c | ⟨c, j, hj, d⟩
      · exact Or.inl c
      · exact Or.inr ⟨c, j, List.mem_cons_of_mem _ hj, d⟩

/-- The search marks nodes reachable from its start only. -/
theorem search_marks_reach (x : VarPtr) : ∀ (fuel v : Nat) (s : CFG) (r : UsagePtr) (s' : CFG),
    search_uninited fuel v x s = Except.ok (r, s') → SearchMarks v s s' := by
  intro fuel
  induction fuel with
  | zero =>
    intro v s r s' h
    cases h
  | succ fuel ih =>
    intro v s r s' h
    unfold search_uninited at h
    simp only [bind_run, modify_state_run, get_state_run] at h
    have own : ∀ n, upd s.node_was v s.cur_dfs_mark n = s.node_was n ∨
        (upd s.node_was v s.cur_dfs_mark n = s.cur_dfs_mark ∧ Reach s v n) := by
      intro n
      by_cases e : n = v
      · subst e
        exact Or.inr ⟨by simp [upd], Relation.ReflTransGen.refl⟩
      · exact Or.inl (by simp [upd, e])
    cases hu : search_uninited_usages x (s.node_usages v) false
        { s with node_was := upd s.node_was v s.cur_dfs_mark } with
    | error e =>
      rw [hu] at h
      cases h
    | ok p =>
      obtain ⟨⟨found, flag⟩, s1⟩ := p
      rw [hu] at h
      dsimp only at h
      have e1 := search_uninited_usages_state x _ _ _ _ _ hu
      subst e1
      cases hf : found.isSome with
      | true =>
        rw [hf] at h
        simp only [if_true, pure_run] at h
        cases h
        exact ⟨rfl, rfl, rfl, rfl, own⟩
      | false =>
        rw [hf] at h
        simp only [Bool.false_eq_true, if_false] at h
        cases flag with
        | true =>
          simp only [if_true, pure_run] at h
          cases h
          exact ⟨rfl, rfl, rfl, rfl, own⟩
        | false =>
          simp only [Bool.false_eq_true, if_false] at h
          obtain ⟨b1, b2, b3, b4, b5⟩ := search_next_marks x _
            (fun v s r s' h => ih v s r s' h) (s.node_next v) _ r s' h
          refine ⟨b1, b2, b3, b4, fun n => ?_⟩
          rcases b5 n with c | ⟨c, j, hj, d⟩
          · rcases own n with c' | c'
            · exact Or.inl (c.trans c')
            · exact Or.inr ⟨c.trans c'.1, c'.2⟩
          · exact Or.inr ⟨c, Relation.ReflTransGen.head hj d⟩

theorem visitKeep_rel : StepRel VisitKeep := by
  refine ⟨fun s => ⟨rfl, rfl, Nat.le_refl _, fun _ => Or.inl rfl⟩, ?_⟩
  intro a b c h1 h2
  obtain ⟨a1, a2, a3, a4⟩ := h1
  obtain ⟨b1, b2, b3, b4⟩ := h2
  refine ⟨b1.trans a1, b2.trans a2, Nat.le_trans a3 b3, fun n => ?_⟩
  rcases b4 n with c1 | ⟨c1, v, c2, c3⟩
  · rcases a4 n with d | ⟨d, e⟩
    · exact Or.inl (c1.trans d)
    · exact Or.inr ⟨by rw [c1]; exact d, e⟩
  · exact Or.inr ⟨c1, v, by rw [← a2]; exact c2, (reach_congr a1 v n).mp c3⟩

theorem visitKeep_of_wasGraph (s s' : CFG) (h : WasGraph s s') : VisitKeep s s' :=
  ⟨h.2.1, h.2.2.1, by rw [h.2.2.2.1], fun n => Or.inl (by rw [h.1])⟩

theorem visitKeep_of_dataOnly (s : CFG) (d : CFGData) : VisitKeep s { s with data := d } :=
  ⟨rfl, rfl, Nat.le_refl _, fun _ => Or.inl rfl⟩

theorem process_var_uninited_visit (fuel : Nat) (var : VarPtr) :
    Preserves VisitKeep (process_var_uninited fuel var) := by
  refine ⟨fun s r s' h => ?_⟩
  unfold process_var_uninited at h
  simp only [bind_ok_iff, modify_state_run, get_state_run, Except.ok.injEq, Prod.mk.injEq,
    exists_and_left, exists_eq_left'] at h
  obtain ⟨_, s1, e1, s2, s3, hq1_1⟩ := h
  obtain ⟨e2, start, s4, h3, res, hq1_2⟩ := hq1_1
  obtain ⟨s5, h4, h5⟩ := hq1_2
  obtain ⟨_, rfl⟩ := e1
  obtain ⟨rfl, rfl⟩ := e2
  obtain ⟨e4, hst⟩ := node_id_ok h3
  subst e4
  obtain ⟨b1, b2, b3, b4, b5⟩ := search_marks_reach var fuel start _ res s5 h4
  have key : VisitKeep s s5 := by
    refine ⟨b1, b2, ?_, fun n => ?_⟩
    · rw [b3]
      exact Nat.le_succ _
    · rcases b5 n with c | ⟨c, d⟩
      · exact Or.inl c
      · refine Or.inr ⟨?_, start, hst, d⟩
        rw [c]
        exact Nat.succ_ne_zero _
  cases res with
  | none =>
    cases h5
    exact key
  | some a =>
    simp only [bind_ok_iff] at h5
    obtain ⟨u, s6, h6, h7⟩ := h5
    obtain ⟨e6, _⟩ := usage_at_ok h6
    subst e6
    cases h7
    exact visitKeep_rel.trans key (visitKeep_of_dataOnly _ _)

set_option linter.unusedTactic false in
set_option linter.unreachableTactic false in
theorem process_var_walk_visit (fuel : Nat) (var : VarPtr) :
    Preserves VisitKeep (process_var_walk fuel var) := by
  rw [process_var_walk_block]
  repeat (first
    | exact process_var_uninited_visit _ _
    | exact preserves_mono visitKeep_of_wasGraph (process_var_dfs_was _ _)
    | exact preserves_mono visitKeep_of_wasGraph (process_var_number_was _ _ _)
    | apply preserves_bind visitKeep_rel
    | apply preserves_var_data visitKeep_rel
    | apply preserves_get_state visitKeep_rel
    | apply preserves_pure visitKeep_rel
    | apply preserves_fail
    | (apply preserves_modify_state; intro _;
       exact ⟨rfl, rfl, Nat.le_refl _, fun _ => Or.inl rfl⟩)
    | intro _
    | split
    | dsimp only)

set_option linter.unusedTactic false in
set_option linter.unreachableTactic false in
theorem process_var_unite_visit (fuel : Nat) (var : VarPtr) :
    Preserves VisitKeep (process_var_unite fuel var) := by
  unfold process_var_unite
  repeat (first
    | exact process_var_uninited_visit _ _
    | exact preserves_mono visitKeep_of_wasGraph (process_var_dfs_was _ _)
    | apply preserves_bind visitKeep_rel
    | apply preserves_get_state visitKeep_rel
    | apply preserves_fail
    | (apply preserves_modify_state; intro _;
       exact ⟨rfl, rfl, Nat.le_refl _, fun _ => Or.inl rfl⟩)
    | intro _
    | split
    | dsimp only)

theorem with_data_visit (f : CFGData → Except Err CFGData) : Preserves VisitKeep (with_data f) := by
  refine ⟨fun s r s' h => ?_⟩
  unfold with_data at h
  split at h
  · cases h
    exact visitKeep_of_dataOnly _ _
  · cases h

set_option linter.unusedTactic false in
set_option linter.unreachableTactic false in
theorem process_var_visit (fuel : Nat) (var : VarPtr) :
    Preserves VisitKeep (process_var fuel var) := by
  unfold process_var process_var_build_parts
  repeat (first
    | exact process_var_walk_visit _ _
    | exact with_data_visit _
    | exact preserves_mono visitKeep_of_wasGraph (process_var_parts_was _ _ _)
    | apply preserves_bind visitKeep_rel
    | apply preserves_get_state visitKeep_rel
    | apply preserves_pure visitKeep_rel
    | apply preserves_fail
    | intro _
    | split
    | dsimp only)

theorem live_step {G s s' : CFG} (h : Live G s) (hk : VisitKeep s s') : Live G s' := by
  obtain ⟨a1, a2, a3, start, a4, a5⟩ := h
  obtain ⟨b1, b2, b3, b4⟩ := hk
  refine ⟨b1.trans a1, b2.trans a2, by omega, start, a4, fun n => ?_⟩
  rcases b4 n with c | ⟨c, v, c1, c2⟩
  · rw [c]
    exact a5 n
  · have ev : v = start := by
      rw [a2, a4] at c1
      exact (Option.some.inj c1).symm
    subst ev
    exact ⟨fun _ => (reach_congr a1 v n).mp c2, fun _ => c⟩

/-- After the steps of `process_function` up to the forward walk, the nodes with a non-zero
visit mark are the nodes reachable from the entry. -/
theorem build_live (fuel : Nat) (d : CFGData) (vars : List VarPtr) (G : CFG)
    (hbuild : process_function_build fuel { data := d } = Except.ok (vars, G))
    (hfuel : G.node_gen < fuel) : Live G G := by
  obtain ⟨_, n0, fin, F, hrun, hcalc⟩ := process_function_build_run fuel d vars G hbuild
  have hB := create_cfg_built _ _ _ _ _ _ _ hrun
  have hWs := create_cfg_stable wasStep_stable _ _ _ _ _ _ _ hrun
  obtain ⟨w1, w2, w3, w4, w5, w6, w7, w8, w9, w10⟩ := (calc_used_keep fuel n0).run _ _ _ hcalc
  have he0 : n0 < F.node_gen := by
    have := hB.2.1.2
    simp only [node_code_some] at this
    omega
  have hm : F.cur_dfs_mark = 0 := hWs.1
  have hz : ∀ n, F.node_was n = 0 := by
    intro n
    rcases hWs.2 n with e | e
    · rw [e]
      rfl
    · exact e
  have hfin : ∀ n, n < F.node_gen → ∀ m, m ∈ F.node_next n → m < F.node_gen := by
    intro n hn m hmem
    exact (hB.1.next_local n m (Nat.zero_le _) hn hmem).2
  obtain ⟨S, eS⟩ : ∃ S : CFG,
      S = { F with current_start := some n0, cur_dfs_mark := F.cur_dfs_mark + 1 } := ⟨_, rfl⟩
  rw [← eS] at hcalc
  have s1 : S.node_was = F.node_was := by rw [eS]
  have s2 : S.cur_dfs_mark = F.cur_dfs_mark + 1 := by rw [eS]
  have s3 : S.node_next = F.node_next := by rw [eS]
  have s4 : S.current_start = some n0 := by rw [eS]
  have hfresh : ∀ n, S.node_was n ≠ S.cur_dfs_mark := by
    intro n
    rw [s1, s2, hz n, hm]
    decide
  have hu : unvisited S F.node_gen < fuel := by
    have h1 : unvisited S F.node_gen ≤ F.node_gen := by
      unfold unvisited
      exact le_trans (List.length_filter_le _ _) (by simp)
    have h2 : G.node_gen = F.node_gen := w6
    omega
  obtain ⟨G', hG', p⟩ := calc_used_total F.node_gen fuel n0 S (by rw [s3]; exact hfin) he0
    (hfresh n0) hu
  rw [hcalc] at hG'
  cases hG'
  obtain ⟨e1, _, e3, _, e5, _⟩ := same_but_walk_fields p.frame
  refine ⟨rfl, rfl, ?_, n0, e5.trans s4, fun n => ?_⟩
  · rw [e3, s2]
    exact Nat.succ_pos _
  · constructor
    · intro hn
      have hmk : G.node_was n = S.cur_dfs_mark := by
        rcases p.only n with c | c
        · exact absurd (by rw [c, s1]; exact hz n) hn
        · exact c
      exact (reach_congr e1 n0 n).mpr (p.sound n (hfresh n) hmk)
    · intro hr
      have key : ∀ k, Reach S n0 k → G.node_was k = S.cur_dfs_mark := by
        intro k hk
        induction hk with
        | refl => exact p.visited
        | tail _ hstep ih => exact p.closed _ (hfresh _) ih _ hstep
      have key := key n ((reach_congr e1 n0 n).mp hr)
      rw [key, s2]
      exact Nat.succ_ne_zero _

theorem number_ready_mem {s : CFG} {vs : VarSplitData} {gen : List Nat}
    (h : number_ready s vs gen = true) {i : Nat} (hi : i ∈ gen) :
    ∃ ud n, s.usage_data i = some ud ∧ ud.node = some n := by
  unfold number_ready at h
  have := List.all_eq_true.mp h i hi
  cases e : s.usage_data i with
  | none =>
    rw [e] at this
    cases this
  | some ud =>
    rw [e] at this
    simp only [Bool.and_eq_true] at this
    obtain ⟨n, hn⟩ := Option.isSome_iff_exists.mp this.1
    exact ⟨ud, n, rfl, hn⟩

/-- C35: parts cover exactly the reachable usages.  After the steps of `process_function`
up to the forward walk, with fuel above the number of nodes, the nodes with a non-zero
visit mark are the nodes reachable from the entry, and every run of `process_var`, and of
its statements up to the numbering loop, keeps it so.  In such a state in which the
numbering loop can run on the usages of a variable, let the loop return `cnt` and let the
third loop of `process_var` build the parts: there are `cnt` parts, part `k` lists the
vertices of the usages on visited nodes with partition id `k`; a usage of the variable
lies in a part exactly if its node is reachable from the entry, and then in one part only,
once if the list of usages has no repetition; and every part has a first element. -/
theorem parts_cover_reachable (fuel : Nat) (d : CFGData) (vars : List VarPtr) (G : CFG)
    (hbuild : process_function_build fuel { data := d } = Except.ok (vars, G))
    (hfuel : G.node_gen < fuel) :
    Live G G ∧
    (∀ f var s s', Live G s → process_var f var s = Except.ok ((), s') → Live G s') ∧
    (∀ f var s s0, Live G s → process_var_unite f var s = Except.ok ((), s0) → Live G s0) ∧
    ∀ var s0 vs cnt s1 parts s2 start, Live G s0 → G.current_start = some start →
      get_var_split s0 var = some vs → number_ready s0 vs vs.usage_gen = true →
      process_var_number var vs.usage_gen 0 s0 = Except.ok (cnt, s1) →
      process_var_build_parts var cnt s1 = Except.ok (parts, s2) →
      parts.length = cnt ∧
      (∀ k, k < cnt →
        parts[k]? = some (usage_vertices s1 (part_usages s1 var vs.usage_gen k))) ∧
      (∀ i ∈ vs.usage_gen, ∀ ud n, s0.usage_data i = some ud → ud.node = some n →
        ((∃ k, k < cnt ∧ i ∈ part_usages s1 var vs.usage_gen k) ↔ Reach G start n) ∧
        (∀ j k, i ∈ part_usages s1 var vs.usage_gen j →
          i ∈ part_usages s1 var vs.usage_gen k → j = k)) ∧
      (vs.usage_gen.Nodup → ∀ k, (part_usages s1 var vs.usage_gen k).Nodup) ∧
      (∀ k, k < cnt → ∃ p v, parts[k]? = some p ∧ p.head? = some v) := by
  have hL := build_live fuel d vars G hbuild hfuel
  refine ⟨hL, fun f var s s' hs h => live_step hs ((process_var_visit f var).run _ _ _ h),
    fun f var s s0 hs h => live_step hs ((process_var_unite_visit f var).run _ _ _ h), ?_⟩
  intro var s0 vs cnt s1 parts s2 start hs0 hst hvs hr hn hp
  obtain ⟨s1', h1, h2, h3⟩ := number_run var s0 vs vs.usage_gen hvs hr
  rw [hn] at h1
  cases h1
  obtain ⟨hnd, hmem, _, _⟩ := number_roots_spec (visited_roots s0 vs vs.usage_gen)
  have hsplit : get_var_split s1 var = some vs := by
    unfold get_var_split at hvs ⊢
    rw [h2.2.1]
    exact hvs
  unfold process_var_build_parts at hp
  simp only [bind_run, get_state_run, hsplit] at hp
  obtain ⟨e, hl, hk, _⟩ := process_var_parts_spec _ _ _ _ _ _ hp
  subst e
  have hl' : parts.length = (number_roots (visited_roots s0 vs vs.usage_gen) []).length := by
    rw [hl, List.length_replicate]
  have hpart : ∀ k, k < (number_roots (visited_roots s0 vs vs.usage_gen) []).length →
      parts[k]? = some (usage_vertices s2 (part_usages s2 var vs.usage_gen k)) := by
    intro k hk'
    rw [hk k]
    simp [List.getElem?_replicate, hk']
  have hvis : ∀ i, usage_visited s2 i = usage_visited s0 i := partOnly_visited h2
  obtain ⟨_, _, _, start', q1, q2⟩ := hs0
  have est : start' = start := by
    rw [hst] at q1
    exact (Option.some.inj q1).symm
  subst est
  refine ⟨hl', hpart, ?_, ?_, ?_⟩
  · intro i hi ud n hud hnode
    have hv0 : usage_visited s0 i = (s0.node_was n != 0) := by
      simp [usage_visited, hud, hnode]
    refine ⟨⟨?_, ?_⟩, ?_⟩
    · rintro ⟨k, _, hk2⟩
      simp only [part_usages, List.mem_filter, Bool.and_eq_true] at hk2
      have hv := hk2.2.1
      rw [hvis, hv0] at hv
      exact (q2 n).mp (by simpa using hv)
    · intro hreach
      have hv : usage_visited s0 i = true := by
        rw [hv0]
        simpa using (q2 n).mpr hreach
      obtain ⟨a1, a2⟩ := h3 i hi hv
      refine ⟨_, a2, ?_⟩
      simp only [part_usages, List.mem_filter, Bool.and_eq_true]
      exact ⟨hi, by rw [hvis]; exact hv, by rw [a1]; simp⟩
    · intro j k hj hk2
      simp only [part_usages, List.mem_filter, Bool.and_eq_true, beq_iff_eq] at hj hk2
      have := hj.2.2.symm.trans hk2.2.2
      exact Option.some.inj this
  · intro hnodup k
    exact hnodup.filter _
  · intro k hk'
    have hm := (hmem _).mp (List.getElem_mem hk')
    obtain ⟨i, hi, hv, e⟩ := visited_roots_mem.mp hm
    obtain ⟨a1, _⟩ := h3 i hi hv
    have hik : i ∈ part_usages s2 var vs.usage_gen k := by
      simp only [part_usages, List.mem_filter, Bool.and_eq_true, beq_iff_eq]
      refine ⟨hi, by rw [hvis]; exact hv, ?_⟩
      rw [a1, e, List.indexOf_getElem hnd]
    obtain ⟨ud, n, hud, _⟩ := number_ready_mem hr hi
    obtain ⟨pid, hud2⟩ := partOnly_data h2 hud
    have hne : usage_vertices s2 (part_usages s2 var vs.usage_gen k) ≠ [] := by
      intro hnil
      have hmv : ud.v ∈ usage_vertices s2 (part_usages s2 var vs.usage_gen k) := by
        unfold usage_vertices
        exact List.mem_filterMap.mpr ⟨i, hik, by rw [hud2]; rfl⟩
      rw [hnil] at hmv
      cases hmv
    cases hp' : usage_vertices s2 (part_usages s2 var vs.usage_gen k) with
    | nil => exact absurd hp' hne
    | cons v rest =>
      refine ⟨_, v, hpart k hk', ?_⟩
      rw [hp']
      rfl

/-- Witness of C35: the function
`function f() { $x = 1; echo $x; $x = "s"; echo $x; return; echo $x; }`, built with fuel
30, and its variable `$x` in the state before the numbering loop: the loop and the third
loop of `process_var` return the parts, and each of them has a first element. -/
theorem parts_cover_reachable_witness :
    run_result (process_function_build 30 { data := mk_data sample_dead_usage ["x"] }) =
      some [0] ∧
    (built_state 30 sample_dead_usage ["x"]).node_gen < 30 ∧
    run_result (process_var_unite 30 0 (built_state 30 sample_dead_usage ["x"])) = some () ∧
    ∃ vs cnt s1 parts s2, get_var_split sample_numbering_state 0 = some vs ∧
      process_var_number 0 vs.usage_gen 0 sample_numbering_state = Except.ok (cnt, s1) ∧
      process_var_build_parts 0 cnt s1 = Except.ok (parts, s2) ∧
      parts.length = cnt ∧
      ∀ k, k < cnt → ∃ p v, parts[k]? = some p ∧ p.head? = some v := by
  have h1 : run_result (process_function_build 30
      { data := mk_data sample_dead_usage ["x"] }) = some [0] := by decide!
  have h2 : (built_state 30 sample_dead_usage ["x"]).node_gen < 30 := by decide!
  have h3 : run_result (process_var_unite 30 0 (built_state 30 sample_dead_usage ["x"])) =
      some () := by decide!
  have h4 : (built_state 30 sample_dead_usage ["x"]).current_start = some 0 := by decide!
  have hr : number_ready_of sample_numbering_state 0 = true := by decide!
  have h5 : run_result (process_var_number 0 (usage_gen_of sample_numbering_state 0) 0
      sample_numbering_state) = some 2 := by decide!
  have h6 : run_ok (process_var_build_parts 0 2
      (state_after (process_var_number 0 (usage_gen_of sample_numbering_state 0) 0
        sample_numbering_state))) = true := by decide!
  obtain ⟨hL, _, hU, hP⟩ := parts_cover_reachable 30 (mk_data sample_dead_usage ["x"]) [0]
    (built_state 30 sample_dead_usage ["x"]) (run_eq_of_result _ _ h1) h2
  have hL0 : Live (built_state 30 sample_dead_usage ["x"]) sample_numbering_state :=
    hU 30 0 _ _ hL (run_eq_of_result _ _ h3)
  refine ⟨h1, h2, h3, ?_⟩
  unfold number_ready_of at hr
  unfold usage_gen_of at h5 h6
  cases e : get_var_split sample_numbering_state 0 with
  | none =>
    rw [e] at hr
    cases hr
  | some vs =>
    rw [e] at hr h5 h6
    dsimp only at h5 h6
    have H := hP 0 sample_numbering_state vs 2 _ _ _ 0 hL0 h4 e hr
      (run_eq_of_result _ _ h5) (run_eq_of_ok _ h6)
    exact ⟨vs, 2, _, _, _, rfl, run_eq_of_result _ _ h5, run_eq_of_ok _ h6, H.1, H.2.2.2.2⟩

end kphp
